import Mathlib

/-! # TreeLib (brownie) : tree description reader and derived fields

A shallow embedding of `src/TreeLib/TreeLib.cpp`.

* Nodes live in an arena: a `NodePtr` is an index, `NULL` is `none`, and
  `NewNode` hands out the next unused index.
* `Tree::Parse` is a step function on the reader state, iterated with fuel.
* The tokenizer class (`Parse.h`) and the libc conversions `atoi`/`atof` are not
  part of `TreeLib.cpp`; a token therefore carries its kind, its lexeme and the two
  converted values, and the reader consumes a list of such tokens.
* A `double` or `float` value is a finite number held exactly as a rational, an
  infinity or a NaN; arithmetic rounds to nearest, ties to even (IEEE 754 binary64
  and binary32), and the sign of a zero is not recorded.
-/

namespace TreeLib

/-! ## Floating-point values -/

/-- A value of type `double` or `float`: a finite number, held exactly as a rational,
an infinity (`neg` tells the negative one) or a NaN. The sign of a zero is not
recorded. -/
inductive FP where
  | fin (q : Rat) : FP
  | inf (neg : Bool) : FP
  | nan : FP
  deriving DecidableEq, Repr

/-- Two to the power `e`. -/
def pow2 (e : Int) : Rat :=
  if 0 ≤ e then ((2 ^ e.toNat : Nat) : Rat) else 1 / ((2 ^ (-e).toNat : Nat) : Rat)

/-- The number of halvings that take `n` below 2, at most `fuel` of them. -/
def halvings : Nat → Nat → Nat
  | 0, _ => 0
  | fuel + 1, n => if n < 2 then 0 else halvings fuel (n / 2) + 1

/-- The position of the highest set bit of `n` (0 for `n = 0`). -/
def bitLength (n : Nat) : Nat := halvings n n

/-- The binary exponent of a positive rational `q`: the integer `e` with
`2 ^ e ≤ q < 2 ^ (e + 1)`. -/
def exponentOf (q : Rat) : Int :=
  let e0 : Int := (bitLength q.num.natAbs : Int) - (bitLength q.den : Int)
  if pow2 e0 ≤ q then e0 else e0 - 1

/-- The integer nearest to `r`, the even one of the two when `r` lies half-way between
two integers. -/
def roundHalfEven (r : Rat) : Int :=
  let f := r.floor
  if r - f < 1 / 2 then f
  else if 1 / 2 < r - f then f + 1
  else if f % 2 = 0 then f else f + 1

/-- Rounding of the exact value `q` into a binary floating-point format with `p`
significant bits and exponents from `emin` to `emax`: to the nearest value of the
format, ties to even, with gradual underflow, and to an infinity when the rounded
magnitude reaches `2 ^ (emax + 1)`. -/
def FP.round (p : Nat) (emin emax : Int) (q : Rat) : FP :=
  if q = 0 then FP.fin 0
  else
    let k := max (exponentOf (abs q)) emin - ((p : Int) - 1)
    let v := (roundHalfEven (q / pow2 k) : Rat) * pow2 k
    if pow2 (emax + 1) ≤ abs v then FP.inf (decide (q < 0)) else FP.fin v

/-- The `double` (binary64) nearest to `q`. -/
def FP.double (q : Rat) : FP := FP.round 53 (-1022) 1023 q

/-- The `float` (binary32) nearest to `q`. -/
def FP.single (q : Rat) : FP := FP.round 24 (-126) 127 q

/-- The conversion of a `double` to `float`, as in `float f = atof (...)` and
`float l = p->GetEdgeLength()`. -/
def FP.toFloat : FP → FP
  | FP.fin q => FP.single q
  | x => x

/-- The sum of two `double` values (a `float` operand is widened first, which does
not change it). -/
def FP.add : FP → FP → FP
  | FP.fin a, FP.fin b => FP.double (a + b)
  | FP.fin _, FP.inf n => FP.inf n
  | FP.inf n, FP.fin _ => FP.inf n
  | FP.inf n, FP.inf m => if n = m then FP.inf n else FP.nan
  | FP.nan, _ => FP.nan
  | _, FP.nan => FP.nan

/-- The comparison `a < b`; false when an operand is a NaN. -/
def FP.lt : FP → FP → Bool
  | FP.fin a, FP.fin b => decide (a < b)
  | FP.fin _, FP.inf n => !n
  | FP.inf n, FP.fin _ => n
  | FP.inf n, FP.inf m => n && !m
  | FP.nan, _ => false
  | _, FP.nan => false

instance : OfNat FP n := ⟨FP.fin n⟩

instance : Add FP := ⟨FP.add⟩

instance : LT FP := ⟨fun a b => FP.lt a b = true⟩

instance (a b : FP) : Decidable (a < b) := inferInstanceAs (Decidable (FP.lt a b = true))

/-- The assignment `if (a > m) m = a` as a function of `m` and `a`. -/
instance : Max FP := ⟨fun m a => if m < a then a else m⟩

/-- The `double` constant `0.000001` of `getPathLengths`. -/
def smallLength : FP := FP.double (1 / 1000000)

/-- Modelled from the spec: `atof` is not part of the sources; for a lexeme that
spells the number `q` it gives the `double` nearest to `q`. -/
def atof (q : Rat) : FP := FP.double q

/-! ## Tokens -/

/-- Token kinds that the switch statements of `Tree::Parse` name; `OTHER` stands
for every kind that only the `default:` labels catch. -/
inductive tokentype where
  | SPACE | TAB | NEWLINE | STRING | NUMBER | LPAR | RPAR | COMMA | COLON
  | SEMICOLON | ENDOFSTRING | OTHER
  deriving DecidableEq, Repr

/-- One token as `Tree::Parse` sees it through the tokenizer object `p`:
`kind` is the result of `p.NextToken ()`, `text` is `p.GetToken ()` /
`p.GetTokenAsCstr ()`, `ival` is `atoi` of the lexeme, `fval` is `atof` of the
lexeme and `pos` is `p.GetPos ()` once the token has been read. -/
structure Token where
  kind : tokentype
  text : String
  ival : Int
  fval : FP
  pos : Nat
  deriving DecidableEq, Repr

/-- First character of the lexeme, `p.GetTokenAsCstr()[0]`; the terminating
NUL of an empty C string when the lexeme is empty. -/
def firstChar (t : Token) : Char := t.text.data.headD (Char.ofNat 0)

/-- Modelled from the spec: the tokenizer is missing from the sources; at the end
of the input it yields an end-of-input token with an empty lexeme (on which `atoi`
and `atof` give zero) and does not move the read position. -/
def eosToken (pos : Nat) : Token :=
  { kind := tokentype.ENDOFSTRING, text := "", ival := 0, fval := 0, pos := pos }

/-! ## Nodes and trees -/

/-- Error codes of `Tree::Parse` (`TreeLib.h`), with `errNONE` for `Error = 0`. -/
inductive ErrorCode where
  | errNONE | errSYNTAX | errENDOFSTRING | errMISSINGLPAR | errUNBALANCED
  | errSTACKNOTEMPTY | errSEMICOLON | errTOOMANYMODELCATS
  deriving DecidableEq, Repr

/-- The fields of `Node`, initialised as in `Node::Node ()`. -/
structure Node where
  Child : Option Nat := none
  Anc : Option Nat := none
  Sib : Option Nat := none
  Label : String := ""
  Weight : Int := 0
  ModelCategory : List FP := []
  StateOrder : List Int := []
  StateTimes : List FP := []
  Length : FP := 0
  Leaf : Bool := false
  Height : Int := 0
  Marked : Bool := false
  Depth : Int := 0
  Degree : Int := 0
  PathLength : FP := 0
  LeafNumber : Int := 0
  LabelNumber : Int := 0
  Index : Int := 0
  deriving DecidableEq, Repr

/-- The arena of nodes: the node stored at each address. -/
abbrev Heap := Nat → Node

/-- Overwrite the node at address `p`. -/
def Heap.set (h : Heap) (p : Nat) (n : Node) : Heap :=
  fun q => if q = p then n else h q

/-- Apply `f` to the node at address `p`. -/
def Heap.modify (h : Heap) (p : Nat) (f : Node → Node) : Heap :=
  h.set p (f (h p))

/-- The fields of `Tree` that the embedded member functions read or write. `next`
is the address the next `NewNode ()` returns. -/
structure Tree where
  heap : Heap := fun _ => {}
  next : Nat := 0
  Root : Option Nat := none
  CurNode : Option Nat := none
  Leaves : Int := 0
  Internals : Int := 0
  Error : ErrorCode := ErrorCode.errNONE
  InternalLabels : Bool := false
  EdgeLengths : Bool := false
  MaxPathLength : FP := 0
  MaxHeight : Int := 0
  count : Int := 0

/-- `NewNode ()`: a freshly constructed node at an unused address. -/
def Tree.NewNode (t : Tree) : Nat × Tree :=
  (t.next, { t with heap := t.heap.set t.next {}, next := t.next + 1 })

/-! ## `Tree::Parse` -/

/-- The states of the automaton in `Tree::Parse`. -/
inductive FsmState where
  | stGETNAME | stGETINTERNODE | stNEXTMOVE | stFINISHCHILDREN | stQUIT | stACCEPTED
  deriving DecidableEq, Repr

/-- Everything `Tree::Parse` holds while it runs: the tree object, the automaton
state, the node stack `stk` (top first), the current token and the tokens not yet
read. `oob` records that the SIMMAP table was written at a negative index. -/
structure PState where
  tree : Tree
  cur : Nat
  state : FsmState
  stk : List Nat
  token : Token
  rest : List Token
  oob : Bool := false

/-- The call `token = p.NextToken ()`. -/
def PState.NextToken (s : PState) : PState :=
  match s.rest with
  | [] => { s with token := eosToken s.token.pos }
  | t :: r => { s with token := t, rest := r }

/-- Apply `f` to `CurNode`. -/
def PState.modCur (s : PState) (f : Node → Node) : PState :=
  { s with tree := { s.tree with heap := s.tree.heap.modify s.cur f } }

/-- Assign `Error`. -/
def PState.setError (s : PState) (e : ErrorCode) : PState :=
  { s with tree := { s.tree with Error := e } }

/-- Assign the automaton state. -/
def PState.goto (s : PState) (st : FsmState) : PState :=
  { s with state := st }

/-- Local variables of the SIMMAP block reader together with the token stream. -/
structure SimmapAcc where
  modelvector : List FP
  stateordervector : List Int
  statetimesvector : List FP
  totaledgelength : FP
  tooMany : Bool
  oob : Bool
  token : Token
  rest : List Token

/-- The call `token = p.NextToken ()` inside the SIMMAP loop. -/
def SimmapAcc.NextToken (a : SimmapAcc) : SimmapAcc :=
  match a.rest with
  | [] => { a with token := eosToken a.token.pos }
  | t :: r => { a with token := t, rest := r }

/-- The body of the loop `while (internalmatchchar!='}')` of `Tree::Parse` (lines
515-540 and 676-701). The result says whether the loop goes on (`true`) or was left
by `break` (`false`). -/
def simmapBody (maxModelCategoryStates : Int) (a : SimmapAcc) : Bool × SimmapAcc :=
  let a1 := a.NextToken
  let a2 := if firstChar a1.token = ':' then a1.NextToken else a1
  let state := a2.token.ival
  if state ≥ maxModelCategoryStates then (false, { a2 with tooMany := true })
  else
    let a3 := a2.NextToken
    let a4 := a3.NextToken
    let brleninstate := a4.token.fval
    let a5 : SimmapAcc :=
      { a4 with
        modelvector :=
          if 0 ≤ state then
            a4.modelvector.set state.toNat (a4.modelvector.getD state.toNat 0 + brleninstate)
          else a4.modelvector
        oob := a4.oob || decide (state < 0)
        stateordervector := a4.stateordervector ++ [state]
        statetimesvector := a4.statetimesvector ++ [brleninstate]
        totaledgelength := a4.totaledgelength + brleninstate }
    (true, a5.NextToken)

/-- The loop `while (internalmatchchar!='}')` of `Tree::Parse` (lines 514-541 and
675-702). `none` means that the fuel ran out before the loop was left. -/
def simmapLoop (maxModelCategoryStates : Int) : Nat → SimmapAcc → Option SimmapAcc
  | 0, _ => none
  | fuel + 1, a =>
    if firstChar a.token = '}' then some a
    else
      match simmapBody maxModelCategoryStates a with
      | (false, a1) => some a1
      | (true, a1) => simmapLoop maxModelCategoryStates fuel a1

/-- The `case COLON:` block shared (as duplicated text) by `stNEXTMOVE` and
`stFINISHCHILDREN`: read a SIMMAP block or a plain branch length into `CurNode`. -/
def branchInfo (maxModelCategoryStates : Int) (fuel : Nat) (s0 : PState) : Option PState :=
  let s := s0.NextToken
  if firstChar s.token = '{' then
    let a0 : SimmapAcc :=
      { modelvector := List.replicate maxModelCategoryStates.toNat 0
        stateordervector := []
        statetimesvector := []
        totaledgelength := 0
        tooMany := false
        oob := false
        token := s.token
        rest := s.rest }
    match simmapLoop maxModelCategoryStates fuel a0 with
    | none => none
    | some a =>
      let s1 : PState := { s with token := a.token, rest := a.rest, oob := s.oob || a.oob }
      let s2 := if a.tooMany then s1.setError ErrorCode.errTOOMANYMODELCATS else s1
      let s3 := s2.modCur fun n =>
        { n with Length := a.totaledgelength, ModelCategory := a.modelvector,
                 StateOrder := a.stateordervector, StateTimes := a.statetimesvector }
      let s4 : PState := { s3 with tree := { s3.tree with EdgeLengths := true } }
      some s4.NextToken
  else
    let f := FP.toFloat s.token.fval
    let s3 := s.modCur fun n =>
      { n with Length := f, ModelCategory := [f], StateOrder := [0], StateTimes := [f] }
    let s4 : PState := { s3 with tree := { s3.tree with EdgeLengths := true } }
    some s4.NextToken

/-- `AddWeight (w)` on the node at `p`. -/
def Heap.AddWeight (h : Heap) (p : Nat) (w : Int) : Heap :=
  h.modify p fun n => { n with Weight := n.Weight + w }

/-- `IncrementDegree ()` on the node at `p`. -/
def Heap.IncrementDegree (h : Heap) (p : Nat) : Heap :=
  h.modify p fun n => { n with Degree := n.Degree + 1 }

/-- The `case STRING:` / `case NUMBER:` blocks of `stGETNAME`: `CurNode` becomes a
leaf labelled with the lexeme. -/
def getNameLeaf (s : PState) : PState :=
  let s1 : PState := { s with tree := { s.tree with Leaves := s.tree.Leaves + 1 } }
  let s2 := s1.modCur fun n =>
    { n with Leaf := true, LeafNumber := s1.tree.Leaves, Weight := 1,
             Label := s.token.text, Degree := 0 }
  s2.NextToken.goto FsmState.stGETINTERNODE

/-- The `case COMMA:` block of `stNEXTMOVE` and `stFINISHCHILDREN`. -/
def commaMove (s : PState) : PState :=
  let (q, t1) := s.tree.NewNode
  let h1 := t1.heap.modify s.cur fun n => { n with Sib := some q }
  match s.stk with
  | [] =>
    ({ s with tree := { t1 with heap := h1 } }.setError ErrorCode.errMISSINGLPAR).goto
      FsmState.stQUIT
  | top :: _ =>
    let h2 := h1.modify q fun n => { n with Anc := some top }
    let h3 := h2.AddWeight top (h2 s.cur).Weight
    let h4 := h3.IncrementDegree top
    ({ s with tree := { t1 with heap := h4 }, cur := q }.goto FsmState.stGETNAME).NextToken

/-- The `case LPAR:` block of `stNEXTMOVE`. -/
def lparMove (s : PState) : PState :=
  let t0 : Tree := { s.tree with Internals := s.tree.Internals + 1 }
  let (q, t1) := t0.NewNode
  let h1 := t1.heap.modify s.cur fun n => { n with Child := some q }
  let h2 := h1.modify q fun n => { n with Anc := some s.cur }
  let h3 := h2.IncrementDegree s.cur
  ({ s with tree := { t1 with heap := h3 }, stk := s.cur :: s.stk, cur := q }.NextToken).goto
    FsmState.stGETNAME

/-- The `case RPAR:` block of `stNEXTMOVE` and `stFINISHCHILDREN`; both end in
`stFINISHCHILDREN` when the stack was not empty. -/
def rparMove (s : PState) : PState :=
  match s.stk with
  | [] => (s.setError ErrorCode.errUNBALANCED).goto FsmState.stQUIT
  | q :: stk1 =>
    let h1 := s.tree.heap.AddWeight q (s.tree.heap s.cur).Weight
    ({ s with tree := { s.tree with heap := h1 }, cur := q, stk := stk1 }.goto
      FsmState.stFINISHCHILDREN).NextToken

/-- The `case STRING:` / `case NUMBER:` block of `stFINISHCHILDREN`: the lexeme
becomes the label of the internal node `CurNode`. -/
def labelMove (s : PState) : PState :=
  let s1 : PState := { s with tree := { s.tree with InternalLabels := true } }
  (s1.modCur fun n => { n with Label := s.token.text }).NextToken

/-- One pass through the body of the `while` loop of `Tree::Parse`. `none` means
that the SIMMAP loop did not finish within `fuel` rounds. -/
def step (maxModelCategoryStates : Int) (fuel : Nat) (s : PState) : Option PState :=
  match s.state with
  | FsmState.stGETNAME =>
    match s.token.kind with
    | tokentype.SPACE | tokentype.TAB | tokentype.NEWLINE => some s.NextToken
    | tokentype.STRING | tokentype.NUMBER => some (getNameLeaf s)
    | tokentype.LPAR => some (s.goto FsmState.stNEXTMOVE)
    | tokentype.ENDOFSTRING =>
      some ((s.setError ErrorCode.errENDOFSTRING).goto FsmState.stQUIT)
    | _ => some ((s.setError ErrorCode.errSYNTAX).goto FsmState.stQUIT)
  | FsmState.stGETINTERNODE =>
    match s.token.kind with
    | tokentype.SPACE | tokentype.TAB | tokentype.NEWLINE => some s.NextToken
    | tokentype.COLON | tokentype.COMMA | tokentype.RPAR => some (s.goto FsmState.stNEXTMOVE)
    | tokentype.ENDOFSTRING =>
      some ((s.setError ErrorCode.errENDOFSTRING).goto FsmState.stQUIT)
    | _ => some ((s.setError ErrorCode.errSYNTAX).goto FsmState.stQUIT)
  | FsmState.stNEXTMOVE =>
    match s.token.kind with
    | tokentype.COLON => branchInfo maxModelCategoryStates fuel s
    | tokentype.SPACE | tokentype.TAB | tokentype.NEWLINE => some s.NextToken
    | tokentype.COMMA => some (commaMove s)
    | tokentype.LPAR => some (lparMove s)
    | tokentype.RPAR => some (rparMove s)
    | tokentype.SEMICOLON =>
      match s.stk with
      | [] => some (s.goto FsmState.stACCEPTED)
      | _ :: _ => some ((s.setError ErrorCode.errSTACKNOTEMPTY).goto FsmState.stQUIT)
    | tokentype.ENDOFSTRING =>
      some ((s.setError ErrorCode.errENDOFSTRING).goto FsmState.stQUIT)
    | _ => some ((s.setError ErrorCode.errSYNTAX).goto FsmState.stQUIT)
  | FsmState.stFINISHCHILDREN =>
    match s.token.kind with
    | tokentype.STRING | tokentype.NUMBER => some (labelMove s)
    | tokentype.COLON => branchInfo maxModelCategoryStates fuel s
    | tokentype.SPACE | tokentype.TAB | tokentype.NEWLINE => some s.NextToken
    | tokentype.RPAR => some (rparMove s)
    | tokentype.COMMA => some (commaMove s)
    | tokentype.SEMICOLON => some (s.goto FsmState.stNEXTMOVE)
    | _ =>
      match s.stk with
      | [] => some ((s.setError ErrorCode.errSEMICOLON).goto FsmState.stQUIT)
      | _ :: _ => some ((s.setError ErrorCode.errSYNTAX).goto FsmState.stQUIT)
  | FsmState.stQUIT => some s
  | FsmState.stACCEPTED => some s

/-- The loop `while ((state != stQUIT) && (state != stACCEPTED))`, at most `fuel`
passes. `none` means that the fuel ran out. -/
def run (maxModelCategoryStates : Int) : Nat → PState → Option PState
  | 0, _ => none
  | fuel + 1, s =>
    if s.state = FsmState.stQUIT ∨ s.state = FsmState.stACCEPTED then some s
    else
      match step maxModelCategoryStates fuel s with
      | none => none
      | some s1 => run maxModelCategoryStates fuel s1

/-- The statements of `Tree::Parse` before the loop: reset the counters, create the
first node and read the first token. -/
def parseInit (t : Tree) (descr : List Token) : PState :=
  let t0 : Tree := { t with Root := none, Leaves := 0, Internals := 0,
                            Error := ErrorCode.errNONE }
  let (q, t1) := t0.NewNode
  let s : PState :=
    { tree := { t1 with CurNode := some q, Root := some q }
      cur := q
      state := FsmState.stGETNAME
      stk := []
      token := eosToken 0
      rest := descr }
  s.NextToken

/-- The automaton part of `Tree::Parse`: initialisation and the `while` loop. -/
def parseFsm (maxModelCategoryStates : Int) (fuel : Nat) (t : Tree) (descr : List Token) :
    Option PState :=
  run maxModelCategoryStates fuel (parseInit t descr)

/-- The first statement of `getPathLengths` at the node `p`: unless `p` is the
root, its path length becomes the path length of its ancestor plus its own edge
length, lengths below `0.000001` counting as zero. `none` means that the ancestor
pointer was `NULL` when it was dereferenced. -/
def pathSet (t : Tree) (p : Nat) : Option Tree :=
  if some p ≠ t.Root then
    let l0 := FP.toFloat (t.heap p).Length
    let l := if l0 < smallLength then 0 else l0
    match (t.heap p).Anc with
    | none => none
    | some a =>
      some { t with heap := t.heap.modify p fun n =>
                      { n with PathLength := (t.heap a).PathLength + l } }
  else some t

/-- The second statement of `getPathLengths` at the node `p`: the running
maximum `MaxPathLength`. -/
def pathMax (t : Tree) (p : Nat) : Tree :=
  if (t.heap p).PathLength > t.MaxPathLength then
    { t with MaxPathLength := (t.heap p).PathLength }
  else t

/-- `Tree::getPathLengths (p)`, with the `Tree` fields it touches passed along.
`none` means that the call does not return: the fuel ran out, or the ancestor
pointer of a node other than the root was `NULL` when it was dereferenced. -/
def getPathLengths : Nat → Tree → Option Nat → Option Tree
  | 0, _, _ => none
  | _ + 1, t, none => some t
  | fuel + 1, t, some p =>
    match pathSet t p with
    | none => none
    | some t1 =>
      match getPathLengths fuel (pathMax t1 p) ((pathMax t1 p).heap p).Child with
      | none => none
      | some t3 => getPathLengths fuel t3 (t3.heap p).Sib

/-- `Tree::Parse`: the value returned and the tree object afterwards. `none` means
that the fuel ran out before the function returned. -/
def Parse (maxModelCategoryStates : Int) (fuel : Nat) (t : Tree) (descr : List Token) :
    Option (Int × Tree) :=
  match parseFsm maxModelCategoryStates fuel t descr with
  | none => none
  | some s =>
    if s.state = FsmState.stQUIT then
      some ((s.token.pos : Int), { s.tree with CurNode := some s.cur })
    else
      let t1 : Tree := { s.tree with CurNode := some s.cur }
      match t1.Root with
      | none => none
      | some r =>
        let t2 : Tree :=
          { t1 with heap := t1.heap.modify r fun n => { n with Weight := t1.Leaves } }
        match getPathLengths fuel t2 t2.Root with
        | none => none
        | some t3 => some (0, t3)

/-! ## `Tree::Update` -/

/-- `Tree::buildtraverse (p)`, with the `Tree` object passed along. `none` means
that the call does not return: the fuel ran out, or the ancestor pointer of a node
other than the root was `NULL` when it was dereferenced. -/
def buildtraverse : Nat → Tree → Option Nat → Option Tree
  | 0, _, _ => none
  | _ + 1, t, none => some t
  | fuel + 1, t, some p =>
    let t1 : Tree :=
      { t with heap := t.heap.modify p fun n => { n with Weight := 0, Degree := 0 } }
    match buildtraverse fuel t1 (t1.heap p).Child with
    | none => none
    | some t2 =>
      match buildtraverse fuel t2 (t2.heap p).Sib with
      | none => none
      | some t3 =>
        let t4 : Tree :=
          if (t3.heap p).Leaf then
            { t3 with Leaves := t3.Leaves + 1,
                      heap := t3.heap.modify p fun n => { n with Weight := 1 } }
          else { t3 with Internals := t3.Internals + 1 }
        if some p ≠ t4.Root then
          match (t4.heap p).Anc with
          | none => none
          | some a =>
            some { t4 with heap :=
                     (t4.heap.AddWeight a (t4.heap p).Weight).IncrementDegree a }
        else some t4

/-- `Tree::Update ()`. -/
def Update (fuel : Nat) (t : Tree) : Option Tree :=
  buildtraverse fuel { t with count := 0, Leaves := 0, Internals := 0 } t.Root

/-! ## Shapes: the tree a heap region holds -/

/-- A shape in first-child / next-sibling form: `node x c s` is the node at
address `x`, `c` is the chain of its children and `s` the chain of its younger
siblings. -/
inductive BT where
  | nil : BT
  | node (addr : Nat) (child : BT) (sib : BT) : BT
  deriving DecidableEq, Repr

/-- The pointer to the first node of a chain. -/
def BT.ptr : BT → Option Nat
  | BT.nil => none
  | BT.node x _ _ => some x

/-- All addresses of a chain with the subtrees below it. -/
def BT.addrs : BT → List Nat
  | BT.nil => []
  | BT.node x c s => x :: (c.addrs ++ s.addrs)

/-- Number of nodes. -/
def BT.size : BT → Nat
  | BT.nil => 0
  | BT.node _ c s => 1 + c.size + s.size

/-- Number of nodes on the sibling chain itself: the number of direct children when
the chain is the child chain of a node. -/
def BT.chainLen : BT → Nat
  | BT.nil => 0
  | BT.node _ _ s => 1 + s.chainLen

/-- The heap holds the chain `T` below the ancestor `a`: every node of the chain
has ancestor `a`, its `Child` and `Sib` pointers lead to the shapes recorded, and
the same holds below each node. -/
def Rep (h : Heap) : Option Nat → BT → Prop
  | _, BT.nil => True
  | a, BT.node x c s =>
    (h x).Anc = a ∧ (h x).Child = c.ptr ∧ (h x).Sib = s.ptr ∧ Rep h (some x) c ∧ Rep h a s

/-- Number of nodes flagged as leaves in a chain and below it. -/
def leavesF (h : Heap) : BT → Int
  | BT.nil => 0
  | BT.node x c s => (if (h x).Leaf then 1 else 0) + leavesF h c + leavesF h s

/-- Number of nodes not flagged as leaves in a chain and below it. -/
def internalsF (h : Heap) : BT → Int
  | BT.nil => 0
  | BT.node x c s => (if (h x).Leaf then 0 else 1) + internalsF h c + internalsF h s

/-- Every node's `Weight` is the number of leaf nodes in its subtree (the node
itself and everything below it). -/
def WeightsOK (h : Heap) : BT → Prop
  | BT.nil => True
  | BT.node x c s =>
    (h x).Weight = (if (h x).Leaf then 1 else 0) + leavesF h c ∧ WeightsOK h c ∧ WeightsOK h s

/-- Every node's `Degree` is its number of direct children. -/
def DegreesOK (h : Heap) : BT → Prop
  | BT.nil => True
  | BT.node x c s => (h x).Degree = c.chainLen ∧ DegreesOK h c ∧ DegreesOK h s

/-- Nodes flagged as leaves have no child. -/
def LeavesChildless (h : Heap) : BT → Prop
  | BT.nil => True
  | BT.node x c s =>
    ((h x).Leaf = true → c = BT.nil) ∧ LeavesChildless h c ∧ LeavesChildless h s

/-- A node with `Weight` and `Degree` blanked: two nodes agree on every other field
exactly when their blanked versions are equal. -/
def Node.clearWD (n : Node) : Node := { n with Weight := 0, Degree := 0 }

/-! ## Test inputs -/

/-- A token of kind `k` with lexeme `s` (both conversions give zero). -/
def tk (k : tokentype) (s : String) : Token :=
  { kind := k, text := s, ival := 0, fval := 0, pos := 0 }

/-- A number token with lexeme `s`, which spells the number `f`; `i` is its `atoi`
value. -/
def tnum (s : String) (i : Int) (f : Rat) : Token :=
  { kind := tokentype.NUMBER, text := s, ival := i, fval := atof f, pos := 0 }

/-- Give every token of a list its position in the list, counted from one, as read
position. -/
def withPos : Nat → List Token → List Token
  | _, [] => []
  | n, t :: ts => { t with pos := n + 1 } :: withPos (n + 1) ts

/-- The description `A;` as a token list. -/
def descrSingleLeaf : List Token :=
  withPos 0 [tk tokentype.STRING "A", tk tokentype.SEMICOLON ";"]

/-- The description `(A,B;` as a token list. -/
def descrOpenGroup : List Token :=
  withPos 0 [tk tokentype.LPAR "(", tk tokentype.STRING "A", tk tokentype.COMMA ",",
    tk tokentype.STRING "B", tk tokentype.SEMICOLON ";"]

/-- The description `(A:{n,1.5});` as a token list, `n` being the state id. -/
def descrSimmapOver (n : Int) : List Token :=
  withPos 0 [tk tokentype.LPAR "(", tk tokentype.STRING "A", tk tokentype.COLON ":",
    tk tokentype.OTHER "\x7b", tnum "n" n n, tk tokentype.COMMA ",", tnum "1.5" 1 (3 / 2),
    tk tokentype.OTHER "\x7d", tk tokentype.RPAR ")", tk tokentype.SEMICOLON ";"]

/-- The description `(A:{n,1.5:});` as a token list, `n` being the state id. -/
def descrSimmapOverColon (n : Int) : List Token :=
  withPos 0 [tk tokentype.LPAR "(", tk tokentype.STRING "A", tk tokentype.COLON ":",
    tk tokentype.OTHER "\x7b", tnum "n" n n, tk tokentype.COMMA ",", tnum "1.5" 1 (3 / 2),
    tk tokentype.COLON ":", tk tokentype.OTHER "\x7d", tk tokentype.RPAR ")",
    tk tokentype.SEMICOLON ";"]

/-- What `buildtraverse` leaves behind after running over the chain `T` below the
node `ax`. -/
def BuildPost (t t1 : Tree) (ax : Nat) (T : BT) : Prop :=
  (∀ x, x ∉ T.addrs → x ≠ ax → t1.heap x = t.heap x) ∧
  t1.heap ax = { t.heap ax with Weight := (t.heap ax).Weight + leavesF t.heap T,
                                Degree := (t.heap ax).Degree + T.chainLen } ∧
  (∀ x ∈ T.addrs, (t1.heap x).clearWD = (t.heap x).clearWD) ∧
  WeightsOK t1.heap T ∧ DegreesOK t1.heap T ∧
  t1 = { t with heap := t1.heap, Leaves := t.Leaves + leavesF t.heap T,
                Internals := t.Internals + internalsF t.heap T }

/-- The last part of `buildtraverse`, after the two recursive calls. -/
def buildFinish (t3 : Tree) (x ax : Nat) : Tree :=
  let t4 : Tree :=
    if (t3.heap x).Leaf then
      { t3 with Leaves := t3.Leaves + 1,
                heap := t3.heap.modify x fun n => { n with Weight := 1 } }
    else { t3 with Internals := t3.Internals + 1 }
  { t4 with heap := (t4.heap.AddWeight ax (t4.heap x).Weight).IncrementDegree ax }

/-- Every node flagged as a leaf has `Weight` 1. -/
def LeafWeightsOne (h : Heap) : BT → Prop
  | BT.nil => True
  | BT.node x c s =>
    ((h x).Leaf = true → (h x).Weight = 1) ∧ LeafWeightsOne h c ∧ LeafWeightsOne h s

/-- The tree object `t` holds a well-formed tree of shape `T`: `Root` points to
`T`, which is empty or one node without a sibling; ancestor pointers agree with the
child and sibling chains; no address occurs twice; leaves have no child. -/
def WellFormed (t : Tree) (T : BT) : Prop :=
  t.Root = T.ptr ∧ (T = BT.nil ∨ ∃ r c, T = BT.node r c BT.nil) ∧ Rep t.heap none T ∧
    T.addrs.Nodup ∧ LeavesChildless t.heap T

/-- The state `t1` that `Update` leaves behind when started on `t` holding the
shape `T`. -/
def UpdatePost (t t1 : Tree) (T : BT) : Prop :=
  WellFormed t1 T ∧
  (∀ x ∈ T.addrs, (t1.heap x).clearWD = (t.heap x).clearWD) ∧
  (∀ x, x ∉ T.addrs → t1.heap x = t.heap x) ∧
  WeightsOK t1.heap T ∧ LeafWeightsOne t1.heap T ∧ DegreesOK t1.heap T ∧
  (∀ r, t1.Root = some r → (t1.heap r).Weight = t1.Leaves) ∧
  t1.Leaves = leavesF t1.heap T ∧ t1.Internals = internalsF t1.heap T ∧
  t1.Leaves + t1.Internals = (T.size : Int)

/-- The last part of `buildtraverse` at the root, after the two recursive calls. -/
def buildFinishRoot (t3 : Tree) (x : Nat) : Tree :=
  if (t3.heap x).Leaf then
    { t3 with Leaves := t3.Leaves + 1,
              heap := t3.heap.modify x fun n => { n with Weight := 1 } }
  else { t3 with Internals := t3.Internals + 1 }

/-- A tree object holding the tree `(A,B)` at the addresses 0, 1 and 2, with stale
weights, degrees and counters. -/
def exampleTree : Tree :=
  { heap := fun x =>
      if x = 0 then { Child := some 1, Weight := 7, Degree := 5 }
      else if x = 1 then { Anc := some 0, Sib := some 2, Leaf := true, Label := "A" }
      else if x = 2 then { Anc := some 0, Leaf := true, Label := "B", Weight := 3 }
      else {}
    next := 3
    Root := some 0
    Leaves := 9
    Internals := 4 }

/-- The shape of `exampleTree`. -/
def exampleShape : BT :=
  BT.node 0 (BT.node 1 BT.nil (BT.node 2 BT.nil BT.nil)) BT.nil

/-- The tokens the automaton dispatches on: the token that follows a colon is
left out (it is consumed as the branch length whatever its kind) and the list ends
with the first semicolon met. -/
def dispatched : List Token → List Token
  | [] => []
  | [t] => [t]
  | t :: u :: ts =>
    if t.kind = tokentype.SEMICOLON then [t]
    else if t.kind = tokentype.COLON then t :: dispatched ts
    else t :: dispatched (u :: ts)

/-- Number of tokens of kind `k`. -/
def countKind (k : tokentype) (l : List Token) : Nat :=
  l.countP fun t => t.kind = k

/-- The parentheses of a token list are balanced: as many `(` as `)`, and no
prefix with more `)` than `(`. -/
def ParenBalanced (l : List Token) : Prop :=
  countKind tokentype.LPAR l = countKind tokentype.RPAR l ∧
    ∀ n, countKind tokentype.RPAR (l.take n) ≤ countKind tokentype.LPAR (l.take n)

/-- No token starts a SIMMAP block. -/
def NoSimmap (l : List Token) : Prop :=
  ∀ t ∈ l, firstChar t ≠ '{'

/-- Checker for balance, starting with `d` groups open. -/
def parenBalancedFrom : Nat → List Token → Bool
  | d, [] => d == 0
  | d, t :: ts =>
    match t.kind with
    | tokentype.LPAR => parenBalancedFrom (d + 1) ts
    | tokentype.RPAR => decide (0 < d) && parenBalancedFrom (d - 1) ts
    | _ => parenBalancedFrom d ts

/-- The description `A:(;` as a token list. -/
def descrColonLpar : List Token :=
  withPos 0 [tk tokentype.STRING "A", tk tokentype.COLON ":", tk tokentype.LPAR "(",
    tk tokentype.SEMICOLON ";"]

/-- The description `((A:1,B:2):3,C:4);` as a token list, without SIMMAP block. -/
def descrNested : List Token :=
  withPos 0 [tk tokentype.LPAR "(", tk tokentype.LPAR "(", tk tokentype.STRING "A",
    tk tokentype.COLON ":", tnum "1" 1 1, tk tokentype.COMMA ",", tk tokentype.STRING "B",
    tk tokentype.COLON ":", tnum "2" 2 2, tk tokentype.RPAR ")", tk tokentype.COLON ":",
    tnum "3" 3 3, tk tokentype.COMMA ",", tk tokentype.STRING "C", tk tokentype.COLON ":",
    tnum "4" 4 4, tk tokentype.RPAR ")", tk tokentype.SEMICOLON ";"]

/-- The automaton ends in `stACCEPTED` within the fuel. -/
def Accepts (cap : Int) (fuel : Nat) (t : Tree) (descr : List Token) : Prop :=
  (parseFsm cap fuel t descr).map (fun s => s.state) = some FsmState.stACCEPTED

/-- The current token followed by the unread ones. -/
def PState.stream (s : PState) : List Token := s.token :: s.rest

/-- The automaton gets from `s` to `s1` by passes of the loop. -/
inductive Reach (cap : Int) : PState → PState → Prop where
  | refl (s : PState) : Reach cap s s
  | step (fuel : Nat) (s s1 s2 : PState) (hq : s.state ≠ FsmState.stQUIT)
      (ha : s.state ≠ FsmState.stACCEPTED) (h1 : step cap fuel s = some s1)
      (h2 : Reach cap s1 s2) : Reach cap s s2

/-- One SIMMAP segment `integer ',' numeric`: the state token, the comma and the
time token. -/
structure Seg where
  state : Token
  comma : Token
  time : Token

/-- The tokens of a segment. -/
def Seg.render (g : Seg) : List Token := [g.state, g.comma, g.time]

/-- The optional `branchinfo` of a node: nothing, `':' numeric-edge-length`, or
`':' '{' simmap-segment+ '}'` where the first segment may start with a colon and
each further segment is introduced by a colon, as in `{s1,t1:s2,t2}`. -/
inductive Branch where
  | absent : Branch
  | length (colon num : Token) : Branch
  | simmap (colon lbrace : Token) (lead : Option Token) (first : Seg)
      (more : List (Token × Seg)) (rbrace : Token) : Branch

/-- The tokens of the further segments of a SIMMAP block. -/
def renderMore : List (Token × Seg) → List Token
  | [] => []
  | (sep, g) :: l => sep :: g.render ++ renderMore l

/-- The tokens of a `branchinfo`. -/
def Branch.render : Branch → List Token
  | Branch.absent => []
  | Branch.length c n => [c, n]
  | Branch.simmap c o lead f more cl =>
    c :: o :: lead.toList ++ f.render ++ renderMore more ++ [cl]

/-- A parse tree in first-child / next-sibling form. `leaf` is
`identifier-or-number [branchinfo]`; `internal` is
`'(' node (',' node)* ')' [label] [branchinfo]` with `child` the chain of the nodes
between the parentheses. `sib` is the chain of the following siblings and `comma`
the comma that precedes it (not rendered when there is no sibling). -/
inductive PT where
  | nil : PT
  | leaf (name : Token) (bi : Branch) (comma : Token) (sib : PT) : PT
  | internal (lpar : Token) (child : PT) (rpar : Token) (label : Option Token)
      (bi : Branch) (comma : Token) (sib : PT) : PT

/-- The chain is empty. -/
def PT.isNil : PT → Bool
  | PT.nil => true
  | _ => false

/-- The tokens of a chain of nodes, separated by commas. -/
def PT.render : PT → List Token
  | PT.nil => []
  | PT.leaf name bi comma sib =>
    name :: bi.render ++ (if sib.isNil then [] else comma :: sib.render)
  | PT.internal lpar child rpar label bi comma sib =>
    lpar :: child.render ++ rpar :: label.toList ++ bi.render ++
      (if sib.isNil then [] else comma :: sib.render)

/-- A colon token: kind `COLON`, lexeme starting with a colon. -/
def IsColon (t : Token) : Prop := t.kind = tokentype.COLON ∧ firstChar t = ':'

/-- An `identifier-or-number` token. -/
def IsName (t : Token) : Prop := t.kind = tokentype.STRING ∨ t.kind = tokentype.NUMBER

/-- A number token inside a `branchinfo`: kind `NUMBER`, and a lexeme that does not
start with a colon or a brace. -/
def IsNum (t : Token) : Prop :=
  t.kind = tokentype.NUMBER ∧ firstChar t ≠ ':' ∧ firstChar t ≠ '{' ∧ firstChar t ≠ '}'

/-- Modelled from the spec: the tokenizer is missing from the sources; a brace is
taken to be a one-character token of a kind that `Tree::Parse` does not name. -/
def IsBrace (c : Char) (t : Token) : Prop := t.kind = tokentype.OTHER ∧ firstChar t = c

/-- The tokens of a segment have the kinds the grammar asks for. -/
def Seg.Valid (g : Seg) : Prop :=
  IsNum g.state ∧ g.comma.kind = tokentype.COMMA ∧ IsNum g.time

/-- The tokens of a `branchinfo` have the kinds the grammar asks for. -/
def Branch.Valid : Branch → Prop
  | Branch.absent => True
  | Branch.length c n => IsColon c ∧ IsNum n
  | Branch.simmap c o lead f more cl =>
    IsColon c ∧ IsBrace '{' o ∧ (∀ l ∈ lead, IsColon l) ∧ f.Valid ∧
      (∀ p ∈ more, IsColon p.1 ∧ p.2.Valid) ∧ IsBrace '}' cl

/-- The tokens of a chain have the kinds the grammar asks for, and every internal
node has at least one child. -/
def PT.Valid : PT → Prop
  | PT.nil => True
  | PT.leaf name bi comma sib =>
    IsName name ∧ bi.Valid ∧ (sib.isNil = false → comma.kind = tokentype.COMMA) ∧ sib.Valid
  | PT.internal lpar child rpar label bi comma sib =>
    lpar.kind = tokentype.LPAR ∧ child.isNil = false ∧ child.Valid ∧
      rpar.kind = tokentype.RPAR ∧ (∀ l ∈ label, IsName l) ∧ bi.Valid ∧
      (sib.isNil = false → comma.kind = tokentype.COMMA) ∧ sib.Valid

/-- The chain is a single node without sibling. -/
def PT.single : PT → Bool
  | PT.nil => false
  | PT.leaf _ _ _ sib => sib.isNil
  | PT.internal _ _ _ _ _ _ sib => sib.isNil

/-- The description `descr` is derived from the grammar `tree := node ';'` with
parse tree `root`. -/
def Derives (root : PT) (descr : List Token) : Prop :=
  root.Valid ∧ root.single = true ∧
    ∃ semi : Token, semi.kind = tokentype.SEMICOLON ∧ descr = root.render ++ [semi]

/-- Number of nodes of a chain and below. -/
def PT.size : PT → Nat
  | PT.nil => 0
  | PT.leaf _ _ _ sib => 1 + sib.size
  | PT.internal _ child _ _ _ _ sib => 1 + child.size + sib.size

/-- Number of leaves of a chain and below. -/
def PT.leaves : PT → Nat
  | PT.nil => 0
  | PT.leaf _ _ _ sib => 1 + sib.leaves
  | PT.internal _ child _ _ _ _ sib => child.leaves + sib.leaves

/-- Number of internal nodes of a chain and below. -/
def PT.internals : PT → Nat
  | PT.nil => 0
  | PT.leaf _ _ _ sib => sib.internals
  | PT.internal _ child _ _ _ _ sib => 1 + child.internals + sib.internals

/-- Number of nodes on the chain itself. -/
def PT.chainLen : PT → Nat
  | PT.nil => 0
  | PT.leaf _ _ _ sib => 1 + sib.chainLen
  | PT.internal _ _ _ _ _ _ sib => 1 + sib.chainLen

/-- The leaf-label tokens of a chain and below, in input order. -/
def PT.leafTokens : PT → List Token
  | PT.nil => []
  | PT.leaf name _ _ sib => name :: sib.leafTokens
  | PT.internal _ child _ _ _ _ sib => child.leafTokens ++ sib.leafTokens

/-- The node has a `branchinfo`. -/
def Branch.present : Branch → Bool
  | Branch.absent => false
  | _ => true

/-- Some node of the chain or below has a `branchinfo`. -/
def PT.hasBranch : PT → Bool
  | PT.nil => false
  | PT.leaf _ bi _ sib => bi.present || sib.hasBranch
  | PT.internal _ child _ _ bi _ sib =>
    bi.present || child.hasBranch || sib.hasBranch

/-- The update `modelvector[state]+=brleninstate` of the SIMMAP table, for a state
id that is not negative; a negative id leaves the table as it is. -/
def tableAdd (mv : List FP) (p : Int × FP) : List FP :=
  if 0 ≤ p.1 then mv.set p.1.toNat (mv.getD p.1.toNat 0 + p.2) else mv

/-- The (state, time) pair a segment stands for. -/
def Seg.value (g : Seg) : Int × FP := (g.state.ival, g.time.fval)

/-- The accumulator of the SIMMAP loop after one more segment was read and the
token `nxt` behind it was fetched. -/
def SimmapAcc.push (a : SimmapAcc) (v : Int × FP) (nxt : Token) (rest : List Token) :
    SimmapAcc :=
  { modelvector := tableAdd a.modelvector v
    stateordervector := a.stateordervector ++ [v.1]
    statetimesvector := a.statetimesvector ++ [v.2]
    totaledgelength := a.totaledgelength + v.2
    tooMany := a.tooMany
    oob := a.oob || decide (v.1 < 0)
    token := nxt
    rest := rest }

/-- The accumulator after the loop was left by `break` at the state token `tok`. -/
def SimmapAcc.broken (a : SimmapAcc) (tok : Token) (rest : List Token) : SimmapAcc :=
  { a with token := tok, rest := rest, tooMany := true }

/-- The accumulator after the segments `vs`. -/
def SimmapAcc.pushAll (a : SimmapAcc) (vs : List (Int × FP)) (nxt : Token)
    (rest : List Token) : SimmapAcc :=
  { modelvector := vs.foldl tableAdd a.modelvector
    stateordervector := a.stateordervector ++ vs.map Prod.fst
    statetimesvector := a.statetimesvector ++ vs.map Prod.snd
    totaledgelength := (vs.map Prod.snd).foldl (fun x y => x + y) a.totaledgelength
    tooMany := a.tooMany
    oob := a.oob || vs.any fun v => decide (v.1 < 0)
    token := nxt
    rest := rest }

/-- The (state, time) pairs of the further segments of a block. -/
def moreValues (more : List (Token × Seg)) : List (Int × FP) :=
  more.map fun p => p.2.value

/-- Outcome of the SIMMAP loop on a block: either all segments were read (`r` is
the accumulator `good`), or the loop was left by `break` at a state token, with the
rest of the block still unread. -/
def SimmapOutcome (cap : Int) (r good : SimmapAcc) (allIn : Prop) (cl : Token)
    (tail : List Token) : Prop :=
  (r = good ∧ allIn) ∨
  (r.tooMany = true ∧ ∃ (g : Seg) (more1 : List (Token × Seg)),
    r.token = g.state ∧ r.rest = g.comma :: g.time :: (renderMore more1 ++ cl :: tail) ∧
    g.comma.kind = tokentype.COMMA ∧ IsNum g.time ∧
    (∀ p ∈ more1, IsColon p.1 ∧ p.2.Valid) ∧ ¬ g.state.ival < cap)

/-- The (state, time) pairs of a SIMMAP block. -/
def segValues (first : Seg) (more : List (Token × Seg)) : List (Int × FP) :=
  first.value :: moreValues more

/-- What reading a `branchinfo` does to the fields of `CurNode`. -/
def Branch.apply (cap : Int) : Branch → Node → Node
  | Branch.absent, n => n
  | Branch.length _ num, n =>
    { n with Length := FP.toFloat num.fval, ModelCategory := [FP.toFloat num.fval],
             StateOrder := [0], StateTimes := [FP.toFloat num.fval] }
  | Branch.simmap _ _ _ first more _, n =>
    { n with Length := ((segValues first more).map Prod.snd).foldl (fun x y => x + y) 0,
             ModelCategory := (segValues first more).foldl tableAdd
               (List.replicate cap.toNat 0),
             StateOrder := (segValues first more).map Prod.fst,
             StateTimes := (segValues first more).map Prod.snd }

/-- All SIMMAP state ids of a `branchinfo` are below the capacity. -/
def Branch.InRange (cap : Int) : Branch → Prop
  | Branch.simmap _ _ _ first more _ =>
    first.state.ival < cap ∧ ∀ p ∈ more, p.2.state.ival < cap
  | _ => True

/-- The state `s1` reached from `s` once the `branchinfo` `bi` of `CurNode` was
read, `tail` being the tokens behind it. -/
def BranchPost (cap : Int) (bi : Branch) (s s1 : PState) (tail : List Token) : Prop :=
  s1.state = s.state ∧ s1.cur = s.cur ∧ s1.stk = s.stk ∧ s1.stream = tail ∧
    bi.InRange cap ∧
    s1.tree = { s.tree with heap := s.tree.heap.modify s.cur (bi.apply cap),
                            EdgeLengths := true }

/-- The state after the `branchinfo` `bi` of `CurNode` was read: `u` is the token
behind it, `r` the tokens not yet read, `oob` the new out-of-bounds flag. -/
def PState.withBranch (cap : Int) (bi : Branch) (s : PState) (oob : Bool) (u : Token)
    (r : List Token) : PState :=
  { s with
    tree := { s.tree with heap := s.tree.heap.modify s.cur (bi.apply cap), EdgeLengths := true }
    token := u
    rest := r
    oob := oob }

/-- The lexeme of an optional label token; the empty string when there is none. -/
def labelText : Option Token → String
  | none => ""
  | some l => l.text

/-- Pointer to the sibling chain `sib` when it starts at address `x`. -/
def sibPtr (x : Nat) (sib : PT) : Option Nat := if sib.isNil then none else some x

/-- The node `Tree::Parse` builds for a leaf: ancestor `a`, sibling pointer `sib`,
leaf number `ln`. -/
def expLeaf (cap : Int) (a sib : Option Nat) (name : Token) (bi : Branch) (ln : Int) : Node :=
  bi.apply cap
    { Anc := a, Sib := sib, Label := name.text, Leaf := true, Weight := 1, LeafNumber := ln }

/-- The node `Tree::Parse` builds for an internal node at address `x` whose
children form the chain `child`. -/
def expInternal (cap : Int) (a : Option Nat) (x : Nat) (sib : Option Nat) (child : PT)
    (label : Option Token) (bi : Branch) : Node :=
  bi.apply cap
    { Anc := a, Child := some (x + 1), Sib := sib, Label := labelText label,
      Weight := child.leaves, Degree := child.chainLen }

/-- The heap holds, from address `x` on and in input order, the nodes of the chain
`F` below the ancestor `a`, exactly as `Tree::Parse` builds them; `L` is the number
of leaves read before the chain. -/
def Matches (cap : Int) (h : Heap) : Option Nat → Nat → Int → PT → Prop
  | _, _, _, PT.nil => True
  | a, x, L, PT.leaf name bi _ sib =>
    h x = expLeaf cap a (sibPtr (x + 1) sib) name bi (L + 1) ∧
      Matches cap h a (x + 1) (L + 1) sib
  | a, x, L, PT.internal _ child _ label bi _ sib =>
    h x = expInternal cap a x (sibPtr (x + 1 + child.size) sib) child label bi ∧
      Matches cap h (some x) (x + 1) L child ∧
      Matches cap h a (x + 1 + child.size) (L + child.leaves) sib

/-- All SIMMAP state ids in a chain and below are under the capacity. -/
def PT.InRange (cap : Int) : PT → Prop
  | PT.nil => True
  | PT.leaf _ bi _ sib => bi.InRange cap ∧ sib.InRange cap
  | PT.internal _ child _ _ bi _ sib =>
    child.InRange cap ∧ bi.InRange cap ∧ sib.InRange cap

/-- The state `s1` reached from `s` when a chain `F` of children of the node `a`
was read up to and including the closing parenthesis; the first node of the chain
sits at address `x`, `tail` is what follows the parenthesis. -/
def ForestPost (cap : Int) (s s1 : PState) (a x : Nat) (stk : List Nat) (F : PT)
    (tail : List Token) : Prop :=
  s1.state = FsmState.stFINISHCHILDREN ∧ s1.cur = a ∧ s1.stk = stk ∧ s1.stream = tail ∧
  s1.tree.next = x + F.size ∧ s1.tree.Leaves = s.tree.Leaves + F.leaves ∧
  s1.tree.Internals = s.tree.Internals + F.internals ∧ s1.tree.Root = s.tree.Root ∧
  s1.tree.EdgeLengths = (s.tree.EdgeLengths || F.hasBranch) ∧
  Matches cap s1.tree.heap (some a) x s.tree.Leaves F ∧
  (∀ y, y < x → y ≠ a → s1.tree.heap y = s.tree.heap y) ∧
  s1.tree.heap a =
    { s.tree.heap a with Weight := (s.tree.heap a).Weight + F.leaves,
                         Degree := (s.tree.heap a).Degree + ((F.chainLen : Int) - 1) } ∧
  F.InRange cap

/-- The state `s1` reached from `s` when the node at address `x` (the current
node of `s`) was read with its label and `branchinfo`, but before the comma,
parenthesis or semicolon behind it (`tail`) is looked at. `exp` is the node built,
`child` the chain of its children. -/
def NodePost (cap : Int) (s s1 : PState) (x : Nat) (exp : Node) (child : PT) (bi : Branch)
    (isLeaf : Bool) (tail : List Token) : Prop :=
  (s1.state = (if isLeaf then
      (if bi.present then FsmState.stNEXTMOVE else FsmState.stGETINTERNODE)
    else FsmState.stFINISHCHILDREN)) ∧
  s1.cur = x ∧ s1.stk = s.stk ∧ s1.stream = tail ∧
  s1.tree.next = s.tree.next + child.size ∧
  s1.tree.Leaves = s.tree.Leaves + (if isLeaf then 1 else 0) + child.leaves ∧
  s1.tree.Internals = s.tree.Internals + (if isLeaf then 0 else 1) + child.internals ∧
  s1.tree.Root = s.tree.Root ∧
  s1.tree.EdgeLengths = (s.tree.EdgeLengths || bi.present || child.hasBranch) ∧
  s1.tree.heap x = exp ∧
  Matches cap s1.tree.heap (some x) (x + 1) s.tree.Leaves child ∧
  (∀ y, y < x → s1.tree.heap y = s.tree.heap y) ∧
  bi.InRange cap ∧ child.InRange cap

/-- What reading an optional internal label does to the fields of `CurNode`. -/
def applyLabel (label : Option Token) (n : Node) : Node :=
  match label with
  | none => n
  | some l => { n with Label := l.text }

/-- The state `s1` reached from `s` (in `stFINISHCHILDREN`) once the optional
label and the optional `branchinfo` of the internal node `CurNode` were read. -/
def LabelBranchPost (cap : Int) (label : Option Token) (bi : Branch) (s s1 : PState)
    (tail : List Token) : Prop :=
  s1.state = FsmState.stFINISHCHILDREN ∧ s1.cur = s.cur ∧ s1.stk = s.stk ∧ s1.stream = tail ∧
    bi.InRange cap ∧
    s1.tree =
      { s.tree with
        heap := s.tree.heap.modify s.cur fun n => bi.apply cap (applyLabel label n)
        EdgeLengths := s.tree.EdgeLengths || bi.present
        InternalLabels := s.tree.InternalLabels || label.isSome }

/-- The statement proved for every chain of children by induction: from the first
token of the chain the automaton reads the whole chain and its closing
parenthesis, or quits. -/
def ForestClaim (cap : Int) (F : PT) : Prop :=
  ∀ (s : PState) (a x : Nat) (stk : List Nat) (rpar : Token) (tail : List Token),
    F.isNil = false → F.Valid → s.state = FsmState.stGETNAME → s.cur = x →
    s.stk = a :: stk → s.stream = F.render ++ rpar :: tail → rpar.kind = tokentype.RPAR →
    tail ≠ [] → s.tree.next = x + 1 → s.tree.heap x = { Anc := some a } → a < x →
    ∃ s1, Reach cap s s1 ∧ (s1.state = FsmState.stQUIT ∨ ForestPost cap s s1 a x stk F tail)

/-- The state `s2` reached from `s1` (just behind the node at `x`, a child of `a`)
when the following siblings `sib` and the closing parenthesis were read; `n` is the
number of nodes of the subtree at `x` and `w` its weight. -/
def ChainRestPost (cap : Int) (s1 s2 : PState) (a x n : Nat) (w : Int) (stk : List Nat)
    (sib : PT) (tail : List Token) : Prop :=
  s2.state = FsmState.stFINISHCHILDREN ∧ s2.cur = a ∧ s2.stk = stk ∧ s2.stream = tail ∧
  s2.tree.next = x + n + sib.size ∧ s2.tree.Leaves = s1.tree.Leaves + sib.leaves ∧
  s2.tree.Internals = s1.tree.Internals + sib.internals ∧ s2.tree.Root = s1.tree.Root ∧
  s2.tree.EdgeLengths = (s1.tree.EdgeLengths || sib.hasBranch) ∧
  s2.tree.heap x = { s1.tree.heap x with Sib := sibPtr (x + n) sib } ∧
  Matches cap s2.tree.heap (some a) (x + n) s1.tree.Leaves sib ∧
  (∀ y, y < x + n → y ≠ a → y ≠ x → s2.tree.heap y = s1.tree.heap y) ∧
  s2.tree.heap a =
    { s1.tree.heap a with Weight := (s1.tree.heap a).Weight + w + sib.leaves,
                          Degree := (s1.tree.heap a).Degree + sib.chainLen } ∧
  sib.InRange cap

/-- The accepted state `s1` that `Tree::Parse` reaches on a description derived
from the parse tree `root`, started on the tree object `t`. -/
def RootPost (cap : Int) (t : Tree) (root : PT) (s1 : PState) : Prop :=
  s1.state = FsmState.stACCEPTED ∧ s1.cur = t.next ∧ s1.stk = [] ∧
  s1.tree.Root = some t.next ∧ s1.tree.next = t.next + root.size ∧
  s1.tree.Leaves = root.leaves ∧ s1.tree.Internals = root.internals ∧
  s1.tree.EdgeLengths = (t.EdgeLengths || root.hasBranch) ∧
  Matches cap s1.tree.heap none t.next 0 root ∧
  (∀ y, y < t.next → s1.tree.heap y = t.heap y) ∧ root.InRange cap

/-- The root of the parse tree is an internal node, or a leaf with a
`branchinfo`. -/
def PT.rootReadable : PT → Bool
  | PT.nil => false
  | PT.leaf _ bi _ _ => bi.present
  | PT.internal _ _ _ _ _ _ _ => true

/-- The tree object `t1` differs from `t` at most in the `PathLength` fields of
the nodes and in `MaxPathLength`. -/
def PathFrame (t t1 : Tree) : Prop :=
  (∀ x, t1.heap x = { t.heap x with PathLength := (t1.heap x).PathLength }) ∧
    t1 = { t with heap := t1.heap, MaxPathLength := t1.MaxPathLength }

/-- The shape of the chain `F` when its first node sits at address `x` and the
nodes follow each other in input order. -/
def PT.shape : Nat → PT → BT
  | _, PT.nil => BT.nil
  | x, PT.leaf _ _ _ sib => BT.node x BT.nil (sib.shape (x + 1))
  | x, PT.internal _ child _ _ _ _ sib =>
    BT.node x (child.shape (x + 1)) (sib.shape (x + 1 + child.size))

/-- A node with `PathLength` blanked. -/
def Node.clearPL (n : Node) : Node := { n with PathLength := 0 }

/-- The heap with every `PathLength` blanked. -/
def Heap.clearPL (h : Heap) : Heap := fun x => (h x).clearPL

/-- The tree object as `Tree::Parse` leaves the loop in the accepted state `s`,
with the weight of the root `r` set to `Leaves`, before the path lengths are
computed. -/
def acceptedTree (s : PState) (r : Nat) : Tree :=
  { s.tree with
    CurNode := some s.cur
    heap := s.tree.heap.modify r fun n => { n with Weight := s.tree.Leaves } }

/-- The tree object `t1` that `Tree::Parse` returns for a description derived from
the parse tree `root`, when it was called on the tree object `t`: the nodes of
`root` sit at the addresses from `t.next` on, in input order, exactly as built
(path lengths aside). -/
def ParsedTree (cap : Int) (t : Tree) (root : PT) (t1 : Tree) : Prop :=
  t1.Root = some t.next ∧ t1.next = t.next + root.size ∧
  t1.Leaves = root.leaves ∧ t1.Internals = root.internals ∧
  t1.EdgeLengths = (t.EdgeLengths || root.hasBranch) ∧
  Matches cap t1.heap.clearPL none t.next 0 root ∧ root.InRange cap

/-- Nodes flagged as leaves have no child (neither in the shape nor in the `Child`
pointer) and degree 0. -/
def LeavesBare (h : Heap) : BT → Prop
  | BT.nil => True
  | BT.node x c s =>
    ((h x).Leaf = true → c = BT.nil ∧ (h x).Child = none ∧ (h x).Degree = 0) ∧
      LeavesBare h c ∧ LeavesBare h s

/-- The leaves among the `n` nodes stored from address `x` on, in address order,
each with its leaf number and label. -/
def leafList (h : Heap) (x n : Nat) : List (Int × String) :=
  ((List.range' x n).filter fun y => (h y).Leaf).map fun y => ((h y).LeafNumber, (h y).Label)

/-- The lexemes of a list of tokens, numbered from `L + 1` on. -/
def numbered : Int → List Token → List (Int × String)
  | _, [] => []
  | L, t :: ts => (L + 1, t.text) :: numbered (L + 1) ts

/-- The parse tree of `(A:1,B:2)`. -/
def rootAB : PT :=
  PT.internal (tk tokentype.LPAR "(")
    (PT.leaf (tk tokentype.STRING "A")
      (Branch.length (tk tokentype.COLON ":") (tnum "1" 1 1)) (tk tokentype.COMMA ",")
      (PT.leaf (tk tokentype.STRING "B")
        (Branch.length (tk tokentype.COLON ":") (tnum "2" 2 2)) (tk tokentype.COMMA ",")
        PT.nil))
    (tk tokentype.RPAR ")") none Branch.absent (tk tokentype.COMMA ",") PT.nil

/-- The description `(A:1,B:2);` as a token list. -/
def descrAB : List Token := rootAB.render ++ [tk tokentype.SEMICOLON ";"]

/-- The description `A:1(B);` as a token list: a parenthesised group after the
branch length of a leaf. -/
def descrLeafChild : List Token :=
  withPos 0 [tk tokentype.STRING "A", tk tokentype.COLON ":", tnum "1" 1 1,
    tk tokentype.LPAR "(", tk tokentype.STRING "B", tk tokentype.RPAR ")",
    tk tokentype.SEMICOLON ";"]

/-- The `branchinfo` of every node of the chain `F` and below, each with the address
of its node when the first node of the chain sits at address `x` and the nodes
follow each other in input order. -/
def PT.branches : Nat → PT → List (Nat × Branch)
  | _, PT.nil => []
  | x, PT.leaf _ bi _ sib => (x, bi) :: sib.branches (x + 1)
  | x, PT.internal _ child _ _ bi _ sib =>
    (x, bi) :: (child.branches (x + 1) ++ sib.branches (x + 1 + child.size))

/-- The times of the segments in state `s`, added up in input order starting from
`a`, as `modelvector[s] += brleninstate` does. -/
def timeIn (s : Int) (vs : List (Int × FP)) (a : FP) : FP :=
  ((vs.filter fun v => decide (v.1 = s)).map Prod.snd).foldl (fun x y => x + y) a

/-- The parse tree of `(A:{0,1.5:1,0.5})`. -/
def rootSimmapEx : PT :=
  PT.internal (tk tokentype.LPAR "(")
    (PT.leaf (tk tokentype.STRING "A")
      (Branch.simmap (tk tokentype.COLON ":") (tk tokentype.OTHER "\x7b") none
        ⟨tnum "0" 0 0, tk tokentype.COMMA ",", tnum "1.5" 1 (3 / 2)⟩
        [(tk tokentype.COLON ":", ⟨tnum "1" 1 1, tk tokentype.COMMA ",", tnum "0.5" 0 (1 / 2)⟩)]
        (tk tokentype.OTHER "\x7d"))
      (tk tokentype.COMMA ",") PT.nil)
    (tk tokentype.RPAR ")") none Branch.absent (tk tokentype.COMMA ",") PT.nil

/-- The description `(A:{0,1.5:1,0.5});` as a token list. -/
def descrSimmapEx : List Token := rootSimmapEx.render ++ [tk tokentype.SEMICOLON ";"]

/-- The pointer to the oldest of the elder siblings `E` (listed youngest first), or
`p` when there is none. -/
def eldersHead : List (Nat × BT) → Option Nat → Option Nat
  | [], p => p
  | (e, _) :: E, _ => eldersHead E (some e)

/-- The finished children `E` of the node `a`, listed youngest first, each with the
shape below it: every one has ancestor `a`, holds its finished subtree with the
right weights, and its `Sib` pointer leads to the next younger one, the youngest
to `p`. -/
def EldersOK (h : Heap) (a : Nat) : List (Nat × BT) → Option Nat → Prop
  | [], _ => True
  | (e, c) :: E, p =>
    (h e).Anc = some a ∧ (h e).Child = c.ptr ∧ (h e).Sib = p ∧ Rep h (some e) c ∧
      WeightsOK h (BT.node e c BT.nil) ∧ EldersOK h a E (some e)

/-- All addresses of the finished children and below them. -/
def eldersAddrs : List (Nat × BT) → List Nat
  | [] => []
  | (e, c) :: E => e :: (c.addrs ++ eldersAddrs E)

/-- Number of nodes flagged as leaves among the finished children and below. -/
def eldersLeaves (h : Heap) : List (Nat × BT) → Int
  | [] => 0
  | (e, c) :: E => (if (h e).Leaf then 1 else 0) + leavesF h c + eldersLeaves h E

/-- The child chain made of the finished children `E` (youngest first) followed by
the chain `T`. -/
def closeChain : List (Nat × BT) → BT → BT
  | [], T => T
  | (e, c) :: E, T => closeChain E (BT.node e c T)

/-- The nodes on the node stack of `Tree::Parse`, innermost first, each with its
finished children: `x` is the youngest child of the innermost one and still being
read, the weight of a stack node counts the leaves read below it so far, and the
outermost stack node (or `x`, when the stack is empty) is the root `r`. -/
def Frames (h : Heap) (r : Nat) : List (Nat × List (Nat × BT)) → Nat → Prop
  | [], x => (h x).Anc = none ∧ x = r
  | (a, E) :: fs, x =>
    (h x).Anc = some a ∧ (h a).Child = eldersHead E (some x) ∧ EldersOK h a E (some x) ∧
      (h a).Sib = none ∧
      (h a).Weight = (if (h a).Leaf then 1 else 0) + eldersLeaves h E ∧ Frames h r fs a

/-- All addresses of the stack nodes and of their finished children. -/
def framesAddrs : List (Nat × List (Nat × BT)) → List Nat
  | [] => []
  | (a, E) :: fs => a :: (eldersAddrs E ++ framesAddrs fs)

/-- Sum of the weights of the stack nodes. -/
def framesWeight (h : Heap) : List (Nat × List (Nat × BT)) → Int
  | [] => 0
  | (a, _) :: fs => (h a).Weight + framesWeight h fs

/-- The node `x` being read, with the finished chain `cx` of its children: no
sibling yet, and its weight counts the leaves in its subtree. -/
def CurOK (h : Heap) (x : Nat) (cx : BT) : Prop :=
  (h x).Sib = none ∧ (h x).Child = cx.ptr ∧ Rep h (some x) cx ∧
    WeightsOK h (BT.node x cx BT.nil)

/-- What holds of the heap, the node stack and `CurNode` whenever the loop of
`Tree::Parse` is at its head in a state other than `stQUIT`: the nodes built so far
form a partial tree with root `r` in which every finished node carries the number
of leaves of its subtree as weight. -/
def WInv (s : PState) (r : Nat) (fs : List (Nat × List (Nat × BT))) (cx : BT) : Prop :=
  s.tree.Root = some r ∧ s.stk = fs.map Prod.fst ∧
  Frames s.tree.heap r fs s.cur ∧ CurOK s.tree.heap s.cur cx ∧
  (s.cur :: (cx.addrs ++ framesAddrs fs)).Nodup ∧
  (∀ y ∈ s.cur :: (cx.addrs ++ framesAddrs fs), y < s.tree.next) ∧
  s.tree.Leaves = (s.tree.heap s.cur).Weight + framesWeight s.tree.heap fs ∧
  (s.state = FsmState.stGETNAME →
    cx = BT.nil ∧ (s.tree.heap s.cur).Leaf = false ∧ (s.tree.heap s.cur).Weight = 0) ∧
  (s.state = FsmState.stGETINTERNODE → cx = BT.nil) ∧
  (s.state = FsmState.stNEXTMOVE → cx = BT.nil ∨ s.token.kind = tokentype.SEMICOLON) ∧
  (s.state = FsmState.stACCEPTED → s.stk = [])

/-- The invariant of the loop of `Tree::Parse`, with the partial tree left open. -/
def WInvSome (s : PState) : Prop :=
  s.state = FsmState.stQUIT ∨ ∃ r fs cx, WInv s r fs cx

/-- The description `(A:` followed by an opening brace and the tokens `body`: a
SIMMAP block that starts on the branch of the leaf `A`. -/
def descrOpenBlock (body : List Token) : List Token :=
  [tk tokentype.LPAR "(", tk tokentype.STRING "A", tk tokentype.COLON ":",
    tk tokentype.OTHER "\x7b"] ++ body

/-- The tokens `0,1.5,B:2);`: what follows the opening brace in
`(A:\x7b0,1.5,B:2);`, a description whose closing brace is missing. -/
def bodyNoBrace : List Token :=
  [tnum "0" 0 0, tk tokentype.COMMA ",", tnum "1.5" 1 (3 / 2), tk tokentype.COMMA ",",
    tk tokentype.STRING "B", tk tokentype.COLON ":", tnum "2" 2 2, tk tokentype.RPAR ")",
    tk tokentype.SEMICOLON ";"]

/-- The single quote character. -/
def apostrophe : Char := Char.ofNat 39

/-- The libc test `isalpha` in the "C" locale: the 52 ASCII letters. -/
def isalpha (c : Char) : Bool := c.isAlpha

/-- The libc test `isalnum` in the "C" locale: ASCII letters and digits. -/
def isalnum (c : Char) : Bool := c.isAlphanum

/-- The loop `while ((i < s.length()) && !enclose)` of `NEXUSString` over the
characters from index `i` on; the result is the final value of `enclose`. -/
def encloseLoop : Bool → List Char → Bool
  | enclose, [] => enclose
  | true, _ :: _ => true
  | false, c :: cs =>
    encloseLoop (if !isalnum c && c != ' ' && c != '_' && c != '.' then true else false) cs

/-- The second loop of `NEXUSString`: append the characters from index `i` on to
`outputString`, doubling single quotes and, when the string is not enclosed,
turning spaces into underscores. -/
def copyLoop (enclose : Bool) : List Char → List Char → List Char
  | [], outputString => outputString
  | c :: cs, outputString =>
    copyLoop enclose cs
      (if c = apostrophe then outputString ++ [apostrophe, apostrophe]
       else if c = ' ' && !enclose then outputString ++ ['_']
       else outputString ++ [c])

/-- The value of `enclose` after the first part of `NEXUSString`; `s[0]` of an empty
string is the terminating NUL. -/
def needsEnclose (s : List Char) : Bool :=
  if isalpha (s.headD (Char.ofNat 0)) then encloseLoop false (s.drop 1) else true

/-- `NEXUSString (s)`; the counter `i` is an `int` in the source and unbounded
here. -/
def NEXUSString (s : String) : String :=
  let enclose := needsEnclose s.data
  let outputString := copyLoop enclose s.data (if enclose then [apostrophe] else [])
  String.mk (if enclose then outputString ++ [apostrophe] else outputString)

/-- The quoting rule in the words of the specification: the first character is not
a letter, or some later character is not a letter, digit, space, underscore or
period. -/
def specNeedsQuote (s : String) : Prop :=
  (¬ ∃ c, s.data.head? = some c ∧ c.isAlpha = true) ∨
    ∃ c ∈ s.data.drop 1,
      ¬ (c.isAlpha = true ∨ c.isDigit = true ∨ c = ' ' ∨ c = '_' ∨ c = '.')

/-- A label with every single quote doubled and every other character kept. -/
def doubleQuotes (s : List Char) : List Char :=
  s.flatMap fun c => if c = apostrophe then [apostrophe, apostrophe] else [c]

/-- A label with every space replaced by an underscore. -/
def underscoreSpaces (s : List Char) : List Char :=
  s.map fun c => if c = ' ' then '_' else c

/-- Modelled from the spec: `Node::IsTheChild ()` is declared in `TreeLib.h`, which is
not part of the sources; a node is the first child when the `Child` pointer of its
ancestor leads to it. `none` means that the ancestor pointer was `NULL` when it was
dereferenced. -/
def IsTheChild (h : Heap) (p : Nat) : Option Bool :=
  match (h p).Anc with
  | none => none
  | some a => some (decide ((h a).Child = some p))

/-- The loop `while (q->Sib != this) q = q->Sib;` of `Node::LeftSiblingOf` for the
node `p`. `none` means that the loop does not return: the fuel ran out or `q` was
`NULL` when it was dereferenced. -/
def leftSiblingLoop (h : Heap) (p : Nat) : Nat → Option Nat → Option Nat
  | 0, _ => none
  | _ + 1, none => none
  | fuel + 1, some q =>
    if (h q).Sib = some p then some q else leftSiblingLoop h p fuel (h q).Sib

/-- `Node::LeftSiblingOf ()` on the node `p`. -/
def LeftSiblingOf (fuel : Nat) (h : Heap) (p : Nat) : Option Nat :=
  match (h p).Anc with
  | none => none
  | some a => leftSiblingLoop h p fuel (h a).Child

/-- The first branch of `Tree::RemoveNode`, `Ancestor->GetDegree() == 2`: the node
and its ancestor are taken out and the other child `p` takes the place of the
ancestor. `delete Ancestor` leaves the arena as it is: the cell is not read again. -/
def removeBinary (fuel : Nat) (t : Tree) (Node Ancestor : Nat) : Option Tree :=
  match IsTheChild t.heap Node with
  | none => none
  | some first =>
    match (if first then (t.heap Node).Sib else (t.heap Ancestor).Child) with
    | none => none
    | some p =>
      let q := (t.heap Ancestor).Anc
      let h1 := t.heap.modify p fun n => { n with Anc := q }
      let linked : Option Tree :=
        match q with
        | some qq =>
          match IsTheChild h1 Ancestor with
          | none => none
          | some true =>
            let h2 := h1.modify qq fun n => { n with Child := some p }
            some { t with heap := h2.modify p fun n => { n with Sib := (h2 Ancestor).Sib } }
          | some false =>
            match LeftSiblingOf fuel h1 Ancestor with
            | none => none
            | some r =>
              let h2 := h1.modify r fun n => { n with Sib := some p }
              some { t with heap := h2.modify p fun n => { n with Sib := (h2 Ancestor).Sib } }
        | none =>
          some { t with Root := some p, heap := h1.modify p fun n => { n with Sib := none } }
      match linked with
      | none => none
      | some t1 =>
        let t2 : Tree := { t1 with Internals := t1.Internals - 1 }
        let t3 : Tree := if (t2.heap Node).Leaf then { t2 with Leaves := t2.Leaves - 1 } else t2
        some { t3 with heap := (t3.heap.modify Node fun n => { n with Anc := none }).modify Node
                         fun n => { n with Sib := none } }

/-- The second branch of `Tree::RemoveNode`, "polytomy, just remove node". -/
def removePolytomy (fuel : Nat) (t : Tree) (Node Ancestor : Nat) : Option Tree :=
  match IsTheChild t.heap Node with
  | none => none
  | some first =>
    let unlinked : Option Heap :=
      if first then
        some (t.heap.modify Ancestor fun n => { n with Child := (t.heap Node).Sib })
      else
        match LeftSiblingOf fuel t.heap Node with
        | none => none
        | some q => some (t.heap.modify q fun n => { n with Sib := (t.heap Node).Sib })
    match unlinked with
    | none => none
    | some h1 =>
      let h2 := (h1.modify Node fun n => { n with Sib := none }).modify Node
        fun n => { n with Anc := none }
      let t2 : Tree := if (h2 Node).Leaf then { t with Leaves := t.Leaves - 1 } else t
      some { t2 with heap := h2.modify Ancestor fun n => { n with Degree := n.Degree - 1 } }

/-- `Tree::RemoveNode (Node)`: the value returned and the tree object afterwards.
Only the branch `Node == Root` has a `return` statement (it returns `NULL`, written
`some none`); in the other branches control reaches the closing brace of the
function with no value returned, written `none` in the first component. The outer
`none` means that the call does not return or dereferences `NULL`. -/
def RemoveNode (fuel : Nat) (t : Tree) (Node : Nat) : Option (Option (Option Nat) × Tree) :=
  if t.Root = some Node then
    if t.Leaves = 1 then
      some (some none,
        { t with Root := none, Leaves := 0, Internals := 0,
                 heap := t.heap.modify Node fun n => { n with Anc := none } })
    else some (some none, t)
  else
    match (t.heap Node).Anc with
    | none => none
    | some Ancestor =>
      if (t.heap Ancestor).Degree = 2 then
        (removeBinary fuel t Node Ancestor).map fun t1 => (none, t1)
      else
        (removePolytomy fuel t Node Ancestor).map fun t1 => (none, t1)

/-- `Tree::AddNodeBelow (Node, Below)`. In the second branch the left sibling `r`
of `Below` is searched twice: by `LeftSiblingOf` and again by the loop
`while (Below != r->GetSibling())`, which has the same test and step. `none` means
that one of the loops does not return or that `NULL` was dereferenced. -/
def AddNodeBelow (fuel : Nat) (t : Tree) (Node Below : Nat) : Option Tree :=
  let (Ancestor, t0) := t.NewNode
  let h1 := t0.heap.modify Ancestor fun n => { n with Child := some Node }
  let h2 := h1.modify Node fun n => { n with Anc := some Ancestor }
  let q := (h2 Below).Anc
  let t1 : Tree := { t0 with Internals := t0.Internals + 1 }
  let t2 : Tree := if (h2 Node).Leaf then { t1 with Leaves := t1.Leaves + 1 } else t1
  let splice (h : Heap) : Heap :=
    let h3 := h.modify Node fun n => { n with Sib := some Below }
    let h4 := h3.modify Ancestor fun n => { n with Anc := q }
    let h5 := h4.modify Ancestor fun n => { n with Sib := (h4 Below).Sib }
    let h6 := h5.modify Below fun n => { n with Sib := none }
    h6.modify Below fun n => { n with Anc := some Ancestor }
  match q with
  | none => some { t2 with Root := some Ancestor, heap := splice h2 }
  | some qq =>
    if (h2 qq).Child = some Below then
      some { t2 with heap := (splice h2).modify qq fun n => { n with Child := some Ancestor } }
    else
      match (LeftSiblingOf fuel h2 Below).bind fun r0 =>
          leftSiblingLoop h2 Below fuel (some r0) with
      | none => none
      | some r =>
        some { t2 with heap := (splice h2).modify r fun n => { n with Sib := some Ancestor } }

/-- The description `(A);` as a token list: one leaf inside a group. -/
def descrParenA : List Token :=
  withPos 0 [tk tokentype.LPAR "(", tk tokentype.STRING "A", tk tokentype.RPAR ")",
    tk tokentype.SEMICOLON ";"]

/-- The sibling chain made of the nodes `E` (oldest first, each with the shape below
it) followed by the chain `T`. -/
def chainOf : List (Nat × BT) → BT → BT
  | [], T => T
  | (e, c) :: E, T => BT.node e c (chainOf E T)

/-- The description `(A,B,C);` as a token list. -/
def descrABC : List Token :=
  withPos 0 [tk tokentype.LPAR "(", tk tokentype.STRING "A", tk tokentype.COMMA ",",
    tk tokentype.STRING "B", tk tokentype.COMMA ",", tk tokentype.STRING "C",
    tk tokentype.RPAR ")", tk tokentype.SEMICOLON ";"]

/-- The tree object that `Parse` leaves for the description `descr`, started on a
newly constructed tree object; the empty tree object when `Parse` does not return. -/
def parsed (descr : List Token) : Tree :=
  ((Parse 30 40 {} descr).map Prod.snd).getD {}

/-- The child chain of a node with exactly two children, `x` (with the shape `cx`
below it) and `p` (with `cp`), `x` being the first of the two or the second. -/
def twoKids (xfirst : Bool) (x : Nat) (cx : BT) (p : Nat) (cp : BT) : BT :=
  if xfirst then BT.node x cx (BT.node p cp BT.nil) else BT.node p cp (BT.node x cx BT.nil)

/-- The description `(C,(A,B));` as a token list. -/
def descrCAB : List Token :=
  withPos 0 [tk tokentype.LPAR "(", tk tokentype.STRING "C", tk tokentype.COMMA ",",
    tk tokentype.LPAR "(", tk tokentype.STRING "A", tk tokentype.COMMA ",",
    tk tokentype.STRING "B", tk tokentype.RPAR ")", tk tokentype.RPAR ")",
    tk tokentype.SEMICOLON ";"]

/-- The tree parsed from `(A,B,C);` together with a detached leaf `D` at address 4. -/
def treeABCwithD : Tree :=
  { parsed descrABC with
    heap := (parsed descrABC).heap.set 4 { Leaf := true, Label := "D", Weight := 1 }
    next := 5 }

/-- What `Tree::Write` sends to the stream, item by item: a string or character, or
the `double` returned by `GetEdgeLength ()` of the node `p`, kept as a number since
its decimal rendering belongs to the stream. -/
inductive OutItem where
  | text (s : String) : OutItem
  | length (p : Nat) (v : FP) : OutItem
  deriving DecidableEq, Repr

/-- What `traverse` and `traversenoquote` write for the label of a leaf: the NEXUS
string, in `traversenoquote` without its single quotes. -/
def leafLabel (noquote : Bool) (label : String) : List OutItem :=
  if noquote then
    [OutItem.text (String.mk ((NEXUSString label).data.filter fun c => c != apostrophe))]
  else [OutItem.text (NEXUSString label)]

/-- What `traverse` and `traversenoquote` write for the label of an internal node:
the NEXUS string, in `traverse` between two more single quotes. -/
def innerLabel (noquote : Bool) (label : String) : List OutItem :=
  if noquote then [OutItem.text (NEXUSString label)]
  else [OutItem.text (String.mk [apostrophe]), OutItem.text (NEXUSString label),
    OutItem.text (String.mk [apostrophe])]

/-- What is written once the last child `p` of the node `a` is done: the closing
parenthesis, the label of `a` and the edge length of `a`. -/
def closeGroup (noquote : Bool) (t : Tree) (a : Nat) : List OutItem :=
  [OutItem.text ")"] ++
    (if (t.heap a).Label ≠ "" ∧ t.InternalLabels = true then
      innerLabel noquote (t.heap a).Label else []) ++
    (if t.EdgeLengths = true ∧ some a ≠ t.Root then
      [OutItem.text ":", OutItem.length a (t.heap a).Length] else [])

/-- What is written when the node `p` is entered: label and edge length of a leaf,
an opening parenthesis otherwise. -/
def openNode (noquote : Bool) (t : Tree) (p : Nat) : List OutItem :=
  if (t.heap p).Leaf then
    leafLabel noquote (t.heap p).Label ++
      (if t.EdgeLengths then [OutItem.text ":", OutItem.length p (t.heap p).Length] else [])
  else [OutItem.text "("]

/-- `Tree::traverse (p)` (`noquote = false`) and `Tree::traversenoquote (p)`
(`noquote = true`), which repeat the same text except for the way labels are written;
`out` is what the stream holds so far. `none` means that the call does not return:
the fuel ran out, or the ancestor pointer of a node other than the root was `NULL`
when it was dereferenced. -/
def traverseWith (noquote : Bool) : Nat → Tree → Option Nat → List OutItem →
    Option (List OutItem)
  | 0, _, _, _ => none
  | _ + 1, _, none, out => some out
  | fuel + 1, t, some p, out =>
    match traverseWith noquote fuel t (t.heap p).Child (out ++ openNode noquote t p) with
    | none => none
    | some out2 =>
      let closed : Option (List OutItem) :=
        if (t.heap p).Sib ≠ none then some (out2 ++ [OutItem.text ","])
        else if some p ≠ t.Root then
          match (t.heap p).Anc with
          | none => none
          | some a => some (out2 ++ closeGroup noquote t a)
        else some out2
      match closed with
      | none => none
      | some out3 => traverseWith noquote fuel t (t.heap p).Sib out3

/-- `Tree::traverse (p)`. -/
def traverse (fuel : Nat) (t : Tree) (p : Option Nat) (out : List OutItem) :
    Option (List OutItem) :=
  traverseWith false fuel t p out

/-- `Tree::traversenoquote (p)`. -/
def traversenoquote (fuel : Nat) (t : Tree) (p : Option Nat) (out : List OutItem) :
    Option (List OutItem) :=
  traverseWith true fuel t p out

/-- `Tree::Write (f)`: everything written to the stream `f`. -/
def Write (fuel : Nat) (t : Tree) : Option (List OutItem) :=
  (traverse fuel t t.Root []).map fun out => out ++ [OutItem.text ";"]

/-- `Tree::WriteNoQuote (f)`. -/
def WriteNoQuote (fuel : Nat) (t : Tree) : Option (List OutItem) :=
  (traversenoquote fuel t t.Root []).map fun out => out ++ [OutItem.text ";"]

/-- What the traversal writes for the chain `S` of children of `anc`, by recursion
on the shape. -/
def renderShape (noquote : Bool) (t : Tree) (anc : Option Nat) : BT → List OutItem
  | BT.nil => []
  | BT.node x c s =>
    openNode noquote t x ++ renderShape noquote t (some x) c ++
      (if s.ptr ≠ none then [OutItem.text ","]
       else if some x ≠ t.Root then
         match anc with
         | none => []
         | some a => closeGroup noquote t a
       else []) ++
      renderShape noquote t anc s

/-- Every node not flagged as a leaf has at least one child. -/
def InnerHaveChild (h : Heap) : BT → Prop
  | BT.nil => True
  | BT.node x c s =>
    ((h x).Leaf = false → c ≠ BT.nil) ∧ InnerHaveChild h c ∧ InnerHaveChild h s

/-- The description `A:1;` as a token list: a single leaf with a branch length. -/
def descrLeafLength : List Token :=
  withPos 0 [tk tokentype.STRING "A", tk tokentype.COLON ":", tnum "1" 1 1,
    tk tokentype.SEMICOLON ";"]

/-- The shape of the tree parsed from `((A:1,B:2):3,C:4);`: the root at address 0,
the inner node at 1 with the leaves `A` at 2 and `B` at 3, and the leaf `C` at 4. -/
def shapeNested : BT :=
  BT.node 0 (BT.node 1 (BT.node 2 BT.nil (BT.node 3 BT.nil BT.nil))
    (BT.node 4 BT.nil BT.nil)) BT.nil

/-- `Node::Copy (theCopy)`: the fields of `n` that are written into `theCopy`. -/
def Node.Copy (n theCopy : Node) : Node :=
  { theCopy with
    Leaf := n.Leaf
    Label := n.Label
    Index := n.Index
    LeafNumber := n.LeafNumber
    LabelNumber := n.LabelNumber
    Length := n.Length
    ModelCategory := n.ModelCategory
    StateOrder := n.StateOrder
    StateTimes := n.StateTimes }

/-- The pointer variable that the reference parameter `p2` of `copyTraverse` stands
for: the local `placeHolder` of `CopyOfSubtree`, or the `Child` or `Sib` field of a
node. -/
inductive Slot where
  | placeHolder : Slot
  | Child (n : Nat) : Slot
  | Sib (n : Nat) : Slot
  deriving DecidableEq, Repr

/-- The tree object together with the local `placeHolder` of `CopyOfSubtree`, which
is `none` as long as nothing has been assigned to it. -/
structure CopyRun where
  tree : Tree
  placeHolder : Option Nat := none

/-- The assignment `p2 = q` through the reference `p2`. -/
def Slot.assign (slot : Slot) (st : CopyRun) (q : Nat) : CopyRun :=
  match slot with
  | Slot.placeHolder => { st with placeHolder := some q }
  | Slot.Child n =>
    { st with tree := { st.tree with
        heap := st.tree.heap.modify n fun m => { m with Child := some q } } }
  | Slot.Sib n =>
    { st with tree := { st.tree with
        heap := st.tree.heap.modify n fun m => { m with Sib := some q } } }

/-- The loop `while (q) { q->SetAnc (p2); q = q->GetSibling(); }` at the end of
`copyTraverse`; `none` when the fuel runs out. -/
def setAncLoop : Nat → Heap → Option Nat → Nat → Option Heap
  | 0, _, _, _ => none
  | _ + 1, h, none, _ => some h
  | fuel + 1, h, some q, p2 =>
    let h1 := h.modify q fun m => { m with Anc := some p2 }
    setAncLoop fuel h1 (h1 q).Sib p2

/-- The statements `p2 = NewNode (); p1->Copy (p2);` of `copyTraverse`, the reference
`p2` given as the slot it stands for. The new node is the one at `st.tree.next`. -/
def copyStart (st : CopyRun) (p1 : Nat) (slot : Slot) : CopyRun :=
  let q := st.tree.NewNode.1
  let st1 := slot.assign { st with tree := st.tree.NewNode.2 } q
  { st1 with tree := { st1.tree with
      heap := st1.tree.heap.modify q fun m => (st1.tree.heap p1).Copy m } }

/-- The statement `if (p2->GetChild()) p2->GetChild()->SetAnc (p2);` of
`copyTraverse`, `q` being the node `p2` points to. -/
def setChildAnc (st : CopyRun) (q : Nat) : CopyRun :=
  match (st.tree.heap q).Child with
  | some c => { st with tree := { st.tree with
      heap := st.tree.heap.modify c fun m => { m with Anc := some q } } }
  | none => st

/-- The last statement of `copyTraverse`: when `p2` has a child, the loop over the
siblings of that child. -/
def setSibAncs (fuel : Nat) (st : CopyRun) (q : Nat) : Option CopyRun :=
  match (st.tree.heap q).Child with
  | some c =>
    (setAncLoop fuel st.tree.heap (st.tree.heap c).Sib q).map fun h =>
      { st with tree := { st.tree with heap := h } }
  | none => some st

/-- `Tree::copyTraverse (p1, p2)`, the reference `p2` given as the slot it stands
for; after `p2 = NewNode ()` the pointer `p2` is the address `st.tree.next` of the
new node. `none` when the fuel runs out. -/
def copyTraverse : Nat → CopyRun → Option Nat → Slot → Option CopyRun
  | 0, _, _, _ => none
  | _ + 1, st, none, _ => some st
  | fuel + 1, st, some p1, slot =>
    match copyTraverse fuel (copyStart st p1 slot)
        ((copyStart st p1 slot).tree.heap p1).Child (Slot.Child st.tree.next) with
    | none => none
    | some st3 =>
      match (if some p1 ≠ (setChildAnc st3 st.tree.next).tree.CurNode then
          copyTraverse fuel (setChildAnc st3 st.tree.next)
            ((setChildAnc st3 st.tree.next).tree.heap p1).Sib (Slot.Sib st.tree.next)
        else some (setChildAnc st3 st.tree.next)) with
      | none => none
      | some st5 => setSibAncs fuel st5 st.tree.next

/-- `Tree::CopyOfSubtree (RootedAt)`: the pointer returned and the tree object
afterwards. The returned pointer is `none` when nothing was assigned to
`placeHolder`; the whole result is `none` when the fuel runs out. -/
def CopyOfSubtree (fuel : Nat) (t : Tree) (RootedAt : Option Nat) :
    Option (Option Nat × Tree) :=
  (copyTraverse fuel { tree := { t with CurNode := RootedAt } } RootedAt
    Slot.placeHolder).map fun st => (st.placeHolder, st.tree)

/-- The shape `S` with its nodes renumbered from `b` on in the order in which
`copyTraverse` creates the copies: a node, then its children, then its younger
siblings. -/
def BT.relabel : Nat → BT → BT
  | _, BT.nil => BT.nil
  | b, BT.node _ c s => BT.node b (BT.relabel (b + 1) c) (BT.relabel (b + 1 + c.size) s)

/-- The fields that `Node::Copy` writes are the same in `m` as in `n`. -/
def Node.SameData (n m : Node) : Prop :=
  m.Leaf = n.Leaf ∧ m.Label = n.Label ∧ m.Index = n.Index ∧
    m.LeafNumber = n.LeafNumber ∧ m.LabelNumber = n.LabelNumber ∧ m.Length = n.Length ∧
    m.ModelCategory = n.ModelCategory ∧ m.StateOrder = n.StateOrder ∧
    m.StateTimes = n.StateTimes

/-- Node by node, the nodes of `h1` stored from `b` on carry the data of the nodes of
the shape `S` in `h`, in the order of `BT.relabel`. -/
def Copied (h h1 : Heap) : Nat → BT → Prop
  | _, BT.nil => True
  | b, BT.node x c s =>
    (h x).SameData (h1 b) ∧ Copied h h1 (b + 1) c ∧ Copied h h1 (b + 1 + c.size) s

/-- The labels of the nodes flagged as leaves in a chain and below it, a node before
its children and these before its younger siblings. -/
def leafLabelsF (h : Heap) : BT → List String
  | BT.nil => []
  | BT.node x c s =>
    (if (h x).Leaf then [(h x).Label] else []) ++ leafLabelsF h c ++ leafLabelsF h s

/-- The addresses on the sibling chain itself. -/
def BT.tops : BT → List Nat
  | BT.nil => []
  | BT.node x _ s => x :: s.tops

/-- The part of a chain that `copyTraverse` visits when `CurNode` is `cur`: the
younger siblings of `cur` are left out. -/
def BT.prune (cur : Option Nat) : BT → BT
  | BT.nil => BT.nil
  | BT.node x c s =>
    BT.node x (BT.prune cur c) (if some x = cur then BT.nil else BT.prune cur s)

/-- The fields of the tree object other than the heap and the allocation mark. -/
def Tree.frame (t : Tree) : Tree := { t with heap := fun _ => {}, next := 0 }

/-- The state with `v` assigned through the slot, unchanged when `v` is `none`. -/
def Slot.store (slot : Slot) (st : CopyRun) : Option Nat → CopyRun
  | none => st
  | some q => slot.assign st q

/-- The slot is `placeHolder` or a field of a node created since the allocation mark
was `N`. -/
def Slot.Fresh (N b : Nat) : Slot → Prop
  | Slot.placeHolder => True
  | Slot.Child n => N ≤ n ∧ n < b
  | Slot.Sib n => N ≤ n ∧ n < b

/-- What a call of `copyTraverse` on a chain of which it visits the part `P` leaves
behind: `P.size` new nodes from the old allocation mark on, which hold a copy of `P`
whose topmost nodes have no ancestor yet, the first of them assigned through the
slot, and nothing else changed below the old allocation mark. -/
def CopyPost (st st1 : CopyRun) (slot : Slot) (P : BT) : Prop :=
  st1.tree.next = st.tree.next + P.size ∧ st1.tree.frame = st.tree.frame ∧
  st1.placeHolder = (slot.store st (P.relabel st.tree.next).ptr).placeHolder ∧
  (∀ y, y < st.tree.next →
    st1.tree.heap y = (slot.store st (P.relabel st.tree.next).ptr).tree.heap y) ∧
  Rep st1.tree.heap none (P.relabel st.tree.next) ∧
  Copied st.tree.heap st1.tree.heap st.tree.next P

/-- A shape with every address blanked: what two shapes share when they differ only
in where their nodes are stored. -/
def BT.skeleton : BT → BT
  | BT.nil => BT.nil
  | BT.node _ c s => BT.node 0 c.skeleton s.skeleton

/-- `Tree::GetErrorMsg ()`: the message for the error code in `Error`. The `switch`
has one `case` for each of the seven error codes; `Error = 0` takes the `default`
and keeps the initial value of `s`. -/
def GetErrorMsg (t : Tree) : String :=
  match t.Error with
  | ErrorCode.errSYNTAX => "Syntax error"
  | ErrorCode.errENDOFSTRING => "Syntax error"
  | ErrorCode.errMISSINGLPAR => "Missing '('"
  | ErrorCode.errUNBALANCED => "Unbalance parentheses"
  | ErrorCode.errSTACKNOTEMPTY => "Stack not empty"
  | ErrorCode.errSEMICOLON => "Expecting a semicolon"
  | ErrorCode.errTOOMANYMODELCATS => "Too many states in Simmap code"
  | ErrorCode.errNONE => "No error"

/-- The part of the state of `dlInterface` that the functions on return trees read:
`rettree` is the text held by the stream `brownie.rettree`, as returned by
`brownie.rettree.str()`. -/
structure dlInterface where
  rettree : String := ""

/-- The conversion `(int) n` of a `size_t` to a 32-bit `int`. -/
def castInt (n : Nat) : Int :=
  if n % 4294967296 < 2147483648 then ((n % 4294967296 : Nat) : Int)
  else ((n % 4294967296 : Nat) : Int) - 4294967296

/-- `dlInterface::getNumRetTrees ()`; `length ()` counts the bytes of the string. -/
def dlInterface.getNumRetTrees (d : dlInterface) : Int :=
  min (castInt d.rettree.utf8ByteSize) 1

/-- `dlInterface::hasRetTrees ()`. -/
def dlInterface.hasRetTrees (d : dlInterface) : Bool :=
  d.getNumRetTrees == 0

/-- `dlInterface::getRetTree (index)`; the local `retstr` starts empty. -/
def dlInterface.getRetTree (d : dlInterface) (_index : Int) : String :=
  if d.hasRetTrees then d.rettree else ""

/-- `Tree::getNodeDepth (p)`, with the `Tree` object passed along; `none` when the
fuel runs out. -/
def getNodeDepth : Nat → Tree → Option Nat → Option Tree
  | 0, _, _ => none
  | _ + 1, t, none => some t
  | fuel + 1, t, some p =>
    let t1 : Tree := { t with heap := t.heap.modify p fun n => { n with Depth := t.count } }
    let t2 : Tree := { t1 with count := t1.count + 1 }
    match getNodeDepth fuel t2 (t2.heap p).Child with
    | none => none
    | some t3 =>
      let t4 : Tree := { t3 with count := t3.count - 1 }
      getNodeDepth fuel t4 (t4.heap p).Sib

/-- `Tree::GetNodeDepths ()`. -/
def GetNodeDepths (fuel : Nat) (t : Tree) : Option Tree :=
  getNodeDepth fuel { t with count := 0 } t.Root

/-- Every node of the chain has depth `d`, and every node below it one more than its
parent: the depth is the number of edges down from the level of depth 0. -/
def DepthsOK (h : Heap) : Int → BT → Prop
  | _, BT.nil => True
  | d, BT.node x c s => (h x).Depth = d ∧ DepthsOK h (d + 1) c ∧ DepthsOK h d s

/-- A node with `Depth` blanked. -/
def Node.clearDepth (n : Node) : Node := { n with Depth := 0 }

/-- The edge length as `getPathLengths` adds it: the length is converted to `float`
(`float l = p->GetEdgeLength()`), and a value below the `double` constant `0.000001`,
negative ones included, counts as zero. -/
def flooredLength (l : FP) : FP :=
  if FP.toFloat l < smallLength then 0 else FP.toFloat l

/-- Below an ancestor with path length `pa`, every node of the chain has the path
length `pa` plus its own floored edge length, and the same holds below each node. -/
def PathsOK (h : Heap) : FP → BT → Prop
  | _, BT.nil => True
  | pa, BT.node x c s =>
    (h x).PathLength = pa + flooredLength (h x).Length ∧
      PathsOK h (h x).PathLength c ∧ PathsOK h pa s

/-- The largest of `m` and the path lengths of the nodes of `S`. -/
def maxPathOver (h : Heap) (m : FP) (S : BT) : FP :=
  (S.addrs.map fun y => (h y).PathLength).foldl max m

/-- The description `(A:5,B:1);` as a token list. -/
def descrLong : List Token :=
  withPos 0 [tk tokentype.LPAR "(", tk tokentype.STRING "A", tk tokentype.COLON ":",
    tnum "5" 5 5, tk tokentype.COMMA ",", tk tokentype.STRING "B", tk tokentype.COLON ":",
    tnum "1" 1 1, tk tokentype.RPAR ")", tk tokentype.SEMICOLON ";"]

/-- The description `(A:-1,B:2);` as a token list: a negative branch length. -/
def descrNegative : List Token :=
  withPos 0 [tk tokentype.LPAR "(", tk tokentype.STRING "A", tk tokentype.COLON ":",
    tnum "-1" (-1) (-1), tk tokentype.COMMA ",", tk tokentype.STRING "B",
    tk tokentype.COLON ":", tnum "2" 2 2, tk tokentype.RPAR ")", tk tokentype.SEMICOLON ";"]

/-- From `s` to `s1` the root and `MaxPathLength` stay, no node is freed and no path
length of an existing node is changed. -/
def KeepsPaths (s s1 : PState) : Prop :=
  (s1.tree.Root = s.tree.Root ∧ s1.tree.MaxPathLength = s.tree.MaxPathLength) ∧
    s.tree.next ≤ s1.tree.next ∧
    ∀ y, y < s.tree.next → (s1.tree.heap y).PathLength = (s.tree.heap y).PathLength

/-- The members `Nodes` and `LeafList` of `Tree`, kept apart from the other members.
`Nodes` is `none` for the `NULL` pointer, otherwise the array, in which a slot is
`none` until a node pointer is stored in it; `LeafList` is the map from labels to
slots, the most recent assignment for a label first. -/
structure NodeIndex where
  Nodes : Option (List (Option Nat)) := none
  LeafList : List (String × Int) := []

/-- The assignment `Nodes[i] = p`; `none` when `Nodes` is `NULL` or `i` is outside the
array. -/
def NodeIndex.store (ix : NodeIndex) (i : Int) (p : Nat) : Option NodeIndex :=
  match ix.Nodes with
  | none => none
  | some N =>
    if 0 ≤ i ∧ i.toNat < N.length then some { ix with Nodes := some (N.set i.toNat (some p)) }
    else none

/-- The part of `Tree::makeNodeList (p)` after the two recursive calls: a leaf goes to
the slot `LeafNumber - 1` and is entered in `LeafList`, any other node to the slot
`count`, which is then incremented. `none` means that the `assert` failed or that a slot
outside the array was written. -/
def indexNode (st : Tree × NodeIndex) (p : Nat) : Option (Tree × NodeIndex) :=
  if (st.1.heap p).Leaf then
    let leafnumberposition := (st.1.heap p).LeafNumber - 1
    let ix3 : NodeIndex :=
      { st.2 with LeafList := ((st.1.heap p).Label, leafnumberposition) :: st.2.LeafList }
    if st.1.Leaves + st.1.Internals > leafnumberposition then
      match ix3.store leafnumberposition p with
      | none => none
      | some ix4 =>
        some ({ st.1 with heap := st.1.heap.modify p fun n =>
                  { n with Index := leafnumberposition } }, ix4)
    else none
  else
    match st.2.store st.1.count p with
    | none => none
    | some ix4 =>
      some ({ st.1 with
              heap := st.1.heap.modify p fun n => { n with Index := st.1.count }
              count := st.1.count + 1 }, ix4)

/-- `Tree::makeNodeList (p)`, with the tree object and its index passed along. `none`
means that the call does not return: the fuel ran out, the `assert` failed, or a slot
outside the array was written. -/
def makeNodeList : Nat → Tree × NodeIndex → Option Nat → Option (Tree × NodeIndex)
  | 0, _, _ => none
  | _ + 1, st, none => some st
  | fuel + 1, st, some p =>
    match makeNodeList fuel st (st.1.heap p).Child with
    | none => none
    | some st1 =>
      match makeNodeList fuel st1 (st1.1.heap p).Sib with
      | none => none
      | some st2 => indexNode st2 p

/-- `Tree::MakeNodeList ()`; the new array has `Leaves + Internals` slots, none of
them assigned. -/
def MakeNodeList (fuel : Nat) (st : Tree × NodeIndex) : Option (Tree × NodeIndex) :=
  match Update fuel st.1 with
  | none => none
  | some t1 =>
    if t1.Leaves + t1.Internals < 0 then none
    else
      makeNodeList fuel
        ({ t1 with count := t1.Leaves },
         { st.2 with Nodes := some (List.replicate (t1.Leaves + t1.Internals).toNat none) })
        t1.Root

/-- `Tree::GetLeafWithLabel (s)`: the pointer returned (`none` for `NULL`). The outer
`none` means that the function reads outside the array, or a slot nothing was stored
in. -/
def GetLeafWithLabel (ix : NodeIndex) (s : String) : Option (Option Nat) :=
  match ix.LeafList.lookup s with
  | none => some none
  | some i =>
    match ix.Nodes with
    | none => none
    | some N =>
      if 0 ≤ i then
        match N.get? i.toNat with
        | some (some p) => some (some p)
        | _ => none
      else none

/-- The description `(A,B,C,D);` as a token list. -/
def descrABCD : List Token :=
  withPos 0 [tk tokentype.LPAR "(", tk tokentype.STRING "A", tk tokentype.COMMA ",",
    tk tokentype.STRING "B", tk tokentype.COMMA ",", tk tokentype.STRING "C",
    tk tokentype.COMMA ",", tk tokentype.STRING "D", tk tokentype.RPAR ")",
    tk tokentype.SEMICOLON ";"]

/-- The tree object after `RemoveNode (Node)`, unchanged when the call does not
return. -/
def afterRemove (t : Tree) (Node : Nat) : Tree :=
  ((RemoveNode 10 t Node).map Prod.snd).getD t

/-- The number of slots of the array `Nodes` (0 for `NULL`). -/
def NodeIndex.size (ix : NodeIndex) : Int :=
  match ix.Nodes with
  | none => 0
  | some N => N.length

/-- The node pointer held by the slot `i` of `Nodes`; `none` outside the array and for
a slot nothing was stored in. -/
def NodeIndex.slot (ix : NodeIndex) (i : Int) : Option Nat :=
  match ix.Nodes with
  | none => none
  | some N => if 0 ≤ i then (N.get? i.toNat).join else none

/-- The nodes of a chain in the order in which `makeNodeList` stores them: the
children of a node, then its younger siblings, then the node itself. -/
def BT.post : BT → List Nat
  | BT.nil => []
  | BT.node x c s => c.post ++ s.post ++ [x]

/-- The slots after the nodes of the list were stored, one after the other, each in
the slot `idx` gives for it, starting from the slots `f`. -/
def slotsAfter (idx : Nat → Int) : List Nat → (Int → Option Nat) → Int → Option Nat
  | [], f => f
  | x :: xs, f => slotsAfter idx xs fun i => if i = idx x then some x else f i

/-- The leaf numbers of the nodes of a chain that are flagged as leaves. -/
def leafNums (h : Heap) (S : BT) : List Int :=
  (S.addrs.filter fun y => (h y).Leaf).map fun y => (h y).LeafNumber

/-- The leaf numbers 1, 2, ..., `n`. -/
def numbering (n : Nat) : List Int := (List.range n).map fun (k : Nat) => (k : Int) + 1

/-- A node with `Index` blanked. -/
def Node.clearIndex (n : Node) : Node := { n with Index := 0 }

/-- Modelled from the spec: the drawing symbols `HBAR`, `VBAR`, `TEE`, `LEFT`, `RIGHT`
and `SIB` and the default value of the second argument of `drawLine` are declared in
`TreeLib.h`, which is not part of the sources; they are parameters of the model. -/
structure Glyphs where
  HBAR : Char
  VBAR : Char
  TEE : Char
  LEFT : Char
  RIGHT : Char
  SIB : Char
  isChild : Bool

/-- The member `Line` of `Tree` and the text written to `*treeStream`, one entry of
`rows` for every `endl`. -/
structure Canvas where
  Line : List Char := []
  rows : List String := []

/-- The assignment `Line[i] = ch`; `none` when `i` is outside the string. -/
def Canvas.put (c : Canvas) (i : Int) (ch : Char) : Option Canvas :=
  if 0 ≤ i ∧ i.toNat < c.Line.length then some { c with Line := c.Line.set i.toNat ch }
  else none

/-- The loop `for (i = lo; ...; i++) Line[i] = ch` with `n` passes. -/
def Canvas.putRun (ch : Char) : Nat → Int → Canvas → Option Canvas
  | 0, _, c => some c
  | n + 1, lo, c =>
    match c.put lo ch with
    | none => none
    | some c1 => Canvas.putRun ch n (lo + 1) c1

/-- `Tree::drawLine (p, isChild)`: `Line.c_str ()` is the part of `Line` before the
first NUL. -/
def drawLine (t : Tree) (c : Canvas) (p : Nat) (isChild : Bool) : Canvas :=
  let s := String.mk (c.Line.takeWhile fun ch => ch ≠ Char.ofNat 0)
  if (t.heap p).Leaf then { c with rows := c.rows ++ [s ++ " " ++ (t.heap p).Label] }
  else if (t.heap p).Label ≠ "" ∧ isChild = true then
    { c with rows := c.rows ++ [s ++ (t.heap p).Label] }
  else { c with rows := c.rows ++ [s] }

/-- The condition `(q->GetSibling () && !(r->IsTheChild ())) ||
(!(q->IsTheChild ()) && r->IsTheChild())` of `Tree::fillInAncestors`, evaluated from
left to right as C++ does; `none` when `IsTheChild` dereferences a `NULL` ancestor. -/
def fillCond (t : Tree) (q r : Nat) : Option Bool :=
  match (if ((t.heap q).Sib).isSome then (IsTheChild t.heap r).map (fun b => !b)
    else some false) with
  | none => none
  | some true => some true
  | some false =>
    match IsTheChild t.heap q with
    | none => none
    | some qc => if qc then some false else IsTheChild t.heap r

/-- The loop `while (q != Root)` of `Tree::fillInAncestors (p)`. `none` means that the
loop does not return: the fuel ran out, a `NULL` pointer was dereferenced, or `Line`
was written outside the string. -/
def fillLoop (g : Glyphs) (t : Tree) (p : Nat) : Nat → Option Nat → Nat → Canvas → Option Canvas
  | 0, _, _, _ => none
  | fuel + 1, q, r, c =>
    if q = t.Root then some c
    else
      match q with
      | none => none
      | some q1 =>
        match fillCond t q1 r with
        | none => none
        | some false => fillLoop g t p fuel (t.heap q1).Anc q1 c
        | some true =>
          match (t.heap q1).Anc with
          | none => none
          | some a =>
            match c.put (t.heap a).Height
              (if r = p ∧ (t.heap q1).Height = (t.heap a).Height then g.SIB else g.VBAR) with
            | none => none
            | some c1 => fillLoop g t p fuel (some a) q1 c1

/-- `Tree::fillInAncestors (p)`. -/
def fillInAncestors (g : Glyphs) (t : Tree) (fuel : Nat) (c : Canvas) (p : Nat) :
    Option Canvas :=
  fillLoop g t p fuel (t.heap p).Anc p c

/-- `Tree::drawPendantEdge (p)`. -/
def drawPendantEdge (g : Glyphs) (t : Tree) (fuel : Nat) (c : Canvas) (p : Nat) :
    Option Canvas :=
  match (t.heap p).Anc with
  | none => some (drawLine t { c with Line := [g.HBAR] } p g.isChild)
  | some q =>
    match Canvas.putRun g.HBAR ((t.heap p).Height - (t.heap q).Height).toNat
      ((t.heap q).Height + 1) c with
    | none => none
    | some c1 =>
      match c1.put (t.heap q).Height
        (if (t.heap q).Child = some p then g.LEFT
          else if ((t.heap p).Sib).isSome then g.SIB else g.RIGHT) with
      | none => none
      | some c2 =>
        match fillInAncestors g t fuel c2 p with
        | none => none
        | some c3 =>
          match c3.put ((t.heap p).Height + 1) (Char.ofNat 0) with
          | none => none
          | some c4 =>
            Canvas.putRun ' ' (t.Leaves + 2).toNat 0 (drawLine t c4 p g.isChild)

/-- The start symbol of the branch below `r` in `Tree::drawInteriorEdge`; `start` and
`stop` are the heights of the ancestor of `r` and of `r`. -/
def startSymbol (g : Glyphs) (t : Tree) (r : Nat) (start stop : Int) : Option Char :=
  if start = stop then some g.VBAR
  else
    match IsTheChild t.heap r with
    | none => none
    | some true => some g.LEFT
    | some false => some (if ((t.heap r).Sib).isSome then g.SIB else g.RIGHT)

/-- The part of `Tree::drawInteriorEdge (p)` before the line is terminated: `r` is the
ancestor of `p` and `isc` the value of `p->IsTheChild ()`. -/
def interiorSymbols (g : Glyphs) (t : Tree) (fuel : Nat) (c : Canvas) (p r : Nat)
    (isc : Bool) : Option Canvas :=
  if isc then
    match c.put (t.heap r).Height g.TEE with
    | none => none
    | some c1 =>
      if some r = t.Root then some c1
      else
        match (t.heap r).Anc with
        | none => none
        | some ra =>
          match Canvas.putRun g.HBAR ((t.heap r).Height - (t.heap ra).Height - 1).toNat
            ((t.heap ra).Height + 1) c1 with
          | none => none
          | some c2 =>
            match startSymbol g t r (t.heap ra).Height (t.heap r).Height with
            | none => none
            | some sym =>
              match c2.put (t.heap ra).Height sym with
              | none => none
              | some c3 => fillInAncestors g t fuel c3 r
  else
    match c.put (t.heap r).Height g.VBAR with
    | none => none
    | some c1 =>
      match (t.heap p).Sib with
      | none => none
      | some sb => fillInAncestors g t fuel c1 sb

/-- `Tree::drawInteriorEdge (p)`. -/
def drawInteriorEdge (g : Glyphs) (t : Tree) (fuel : Nat) (c : Canvas) (p : Nat) :
    Option Canvas :=
  match (t.heap p).Anc with
  | none => none
  | some r =>
    match IsTheChild t.heap p with
    | none => none
    | some isc =>
      match interiorSymbols g t fuel c p r isc with
      | none => none
      | some c5 =>
        match c5.put ((t.heap r).Height + 1) (Char.ofNat 0) with
        | none => none
        | some c6 => Canvas.putRun ' ' (t.Leaves + 2).toNat 0 (drawLine t c6 r isc)

/-- `Tree::drawAsTextTraverse (p)`; `n` is the fuel handed to `fillInAncestors`. -/
def drawAsTextTraverse (g : Glyphs) (t : Tree) (n : Nat) :
    Nat → Canvas → Option Nat → Option Canvas
  | 0, _, _ => none
  | _ + 1, c, none => some c
  | fuel + 1, c, some p =>
    match drawAsTextTraverse g t n fuel c (t.heap p).Child with
    | none => none
    | some c1 =>
      match (if (t.heap p).Leaf then drawPendantEdge g t n c1 p else some c1) with
      | none => none
      | some c2 =>
        match (if ((t.heap p).Sib).isSome then drawInteriorEdge g t n c2 p else some c2) with
        | none => none
        | some c3 => drawAsTextTraverse g t n fuel c3 (t.heap p).Sib

/-- The first two statements of `Tree::getNodeHeights (p)`. -/
def heightStep (t : Tree) (p : Nat) : Tree :=
  let t1 : Tree :=
    { t with heap := t.heap.modify p fun n => { n with Height := t.Leaves - n.Weight } }
  if (t1.heap p).Height > t1.MaxHeight then { t1 with MaxHeight := (t1.heap p).Height }
  else t1

/-- `Tree::getNodeHeights (p)`; `none` means that the fuel ran out. -/
def getNodeHeights : Nat → Tree → Option Nat → Option Tree
  | 0, _, _ => none
  | _ + 1, t, none => some t
  | fuel + 1, t, some p =>
    match getNodeHeights fuel (heightStep t p) ((heightStep t p).heap p).Child with
    | none => none
    | some t3 => getNodeHeights fuel t3 (t3.heap p).Sib

/-- `Tree::Draw (f)`: the tree object afterwards and the lines written to `f`. `none`
means that the call does not return: the fuel ran out, a `NULL` pointer was
dereferenced, `Line` was written outside the string, or `Leaves + 2` is negative. -/
def Draw (g : Glyphs) (fuel : Nat) (t : Tree) : Option (Tree × List String) :=
  match t.Root with
  | none => some (t, ["(No tree)"])
  | some _ =>
    if t.Leaves + 2 < 0 then none
    else
      match getNodeHeights fuel { t with MaxHeight := 0 } t.Root with
      | none => none
      | some t1 =>
        match drawAsTextTraverse g t1 fuel fuel
          { Line := List.replicate (t.Leaves + 2).toNat ' ' } t1.Root with
        | none => none
        | some c => some (t1, c.rows)

/-- A node with `Height` blanked. -/
def Node.clearHeight (n : Node) : Node := { n with Height := 0 }

/-- The height of the node `x` is an index into `Line` that leaves room for the
terminating NUL behind it. -/
def HeightIn (t : Tree) (x : Nat) : Prop :=
  0 ≤ (t.heap x).Height ∧ (t.heap x).Height ≤ t.Leaves

/-- The walk of `fillInAncestors` from the node `x` reaches `Root` after `k` steps
along the ancestor pointers, and every node passed has a height inside `Line`. -/
def Climbs (t : Tree) : Nat → Nat → Prop
  | 0, x => t.Root = some x
  | k + 1, x => t.Root ≠ some x ∧ ∃ a, (t.heap x).Anc = some a ∧
      0 ≤ (t.heap a).Height ∧ (t.heap a).Height < t.Leaves + 2 ∧ Climbs t k a

/-- What `drawPendantEdge` and `drawInteriorEdge` rely on at a node `x` other than the
root: an ancestor `a` from which the walk to the root takes fewer than `n` steps,
heights inside `Line`, and a next sibling, if any, below the same ancestor. -/
def NodeFacts (t : Tree) (n : Nat) (x : Nat) : Prop :=
  ∃ a k, (t.heap x).Anc = some a ∧ HeightIn t x ∧ HeightIn t a ∧ Climbs t k a ∧ k < n ∧
    ∀ sb, (t.heap x).Sib = some sb → (t.heap sb).Anc = some a

/-- The number of lines `drawAsTextTraverse` writes for a chain: one for every node
flagged as a leaf and one for every node with a next sibling. -/
def rowsOf (h : Heap) : BT → Nat
  | BT.nil => 0
  | BT.node x c s =>
    rowsOf h c + (if (h x).Leaf then 1 else 0) + (if ((h x).Sib).isSome then 1 else 0) +
      rowsOf h s

/-- Symbols used in the examples. -/
def asciiGlyphs : Glyphs :=
  { HBAR := '=', VBAR := '|', TEE := '+', LEFT := '/', RIGHT := 'L', SIB := '>',
    isChild := true }

/-- A shape with one chain cut out: the path from the top of a shape down to the place
of the missing chain, with everything that hangs beside the path. -/
inductive Ctx where
  | hole : Ctx
  | inChild (x : Nat) (C : Ctx) (s : BT) : Ctx
  | inSib (x : Nat) (c : BT) (C : Ctx) : Ctx

/-- The shape obtained by putting the chain `S` into the hole. -/
def Ctx.plug : Ctx → BT → BT
  | Ctx.hole, S => S
  | Ctx.inChild x C s, S => BT.node x (C.plug S) s
  | Ctx.inSib x c C, S => BT.node x c (C.plug S)

/-- The addresses of a shape with a hole. -/
def Ctx.addrs : Ctx → List Nat
  | Ctx.hole => []
  | Ctx.inChild x C s => x :: (C.addrs ++ s.addrs)
  | Ctx.inSib x c C => x :: (c.addrs ++ C.addrs)

/-- The three pointers of the node at `y` are the same in both heaps. -/
def SameLinks (h h1 : Heap) (y : Nat) : Prop :=
  (h1 y).Anc = (h y).Anc ∧ (h1 y).Child = (h y).Child ∧ (h1 y).Sib = (h y).Sib

/-- A tree object holding the tree `(A,B,C)` at the addresses 0 to 3, with accurate
counters, and a detached leaf `D` at address 4. -/
def treeWithSpare : Tree :=
  { heap := fun x =>
      if x = 0 then { Child := some 1, Weight := 3, Degree := 3 }
      else if x = 1 then
        { Anc := some 0, Sib := some 2, Leaf := true, Label := "A", Weight := 1 }
      else if x = 2 then
        { Anc := some 0, Sib := some 3, Leaf := true, Label := "B", Weight := 1 }
      else if x = 3 then { Anc := some 0, Leaf := true, Label := "C", Weight := 1 }
      else if x = 4 then { Leaf := true, Label := "D" }
      else {}
    next := 5
    Root := some 0
    Leaves := 3
    Internals := 1 }

/-- The tree object after `AddNodeBelow (n, b)`, `Update ()` and `RemoveNode (n)`, with
fuel 7 for each call. -/
def insertThenRemove (t : Tree) (n b : Nat) : Option Tree :=
  ((AddNodeBelow 7 t n b).bind (Update 7)).bind fun t2 => (RemoveNode 7 t2 n).map Prod.snd

/-- The shape of `treeWithSpare`. -/
def shapeABC : BT :=
  BT.node 0 (BT.node 1 BT.nil (BT.node 2 BT.nil (BT.node 3 BT.nil BT.nil))) BT.nil

/-- `Tree::Tree (const Tree &t)`, the copy constructor: the source object afterwards
(the new nodes live in the same arena) and the new object. `copyTraverse` is called on
the source `t`, so the test `p1 != CurNode` in it reads the `CurNode` of the source,
which the constructor does not set. The members the constructor does not assign
(`MaxPathLength`, `MaxHeight`, `count`) keep their default here. `none` when the fuel
runs out. -/
def Tree.copyConstructor (fuel : Nat) (t : Tree) : Option (Tree × Tree) :=
  match t.Root with
  | none => some (t, { heap := t.heap, next := t.next })
  | some _ =>
    (copyTraverse fuel { tree := t } t.Root Slot.placeHolder).map fun st =>
      (st.tree,
        { heap := st.tree.heap
          next := st.tree.next
          Root := st.placeHolder
          Leaves := t.Leaves
          Internals := t.Internals
          CurNode := none
          Error := ErrorCode.errNONE
          InternalLabels := t.InternalLabels
          EdgeLengths := t.EdgeLengths })

/-- The tree object parsed from `((A:1,B:2):3,C:4);` after `CopyOfSubtree` was called
on it for the inner node (address 1), which has the younger sibling `C`. -/
def afterSubtreeCopy : Tree :=
  ((CopyOfSubtree 10 (parsed descrNested) (some 1)).map Prod.snd).getD {}

/-- The copy that the copy constructor makes of `t`; the empty tree object when the
constructor does not return. -/
def copyOf (t : Tree) : Tree :=
  ((Tree.copyConstructor 20 t).map Prod.snd).getD {}

/-- The structural character an output item stands for: `Write` sends each of `(`,
`)`, `,` and `;` as an item of its own; labels, colons and edge lengths are no
structure. -/
def structChar : OutItem → Option Char
  | OutItem.text s =>
    if s = "(" then some '(' else if s = ")" then some ')'
    else if s = "," then some ',' else if s = ";" then some ';' else none
  | OutItem.length _ _ => none

/-- The structural characters of an output, in order. -/
def skeleton (out : List OutItem) : List Char := out.filterMap structChar

/-- The nesting of a shape in the words of the specification: a node with children is a
pair of parentheses around its children, a node without children is nothing, and a
comma stands between a node and its next sibling. -/
def BT.newick : BT → List Char
  | BT.nil => []
  | BT.node _ c s =>
    (if c.ptr ≠ none then ['('] ++ c.newick ++ [')'] else []) ++
      (if s.ptr ≠ none then [','] ++ s.newick else [])

/-- The nesting depth after the characters of `l`, read from the depth `d`; `none`
when a closing parenthesis comes without an open one. -/
def nestDepth : Nat → List Char → Option Nat
  | d, [] => some d
  | d, c :: l =>
    if c = '(' then nestDepth (d + 1) l
    else if c = ')' then (if d = 0 then none else nestDepth (d - 1) l)
    else nestDepth d l

/-- The description `((A,B)95,C);` as a token list: the inner node carries the label
`95`, as a support value is written. -/
def descrSupport : List Token :=
  withPos 0 [tk tokentype.LPAR "(", tk tokentype.LPAR "(", tk tokentype.STRING "A",
    tk tokentype.COMMA ",", tk tokentype.STRING "B", tk tokentype.RPAR ")", tnum "95" 95 95,
    tk tokentype.COMMA ",", tk tokentype.STRING "C", tk tokentype.RPAR ")",
    tk tokentype.SEMICOLON ";"]

/-- The characters of an output item that is text; a number has none. -/
def OutItem.chars : OutItem → List Char
  | OutItem.text s => s.data
  | OutItem.length _ _ => []

/-- The tree object after `RemoveNode` is called for each node of the list in turn, with
fuel 4 for each call. -/
def removeLeaves (t : Tree) : List Nat → Option Tree
  | [] => some t
  | x :: xs => (RemoveNode 4 t x).bind fun r => removeLeaves r.2 xs

/-- The node `m1` has the branch fields of `m`: edge length, SIMMAP table, state order
and state times. -/
def SameBranch (m m1 : Node) : Prop :=
  m1.Length = m.Length ∧ m1.ModelCategory = m.ModelCategory ∧
    m1.StateOrder = m.StateOrder ∧ m1.StateTimes = m.StateTimes

/-- The pass of the loop that starts in `s` reads a `branchinfo` for the node `n`: the
state is `stNEXTMOVE` or `stFINISHCHILDREN`, the token is a colon and `n` is
`CurNode`. -/
def ReadsBranch (s : PState) (n : Nat) : Prop :=
  s.cur = n ∧ s.token.kind = tokentype.COLON ∧
    (s.state = FsmState.stNEXTMOVE ∨ s.state = FsmState.stFINISHCHILDREN)

instance (s : PState) (n : Nat) : Decidable (ReadsBranch s n) :=
  inferInstanceAs (Decidable (_ ∧ _ ∧ (_ ∨ _)))

/-- The states at the head of the loop during the first `k` passes from `s` on. -/
def passes (cap : Int) (fuel : Nat) : Nat → PState → List PState
  | 0, s => [s]
  | k + 1, s =>
    if s.state = FsmState.stQUIT ∨ s.state = FsmState.stACCEPTED then [s]
    else
      match step cap fuel s with
      | none => [s]
      | some s1 => s :: passes cap fuel k s1

/-- The loop started in `s` ends within `k` passes. -/
def ends (cap : Int) (fuel : Nat) : Nat → PState → Bool
  | 0, s => decide (s.state = FsmState.stQUIT ∨ s.state = FsmState.stACCEPTED)
  | k + 1, s =>
    if s.state = FsmState.stQUIT ∨ s.state = FsmState.stACCEPTED then true
    else
      match step cap fuel s with
      | none => false
      | some s1 => ends cap fuel k s1

/-- The state at the head of the loop after `k` passes from `s` on. -/
def nthPass (cap : Int) (fuel : Nat) : Nat → PState → PState
  | 0, s => s
  | k + 1, s =>
    if s.state = FsmState.stQUIT ∨ s.state = FsmState.stACCEPTED then s
    else
      match step cap fuel s with
      | none => s
      | some s1 => nthPass cap fuel k s1

/-- A check by evaluation: the loop ends within `k + 1` passes from `s` on, and no
pass after the first one reads a `branchinfo` for the node `n`. -/
def lastBranchCheck (cap : Int) (fuel k : Nat) (s : PState) (n : Nat) : Bool :=
  match step cap fuel s with
  | none => false
  | some s1 => ends cap fuel k s1 && (passes cap fuel k s1).all fun x => !decide (ReadsBranch x n)

/-- The description `(A:\x7b0,1.5\x7d:\x7b1,0.5\x7d);` as a token list: the leaf `A`
is given two SIMMAP blocks in a row. -/
def descrSimmapTwice : List Token :=
  [tk tokentype.LPAR "(", tk tokentype.STRING "A", tk tokentype.COLON ":",
    tk tokentype.OTHER "\x7b", tnum "0" 0 0, tk tokentype.COMMA ",", tnum "1.5" 1 (3 / 2),
    tk tokentype.OTHER "\x7d", tk tokentype.COLON ":", tk tokentype.OTHER "\x7b",
    tnum "1" 1 1, tk tokentype.COMMA ",", tnum "0.5" 0 (1 / 2), tk tokentype.OTHER "\x7d",
    tk tokentype.RPAR ")", tk tokentype.SEMICOLON ";"]

/-- The description `(A:\x7b0,0.1:0,0.2\x7d);` as a token list. -/
def descrSimmapTenths : List Token :=
  [tk tokentype.LPAR "(", tk tokentype.STRING "A", tk tokentype.COLON ":",
    tk tokentype.OTHER "\x7b", tnum "0" 0 0, tk tokentype.COMMA ",", tnum "0.1" 0 (1 / 10),
    tk tokentype.COLON ":", tnum "0" 0 0, tk tokentype.COMMA ",", tnum "0.2" 0 (2 / 10),
    tk tokentype.OTHER "\x7d", tk tokentype.RPAR ")", tk tokentype.SEMICOLON ";"]

/-- The description `(A:\x7b0,q\x7d);` as a token list: the branch of the leaf `A` is a
SIMMAP block with the single segment of state 0 and time `q`, spelled `s`. -/
def descrSimmapOne (s : String) (q : Rat) : List Token :=
  withPos 0 [tk tokentype.LPAR "(", tk tokentype.STRING "A", tk tokentype.COLON ":",
    tk tokentype.OTHER "\x7b", tnum "0" 0 0, tk tokentype.COMMA ",", tnum s 0 q,
    tk tokentype.OTHER "\x7d", tk tokentype.RPAR ")", tk tokentype.SEMICOLON ";"]

/-- The node `m1` has the links, the leaf flag, the leaf number and the degree of
`m`. -/
def SameFlags (m m1 : Node) : Prop :=
  m1.Child = m.Child ∧ m1.Sib = m.Sib ∧ m1.Leaf = m.Leaf ∧
    m1.LeafNumber = m.LeafNumber ∧ m1.Degree = m.Degree

/-- What holds of the nodes that `Tree::Parse` has built so far, `b` being the address
of the first of them: `CurNode` and the nodes on the stack are among them, their
`Child` and `Sib` pointers stay among them, and the nodes flagged as leaves carry
different leaf numbers from 1 to `Leaves`. -/
def Built (b : Nat) (s : PState) : Prop :=
  (b ≤ s.cur ∧ s.cur < s.tree.next) ∧
  (∀ a ∈ s.stk, b ≤ a ∧ a < s.tree.next) ∧
  (∀ y z, b ≤ y → y < s.tree.next →
    ((s.tree.heap y).Child = some z ∨ (s.tree.heap y).Sib = some z) →
    b ≤ z ∧ z < s.tree.next) ∧
  0 ≤ s.tree.Leaves ∧
  (∀ y, b ≤ y → y < s.tree.next → (s.tree.heap y).Leaf = true →
    1 ≤ (s.tree.heap y).LeafNumber ∧ (s.tree.heap y).LeafNumber ≤ s.tree.Leaves) ∧
  (∀ y z, b ≤ y → y < s.tree.next → b ≤ z → z < s.tree.next →
    (s.tree.heap y).Leaf = true → (s.tree.heap z).Leaf = true →
    (s.tree.heap y).LeafNumber = (s.tree.heap z).LeafNumber → y = z)

/-- The pass of the loop that starts in `s` reads an opening parenthesis while
`CurNode` is a node flagged as a leaf: the leaf is about to get a child. -/
def OpensLeaf (s : PState) : Prop :=
  s.state = FsmState.stNEXTMOVE ∧ s.token.kind = tokentype.LPAR ∧
    (s.tree.heap s.cur).Leaf = true

instance (s : PState) : Decidable (OpensLeaf s) :=
  inferInstanceAs (Decidable (_ ∧ _ ∧ _))

/-- What holds of the leaves built so far as long as no leaf was given a child, `b`
being the address of the first node built: no node on the stack is a leaf, `CurNode`
and the stack nodes are different nodes, a node that waits for its name has no child,
and every node flagged as a leaf has no child and degree 0. -/
def Bare (b : Nat) (s : PState) : Prop :=
  (∀ a ∈ s.stk, (s.tree.heap a).Leaf = false) ∧
  (s.cur :: s.stk).Nodup ∧
  (s.state = FsmState.stGETNAME → (s.tree.heap s.cur).Child = none) ∧
  (∀ y, b ≤ y → y < s.tree.next → (s.tree.heap y).Leaf = true →
    (s.tree.heap y).Child = none ∧ (s.tree.heap y).Degree = 0)

/-- A check by evaluation: the loop ends within `k` passes from `s` on, and no pass
gives a child to a node flagged as a leaf. -/
def noOpenLeafCheck (cap : Int) (fuel k : Nat) (s : PState) : Bool :=
  ends cap fuel k s && (passes cap fuel k s).all fun x => !decide (OpensLeaf x)

/-- The description `(A, B:2);` as a token list, with the blank after the comma. -/
def descrSpaced : List Token :=
  [tk tokentype.LPAR "(", tk tokentype.STRING "A", tk tokentype.COMMA ",",
    tk tokentype.SPACE " ", tk tokentype.STRING "B", tk tokentype.COLON ":", tnum "2" 2 2,
    tk tokentype.RPAR ")", tk tokentype.SEMICOLON ";"]

/-! # Proofs -/

/-! ## Floating-point facts used by the evaluations -/

theorem FP.toFloat_zero : FP.toFloat 0 = 0 := by decide!

theorem FP.zero_lt_smallLength : (0 : FP) < smallLength := by decide!

theorem FP.zero_add_zero : (0 : FP) + 0 = 0 := by decide!

theorem FP.not_zero_lt_zero : ¬ (0 : FP) < 0 := by decide!

/-! ## Evaluation of `Tree::Parse` on single descriptions -/

/-- C5: on the description `A;` (one leaf label, no branch info, then the
semicolon) the automaton does not reach `stACCEPTED`: in `stGETINTERNODE` the
semicolon falls to `default:`, the automaton quits with `errSYNTAX` and `Parse`
returns the nonzero read position 2, whatever the capacity and the tree object. -/
theorem Parse_single_leaf_rejected (cap : Int) (t : Tree) :
    (parseFsm cap 10 t descrSingleLeaf).map (fun s => (s.state, s.tree.Error))
        = some (FsmState.stQUIT, ErrorCode.errSYNTAX) ∧
      (Parse cap 10 t descrSingleLeaf).map (fun r => (r.1, r.2.Error))
        = some (2, ErrorCode.errSYNTAX) := by
  constructor <;>
  simp [Parse, parseFsm, parseInit, run, step, descrSingleLeaf, withPos, tk,
    PState.NextToken, Tree.NewNode, getNameLeaf, PState.goto, PState.modCur,
    PState.setError]

/-- C7: on the description `(A,B;` the semicolon is met in `stGETINTERNODE` while
the node stack still holds the root; the automaton quits with the generic
`errSYNTAX`, not with `errUNBALANCED`, `errMISSINGLPAR` or `errSTACKNOTEMPTY`. -/
theorem Parse_open_group_syntax_error (cap : Int) (t : Tree) :
    (parseFsm cap 10 t descrOpenGroup).map (fun s => (s.state, s.stk.length, s.tree.Error))
        = some (FsmState.stQUIT, 1, ErrorCode.errSYNTAX) ∧
      (Parse cap 10 t descrOpenGroup).map (fun r => (r.1, r.2.Error))
        = some (5, ErrorCode.errSYNTAX) := by
  constructor <;>
  simp [Parse, parseFsm, parseInit, run, step, descrOpenGroup, withPos, tk,
    PState.NextToken, Tree.NewNode, getNameLeaf, PState.goto, PState.modCur,
    PState.setError, lparMove, commaMove]

/-- C8: a SIMMAP state id `n` at or above the capacity does not stop the automaton.
On `(A:{n,1.5});` the run goes on after the SIMMAP loop and quits later with
`errSYNTAX` in `Error`; on `(A:{n,1.5:});` the run is accepted and `Parse` returns
0 (success), with `errTOOMANYMODELCATS` left in `Error` (shown on a newly constructed
tree object). -/
theorem Parse_simmap_over_capacity (cap n : Int) (h : cap ≤ n) (t : Tree) :
    (Parse cap 20 t (descrSimmapOver n)).map (fun r => (r.1, r.2.Error))
        = some (8, ErrorCode.errSYNTAX) ∧
      (parseFsm cap 20 t (descrSimmapOverColon n)).map (fun s => s.state)
        = some FsmState.stACCEPTED ∧
      (Parse cap 20 {} (descrSimmapOverColon n)).map (fun r => (r.1, r.2.Error))
        = some (0, ErrorCode.errTOOMANYMODELCATS) := by
  refine ⟨?_, ?_, ?_⟩
  · simp [Parse, parseFsm, parseInit, run, step, descrSimmapOver, withPos, tk, tnum,
      PState.NextToken, Tree.NewNode, getNameLeaf, PState.goto, PState.modCur,
      PState.setError, lparMove, commaMove, rparMove, branchInfo, simmapLoop, simmapBody, firstChar,
      SimmapAcc.NextToken, h]
  · simp [parseFsm, parseInit, run, step, descrSimmapOverColon, withPos, tk, tnum,
      PState.NextToken, Tree.NewNode, getNameLeaf, PState.goto, PState.modCur,
      PState.setError, lparMove, commaMove, rparMove, branchInfo, simmapLoop, simmapBody, firstChar,
      SimmapAcc.NextToken, h]
  · simp [Parse, parseFsm, parseInit, run, step, descrSimmapOverColon, withPos, tk, tnum,
      PState.NextToken, Tree.NewNode, getNameLeaf, PState.goto, PState.modCur,
      PState.setError, lparMove, commaMove, rparMove, branchInfo, simmapLoop, simmapBody, firstChar,
      SimmapAcc.NextToken, h, getPathLengths, pathSet, pathMax, Heap.modify, Heap.set,
      Heap.AddWeight,
      Heap.IncrementDegree, FP.toFloat_zero, FP.zero_lt_smallLength, FP.zero_add_zero,
      FP.not_zero_lt_zero]

/-- C8, at capacity 30 and state id 30 on a newly constructed tree object. -/
theorem Parse_simmap_over_capacity_witness :
    (30 : Int) ≤ 30 ∧
    ((Parse 30 20 {} (descrSimmapOver 30)).map (fun r => (r.1, r.2.Error))
        = some (8, ErrorCode.errSYNTAX) ∧
      (parseFsm 30 20 {} (descrSimmapOverColon 30)).map (fun s => s.state)
        = some FsmState.stACCEPTED ∧
      (Parse 30 20 {} (descrSimmapOverColon 30)).map (fun r => (r.1, r.2.Error))
        = some (0, ErrorCode.errTOOMANYMODELCATS)) :=
  ⟨by decide, Parse_simmap_over_capacity 30 30 (by decide) {}⟩

/-! ## `Tree::Update` -/

@[simp] theorem Heap.set_same (h : Heap) (p : Nat) (n : Node) : h.set p n p = n := by
  simp [Heap.set]

@[simp] theorem Heap.set_ne (h : Heap) (p q : Nat) (n : Node) (hq : q ≠ p) :
    h.set p n q = h q := by
  simp [Heap.set, hq]

@[simp] theorem Heap.modify_same (h : Heap) (p : Nat) (f : Node → Node) :
    h.modify p f p = f (h p) := by
  simp [Heap.modify]

@[simp] theorem Heap.modify_ne (h : Heap) (p q : Nat) (f : Node → Node) (hq : q ≠ p) :
    h.modify p f q = h q := by
  simp [Heap.modify, hq]

theorem Rep_congr (h h1 : Heap) (T : BT) : ∀ a : Option Nat,
    (∀ x ∈ T.addrs, (h1 x).Anc = (h x).Anc ∧ (h1 x).Child = (h x).Child ∧
      (h1 x).Sib = (h x).Sib) → Rep h a T → Rep h1 a T := by
  induction T with
  | nil => intro a _ _; trivial
  | node x c s ihc ihs =>
    intro a hx hr
    obtain ⟨h1a, h2a, h3a, h4a, h5a⟩ := hr
    have hxx := hx x (by simp [BT.addrs])
    refine ⟨by rw [hxx.1, h1a], by rw [hxx.2.1, h2a], by rw [hxx.2.2, h3a], ?_, ?_⟩
    · exact ihc _ (fun y hy => hx y (by simp [BT.addrs, hy])) h4a
    · exact ihs _ (fun y hy => hx y (by simp [BT.addrs, hy])) h5a

theorem leavesF_congr (h h1 : Heap) (T : BT) :
    (∀ x ∈ T.addrs, (h1 x).Leaf = (h x).Leaf) → leavesF h1 T = leavesF h T := by
  induction T with
  | nil => intro _; rfl
  | node x c s ihc ihs =>
    intro hx
    simp only [leavesF]
    rw [hx x (by simp [BT.addrs]), ihc (fun y hy => hx y (by simp [BT.addrs, hy])),
      ihs (fun y hy => hx y (by simp [BT.addrs, hy]))]

theorem internalsF_congr (h h1 : Heap) (T : BT) :
    (∀ x ∈ T.addrs, (h1 x).Leaf = (h x).Leaf) → internalsF h1 T = internalsF h T := by
  induction T with
  | nil => intro _; rfl
  | node x c s ihc ihs =>
    intro hx
    simp only [internalsF]
    rw [hx x (by simp [BT.addrs]), ihc (fun y hy => hx y (by simp [BT.addrs, hy])),
      ihs (fun y hy => hx y (by simp [BT.addrs, hy]))]

theorem LeavesChildless_congr (h h1 : Heap) (T : BT) :
    (∀ x ∈ T.addrs, (h1 x).Leaf = (h x).Leaf) → LeavesChildless h T →
      LeavesChildless h1 T := by
  induction T with
  | nil => intro _ _; trivial
  | node x c s ihc ihs =>
    intro hx hl
    refine ⟨?_, ihc (fun y hy => hx y (by simp [BT.addrs, hy])) hl.2.1,
      ihs (fun y hy => hx y (by simp [BT.addrs, hy])) hl.2.2⟩
    rw [hx x (by simp [BT.addrs])]; exact hl.1

theorem WeightsOK_congr (h h1 : Heap) (T : BT) :
    (∀ x ∈ T.addrs, h1 x = h x) → WeightsOK h T → WeightsOK h1 T := by
  induction T with
  | nil => intro _ _; trivial
  | node x c s ihc ihs =>
    intro hx hl
    refine ⟨?_, ihc (fun y hy => hx y (by simp [BT.addrs, hy])) hl.2.1,
      ihs (fun y hy => hx y (by simp [BT.addrs, hy])) hl.2.2⟩
    rw [hx x (by simp [BT.addrs]),
      leavesF_congr h h1 c (fun y hy => by rw [hx y (by simp [BT.addrs, hy])])]
    exact hl.1

theorem DegreesOK_congr (h h1 : Heap) (T : BT) :
    (∀ x ∈ T.addrs, h1 x = h x) → DegreesOK h T → DegreesOK h1 T := by
  induction T with
  | nil => intro _ _; trivial
  | node x c s ihc ihs =>
    intro hx hl
    refine ⟨?_, ihc (fun y hy => hx y (by simp [BT.addrs, hy])) hl.2.1,
      ihs (fun y hy => hx y (by simp [BT.addrs, hy])) hl.2.2⟩
    rw [hx x (by simp [BT.addrs])]
    exact hl.1

theorem clearWD_fields (n m : Node) (h : n.clearWD = m.clearWD) :
    n.Anc = m.Anc ∧ n.Child = m.Child ∧ n.Sib = m.Sib ∧ n.Leaf = m.Leaf := by
  have h1 := congrArg Node.Anc h
  have h2 := congrArg Node.Child h
  have h3 := congrArg Node.Sib h
  have h4 := congrArg Node.Leaf h
  exact ⟨h1, h2, h3, h4⟩

theorem buildtraverse_node (n : Nat) (t t2 t3 : Tree) (x ax : Nat)
    (h2 : buildtraverse n
      { t with heap := t.heap.modify x fun n => { n with Weight := 0, Degree := 0 } }
      (t.heap x).Child = some t2)
    (h3 : buildtraverse n t2 (t2.heap x).Sib = some t3)
    (hr : some x ≠ t3.Root) (ha : (t3.heap x).Anc = some ax) :
    buildtraverse (n + 1) t (some x) = some (buildFinish t3 x ax) := by
  simp only [buildtraverse, Heap.modify_same, h2, h3]
  by_cases hl : (t3.heap x).Leaf = true
  · simp [hl, hr, ha, buildFinish]
  · simp [hl, hr, ha, buildFinish]

theorem buildtraverse_chain (T : BT) : ∀ (fuel : Nat) (t : Tree) (ax : Nat),
    T.size < fuel → Rep t.heap (some ax) T → (ax :: T.addrs).Nodup →
    (∀ x ∈ T.addrs, some x ≠ t.Root) → LeavesChildless t.heap T →
    ∃ t1, buildtraverse fuel t T.ptr = some t1 ∧ BuildPost t t1 ax T := by
  induction T with
  | nil =>
    intro fuel t ax hf _ _ _ _
    obtain ⟨n, rfl⟩ : ∃ n, fuel = n + 1 := ⟨fuel - 1, by simp [BT.size] at hf; omega⟩
    refine ⟨t, by simp [buildtraverse, BT.ptr], ?_⟩
    simp [BuildPost, leavesF, internalsF, BT.chainLen, WeightsOK, DegreesOK, BT.addrs]
  | node x c s ihc ihs =>
    intro fuel t ax hf hrep hnd hroot hlc
    obtain ⟨n, rfl⟩ : ∃ n, fuel = n + 1 := ⟨fuel - 1, by simp [BT.size] at hf; omega⟩
    simp only [BT.size] at hf
    obtain ⟨hAnc, hChild, hSib, hrc, hrs⟩ := hrep
    simp only [BT.addrs, List.nodup_cons, List.mem_cons, List.mem_append, not_or,
      List.nodup_append] at hnd
    obtain ⟨⟨haxx, haxc, haxs⟩, ⟨hxc, hxs⟩, hndc, hnds, hdisj⟩ := hnd
    -- the state after the reset of the node
    set t1 : Tree :=
      { t with heap := t.heap.modify x fun n => { n with Weight := 0, Degree := 0 } } with ht1
    have h1x : t1.heap x = { t.heap x with Weight := 0, Degree := 0 } := by simp [ht1]
    have h1ne : ∀ y, y ≠ x → t1.heap y = t.heap y := fun y hy => by simp [ht1, hy]
    -- children
    obtain ⟨t2, hb2, p2a, p2b, p2c, p2d, p2e, p2f⟩ := ihc n t1 x (by omega)
      (Rep_congr t.heap t1.heap c _ (fun y hy => by
        rw [h1ne y (fun e => hxc (e ▸ hy))]; exact ⟨rfl, rfl, rfl⟩) hrc)
      (List.nodup_cons.mpr ⟨hxc, hndc⟩)
      (fun y hy => by simpa [ht1] using hroot y (by simp [BT.addrs, hy]))
      (LeavesChildless_congr t.heap t1.heap c (fun y hy => by
        rw [h1ne y (fun e => hxc (e ▸ hy))]) hlc.2.1)
    have hy2 : ∀ y ∈ s.addrs, t2.heap y = t.heap y := fun y hy => by
      rw [p2a y (fun hc => hdisj hc hy) (fun e => hxs (e ▸ hy)),
        h1ne y (fun e => hxs (e ▸ hy))]
    obtain ⟨t3, hb3, p3a, p3b, p3c, p3d, p3e, p3f⟩ := ihs n t2 ax (by omega)
      (Rep_congr t.heap t2.heap s _ (fun y hy => by rw [hy2 y hy]; exact ⟨rfl, rfl, rfl⟩) hrs)
      (List.nodup_cons.mpr ⟨haxs, hnds⟩)
      (fun y hy => by rw [p2f]; simpa [ht1] using hroot y (by simp [BT.addrs, hy]))
      (LeavesChildless_congr t.heap t2.heap s (fun y hy => by rw [hy2 y hy]) hlc.2.2)
    -- facts about the node itself
    have h2x : t2.heap x =
        { t.heap x with Weight := leavesF t.heap c, Degree := (c.chainLen : Int) } := by
      rw [p2b, h1x]
      have : leavesF t1.heap c = leavesF t.heap c :=
        leavesF_congr t.heap t1.heap c (fun y hy => by rw [h1ne y (fun e => hxc (e ▸ hy))])
      simp [this]
    have h3x : t3.heap x = t2.heap x := p3a x hxs (Ne.symm haxx)
    have hroot3 : t3.Root = t.Root := by rw [p3f, p2f]
    have hxroot : some x ≠ t.Root := hroot x (by simp [BT.addrs])
    have hl2 : leavesF t2.heap s = leavesF t.heap s :=
      leavesF_congr t.heap t2.heap s (fun y hy => by rw [hy2 y hy])
    have hi2 : internalsF t2.heap s = internalsF t.heap s :=
      internalsF_congr t.heap t2.heap s (fun y hy => by rw [hy2 y hy])
    have hl1 : leavesF t1.heap c = leavesF t.heap c :=
      leavesF_congr t.heap t1.heap c (fun y hy => by rw [h1ne y (fun e => hxc (e ▸ hy))])
    have hi1 : internalsF t1.heap c = internalsF t.heap c :=
      internalsF_congr t.heap t1.heap c (fun y hy => by rw [h1ne y (fun e => hxc (e ▸ hy))])
    have hax2 : t2.heap ax = t.heap ax := by
      rw [p2a ax haxc haxx, h1ne ax haxx]
    have hb : buildtraverse (n + 1) t (some x) = some (buildFinish t3 x ax) :=
      buildtraverse_node n t t2 t3 x ax (by rw [hChild]; exact hb2)
        (by rw [h2x]; simpa [hSib] using hb3) (by rw [hroot3]; exact hxroot)
        (by rw [h3x, h2x]; exact hAnc)
    refine ⟨buildFinish t3 x ax, hb, ?_⟩
    have hcnil : (t.heap x).Leaf = true → leavesF t.heap c = 0 ∧ c.chainLen = 0 := by
      intro hl
      rw [hlc.1 hl]; simp [leavesF, BT.chainLen]
    have hFne : ∀ y, y ≠ x → y ≠ ax → (buildFinish t3 x ax).heap y = t3.heap y := by
      intro y hyx hyax
      by_cases hl : (t3.heap x).Leaf = true <;>
        simp [buildFinish, hl, Heap.AddWeight, Heap.IncrementDegree, hyx, hyax]
    have hFx : (buildFinish t3 x ax).heap x =
        { t.heap x with Weight := (if (t.heap x).Leaf then 1 else 0) + leavesF t.heap c,
                        Degree := (c.chainLen : Int) } := by
      by_cases hl : (t.heap x).Leaf = true
      · have hl3 : (t3.heap x).Leaf = true := by rw [h3x, h2x]; exact hl
        simp [buildFinish, hl3, Heap.AddWeight, Heap.IncrementDegree, Ne.symm haxx, h3x, h2x,
          hl, (hcnil hl).1, (hcnil hl).2]
      · have hl3 : ¬ (t3.heap x).Leaf = true := by rw [h3x, h2x]; exact hl
        simp [buildFinish, hl3, Heap.AddWeight, Heap.IncrementDegree, Ne.symm haxx, h3x, h2x,
          hl]
    have hFax : (buildFinish t3 x ax).heap ax =
        { t.heap ax with
          Weight := (t.heap ax).Weight + leavesF t.heap (BT.node x c s),
          Degree := (t.heap ax).Degree + ((BT.node x c s).chainLen : Int) } := by
      by_cases hl : (t.heap x).Leaf = true
      · have hl3 : (t3.heap x).Leaf = true := by rw [h3x, h2x]; exact hl
        simp [buildFinish, hl3, Heap.AddWeight, Heap.IncrementDegree, haxx, p3b, hax2, hl2,
          leavesF, BT.chainLen, hl, (hcnil hl).1]
        constructor <;> ring
      · have hl3 : ¬ (t3.heap x).Leaf = true := by rw [h3x, h2x]; exact hl
        simp [buildFinish, hl3, Heap.AddWeight, Heap.IncrementDegree, haxx, p3b, hax2, hl2,
          leavesF, BT.chainLen, hl, h3x, h2x]
        constructor <;> ring
    have hFc : ∀ y ∈ c.addrs, (buildFinish t3 x ax).heap y = t2.heap y := fun y hy => by
      have hyx : y ≠ x := fun e => hxc (e ▸ hy)
      have hyax : y ≠ ax := fun e => haxc (e ▸ hy)
      rw [hFne y hyx hyax, p3a y (fun hs => hdisj hy hs) hyax]
    have hFs : ∀ y ∈ s.addrs, (buildFinish t3 x ax).heap y = t3.heap y := fun y hy =>
      hFne y (fun e => hxs (e ▸ hy)) (fun e => haxs (e ▸ hy))
    have hclr : ∀ y ∈ (BT.node x c s).addrs,
        ((buildFinish t3 x ax).heap y).clearWD = (t.heap y).clearWD := by
      intro y hy
      simp only [BT.addrs, List.mem_cons, List.mem_append] at hy
      rcases hy with rfl | hy | hy
      · rw [hFx]; rfl
      · rw [hFc y hy, p2c y hy, h1ne y (fun e => hxc (e ▸ hy))]
      · rw [hFs y hy, p3c y hy, hy2 y hy]
    have hleafF : ∀ T : BT, (∀ y ∈ T.addrs, y ∈ (BT.node x c s).addrs) →
        leavesF (buildFinish t3 x ax).heap T = leavesF t.heap T := fun T hT =>
      leavesF_congr _ _ T (fun y hy => (clearWD_fields _ _ (hclr y (hT y hy))).2.2.2)
    refine ⟨?_, hFax, hclr, ⟨?_, ?_, ?_⟩, ⟨?_, ?_, ?_⟩, ?_⟩
    · intro y hy hyax
      simp only [BT.addrs, List.mem_cons, List.mem_append, not_or] at hy
      rw [hFne y hy.1 hyax, p3a y hy.2.2 hyax, p2a y hy.2.1 hy.1, h1ne y hy.1]
    · rw [hleafF c (fun y hy => by simp [BT.addrs, hy]), hFx]
    · exact WeightsOK_congr _ _ c hFc p2d
    · exact WeightsOK_congr _ _ s hFs p3d
    · rw [hFx]
    · exact DegreesOK_congr _ _ c hFc p2e
    · exact DegreesOK_congr _ _ s hFs p3e
    · by_cases hl : (t.heap x).Leaf = true
      · have hl3 : (t3.heap x).Leaf = true := by rw [h3x, h2x]; exact hl
        simp only [buildFinish, hl3, if_true]
        rw [p3f, p2f]
        simp [ht1, leavesF, internalsF, hl, hl1, hl2, hi1, hi2]
        constructor <;> ring
      · have hl3 : ¬ (t3.heap x).Leaf = true := by rw [h3x, h2x]; exact hl
        simp only [buildFinish, hl3, if_false]
        rw [p3f, p2f]
        simp [ht1, leavesF, internalsF, hl, hl1, hl2, hi1, hi2]
        constructor <;> ring

theorem leavesF_add_internalsF (h : Heap) (T : BT) :
    leavesF h T + internalsF h T = (T.size : Int) := by
  induction T with
  | nil => simp [leavesF, internalsF, BT.size]
  | node x c s ihc ihs =>
    simp only [leavesF, internalsF, BT.size]
    by_cases hl : (h x).Leaf = true <;> simp [hl] <;> omega

theorem LeafWeightsOne_of (h : Heap) (T : BT) :
    WeightsOK h T → LeavesChildless h T → LeafWeightsOne h T := by
  induction T with
  | nil => intro _ _; trivial
  | node x c s ihc ihs =>
    intro hw hl
    refine ⟨?_, ihc hw.2.1 hl.2.1, ihs hw.2.2 hl.2.2⟩
    intro hx
    rw [hw.1, hl.1 hx]; simp [hx, leavesF]

theorem buildtraverse_root (n : Nat) (t t2 t3 : Tree) (x : Nat)
    (h2 : buildtraverse n
      { t with heap := t.heap.modify x fun n => { n with Weight := 0, Degree := 0 } }
      (t.heap x).Child = some t2)
    (h3 : buildtraverse n t2 (t2.heap x).Sib = some t3)
    (hr : some x = t3.Root) :
    buildtraverse (n + 1) t (some x) = some (buildFinishRoot t3 x) := by
  simp only [buildtraverse, Heap.modify_same, h2, h3]
  by_cases hl : (t3.heap x).Leaf = true
  · simp [hl, hr.symm, buildFinishRoot]
  · simp [hl, hr.symm, buildFinishRoot]

/-- What `Update` does on a well-formed tree, in the form used by the later
developments. -/
theorem Update_post (t : Tree) (T : BT) (fuel : Nat)
    (hwf : WellFormed t T) (hfuel : T.size < fuel) :
    ∃ t1, Update fuel t = some t1 ∧ UpdatePost t t1 T := by
  obtain ⟨hroot, hshape, hrep, hnd, hlc⟩ := hwf
  rcases hshape with rfl | ⟨r, c, rfl⟩
  · -- the empty tree
    obtain ⟨n, rfl⟩ : ∃ n, fuel = n + 1 := ⟨fuel - 1, by simp [BT.size] at hfuel; omega⟩
    refine ⟨{ t with count := 0, Leaves := 0, Internals := 0 }, ?_, ?_⟩
    · simp [Update, hroot, BT.ptr, buildtraverse]
    · simp [UpdatePost, WellFormed, hroot, BT.ptr, Rep, LeavesChildless, WeightsOK,
        LeafWeightsOne, DegreesOK, leavesF, internalsF, BT.size, BT.addrs]
  · obtain ⟨n, rfl⟩ : ∃ n, fuel = n + 1 := ⟨fuel - 1, by omega⟩
    simp only [BT.size] at hfuel
    obtain ⟨hAnc, hChild, hSib, hrc, -⟩ := hrep
    simp only [BT.addrs, List.append_nil, List.nodup_cons] at hnd
    obtain ⟨hrc_notin, hndc⟩ := hnd
    simp only [BT.ptr] at hroot hSib
    set t0 : Tree := { t with count := 0, Leaves := 0, Internals := 0 } with ht0
    set t1 : Tree :=
      { t0 with heap := t0.heap.modify r fun n => { n with Weight := 0, Degree := 0 } }
      with ht1
    have h1ne : ∀ y, y ≠ r → t1.heap y = t.heap y := fun y hy => by simp [ht1, ht0, hy]
    have h1c : ∀ y ∈ c.addrs, t1.heap y = t.heap y := fun y hy =>
      h1ne y (fun e => hrc_notin (e ▸ hy))
    -- a node below the root is not the root
    have hnr : ∀ y ∈ c.addrs, some y ≠ t1.Root := by
      intro y hy e
      have : y = r := by simpa [ht1, ht0, hroot] using e
      exact hrc_notin (this ▸ hy)
    obtain ⟨t2, hb2, p2a, p2b, p2c, p2d, p2e, p2f⟩ := buildtraverse_chain c n t1 r (by omega)
      (Rep_congr t.heap t1.heap c _ (fun y hy => by rw [h1c y hy]; exact ⟨rfl, rfl, rfl⟩) hrc)
      (List.nodup_cons.mpr ⟨hrc_notin, hndc⟩) hnr
      (LeavesChildless_congr t.heap t1.heap c (fun y hy => by rw [h1c y hy]) hlc.2.1)
    have hl1 : leavesF t1.heap c = leavesF t.heap c :=
      leavesF_congr t.heap t1.heap c (fun y hy => by rw [h1c y hy])
    have hi1 : internalsF t1.heap c = internalsF t.heap c :=
      internalsF_congr t.heap t1.heap c (fun y hy => by rw [h1c y hy])
    have h2r : t2.heap r =
        { t.heap r with Weight := leavesF t.heap c, Degree := (c.chainLen : Int) } := by
      rw [p2b]; simp [ht1, ht0, hl1]
    obtain ⟨m, rfl⟩ : ∃ m, n = m + 1 := ⟨n - 1, by omega⟩
    have hb3 : buildtraverse (m + 1) t2 (t2.heap r).Sib = some t2 := by
      rw [h2r]; simp [hSib, buildtraverse]
    have hroot2 : t2.Root = some r := by rw [p2f]; simp [ht1, ht0, hroot]
    have hb : buildtraverse (m + 1 + 1) t0 (some r) = some (buildFinishRoot t2 r) :=
      buildtraverse_root (m + 1) t0 t2 t2 r (by simpa [ht0, hChild] using hb2) hb3
        hroot2.symm
    have hcnil : (t.heap r).Leaf = true → leavesF t.heap c = 0 ∧ c.chainLen = 0 := by
      intro hl
      rw [hlc.1 hl]; simp [leavesF, BT.chainLen]
    have hFne : ∀ y, y ≠ r → (buildFinishRoot t2 r).heap y = t2.heap y := by
      intro y hy
      by_cases hl : (t2.heap r).Leaf = true <;> simp [buildFinishRoot, hl, hy]
    have hFr : (buildFinishRoot t2 r).heap r =
        { t.heap r with Weight := (if (t.heap r).Leaf then 1 else 0) + leavesF t.heap c,
                        Degree := (c.chainLen : Int) } := by
      by_cases hl : (t.heap r).Leaf = true
      · have hl2 : (t2.heap r).Leaf = true := by rw [h2r]; exact hl
        simp [buildFinishRoot, hl2, h2r, hl, (hcnil hl).1, (hcnil hl).2]
      · have hl2 : ¬ (t2.heap r).Leaf = true := by rw [h2r]; exact hl
        simp [buildFinishRoot, hl2, h2r, hl]
    have hFc : ∀ y ∈ c.addrs, (buildFinishRoot t2 r).heap y = t2.heap y := fun y hy =>
      hFne y (fun e => hrc_notin (e ▸ hy))
    have hclr : ∀ y ∈ (BT.node r c BT.nil).addrs,
        ((buildFinishRoot t2 r).heap y).clearWD = (t.heap y).clearWD := by
      intro y hy
      simp only [BT.addrs, List.mem_cons, List.append_nil] at hy
      rcases hy with rfl | hy
      · rw [hFr]; rfl
      · rw [hFc y hy, p2c y hy, h1c y hy]
    have hflag : ∀ y ∈ (BT.node r c BT.nil).addrs,
        ((buildFinishRoot t2 r).heap y).Leaf = (t.heap y).Leaf := fun y hy =>
      (clearWD_fields _ _ (hclr y hy)).2.2.2
    have hFroot : (buildFinishRoot t2 r).Root = some r := by
      by_cases hl : (t2.heap r).Leaf = true <;> simp [buildFinishRoot, hl, hroot2]
    have hFL : (buildFinishRoot t2 r).Leaves = leavesF t.heap (BT.node r c BT.nil) := by
      have hl2 : (t2.heap r).Leaf = (t.heap r).Leaf := by rw [h2r]
      by_cases hl : (t.heap r).Leaf = true
      · simp only [buildFinishRoot, hl2, hl, if_true]
        rw [p2f]; simp [ht1, ht0, hl1, leavesF, hl]; ring
      · simp only [buildFinishRoot, hl2, hl]
        rw [p2f]; simp [ht1, ht0, hl1, leavesF, hl]
    have hFI : (buildFinishRoot t2 r).Internals = internalsF t.heap (BT.node r c BT.nil) := by
      have hl2 : (t2.heap r).Leaf = (t.heap r).Leaf := by rw [h2r]
      by_cases hl : (t.heap r).Leaf = true
      · simp only [buildFinishRoot, hl2, hl, if_true]
        rw [p2f]; simp [ht1, ht0, hi1, internalsF, hl]
      · simp only [buildFinishRoot, hl2, hl]
        rw [p2f]; simp [ht1, ht0, hi1, internalsF, hl]; ring
    have hLeq : leavesF (buildFinishRoot t2 r).heap (BT.node r c BT.nil) =
        leavesF t.heap (BT.node r c BT.nil) := leavesF_congr _ _ _ hflag
    have hIeq : internalsF (buildFinishRoot t2 r).heap (BT.node r c BT.nil) =
        internalsF t.heap (BT.node r c BT.nil) := internalsF_congr _ _ _ hflag
    have hlcF : LeavesChildless (buildFinishRoot t2 r).heap (BT.node r c BT.nil) :=
      LeavesChildless_congr _ _ _ hflag hlc
    have hWF : WeightsOK (buildFinishRoot t2 r).heap (BT.node r c BT.nil) := by
      refine ⟨?_, WeightsOK_congr _ _ c hFc p2d, trivial⟩
      rw [leavesF_congr _ _ c (fun y hy => hflag y (by simp [BT.addrs, hy])), hFr]
    have hU : Update (m + 1 + 1) t = buildtraverse (m + 1 + 1) t0 t.Root := rfl
    refine ⟨buildFinishRoot t2 r, by rw [hU, hroot]; exact hb, ?_⟩
    refine ⟨⟨by simp [hFroot, BT.ptr], Or.inr ⟨r, c, rfl⟩, ?_, ?_, hlcF⟩, hclr, ?_, hWF,
      LeafWeightsOne_of _ _ hWF hlcF, ⟨?_, DegreesOK_congr _ _ c hFc p2e, trivial⟩, ?_,
      ?_, ?_, ?_⟩
    · exact Rep_congr t.heap _ _ _ (fun y hy => by
        have := clearWD_fields _ _ (hclr y hy); exact ⟨this.1, this.2.1, this.2.2.1⟩)
        ⟨hAnc, hChild, hSib, hrc, trivial⟩
    · simp [BT.addrs, hrc_notin, hndc]
    · intro y hy
      simp only [BT.addrs, List.mem_cons, List.append_nil, not_or] at hy
      rw [hFne y hy.1, p2a y hy.2 hy.1, h1ne y hy.1]
    · rw [hFr]
    · intro r1 hr1
      rw [hFroot] at hr1
      cases hr1
      rw [hFL, hFr]; simp [leavesF]
    · rw [hFL, hLeq]
    · rw [hFI, hIeq]
    · rw [hFL, hFI]; exact leavesF_add_internalsF _ _

/-- C2: on every well-formed tree `Update` returns (given fuel above the node
count) and leaves a tree of the same shape in which every node's `Weight` is the
number of leaves in its subtree (1 for a leaf), every node's `Degree` is its number
of direct children, the root's `Weight` equals `Leaves`, `Leaves` and `Internals`
count the leaf and the non-leaf nodes and add up to the node count; all fields
other than `Weight` and `Degree` are untouched. -/
theorem Update_postcondition (t : Tree) (T : BT) (fuel : Nat)
    (hwf : WellFormed t T) (hfuel : T.size < fuel) :
    ∃ t1, Update fuel t = some t1 ∧ UpdatePost t t1 T :=
  Update_post t T fuel hwf hfuel

/-- C2, on the tree `(A,B)` with stale derived fields. -/
theorem Update_postcondition_witness :
    WellFormed exampleTree exampleShape ∧ exampleShape.size < 4 ∧
      ∃ t1, Update 4 exampleTree = some t1 ∧ UpdatePost exampleTree t1 exampleShape :=
  have hwf : WellFormed exampleTree exampleShape := by
    simp [WellFormed, exampleTree, exampleShape, BT.ptr, Rep, BT.addrs, LeavesChildless]
  ⟨hwf, by decide, Update_postcondition exampleTree exampleShape 4 hwf (by decide)⟩

/-! ## Accepted descriptions and parentheses -/

theorem dispatched_cons (t : Token) (ts : List Token)
    (h1 : t.kind ≠ tokentype.SEMICOLON) (h2 : t.kind ≠ tokentype.COLON) :
    dispatched (t :: ts) = t :: dispatched ts := by
  cases ts with
  | nil => simp [dispatched]
  | cons u r => simp [dispatched, h1, h2]

theorem dispatched_colon (t : Token) (ts : List Token) (h2 : t.kind = tokentype.COLON) :
    dispatched (t :: ts) = t :: dispatched (ts.drop 1) := by
  cases ts with
  | nil => simp [dispatched]
  | cons u r => simp [dispatched, h2]

theorem pbf_next (d : Nat) (s : PState) :
    parenBalancedFrom d (dispatched (s.NextToken.token :: s.NextToken.rest)) =
      parenBalancedFrom d (dispatched s.rest) := by
  cases h : s.rest with
  | nil => simp [PState.NextToken, h, dispatched, parenBalancedFrom, eosToken]
  | cons u r => simp [PState.NextToken, h]

theorem NextToken_rest (s : PState) : s.NextToken.rest = s.rest.drop 1 := by
  cases h : s.rest <;> simp [PState.NextToken, h]

theorem NoSimmap_next (s : PState) (h : NoSimmap (s.token :: s.rest)) :
    NoSimmap (s.NextToken.token :: s.NextToken.rest) := by
  cases hr : s.rest with
  | nil =>
    intro t ht
    simp [PState.NextToken, hr] at ht
    subst ht
    simp [eosToken, firstChar]
  | cons u r =>
    intro t ht
    simp [PState.NextToken, hr] at ht
    exact h t (by simp [hr]; right; exact ht)

@[simp] theorem goto_stream (s : PState) (st : FsmState) : (s.goto st).stream = s.stream := rfl
@[simp] theorem goto_stk (s : PState) (st : FsmState) : (s.goto st).stk = s.stk := rfl
@[simp] theorem goto_state (s : PState) (st : FsmState) : (s.goto st).state = st := rfl
@[simp] theorem setError_stream (s : PState) (e : ErrorCode) :
    (s.setError e).stream = s.stream := rfl
@[simp] theorem setError_stk (s : PState) (e : ErrorCode) : (s.setError e).stk = s.stk := rfl
@[simp] theorem setError_state (s : PState) (e : ErrorCode) :
    (s.setError e).state = s.state := rfl
@[simp] theorem modCur_stream (s : PState) (f : Node → Node) :
    (s.modCur f).stream = s.stream := rfl
@[simp] theorem modCur_stk (s : PState) (f : Node → Node) : (s.modCur f).stk = s.stk := rfl
@[simp] theorem modCur_state (s : PState) (f : Node → Node) :
    (s.modCur f).state = s.state := rfl
@[simp] theorem NextToken_stk (s : PState) : s.NextToken.stk = s.stk := by
  cases h : s.rest <;> simp [PState.NextToken, h]
@[simp] theorem NextToken_state (s : PState) : s.NextToken.state = s.state := by
  cases h : s.rest <;> simp [PState.NextToken, h]

theorem getNameLeaf_ctl (s : PState) :
    (getNameLeaf s).state = FsmState.stGETINTERNODE ∧ (getNameLeaf s).stk = s.stk ∧
      (getNameLeaf s).stream = s.NextToken.stream := by
  cases h : s.rest <;> simp [getNameLeaf, PState.NextToken, h, PState.stream, PState.goto, PState.modCur]

theorem labelMove_ctl (s : PState) :
    (labelMove s).state = s.state ∧ (labelMove s).stk = s.stk ∧
      (labelMove s).stream = s.NextToken.stream := by
  cases h : s.rest <;>
    simp [labelMove, PState.NextToken, h, PState.stream, PState.modCur]

theorem commaMove_ctl (s : PState) :
    (s.stk = [] → (commaMove s).state = FsmState.stQUIT) ∧
    (s.stk ≠ [] → (commaMove s).state = FsmState.stGETNAME ∧ (commaMove s).stk = s.stk ∧
      (commaMove s).stream = s.NextToken.stream) := by
  cases hs : s.stk with
  | nil => simp [commaMove, hs, Tree.NewNode]
  | cons a l =>
    cases h : s.rest <;>
      simp [commaMove, hs, Tree.NewNode, PState.NextToken, h, PState.stream, PState.goto]

theorem lparMove_ctl (s : PState) :
    (lparMove s).state = FsmState.stGETNAME ∧ (lparMove s).stk = s.cur :: s.stk ∧
      (lparMove s).stream = s.NextToken.stream := by
  cases h : s.rest <;>
    simp [lparMove, Tree.NewNode, PState.NextToken, h, PState.stream, PState.goto]

theorem rparMove_ctl (s : PState) :
    (s.stk = [] → (rparMove s).state = FsmState.stQUIT) ∧
    (∀ q l, s.stk = q :: l → (rparMove s).state = FsmState.stFINISHCHILDREN ∧
      (rparMove s).stk = l ∧ (rparMove s).stream = s.NextToken.stream) := by
  cases hs : s.stk with
  | nil => simp [rparMove, hs]
  | cons a l =>
    cases h : s.rest <;>
      simp [rparMove, hs, PState.NextToken, h, PState.stream, PState.goto]

theorem branchInfo_plain_ctl (cap : Int) (n : Nat) (s s1 : PState)
    (hb : branchInfo cap n s = some s1) (hp : firstChar s.NextToken.token ≠ '{') :
    s1.state = s.state ∧ s1.stk = s.stk ∧ s1.stream = s.NextToken.NextToken.stream := by
  simp only [branchInfo, hp, if_false] at hb
  cases hb
  cases h : s.rest with
  | nil => simp [PState.NextToken, h, PState.stream, PState.modCur]
  | cons u r => cases h2 : r <;> simp [PState.NextToken, h, h2, PState.stream, PState.modCur]

theorem pbf_next_stream (d : Nat) (s : PState) :
    parenBalancedFrom d (dispatched s.NextToken.stream) =
      parenBalancedFrom d (dispatched s.rest) := pbf_next d s

theorem pbf_skip (d : Nat) (s : PState)
    (h1 : s.token.kind ≠ tokentype.SEMICOLON) (h2 : s.token.kind ≠ tokentype.COLON)
    (h3 : s.token.kind ≠ tokentype.LPAR) (h4 : s.token.kind ≠ tokentype.RPAR) :
    parenBalancedFrom d (dispatched s.stream) =
      parenBalancedFrom d (dispatched s.NextToken.stream) := by
  rw [pbf_next_stream, PState.stream, dispatched_cons _ _ h1 h2]
  cases hk : s.token.kind <;> simp_all [parenBalancedFrom]

theorem pbf_lpar (d : Nat) (s : PState) (h : s.token.kind = tokentype.LPAR) :
    parenBalancedFrom d (dispatched s.stream) =
      parenBalancedFrom (d + 1) (dispatched s.NextToken.stream) := by
  rw [pbf_next_stream, PState.stream, dispatched_cons _ _ (by simp [h]) (by simp [h])]
  simp [parenBalancedFrom, h]

theorem pbf_rpar (d : Nat) (s : PState) (h : s.token.kind = tokentype.RPAR) :
    parenBalancedFrom (d + 1) (dispatched s.stream) =
      parenBalancedFrom d (dispatched s.NextToken.stream) := by
  rw [pbf_next_stream, PState.stream, dispatched_cons _ _ (by simp [h]) (by simp [h])]
  simp [parenBalancedFrom, h]

theorem pbf_colon (d : Nat) (s : PState) (h : s.token.kind = tokentype.COLON) :
    parenBalancedFrom d (dispatched s.stream) =
      parenBalancedFrom d (dispatched s.NextToken.NextToken.stream) := by
  rw [pbf_next_stream, NextToken_rest, PState.stream, dispatched_colon _ _ h]
  simp [parenBalancedFrom, h]

theorem pbf_semicolon (s : PState) (h : s.token.kind = tokentype.SEMICOLON) :
    parenBalancedFrom 0 (dispatched s.stream) = true := by
  rw [PState.stream]
  cases hr : s.rest <;> simp [dispatched, parenBalancedFrom, h]

theorem NoSimmap_next_stream (s : PState) (h : NoSimmap s.stream) :
    NoSimmap s.NextToken.stream := NoSimmap_next s h

/-- One pass of the loop, seen from the parenthesis count: the stack depth plus
the parentheses still to be dispatched stay balanced. -/
theorem step_balanced (cap : Int) (n : Nat) (s s1 : PState)
    (hstep : step cap n s = some s1) (hq : s.state ≠ FsmState.stQUIT)
    (ha : s.state ≠ FsmState.stACCEPTED) (hns : NoSimmap s.stream) :
    NoSimmap s1.stream ∧
    (s1.state = FsmState.stACCEPTED →
      parenBalancedFrom s.stk.length (dispatched s.stream) = true) ∧
    (s1.state ≠ FsmState.stACCEPTED → s1.state ≠ FsmState.stQUIT →
      parenBalancedFrom s1.stk.length (dispatched s1.stream) = true →
      parenBalancedFrom s.stk.length (dispatched s.stream) = true) := by
  have hn1 := NoSimmap_next_stream s hns
  have hn2 := NoSimmap_next_stream _ hn1
  have hfc : firstChar s.NextToken.token ≠ '{' := hn1 _ (by simp [PState.stream])
  have hgl := getNameLeaf_ctl s
  have hlm := labelMove_ctl s
  have hcm := commaMove_ctl s
  have hlp := lparMove_ctl s
  have hrp := rparMove_ctl s
  cases hs : s.state <;> cases hk : s.token.kind <;>
    simp only [step, hs, hk] at hstep <;> try contradiction
  all_goals try first
    | (cases hstep
       refine ⟨by simpa using hns, fun h => ?_, fun h1 h2 h => ?_⟩
       · simp at h
       · simp at h1 h2 <;> simpa using h)
    | (cases hstep
       refine ⟨by simpa using hn1, fun h => ?_, fun _ _ h => ?_⟩
       · simp [hs] at h
       · rw [pbf_skip _ _ (by simp [hk]) (by simp [hk]) (by simp [hk]) (by simp [hk])]
         simpa using h)
    | (cases hstep
       refine ⟨by rw [hgl.2.2]; exact hn1, fun h => ?_, fun _ _ h => ?_⟩
       · simp [hgl.1] at h
       · rw [pbf_skip _ _ (by simp [hk]) (by simp [hk]) (by simp [hk]) (by simp [hk]),
           ← hgl.2.2, ← hgl.2.1]
         exact h)
  all_goals first
    | (have hb : branchInfo cap n s = some s1 := hstep
       obtain ⟨e1, e2, e3⟩ := branchInfo_plain_ctl cap n s s1 hb hfc
       refine ⟨e3 ▸ hn2, fun h => ?_, fun _ _ h => ?_⟩
       · rw [e1, hs] at h; cases h
       · rw [pbf_colon _ _ hk, ← e3, ← e2]; exact h)
    | (have hb : some (labelMove s) = some s1 := hstep
       cases hb
       refine ⟨by rw [hlm.2.2]; exact hn1, fun h => ?_, fun _ _ h => ?_⟩
       · simp [hlm.1, hs] at h
       · rw [pbf_skip _ _ (by simp [hk]) (by simp [hk]) (by simp [hk]) (by simp [hk]),
           ← hlm.2.2, ← hlm.2.1]
         exact h)
    | (have hb : some (lparMove s) = some s1 := hstep
       cases hb
       refine ⟨by rw [hlp.2.2]; exact hn1, fun h => ?_, fun _ _ h => ?_⟩
       · simp [hlp.1] at h
       · rw [pbf_lpar _ _ hk, ← hlp.2.2]
         simpa [hlp.2.1] using h)
    | (have hb : some (commaMove s) = some s1 := hstep
       cases hb
       cases hstk : s.stk with
       | nil =>
         have := hcm.1 hstk
         refine ⟨?_, fun h => ?_, fun _ h2 _ => absurd this h2⟩
         · simp [commaMove, hstk, Tree.NewNode, PState.stream, PState.goto, PState.setError]
           exact hns
         · simp [this] at h
       | cons q l =>
         have := hcm.2 (by simp [hstk])
         refine ⟨by rw [this.2.2]; exact hn1, fun h => ?_, fun _ _ h => ?_⟩
         · simp [this.1] at h
         · rw [pbf_skip _ _ (by simp [hk]) (by simp [hk]) (by simp [hk]) (by simp [hk]),
             ← this.2.2, ← hstk, ← this.2.1]
           exact h)
    | (have hb : some (rparMove s) = some s1 := hstep
       cases hb
       cases hstk : s.stk with
       | nil =>
         have := hrp.1 hstk
         refine ⟨?_, fun h => ?_, fun _ h2 _ => absurd this h2⟩
         · simp [rparMove, hstk, PState.stream, PState.goto, PState.setError]
           exact hns
         · simp [this] at h
       | cons q l =>
         have := hrp.2 q l hstk
         refine ⟨by rw [this.2.2]; exact hn1, fun h => ?_, fun _ _ h => ?_⟩
         · simp [this.1] at h
         · rw [List.length_cons, pbf_rpar _ _ hk, ← this.2.2, ← this.2.1]
           exact h)
    | (cases hstk : s.stk with
       | nil =>
         simp only [hstk] at hstep
         cases hstep
         refine ⟨by simpa using hns, fun h => ?_, fun h1 h2 h => ?_⟩
         · first
            | (simp at h; done)
            | (simp only [List.length_nil]; exact pbf_semicolon s hk)
         · simp at h1 h2
       | cons q l =>
         simp only [hstk] at hstep
         cases hstep
         refine ⟨by simpa using hns, fun h => ?_, fun h1 h2 h => ?_⟩
         · simp at h
         · simp at h1 h2)

theorem run_of_quit (cap : Int) (n : Nat) (s s1 : PState) (h : run cap n s = some s1)
    (hq : s.state = FsmState.stQUIT) : s1 = s := by
  cases n with
  | zero => simp [run] at h
  | succ n => simpa [run, hq] using h.symm

theorem run_succ_of_running (cap : Int) (n : Nat) (s s1 : PState)
    (h : run cap (n + 1) s = some s1) (hq : s.state ≠ FsmState.stQUIT)
    (ha : s.state ≠ FsmState.stACCEPTED) :
    ∃ s2, step cap n s = some s2 ∧ run cap n s2 = some s1 := by
  simp only [run, hq, ha, or_self, if_false] at h
  cases hs : step cap n s with
  | none => simp [hs] at h
  | some s2 => exact ⟨s2, rfl, by simpa [hs] using h⟩

theorem run_balanced (cap : Int) : ∀ (n : Nat) (s s1 : PState), run cap n s = some s1 →
    s1.state = FsmState.stACCEPTED → s.state ≠ FsmState.stACCEPTED → NoSimmap s.stream →
    parenBalancedFrom s.stk.length (dispatched s.stream) = true := by
  intro n
  induction n with
  | zero => intro s s1 h; simp [run] at h
  | succ n ih =>
    intro s s1 h hacc hs hns
    by_cases hq : s.state = FsmState.stQUIT
    · have := run_of_quit cap _ s s1 h hq
      subst this
      rw [hq] at hacc; cases hacc
    · obtain ⟨s2, hstep, hrun⟩ := run_succ_of_running cap n s s1 h hq hs
      obtain ⟨hn2, hA, hB⟩ := step_balanced cap n s s2 hstep hq hs hns
      by_cases h2a : s2.state = FsmState.stACCEPTED
      · exact hA h2a
      · by_cases h2q : s2.state = FsmState.stQUIT
        · have := run_of_quit cap _ s2 s1 hrun h2q
          subst this
          rw [h2q] at hacc; cases hacc
        · exact hB h2a h2q (ih s2 s1 hrun hacc h2a hn2)

theorem pbf_counts : ∀ (l : List Token) (d : Nat), parenBalancedFrom d l = true →
    countKind tokentype.LPAR l + d = countKind tokentype.RPAR l ∧
      ∀ n, countKind tokentype.RPAR (l.take n) ≤ countKind tokentype.LPAR (l.take n) + d := by
  intro l
  induction l with
  | nil =>
    intro d h
    simp [parenBalancedFrom] at h
    simp [countKind, h]
  | cons t ts ih =>
    intro d h
    cases hk : t.kind <;> simp only [parenBalancedFrom, hk] at h <;>
      first
      | (obtain ⟨h1, h2⟩ := ih (d + 1) h
         refine ⟨by simp [countKind, List.countP_cons, hk] at h1 ⊢; omega, fun n => ?_⟩
         cases n with
         | zero => simp [countKind]
         | succ n =>
           have := h2 n
           simp [countKind, List.countP_cons, hk] at this ⊢; omega)
      | (simp only [Bool.and_eq_true, decide_eq_true_eq] at h
         obtain ⟨h1, h2⟩ := ih (d - 1) h.2
         refine ⟨by simp [countKind, List.countP_cons, hk] at h1 ⊢; omega, fun n => ?_⟩
         cases n with
         | zero => simp [countKind]
         | succ n =>
           have := h2 n
           simp [countKind, List.countP_cons, hk] at this ⊢; omega)
      | (obtain ⟨h1, h2⟩ := ih d h
         refine ⟨by simp [countKind, List.countP_cons, hk] at h1 ⊢; omega, fun n => ?_⟩
         cases n with
         | zero => simp [countKind]
         | succ n =>
           have := h2 n
           simp [countKind, List.countP_cons, hk] at this ⊢; omega)

theorem branchInfo_ctl (cap : Int) (n : Nat) (s s1 : PState)
    (hb : branchInfo cap n s = some s1) :
    s1.state = s.state ∧ s1.stk = s.stk ∧ s1.cur = s.cur := by
  unfold branchInfo at hb
  by_cases hp : firstChar s.NextToken.token = '{'
  · simp only [hp, if_true] at hb
    split at hb
    · cases hb
    · cases hb
      rename_i a _
      by_cases ht : a.tooMany = true <;>
        cases hr : a.rest <;>
          simp [ht, PState.NextToken, hr, PState.modCur, PState.setError] <;>
          cases hr0 : s.rest <;> simp [hr0]
  · simp only [hp, if_false] at hb
    cases hb
    cases h : s.rest with
    | nil => simp [PState.NextToken, h, PState.modCur]
    | cons u r => cases h2 : r <;> simp [PState.NextToken, h, h2, PState.modCur]

theorem step_accept_stk (cap : Int) (n : Nat) (s s1 : PState)
    (hstep : step cap n s = some s1) (ha : s.state ≠ FsmState.stACCEPTED)
    (h1 : s1.state = FsmState.stACCEPTED) : s1.stk = [] := by
  have hgl := getNameLeaf_ctl s
  have hlm := labelMove_ctl s
  have hcm := commaMove_ctl s
  have hlp := lparMove_ctl s
  have hrp := rparMove_ctl s
  cases hs : s.state <;> cases hk : s.token.kind <;>
    simp only [step, hs, hk] at hstep <;> try contradiction
  all_goals first
    | (have hb : branchInfo cap n s = some s1 := hstep
       have := (branchInfo_ctl cap n s s1 hb).1
       rw [h1, hs] at this; cases this)
    | (have hb : some (commaMove s) = some s1 := hstep
       cases hb
       cases hstk : s.stk with
       | nil => have := hcm.1 hstk; rw [h1] at this; cases this
       | cons q l => have := (hcm.2 (by simp [hstk])).1; rw [h1] at this; cases this)
    | (have hb : some (rparMove s) = some s1 := hstep
       cases hb
       cases hstk : s.stk with
       | nil => have := hrp.1 hstk; rw [h1] at this; cases this
       | cons q l => have := (hrp.2 q l hstk).1; rw [h1] at this; cases this)
    | (cases hstep; simp [hs, hgl.1, hlm.1, hlp.1] at h1)
    | (cases hstk : s.stk with
       | nil =>
         simp only [hstk] at hstep
         cases hstep
         first
           | (simp at h1; done)
           | simpa using hstk
       | cons q l =>
         simp only [hstk] at hstep
         cases hstep
         simp at h1)

theorem run_accept_stk (cap : Int) : ∀ (n : Nat) (s s1 : PState), run cap n s = some s1 →
    s1.state = FsmState.stACCEPTED → s.state ≠ FsmState.stACCEPTED → s1.stk = [] := by
  intro n
  induction n with
  | zero => intro s s1 h; simp [run] at h
  | succ n ih =>
    intro s s1 h hacc hs
    by_cases hq : s.state = FsmState.stQUIT
    · have := run_of_quit cap _ s s1 h hq
      subst this
      rw [hq] at hacc; cases hacc
    · obtain ⟨s2, hstep, hrun⟩ := run_succ_of_running cap n s s1 h hq hs
      by_cases h2a : s2.state = FsmState.stACCEPTED
      · have h2 := step_accept_stk cap n s s2 hstep hs h2a
        cases n with
        | zero => simp [run] at hrun
        | succ m =>
          simp [run, h2a] at hrun
          subst hrun
          exact h2
      · exact ih s2 s1 hrun hacc h2a

theorem ParenBalanced_of_pbf (l : List Token) (h : parenBalancedFrom 0 l = true) :
    ParenBalanced l := by
  obtain ⟨h1, h2⟩ := pbf_counts l 0 h
  exact ⟨by simpa using h1, fun n => by simpa using h2 n⟩

/-- C6 (as stated, refuted): the description `A:(;` holds no SIMMAP block and is
accepted, yet it has one `(` and no `)`: the token after the colon is consumed as
the branch length whatever its kind. -/
theorem Parse_accepts_unbalanced :
    NoSimmap descrColonLpar ∧ Accepts 30 10 {} descrColonLpar ∧
      ¬ ParenBalanced descrColonLpar := by
  refine ⟨by unfold NoSimmap; decide, by unfold Accepts; decide, fun h => ?_⟩
  have := h.1
  simp [countKind, descrColonLpar, withPos, tk] at this

/-- C6 (amended): the automaton accepts only with an empty node stack, and in
every accepted description without SIMMAP block the tokens it dispatches on (the
token after each colon left out, everything after the accepting semicolon left
out) have balanced parentheses. -/
theorem Parse_accepted_balanced (cap : Int) (fuel : Nat) (t : Tree) (descr : List Token)
    (hacc : Accepts cap fuel t descr) (hns : NoSimmap descr) :
    (parseFsm cap fuel t descr).map (fun s => s.stk) = some [] ∧
      ParenBalanced (dispatched descr) := by
  unfold Accepts at hacc
  cases hp : parseFsm cap fuel t descr with
  | none => simp [hp] at hacc
  | some s =>
    have hs : s.state = FsmState.stACCEPTED := by simpa [hp] using hacc
    have hrun : run cap fuel (parseInit t descr) = some s := hp
    have hinit : (parseInit t descr).state ≠ FsmState.stACCEPTED := by
      simp [parseInit, Tree.NewNode]
    have hstk : (parseInit t descr).stk = [] := by
      simp [parseInit, Tree.NewNode]
    refine ⟨by simpa using run_accept_stk cap fuel _ s hrun hs hinit, ?_⟩
    apply ParenBalanced_of_pbf
    have hb := run_balanced cap fuel _ s hrun hs hinit (by
      simp only [parseInit, Tree.NewNode]
      apply NoSimmap_next_stream
      intro x hx
      simp only [PState.stream, List.mem_cons] at hx
      rcases hx with rfl | hx
      · simp [eosToken, firstChar]
      · exact hns x hx)
    rw [hstk] at hb
    simp only [parseInit, Tree.NewNode, List.length_nil] at hb
    rw [pbf_next_stream] at hb
    exact hb

/-- C6 (amended), on the description `((A:1,B:2):3,C:4);`. -/
theorem Parse_accepted_balanced_witness :
    Accepts 30 40 {} descrNested ∧ NoSimmap descrNested ∧
      ((parseFsm 30 40 {} descrNested).map (fun s => s.stk) = some [] ∧
        ParenBalanced (dispatched descrNested)) :=
  ⟨by unfold Accepts; decide, by unfold NoSimmap; decide,
    Parse_accepted_balanced 30 40 {} descrNested (by unfold Accepts; decide)
      (by unfold NoSimmap; decide)⟩

/-! ## Runs of the automaton -/

theorem simmapLoop_mono (cap : Int) : ∀ (n : Nat) (a r : SimmapAcc),
    simmapLoop cap n a = some r → ∀ m, n ≤ m → simmapLoop cap m a = some r := by
  intro n
  induction n with
  | zero => intro a r h; simp [simmapLoop] at h
  | succ n ih =>
    intro a r h m hm
    obtain ⟨k, rfl⟩ : ∃ k, m = k + 1 := ⟨m - 1, by omega⟩
    simp only [simmapLoop] at h ⊢
    by_cases hc : firstChar a.token = '}'
    · simpa [hc] using h
    · simp only [hc, if_false] at h ⊢
      rcases hb : simmapBody cap a with ⟨b, a1⟩
      cases b
      · simpa [hb] using h
      · simp only [hb] at h ⊢
        exact ih _ _ h k (by omega)

theorem branchInfo_mono (cap : Int) (n m : Nat) (s s1 : PState)
    (h : branchInfo cap n s = some s1) (hm : n ≤ m) : branchInfo cap m s = some s1 := by
  unfold branchInfo at h ⊢
  by_cases hp : firstChar s.NextToken.token = '{'
  · simp only [hp, if_true] at h ⊢
    split at h
    · cases h
    · rename_i a ha
      rw [simmapLoop_mono cap n _ a ha m hm]
      exact h
  · simpa [hp] using h

theorem step_mono (cap : Int) (n m : Nat) (s s1 : PState)
    (h : step cap n s = some s1) (hm : n ≤ m) : step cap m s = some s1 := by
  cases hs : s.state <;> cases hk : s.token.kind <;>
    simp only [step, hs, hk] at h ⊢ <;>
    first
      | exact h
      | exact branchInfo_mono cap n m s s1 h hm

theorem run_mono (cap : Int) : ∀ (n : Nat) (s s1 : PState), run cap n s = some s1 →
    ∀ m, n ≤ m → run cap m s = some s1 := by
  intro n
  induction n with
  | zero => intro s s1 h; simp [run] at h
  | succ n ih =>
    intro s s1 h m hm
    obtain ⟨k, rfl⟩ : ∃ k, m = k + 1 := ⟨m - 1, by omega⟩
    by_cases ht : s.state = FsmState.stQUIT ∨ s.state = FsmState.stACCEPTED
    · simpa [run, ht] using h
    · simp only [run, ht, if_false] at h ⊢
      cases hs : step cap n s with
      | none => simp [hs] at h
      | some s2 =>
        rw [step_mono cap n k s s2 hs (by omega)]
        simp only [hs] at h
        exact ih s2 s1 h k (by omega)

theorem run_terminal (cap : Int) : ∀ (n : Nat) (s s1 : PState), run cap n s = some s1 →
    s1.state = FsmState.stQUIT ∨ s1.state = FsmState.stACCEPTED := by
  intro n
  induction n with
  | zero => intro s s1 h; simp [run] at h
  | succ n ih =>
    intro s s1 h
    by_cases ht : s.state = FsmState.stQUIT ∨ s.state = FsmState.stACCEPTED
    · simp only [run, ht, if_true, Option.some.injEq] at h
      subst h; exact ht
    · simp only [run, ht, if_false] at h
      cases hs : step cap n s with
      | none => simp [hs] at h
      | some s2 =>
        simp only [hs] at h
        exact ih s2 s1 h

theorem Reach.trans (cap : Int) (s s1 s2 : PState) (h1 : Reach cap s s1)
    (h2 : Reach cap s1 s2) : Reach cap s s2 := by
  induction h1 with
  | refl s => exact h2
  | step fuel s s1 s3 hq ha hs _ ih => exact Reach.step fuel s s1 s2 hq ha hs (ih h2)

theorem Reach.run (cap : Int) (s s1 : PState) (h : Reach cap s s1)
    (ht : s1.state = FsmState.stQUIT ∨ s1.state = FsmState.stACCEPTED) :
    ∃ N, ∀ fuel, N ≤ fuel → TreeLib.run cap fuel s = some s1 := by
  induction h with
  | refl s =>
    refine ⟨1, fun fuel hf => ?_⟩
    obtain ⟨k, rfl⟩ : ∃ k, fuel = k + 1 := ⟨fuel - 1, by omega⟩
    simp [TreeLib.run, ht]
  | step f s s2 s3 hq ha hs _ ih =>
    obtain ⟨N, hN⟩ := ih ht
    refine ⟨max N f + 1, fun fuel hf => ?_⟩
    obtain ⟨k, rfl⟩ : ∃ k, fuel = k + 1 := ⟨fuel - 1, by omega⟩
    simp only [TreeLib.run, hq, ha, or_self, if_false]
    rw [step_mono cap f k s s2 hs (by omega)]
    exact hN k (by omega)

/-- Determinism: a run that ends agrees with every other way of reaching a final
state. -/
theorem Reach.unique (cap : Int) (fuel : Nat) (s s1 s2 : PState) (h : Reach cap s s1)
    (ht : s1.state = FsmState.stQUIT ∨ s1.state = FsmState.stACCEPTED)
    (hr : TreeLib.run cap fuel s = some s2) : s2 = s1 := by
  obtain ⟨N, hN⟩ := Reach.run cap s s1 h ht
  have h1 := hN (max N fuel) (by omega)
  have h2 := run_mono cap fuel s s2 hr (max N fuel) (by omega)
  rw [h1] at h2
  exact (Option.some.inj h2).symm

/-! ## Reading a branchinfo -/

theorem stream_token (s : PState) (t : Token) (r : List Token) (h : s.stream = t :: r) :
    s.token = t ∧ s.rest = r := by
  simp only [PState.stream, List.cons.injEq] at h
  exact h

theorem NextToken_stream_cons (s : PState) (t u : Token) (r : List Token)
    (h : s.stream = t :: u :: r) : s.NextToken.stream = u :: r := by
  obtain ⟨-, h2⟩ := stream_token s t _ h
  simp [PState.NextToken, h2, PState.stream]

theorem reach_one (cap : Int) (fuel : Nat) (s s1 : PState) (hq : s.state ≠ FsmState.stQUIT)
    (ha : s.state ≠ FsmState.stACCEPTED) (h1 : step cap fuel s = some s1) :
    Reach cap s s1 :=
  Reach.step fuel s s1 s1 hq ha h1 (Reach.refl s1)

theorem reach_head (cap : Int) (fuel : Nat) (s s1 : PState) (P : PState → Prop)
    (hq : s.state ≠ FsmState.stQUIT) (ha : s.state ≠ FsmState.stACCEPTED)
    (h1 : step cap fuel s = some s1) (h2 : ∃ s2, Reach cap s1 s2 ∧ P s2) :
    ∃ s2, Reach cap s s2 ∧ P s2 := by
  obtain ⟨s2, hr, hp⟩ := h2
  exact ⟨s2, Reach.step fuel s s1 s2 hq ha h1 hr, hp⟩

/-- After the SIMMAP loop was left by `break`, the automaton reads the rest of the
block as nodes and quits at the closing brace at the latest. -/
theorem quit_after_break (cap : Int) (more : List (Token × Seg)) :
    ∀ (s : PState) (comma time cl : Token) (tail : List Token),
      (s.state = FsmState.stNEXTMOVE ∨ s.state = FsmState.stFINISHCHILDREN) →
      s.stream = comma :: time :: (renderMore more ++ cl :: tail) →
      comma.kind = tokentype.COMMA → IsNum time →
      (∀ p ∈ more, IsColon p.1 ∧ p.2.Valid) → IsBrace '}' cl →
      ∃ s1, Reach cap s s1 ∧ s1.state = FsmState.stQUIT := by
  induction more with
  | nil =>
    intro s comma time cl tail hst hstream hc ht _ hcl
    obtain ⟨htok, hrest⟩ := stream_token s _ _ hstream
    have hk : s.token.kind = tokentype.COMMA := by rw [htok]; exact hc
    have hstep : step cap 0 s = some (commaMove s) := by
      rcases hst with hst | hst <;> simp [step, hst, hk]
    have hne : s.state ≠ FsmState.stQUIT ∧ s.state ≠ FsmState.stACCEPTED := by
      rcases hst with hst | hst <;> simp [hst]
    apply reach_head cap 0 s (commaMove s) _ hne.1 hne.2 hstep
    have hcm := commaMove_ctl s
    by_cases hstk : s.stk = []
    · exact ⟨_, Reach.refl _, hcm.1 hstk⟩
    · obtain ⟨h1, h2, h3⟩ := hcm.2 hstk
      rw [NextToken_stream_cons s _ _ _ hstream] at h3
      simp only [renderMore, List.nil_append] at h3
      obtain ⟨htok1, hrest1⟩ := stream_token _ _ _ h3
      have hk1 : (commaMove s).token.kind = tokentype.NUMBER := by rw [htok1]; exact ht.1
      have hstep1 : step cap 0 (commaMove s) = some (getNameLeaf (commaMove s)) := by
        simp [step, h1, hk1]
      apply reach_head cap 0 _ _ _ (by simp [h1]) (by simp [h1]) hstep1
      obtain ⟨g1, g2, g3⟩ := getNameLeaf_ctl (commaMove s)
      rw [NextToken_stream_cons _ _ _ _ h3] at g3
      obtain ⟨htok2, -⟩ := stream_token _ _ _ g3
      have hk2 : (getNameLeaf (commaMove s)).token.kind = tokentype.OTHER := by
        rw [htok2]; exact hcl.1
      have hstep2 : step cap 0 (getNameLeaf (commaMove s)) =
          some (((getNameLeaf (commaMove s)).setError ErrorCode.errSYNTAX).goto
            FsmState.stQUIT) := by
        simp [step, g1, hk2]
      exact ⟨_, reach_one cap 0 _ _ (by simp [g1]) (by simp [g1]) hstep2, rfl⟩
  | cons p more ih =>
    intro s comma time cl tail hst hstream hc ht hmore hcl
    obtain ⟨sep, g⟩ := p
    obtain ⟨htok, hrest⟩ := stream_token s _ _ hstream
    have hk : s.token.kind = tokentype.COMMA := by rw [htok]; exact hc
    have hstep : step cap 0 s = some (commaMove s) := by
      rcases hst with hst | hst <;> simp [step, hst, hk]
    have hne : s.state ≠ FsmState.stQUIT ∧ s.state ≠ FsmState.stACCEPTED := by
      rcases hst with hst | hst <;> simp [hst]
    apply reach_head cap 0 s (commaMove s) _ hne.1 hne.2 hstep
    have hcm := commaMove_ctl s
    by_cases hstk : s.stk = []
    · exact ⟨_, Reach.refl _, hcm.1 hstk⟩
    · obtain ⟨h1, h2, h3⟩ := hcm.2 hstk
      rw [NextToken_stream_cons s _ _ _ hstream] at h3
      simp only [renderMore, Seg.render, List.cons_append, List.nil_append] at h3
      obtain ⟨htok1, hrest1⟩ := stream_token _ _ _ h3
      have hk1 : (commaMove s).token.kind = tokentype.NUMBER := by rw [htok1]; exact ht.1
      have hstep1 : step cap 0 (commaMove s) = some (getNameLeaf (commaMove s)) := by
        simp [step, h1, hk1]
      apply reach_head cap 0 _ _ _ (by simp [h1]) (by simp [h1]) hstep1
      obtain ⟨g1, g2, g3⟩ := getNameLeaf_ctl (commaMove s)
      rw [NextToken_stream_cons _ _ _ _ h3] at g3
      obtain ⟨htok2, -⟩ := stream_token _ _ _ g3
      obtain ⟨⟨hsepk, hsepc⟩, hgs, hgc, hgt⟩ := hmore (sep, g) (by simp)
      have hk2 : (getNameLeaf (commaMove s)).token.kind = tokentype.COLON := by
        rw [htok2]; exact hsepk
      -- the separator is read as the start of a branch length
      set s2 := getNameLeaf (commaMove s) with hs2
      have hstep2 : step cap 0 s2 = some (s2.goto FsmState.stNEXTMOVE) := by
        simp [step, g1, hk2]
      apply reach_head cap 0 _ _ _ (by simp [g1]) (by simp [g1]) hstep2
      have hfc : firstChar (s2.goto FsmState.stNEXTMOVE).NextToken.token ≠ '{' := by
        have := NextToken_stream_cons (s2.goto FsmState.stNEXTMOVE) _ _ _ g3
        rw [(stream_token _ _ _ this).1]
        exact hgs.2.2.1
      have hb : ∃ s3, branchInfo cap 0 (s2.goto FsmState.stNEXTMOVE) = some s3 := by
        simp [branchInfo, hfc]
      obtain ⟨s3, hb⟩ := hb
      obtain ⟨e1, e2, e3⟩ := branchInfo_plain_ctl cap 0 _ s3 hb hfc
      have hstep3 : step cap 0 (s2.goto FsmState.stNEXTMOVE) = some s3 := by
        simp only [step, goto_state]
        have : (s2.goto FsmState.stNEXTMOVE).token.kind = tokentype.COLON := hk2
        simp only [this]
        exact hb
      apply reach_head cap 0 _ _ _ (by simp) (by simp) hstep3
      have h5 : s3.stream = g.comma :: g.time :: (renderMore more ++ cl :: tail) := by
        have g3a : (s2.goto FsmState.stNEXTMOVE).stream = _ := g3
        rw [e3, NextToken_stream_cons _ _ _ _ (NextToken_stream_cons _ _ _ _ g3a)]
      exact ih s3 g.comma g.time cl tail (Or.inl (by rw [e1]; rfl)) h5 hgc hgt
        (fun p hp => hmore p (by simp [hp])) hcl

theorem simmapBody_seg (cap : Int) (a : SimmapAcc) (lead : Option Token) (g : Seg)
    (nxt : Token) (rest1 : List Token)
    (hrest : a.rest = lead.toList ++ g.render ++ nxt :: rest1)
    (hlead : ∀ l ∈ lead, firstChar l = ':') (hg : firstChar g.state ≠ ':') :
    simmapBody cap a =
      if g.state.ival ≥ cap then
        (false, a.broken g.state (g.comma :: g.time :: nxt :: rest1))
      else (true, a.push g.value nxt rest1) := by
  cases lead with
  | none =>
    simp only [Option.toList, Seg.render, List.nil_append, List.cons_append] at hrest
    by_cases hc : g.state.ival ≥ cap
    · simp [simmapBody, SimmapAcc.NextToken, hrest, hg, hc, SimmapAcc.broken]
    · simp [simmapBody, SimmapAcc.NextToken, hrest, hg, hc, SimmapAcc.push, tableAdd,
        Seg.value]
  | some l =>
    have hl := hlead l (by simp)
    simp only [Option.toList, Seg.render, List.nil_append, List.cons_append] at hrest
    by_cases hc : g.state.ival ≥ cap
    · simp [simmapBody, SimmapAcc.NextToken, hrest, hl, hc, SimmapAcc.broken]
    · simp [simmapBody, SimmapAcc.NextToken, hrest, hl, hc, SimmapAcc.push, tableAdd,
        Seg.value]

theorem pushAll_nil (a : SimmapAcc) : a.pushAll [] a.token a.rest = a := by
  cases a; simp [SimmapAcc.pushAll]

theorem push_pushAll (a : SimmapAcc) (v : Int × FP) (vs : List (Int × FP))
    (n1 n2 : Token) (r1 r2 : List Token) :
    (a.push v n1 r1).pushAll vs n2 r2 = a.pushAll (v :: vs) n2 r2 := by
  simp [SimmapAcc.pushAll, SimmapAcc.push, Bool.or_assoc]

theorem simmapLoop_more (cap : Int) : ∀ (more : List (Token × Seg)) (a : SimmapAcc)
    (cl : Token) (tail : List Token),
    a.token :: a.rest = renderMore more ++ cl :: tail →
    (∀ p ∈ more, IsColon p.1 ∧ p.2.Valid) → IsBrace '}' cl →
    ∃ n r, simmapLoop cap n a = some r ∧
      SimmapOutcome cap r (a.pushAll (moreValues more) cl tail)
        (∀ p ∈ more, p.2.state.ival < cap) cl tail := by
  intro more
  induction more with
  | nil =>
    intro a cl tail hs _ hcl
    simp only [renderMore, List.nil_append, List.cons.injEq] at hs
    refine ⟨1, a, by simp [simmapLoop, hs.1, hcl.2], Or.inl ⟨?_, by simp⟩⟩
    rw [← hs.1, ← hs.2]
    exact (pushAll_nil a).symm
  | cons p more ih =>
    intro a cl tail hs hv hcl
    obtain ⟨sep, g⟩ := p
    obtain ⟨⟨-, hsepc⟩, hgv⟩ := hv (sep, g) (by simp)
    simp only [renderMore, List.cons_append, List.cons.injEq] at hs
    obtain ⟨htok, hrest⟩ := hs
    obtain ⟨nxt, rest1, hnr⟩ : ∃ nxt rest1, renderMore more ++ cl :: tail = nxt :: rest1 := by
      cases h : renderMore more ++ cl :: tail with
      | nil => simp at h
      | cons x l => exact ⟨x, l, rfl⟩
    have hbody := simmapBody_seg cap a none g nxt rest1
      (by rw [hrest, List.append_assoc, hnr]; rfl) (by simp) hgv.1.2.1
    have hhead : ¬ firstChar a.token = '}' := by rw [htok, hsepc]; decide
    by_cases hc : g.state.ival ≥ cap
    · have hl : simmapLoop cap 1 a =
          some (a.broken g.state (g.comma :: g.time :: nxt :: rest1)) := by
        simp only [simmapLoop, hhead, if_false, hbody, hc, if_true]
      exact ⟨1, _, hl, Or.inr ⟨rfl, g, more, rfl, by simp [SimmapAcc.broken, hnr], hgv.2.1, hgv.2.2,
          fun p hp => hv p (by simp [hp]), by omega⟩⟩
    · obtain ⟨n, r, hn, hout⟩ := ih (a.push g.value nxt rest1) cl tail
        (by simp [SimmapAcc.push, hnr]) (fun p hp => hv p (by simp [hp])) hcl
      refine ⟨n + 1, r, by simp only [simmapLoop, hhead, if_false, hbody, hc]; exact hn, ?_⟩
      rcases hout with ⟨h1, h2⟩ | h
      · refine Or.inl ⟨?_, ?_⟩
        · rw [h1, push_pushAll]; rfl
        · intro p hp
          simp only [List.mem_cons] at hp
          rcases hp with rfl | hp
          · simpa using hc
          · exact h2 p hp
      · exact Or.inr h

theorem simmapLoop_block (cap : Int) (a : SimmapAcc) (lead : Option Token) (first : Seg)
    (more : List (Token × Seg)) (cl : Token) (tail : List Token)
    (hhead : firstChar a.token ≠ '}')
    (hrest : a.rest = lead.toList ++ first.render ++ renderMore more ++ cl :: tail)
    (hlead : ∀ l ∈ lead, IsColon l) (hf : first.Valid)
    (hv : ∀ p ∈ more, IsColon p.1 ∧ p.2.Valid) (hcl : IsBrace '}' cl) :
    ∃ n r, simmapLoop cap n a = some r ∧
      SimmapOutcome cap r (a.pushAll (first.value :: moreValues more) cl tail)
        (first.state.ival < cap ∧ ∀ p ∈ more, p.2.state.ival < cap) cl tail := by
  obtain ⟨nxt, rest1, hnr⟩ : ∃ nxt rest1, renderMore more ++ cl :: tail = nxt :: rest1 := by
    cases h : renderMore more ++ cl :: tail with
    | nil => simp at h
    | cons x l => exact ⟨x, l, rfl⟩
  have hbody := simmapBody_seg cap a lead first nxt rest1
    (by rw [hrest, List.append_assoc, hnr]) (fun l hl => (hlead l hl).2) hf.1.2.1
  by_cases hc : first.state.ival ≥ cap
  · have hl : simmapLoop cap 1 a =
        some (a.broken first.state (first.comma :: first.time :: nxt :: rest1)) := by
      simp only [simmapLoop, hhead, if_false, hbody, hc, if_true]
    exact ⟨1, _, hl,
      Or.inr ⟨rfl, first, more, rfl, by simp [SimmapAcc.broken, hnr], hf.2.1, hf.2.2, hv,
        by omega⟩⟩
  · obtain ⟨n, r, hn, hout⟩ := simmapLoop_more cap more (a.push first.value nxt rest1) cl tail
      (by simp [SimmapAcc.push, hnr]) hv hcl
    refine ⟨n + 1, r, by simp only [simmapLoop, hhead, if_false, hbody, hc]; exact hn, ?_⟩
    rcases hout with ⟨h1, h2⟩ | h
    · exact Or.inl ⟨by rw [h1, push_pushAll], by omega, h2⟩
    · exact Or.inr h

theorem step_colon (cap : Int) (n : Nat) (s : PState)
    (hst : s.state = FsmState.stNEXTMOVE ∨ s.state = FsmState.stFINISHCHILDREN)
    (hk : s.token.kind = tokentype.COLON) : step cap n s = branchInfo cap n s := by
  rcases hst with hst | hst <;> simp [step, hst, hk]

theorem running_of (s : PState)
    (hst : s.state = FsmState.stNEXTMOVE ∨ s.state = FsmState.stFINISHCHILDREN) :
    s.state ≠ FsmState.stQUIT ∧ s.state ≠ FsmState.stACCEPTED := by
  rcases hst with hst | hst <;> simp [hst]

theorem Branch.apply_simmap (cap : Int) (c o : Token) (lead : Option Token) (first : Seg)
    (more : List (Token × Seg)) (cl : Token) :
    Branch.apply cap (Branch.simmap c o lead first more cl) = fun n =>
      { n with
        ModelCategory :=
          List.foldl tableAdd (tableAdd (List.replicate cap.toNat 0) first.value)
            (moreValues more)
        StateOrder := first.value.1 :: List.map Prod.fst (moreValues more)
        StateTimes := first.value.2 :: List.map Prod.snd (moreValues more)
        Length :=
          List.foldl (fun x y => x + y) (0 + first.value.2)
            (List.map Prod.snd (moreValues more)) } := by
  funext n
  simp [Branch.apply, segValues]

theorem branch_reach (cap : Int) (bi : Branch) (hv : bi.Valid) (s : PState)
    (tail : List Token) (htail : tail ≠ [])
    (hst : s.state = FsmState.stNEXTMOVE ∨ s.state = FsmState.stFINISHCHILDREN)
    (hstream : s.stream = bi.render ++ tail) (hbi : bi.present = true) :
    ∃ s1, Reach cap s s1 ∧ (s1.state = FsmState.stQUIT ∨ BranchPost cap bi s s1 tail) := by
  obtain ⟨u, r, rfl⟩ : ∃ u r, tail = u :: r := by
    cases tail with
    | nil => exact absurd rfl htail
    | cons u r => exact ⟨u, r, rfl⟩
  obtain ⟨hq, ha⟩ := running_of s hst
  cases bi with
  | absent => simp [Branch.present] at hbi
  | length c num =>
    simp only [Branch.render, List.cons_append, List.nil_append] at hstream
    obtain ⟨htok, hrest⟩ := stream_token s _ _ hstream
    obtain ⟨hc, hn⟩ := hv
    have hfc : firstChar s.NextToken.token ≠ '{' := by
      simp [PState.NextToken, hrest, hn.2.2.1]
    have hb : branchInfo cap 0 s =
        some (s.withBranch cap (Branch.length c num) s.oob u r) := by
      simp [branchInfo, hn.2.2.1, PState.NextToken, hrest, PState.modCur,
        PState.withBranch]
      rfl
    refine ⟨_, reach_one cap 0 s _ hq ha
      (by rw [step_colon cap 0 s hst (by rw [htok]; exact hc.1)]; exact hb), Or.inr ?_⟩
    simp [BranchPost, PState.stream, Branch.InRange, PState.withBranch]
  | simmap c o lead first more cl =>
    obtain ⟨hc, ho, hlead, hf, hmore, hcl⟩ := hv
    simp only [Branch.render, List.cons_append, List.append_assoc, List.nil_append]
      at hstream
    obtain ⟨htok, hrest⟩ := stream_token s _ _ hstream
    have hk : s.token.kind = tokentype.COLON := by rw [htok]; exact hc.1
    have hnt : s.NextToken = { s with token := o, rest := lead.toList ++ (first.render ++
        (renderMore more ++ cl :: u :: r)) } := by
      simp [PState.NextToken, hrest]
    obtain ⟨n, a, hloop, hout⟩ := simmapLoop_block cap
      { modelvector := List.replicate cap.toNat 0, stateordervector := [],
        statetimesvector := [], totaledgelength := 0, tooMany := false, oob := false,
        token := o, rest := lead.toList ++ (first.render ++ (renderMore more ++ cl :: u :: r)) }
      lead first more cl (u :: r) (by simp [ho.2]) (by simp) hlead hf hmore hcl
    have hfc : firstChar s.NextToken.token = '{' := by rw [hnt]; exact ho.2
    rcases hout with ⟨hgood, hin⟩ | ⟨htm, g, more1, hgt, hgr, hgc, hgtime, hm1, -⟩
    · have hb : branchInfo cap n s =
          some (s.withBranch cap (Branch.simmap c o lead first more cl)
            (s.oob || (false || (segValues first more).any fun v => decide (v.1 < 0))) u r) := by
        simp only [branchInfo, hfc, if_true]
        rw [hnt]
        simp only [hloop]
        rw [hgood]
        simp [SimmapAcc.pushAll, PState.NextToken, PState.modCur, PState.withBranch,
          segValues]
        rw [Branch.apply_simmap]
      refine ⟨_, reach_one cap n s _ hq ha (by rw [step_colon cap n s hst hk]; exact hb),
        Or.inr ?_⟩
      exact ⟨rfl, rfl, rfl, rfl, hin, rfl⟩
    · -- the loop was left by `break`
      have hb : ∃ s1, branchInfo cap n s = some s1 ∧ s1.state = s.state ∧
          s1.stream = g.comma :: g.time :: (renderMore more1 ++ cl :: u :: r) := by
        simp only [branchInfo, hfc, if_true]
        rw [hnt]
        simp only [hloop]
        refine ⟨_, rfl, ?_, ?_⟩
        · simp [htm, PState.NextToken, hgr, PState.modCur, PState.setError]
        · simp [htm, PState.NextToken, hgr, PState.modCur, PState.setError, PState.stream]
      obtain ⟨s1, hb1, hb2, hb3⟩ := hb
      have := quit_after_break cap more1 s1 g.comma g.time cl (u :: r) (by rw [hb2]; exact hst)
        hb3 hgc hgtime hm1 hcl
      obtain ⟨s2, hr2, hq2⟩ := this
      exact ⟨s2, Reach.step n s s1 s2 hq ha (by rw [step_colon cap n s hst hk]; exact hb1) hr2,
        Or.inl hq2⟩

/-! ## Reading nodes and chains of children -/

theorem commaMove_goto (s : PState) (st : FsmState) : commaMove (s.goto st) = commaMove s := by
  cases h : s.stk <;> simp [commaMove, PState.goto, h, PState.setError, PState.NextToken]

theorem rparMove_goto (s : PState) (st : FsmState) : rparMove (s.goto st) = rparMove s := by
  cases h : s.stk <;> simp [rparMove, PState.goto, h, PState.setError, PState.NextToken]

theorem lparMove_goto (s : PState) (st : FsmState) : lparMove (s.goto st) = lparMove s := by
  cases h : s.rest <;> simp [lparMove, PState.goto, PState.NextToken, h]

/-- From any of the three states a node can end in, a comma leads to `commaMove`. -/
theorem comma_reach (cap : Int) (s : PState)
    (hst : s.state = FsmState.stGETINTERNODE ∨ s.state = FsmState.stNEXTMOVE ∨
      s.state = FsmState.stFINISHCHILDREN)
    (hk : s.token.kind = tokentype.COMMA) : Reach cap s (commaMove s) := by
  rcases hst with h | h | h
  · refine Reach.step 0 s (s.goto FsmState.stNEXTMOVE) _ (by simp [h]) (by simp [h])
      (by simp [step, h, hk]) (reach_one cap 0 _ _ (by simp) (by simp) ?_)
    have : (s.goto FsmState.stNEXTMOVE).token.kind = tokentype.COMMA := hk
    simp [step, this, commaMove_goto]
  · exact reach_one cap 0 _ _ (by simp [h]) (by simp [h]) (by simp [step, h, hk])
  · exact reach_one cap 0 _ _ (by simp [h]) (by simp [h]) (by simp [step, h, hk])

/-- From any of the three states a node can end in, a closing parenthesis leads to
`rparMove`. -/
theorem rpar_reach (cap : Int) (s : PState)
    (hst : s.state = FsmState.stGETINTERNODE ∨ s.state = FsmState.stNEXTMOVE ∨
      s.state = FsmState.stFINISHCHILDREN)
    (hk : s.token.kind = tokentype.RPAR) : Reach cap s (rparMove s) := by
  rcases hst with h | h | h
  · refine Reach.step 0 s (s.goto FsmState.stNEXTMOVE) _ (by simp [h]) (by simp [h])
      (by simp [step, h, hk]) (reach_one cap 0 _ _ (by simp) (by simp) ?_)
    have : (s.goto FsmState.stNEXTMOVE).token.kind = tokentype.RPAR := hk
    simp [step, this, rparMove_goto]
  · exact reach_one cap 0 _ _ (by simp [h]) (by simp [h]) (by simp [step, h, hk])
  · exact reach_one cap 0 _ _ (by simp [h]) (by simp [h]) (by simp [step, h, hk])

/-- An opening parenthesis met in `stGETNAME` leads to `lparMove`. -/
theorem lpar_reach (cap : Int) (s : PState) (hst : s.state = FsmState.stGETNAME)
    (hk : s.token.kind = tokentype.LPAR) : Reach cap s (lparMove s) := by
  refine Reach.step 0 s (s.goto FsmState.stNEXTMOVE) _ (by simp [hst]) (by simp [hst])
    (by simp [step, hst, hk]) (reach_one cap 0 _ _ (by simp) (by simp) ?_)
  have : (s.goto FsmState.stNEXTMOVE).token.kind = tokentype.LPAR := hk
  simp [step, this, lparMove_goto]

theorem NextToken_tree (s : PState) : s.NextToken.tree = s.tree := by
  cases h : s.rest <;> simp [PState.NextToken, h]

theorem NextToken_cur (s : PState) : s.NextToken.cur = s.cur := by
  cases h : s.rest <;> simp [PState.NextToken, h]

theorem getNameLeaf_tree (s : PState) :
    (getNameLeaf s).tree =
      { s.tree with
        Leaves := s.tree.Leaves + 1
        heap := s.tree.heap.modify s.cur fun n =>
          { n with Leaf := true, LeafNumber := s.tree.Leaves + 1, Weight := 1,
                   Label := s.token.text, Degree := 0 } } := by
  simp [getNameLeaf, PState.goto, NextToken_tree, PState.modCur]

theorem getNameLeaf_cur (s : PState) : (getNameLeaf s).cur = s.cur := by
  simp [getNameLeaf, PState.goto, NextToken_cur, PState.modCur]

theorem Branch.render_head (bi : Branch) (hp : bi.present = true) (hv : bi.Valid) :
    ∃ c r, bi.render = c :: r ∧ c.kind = tokentype.COLON := by
  cases bi with
  | absent => simp [Branch.present] at hp
  | length c n => exact ⟨c, _, rfl, hv.1.1⟩
  | simmap c o lead first more cl => exact ⟨c, _, rfl, hv.1.1⟩

theorem Branch.apply_absent (cap : Int) (n : Node) : Branch.apply cap Branch.absent n = n := rfl

theorem Branch.inRange_of_absent (cap : Int) (bi : Branch) (hp : bi.present = false) :
    bi.InRange cap := by
  cases bi <;> simp_all [Branch.present, Branch.InRange]

theorem Branch.apply_of_absent (cap : Int) (bi : Branch) (hp : bi.present = false) (n : Node) :
    bi.apply cap n = n := by
  cases bi <;> simp_all [Branch.present, Branch.apply]

theorem leaf_reach (cap : Int) (s : PState) (x : Nat) (a : Option Nat) (name : Token)
    (bi : Branch) (tail : List Token) (htail : tail ≠ []) (hname : IsName name)
    (hbi : bi.Valid) (hst : s.state = FsmState.stGETNAME) (hcur : s.cur = x)
    (hstream : s.stream = name :: (bi.render ++ tail))
    (hx : s.tree.heap x = { Anc := a }) :
    ∃ s1, Reach cap s s1 ∧ (s1.state = FsmState.stQUIT ∨
      NodePost cap s s1 x (expLeaf cap a none name bi (s.tree.Leaves + 1)) PT.nil bi true
        tail) := by
  obtain ⟨htok, hrest⟩ := stream_token s _ _ hstream
  have hstep : step cap 0 s = some (getNameLeaf s) := by
    rcases hname with h | h <;> simp [step, hst, htok, h]
  obtain ⟨g1, g2, g3⟩ := getNameLeaf_ctl s
  obtain ⟨u, r, hur⟩ : ∃ u r, bi.render ++ tail = u :: r := by
    cases h : bi.render ++ tail with
    | nil => simp at h; exact absurd h.2 htail
    | cons u r => exact ⟨u, r, rfl⟩
  rw [NextToken_stream_cons s _ _ _ (by rw [hstream, hur])] at g3
  have hheap : (getNameLeaf s).tree.heap x =
      { Anc := a, Label := name.text, Leaf := true, Weight := 1,
        LeafNumber := s.tree.Leaves + 1 } := by
    rw [getNameLeaf_tree]
    simp [hcur, hx, htok]
  have hlow : ∀ y, y < x → (getNameLeaf s).tree.heap y = s.tree.heap y := by
    intro y hy
    rw [getNameLeaf_tree]
    simp [hcur, Nat.ne_of_lt hy]
  apply reach_head cap 0 s _ _ (by simp [hst]) (by simp [hst]) hstep
  by_cases hp : bi.present = true
  · obtain ⟨c, r1, hc1, hc2⟩ := Branch.render_head bi hp hbi
    have htok1 : (getNameLeaf s).token.kind = tokentype.COLON := by
      have := (stream_token _ _ _ g3).1
      rw [hc1] at hur
      simp only [List.cons_append, List.cons.injEq] at hur
      rw [this, ← hur.1]; exact hc2
    apply reach_head cap 0 _ ((getNameLeaf s).goto FsmState.stNEXTMOVE) _ (by simp [g1])
      (by simp [g1]) (by simp [step, g1, htok1])
    obtain ⟨s3, hr3, h3⟩ := branch_reach cap bi hbi ((getNameLeaf s).goto FsmState.stNEXTMOVE)
      tail htail (Or.inl rfl) (by rw [goto_stream, g3, hur]) hp
    refine ⟨s3, hr3, ?_⟩
    rcases h3 with h3 | ⟨b1, b2, b3, b4, b5, b6⟩
    · exact Or.inl h3
    · right
      have b6a : s3.tree = { (getNameLeaf s).tree with
          heap := (getNameLeaf s).tree.heap.modify x (bi.apply cap), EdgeLengths := true } := by
        rw [b6]; simp [PState.goto, getNameLeaf_cur, hcur]
      refine ⟨by simp [b1, hp], by simp [b2, PState.goto, getNameLeaf_cur, hcur],
        by rw [b3]; exact g2, b4, ?_, ?_, ?_, ?_, ?_, ?_, trivial, ?_, b5, trivial⟩
      · rw [b6a, getNameLeaf_tree]; simp [PT.size]
      · rw [b6a, getNameLeaf_tree]; simp [PT.leaves]
      · rw [b6a, getNameLeaf_tree]; simp [PT.internals]
      · rw [b6a, getNameLeaf_tree]
      · rw [b6a]; simp [hp, PT.hasBranch]
      · rw [b6a]; simp [hheap, expLeaf]
      · intro y hy
        rw [b6a]; simp [Nat.ne_of_lt hy, hlow y hy]
  · have hp1 : bi.present = false := by simpa using hp
    refine ⟨getNameLeaf s, Reach.refl _, Or.inr ?_⟩
    refine ⟨by simp [g1, hp1], by simp [getNameLeaf_cur, hcur], g2, ?_, ?_, ?_, ?_, ?_, ?_,
      ?_, trivial, hlow, Branch.inRange_of_absent cap bi hp1, trivial⟩
    · rw [g3, ← hur]
      cases bi <;> simp_all [Branch.present, Branch.render]
    · rw [getNameLeaf_tree]; simp [PT.size]
    · rw [getNameLeaf_tree]; simp [PT.leaves]
    · rw [getNameLeaf_tree]; simp [PT.internals]
    · rw [getNameLeaf_tree]
    · rw [getNameLeaf_tree]; simp [hp1, PT.hasBranch]
    · rw [hheap, expLeaf, Branch.apply_of_absent cap bi hp1]

theorem labelMove_tree (s : PState) :
    (labelMove s).tree =
      { s.tree with
        heap := s.tree.heap.modify s.cur fun n => { n with Label := s.token.text }
        InternalLabels := true } := by
  simp [labelMove, NextToken_tree, PState.modCur]

theorem labelMove_cur (s : PState) : (labelMove s).cur = s.cur := by
  simp [labelMove, NextToken_cur, PState.modCur]

theorem Heap.modify_modify (h : Heap) (p : Nat) (f g : Node → Node) :
    (h.modify p f).modify p g = h.modify p fun n => g (f n) := by
  funext q
  by_cases hq : q = p <;> simp [Heap.modify, Heap.set, hq]

theorem Heap.modify_id (h : Heap) (p : Nat) : (h.modify p fun n => n) = h := by
  funext q
  by_cases hq : q = p <;> simp [Heap.modify, Heap.set, hq]

theorem branch_opt_reach (cap : Int) (bi : Branch) (hv : bi.Valid) (s : PState)
    (tail : List Token) (htail : tail ≠ [])
    (hst : s.state = FsmState.stFINISHCHILDREN)
    (hstream : s.stream = bi.render ++ tail) :
    ∃ s1, Reach cap s s1 ∧
      (s1.state = FsmState.stQUIT ∨ LabelBranchPost cap none bi s s1 tail) := by
  by_cases hp : bi.present = true
  · obtain ⟨s1, hr, h1⟩ := branch_reach cap bi hv s tail htail (Or.inr hst) hstream hp
    refine ⟨s1, hr, ?_⟩
    rcases h1 with h1 | ⟨b1, b2, b3, b4, b5, b6⟩
    · exact Or.inl h1
    · refine Or.inr ⟨by rw [b1, hst], b2, b3, b4, b5, ?_⟩
      rw [b6]; simp [hp, applyLabel]
  · have hp1 : bi.present = false := by simpa using hp
    refine ⟨s, Reach.refl _, Or.inr ⟨hst, rfl, rfl, ?_, Branch.inRange_of_absent cap bi hp1, ?_⟩⟩
    · rw [hstream]; cases bi <;> simp_all [Branch.present, Branch.render]
    · have : (fun n => bi.apply cap (applyLabel none n)) = fun n => n := by
        funext n; simp [applyLabel, Branch.apply_of_absent cap bi hp1]
      rw [this, Heap.modify_id]; simp [hp1]

theorem label_branch_reach (cap : Int) (label : Option Token) (bi : Branch)
    (hl : ∀ l ∈ label, IsName l) (hv : bi.Valid) (s : PState)
    (tail : List Token) (htail : tail ≠ [])
    (hst : s.state = FsmState.stFINISHCHILDREN)
    (hstream : s.stream = label.toList ++ (bi.render ++ tail)) :
    ∃ s1, Reach cap s s1 ∧
      (s1.state = FsmState.stQUIT ∨ LabelBranchPost cap label bi s s1 tail) := by
  cases label with
  | none => exact branch_opt_reach cap bi hv s tail htail hst (by simpa using hstream)
  | some l =>
    simp only [Option.toList, List.cons_append, List.nil_append] at hstream
    obtain ⟨htok, hrest⟩ := stream_token s _ _ hstream
    have hstep : step cap 0 s = some (labelMove s) := by
      rcases hl l (by simp) with h | h <;> simp [step, hst, htok, h]
    obtain ⟨g1, g2, g3⟩ := labelMove_ctl s
    obtain ⟨u, r, hur⟩ : ∃ u r, bi.render ++ tail = u :: r := by
      cases h : bi.render ++ tail with
      | nil => simp at h; exact absurd h.2 htail
      | cons u r => exact ⟨u, r, rfl⟩
    rw [NextToken_stream_cons s _ _ _ (by rw [hstream, hur])] at g3
    apply reach_head cap 0 s _ _ (by simp [hst]) (by simp [hst]) hstep
    obtain ⟨s1, hr, h1⟩ := branch_opt_reach cap bi hv (labelMove s) tail htail
      (by rw [g1, hst]) (by rw [g3, hur])
    refine ⟨s1, hr, ?_⟩
    rcases h1 with h1 | ⟨b1, b2, b3, b4, b5, b6⟩
    · exact Or.inl h1
    · refine Or.inr ⟨b1, by rw [b2, labelMove_cur], by rw [b3, g2], b4, b5, ?_⟩
      rw [b6, labelMove_tree, labelMove_cur]
      simp [Heap.modify_modify, applyLabel, htok]

theorem lparMove_tree (s : PState) :
    (lparMove s).tree =
      { s.tree with
        Internals := s.tree.Internals + 1
        next := s.tree.next + 1
        heap := (((s.tree.heap.set s.tree.next {}).modify s.cur fun n =>
            { n with Child := some s.tree.next }).modify s.tree.next fun n =>
            { n with Anc := some s.cur }).IncrementDegree s.cur } := by
  simp [lparMove, PState.goto, NextToken_tree, Tree.NewNode]

theorem lparMove_cur (s : PState) : (lparMove s).cur = s.tree.next := by
  simp [lparMove, PState.goto, NextToken_cur, Tree.NewNode]

theorem Matches_congr (cap : Int) (h h1 : Heap) (F : PT) : ∀ (a : Option Nat) (x : Nat) (L : Int),
    (∀ y, x ≤ y → y < x + F.size → h1 y = h y) → Matches cap h a x L F →
      Matches cap h1 a x L F := by
  induction F with
  | nil => intro _ _ _ _ _; trivial
  | leaf name bi comma sib ih =>
    intro a x L hy hm
    simp only [PT.size] at hy
    exact ⟨by rw [hy x (by omega) (by omega)]; exact hm.1,
      ih a (x + 1) (L + 1) (fun y h1 h2 => hy y (by omega) (by omega)) hm.2⟩
  | internal lpar child rpar label bi comma sib ihc ihs =>
    intro a x L hy hm
    simp only [PT.size] at hy
    exact ⟨by rw [hy x (by omega) (by omega)]; exact hm.1,
      ihc (some x) (x + 1) L (fun y h1 h2 => hy y (by omega) (by omega)) hm.2.1,
      ihs a _ _ (fun y h1 h2 => hy y (by omega) (by omega)) hm.2.2⟩

theorem PT.size_pos (F : PT) (h : F.isNil = false) : 0 < F.size := by
  cases F <;> simp_all [PT.isNil, PT.size]

theorem PT.chainLen_pos (F : PT) (h : F.isNil = false) : 0 < F.chainLen := by
  cases F <;> simp_all [PT.isNil, PT.chainLen]

theorem internal_reach (cap : Int) (child : PT) (hchild : ForestClaim cap child)
    (s : PState) (x : Nat) (a : Option Nat) (lpar rpar : Token) (label : Option Token)
    (bi : Branch) (tail : List Token) (htail : tail ≠ [])
    (hlp : lpar.kind = tokentype.LPAR) (hcn : child.isNil = false) (hcv : child.Valid)
    (hrp : rpar.kind = tokentype.RPAR) (hl : ∀ l ∈ label, IsName l) (hv : bi.Valid)
    (hst : s.state = FsmState.stGETNAME) (hcur : s.cur = x)
    (hstream : s.stream = lpar :: (child.render ++ rpar :: (label.toList ++ (bi.render ++ tail))))
    (hx : s.tree.heap x = { Anc := a }) (hnext : s.tree.next = x + 1) :
    ∃ s1, Reach cap s s1 ∧ (s1.state = FsmState.stQUIT ∨
      NodePost cap s s1 x (expInternal cap a x none child label bi) child bi false tail) := by
  obtain ⟨htok, hrest⟩ := stream_token s _ _ hstream
  have hr1 := lpar_reach cap s hst (by rw [htok]; exact hlp)
  obtain ⟨g1, g2, g3⟩ := lparMove_ctl s
  have htail1 : label.toList ++ (bi.render ++ tail) ≠ [] := by simp [htail]
  obtain ⟨u, r, hur⟩ : ∃ u r, child.render ++ rpar :: (label.toList ++ (bi.render ++ tail)) =
      u :: r := by
    cases h : child.render ++ rpar :: (label.toList ++ (bi.render ++ tail)) with
    | nil => simp at h
    | cons u r => exact ⟨u, r, rfl⟩
  rw [NextToken_stream_cons s _ _ _ (by rw [hstream, hur]), ← hur] at g3
  have hh1x : (lparMove s).tree.heap x = { Anc := a, Child := some (x + 1), Degree := 1 } := by
    rw [lparMove_tree]
    simp [hcur, hnext, Heap.IncrementDegree, hx]
  have hh1q : (lparMove s).tree.heap (x + 1) = { Anc := some x } := by
    rw [lparMove_tree]
    simp [hcur, hnext, Heap.IncrementDegree]
  have hh1low : ∀ y, y < x → (lparMove s).tree.heap y = s.tree.heap y := by
    intro y hy
    rw [lparMove_tree]
    simp [hcur, hnext, Heap.IncrementDegree, Nat.ne_of_lt hy,
      Nat.ne_of_lt (Nat.lt_succ_of_lt hy)]
  obtain ⟨s2, hr2, h2⟩ := hchild (lparMove s) x (x + 1) s.stk rpar
    (label.toList ++ (bi.render ++ tail)) hcn hcv g1 (by rw [lparMove_cur, hnext])
    (by rw [g2, hcur]) g3 hrp htail1 (by rw [lparMove_tree]; simp [hnext]) hh1q (by omega)
  rcases h2 with h2 | ⟨f1, f2, f3, f4, f5, f6, f7, f8, f9, f10, f11, f12, f13⟩
  · exact ⟨s2, Reach.trans cap _ _ _ hr1 hr2, Or.inl h2⟩
  obtain ⟨s3, hr3, h3⟩ := label_branch_reach cap label bi hl hv s2 tail htail f1 f4
  refine ⟨s3, Reach.trans cap _ _ _ hr1 (Reach.trans cap _ _ _ hr2 hr3), ?_⟩
  rcases h3 with h3 | ⟨b1, b2, b3, b4, b5, b6⟩
  · exact Or.inl h3
  right
  have hs3heap : s3.tree.heap = s2.tree.heap.modify x fun n => bi.apply cap (applyLabel label n) := by
    rw [b6, f2]
  have hcl := PT.chainLen_pos child hcn
  refine ⟨by simp [b1], by rw [b2, f2], by rw [b3, f3], b4, ?_, ?_, ?_, ?_, ?_, ?_, ?_, ?_, b5,
    f13⟩
  · rw [b6]; simp only; rw [f5, hnext]
  · rw [b6]; simp only; rw [f6, lparMove_tree]; simp
  · rw [b6]; simp only; rw [f7, lparMove_tree]; simp
  · rw [b6]; simp only; rw [f8, lparMove_tree]
  · rw [b6]; simp only; rw [f9, lparMove_tree]
    cases bi.present <;> cases s.tree.EdgeLengths <;> cases child.hasBranch <;> rfl
  · rw [hs3heap, Heap.modify_same, f12, hh1x, expInternal]
    congr 1
    cases label <;> simp [applyLabel, labelText]
  · refine Matches_congr cap s2.tree.heap _ child _ _ _ (fun y h1 h2 => ?_) ?_
    · rw [hs3heap]; simp [show y ≠ x by omega]
    · have : (lparMove s).tree.Leaves = s.tree.Leaves := by rw [lparMove_tree]
      rw [← this]; exact f10
  · intro y hy
    rw [hs3heap, Heap.modify_ne _ _ _ _ (by omega), f11 y (by omega) (by omega), hh1low y hy]

theorem commaMove_tree (s : PState) (a : Nat) (stk : List Nat) (h : s.stk = a :: stk) :
    (commaMove s).tree =
      { s.tree with
        next := s.tree.next + 1
        heap := ((((s.tree.heap.set s.tree.next {}).modify s.cur fun n =>
            { n with Sib := some s.tree.next }).modify s.tree.next fun n =>
            { n with Anc := some a }).AddWeight a
              ((((s.tree.heap.set s.tree.next {}).modify s.cur fun n =>
                { n with Sib := some s.tree.next }).modify s.tree.next fun n =>
                { n with Anc := some a }) s.cur).Weight).IncrementDegree a } := by
  simp [commaMove, h, PState.goto, NextToken_tree, Tree.NewNode]

theorem commaMove_cur (s : PState) (a : Nat) (stk : List Nat) (h : s.stk = a :: stk) :
    (commaMove s).cur = s.tree.next := by
  simp [commaMove, h, PState.goto, NextToken_cur, Tree.NewNode]

theorem rparMove_tree (s : PState) (a : Nat) (stk : List Nat) (h : s.stk = a :: stk) :
    (rparMove s).tree =
      { s.tree with heap := s.tree.heap.AddWeight a (s.tree.heap s.cur).Weight } := by
  simp [rparMove, h, PState.goto, NextToken_tree]

theorem rparMove_cur (s : PState) (a : Nat) (stk : List Nat) (h : s.stk = a :: stk) :
    (rparMove s).cur = a := by
  simp [rparMove, h, PState.goto, NextToken_cur]

theorem PT.eq_nil_of_isNil (F : PT) (h : F.isNil = true) : F = PT.nil := by
  cases F <;> simp_all [PT.isNil]

theorem chain_rest (cap : Int) (sib : PT) (ih : ForestClaim cap sib) (hsv : sib.Valid)
    (comma rpar : Token) (hcomma : sib.isNil = false → comma.kind = tokentype.COMMA)
    (hrp : rpar.kind = tokentype.RPAR) (s1 : PState) (a x n : Nat) (w : Int)
    (stk : List Nat) (tail : List Token) (htail : tail ≠ [])
    (hst : s1.state = FsmState.stGETINTERNODE ∨ s1.state = FsmState.stNEXTMOVE ∨
      s1.state = FsmState.stFINISHCHILDREN)
    (hcur : s1.cur = x) (hstk : s1.stk = a :: stk)
    (hstream : s1.stream = (if sib.isNil then [] else comma :: sib.render) ++ rpar :: tail)
    (hnext : s1.tree.next = x + n) (hn : 0 < n) (hax : a < x)
    (hw : (s1.tree.heap x).Weight = w) (hsn : (s1.tree.heap x).Sib = none) :
    ∃ s2, Reach cap s1 s2 ∧
      (s2.state = FsmState.stQUIT ∨ ChainRestPost cap s1 s2 a x n w stk sib tail) := by
  obtain ⟨u, r, rfl⟩ : ∃ u r, tail = u :: r := by
    cases tail with
    | nil => exact absurd rfl htail
    | cons u r => exact ⟨u, r, rfl⟩
  by_cases hnil : sib.isNil = true
  · -- the node at `x` is the last child
    have hsib := PT.eq_nil_of_isNil sib hnil
    subst hsib
    simp only [PT.isNil, if_true, List.nil_append] at hstream
    obtain ⟨htok, hrest⟩ := stream_token s1 _ _ hstream
    have hr := rpar_reach cap s1 hst (by rw [htok]; exact hrp)
    obtain ⟨g1, g2, g3⟩ := (rparMove_ctl s1).2 a stk hstk
    rw [NextToken_stream_cons s1 _ _ _ hstream] at g3
    refine ⟨_, hr, Or.inr ⟨g1, rparMove_cur s1 a stk hstk, g2, g3, ?_, ?_, ?_, ?_, ?_, ?_,
      trivial, ?_, ?_, trivial⟩⟩
    · rw [rparMove_tree s1 a stk hstk]; simp [PT.size, hnext]
    · rw [rparMove_tree s1 a stk hstk]; simp [PT.leaves]
    · rw [rparMove_tree s1 a stk hstk]; simp [PT.internals]
    · rw [rparMove_tree s1 a stk hstk]
    · rw [rparMove_tree s1 a stk hstk]; simp [PT.hasBranch]
    · rw [rparMove_tree s1 a stk hstk]
      simp [Heap.AddWeight, show x ≠ a by omega, sibPtr, PT.isNil, ← hsn]
    · intro y _ hya _
      rw [rparMove_tree s1 a stk hstk]; simp [Heap.AddWeight, hya]
    · rw [rparMove_tree s1 a stk hstk]
      simp [Heap.AddWeight, hcur, hw, PT.leaves, PT.chainLen]
  · have hnil1 : sib.isNil = false := by simpa using hnil
    simp only [hnil1, Bool.false_eq_true, if_false, List.cons_append] at hstream
    obtain ⟨htok, hrest⟩ := stream_token s1 _ _ hstream
    have hr := comma_reach cap s1 hst (by rw [htok]; exact hcomma hnil1)
    obtain ⟨g1, g2, g3⟩ := (commaMove_ctl s1).2 (by simp [hstk])
    obtain ⟨v, r1, hvr⟩ : ∃ v r1, sib.render ++ rpar :: u :: r = v :: r1 := by
      cases h : sib.render ++ rpar :: u :: r with
      | nil => simp at h
      | cons v r1 => exact ⟨v, r1, rfl⟩
    rw [NextToken_stream_cons s1 _ _ _ (by rw [hstream, hvr]), ← hvr] at g3
    have hct := commaMove_tree s1 a stk hstk
    rw [hcur, hnext] at hct
    have hxa : x ≠ a := by omega
    have hqa : x + n ≠ a := by omega
    have hqx : x + n ≠ x := by omega
    have hcx : (commaMove s1).tree.heap x = { s1.tree.heap x with Sib := some (x + n) } := by
      rw [hct]; simp [Heap.AddWeight, Heap.IncrementDegree, hxa, hqx.symm]
    have hcq : (commaMove s1).tree.heap (x + n) = { Anc := some a } := by
      rw [hct]; simp [Heap.AddWeight, Heap.IncrementDegree, hqa, hqx]
    have hca : (commaMove s1).tree.heap a =
        { s1.tree.heap a with Weight := (s1.tree.heap a).Weight + w,
                              Degree := (s1.tree.heap a).Degree + 1 } := by
      rw [hct]; simp [Heap.AddWeight, Heap.IncrementDegree, hxa.symm, hqa.symm, hqx.symm, hw]
    have hclow : ∀ y, y < x + n → y ≠ a → y ≠ x →
        (commaMove s1).tree.heap y = s1.tree.heap y := by
      intro y h1 h2 h3
      rw [hct]; simp [Heap.AddWeight, Heap.IncrementDegree, h2, h3, Nat.ne_of_lt h1]
    obtain ⟨s2, hr2, h2⟩ := ih (commaMove s1) a (x + n) stk rpar (u :: r) hnil1 hsv g1
      (by rw [commaMove_cur s1 a stk hstk, hnext]) (by rw [g2, hstk]) g3 hrp (by simp)
      (by rw [hct]) hcq (by omega)
    refine ⟨s2, Reach.trans cap _ _ _ hr hr2, ?_⟩
    rcases h2 with h2 | ⟨f1, f2, f3, f4, f5, f6, f7, f8, f9, f10, f11, f12, f13⟩
    · exact Or.inl h2
    right
    have hcl := PT.chainLen_pos sib hnil1
    refine ⟨f1, f2, f3, f4, f5, ?_, ?_, ?_, ?_, ?_, ?_, ?_, ?_, f13⟩
    · rw [f6, hct]
    · rw [f7, hct]
    · rw [f8, hct]
    · rw [f9, hct]
    · rw [f11 x (by omega) hxa, hcx]; simp [sibPtr, hnil1]
    · have : (commaMove s1).tree.Leaves = s1.tree.Leaves := by rw [hct]
      rw [← this]; exact f10
    · intro y h1 h2 h3
      rw [f11 y h1 h2, hclow y h1 h2 h3]
    · rw [f12, hca]; simp

theorem Branch.apply_fields (cap : Int) (bi : Branch) (n : Node) :
    (bi.apply cap n).Weight = n.Weight ∧ (bi.apply cap n).Sib = n.Sib ∧
    (bi.apply cap n).Child = n.Child ∧ (bi.apply cap n).Anc = n.Anc ∧
    (bi.apply cap n).Leaf = n.Leaf ∧ (bi.apply cap n).Degree = n.Degree ∧
    (bi.apply cap n).Label = n.Label ∧ (bi.apply cap n).LeafNumber = n.LeafNumber := by
  cases bi <;> simp [Branch.apply]

theorem Branch.apply_setSib (cap : Int) (bi : Branch) (n : Node) (q : Option Nat) :
    { bi.apply cap n with Sib := q } = bi.apply cap { n with Sib := q } := by
  cases bi <;> simp [Branch.apply]

/-- Every chain of children is read as the grammar says, unless the automaton
quits on the way. -/
theorem forest_reach (cap : Int) (F : PT) : ForestClaim cap F := by
  induction F with
  | nil => intro s a x stk rpar tail hnil; simp [PT.isNil] at hnil
  | leaf name bi comma sib ih =>
    intro s a x stk rpar tail _ hvalid hst hcur hstk hstream hrp htail hnext hx hax
    obtain ⟨hname, hbv, hcomma, hsv⟩ := hvalid
    simp only [PT.render, List.cons_append, List.append_assoc] at hstream
    obtain ⟨s1, hr1, h1⟩ := leaf_reach cap s x (some a) name bi
      ((if sib.isNil then [] else comma :: sib.render) ++ rpar :: tail) (by simp)
      hname hbv hst hcur hstream hx
    rcases h1 with h1 | ⟨n1, n2, n3, n4, n5, n6, n7, n8, n9, n10, -, n12, n13, -⟩
    · exact ⟨s1, hr1, Or.inl h1⟩
    obtain ⟨s2, hr2, h2⟩ := chain_rest cap sib ih hsv comma rpar hcomma hrp s1 a x 1 1 stk tail
      htail (by by_cases hp : bi.present = true <;> simp [n1, hp]) n2 (by rw [n3, hstk]) n4
      (by rw [n5, hnext]; simp [PT.size]) (by omega) hax
      (by rw [n10, expLeaf, (Branch.apply_fields cap bi _).1])
      (by rw [n10, expLeaf, (Branch.apply_fields cap bi _).2.1])
    refine ⟨s2, Reach.trans cap _ _ _ hr1 hr2, ?_⟩
    rcases h2 with h2 | ⟨f1, f2, f3, f4, f5, f6, f7, f8, f9, f10, f11, f12, f13, f14⟩
    · exact Or.inl h2
    right
    have hL : s1.tree.Leaves = s.tree.Leaves + 1 := by rw [n6]; simp [PT.leaves]
    refine ⟨f1, f2, f3, f4, ?_, ?_, ?_, ?_, ?_, ⟨?_, ?_⟩, ?_, ?_, n13, f14⟩
    · rw [f5]; simp [PT.size]; omega
    · rw [f6, hL]; simp [PT.leaves]; ring
    · rw [f7, n7]; simp [PT.internals, PT.internals]
    · rw [f8, n8]
    · rw [f9, n9]; simp [PT.hasBranch, Branch.present]
      cases bi <;> simp [Bool.or_assoc]
    · rw [f10, n10, expLeaf, expLeaf, Branch.apply_setSib]
    · rw [← hL]; exact f11
    · intro y h1 h2
      rw [f12 y (by omega) h2 (by omega), n12 y h1]
    · rw [f13, n12 a hax]; simp [PT.leaves, PT.chainLen]
      ring
  | internal lpar child rpar1 label bi comma sib ihc ihs =>
    intro s a x stk rpar tail _ hvalid hst hcur hstk hstream hrp htail hnext hx hax
    obtain ⟨hlp, hcn, hcv, hrp1, hlab, hbv, hcomma, hsv⟩ := hvalid
    simp only [PT.render, List.cons_append, List.append_assoc] at hstream
    obtain ⟨s1, hr1, h1⟩ := internal_reach cap child ihc s x (some a) lpar rpar1 label bi
      ((if sib.isNil then [] else comma :: sib.render) ++ rpar :: tail) (by simp)
      hlp hcn hcv hrp1 hlab hbv hst hcur hstream hx hnext
    rcases h1 with h1 | ⟨n1, n2, n3, n4, n5, n6, n7, n8, n9, n10, n11, n12, n13, n14⟩
    · exact ⟨s1, hr1, Or.inl h1⟩
    obtain ⟨s2, hr2, h2⟩ := chain_rest cap sib ihs hsv comma rpar hcomma hrp s1 a x
      (1 + child.size) child.leaves stk tail
      htail (by simp [n1]) n2 (by rw [n3, hstk]) n4
      (by rw [n5, hnext]; omega) (by omega) hax
      (by rw [n10, expInternal, (Branch.apply_fields cap bi _).1])
      (by rw [n10, expInternal, (Branch.apply_fields cap bi _).2.1])
    refine ⟨s2, Reach.trans cap _ _ _ hr1 hr2, ?_⟩
    rcases h2 with h2 | ⟨f1, f2, f3, f4, f5, f6, f7, f8, f9, f10, f11, f12, f13, f14⟩
    · exact Or.inl h2
    right
    have hL : s1.tree.Leaves = s.tree.Leaves + child.leaves := by rw [n6]; simp
    refine ⟨f1, f2, f3, f4, ?_, ?_, ?_, ?_, ?_, ⟨?_, ?_, ?_⟩, ?_, ?_, n14, n13, f14⟩
    · rw [f5]; simp [PT.size]; omega
    · rw [f6, hL]; simp [PT.leaves]; ring
    · rw [f7, n7]; simp [PT.internals]; ring
    · rw [f8, n8]
    · rw [f9, n9]; simp [PT.hasBranch, Branch.present]
      cases bi <;> simp [Bool.or_assoc]
    · rw [f10, n10, expInternal, expInternal, Branch.apply_setSib]
      simp [Nat.add_assoc]
    · refine Matches_congr cap s1.tree.heap _ child _ _ _ (fun y h1 h2 => ?_) n11
      exact f12 y (by omega) (by omega) (by omega)
    · rw [← hL]
      have : x + 1 + child.size = x + (1 + child.size) := by omega
      rw [this]; exact f11
    · intro y h1 h2
      rw [f12 y (by omega) h2 (by omega), n12 y h1]
    · rw [f13, n12 a hax]; simp [PT.leaves, PT.chainLen]
      ring

/-! ## Reading a whole description -/

theorem parseInit_facts (t : Tree) (u : Token) (r : List Token) :
    (parseInit t (u :: r)).state = FsmState.stGETNAME ∧ (parseInit t (u :: r)).cur = t.next ∧
    (parseInit t (u :: r)).stk = [] ∧ (parseInit t (u :: r)).stream = u :: r ∧
    (parseInit t (u :: r)).tree =
      { t with Root := some t.next, Leaves := 0, Internals := 0, Error := ErrorCode.errNONE,
               CurNode := some t.next, next := t.next + 1, heap := t.heap.set t.next {} } := by
  simp [parseInit, Tree.NewNode, PState.NextToken, PState.stream]

/-- On a description derived from the grammar the automaton either quits or ends
in `stACCEPTED` with the heap holding exactly the parse tree. -/
theorem parse_derived (cap : Int) (t : Tree) (root : PT) (descr : List Token)
    (hd : Derives root descr) :
    ∃ s1, Reach cap (parseInit t descr) s1 ∧
      (s1.state = FsmState.stQUIT ∨ RootPost cap t root s1) := by
  obtain ⟨hvalid, hsingle, semi, hsemi, rfl⟩ := hd
  cases root with
  | nil => simp [PT.single] at hsingle
  | leaf name bi comma sib =>
    have hsib := PT.eq_nil_of_isNil sib hsingle
    subst hsib
    obtain ⟨hname, hbv, -, -⟩ := hvalid
    have hrender : (PT.leaf name bi comma PT.nil).render ++ [semi] =
        name :: (bi.render ++ [semi]) := by
      simp [PT.render, PT.isNil]
    rw [hrender]
    obtain ⟨i1, i2, i3, i4, i5⟩ := parseInit_facts t name (bi.render ++ [semi])
    obtain ⟨s1, hr1, h1⟩ := leaf_reach cap _ t.next none name bi [semi] (by simp) hname hbv
      i1 i2 i4 (by rw [i5]; simp)
    rcases h1 with h1 | ⟨n1, n2, n3, n4, n5, n6, n7, n8, n9, n10, -, n12, n13, -⟩
    · exact ⟨s1, hr1, Or.inl h1⟩
    obtain ⟨htok, hrest⟩ := stream_token s1 _ _ n4
    by_cases hp : bi.present = true
    · -- a leaf with branch information: the semicolon is accepted in stNEXTMOVE
      have hst1 : s1.state = FsmState.stNEXTMOVE := by simpa [hp] using n1
      have hstep : step cap 0 s1 = some (s1.goto FsmState.stACCEPTED) := by
        simp [step, hst1, htok, hsemi, n3, i3]
      refine ⟨_, Reach.trans cap _ _ _ hr1
        (reach_one cap 0 _ _ (by simp [hst1]) (by simp [hst1]) hstep), Or.inr ?_⟩
      refine ⟨rfl, n2, by simp [PState.goto, n3, i3], ?_, ?_, ?_, ?_, ?_, ⟨?_, trivial⟩, ?_,
        n13, trivial⟩
      · show s1.tree.Root = _
        rw [n8, i5]
      · show s1.tree.next = _
        rw [n5, i5]; simp [PT.size]
      · show s1.tree.Leaves = _
        rw [n6, i5]; simp [PT.leaves]
      · show s1.tree.Internals = _
        rw [n7, i5]; simp [PT.internals]
      · show s1.tree.EdgeLengths = _
        rw [n9, i5]; simp [PT.hasBranch, hp]
      · show s1.tree.heap t.next = _
        rw [n10, i5]; simp [sibPtr, PT.isNil]
      · intro y hy
        show s1.tree.heap y = _
        rw [n12 y hy, i5]; simp [Nat.ne_of_lt hy]
    · -- a leaf without branch information: the semicolon is a syntax error
      have hst1 : s1.state = FsmState.stGETINTERNODE := by simpa [hp] using n1
      have hstep : step cap 0 s1 =
          some ((s1.setError ErrorCode.errSYNTAX).goto FsmState.stQUIT) := by
        simp [step, hst1, htok, hsemi]
      exact ⟨_, Reach.trans cap _ _ _ hr1
        (reach_one cap 0 _ _ (by simp [hst1]) (by simp [hst1]) hstep), Or.inl rfl⟩
  | internal lpar child rpar label bi comma sib =>
    have hsib := PT.eq_nil_of_isNil sib hsingle
    subst hsib
    obtain ⟨hlp, hcn, hcv, hrp, hlab, hbv, -, -⟩ := hvalid
    have hrender : (PT.internal lpar child rpar label bi comma PT.nil).render ++ [semi] =
        lpar :: (child.render ++ rpar :: (label.toList ++ (bi.render ++ [semi]))) := by
      simp [PT.render, PT.isNil]
    rw [hrender]
    obtain ⟨i1, i2, i3, i4, i5⟩ := parseInit_facts t lpar
      (child.render ++ rpar :: (label.toList ++ (bi.render ++ [semi])))
    obtain ⟨s1, hr1, h1⟩ := internal_reach cap child (forest_reach cap child) _ t.next none
      lpar rpar label bi [semi] (by simp) hlp hcn hcv hrp hlab hbv i1 i2 i4
      (by rw [i5]; simp) (by rw [i5])
    rcases h1 with h1 | ⟨n1, n2, n3, n4, n5, n6, n7, n8, n9, n10, n11, n12, n13, n14⟩
    · exact ⟨s1, hr1, Or.inl h1⟩
    obtain ⟨htok, hrest⟩ := stream_token s1 _ _ n4
    have hst1 : s1.state = FsmState.stFINISHCHILDREN := by simpa using n1
    have hstep : step cap 0 s1 = some (s1.goto FsmState.stNEXTMOVE) := by
      simp [step, hst1, htok, hsemi]
    have hstep2 : step cap 0 (s1.goto FsmState.stNEXTMOVE) =
        some ((s1.goto FsmState.stNEXTMOVE).goto FsmState.stACCEPTED) := by
      have : (s1.goto FsmState.stNEXTMOVE).token.kind = tokentype.SEMICOLON := by
        show s1.token.kind = _
        rw [htok]; exact hsemi
      have h2 : s1.stk = [] := by rw [n3, i3]
      simp [step, this, h2]
    refine ⟨_, Reach.trans cap _ _ _ hr1 (Reach.step 0 _ _ _ (by simp [hst1]) (by simp [hst1])
      hstep (reach_one cap 0 _ _ (by simp) (by simp) hstep2)), Or.inr ?_⟩
    refine ⟨rfl, n2, by simp [PState.goto, n3, i3], ?_, ?_, ?_, ?_, ?_, ⟨?_, ?_, trivial⟩, ?_,
      n14, n13, trivial⟩
    · show s1.tree.Root = _
      rw [n8, i5]
    · show s1.tree.next = _
      rw [n5, i5]; simp [PT.size]; omega
    · show s1.tree.Leaves = _
      rw [n6, i5]; simp [PT.leaves]
    · show s1.tree.Internals = _
      rw [n7, i5]; simp [PT.internals]
    · show s1.tree.EdgeLengths = _
      rw [n9, i5]; simp [PT.hasBranch, Branch.present]
      cases bi <;> simp [Bool.or_assoc]
    · show s1.tree.heap t.next = _
      rw [n10]; simp [sibPtr, PT.isNil]
    · show Matches cap s1.tree.heap (some t.next) (t.next + 1) 0 child
      have : (parseInit t (lpar :: (child.render ++ rpar :: (label.toList ++
          (bi.render ++ [semi]))))).tree.Leaves = 0 := by rw [i5]
      rw [← this]; exact n11
    · intro y hy
      show s1.tree.heap y = _
      rw [n12 y hy, i5]; simp [Nat.ne_of_lt hy]

/-! ## Path lengths: getPathLengths returns -/

theorem PathFrame.refl (t : Tree) : PathFrame t t := ⟨fun _ => rfl, rfl⟩

theorem PathFrame.compose (t t1 t2 : Tree) (h1 : PathFrame t t1) (h2 : PathFrame t1 t2) :
    PathFrame t t2 := by
  refine ⟨fun x => ?_, ?_⟩
  · rw [h2.1 x, h1.1 x]
  · rw [h2.2, h1.2]

theorem PathFrame.links (t t1 : Tree) (h : PathFrame t t1) (x : Nat) :
    (t1.heap x).Anc = (t.heap x).Anc ∧ (t1.heap x).Child = (t.heap x).Child ∧
      (t1.heap x).Sib = (t.heap x).Sib := by
  rw [h.1 x]; exact ⟨rfl, rfl, rfl⟩

theorem pathMax_frame (t : Tree) (p : Nat) : PathFrame t (pathMax t p) := by
  unfold pathMax
  split
  · exact ⟨fun x => rfl, rfl⟩
  · exact ⟨fun x => rfl, rfl⟩

theorem pathSet_frame (t t1 : Tree) (p : Nat) (h : pathSet t p = some t1) :
    PathFrame t t1 := by
  unfold pathSet at h
  by_cases h1 : some p ≠ t.Root
  · rw [if_pos h1] at h
    cases ha : (t.heap p).Anc with
    | none => simp [ha] at h
    | some a =>
      simp only [ha, Option.some.injEq] at h
      subst h
      refine ⟨fun x => ?_, rfl⟩
      by_cases hx : x = p
      · subst hx; simp
      · simp [hx]
  · rw [if_neg h1] at h
    cases h
    exact PathFrame.refl t

theorem pathSet_some (t : Tree) (p : Nat) (h : some p ≠ t.Root → (t.heap p).Anc ≠ none) :
    ∃ t1, pathSet t p = some t1 := by
  unfold pathSet
  by_cases h1 : some p ≠ t.Root
  · rw [if_pos h1]
    cases ha : (t.heap p).Anc with
    | none => exact absurd ha (h h1)
    | some a => exact ⟨_, rfl⟩
  · rw [if_neg h1]
    exact ⟨_, rfl⟩

/-- On a chain whose nodes all have an ancestor, `getPathLengths` returns and
changes nothing but path lengths. -/
theorem getPathLengths_chain (T : BT) : ∀ (fuel : Nat) (t : Tree) (a : Nat),
    T.size < fuel → Rep t.heap (some a) T →
    ∃ t1, getPathLengths fuel t T.ptr = some t1 ∧ PathFrame t t1 := by
  induction T with
  | nil =>
    intro fuel t a hf _
    obtain ⟨n, rfl⟩ : ∃ n, fuel = n + 1 := ⟨fuel - 1, by simp [BT.size] at hf; omega⟩
    exact ⟨t, by simp [getPathLengths, BT.ptr], PathFrame.refl t⟩
  | node x c s ihc ihs =>
    intro fuel t a hf hrep
    obtain ⟨n, rfl⟩ : ∃ n, fuel = n + 1 := ⟨fuel - 1, by omega⟩
    simp only [BT.size] at hf
    obtain ⟨hAnc, hChild, hSib, hrc, hrs⟩ := hrep
    obtain ⟨t1, h1⟩ := pathSet_some t x (fun _ => by rw [hAnc]; simp)
    have f1 := pathSet_frame t t1 x h1
    have f2 := PathFrame.compose _ _ _ f1 (pathMax_frame t1 x)
    have hlinks : ∀ (u : Tree), PathFrame t u → ∀ (b : Option Nat) (T : BT),
        Rep t.heap b T → Rep u.heap b T := fun u hu b T hr =>
      Rep_congr t.heap u.heap T b (fun y _ => PathFrame.links t u hu y) hr
    obtain ⟨t3, h3, f3⟩ := ihc n (pathMax t1 x) x (by omega) (hlinks _ f2 _ _ hrc)
    have f23 := PathFrame.compose _ _ _ f2 f3
    obtain ⟨t4, h4, f4⟩ := ihs n t3 a (by omega) (hlinks _ f23 _ _ hrs)
    refine ⟨t4, ?_, PathFrame.compose _ _ _ f23 f4⟩
    have e1 : ((pathMax t1 x).heap x).Child = c.ptr := by
      rw [(PathFrame.links t _ f2 x).2.1, hChild]
    have e2 : (t3.heap x).Sib = s.ptr := by
      rw [(PathFrame.links t _ f23 x).2.2, hSib]
    show getPathLengths (n + 1) t (some x) = some t4
    simp only [getPathLengths, h1, e1, h3, e2, h4]

/-- On a well-formed tree `getPathLengths (Root)` returns and changes nothing but
path lengths. -/
theorem getPathLengths_root (t : Tree) (r : Nat) (c : BT) (fuel : Nat)
    (hroot : t.Root = some r) (hrep : Rep t.heap none (BT.node r c BT.nil))
    (hf : (BT.node r c BT.nil).size < fuel) :
    ∃ t1, getPathLengths fuel t t.Root = some t1 ∧ PathFrame t t1 := by
  obtain ⟨n, rfl⟩ : ∃ n, fuel = n + 1 := ⟨fuel - 1, by omega⟩
  simp only [BT.size] at hf
  obtain ⟨hAnc, hChild, hSib, hrc, -⟩ := hrep
  obtain ⟨t1, h1⟩ := pathSet_some t r (fun h => absurd hroot.symm h)
  have f1 := pathSet_frame t t1 r h1
  have f2 := PathFrame.compose _ _ _ f1 (pathMax_frame t1 r)
  obtain ⟨t3, h3, f3⟩ := getPathLengths_chain c n (pathMax t1 r) r (by omega)
    (Rep_congr t.heap _ c _ (fun y _ => PathFrame.links t _ f2 y) hrc)
  have f23 := PathFrame.compose _ _ _ f2 f3
  obtain ⟨m, rfl⟩ : ∃ m, n = m + 1 := ⟨n - 1, by omega⟩
  refine ⟨t3, ?_, f23⟩
  have e1 : ((pathMax t1 r).heap r).Child = c.ptr := by
    rw [(PathFrame.links t _ f2 r).2.1, hChild]
  have e2 : (t3.heap r).Sib = none := by
    rw [(PathFrame.links t _ f23 r).2.2, hSib]; rfl
  rw [hroot]
  simp only [getPathLengths, h1, e1, h3, e2]

/-! ## Accepted descriptions of the grammar -/

theorem Reach.of_run (cap : Int) : ∀ (n : Nat) (s s1 : PState),
    TreeLib.run cap n s = some s1 → Reach cap s s1 := by
  intro n
  induction n with
  | zero => intro s s1 h; simp [TreeLib.run] at h
  | succ n ih =>
    intro s s1 h
    by_cases hq : s.state = FsmState.stQUIT
    · simp only [TreeLib.run, hq, true_or, if_true, Option.some.injEq] at h
      subst h; exact Reach.refl _
    · by_cases ha : s.state = FsmState.stACCEPTED
      · simp only [TreeLib.run, ha, or_true, if_true, Option.some.injEq] at h
        subst h; exact Reach.refl _
      · obtain ⟨s2, h1, h2⟩ := run_succ_of_running cap n s s1 h hq ha
        exact Reach.step n s s2 s1 hq ha h1 (ih s2 s1 h2)

theorem PT.shape_ptr (F : PT) (x : Nat) : (F.shape x).ptr = sibPtr x F := by
  cases F <;> simp [PT.shape, BT.ptr, sibPtr, PT.isNil]

theorem PT.shape_size (F : PT) : ∀ x, (F.shape x).size = F.size := by
  induction F with
  | nil => intro x; rfl
  | leaf name bi comma sib ih => intro x; simp [PT.shape, BT.size, PT.size, ih]
  | internal lpar child rpar label bi comma sib ihc ihs =>
    intro x; simp [PT.shape, BT.size, PT.size, ihc, ihs]

theorem PT.shape_addrs (F : PT) : ∀ x y, y ∈ (F.shape x).addrs → x ≤ y ∧ y < x + F.size := by
  induction F with
  | nil => intro x y h; simp [PT.shape, BT.addrs] at h
  | leaf name bi comma sib ih =>
    intro x y h
    simp only [PT.shape, BT.addrs, List.nil_append, List.mem_cons] at h
    simp only [PT.size]
    rcases h with rfl | h
    · omega
    · have := ih _ _ h; omega
  | internal lpar child rpar label bi comma sib ihc ihs =>
    intro x y h
    simp only [PT.shape, BT.addrs, List.mem_cons, List.mem_append] at h
    simp only [PT.size]
    rcases h with rfl | h | h
    · omega
    · have := ihc _ _ h; omega
    · have := ihs _ _ h; omega

theorem PT.shape_nodup (F : PT) : ∀ x, (F.shape x).addrs.Nodup := by
  induction F with
  | nil => intro x; simp [PT.shape, BT.addrs]
  | leaf name bi comma sib ih =>
    intro x
    simp only [PT.shape, BT.addrs, List.nil_append, List.nodup_cons]
    exact ⟨fun h => by have := PT.shape_addrs sib _ _ h; omega, ih _⟩
  | internal lpar child rpar label bi comma sib ihc ihs =>
    intro x
    simp only [PT.shape, BT.addrs, List.nodup_cons, List.mem_append, List.nodup_append]
    refine ⟨fun h => ?_, ihc _, ihs _, fun y h1 h2 => ?_⟩
    · rcases h with h | h
      · have := PT.shape_addrs child _ _ h; omega
      · have := PT.shape_addrs sib _ _ h; omega
    · have := PT.shape_addrs child _ _ h1
      have := PT.shape_addrs sib _ _ h2
      omega

theorem Matches_Rep (cap : Int) (h : Heap) (F : PT) : ∀ (a : Option Nat) (x : Nat) (L : Int),
    F.Valid → Matches cap h a x L F → Rep h a (F.shape x) ∧ LeavesBare h (F.shape x) := by
  induction F with
  | nil => intro a x L _ _; exact ⟨trivial, trivial⟩
  | leaf name bi comma sib ih =>
    intro a x L hv hm
    obtain ⟨h1, h2⟩ := hm
    obtain ⟨i1, i2⟩ := ih a _ _ hv.2.2.2 h2
    have hf := Branch.apply_fields cap bi
      { Anc := a, Sib := sibPtr (x + 1) sib, Label := name.text, Leaf := true, Weight := 1,
        LeafNumber := L + 1 }
    refine ⟨⟨?_, ?_, ?_, trivial, i1⟩, ⟨fun _ => ⟨rfl, ?_, ?_⟩, trivial, i2⟩⟩
    · rw [h1, expLeaf, hf.2.2.2.1]
    · rw [h1, expLeaf, hf.2.2.1]; rfl
    · rw [h1, expLeaf, hf.2.1, PT.shape_ptr]
    · rw [h1, expLeaf, hf.2.2.1]
    · rw [h1, expLeaf, hf.2.2.2.2.2.1]
  | internal lpar child rpar label bi comma sib ihc ihs =>
    intro a x L hv hm
    obtain ⟨h1, h2, h3⟩ := hm
    obtain ⟨-, hcn, hcv, -, -, -, -, hsv⟩ := hv
    obtain ⟨i1, i2⟩ := ihc _ _ _ hcv h2
    obtain ⟨j1, j2⟩ := ihs _ _ _ hsv h3
    have hf := Branch.apply_fields cap bi
      { Anc := a, Child := some (x + 1), Sib := sibPtr (x + 1 + child.size) sib,
        Label := labelText label, Weight := child.leaves, Degree := child.chainLen }
    refine ⟨⟨?_, ?_, ?_, i1, j1⟩, ⟨fun hl => ?_, i2, j2⟩⟩
    · rw [h1, expInternal, hf.2.2.2.1]
    · rw [h1, expInternal, hf.2.2.1, PT.shape_ptr]
      simp [sibPtr, hcn]
    · rw [h1, expInternal, hf.2.1, PT.shape_ptr]
    · rw [h1, expInternal, hf.2.2.2.2.1] at hl
      simp at hl

theorem PT.shape_single (F : PT) (x : Nat) (h : F.single = true) :
    ∃ c, F.shape x = BT.node x c BT.nil := by
  cases F with
  | nil => simp [PT.single] at h
  | leaf name bi comma sib =>
    have := PT.eq_nil_of_isNil sib h
    subst this
    exact ⟨_, rfl⟩
  | internal lpar child rpar label bi comma sib =>
    have := PT.eq_nil_of_isNil sib h
    subst this
    exact ⟨_, rfl⟩

theorem PT.leaves_single_weight (cap : Int) (h : Heap) (F : PT) (x : Nat) (L : Int)
    (hs : F.single = true) (hm : Matches cap h none x L F) : (h x).Weight = F.leaves := by
  cases F with
  | nil => simp [PT.single] at hs
  | leaf name bi comma sib =>
    have := PT.eq_nil_of_isNil sib hs
    subst this
    rw [hm.1, expLeaf, (Branch.apply_fields cap bi _).1]; simp [PT.leaves]
  | internal lpar child rpar label bi comma sib =>
    have := PT.eq_nil_of_isNil sib hs
    subst this
    rw [hm.1, expInternal, (Branch.apply_fields cap bi _).1]; simp [PT.leaves]

theorem Matches_PathLength (cap : Int) (h : Heap) (F : PT) : ∀ (a : Option Nat) (x : Nat)
    (L : Int), Matches cap h a x L F → ∀ y, x ≤ y → y < x + F.size → (h y).PathLength = 0 := by
  induction F with
  | nil => intro a x L _ y h1 h2; simp [PT.size] at h2; omega
  | leaf name bi comma sib ih =>
    intro a x L hm y h1 h2
    simp only [PT.size] at h2
    by_cases hy : y = x
    · subst hy
      rw [hm.1, expLeaf]; cases bi <;> simp [Branch.apply]
    · exact ih _ _ _ hm.2 y (by omega) (by omega)
  | internal lpar child rpar label bi comma sib ihc ihs =>
    intro a x L hm y h1 h2
    simp only [PT.size] at h2
    by_cases hy : y = x
    · subst hy
      rw [hm.1, expInternal]; cases bi <;> simp [Branch.apply]
    · by_cases hc : y < x + 1 + child.size
      · exact ihc _ _ _ hm.2.1 y (by omega) (by omega)
      · exact ihs _ _ _ hm.2.2 y (by omega) (by omega)

/-- The epilogue of `Tree::Parse`: from an accepted state whose heap holds a tree,
`Parse` returns 0 and the tree object differs from the accepted one only in path
lengths. -/
theorem Parse_of_accepted (cap : Int) (t : Tree) (descr : List Token) (s : PState) (r : Nat)
    (c : BT) (hreach : Reach cap (parseInit t descr) s)
    (hacc : s.state = FsmState.stACCEPTED) (hroot : s.tree.Root = some r)
    (hrep : Rep s.tree.heap none (BT.node r c BT.nil)) :
    ∃ N, ∀ fuel, N ≤ fuel →
      ∃ t1, Parse cap fuel t descr = some (0, t1) ∧ PathFrame (acceptedTree s r) t1 := by
  obtain ⟨N, hN⟩ := Reach.run cap _ s hreach (Or.inr hacc)
  refine ⟨max N ((BT.node r c BT.nil).size + 1), fun fuel hf => ?_⟩
  have hrun := hN fuel (by omega)
  have hrep2 : Rep (acceptedTree s r).heap none (BT.node r c BT.nil) := by
    refine Rep_congr s.tree.heap _ _ _ (fun y _ => ?_) hrep
    by_cases hy : y = r
    · subst hy; simp [acceptedTree]
    · simp [acceptedTree, hy]
  obtain ⟨t1, h1, f1⟩ := getPathLengths_root (acceptedTree s r) r c fuel
    (by simp [acceptedTree, hroot]) hrep2 (by omega)
  refine ⟨t1, ?_, f1⟩
  have hpf : parseFsm cap fuel t descr = some s := hrun
  have hnq : ¬ s.state = FsmState.stQUIT := by rw [hacc]; simp
  simp only [Parse, hpf, hnq, if_false, hroot]
  have : getPathLengths fuel (acceptedTree s r) (acceptedTree s r).Root = some t1 := h1
  simp only [acceptedTree, hroot] at this
  simp only [this]

theorem Accepts.state (cap : Int) (fuel : Nat) (t : Tree) (descr : List Token)
    (h : Accepts cap fuel t descr) :
    ∃ s, run cap fuel (parseInit t descr) = some s ∧ s.state = FsmState.stACCEPTED := by
  unfold Accepts parseFsm at h
  cases hr : run cap fuel (parseInit t descr) with
  | none => simp [hr] at h
  | some s => exact ⟨s, rfl, by simpa [hr] using h⟩

/-- Every accepted description derived from the grammar: `Tree::Parse` returns 0
(for all fuel from some bound on) and the tree object holds exactly the parse
tree. -/
theorem Parse_derived (cap : Int) (fuel : Nat) (t : Tree) (root : PT) (descr : List Token)
    (hd : Derives root descr) (hacc : Accepts cap fuel t descr) :
    ∃ N, ∀ fuel1, N ≤ fuel1 →
      ∃ t1, Parse cap fuel1 t descr = some (0, t1) ∧ ParsedTree cap t root t1 := by
  obtain ⟨s, hrun, hs⟩ := Accepts.state cap fuel t descr hacc
  obtain ⟨s1, hreach, h1⟩ := parse_derived cap t root descr hd
  have hterm : s1.state = FsmState.stQUIT ∨ s1.state = FsmState.stACCEPTED := by
    rcases h1 with h1 | h1
    · exact Or.inl h1
    · exact Or.inr h1.1
  have heq := Reach.unique cap fuel _ s1 s hreach hterm hrun
  subst heq
  rcases h1 with h1 | ⟨r1, r2, r3, r4, r5, r6, r7, r8, r9, r10, r11⟩
  · rw [h1] at hs; cases hs
  obtain ⟨c, hc⟩ := PT.shape_single root t.next hd.2.1
  have hrep := (Matches_Rep cap s.tree.heap root none t.next 0 hd.1 r9).1
  rw [hc] at hrep
  obtain ⟨N, hN⟩ := Parse_of_accepted cap t descr s t.next c hreach hs r4 hrep
  refine ⟨N, fun fuel1 hf => ?_⟩
  obtain ⟨t1, hp, hframe, hrest⟩ := hN fuel1 hf
  refine ⟨t1, hp, ?_⟩
  have hw := PT.leaves_single_weight cap s.tree.heap root t.next 0 hd.2.1 r9
  have hacc_heap : (acceptedTree s t.next).heap = s.tree.heap := by
    funext y
    by_cases hy : y = t.next
    · subst hy
      simp only [acceptedTree, Heap.modify_same]
      rw [r6, ← hw]
    · simp [acceptedTree, hy]
  refine ⟨?_, ?_, ?_, ?_, ?_, ?_, r11⟩
  · rw [hrest]; simp [acceptedTree, r4]
  · rw [hrest]; simp [acceptedTree, r5]
  · rw [hrest]; simp [acceptedTree, r6]
  · rw [hrest]; simp [acceptedTree, r7]
  · rw [hrest]; simp [acceptedTree, r8]
  · refine Matches_congr cap s.tree.heap _ root _ _ _ (fun y h1 h2 => ?_) r9
    have hpl := Matches_PathLength cap s.tree.heap root none t.next 0 r9 y h1 h2
    show (t1.heap y).clearPL = s.tree.heap y
    rw [hframe y, hacc_heap]
    simp only [Node.clearPL]
    rw [← hpl]

/-! ## Counts and leaf labels -/

theorem PT.leafTokens_length (F : PT) : F.leafTokens.length = F.leaves := by
  induction F with
  | nil => rfl
  | leaf name bi comma sib ih => simp [PT.leafTokens, PT.leaves, ih]; omega
  | internal lpar child rpar label bi comma sib ihc ihs =>
    simp [PT.leafTokens, PT.leaves, ihc, ihs]

theorem numbered_append (l1 l2 : List Token) : ∀ L : Int,
    numbered L (l1 ++ l2) = numbered L l1 ++ numbered (L + l1.length) l2 := by
  induction l1 with
  | nil => intro L; simp [numbered]
  | cons t ts ih =>
    intro L
    have e : L + 1 + (ts.length : Int) = L + ((ts.length + 1 : Nat) : Int) := by
      push_cast; ring
    show (L + 1, t.text) :: numbered (L + 1) (ts ++ l2) =
      (L + 1, t.text) :: numbered (L + 1) ts ++ numbered (L + ((ts.length + 1 : Nat) : Int)) l2
    rw [ih (L + 1), e]
    rfl

theorem leafList_split (h : Heap) (x n m : Nat) :
    leafList h x (n + m) = leafList h x n ++ leafList h (x + n) m := by
  have : List.range' x (n + m) = List.range' x n ++ List.range' (x + n) m := by
    rw [List.range'_append_1, Nat.add_comm]
  unfold leafList
  rw [this, List.filter_append, List.map_append]

theorem leafList_Matches (cap : Int) (h : Heap) (F : PT) : ∀ (a : Option Nat) (x : Nat)
    (L : Int), Matches cap h a x L F → leafList h x F.size = numbered L F.leafTokens := by
  induction F with
  | nil => intro a x L _; simp [leafList, PT.size, PT.leafTokens, numbered]
  | leaf name bi comma sib ih =>
    intro a x L hm
    have hf := Branch.apply_fields cap bi
      { Anc := a, Sib := sibPtr (x + 1) sib, Label := name.text, Leaf := true, Weight := 1,
        LeafNumber := L + 1 }
    have h1 : leafList h x 1 = [(L + 1, name.text)] := by
      simp [leafList, hm.1, expLeaf, hf.2.2.2.2.1, hf.2.2.2.2.2.2.1, hf.2.2.2.2.2.2.2]
    rw [PT.size, leafList_split, h1, ih a (x + 1) (L + 1) hm.2]
    simp [PT.leafTokens, numbered]
  | internal lpar child rpar label bi comma sib ihc ihs =>
    intro a x L hm
    have hf := Branch.apply_fields cap bi
      { Anc := a, Child := some (x + 1), Sib := sibPtr (x + 1 + child.size) sib,
        Label := labelText label, Weight := child.leaves, Degree := child.chainLen }
    have h1 : leafList h x 1 = [] := by
      simp [leafList, hm.1, expInternal, hf.2.2.2.2.1]
    rw [PT.size, Nat.add_assoc, leafList_split, leafList_split, h1, ihc _ _ _ hm.2.1,
      ihs _ _ _ hm.2.2]
    simp [PT.leafTokens, numbered_append, PT.leafTokens_length]

theorem leafList_clearPL (h : Heap) (x n : Nat) : leafList h.clearPL x n = leafList h x n := by
  simp [leafList, Heap.clearPL, Node.clearPL]

theorem countKind_append (k : tokentype) (l1 l2 : List Token) :
    countKind k (l1 ++ l2) = countKind k l1 + countKind k l2 := by
  simp [countKind, List.countP_append]

theorem countKind_cons (k : tokentype) (t : Token) (l : List Token) :
    countKind k (t :: l) = (if t.kind = k then 1 else 0) + countKind k l := by
  simp [countKind, List.countP_cons]; omega

theorem countKind_nil (k : tokentype) : countKind k [] = 0 := rfl

theorem Seg.render_noLpar (g : Seg) (hv : g.Valid) : countKind tokentype.LPAR g.render = 0 := by
  obtain ⟨h1, h2, h3⟩ := hv
  simp [Seg.render, countKind_cons, countKind_nil, h1.1, h2, h3.1]

theorem renderMore_lpar (more : List (Token × Seg)) (hv : ∀ p ∈ more, IsColon p.1 ∧ p.2.Valid) :
    countKind tokentype.LPAR (renderMore more) = 0 := by
  induction more with
  | nil => rfl
  | cons p more ih =>
    obtain ⟨sep, g⟩ := p
    obtain ⟨h1, h2⟩ := hv (sep, g) (by simp)
    have h3 : sep.kind = tokentype.COLON := h1.1
    simp [renderMore, countKind_cons, countKind_append, Seg.render_noLpar g h2, h3,
      ih (fun p hp => hv p (by simp [hp]))]

theorem Branch.render_lparFree (bi : Branch) (hv : bi.Valid) :
    countKind tokentype.LPAR bi.render = 0 := by
  cases bi with
  | absent => rfl
  | length c n => simp [Branch.render, countKind_cons, countKind_nil, hv.1.1, hv.2.1]
  | simmap c o lead first more cl =>
    obtain ⟨hc, ho, hlead, hf, hmore, hcl⟩ := hv
    have hl : countKind tokentype.LPAR lead.toList = 0 := by
      cases lead with
      | none => rfl
      | some l => simp [countKind_cons, countKind_nil, (hlead l (by simp)).1]
    simp [Branch.render, countKind_cons, countKind_append, countKind_nil, hc.1, ho.1, hl,
      Seg.render_noLpar first hf, renderMore_lpar more hmore, hcl.1]

theorem PT.render_lparCount (F : PT) (hv : F.Valid) :
    countKind tokentype.LPAR F.render = F.internals := by
  induction F with
  | nil => rfl
  | leaf name bi comma sib ih =>
    obtain ⟨hname, hbv, hcomma, hsv⟩ := hv
    have hn : name.kind ≠ tokentype.LPAR := by
      rcases hname with h | h <;> simp [h]
    by_cases hs : sib.isNil = true
    · have := PT.eq_nil_of_isNil sib hs
      subst this
      simp [PT.render, PT.isNil, countKind_cons, countKind_append, countKind_nil, hn,
        Branch.render_lparFree bi hbv, PT.internals]
    · have hs1 : sib.isNil = false := by simpa using hs
      simp [PT.render, hs1, countKind_cons, countKind_append, hn,
        Branch.render_lparFree bi hbv, PT.internals, hcomma hs1, ih hsv]
  | internal lpar child rpar label bi comma sib ihc ihs =>
    obtain ⟨hlp, hcn, hcv, hrp, hlab, hbv, hcomma, hsv⟩ := hv
    have hl : countKind tokentype.LPAR label.toList = 0 := by
      cases label with
      | none => rfl
      | some l =>
        have : l.kind ≠ tokentype.LPAR := by
          rcases hlab l (by simp) with h | h <;> simp [h]
        simp [countKind_cons, countKind_nil, this]
    by_cases hs : sib.isNil = true
    · have := PT.eq_nil_of_isNil sib hs
      subst this
      simp [PT.render, PT.isNil, countKind_cons, countKind_append, countKind_nil, hlp, hrp, hl,
        Branch.render_lparFree bi hbv, PT.internals, ihc hcv]
    · have hs1 : sib.isNil = false := by simpa using hs
      simp [PT.render, hs1, countKind_cons, countKind_append, hlp, hrp, hl,
        Branch.render_lparFree bi hbv, PT.internals, hcomma hs1, ihc hcv, ihs hsv]
      omega

/-- C4: for every description derived from the grammar that `Tree::Parse`
accepts, `Parse` returns 0 with `Leaves` the number of leaf-label tokens,
`Internals` the number of `(` tokens, the leaves of the tree (in input order)
carrying the leaf numbers 1, 2, ... and the lexemes of the leaf-label tokens as
labels, and `EdgeLengths` set as soon as some node has a `branchinfo`. -/
theorem Parse_counts (cap : Int) (fuel : Nat) (t : Tree) (root : PT) (descr : List Token)
    (hd : Derives root descr) (hacc : Accepts cap fuel t descr) :
    ∃ N, ∀ fuel1, N ≤ fuel1 → ∃ t1, Parse cap fuel1 t descr = some (0, t1) ∧
      t1.Leaves = root.leafTokens.length ∧
      t1.Internals = countKind tokentype.LPAR descr ∧
      t1.next = t.next + root.size ∧
      leafList t1.heap t.next root.size = numbered 0 root.leafTokens ∧
      (root.hasBranch = true → t1.EdgeLengths = true) := by
  obtain ⟨N, hN⟩ := Parse_derived cap fuel t root descr hd hacc
  refine ⟨N, fun fuel1 hf => ?_⟩
  obtain ⟨t1, hp, p1, p2, p3, p4, p5, p6, p7⟩ := hN fuel1 hf
  refine ⟨t1, hp, ?_, ?_, p2, ?_, ?_⟩
  · rw [p3, PT.leafTokens_length]
  · obtain ⟨hv, -, semi, hsemi, rfl⟩ := hd
    rw [p4, countKind_append, PT.render_lparCount root hv]
    simp [countKind_cons, countKind_nil, hsemi]
  · rw [← leafList_clearPL]
    exact leafList_Matches cap _ root none t.next 0 p6
  · intro hb
    rw [p5, hb]; simp

theorem rootAB_derives : Derives rootAB descrAB := by
  refine ⟨?_, rfl, tk tokentype.SEMICOLON ";", rfl, rfl⟩
  simp [rootAB, PT.Valid, Branch.Valid, IsName, IsColon, IsNum, PT.isNil, tk, tnum, firstChar]

/-- C4, on the description `(A:1,B:2);`: two leaves, one internal node, edge
lengths present. -/
theorem Parse_counts_witness :
    Derives rootAB descrAB ∧ Accepts 30 40 {} descrAB ∧
      ∃ N, ∀ fuel1, N ≤ fuel1 → ∃ t1, Parse 30 fuel1 {} descrAB = some (0, t1) ∧
        t1.Leaves = rootAB.leafTokens.length ∧
        t1.Internals = countKind tokentype.LPAR descrAB ∧
        t1.next = ({} : Tree).next + rootAB.size ∧
        leafList t1.heap ({} : Tree).next rootAB.size = numbered 0 rootAB.leafTokens ∧
        (rootAB.hasBranch = true → t1.EdgeLengths = true) :=
  ⟨rootAB_derives, by unfold Accepts; decide,
    Parse_counts 30 40 {} rootAB descrAB rootAB_derives (by unfold Accepts; decide)⟩

/-! ## Node invariant after parsing -/

theorem LeavesBare_congr (h h1 : Heap) (T : BT)
    (hx : ∀ x ∈ T.addrs, (h1 x).Leaf = (h x).Leaf ∧ (h1 x).Child = (h x).Child ∧
      (h1 x).Degree = (h x).Degree) : LeavesBare h T → LeavesBare h1 T := by
  induction T with
  | nil => intro _; trivial
  | node x c s ihc ihs =>
    intro hb
    obtain ⟨b1, b2, b3⟩ := hb
    obtain ⟨e1, e2, e3⟩ := hx x (by simp [BT.addrs])
    refine ⟨fun hl => ?_, ihc (fun y hy => hx y (by simp [BT.addrs, hy])) b2,
      ihs (fun y hy => hx y (by simp [BT.addrs, hy])) b3⟩
    rw [e1] at hl
    rw [e2, e3]
    exact b1 hl

theorem LeavesBare.childless (h : Heap) (T : BT) : LeavesBare h T → LeavesChildless h T := by
  induction T with
  | nil => intro _; trivial
  | node x c s ihc ihs =>
    intro hb
    exact ⟨fun hl => (hb.1 hl).1, ihc hb.2.1, ihs hb.2.2⟩

/-- C10 (counterexample): the description `A:1(B);` is accepted (`Parse` returns
0 with no error), and the node of `A`, which is the root and flagged as a leaf, then
has the node of `B` as child and degree 1. -/
theorem Parse_leaf_with_child :
    Accepts 30 20 {} descrLeafChild ∧
      (Parse 30 20 {} descrLeafChild).map (fun r => (r.1, r.2.Error, r.2.Root)) =
        some (0, ErrorCode.errNONE, some 0) ∧
      (Parse 30 20 {} descrLeafChild).map (fun r =>
        ((r.2.heap 0).Leaf, (r.2.heap 0).Child, (r.2.heap 0).Degree, (r.2.heap 1).Anc)) =
        some (true, some 1, 1, some 0) := by
  refine ⟨by unfold Accepts; decide!, ?_, ?_⟩ <;> decide!

/-- For every description derived from the grammar that `Tree::Parse` accepts,
`Parse` returns 0 and the tree object holds a well-formed tree of the shape of the
parse tree: `Root` is the first node built and has no sibling, the `Anc` pointer of
every node is the node in whose child chain it sits (none for the root), no node
occurs twice, and every node flagged as a leaf has no child and degree 0. -/
theorem Parse_derived_wellFormed (cap : Int) (fuel : Nat) (t : Tree) (root : PT)
    (descr : List Token) (hd : Derives root descr) (hacc : Accepts cap fuel t descr) :
    ∃ N, ∀ fuel1, N ≤ fuel1 → ∃ t1, Parse cap fuel1 t descr = some (0, t1) ∧
      WellFormed t1 (root.shape t.next) ∧ LeavesBare t1.heap (root.shape t.next) ∧
      (root.shape t.next).size = root.size := by
  obtain ⟨N, hN⟩ := Parse_derived cap fuel t root descr hd hacc
  refine ⟨N, fun fuel1 hf => ?_⟩
  obtain ⟨t1, hp, hroot, -, -, -, -, hm, -⟩ := hN fuel1 hf
  obtain ⟨hR, hB⟩ := Matches_Rep cap _ root none t.next 0 hd.1 hm
  have hB1 : LeavesBare t1.heap (root.shape t.next) :=
    LeavesBare_congr t1.heap.clearPL _ _ (fun x _ => ⟨rfl, rfl, rfl⟩) hB
  have hR1 : Rep t1.heap none (root.shape t.next) :=
    Rep_congr t1.heap.clearPL _ _ none (fun x _ => ⟨rfl, rfl, rfl⟩) hR
  obtain ⟨c, hc⟩ := PT.shape_single root t.next hd.2.1
  refine ⟨t1, hp, ⟨?_, Or.inr ⟨_, _, hc⟩, hR1, PT.shape_nodup root _,
    LeavesBare.childless _ _ hB1⟩, hB1, PT.shape_size root _⟩
  rw [hroot, hc]; rfl

/-! ## SIMMAP accumulation -/

theorem tableAdd_length (mv : List FP) (p : Int × FP) : (tableAdd mv p).length = mv.length := by
  unfold tableAdd; split <;> simp

theorem foldl_tableAdd_length (vs : List (Int × FP)) : ∀ mv : List FP,
    (vs.foldl tableAdd mv).length = mv.length := by
  induction vs with
  | nil => intro mv; rfl
  | cons v vs ih => intro mv; simp [ih, tableAdd_length]

theorem tableAdd_getD (mv : List FP) (p : Int × FP) (s : Int) (hp : 0 ≤ p.1)
    (hpl : p.1.toNat < mv.length) (hs : 0 ≤ s) :
    (tableAdd mv p).getD s.toNat 0 =
      if p.1 = s then mv.getD s.toNat 0 + p.2 else mv.getD s.toNat 0 := by
  unfold tableAdd
  rw [if_pos hp]
  by_cases h : p.1 = s
  · subst h
    simp [List.getD_eq_getElem?_getD, List.getElem?_set, hpl]
  · have hne : p.1.toNat ≠ s.toNat := by
      intro he; apply h; omega
    simp [List.getD_eq_getElem?_getD, List.getElem?_set, hne, h]

theorem foldl_tableAdd_getD (vs : List (Int × FP)) : ∀ (mv : List FP) (s : Int),
    (∀ v ∈ vs, 0 ≤ v.1 ∧ v.1.toNat < mv.length) → 0 ≤ s →
      (vs.foldl tableAdd mv).getD s.toNat 0 = timeIn s vs (mv.getD s.toNat 0) := by
  induction vs with
  | nil => intro mv s _ _; simp [timeIn]
  | cons v vs ih =>
    intro mv s hv hs
    have hv0 := hv v (by simp)
    rw [List.foldl_cons, ih (tableAdd mv v) s
      (fun w hw => by rw [tableAdd_length]; exact hv w (by simp [hw])) hs,
      tableAdd_getD mv v s hv0.1 hv0.2 hs]
    by_cases h : v.1 = s
    · simp [timeIn, List.filter_cons, h]
    · simp [timeIn, List.filter_cons, h]

theorem Matches_branch (cap : Int) (h : Heap) (F : PT) : ∀ (a : Option Nat) (x : Nat) (L : Int),
    Matches cap h a x L F → ∀ p ∈ F.branches x, ∃ n0 : Node, h p.1 = p.2.apply cap n0 := by
  induction F with
  | nil => intro a x L _ p hp; simp [PT.branches] at hp
  | leaf name bi comma sib ih =>
    intro a x L hm p hp
    simp only [PT.branches, List.mem_cons] at hp
    rcases hp with rfl | hp
    · exact ⟨_, hm.1⟩
    · exact ih _ _ _ hm.2 p hp
  | internal lpar child rpar label bi comma sib ihc ihs =>
    intro a x L hm p hp
    simp only [PT.branches, List.mem_cons, List.mem_append] at hp
    rcases hp with rfl | hp | hp
    · exact ⟨_, hm.1⟩
    · exact ihc _ _ _ hm.2.1 p hp
    · exact ihs _ _ _ hm.2.2 p hp

theorem PT.InRange_branch (cap : Int) (F : PT) : ∀ x : Nat, F.InRange cap →
    ∀ p ∈ F.branches x, p.2.InRange cap := by
  induction F with
  | nil => intro x _ p hp; simp [PT.branches] at hp
  | leaf name bi comma sib ih =>
    intro x hr p hp
    simp only [PT.branches, List.mem_cons] at hp
    rcases hp with rfl | hp
    · exact hr.1
    · exact ih _ hr.2 p hp
  | internal lpar child rpar label bi comma sib ihc ihs =>
    intro x hr p hp
    simp only [PT.branches, List.mem_cons, List.mem_append] at hp
    rcases hp with rfl | hp | hp
    · exact hr.2.1
    · exact ihc _ hr.1 p hp
    · exact ihs _ hr.2.2 p hp

theorem rootSimmapEx_derives : Derives rootSimmapEx descrSimmapEx := by
  refine ⟨?_, rfl, tk tokentype.SEMICOLON ";", rfl, rfl⟩
  simp [rootSimmapEx, PT.Valid, Branch.Valid, Seg.Valid, IsName, IsColon, IsNum, IsBrace,
    PT.isNil, tk, tnum, firstChar]

/-- What the values of a SIMMAP block `vs` make of the branch fields of a node (`n` is
the node afterwards): `StateOrder` and `StateTimes` list the states and the times in
input order, `Length` is the running `double` sum of the times, started at 0; when
no state id is negative the table `ModelCategory` has one entry per state below the
capacity, and the entry of each state `s` is the running `double` sum, started at 0,
of the times of the segments in state `s`. -/
theorem simmap_fields (cap : Int) (c o : Token) (lead : Option Token) (first : Seg)
    (more : List (Token × Seg)) (cl : Token) (n0 : Node)
    (hin : (Branch.simmap c o lead first more cl).InRange cap) :
    ((Branch.simmap c o lead first more cl).apply cap n0).StateOrder =
      (segValues first more).map Prod.fst ∧
    ((Branch.simmap c o lead first more cl).apply cap n0).StateTimes =
      (segValues first more).map Prod.snd ∧
    ((Branch.simmap c o lead first more cl).apply cap n0).Length =
      ((segValues first more).map Prod.snd).foldl (fun x y => x + y) 0 ∧
    (∀ v ∈ segValues first more, v.1 < cap) ∧
    ((∀ v ∈ segValues first more, 0 ≤ v.1) →
      ((Branch.simmap c o lead first more cl).apply cap n0).ModelCategory.length =
        cap.toNat ∧
      ∀ s : Int, 0 ≤ s → s < cap →
        ((Branch.simmap c o lead first more cl).apply cap n0).ModelCategory.getD s.toNat 0 =
          timeIn s (segValues first more) 0) := by
  have hlt : ∀ v ∈ segValues first more, v.1 < cap := by
    intro v hv
    simp only [segValues, moreValues, List.mem_cons, List.mem_map] at hv
    rcases hv with rfl | ⟨p, hp1, rfl⟩
    · exact hin.1
    · exact hin.2 p hp1
  refine ⟨rfl, rfl, rfl, hlt, fun hnn => ⟨?_, fun s hs0 hs1 => ?_⟩⟩
  · simp only [Branch.apply]
    rw [foldl_tableAdd_length]; simp
  · simp only [Branch.apply]
    rw [foldl_tableAdd_getD _ _ s (fun v hv => ⟨hnn v hv, by
      have := hlt v hv; have := hnn v hv; simp; omega⟩) hs0]
    have hz : (List.replicate cap.toNat (0 : FP)).getD s.toNat 0 = 0 := by
      have hc : 0 < cap := lt_of_le_of_lt hs0 hs1
      simp [List.getD_eq_getElem?_getD, List.getElem?_replicate, hs1, hc]
    rw [hz]

/-- For every description derived from the grammar that `Tree::Parse` accepts, every
node whose `branchinfo` is a SIMMAP block carries the fields that `simmap_fields`
describes. -/
theorem Parse_simmap_derived (cap : Int) (fuel : Nat) (t : Tree) (root : PT)
    (descr : List Token) (hd : Derives root descr) (hacc : Accepts cap fuel t descr) :
    ∃ N, ∀ fuel1, N ≤ fuel1 → ∃ t1, Parse cap fuel1 t descr = some (0, t1) ∧
      ∀ (y : Nat) (c o : Token) (lead : Option Token) (first : Seg)
        (more : List (Token × Seg)) (cl : Token),
        (y, Branch.simmap c o lead first more cl) ∈ root.branches t.next →
        (t1.heap y).StateOrder = (segValues first more).map Prod.fst ∧
        (t1.heap y).StateTimes = (segValues first more).map Prod.snd ∧
        (t1.heap y).Length =
          ((segValues first more).map Prod.snd).foldl (fun x y => x + y) 0 ∧
        (∀ v ∈ segValues first more, v.1 < cap) ∧
        ((∀ v ∈ segValues first more, 0 ≤ v.1) →
          (t1.heap y).ModelCategory.length = cap.toNat ∧
          ∀ s : Int, 0 ≤ s → s < cap →
            (t1.heap y).ModelCategory.getD s.toNat 0 =
              timeIn s (segValues first more) 0) := by
  obtain ⟨N, hN⟩ := Parse_derived cap fuel t root descr hd hacc
  refine ⟨N, fun fuel1 hf => ?_⟩
  obtain ⟨t1, hp, -, -, -, -, -, hm, hr⟩ := hN fuel1 hf
  refine ⟨t1, hp, fun y c o lead first more cl hy => ?_⟩
  obtain ⟨n0, hn⟩ := Matches_branch cap _ root none t.next 0 hm _ hy
  have hn1 : (t1.heap y).clearPL = (Branch.simmap c o lead first more cl).apply cap n0 := hn
  have hin : (Branch.simmap c o lead first more cl).InRange cap :=
    PT.InRange_branch cap root t.next hr _ hy
  have e1 : (t1.heap y).StateOrder = ((t1.heap y).clearPL).StateOrder := rfl
  have e2 : (t1.heap y).StateTimes = ((t1.heap y).clearPL).StateTimes := rfl
  have e3 : (t1.heap y).Length = ((t1.heap y).clearPL).Length := rfl
  have e4 : (t1.heap y).ModelCategory = ((t1.heap y).clearPL).ModelCategory := rfl
  rw [e1, e2, e3, e4, hn1]
  exact simmap_fields cap c o lead first more cl n0 hin

/-! ## Weights after parsing -/

theorem Rep_agree (h h1 : Heap) (T : BT) (a : Option Nat)
    (hx : ∀ y ∈ T.addrs, h1 y = h y) (hr : Rep h a T) : Rep h1 a T :=
  Rep_congr h h1 T a (fun y hy => by rw [hx y hy]; exact ⟨rfl, rfl, rfl⟩) hr

theorem leavesF_agree (h h1 : Heap) (T : BT) (hx : ∀ y ∈ T.addrs, h1 y = h y) :
    leavesF h1 T = leavesF h T :=
  leavesF_congr h h1 T (fun y hy => by rw [hx y hy])

theorem EldersOK_congr (h h1 : Heap) (a : Nat) (E : List (Nat × BT)) : ∀ p : Option Nat,
    (∀ y ∈ eldersAddrs E, h1 y = h y) → EldersOK h a E p → EldersOK h1 a E p := by
  induction E with
  | nil => intro p _ _; trivial
  | cons ec E ih =>
    obtain ⟨e, c⟩ := ec
    intro p hx ho
    obtain ⟨o1, o2, o3, o4, o5, o6⟩ := ho
    have he : h1 e = h e := hx e (by simp [eldersAddrs])
    have hc : ∀ y ∈ c.addrs, h1 y = h y := fun y hy => hx y (by simp [eldersAddrs, hy])
    refine ⟨by rw [he]; exact o1, by rw [he]; exact o2, by rw [he]; exact o3,
      Rep_agree h h1 c _ hc o4, ?_, ih _ (fun y hy => hx y (by simp [eldersAddrs, hy])) o6⟩
    refine WeightsOK_congr h h1 _ (fun y hy => ?_) o5
    simp only [BT.addrs, List.append_nil, List.mem_cons] at hy
    rcases hy with rfl | hy
    · exact he
    · exact hc y hy

theorem eldersLeaves_congr (h h1 : Heap) (E : List (Nat × BT)) :
    (∀ y ∈ eldersAddrs E, h1 y = h y) → eldersLeaves h1 E = eldersLeaves h E := by
  induction E with
  | nil => intro _; rfl
  | cons ec E ih =>
    obtain ⟨e, c⟩ := ec
    intro hx
    simp only [eldersLeaves]
    rw [hx e (by simp [eldersAddrs]),
      leavesF_agree h h1 c (fun y hy => hx y (by simp [eldersAddrs, hy])),
      ih (fun y hy => hx y (by simp [eldersAddrs, hy]))]

theorem Frames_congr (h h1 : Heap) (r : Nat) (fs : List (Nat × List (Nat × BT))) :
    ∀ x : Nat, (∀ y ∈ framesAddrs fs, h1 y = h y) → (h1 x).Anc = (h x).Anc →
      Frames h r fs x → Frames h1 r fs x := by
  induction fs with
  | nil => intro x _ hx hf; exact ⟨by rw [hx]; exact hf.1, hf.2⟩
  | cons f fs ih =>
    obtain ⟨a, E⟩ := f
    intro x hy hx hf
    obtain ⟨f1, f2, f3, f4, f5, f6⟩ := hf
    have ha : h1 a = h a := hy a (by simp [framesAddrs])
    have hE : ∀ y ∈ eldersAddrs E, h1 y = h y := fun y h2 => hy y (by simp [framesAddrs, h2])
    refine ⟨by rw [hx]; exact f1, by rw [ha]; exact f2, EldersOK_congr h h1 a E _ hE f3,
      by rw [ha]; exact f4, ?_, ih a (fun y h2 => hy y (by simp [framesAddrs, h2]))
        (by rw [ha]) f6⟩
    rw [ha, eldersLeaves_congr h h1 E hE]; exact f5

theorem framesWeight_congr (h h1 : Heap) (fs : List (Nat × List (Nat × BT))) :
    (∀ y ∈ framesAddrs fs, h1 y = h y) → framesWeight h1 fs = framesWeight h fs := by
  induction fs with
  | nil => intro _; rfl
  | cons f fs ih =>
    obtain ⟨a, E⟩ := f
    intro hy
    simp only [framesWeight]
    rw [hy a (by simp [framesAddrs]), ih (fun y h2 => hy y (by simp [framesAddrs, h2]))]

theorem closeChain_rep (h : Heap) (a : Nat) (E : List (Nat × BT)) : ∀ T : BT,
    EldersOK h a E T.ptr → Rep h (some a) T → WeightsOK h T →
      Rep h (some a) (closeChain E T) ∧ WeightsOK h (closeChain E T) ∧
      (closeChain E T).ptr = eldersHead E T.ptr ∧
      leavesF h (closeChain E T) = eldersLeaves h E + leavesF h T := by
  induction E with
  | nil => intro T _ hr hw; exact ⟨hr, hw, rfl, by simp [closeChain, eldersLeaves]⟩
  | cons ec E ih =>
    obtain ⟨e, c⟩ := ec
    intro T ho hr hw
    obtain ⟨o1, o2, o3, o4, o5, o6⟩ := ho
    obtain ⟨i1, i2, i3, i4⟩ := ih (BT.node e c T) o6 ⟨o1, o2, o3, o4, hr⟩ ⟨o5.1, o5.2.1, hw⟩
    refine ⟨i1, i2, i3, ?_⟩
    rw [closeChain, i4]
    simp only [eldersLeaves, leavesF]
    ring

theorem closeChain_addrs (E : List (Nat × BT)) : ∀ T : BT,
    ((closeChain E T).addrs).Perm (eldersAddrs E ++ T.addrs) := by
  induction E with
  | nil => intro T; exact List.Perm.refl _
  | cons ec E ih =>
    obtain ⟨e, c⟩ := ec
    intro T
    refine (ih (BT.node e c T)).trans ?_
    simp only [BT.addrs, eldersAddrs]
    have : (eldersAddrs E ++ e :: (c.addrs ++ T.addrs)).Perm
        ((e :: (c.addrs ++ T.addrs)) ++ eldersAddrs E) := List.perm_append_comm
    refine this.trans ?_
    simp only [List.cons_append, List.append_assoc]
    exact List.Perm.cons e (List.Perm.append_left c.addrs List.perm_append_comm)

theorem branchInfo_heap (cap : Int) (n : Nat) (s s1 : PState)
    (hb : branchInfo cap n s = some s1) :
    ∃ f : Node → Node,
      (∀ m, (f m).Anc = m.Anc ∧ (f m).Child = m.Child ∧ (f m).Sib = m.Sib ∧
        (f m).Leaf = m.Leaf ∧ (f m).Weight = m.Weight) ∧
      s1.tree.heap = s.tree.heap.modify s.cur f ∧ s1.tree.Root = s.tree.Root ∧
      s1.tree.next = s.tree.next ∧ s1.tree.Leaves = s.tree.Leaves := by
  unfold branchInfo at hb
  by_cases hp : firstChar s.NextToken.token = '{'
  · simp only [hp, if_true] at hb
    split at hb
    · cases hb
    · cases hb
      rename_i a _
      refine ⟨fun m =>
        { m with Length := a.totaledgelength, ModelCategory := a.modelvector,
                 StateOrder := a.stateordervector, StateTimes := a.statetimesvector },
        fun m => ⟨rfl, rfl, rfl, rfl, rfl⟩, ?_⟩
      by_cases ht : a.tooMany = true <;>
        simp [ht, NextToken_tree, NextToken_cur, PState.modCur, PState.setError]
  · simp only [hp, if_false] at hb
    cases hb
    refine ⟨fun m =>
      { m with Length := FP.toFloat s.NextToken.token.fval,
               ModelCategory := [FP.toFloat s.NextToken.token.fval],
               StateOrder := [0], StateTimes := [FP.toFloat s.NextToken.token.fval] },
      fun m => ⟨rfl, rfl, rfl, rfl, rfl⟩, ?_⟩
    simp [NextToken_tree, NextToken_cur, PState.modCur]

theorem CurOK_modify (h : Heap) (x : Nat) (cx : BT) (f : Node → Node)
    (hf : ∀ m, (f m).Anc = m.Anc ∧ (f m).Child = m.Child ∧ (f m).Sib = m.Sib ∧
        (f m).Leaf = m.Leaf ∧ (f m).Weight = m.Weight)
    (hx : x ∉ cx.addrs) (hc : CurOK h x cx) : CurOK (h.modify x f) x cx := by
  obtain ⟨c1, c2, c3, c4, c5, -⟩ := hc
  have hag : ∀ y ∈ cx.addrs, (h.modify x f) y = h y := fun y hy =>
    Heap.modify_ne h x y f (fun e => hx (e ▸ hy))
  refine ⟨?_, ?_, Rep_agree h _ cx _ hag c3, ?_, WeightsOK_congr h _ cx hag c5, trivial⟩
  · rw [Heap.modify_same, (hf _).2.2.1]; exact c1
  · rw [Heap.modify_same, (hf _).2.1]; exact c2
  · rw [Heap.modify_same, (hf _).2.2.2.1, (hf _).2.2.2.2, leavesF_agree h _ cx hag]; exact c4

theorem Frames_modify (h : Heap) (r x : Nat) (fs : List (Nat × List (Nat × BT)))
    (f : Node → Node) (hf : ∀ m, (f m).Anc = m.Anc) (hx : x ∉ framesAddrs fs)
    (hfr : Frames h r fs x) : Frames (h.modify x f) r fs x :=
  Frames_congr h _ r fs x (fun y hy => Heap.modify_ne h x y f (fun e => hx (e ▸ hy)))
    (by rw [Heap.modify_same, hf]) hfr

/-- A pass of the loop that leaves the node stack and `CurNode` in place and changes
at most fields of `CurNode` other than its pointers, leaf flag and weight. -/
theorem WInv_frame (s s1 : PState) (r : Nat) (fs : List (Nat × List (Nat × BT))) (cx : BT)
    (f : Node → Node)
    (hf : ∀ m, (f m).Anc = m.Anc ∧ (f m).Child = m.Child ∧ (f m).Sib = m.Sib ∧
        (f m).Leaf = m.Leaf ∧ (f m).Weight = m.Weight)
    (hheap : s1.tree.heap = s.tree.heap.modify s.cur f) (hroot : s1.tree.Root = s.tree.Root)
    (hnext : s1.tree.next = s.tree.next) (hleaves : s1.tree.Leaves = s.tree.Leaves)
    (hstk : s1.stk = s.stk) (hcur : s1.cur = s.cur) (hstate : s1.state = s.state)
    (htok : s.token.kind ≠ tokentype.SEMICOLON) (hacc : s.state ≠ FsmState.stACCEPTED)
    (hi : WInv s r fs cx) : WInv s1 r fs cx := by
  obtain ⟨i1, i2, i3, i4, i5, i6, i7, i8, i9, i10, -⟩ := hi
  have hx1 : s.cur ∉ cx.addrs := fun hm => (List.nodup_cons.1 i5).1 (by simp [hm])
  have hx2 : s.cur ∉ framesAddrs fs := fun hm => (List.nodup_cons.1 i5).1 (by simp [hm])
  have hw : (s.tree.heap.modify s.cur f s.cur).Weight = (s.tree.heap s.cur).Weight := by
    rw [Heap.modify_same, (hf _).2.2.2.2]
  have hl : (s.tree.heap.modify s.cur f s.cur).Leaf = (s.tree.heap s.cur).Leaf := by
    rw [Heap.modify_same, (hf _).2.2.2.1]
  rw [WInv, hheap, hroot, hnext, hleaves, hstk, hcur, hstate]
  refine ⟨i1, i2, Frames_modify _ r _ fs f (fun m => (hf m).1) hx2 i3,
    CurOK_modify _ _ cx f hf hx1 i4, i5, i6, ?_, ?_, i9, ?_, fun h => absurd h hacc⟩
  · rw [hw, framesWeight_congr _ _ fs
      (fun y hy => Heap.modify_ne s.tree.heap s.cur y f (fun e => hx2 (e ▸ hy)))]
    exact i7
  · intro h; rw [hw, hl]; exact i8 h
  · intro h
    rcases i10 h with h1 | h1
    · exact Or.inl h1
    · exact absurd h1 htok

theorem WInv_gotoNext (s : PState) (r : Nat) (fs : List (Nat × List (Nat × BT))) (cx : BT)
    (hc : cx = BT.nil ∨ s.token.kind = tokentype.SEMICOLON) (hi : WInv s r fs cx) :
    WInv (s.goto FsmState.stNEXTMOVE) r fs cx := by
  obtain ⟨i1, i2, i3, i4, i5, i6, i7, -, -, -, -⟩ := hi
  exact ⟨i1, i2, i3, i4, i5, i6, i7, fun h => by simp [PState.goto] at h,
    fun h => by simp [PState.goto] at h, fun _ => hc, fun h => by simp [PState.goto] at h⟩

theorem WInv_gotoAccepted (s : PState) (r : Nat) (fs : List (Nat × List (Nat × BT))) (cx : BT)
    (hs : s.stk = []) (hi : WInv s r fs cx) : WInv (s.goto FsmState.stACCEPTED) r fs cx := by
  obtain ⟨i1, i2, i3, i4, i5, i6, i7, -, -, -, -⟩ := hi
  exact ⟨i1, i2, i3, i4, i5, i6, i7, fun h => by simp [PState.goto] at h,
    fun h => by simp [PState.goto] at h, fun h => by simp [PState.goto] at h, fun _ => hs⟩

theorem WInv_getNameLeaf (s : PState) (r : Nat) (fs : List (Nat × List (Nat × BT))) (cx : BT)
    (hst : s.state = FsmState.stGETNAME) (hi : WInv s r fs cx) :
    WInv (getNameLeaf s) r fs BT.nil := by
  obtain ⟨i1, i2, i3, i4, i5, i6, i7, i8, -, -, -⟩ := hi
  obtain ⟨rfl, hleaf, hw⟩ := i8 hst
  obtain ⟨c1, c2, -, -⟩ := i4
  have hx2 : s.cur ∉ framesAddrs fs := fun hm => (List.nodup_cons.1 i5).1 (by simp [hm])
  have hctl := getNameLeaf_ctl s
  rw [WInv, getNameLeaf_tree, getNameLeaf_cur, hctl.1, hctl.2.1]
  dsimp only
  refine ⟨i1, i2, Frames_modify _ r _ fs _ (fun m => rfl) hx2 i3, ⟨?_, ?_, trivial, ?_, trivial,
    trivial⟩, i5, i6, ?_, fun h => by simp at h, fun _ => rfl, fun h => by simp at h,
    fun h => by simp at h⟩
  · simp only [Heap.modify_same]; exact c1
  · simp only [Heap.modify_same]; exact c2
  · simp [Heap.modify_same, leavesF]
  · simp only [Heap.modify_same]
    rw [framesWeight_congr _ _ fs
      (fun y hy => Heap.modify_ne s.tree.heap s.cur y _ (fun e => hx2 (e ▸ hy)))]
    rw [i7, hw]; ring

theorem lparMove_heap (s : PState) (hx : s.cur ≠ s.tree.next) :
    (lparMove s).tree.heap s.tree.next = { Anc := some s.cur } ∧
    (lparMove s).tree.heap s.cur =
      { s.tree.heap s.cur with Child := some s.tree.next,
                               Degree := (s.tree.heap s.cur).Degree + 1 } ∧
    ∀ y, y ≠ s.cur → y ≠ s.tree.next → (lparMove s).tree.heap y = s.tree.heap y := by
  rw [lparMove_tree]
  refine ⟨?_, ?_, fun y h1 h2 => ?_⟩
  · simp [Heap.IncrementDegree, Heap.modify, Heap.set, hx, Ne.symm hx]
  · simp [Heap.IncrementDegree, Heap.modify, Heap.set, hx, Ne.symm hx]
  · simp [Heap.IncrementDegree, Heap.modify, Heap.set, h1, h2]

theorem WInv_lparMove (s : PState) (r : Nat) (fs : List (Nat × List (Nat × BT))) (cx : BT)
    (hcx : cx = BT.nil) (hi : WInv s r fs cx) :
    WInv (lparMove s) r ((s.cur, []) :: fs) BT.nil := by
  subst hcx
  obtain ⟨i1, i2, i3, i4, i5, i6, i7, -, -, -, -⟩ := hi
  obtain ⟨c1, c2, -, c4, -, -⟩ := i4
  have hxn : s.cur ≠ s.tree.next := Nat.ne_of_lt (i6 _ (by simp))
  have hx2 : s.cur ∉ framesAddrs fs := fun hm => (List.nodup_cons.1 i5).1 (by simp [hm])
  obtain ⟨hq, hx, hy⟩ := lparMove_heap s hxn
  have hag : ∀ y ∈ framesAddrs fs, (lparMove s).tree.heap y = s.tree.heap y := fun y hm =>
    hy y (fun e => hx2 (e ▸ hm)) (Nat.ne_of_lt (i6 y (by simp [hm])))
  have hctl := lparMove_ctl s
  have hroot : (lparMove s).tree.Root = s.tree.Root := by rw [lparMove_tree]
  have hnext : (lparMove s).tree.next = s.tree.next + 1 := by rw [lparMove_tree]
  have hleaves : (lparMove s).tree.Leaves = s.tree.Leaves := by rw [lparMove_tree]
  rw [WInv, hroot, hnext, hleaves, lparMove_cur, hctl.1, hctl.2.1]
  refine ⟨i1, by simp [i2], ⟨by rw [hq], by rw [hx]; rfl, trivial, by rw [hx]; exact c1, ?_,
    Frames_congr _ _ r fs _ hag (by rw [hx]) i3⟩, ⟨by rw [hq], by rw [hq]; rfl, trivial, ?_,
    trivial, trivial⟩, ?_, ?_, ?_, fun _ => ⟨rfl, by rw [hq], by rw [hq]⟩,
    fun h => by simp at h, fun h => by simp at h, fun h => by simp at h⟩
  · rw [hx]; simpa [eldersLeaves, leavesF] using c4
  · rw [hq]; simp [leavesF]
  · simp only [BT.addrs, List.nil_append, framesAddrs, eldersAddrs, List.nodup_cons]
    simp only [BT.addrs, List.nil_append, List.nodup_cons] at i5
    refine ⟨fun hm => ?_, i5⟩
    have := i6 s.tree.next (by simpa [BT.addrs] using hm)
    omega
  · intro y hm
    simp only [BT.addrs, List.nil_append, framesAddrs, eldersAddrs, List.mem_cons] at hm
    rcases hm with rfl | hm
    · omega
    · have := i6 y (by simpa [BT.addrs] using hm)
      omega
  · simp only [framesWeight]
    rw [hq, hx, framesWeight_congr _ _ fs hag, i7]
    simp

theorem commaMove_heap (s : PState) (a : Nat) (stk : List Nat) (h : s.stk = a :: stk)
    (hxq : s.cur ≠ s.tree.next) (haq : a ≠ s.tree.next) (hax : a ≠ s.cur) :
    (commaMove s).tree.heap s.tree.next = { Anc := some a } ∧
    (commaMove s).tree.heap s.cur = { s.tree.heap s.cur with Sib := some s.tree.next } ∧
    (commaMove s).tree.heap a =
      { s.tree.heap a with Weight := (s.tree.heap a).Weight + (s.tree.heap s.cur).Weight,
                           Degree := (s.tree.heap a).Degree + 1 } ∧
    ∀ y, y ≠ s.cur → y ≠ a → y ≠ s.tree.next → (commaMove s).tree.heap y = s.tree.heap y := by
  rw [commaMove_tree s a stk h]
  refine ⟨?_, ?_, ?_, fun y h1 h2 h3 => ?_⟩
  · simp [Heap.IncrementDegree, Heap.AddWeight, Heap.modify, Heap.set, hxq, Ne.symm hxq, haq,
      Ne.symm haq, hax, Ne.symm hax]
  · simp [Heap.IncrementDegree, Heap.AddWeight, Heap.modify, Heap.set, hxq, Ne.symm hxq, haq,
      Ne.symm haq, hax, Ne.symm hax]
  · simp [Heap.IncrementDegree, Heap.AddWeight, Heap.modify, Heap.set, hxq, Ne.symm hxq, haq,
      Ne.symm haq, hax, Ne.symm hax]
  · simp [Heap.IncrementDegree, Heap.AddWeight, Heap.modify, Heap.set, h1, h2, h3]

theorem comma_perm (x a : Nat) (C E F : List Nat) :
    (a :: ((x :: (C ++ E)) ++ F)).Perm (x :: (C ++ a :: (E ++ F))) := by
  have h1 : (x :: (C ++ a :: (E ++ F))).Perm (x :: a :: (C ++ (E ++ F))) :=
    List.Perm.cons x List.perm_middle
  refine List.Perm.trans ?_ h1.symm
  simp only [List.cons_append, List.append_assoc]
  exact List.Perm.swap x a _

theorem WInv_commaMove (s : PState) (r a : Nat) (E : List (Nat × BT))
    (fs : List (Nat × List (Nat × BT))) (cx : BT) (hi : WInv s r ((a, E) :: fs) cx) :
    WInv (commaMove s) r ((a, (s.cur, cx) :: E) :: fs) BT.nil := by
  obtain ⟨i1, i2, i3, i4, i5, i6, i7, -, -, -, -⟩ := hi
  obtain ⟨c1, c2, c3, c4, c5, -⟩ := i4
  obtain ⟨f1, f2, f3, f4, f5, f6⟩ := i3
  have hstk : s.stk = a :: fs.map Prod.fst := by rw [i2]; rfl
  have hperm := comma_perm s.cur a cx.addrs (eldersAddrs E) (framesAddrs fs)
  have hnd : (a :: ((s.cur :: (cx.addrs ++ eldersAddrs E)) ++ framesAddrs fs)).Nodup :=
    hperm.nodup_iff.2 i5
  have hlt : ∀ y ∈ a :: ((s.cur :: (cx.addrs ++ eldersAddrs E)) ++ framesAddrs fs),
      y < s.tree.next := fun y hy => i6 y (hperm.mem_iff.1 hy)
  have hxq : s.cur ≠ s.tree.next := Nat.ne_of_lt (i6 _ (by simp))
  have haq : a ≠ s.tree.next := Nat.ne_of_lt (hlt _ (by simp))
  have hax : a ≠ s.cur := fun e => (List.nodup_cons.1 hnd).1 (by simp [e])
  have hxc : s.cur ∉ cx.addrs := fun hm => (List.nodup_cons.1 i5).1 (by simp [hm])
  have hxE : s.cur ∉ eldersAddrs E := fun hm =>
    (List.nodup_cons.1 i5).1 (by simp [framesAddrs, hm])
  have hxF : s.cur ∉ framesAddrs fs := fun hm =>
    (List.nodup_cons.1 i5).1 (by simp [framesAddrs, hm])
  have hac : a ∉ cx.addrs := fun hm => (List.nodup_cons.1 hnd).1 (by simp [hm])
  have haE : a ∉ eldersAddrs E := fun hm => (List.nodup_cons.1 hnd).1 (by simp [hm])
  have haF : a ∉ framesAddrs fs := fun hm => (List.nodup_cons.1 hnd).1 (by simp [hm])
  obtain ⟨hq, hx, ha, hy⟩ := commaMove_heap s a _ hstk hxq haq hax
  have agc : ∀ y ∈ cx.addrs, (commaMove s).tree.heap y = s.tree.heap y := fun y hm =>
    hy y (fun e => hxc (e ▸ hm)) (fun e => hac (e ▸ hm)) (Nat.ne_of_lt (i6 y (by simp [hm])))
  have agE : ∀ y ∈ eldersAddrs E, (commaMove s).tree.heap y = s.tree.heap y := fun y hm =>
    hy y (fun e => hxE (e ▸ hm)) (fun e => haE (e ▸ hm))
      (Nat.ne_of_lt (i6 y (by simp [framesAddrs, hm])))
  have agF : ∀ y ∈ framesAddrs fs, (commaMove s).tree.heap y = s.tree.heap y := fun y hm =>
    hy y (fun e => hxF (e ▸ hm)) (fun e => haF (e ▸ hm))
      (Nat.ne_of_lt (i6 y (by simp [framesAddrs, hm])))
  have hctl := (commaMove_ctl s).2 (by rw [hstk]; simp)
  have hroot : (commaMove s).tree.Root = s.tree.Root := by rw [commaMove_tree s a _ hstk]
  have hnext : (commaMove s).tree.next = s.tree.next + 1 := by rw [commaMove_tree s a _ hstk]
  have hleaves : (commaMove s).tree.Leaves = s.tree.Leaves := by rw [commaMove_tree s a _ hstk]
  rw [WInv, hroot, hnext, hleaves, commaMove_cur s a _ hstk, hctl.1, hctl.2.1]
  refine ⟨i1, i2, ⟨by rw [hq], by rw [ha]; exact f2, ⟨by rw [hx]; exact f1, by rw [hx]; exact c2,
    by rw [hx], Rep_agree _ _ cx _ agc c3, ⟨?_, WeightsOK_congr _ _ cx agc c5, trivial⟩,
    EldersOK_congr _ _ a E _ agE f3⟩, by rw [ha]; exact f4, ?_,
    Frames_congr _ _ r fs a agF (by rw [ha]) f6⟩, ⟨by rw [hq], by rw [hq]; rfl, trivial, ?_,
    trivial, trivial⟩, ?_, ?_, ?_, fun _ => ⟨rfl, by rw [hq], by rw [hq]⟩,
    fun h => by simp at h, fun h => by simp at h, fun h => by simp at h⟩
  · rw [hx, leavesF_agree _ _ cx agc]; exact c4
  · simp only [eldersLeaves]
    rw [ha, hx, leavesF_agree _ _ cx agc, eldersLeaves_congr _ _ E agE]
    dsimp only
    rw [f5, c4]; ring
  · rw [hq]; simp [leavesF]
  · simp only [BT.addrs, List.nil_append, framesAddrs, eldersAddrs, List.nodup_cons]
    refine ⟨fun hm => ?_, List.nodup_cons.1 hnd⟩
    have := hlt s.tree.next (by simpa using hm)
    omega
  · intro y hm
    simp only [BT.addrs, List.nil_append, framesAddrs, eldersAddrs, List.mem_cons] at hm
    rcases hm with rfl | hm
    · omega
    · have := hlt y (by simpa using hm)
      omega
  · simp only [framesWeight]
    rw [hq, ha, framesWeight_congr _ _ fs agF, i7]
    simp only [framesWeight]
    ring

theorem rpar_perm (x a : Nat) (C E F K : List Nat) (hK : K.Perm (E ++ (x :: (C ++ [])))) :
    (a :: (K ++ F)).Perm (x :: (C ++ a :: (E ++ F))) := by
  have h1 : (x :: (C ++ a :: (E ++ F))).Perm (a :: ((x :: (C ++ E)) ++ F)) :=
    (comma_perm x a C E F).symm
  refine List.Perm.trans (List.Perm.cons a ?_) h1.symm
  refine List.Perm.append_right F ?_
  refine hK.trans ?_
  simp only [List.append_nil]
  exact List.perm_append_comm

theorem WInv_rparMove (s : PState) (r a : Nat) (E : List (Nat × BT))
    (fs : List (Nat × List (Nat × BT))) (cx : BT) (hi : WInv s r ((a, E) :: fs) cx) :
    WInv (rparMove s) r fs (closeChain E (BT.node s.cur cx BT.nil)) := by
  obtain ⟨i1, i2, i3, i4, i5, i6, i7, -, -, -, -⟩ := hi
  obtain ⟨c1, c2, c3, c4, c5, -⟩ := i4
  obtain ⟨f1, f2, f3, f4, f5, f6⟩ := i3
  have hstk : s.stk = a :: fs.map Prod.fst := by rw [i2]; rfl
  have hperm := comma_perm s.cur a cx.addrs (eldersAddrs E) (framesAddrs fs)
  have hnd : (a :: ((s.cur :: (cx.addrs ++ eldersAddrs E)) ++ framesAddrs fs)).Nodup :=
    hperm.nodup_iff.2 i5
  have hax : a ≠ s.cur := fun e => (List.nodup_cons.1 hnd).1 (by simp [e])
  have hac : a ∉ cx.addrs := fun hm => (List.nodup_cons.1 hnd).1 (by simp [hm])
  have haE : a ∉ eldersAddrs E := fun hm => (List.nodup_cons.1 hnd).1 (by simp [hm])
  have haF : a ∉ framesAddrs fs := fun hm => (List.nodup_cons.1 hnd).1 (by simp [hm])
  have hheap : (rparMove s).tree.heap =
      s.tree.heap.AddWeight a (s.tree.heap s.cur).Weight := by rw [rparMove_tree s a _ hstk]
  have ha : (rparMove s).tree.heap a =
      { s.tree.heap a with Weight := (s.tree.heap a).Weight + (s.tree.heap s.cur).Weight } := by
    rw [hheap]; simp [Heap.AddWeight]
  have hy : ∀ y, y ≠ a → (rparMove s).tree.heap y = s.tree.heap y := fun y h1 => by
    rw [hheap]; simp [Heap.AddWeight, h1]
  have hx : (rparMove s).tree.heap s.cur = s.tree.heap s.cur := hy _ (Ne.symm hax)
  have agc : ∀ y ∈ cx.addrs, (rparMove s).tree.heap y = s.tree.heap y := fun y hm =>
    hy y (fun e => hac (e ▸ hm))
  have agE : ∀ y ∈ eldersAddrs E, (rparMove s).tree.heap y = s.tree.heap y := fun y hm =>
    hy y (fun e => haE (e ▸ hm))
  have agF : ∀ y ∈ framesAddrs fs, (rparMove s).tree.heap y = s.tree.heap y := fun y hm =>
    hy y (fun e => haF (e ▸ hm))
  have hctl := (rparMove_ctl s).2 a _ hstk
  have hroot : (rparMove s).tree.Root = s.tree.Root := by rw [rparMove_tree s a _ hstk]
  have hnext : (rparMove s).tree.next = s.tree.next := by rw [rparMove_tree s a _ hstk]
  have hleaves : (rparMove s).tree.Leaves = s.tree.Leaves := by rw [rparMove_tree s a _ hstk]
  have hwx : WeightsOK (rparMove s).tree.heap (BT.node s.cur cx BT.nil) :=
    ⟨by rw [hx, leavesF_agree _ _ cx agc]; exact c4, WeightsOK_congr _ _ cx agc c5, trivial⟩
  obtain ⟨k1, k2, k3, k4⟩ := closeChain_rep (rparMove s).tree.heap a E (BT.node s.cur cx BT.nil)
    (EldersOK_congr _ _ a E _ agE f3)
    ⟨by rw [hx]; exact f1, by rw [hx]; exact c2, by rw [hx]; exact c1,
      Rep_agree _ _ cx _ agc c3, trivial⟩ hwx
  have hK := closeChain_addrs E (BT.node s.cur cx BT.nil)
  have hperm2 := rpar_perm s.cur a cx.addrs (eldersAddrs E) (framesAddrs fs) _ hK
  rw [WInv, hroot, hnext, hleaves, rparMove_cur s a _ hstk, hctl.1, hctl.2.1]
  refine ⟨i1, rfl, Frames_congr _ _ r fs a agF (by rw [ha]) f6, ⟨by rw [ha]; exact f4, ?_, k1,
    ?_, k2, trivial⟩, hperm2.nodup_iff.2 i5, fun y hm => i6 y (hperm2.mem_iff.1 hm), ?_,
    fun h => by simp at h, fun h => by simp at h, fun h => by simp at h,
    fun h => by simp at h⟩
  · rw [ha, k3]; exact f2
  · rw [k4, ha, eldersLeaves_congr _ _ E agE]
    simp only [leavesF]
    rw [hx, leavesF_agree _ _ cx agc]
    dsimp only
    rw [f5, c4]; ring
  · rw [ha, framesWeight_congr _ _ fs agF, i7]
    simp only [framesWeight]
    ring

theorem WInv_NextToken (s : PState) (r : Nat) (fs : List (Nat × List (Nat × BT))) (cx : BT)
    (htok : s.token.kind ≠ tokentype.SEMICOLON) (hacc : s.state ≠ FsmState.stACCEPTED)
    (hi : WInv s r fs cx) : WInv s.NextToken r fs cx :=
  WInv_frame s _ r fs cx (fun m => m) (fun _ => ⟨rfl, rfl, rfl, rfl, rfl⟩)
    (by rw [NextToken_tree, Heap.modify_id]) (by rw [NextToken_tree]) (by rw [NextToken_tree])
    (by rw [NextToken_tree]) (NextToken_stk s) (NextToken_cur s) (NextToken_state s) htok hacc hi

theorem WInv_labelMove (s : PState) (r : Nat) (fs : List (Nat × List (Nat × BT))) (cx : BT)
    (htok : s.token.kind ≠ tokentype.SEMICOLON) (hacc : s.state ≠ FsmState.stACCEPTED)
    (hi : WInv s r fs cx) : WInv (labelMove s) r fs cx :=
  WInv_frame s _ r fs cx (fun n => { n with Label := s.token.text })
    (fun _ => ⟨rfl, rfl, rfl, rfl, rfl⟩)
    (by rw [labelMove_tree]) (by rw [labelMove_tree]) (by rw [labelMove_tree])
    (by rw [labelMove_tree]) (labelMove_ctl s).2.1 (labelMove_cur s) (labelMove_ctl s).1
    htok hacc hi

theorem WInv_branchInfo (cap : Int) (n : Nat) (s s1 : PState) (r : Nat)
    (fs : List (Nat × List (Nat × BT))) (cx : BT) (hb : branchInfo cap n s = some s1)
    (htok : s.token.kind ≠ tokentype.SEMICOLON) (hacc : s.state ≠ FsmState.stACCEPTED)
    (hi : WInv s r fs cx) : WInv s1 r fs cx := by
  obtain ⟨f, hf, h1, h2, h3, h4⟩ := branchInfo_heap cap n s s1 hb
  obtain ⟨c1, c2, c3⟩ := branchInfo_ctl cap n s s1 hb
  exact WInv_frame s s1 r fs cx f hf h1 h2 h3 h4 c2 c3 c1 htok hacc hi

theorem WInvSome_commaMove (s : PState) (r : Nat) (fs : List (Nat × List (Nat × BT)))
    (cx : BT) (hi : WInv s r fs cx) : WInvSome (commaMove s) := by
  cases fs with
  | nil => exact Or.inl ((commaMove_ctl s).1 hi.2.1)
  | cons f fs =>
    obtain ⟨a, E⟩ := f
    exact Or.inr ⟨r, _, _, WInv_commaMove s r a E fs cx hi⟩

theorem WInvSome_rparMove (s : PState) (r : Nat) (fs : List (Nat × List (Nat × BT)))
    (cx : BT) (hi : WInv s r fs cx) : WInvSome (rparMove s) := by
  cases fs with
  | nil => exact Or.inl ((rparMove_ctl s).1 hi.2.1)
  | cons f fs =>
    obtain ⟨a, E⟩ := f
    exact Or.inr ⟨r, _, _, WInv_rparMove s r a E fs cx hi⟩

theorem WInvSome_lparMove (s : PState) (r : Nat) (fs : List (Nat × List (Nat × BT)))
    (cx : BT) (hs : s.state = FsmState.stNEXTMOVE) (htok : s.token.kind ≠ tokentype.SEMICOLON)
    (hi : WInv s r fs cx) : WInvSome (lparMove s) := by
  have hcx : cx = BT.nil := by
    rcases hi.2.2.2.2.2.2.2.2.2.1 hs with h | h
    · exact h
    · exact absurd h htok
  exact Or.inr ⟨r, _, _, WInv_lparMove s r fs cx hcx hi⟩

theorem WInvSome_semicolon (s s1 : PState) (r : Nat) (fs : List (Nat × List (Nat × BT)))
    (cx : BT)
    (hstep : (match s.stk with
      | [] => some (s.goto FsmState.stACCEPTED)
      | _ :: _ => some ((s.setError ErrorCode.errSTACKNOTEMPTY).goto FsmState.stQUIT)) = some s1)
    (hi : WInv s r fs cx) : WInvSome s1 := by
  cases hstk : s.stk with
  | nil =>
    simp only [hstk, Option.some.injEq] at hstep
    subst hstep
    exact Or.inr ⟨r, fs, cx, WInv_gotoAccepted s r fs cx hstk hi⟩
  | cons a l =>
    simp only [hstk, Option.some.injEq] at hstep
    subst hstep
    exact Or.inl rfl

theorem WInvSome_other (s s1 : PState)
    (hstep : (match s.stk with
      | [] => some ((s.setError ErrorCode.errSEMICOLON).goto FsmState.stQUIT)
      | _ :: _ => some ((s.setError ErrorCode.errSYNTAX).goto FsmState.stQUIT)) = some s1) :
    WInvSome s1 := by
  cases hstk : s.stk with
  | nil =>
    simp only [hstk, Option.some.injEq] at hstep
    subst hstep
    exact Or.inl rfl
  | cons a l =>
    simp only [hstk, Option.some.injEq] at hstep
    subst hstep
    exact Or.inl rfl

/-- One pass through the loop of `Tree::Parse` keeps the invariant. -/
theorem WInvSome_step (cap : Int) (n : Nat) (s s1 : PState) (hq : s.state ≠ FsmState.stQUIT)
    (ha : s.state ≠ FsmState.stACCEPTED) (hstep : step cap n s = some s1)
    (hi : WInvSome s) : WInvSome s1 := by
  rcases hi with hi | ⟨r, fs, cx, hi⟩
  · exact absurd hi hq
  have g1 := hi.2.2.2.2.2.2.2.1
  have g2 := hi.2.2.2.2.2.2.2.2.1
  cases hs : s.state <;> cases hk : s.token.kind <;>
    simp only [step, hs, hk, Option.some.injEq] at hstep <;>
    first
      | exact absurd hs hq
      | exact absurd hs ha
      | exact WInvSome_semicolon s s1 r fs cx hstep hi
      | exact WInvSome_other s s1 hstep
      | exact Or.inr ⟨r, fs, cx, WInv_branchInfo cap n s s1 r fs cx hstep
          (by rw [hk]; decide) ha hi⟩
      | (subst hstep; exact Or.inl rfl)
      | (subst hstep
         exact Or.inr ⟨r, fs, cx, WInv_NextToken s r fs cx (by rw [hk]; decide) ha hi⟩)
      | (subst hstep; exact Or.inr ⟨r, fs, _, WInv_getNameLeaf s r fs cx hs hi⟩)
      | (subst hstep
         exact Or.inr ⟨r, fs, cx, WInv_gotoNext s r fs cx (Or.inl (g1 hs).1) hi⟩)
      | (subst hstep; exact Or.inr ⟨r, fs, cx, WInv_gotoNext s r fs cx (Or.inl (g2 hs)) hi⟩)
      | (subst hstep; exact Or.inr ⟨r, fs, cx, WInv_gotoNext s r fs cx (Or.inr hk) hi⟩)
      | (subst hstep; exact WInvSome_commaMove s r fs cx hi)
      | (subst hstep; exact WInvSome_rparMove s r fs cx hi)
      | (subst hstep; exact WInvSome_lparMove s r fs cx hs (by rw [hk]; decide) hi)
      | (subst hstep
         exact Or.inr ⟨r, fs, cx, WInv_labelMove s r fs cx (by rw [hk]; decide) ha hi⟩)

theorem WInv_parseInit (t : Tree) (descr : List Token) :
    WInv (parseInit t descr) t.next [] BT.nil := by
  have ht : (parseInit t descr).tree =
      { t with Root := some t.next, Leaves := 0, Internals := 0, Error := ErrorCode.errNONE,
               CurNode := some t.next, next := t.next + 1, heap := t.heap.set t.next {} } := by
    simp [parseInit, Tree.NewNode, NextToken_tree]
  have hc : (parseInit t descr).cur = t.next := by
    simp [parseInit, Tree.NewNode, NextToken_cur]
  have hs : (parseInit t descr).state = FsmState.stGETNAME := by
    simp [parseInit, Tree.NewNode, NextToken_state]
  have hk : (parseInit t descr).stk = [] := by
    simp [parseInit, Tree.NewNode, NextToken_stk]
  rw [WInv, ht, hc, hs, hk]
  dsimp only
  refine ⟨rfl, rfl, ⟨by simp, rfl⟩, ⟨by simp, by simp [BT.ptr], trivial, by simp [leavesF],
    trivial, trivial⟩, by simp [BT.addrs, framesAddrs], ?_, by simp [framesWeight],
    fun _ => ⟨rfl, by simp, by simp⟩, fun h => by simp at h, fun h => by simp at h,
    fun h => by simp at h⟩
  intro y hy
  simp [BT.addrs, framesAddrs] at hy
  omega

theorem WInvSome_reach (cap : Int) (s s1 : PState) (hr : Reach cap s s1) :
    WInvSome s → WInvSome s1 := by
  induction hr with
  | refl s => exact id
  | step f s s2 s3 hq ha hs _ ih => exact fun hi => ih (WInvSome_step cap f s s2 hq ha hs hi)

theorem WeightsOK_fields (h h1 : Heap) (T : BT) :
    (∀ x, (h1 x).Leaf = (h x).Leaf ∧ (h1 x).Weight = (h x).Weight) →
      WeightsOK h T → WeightsOK h1 T := by
  induction T with
  | nil => intro _ _; trivial
  | node x c s ihc ihs =>
    intro hx hw
    refine ⟨?_, ihc hx hw.2.1, ihs hx hw.2.2⟩
    rw [(hx x).1, (hx x).2, leavesF_congr h h1 c (fun y _ => (hx y).1)]
    exact hw.1

/-- What `Tree::Parse` leaves behind when it ends in `stACCEPTED`, in the form used by
the later developments. -/
theorem parse_accepted_weights (cap : Int) (fuel : Nat) (t : Tree) (descr : List Token)
    (hacc : Accepts cap fuel t descr) :
    ∃ N, ∀ fuel1, N ≤ fuel1 → ∃ t1 r c, Parse cap fuel1 t descr = some (0, t1) ∧
      t1.Root = some r ∧ Rep t1.heap none (BT.node r c BT.nil) ∧
      (BT.node r c BT.nil).addrs.Nodup ∧ WeightsOK t1.heap (BT.node r c BT.nil) ∧
      (t1.heap r).Weight = t1.Leaves ∧ t1.Leaves = leavesF t1.heap (BT.node r c BT.nil) ∧
      (BT.node r c BT.nil).size < fuel1 := by
  obtain ⟨s, hrun, hs⟩ := Accepts.state cap fuel t descr hacc
  have hreach := Reach.of_run cap fuel _ s hrun
  have hinv := WInvSome_reach cap _ s hreach (Or.inr ⟨_, _, _, WInv_parseInit t descr⟩)
  rcases hinv with hq | ⟨r, fs, cx, hi⟩
  · rw [hs] at hq; cases hq
  obtain ⟨i1, i2, i3, i4, i5, -, i7, -, -, -, i11⟩ := hi
  have hfs : fs = [] := by
    have := i11 hs
    rw [i2] at this
    simpa using this
  subst hfs
  obtain ⟨f1, f2⟩ := i3
  obtain ⟨c1, c2, c3, c4⟩ := i4
  rw [f2] at f1 c1 c2 c3 c4 i5 i7
  have hrep : Rep s.tree.heap none (BT.node r cx BT.nil) := ⟨f1, c2, c1, c3, trivial⟩
  have hL : s.tree.Leaves = (s.tree.heap r).Weight := by simpa [framesWeight] using i7
  obtain ⟨N, hN⟩ := Parse_of_accepted cap t descr s r cx hreach hs i1 hrep
  refine ⟨max N ((BT.node r cx BT.nil).size + 1), fun fuel1 hf => ?_⟩
  obtain ⟨t1, hp, hpf⟩ := hN fuel1 (le_trans (le_max_left _ _) hf)
  have hheap : (acceptedTree s r).heap = s.tree.heap := by
    funext y
    by_cases hy : y = r
    · subst hy
      simp [acceptedTree, hL]
    · simp [acceptedTree, hy]
  have hfield : ∀ y, (t1.heap y).Leaf = (s.tree.heap y).Leaf ∧
      (t1.heap y).Weight = (s.tree.heap y).Weight := fun y => by
    rw [hpf.1 y, hheap]; exact ⟨rfl, rfl⟩
  have hw1 : WeightsOK t1.heap (BT.node r cx BT.nil) :=
    WeightsOK_fields s.tree.heap t1.heap _ hfield c4
  have hroot : t1.Root = some r := by
    rw [hpf.2]; simpa [acceptedTree] using i1
  have hleaves : t1.Leaves = s.tree.Leaves := by
    rw [hpf.2]; simp [acceptedTree]
  refine ⟨t1, r, cx, hp, hroot, ?_, ?_, hw1, ?_, ?_,
    lt_of_lt_of_le (Nat.lt_succ_self _) (le_trans (le_max_right _ _) hf)⟩
  · exact Rep_congr s.tree.heap t1.heap _ none
      (fun y _ => by have := PathFrame.links _ _ hpf y; rw [hheap] at this; exact this) hrep
  · simpa [BT.addrs, framesAddrs] using i5
  · rw [(hfield r).2, hleaves, hL]
  · rw [hleaves, hL, ← (hfield r).2]
    have := hw1.1
    simp only [leavesF]
    rw [this]; ring

/-- C3: whenever `Tree::Parse` ends in `stACCEPTED` (for any token stream, derived
from the grammar or not), it returns 0 and, without any call of `Update`, the tree
object holds a tree below `Root` (ancestor, child and sibling pointers agree, no node
occurs twice) in which the weight of every node is the number of nodes flagged as
leaves in its subtree, the node itself included, and the weight of the root is the
leaf count `Leaves`, which is the number of nodes flagged as leaves in the tree. -/
theorem Parse_weights (cap : Int) (fuel : Nat) (t : Tree) (descr : List Token)
    (hacc : Accepts cap fuel t descr) :
    ∃ N, ∀ fuel1, N ≤ fuel1 → ∃ t1 r c, Parse cap fuel1 t descr = some (0, t1) ∧
      t1.Root = some r ∧ Rep t1.heap none (BT.node r c BT.nil) ∧
      (BT.node r c BT.nil).addrs.Nodup ∧ WeightsOK t1.heap (BT.node r c BT.nil) ∧
      (t1.heap r).Weight = t1.Leaves ∧ t1.Leaves = leavesF t1.heap (BT.node r c BT.nil) := by
  obtain ⟨N, hN⟩ := parse_accepted_weights cap fuel t descr hacc
  refine ⟨N, fun fuel1 hf => ?_⟩
  obtain ⟨t1, r, c, h1, h2, h3, h4, h5, h6, h7, -⟩ := hN fuel1 hf
  exact ⟨t1, r, c, h1, h2, h3, h4, h5, h6, h7⟩

/-- C3, on the description `((A:1,B:2):3,C:4);`: the five nodes get the weights
3, 2, 1, 1, 1 and `Leaves` is 3. -/
theorem Parse_weights_witness :
    Accepts 30 40 {} descrNested ∧
      (Parse 30 40 {} descrNested).map (fun p =>
        (p.1, p.2.Leaves, (List.range 5).map fun i => (p.2.heap i).Weight)) =
        some (0, 3, [3, 2, 1, 1, 1]) ∧
      ∃ N, ∀ fuel1, N ≤ fuel1 → ∃ t1 r c, Parse 30 fuel1 {} descrNested = some (0, t1) ∧
        t1.Root = some r ∧ Rep t1.heap none (BT.node r c BT.nil) ∧
        (BT.node r c BT.nil).addrs.Nodup ∧ WeightsOK t1.heap (BT.node r c BT.nil) ∧
        (t1.heap r).Weight = t1.Leaves ∧ t1.Leaves = leavesF t1.heap (BT.node r c BT.nil) :=
  ⟨by unfold Accepts; decide, by decide!,
    Parse_weights 30 40 {} descrNested (by unfold Accepts; decide)⟩

/-! ## An unclosed SIMMAP block -/

theorem SimmapAcc.NextToken_keeps (cap : Int) (hcap : 0 < cap) (a : SimmapAcc)
    (hr : ∀ u ∈ a.rest, firstChar u ≠ '}' ∧ u.ival < cap) :
    (firstChar a.NextToken.token ≠ '}' ∧ a.NextToken.token.ival < cap) ∧
      ∀ u ∈ a.NextToken.rest, firstChar u ≠ '}' ∧ u.ival < cap := by
  cases h : a.rest with
  | nil =>
    simp only [SimmapAcc.NextToken, h]
    refine ⟨⟨by simp [firstChar, eosToken], hcap⟩, fun u hu => ?_⟩
    simp at hu
  | cons v r =>
    simp only [SimmapAcc.NextToken, h]
    rw [h] at hr
    exact ⟨hr v (by simp), fun u hu => hr u (by simp [hu])⟩

/-- The SIMMAP loop never ends when no token ahead starts with a closing brace and
no state id reaches the capacity: at the end of the input the tokenizer keeps
delivering end-of-input tokens, which neither close the block nor break the loop. -/
theorem simmapLoop_unclosed (cap : Int) (hcap : 0 < cap) : ∀ (fuel : Nat) (a : SimmapAcc),
    firstChar a.token ≠ '}' → (∀ u ∈ a.rest, firstChar u ≠ '}' ∧ u.ival < cap) →
      simmapLoop cap fuel a = none := by
  intro fuel
  induction fuel with
  | zero => intro a _ _; rfl
  | succ n ih =>
    intro a ht hr
    obtain ⟨k1, r1⟩ := SimmapAcc.NextToken_keeps cap hcap a hr
    have h2 : (firstChar (if firstChar a.NextToken.token = ':' then a.NextToken.NextToken
        else a.NextToken).token ≠ '}' ∧
        (if firstChar a.NextToken.token = ':' then a.NextToken.NextToken
          else a.NextToken).token.ival < cap) ∧
        ∀ u ∈ (if firstChar a.NextToken.token = ':' then a.NextToken.NextToken
          else a.NextToken).rest, firstChar u ≠ '}' ∧ u.ival < cap := by
      split
      · exact SimmapAcc.NextToken_keeps cap hcap _ r1
      · exact ⟨k1, r1⟩
    obtain ⟨k2, r2⟩ := h2
    obtain ⟨-, r3⟩ := SimmapAcc.NextToken_keeps cap hcap _ r2
    obtain ⟨-, r4⟩ := SimmapAcc.NextToken_keeps cap hcap _ r3
    simp only [simmapLoop, ht, if_false, simmapBody, ge_iff_le, not_le.2 k2.2]
    refine ih _ (SimmapAcc.NextToken_keeps cap hcap _ ?_).1.1
      (SimmapAcc.NextToken_keeps cap hcap _ ?_).2 <;> exact r4

theorem branchInfo_unclosed (cap : Int) (hcap : 0 < cap) (fuel : Nat) (s : PState)
    (body : List Token) (hrest : s.rest = tk tokentype.OTHER "\x7b" :: body)
    (hb : ∀ u ∈ body, firstChar u ≠ '}' ∧ u.ival < cap) : branchInfo cap fuel s = none := by
  have hl := simmapLoop_unclosed cap hcap fuel
    { modelvector := List.replicate cap.toNat 0, stateordervector := [],
      statetimesvector := [], totaledgelength := 0, tooMany := false, oob := false,
      token := tk tokentype.OTHER "\x7b", rest := body } (by simp [firstChar, tk]) hb
  simp only [tk] at hl
  simp [branchInfo, PState.NextToken, hrest, firstChar, tk, hl]

theorem run_unclosed (cap : Int) (hcap : 0 < cap) (t : Tree) (body : List Token)
    (hb : ∀ u ∈ body, firstChar u ≠ '}' ∧ u.ival < cap) (n : Nat) :
    run cap (n + 6) (parseInit t (descrOpenBlock body)) = none := by
  simp only [run, parseInit, descrOpenBlock, Tree.NewNode, PState.NextToken, List.cons_append,
    List.nil_append]
  simp [step, tk, PState.goto, lparMove, getNameLeaf, PState.NextToken, PState.modCur,
    Tree.NewNode]
  rw [branchInfo_unclosed cap hcap _ _ body rfl hb]

/-- C11 (refuted): on a description in which a SIMMAP block is opened and no later
token starts with a closing brace (and no token read as state id reaches the
capacity), `Tree::Parse` does not return, whatever the number of passes allowed:
the SIMMAP loop keeps reading end-of-input tokens forever, so neither `stACCEPTED`
nor `stQUIT` is reached. -/
theorem Parse_unclosed_simmap_diverges (cap : Int) (hcap : 0 < cap) (t : Tree)
    (body : List Token) (hb : ∀ u ∈ body, firstChar u ≠ '}' ∧ u.ival < cap) (fuel : Nat) :
    parseFsm cap fuel t (descrOpenBlock body) = none ∧
      Parse cap fuel t (descrOpenBlock body) = none := by
  have h1 : parseFsm cap fuel t (descrOpenBlock body) = none := by
    cases h : parseFsm cap fuel t (descrOpenBlock body) with
    | none => rfl
    | some s =>
      have h2 := run_mono cap fuel _ s h (fuel + 6) (by omega)
      rw [run_unclosed cap hcap t body hb fuel] at h2
      cases h2
  exact ⟨h1, by simp [Parse, h1]⟩

/-- C11, on the description `(A:\x7b0,1.5,B:2);` (closing brace missing) with
capacity 30 and 1000 passes allowed. -/
theorem Parse_unclosed_simmap_diverges_witness :
    (0 : Int) < 30 ∧ (∀ u ∈ bodyNoBrace, firstChar u ≠ '}' ∧ u.ival < 30) ∧
      (parseFsm 30 1000 {} (descrOpenBlock bodyNoBrace) = none ∧
        Parse 30 1000 {} (descrOpenBlock bodyNoBrace) = none) :=
  ⟨by decide, by decide,
    Parse_unclosed_simmap_diverges 30 (by decide) {} bodyNoBrace (by decide) 1000⟩

/-! ## NEXUSString -/

theorem copyLoop_eq (e : Bool) : ∀ (s out : List Char),
    copyLoop e s out = out ++ s.flatMap fun c =>
      if c = apostrophe then [apostrophe, apostrophe]
      else if c = ' ' && !e then ['_'] else [c] := by
  intro s
  induction s with
  | nil => intro out; simp [copyLoop]
  | cons c cs ih =>
    intro out
    rw [copyLoop, ih]
    by_cases h1 : c = apostrophe
    · simp [h1]
    · by_cases h2 : c = ' ' ∧ e = false
      · obtain ⟨rfl, rfl⟩ := h2
        simp [h1]
      · simp [h1, h2]

theorem encloseLoop_true (s : List Char) : encloseLoop true s = true := by
  cases s <;> rfl

theorem encloseLoop_false (s : List Char) :
    encloseLoop false s = true ↔
      ∃ c ∈ s, ¬ (c.isAlpha = true ∨ c.isDigit = true ∨ c = ' ' ∨ c = '_' ∨ c = '.') := by
  induction s with
  | nil => simp [encloseLoop]
  | cons c cs ih =>
    rw [encloseLoop]
    by_cases h : (!isalnum c && c != ' ' && c != '_' && c != '.') = true
    · rw [if_pos h, encloseLoop_true]
      simp only [Bool.and_eq_true, Bool.not_eq_true', bne_iff_ne, ne_eq, isalnum,
        Char.isAlphanum, Bool.or_eq_false_iff] at h
      refine ⟨fun _ => ⟨c, by simp, ?_⟩, fun _ => rfl⟩
      simp [h.1.1.1.1, h.1.1.1.2, h.1.1.2, h.1.2, h.2]
    · rw [if_neg h, ih]
      simp only [Bool.and_eq_true, Bool.not_eq_true', bne_iff_ne, ne_eq, isalnum,
        Char.isAlphanum, Bool.or_eq_false_iff] at h
      constructor
      · rintro ⟨d, hd, hn⟩
        exact ⟨d, by simp [hd], hn⟩
      · rintro ⟨d, hd, hn⟩
        simp only [List.mem_cons] at hd
        rcases hd with rfl | hd
        · exfalso
          apply h
          simp only [not_or] at hn
          refine ⟨⟨⟨⟨?_, ?_⟩, hn.2.2.1⟩, hn.2.2.2.1⟩, hn.2.2.2.2⟩
          · simpa using hn.1
          · simpa using hn.2.1
        · exact ⟨d, hd, hn⟩

theorem needsEnclose_iff (s : String) : needsEnclose s.data = true ↔ specNeedsQuote s := by
  unfold needsEnclose specNeedsQuote
  cases hs : s.data with
  | nil => simp [isalpha, Char.isAlpha, Char.isUpper, Char.isLower]
  | cons c cs =>
    by_cases hc : c.isAlpha = true
    · simp [isalpha, hc, encloseLoop_false]
    · simp [isalpha, hc]

theorem allowed_ne_apostrophe (c : Char)
    (h : c.isAlpha = true ∨ c.isDigit = true ∨ c = ' ' ∨ c = '_' ∨ c = '.') :
    c ≠ apostrophe := by
  rintro rfl
  revert h
  decide

theorem NEXUSString_enclosed (s : String) (h : needsEnclose s.data = true) :
    (NEXUSString s).data = apostrophe :: (doubleQuotes s.data ++ [apostrophe]) := by
  simp only [NEXUSString, h, if_true, copyLoop_eq, doubleQuotes]
  simp

theorem unquoted_chars (s : String) (h : needsEnclose s.data = false) :
    (∃ c cs, s.data = c :: cs ∧ c.isAlpha = true) ∧ ∀ c ∈ s.data, c ≠ apostrophe := by
  have hn : ¬ specNeedsQuote s := fun hq => by
    rw [(needsEnclose_iff s).2 hq] at h; cases h
  unfold specNeedsQuote at hn
  obtain ⟨c, hc, hca⟩ := Classical.not_not.1 (fun h1 => hn (Or.inl h1))
  have hr : ∀ e ∈ s.data.drop 1,
      e.isAlpha = true ∨ e.isDigit = true ∨ e = ' ' ∨ e = '_' ∨ e = '.' := fun e he =>
    Classical.not_not.1 (fun h1 => hn (Or.inr ⟨e, he, h1⟩))
  cases hs : s.data with
  | nil => rw [hs] at hc; simp at hc
  | cons d ds =>
    rw [hs] at hc hr
    simp only [List.head?_cons, Option.some.injEq] at hc
    subst hc
    refine ⟨⟨d, ds, rfl, hca⟩, fun e he => ?_⟩
    simp only [List.mem_cons] at he
    rcases he with rfl | he
    · exact allowed_ne_apostrophe _ (Or.inl hca)
    · exact allowed_ne_apostrophe _ (hr e (by simpa using he))

theorem NEXUSString_plain (s : String) (h : needsEnclose s.data = false) :
    (NEXUSString s).data = underscoreSpaces s.data := by
  obtain ⟨-, hq⟩ := unquoted_chars s h
  simp only [NEXUSString, h, copyLoop_eq, underscoreSpaces]
  simp only [Bool.false_eq_true, if_false, List.nil_append, Bool.not_false, Bool.and_true,
    decide_eq_true_eq]
  generalize s.data = l at hq
  induction l with
  | nil => rfl
  | cons c cs ih =>
    have hc : c ≠ apostrophe := hq c (by simp)
    simp only [List.flatMap_cons, List.map_cons, hc, if_false]
    rw [ih (fun d hd => hq d (by simp [hd]))]
    by_cases h2 : c = ' ' <;> simp [h2]

/-- C12: `NEXUSString` puts the label between single quotes exactly when the quoting
rule of the specification asks for it; an unquoted result starts with a letter, so
the result has the form quote, body, quote if and only if the rule applies. -/
theorem NEXUSString_quoted_iff (s : String) :
    (∃ body, (NEXUSString s).data = apostrophe :: (body ++ [apostrophe])) ↔
      specNeedsQuote s := by
  rw [← needsEnclose_iff]
  constructor
  · rintro ⟨body, hb⟩
    by_contra hne
    have hf : needsEnclose s.data = false := by simpa using hne
    obtain ⟨⟨c, cs, hs, hc⟩, -⟩ := unquoted_chars s hf
    rw [NEXUSString_plain s hf, hs] at hb
    simp only [underscoreSpaces, List.map_cons, List.cons.injEq] at hb
    have h1 := hb.1
    by_cases h2 : c = ' '
    · subst h2; revert hc; decide
    · rw [if_neg h2] at h1
      exact allowed_ne_apostrophe c (Or.inl hc) h1
  · intro h
    exact ⟨_, NEXUSString_enclosed s h⟩

/-- C13: when the quoting rule applies the result is a quote, the label with every
single quote doubled and every other character unchanged, and a quote; otherwise it
is the label with every space turned into an underscore, of the same length. -/
theorem NEXUSString_body (s : String) :
    (specNeedsQuote s →
      (NEXUSString s).data = apostrophe :: (doubleQuotes s.data ++ [apostrophe])) ∧
    (¬ specNeedsQuote s →
      (NEXUSString s).data = underscoreSpaces s.data ∧
        (NEXUSString s).data.length = s.data.length) := by
  refine ⟨fun h => NEXUSString_enclosed s ((needsEnclose_iff s).2 h), fun h => ?_⟩
  have hf : needsEnclose s.data = false := by
    cases hb : needsEnclose s.data with
    | false => rfl
    | true => exact absurd ((needsEnclose_iff s).1 hb) h
  rw [NEXUSString_plain s hf]
  exact ⟨rfl, by simp [underscoreSpaces]⟩

/-- C13, on the labels `it's` (quoted, the quote doubled) and `Homo sapiens` (not
quoted, the space replaced). -/
theorem NEXUSString_body_witness :
    specNeedsQuote (String.mk ['i', 't', apostrophe, 's']) ∧
      (NEXUSString (String.mk ['i', 't', apostrophe, 's'])).data =
        [apostrophe, 'i', 't', apostrophe, apostrophe, 's', apostrophe] ∧
    ¬ specNeedsQuote "Homo sapiens" ∧
      (NEXUSString "Homo sapiens").data = "Homo_sapiens".data ∧
      (NEXUSString "Homo sapiens").data.length = "Homo sapiens".data.length :=
  ⟨(needsEnclose_iff _).1 (by decide),
    (NEXUSString_body (String.mk ['i', 't', apostrophe, 's'])).1
      ((needsEnclose_iff _).1 (by decide)),
    fun h => absurd ((needsEnclose_iff _).2 h) (by decide),
    (NEXUSString_body "Homo sapiens").2
      (fun h => absurd ((needsEnclose_iff _).2 h) (by decide))⟩

/-! ## RemoveNode at the root -/

/-- C18: `RemoveNode` on the root of a tree whose leaf count is not 1 returns `NULL`
and changes nothing in the tree object. -/
theorem RemoveNode_root_noop (fuel : Nat) (t : Tree) (x : Nat) (hroot : t.Root = some x)
    (hl : t.Leaves ≠ 1) : RemoveNode fuel t x = some (some none, t) := by
  simp [RemoveNode, hroot, hl]

/-- C18, on a tree object with root 0 and two leaves. -/
theorem RemoveNode_root_noop_witness :
    ({ Root := some 0, Leaves := 2 } : Tree).Root = some 0 ∧
      ({ Root := some 0, Leaves := 2 } : Tree).Leaves ≠ 1 ∧
      RemoveNode 5 { Root := some 0, Leaves := 2 } 0 =
        some (some none, { Root := some 0, Leaves := 2 }) :=
  ⟨rfl, by decide, RemoveNode_root_noop 5 { Root := some 0, Leaves := 2 } 0 rfl (by decide)⟩

/-- C17 (as stated, refuted): the tree parsed from `(A);` has `Leaves = 1`; removing
its only leaf (address 1) goes through the polytomy branch and leaves the root in
place, childless, with `Internals = 1`. -/
theorem RemoveNode_sole_leaf_below_root :
    (Parse 30 20 {} descrParenA).map (fun p =>
        (p.1, p.2.Root, p.2.Leaves, p.2.Internals, (p.2.heap 1).Leaf)) =
      some (0, some 0, 1, 1, true) ∧
    ((Parse 30 20 {} descrParenA).bind fun p => RemoveNode 5 p.2 1).map (fun r =>
        (r.2.Root, r.2.Leaves, r.2.Internals, (r.2.heap 0).Child)) =
      some (some 0, 0, 1, none) := by
  constructor <;> decide!

/-- C17 (amended): when the node removed is the root and `Leaves` is 1 (the tree is
a single leaf), `RemoveNode` returns `NULL` and leaves an empty tree: `Root` is
`NULL`, `Leaves` and `Internals` are 0, and the node has no ancestor. -/
theorem RemoveNode_single_leaf (fuel : Nat) (t : Tree) (x : Nat) (hroot : t.Root = some x)
    (hl : t.Leaves = 1) :
    ∃ t1, RemoveNode fuel t x = some (some none, t1) ∧ t1.Root = none ∧ t1.Leaves = 0 ∧
      t1.Internals = 0 ∧ (t1.heap x).Anc = none ∧
      ∀ y, t1.heap y = { t.heap y with Anc := (t1.heap y).Anc } := by
  refine ⟨_, by simp only [RemoveNode, hroot, hl, if_true]; rfl, rfl, rfl, rfl, ?_, fun y => ?_⟩
  · simp
  · by_cases hy : y = x
    · subst hy; simp
    · simp [hy]

/-- C17 (amended), on a tree object holding the single leaf 0. -/
theorem RemoveNode_single_leaf_witness :
    ({ Root := some 0, Leaves := 1 } : Tree).Root = some 0 ∧
      ({ Root := some 0, Leaves := 1 } : Tree).Leaves = 1 ∧
      ∃ t1, RemoveNode 5 { Root := some 0, Leaves := 1 } 0 = some (some none, t1) ∧
        t1.Root = none ∧ t1.Leaves = 0 ∧ t1.Internals = 0 ∧ (t1.heap 0).Anc = none ∧
        ∀ y, t1.heap y =
          { ({ Root := some 0, Leaves := 1 } : Tree).heap y with Anc := (t1.heap y).Anc } :=
  ⟨rfl, rfl, RemoveNode_single_leaf 5 { Root := some 0, Leaves := 1 } 0 rfl rfl⟩

/-! ## RemoveNode, polytomy branch -/

theorem chainOf_addrs (E : List (Nat × BT)) (T : BT) :
    (chainOf E T).addrs = eldersAddrs E ++ T.addrs := by
  induction E with
  | nil => rfl
  | cons ec E ih =>
    obtain ⟨e, c⟩ := ec
    simp [chainOf, BT.addrs, eldersAddrs, ih]

theorem mem_eldersAddrs (l : Nat × BT) : ∀ E : List (Nat × BT), l ∈ E →
    l.1 ∈ eldersAddrs E := by
  intro E
  induction E with
  | nil => intro h; simp at h
  | cons d ds ih =>
    obtain ⟨d1, d2⟩ := d
    intro hm
    simp only [List.mem_cons] at hm
    rcases hm with rfl | hm
    · simp [eldersAddrs]
    · simp [eldersAddrs, ih hm]

theorem chainOf_ptr_cons (e : Nat) (c : BT) (E : List (Nat × BT)) (T U : BT) :
    (chainOf ((e, c) :: E) T).ptr = (chainOf ((e, c) :: E) U).ptr := rfl

theorem Rep_chainOf_tail (h : Heap) (anc : Option Nat) (T : BT) : ∀ E : List (Nat × BT),
    Rep h anc (chainOf E T) → Rep h anc T := by
  intro E
  induction E with
  | nil => exact id
  | cons ec E ih =>
    obtain ⟨e, c⟩ := ec
    intro hr
    exact ih hr.2.2.2.2

/-- Replacing the chain behind the nodes `pre`: only the `Sib` pointer of the last
of them has to change. -/
theorem Rep_chainOf_last (h h1 : Heap) (anc : Option Nat) (OLD NEW : BT) :
    ∀ (pre : List (Nat × BT)) (l : Nat × BT), pre.getLast? = some l →
      Rep h anc (chainOf pre OLD) → (eldersAddrs pre).Nodup →
      (∀ y ∈ eldersAddrs pre, y ≠ l.1 → h1 y = h y) →
      (h1 l.1).Anc = (h l.1).Anc → (h1 l.1).Child = (h l.1).Child →
      (h1 l.1).Sib = NEW.ptr → Rep h1 anc NEW → Rep h1 anc (chainOf pre NEW) := by
  intro pre
  induction pre with
  | nil => intro l hl; simp at hl
  | cons ec pre ih =>
    obtain ⟨e, c⟩ := ec
    intro l hl hr hnd hag hA hC hS hN
    obtain ⟨r1, r2, r3, r4, r5⟩ := hr
    simp only [eldersAddrs, List.nodup_cons, List.mem_append, not_or, List.nodup_append] at hnd
    obtain ⟨⟨hec, heE⟩, hcn, hEn, hdisj⟩ := hnd
    have hcag : ∀ y ∈ c.addrs, h1 y = h y ∨ y = l.1 := fun y hy => by
      by_cases hyl : y = l.1
      · exact Or.inr hyl
      · exact Or.inl (hag y (by simp [eldersAddrs, hy]) hyl)
    cases pre with
    | nil =>
      simp only [List.getLast?_singleton, Option.some.injEq] at hl
      subst hl
      refine ⟨by rw [hA]; exact r1, by rw [hC]; exact r2, hS, ?_, hN⟩
      refine Rep_agree h h1 c _ (fun y hy => ?_) r4
      refine hag y (by simp [eldersAddrs, hy]) (fun e1 => ?_)
      have e2 : y = e := e1
      exact hec (e2 ▸ hy)
    | cons ec2 pre2 =>
      have hl2 : (ec2 :: pre2).getLast? = some l := by simpa using hl
      have hlm : l.1 ∈ eldersAddrs (ec2 :: pre2) :=
        mem_eldersAddrs l _ (List.mem_of_getLast?_eq_some hl2)
      have hel : e ≠ l.1 := fun e1 => heE (e1 ▸ hlm)
      have hee : h1 e = h e := hag e (by simp [eldersAddrs]) hel
      refine ⟨by rw [hee]; exact r1, by rw [hee]; exact r2, by rw [hee]; exact r3, ?_, ?_⟩
      · refine Rep_agree h h1 c _ (fun y hy => ?_) r4
        exact hag y (by simp [eldersAddrs, hy]) (fun e1 => hdisj (e1 ▸ hy) hlm)
      · refine ih l hl2 r5 hEn (fun y hy hyl => hag y ?_ hyl) hA hC hS hN
        rw [eldersAddrs]
        exact List.mem_cons_of_mem _ (List.mem_append_right _ hy)

/-- The loop of `LeftSiblingOf` started at the head of a chain finds the node right
before `x`. -/
theorem leftSiblingLoop_chain (h : Heap) (anc : Option Nat) (x : Nat) (cx post : BT) :
    ∀ (pre : List (Nat × BT)) (l : Nat × BT), pre.getLast? = some l →
      Rep h anc (chainOf pre (BT.node x cx post)) → x ∉ eldersAddrs pre →
      ∀ fuel, pre.length ≤ fuel →
        leftSiblingLoop h x fuel (chainOf pre (BT.node x cx post)).ptr = some l.1 := by
  intro pre
  induction pre with
  | nil => intro l hl; simp at hl
  | cons ec pre ih =>
    obtain ⟨e, c⟩ := ec
    intro l hl hr hx fuel hf
    obtain ⟨k, rfl⟩ : ∃ k, fuel = k + 1 := ⟨fuel - 1, by simp at hf; omega⟩
    obtain ⟨-, -, r3, -, r5⟩ := hr
    cases pre with
    | nil =>
      simp only [List.getLast?_singleton, Option.some.injEq] at hl
      subst hl
      simp [chainOf, BT.ptr, leftSiblingLoop, r3]
    | cons ec2 pre2 =>
      obtain ⟨e2, c2⟩ := ec2
      have hl2 : ((e2, c2) :: pre2).getLast? = some l := by simpa using hl
      have hne : e2 ≠ x := fun e1 => hx (by simp [eldersAddrs, e1])
      have hs : (h e).Sib = some e2 := r3
      have := ih l hl2 r5 (fun hm => hx (by simp only [eldersAddrs] at hm ⊢; simp [hm]))
        k (by simp at hf ⊢; omega)
      simp only [chainOf, BT.ptr, leftSiblingLoop, hs, Option.some.injEq, hne, if_false]
      exact this

theorem chain_facts (a x : Nat) (pre : List (Nat × BT)) (cx post : BT)
    (hnd : (a :: (chainOf pre (BT.node x cx post)).addrs).Nodup) :
    (a ∉ eldersAddrs pre ∧ a ≠ x ∧ a ∉ cx.addrs ∧ a ∉ post.addrs) ∧
    (x ∉ eldersAddrs pre ∧ x ∉ cx.addrs ∧ x ∉ post.addrs) ∧
    (eldersAddrs pre).Nodup ∧ cx.addrs.Nodup ∧ post.addrs.Nodup ∧
    (∀ y ∈ eldersAddrs pre, y ∉ cx.addrs ∧ y ∉ post.addrs) ∧
    (∀ y ∈ cx.addrs, y ∉ post.addrs) := by
  rw [chainOf_addrs] at hnd
  simp only [BT.addrs, List.nodup_cons, List.nodup_append, List.mem_append, List.mem_cons,
    not_or] at hnd
  obtain ⟨⟨h1, h2, h3, h4⟩, h5, ⟨⟨h6, h7⟩, h8, h9, h10⟩, h11⟩ := hnd
  refine ⟨⟨h1, h2, h3, h4⟩, ⟨fun hm => ?_, h6, h7⟩, h5, h8, h9, fun y hy => ⟨fun hc => ?_,
    fun hc => ?_⟩, fun y hy hp => h10 hy hp⟩
  · exact h11 hm (by simp)
  · exact h11 hy (by simp [hc])
  · exact h11 hy (by simp [hc])

/-- The tree object after the polytomy branch of `RemoveNode`, `holder` being the
node whose pointer led to `x` (its ancestor, or its left sibling). -/
theorem removePolytomy_first (fuel : Nat) (t : Tree) (x a : Nat)
    (hanc : (t.heap x).Anc = some a) (hchild : (t.heap a).Child = some x) (hax : a ≠ x) :
    ∃ t1, removePolytomy fuel t x a = some t1 ∧
      t1.heap a = { t.heap a with Child := (t.heap x).Sib,
                                  Degree := (t.heap a).Degree - 1 } ∧
      t1.heap x = { t.heap x with Sib := none, Anc := none } ∧
      (∀ y, y ≠ a → y ≠ x → t1.heap y = t.heap y) ∧
      t1.Root = t.Root ∧ t1.Internals = t.Internals ∧
      t1.Leaves = t.Leaves - (if (t.heap x).Leaf then 1 else 0) := by
  refine ⟨_, by simp only [removePolytomy, IsTheChild, hanc, hchild, decide_True, if_true]; rfl,
    ?_, ?_, fun y h1 h2 => ?_, ?_, ?_, ?_⟩
  · simp [Heap.modify, Heap.set, hax]
  · simp [Heap.modify, Heap.set, hax, Ne.symm hax]
  · simp [Heap.modify, Heap.set, h1, h2]
  · by_cases hl : (t.heap x).Leaf = true <;> simp [Heap.modify, Heap.set, hax, Ne.symm hax, hl]
  · by_cases hl : (t.heap x).Leaf = true <;> simp [Heap.modify, Heap.set, hax, Ne.symm hax, hl]
  · by_cases hl : (t.heap x).Leaf = true <;> simp [Heap.modify, Heap.set, hax, Ne.symm hax, hl]

theorem removePolytomy_later (fuel : Nat) (t : Tree) (x a l : Nat)
    (hanc : (t.heap x).Anc = some a) (hchild : (t.heap a).Child ≠ some x)
    (hls : leftSiblingLoop t.heap x fuel (t.heap a).Child = some l)
    (hax : a ≠ x) (hal : a ≠ l) (hxl : x ≠ l) :
    ∃ t1, removePolytomy fuel t x a = some t1 ∧
      t1.heap a = { t.heap a with Degree := (t.heap a).Degree - 1 } ∧
      t1.heap l = { t.heap l with Sib := (t.heap x).Sib } ∧
      t1.heap x = { t.heap x with Sib := none, Anc := none } ∧
      (∀ y, y ≠ a → y ≠ x → y ≠ l → t1.heap y = t.heap y) ∧
      t1.Root = t.Root ∧ t1.Internals = t.Internals ∧
      t1.Leaves = t.Leaves - (if (t.heap x).Leaf then 1 else 0) := by
  refine ⟨_, by simp only [removePolytomy, IsTheChild, hanc, hchild, decide_False,
      LeftSiblingOf, hls]; rfl, ?_, ?_, ?_, fun y h1 h2 h3 => ?_, ?_, ?_, ?_⟩
  · simp [Heap.modify, Heap.set, hax, hal]
  · simp [Heap.modify, Heap.set, Ne.symm hal, Ne.symm hxl]
  · simp [Heap.modify, Heap.set, hax, Ne.symm hax, hxl]
  · simp [Heap.modify, Heap.set, h1, h2, h3]
  · by_cases hl : (t.heap x).Leaf = true <;>
      simp [Heap.modify, Heap.set, hax, Ne.symm hax, hxl, hl]
  · by_cases hl : (t.heap x).Leaf = true <;>
      simp [Heap.modify, Heap.set, hax, Ne.symm hax, hxl, hl]
  · by_cases hl : (t.heap x).Leaf = true <;>
      simp [Heap.modify, Heap.set, hax, Ne.symm hax, hxl, hl]

/-- The polytomy branch of `RemoveNode`, for the children `pre`, `x`, `post` of `a`: `x`
is taken out of the chain and the degree of `a` goes down by one. -/
theorem polytomy_core (fuel : Nat) (t : Tree) (x a : Nat) (pre : List (Nat × BT))
    (cx post : BT) (hroot : t.Root ≠ some x)
    (hchild : (t.heap a).Child = (chainOf pre (BT.node x cx post)).ptr)
    (hrep : Rep t.heap (some a) (chainOf pre (BT.node x cx post)))
    (hnd : (a :: (chainOf pre (BT.node x cx post)).addrs).Nodup)
    (hdeg : (t.heap a).Degree ≠ 2) (hfuel : pre.length ≤ fuel) :
    ∃ t1, RemoveNode fuel t x = some (none, t1) ∧
      (t1.heap a).Child = (chainOf pre post).ptr ∧
      Rep t1.heap (some a) (chainOf pre post) ∧
      (t1.heap a).Degree = (t.heap a).Degree - 1 ∧
      (t1.heap a).Anc = (t.heap a).Anc ∧ (t1.heap a).Sib = (t.heap a).Sib ∧
      (t1.heap x).Anc = none ∧ (t1.heap x).Sib = none ∧ (t1.heap x).Child = cx.ptr ∧
      Rep t1.heap (some x) cx ∧
      t1.Root = t.Root ∧ t1.Internals = t.Internals ∧
      t1.Leaves = t.Leaves - (if (t.heap x).Leaf then 1 else 0) ∧
      ∀ y, y ∉ a :: x :: (pre.getLast?.map Prod.fst).toList → t1.heap y = t.heap y := by
  obtain ⟨⟨a1, a2, a3, a4⟩, ⟨x1, x2, x3⟩, n1, -, -, d1, -⟩ := chain_facts a x pre cx post hnd
  obtain ⟨r1, r2, r3, r4, r5⟩ := Rep_chainOf_tail t.heap (some a) _ pre hrep
  have hrn : ∀ t1, removePolytomy fuel t x a = some t1 →
      RemoveNode fuel t x = some (none, t1) := fun t1 h1 => by
    simp [RemoveNode, hroot, r1, hdeg, h1]
  cases hl : pre.getLast? with
  | none =>
    have hp : pre = [] := List.getLast?_eq_none_iff.1 hl
    subst hp
    obtain ⟨t1, k0, k1, k2, k3, k4, k5, k6⟩ := removePolytomy_first fuel t x a r1 hchild a2
    have agc : ∀ y ∈ cx.addrs, t1.heap y = t.heap y := fun y hy =>
      k3 y (fun e => a3 (e ▸ hy)) (fun e => x2 (e ▸ hy))
    have agp : ∀ y ∈ post.addrs, t1.heap y = t.heap y := fun y hy =>
      k3 y (fun e => a4 (e ▸ hy)) (fun e => x3 (e ▸ hy))
    refine ⟨t1, hrn t1 k0, by rw [k1]; exact r3, Rep_agree _ _ post _ agp r5, by rw [k1],
      by rw [k1], by rw [k1], by rw [k2], by rw [k2], by rw [k2]; exact r2,
      Rep_agree _ _ cx _ agc r4, k4, k5, k6, fun y hy => ?_⟩
    simp only [Option.map_none', Option.toList_none, List.mem_cons, List.mem_nil_iff, or_false,
      not_or] at hy
    exact k3 y hy.1 hy.2
  | some l =>
    have hlm : l.1 ∈ eldersAddrs pre := mem_eldersAddrs l pre (List.mem_of_getLast?_eq_some hl)
    have hal : a ≠ l.1 := fun e => a1 (e ▸ hlm)
    have hxl : x ≠ l.1 := fun e => x1 (e ▸ hlm)
    have hne : pre ≠ [] := fun e => by rw [e] at hl; simp at hl
    have hfirst : (t.heap a).Child ≠ some x := by
      rw [hchild]
      cases pre with
      | nil => exact absurd rfl hne
      | cons ec pre2 =>
        obtain ⟨e, c⟩ := ec
        intro he
        simp only [chainOf, BT.ptr, Option.some.injEq] at he
        exact x1 (by simp [eldersAddrs, he])
    have hls := leftSiblingLoop_chain t.heap (some a) x cx post pre l hl hrep x1 fuel hfuel
    rw [← hchild] at hls
    obtain ⟨t1, k0, k1, k1l, k2, k3, k4, k5, k6⟩ :=
      removePolytomy_later fuel t x a l.1 r1 hfirst hls a2 hal hxl
    have agc : ∀ y ∈ cx.addrs, t1.heap y = t.heap y := fun y hy =>
      k3 y (fun e => a3 (e ▸ hy)) (fun e => x2 (e ▸ hy)) (fun e => (d1 _ hlm).1 (e ▸ hy))
    have agp : ∀ y ∈ post.addrs, t1.heap y = t.heap y := fun y hy =>
      k3 y (fun e => a4 (e ▸ hy)) (fun e => x3 (e ▸ hy)) (fun e => (d1 _ hlm).2 (e ▸ hy))
    have hpre := Rep_chainOf_last t.heap t1.heap (some a) (BT.node x cx post) post pre l hl
      hrep n1 (fun y hy hyl => k3 y (fun e => a1 (e ▸ hy)) (fun e => x1 (e ▸ hy)) hyl)
      (by rw [k1l]) (by rw [k1l]) (by rw [k1l]; exact r3) (Rep_agree _ _ post _ agp r5)
    refine ⟨t1, hrn t1 k0, ?_, hpre, by rw [k1], by rw [k1], by rw [k1], by rw [k2],
      by rw [k2], by rw [k2]; exact r2, Rep_agree _ _ cx _ agc r4, k4, k5, k6, fun y hy => ?_⟩
    · rw [k1]
      cases pre with
      | nil => exact absurd rfl hne
      | cons ec pre2 => exact hchild
    · simp only [Option.map_some', Option.toList_some, List.mem_cons, List.mem_singleton,
        not_or] at hy
      exact k3 y hy.1 hy.2.1 (by simpa using hy.2.2)

/-- C16: `RemoveNode` on a node `x` that is not the root and whose ancestor `a` has a
degree other than 2 (the polytomy branch): with the children of `a` being the nodes
`pre`, then `x`, then the chain `post`, the call takes `x` out of the chain, so that
the children of `a` are `pre` followed by `post` in the same order; the degree of `a`
goes down by one, `a` keeps its own ancestor and sibling, `Internals` and `Root` are
unchanged, `Leaves` goes down by one exactly when `x` is a leaf, `x` keeps its
subtree and has no ancestor and no sibling any more, and no node other than `a`, `x`
and the left sibling of `x` is written. -/
theorem RemoveNode_polytomy (fuel : Nat) (t : Tree) (x a : Nat) (pre : List (Nat × BT))
    (cx post : BT) (hroot : t.Root ≠ some x)
    (hchild : (t.heap a).Child = (chainOf pre (BT.node x cx post)).ptr)
    (hrep : Rep t.heap (some a) (chainOf pre (BT.node x cx post)))
    (hnd : (a :: (chainOf pre (BT.node x cx post)).addrs).Nodup)
    (hdeg : (t.heap a).Degree ≠ 2) (hfuel : pre.length ≤ fuel) :
    ∃ t1, RemoveNode fuel t x = some (none, t1) ∧
      (t1.heap a).Child = (chainOf pre post).ptr ∧
      Rep t1.heap (some a) (chainOf pre post) ∧
      (t1.heap a).Degree = (t.heap a).Degree - 1 ∧
      (t1.heap a).Anc = (t.heap a).Anc ∧ (t1.heap a).Sib = (t.heap a).Sib ∧
      (t1.heap x).Anc = none ∧ (t1.heap x).Sib = none ∧ (t1.heap x).Child = cx.ptr ∧
      Rep t1.heap (some x) cx ∧
      t1.Root = t.Root ∧ t1.Internals = t.Internals ∧
      t1.Leaves = t.Leaves - (if (t.heap x).Leaf then 1 else 0) ∧
      ∀ y, y ∉ a :: x :: (pre.getLast?.map Prod.fst).toList → t1.heap y = t.heap y :=
  polytomy_core fuel t x a pre cx post hroot hchild hrep hnd hdeg hfuel

/-- C16, on the tree parsed from `(A,B,C);`: removing `B` (address 2) leaves the root
with degree 2 and the children `A` (address 1) and `C` (address 3). -/
theorem RemoveNode_polytomy_witness :
    (parsed descrABC).Root ≠ some 2 ∧
    ((parsed descrABC).heap 0).Child =
      (chainOf [(1, BT.nil)] (BT.node 2 BT.nil (BT.node 3 BT.nil BT.nil))).ptr ∧
    Rep (parsed descrABC).heap (some 0)
      (chainOf [(1, BT.nil)] (BT.node 2 BT.nil (BT.node 3 BT.nil BT.nil))) ∧
    ((parsed descrABC).heap 0).Degree = 3 ∧
    (RemoveNode 5 (parsed descrABC) 2).map (fun r =>
        ((r.2.heap 0).Degree, (r.2.heap 0).Child, (r.2.heap 1).Sib, (r.2.heap 3).Sib,
          r.2.Internals, r.2.Leaves)) = some (2, some 1, some 3, none, 1, 2) ∧
    ∃ t1, RemoveNode 5 (parsed descrABC) 2 = some (none, t1) ∧
      (t1.heap 0).Child = (chainOf [(1, BT.nil)] (BT.node 3 BT.nil BT.nil)).ptr ∧
      Rep t1.heap (some 0) (chainOf [(1, BT.nil)] (BT.node 3 BT.nil BT.nil)) ∧
      (t1.heap 0).Degree = ((parsed descrABC).heap 0).Degree - 1 ∧
      (t1.heap 0).Anc = ((parsed descrABC).heap 0).Anc ∧
      (t1.heap 0).Sib = ((parsed descrABC).heap 0).Sib ∧
      (t1.heap 2).Anc = none ∧ (t1.heap 2).Sib = none ∧ (t1.heap 2).Child = BT.nil.ptr ∧
      Rep t1.heap (some 2) BT.nil ∧
      t1.Root = (parsed descrABC).Root ∧ t1.Internals = (parsed descrABC).Internals ∧
      t1.Leaves = (parsed descrABC).Leaves - (if ((parsed descrABC).heap 2).Leaf then 1 else 0) ∧
      ∀ y, y ∉ 0 :: 2 :: (([(1, BT.nil)] : List (Nat × BT)).getLast?.map Prod.fst).toList →
        t1.heap y = (parsed descrABC).heap y :=
  ⟨by decide!, by decide!, by simp only [chainOf, Rep, BT.ptr]; decide!, by decide!, by decide!,
    RemoveNode_polytomy 5 (parsed descrABC) 2 0 [(1, BT.nil)] BT.nil (BT.node 3 BT.nil BT.nil)
      (by decide!) (by decide!) (by simp only [chainOf, Rep, BT.ptr]; decide!)
      (by decide) (by decide!) (by decide)⟩

/-! ## RemoveNode, binary branch -/

theorem leftSiblingLoop_congr (h h1 : Heap) (x : Nat) (hs : ∀ y, (h1 y).Sib = (h y).Sib) :
    ∀ (fuel : Nat) (q : Option Nat), leftSiblingLoop h1 x fuel q = leftSiblingLoop h x fuel q := by
  intro fuel
  induction fuel with
  | zero => intro q; rfl
  | succ n ih =>
    intro q
    cases q with
    | none => rfl
    | some q => simp only [leftSiblingLoop, hs, ih]

theorem removeBinary_root (fuel : Nat) (t : Tree) (x a p : Nat)
    (hxa : (t.heap x).Anc = some a)
    (hsel : (if (t.heap a).Child = some x then (t.heap x).Sib else (t.heap a).Child) = some p)
    (haa : (t.heap a).Anc = none) (hpx : p ≠ x) :
    ∃ t1, removeBinary fuel t x a = some t1 ∧
      t1.heap p = { t.heap p with Anc := none, Sib := none } ∧
      t1.heap x = { t.heap x with Anc := none, Sib := none } ∧
      (∀ y, y ≠ p → y ≠ x → t1.heap y = t.heap y) ∧
      t1.Root = some p ∧ t1.Internals = t.Internals - 1 ∧
      t1.Leaves = t.Leaves - (if (t.heap x).Leaf then 1 else 0) := by
  have hsel2 : (if decide ((t.heap a).Child = some x) = true then (t.heap x).Sib
      else (t.heap a).Child) = some p := by simpa using hsel
  refine ⟨_, (by
    simp only [removeBinary, IsTheChild, hxa, hsel2, haa]
    rfl), ?_, ?_, ?_, ?_, ?_, ?_⟩
  all_goals
    by_cases hl : (t.heap x).Leaf = true <;>
      simp [Heap.modify, Heap.set, hl, hpx, Ne.symm hpx]
  all_goals try (intro y h1 h2; simp [h1, h2])

theorem removeBinary_first (fuel : Nat) (t : Tree) (x a p g : Nat)
    (hxa : (t.heap x).Anc = some a)
    (hsel : (if (t.heap a).Child = some x then (t.heap x).Sib else (t.heap a).Child) = some p)
    (haa : (t.heap a).Anc = some g) (hga : (t.heap g).Child = some a)
    (hpx : p ≠ x) (hpa : p ≠ a) (hpg : p ≠ g) (hxg : x ≠ g) (hag : a ≠ g) :
    ∃ t1, removeBinary fuel t x a = some t1 ∧
      t1.heap p = { t.heap p with Anc := some g, Sib := (t.heap a).Sib } ∧
      t1.heap g = { t.heap g with Child := some p } ∧
      t1.heap x = { t.heap x with Anc := none, Sib := none } ∧
      (∀ y, y ≠ p → y ≠ x → y ≠ g → t1.heap y = t.heap y) ∧
      t1.Root = t.Root ∧ t1.Internals = t.Internals - 1 ∧
      t1.Leaves = t.Leaves - (if (t.heap x).Leaf then 1 else 0) := by
  have hsel2 : (if decide ((t.heap a).Child = some x) = true then (t.heap x).Sib
      else (t.heap a).Child) = some p := by simpa using hsel
  have h1a : ((t.heap.modify p fun n => { n with Anc := some g }) a).Anc = some g := by
    simp [Heap.modify, Heap.set, Ne.symm hpa, haa]
  have h1g : ((t.heap.modify p fun n => { n with Anc := some g }) g).Child = some a := by
    simp [Heap.modify, Heap.set, Ne.symm hpg, hga]
  refine ⟨_, (by
    simp only [removeBinary, IsTheChild, hxa, hsel2, haa, h1a, h1g, decide_True]
    rfl), ?_, ?_, ?_, ?_, ?_, ?_, ?_⟩
  all_goals
    by_cases hl : (t.heap x).Leaf = true <;>
      simp [Heap.modify, Heap.set, hl, hpx, Ne.symm hpx, hpa, Ne.symm hpa, hpg, Ne.symm hpg, hxg, Ne.symm hxg, hag, Ne.symm hag]
  all_goals try (intro y h1 h2 h3; simp [h1, h2, h3])

theorem removeBinary_later (fuel : Nat) (t : Tree) (x a p g l : Nat)
    (hxa : (t.heap x).Anc = some a)
    (hsel : (if (t.heap a).Child = some x then (t.heap x).Sib else (t.heap a).Child) = some p)
    (haa : (t.heap a).Anc = some g) (hga : (t.heap g).Child ≠ some a)
    (hls : leftSiblingLoop t.heap a fuel (t.heap g).Child = some l)
    (hpx : p ≠ x) (hpa : p ≠ a) (hpg : p ≠ g) (hpl : p ≠ l) (hxl : x ≠ l) (hal : a ≠ l) :
    ∃ t1, removeBinary fuel t x a = some t1 ∧
      t1.heap p = { t.heap p with Anc := some g, Sib := (t.heap a).Sib } ∧
      t1.heap l = { t.heap l with Sib := some p } ∧
      t1.heap x = { t.heap x with Anc := none, Sib := none } ∧
      (∀ y, y ≠ p → y ≠ x → y ≠ l → t1.heap y = t.heap y) ∧
      t1.Root = t.Root ∧ t1.Internals = t.Internals - 1 ∧
      t1.Leaves = t.Leaves - (if (t.heap x).Leaf then 1 else 0) := by
  have hsel2 : (if decide ((t.heap a).Child = some x) = true then (t.heap x).Sib
      else (t.heap a).Child) = some p := by simpa using hsel
  have h1a : ((t.heap.modify p fun n => { n with Anc := some g }) a).Anc = some g := by
    simp [Heap.modify, Heap.set, Ne.symm hpa, haa]
  have h1g : ((t.heap.modify p fun n => { n with Anc := some g }) g).Child =
      (t.heap g).Child := by
    simp [Heap.modify, Heap.set, Ne.symm hpg]
  have hls1 : leftSiblingLoop (t.heap.modify p fun n => { n with Anc := some g }) a fuel
      (t.heap g).Child = some l := by
    rw [leftSiblingLoop_congr t.heap _ a (fun y => ?_)]
    · exact hls
    · by_cases hy : y = p <;> simp [Heap.modify, Heap.set, hy]
  refine ⟨_, (by
    simp only [removeBinary, IsTheChild, hxa, hsel2, haa, h1a, h1g, hga, decide_False,
      LeftSiblingOf, hls1]
    rfl), ?_, ?_, ?_, ?_, ?_, ?_, ?_⟩
  all_goals
    by_cases hl : (t.heap x).Leaf = true <;>
      simp [Heap.modify, Heap.set, hl, hpx, Ne.symm hpx, hpa, Ne.symm hpa, hpl, Ne.symm hpl,
        hxl, Ne.symm hxl, hal, Ne.symm hal]
  all_goals try (intro y h1 h2 h3; simp [h1, h2, h3])

theorem RemoveNode_of_binary (fuel : Nat) (t t1 : Tree) (x a : Nat)
    (hroot : t.Root ≠ some x) (hxa : (t.heap x).Anc = some a) (hdeg : (t.heap a).Degree = 2)
    (h1 : removeBinary fuel t x a = some t1) : RemoveNode fuel t x = some (none, t1) := by
  simp [RemoveNode, hroot, hxa, hdeg, h1]

theorem binary_root_core (fuel : Nat) (t : Tree) (x a p : Nat) (cx cp : BT)
    (hroot : t.Root ≠ some x) (hdeg : (t.heap a).Degree = 2) (haa : (t.heap a).Anc = none)
    (hxa : (t.heap x).Anc = some a) (hxc : (t.heap x).Child = cx.ptr)
    (hxr : Rep t.heap (some x) cx) (hpc : (t.heap p).Child = cp.ptr)
    (hpr : Rep t.heap (some p) cp)
    (hsel : (if (t.heap a).Child = some x then (t.heap x).Sib else (t.heap a).Child) = some p)
    (hnd : (x :: p :: (cx.addrs ++ cp.addrs)).Nodup) :
    ∃ t1, RemoveNode fuel t x = some (none, t1) ∧ t1.Root = some p ∧
      Rep t1.heap none (BT.node p cp BT.nil) ∧
      (t1.heap x).Anc = none ∧ (t1.heap x).Sib = none ∧ (t1.heap x).Child = cx.ptr ∧
      Rep t1.heap (some x) cx ∧
      t1.Internals = t.Internals - 1 ∧
      t1.Leaves = t.Leaves - (if (t.heap x).Leaf then 1 else 0) ∧
      ∀ y, y ∉ [p, x] → t1.heap y = t.heap y := by
  simp only [List.nodup_cons, List.mem_cons, List.mem_append, not_or, List.nodup_append] at hnd
  obtain ⟨⟨hxp, hx1, hx2⟩, ⟨hp1, hp2⟩, -, -, -⟩ := hnd
  obtain ⟨t1, k0, k1, k2, k3, k4, k5, k6⟩ :=
    removeBinary_root fuel t x a p hxa hsel haa (Ne.symm hxp)
  have agx : ∀ y ∈ cx.addrs, t1.heap y = t.heap y := fun y hy =>
    k3 y (fun e => hp1 (e ▸ hy)) (fun e => hx1 (e ▸ hy))
  have agp : ∀ y ∈ cp.addrs, t1.heap y = t.heap y := fun y hy =>
    k3 y (fun e => hp2 (e ▸ hy)) (fun e => hx2 (e ▸ hy))
  refine ⟨t1, RemoveNode_of_binary fuel t t1 x a hroot hxa hdeg k0, k4,
    ⟨by rw [k1], by rw [k1]; exact hpc, by rw [k1]; rfl, Rep_agree _ _ cp _ agp hpr, trivial⟩,
    by rw [k2], by rw [k2], by rw [k2]; exact hxc, Rep_agree _ _ cx _ agx hxr, k5, k6,
    fun y hy => ?_⟩
  simp only [List.mem_cons, List.mem_singleton, List.mem_nil_iff, or_false, not_or] at hy
  exact k3 y hy.1 hy.2

theorem binary_inner_core (fuel : Nat) (t : Tree) (x a p g : Nat) (pre : List (Nat × BT))
    (K cx cp post : BT) (hroot : t.Root ≠ some x) (hdeg : (t.heap a).Degree = 2)
    (hgc : (t.heap g).Child = (chainOf pre (BT.node a K post)).ptr)
    (hrep : Rep t.heap (some g) (chainOf pre (BT.node a K post)))
    (hxa : (t.heap x).Anc = some a) (hxc : (t.heap x).Child = cx.ptr)
    (hxr : Rep t.heap (some x) cx) (hpc : (t.heap p).Child = cp.ptr)
    (hpr : Rep t.heap (some p) cp)
    (hsel : (if (t.heap a).Child = some x then (t.heap x).Sib else (t.heap a).Child) = some p)
    (hnd : (g :: (eldersAddrs pre ++
      (a :: x :: p :: (cx.addrs ++ (cp.addrs ++ post.addrs))))).Nodup)
    (hfuel : pre.length ≤ fuel) :
    ∃ t1, RemoveNode fuel t x = some (none, t1) ∧
      (t1.heap g).Child = (chainOf pre (BT.node p cp post)).ptr ∧
      Rep t1.heap (some g) (chainOf pre (BT.node p cp post)) ∧
      (t1.heap g).Anc = (t.heap g).Anc ∧ (t1.heap g).Sib = (t.heap g).Sib ∧
      (t1.heap g).Degree = (t.heap g).Degree ∧
      (t1.heap x).Anc = none ∧ (t1.heap x).Sib = none ∧ (t1.heap x).Child = cx.ptr ∧
      Rep t1.heap (some x) cx ∧
      t1.Root = t.Root ∧ t1.Internals = t.Internals - 1 ∧
      t1.Leaves = t.Leaves - (if (t.heap x).Leaf then 1 else 0) ∧
      ∀ y, y ∉ p :: x :: g :: (pre.getLast?.map Prod.fst).toList → t1.heap y = t.heap y := by
  simp only [List.nodup_cons, List.mem_cons, List.mem_append, not_or, List.nodup_append] at hnd
  obtain ⟨⟨gE, ga, gx, gp, gcx, gcp, gpo⟩, n1, ⟨⟨b1, b2, b3, b4, b5⟩, ⟨x1, x2, x3, x4⟩,
    ⟨p1, p2, p3⟩, -, -, dcx⟩, dpre⟩ := hnd
  obtain ⟨r1, r2, r3, r4, r5⟩ := Rep_chainOf_tail t.heap (some g) _ pre hrep
  have dE : ∀ y ∈ eldersAddrs pre, y ≠ a ∧ y ≠ x ∧ y ≠ p ∧ y ∉ cx.addrs ∧ y ∉ cp.addrs ∧
      y ∉ post.addrs := fun y hy =>
    ⟨fun e => dpre hy (by simp [e]), fun e => dpre hy (by simp [e]),
      fun e => dpre hy (by simp [e]), fun e => dpre hy (by simp [e]),
      fun e => dpre hy (by simp [e]), fun e => dpre hy (by simp [e])⟩
  have hdone : ∀ (t1 : Tree) (holder : Nat), removeBinary fuel t x a = some t1 →
      t1.heap p = { t.heap p with Anc := some g, Sib := (t.heap a).Sib } →
      t1.heap x = { t.heap x with Anc := none, Sib := none } →
      (∀ y, y ≠ p → y ≠ x → y ≠ holder → t1.heap y = t.heap y) →
      (holder ∉ cx.addrs ∧ holder ∉ cp.addrs ∧ holder ∉ post.addrs) →
      t1.Root = t.Root → t1.Internals = t.Internals - 1 →
      t1.Leaves = t.Leaves - (if (t.heap x).Leaf then 1 else 0) →
      RemoveNode fuel t x = some (none, t1) ∧ Rep t1.heap (some g) (BT.node p cp post) ∧
      (t1.heap x).Anc = none ∧ (t1.heap x).Sib = none ∧ (t1.heap x).Child = cx.ptr ∧
      Rep t1.heap (some x) cx ∧
      t1.Root = t.Root ∧ t1.Internals = t.Internals - 1 ∧
      t1.Leaves = t.Leaves - (if (t.heap x).Leaf then 1 else 0) := by
    intro t1 holder k0 k1 k2 k3 hh k4 k5 k6
    have agx : ∀ y ∈ cx.addrs, t1.heap y = t.heap y := fun y hy =>
      k3 y (fun e => p1 (e ▸ hy)) (fun e => x2 (e ▸ hy)) (fun e => hh.1 (e ▸ hy))
    have agp : ∀ y ∈ cp.addrs, t1.heap y = t.heap y := fun y hy =>
      k3 y (fun e => p2 (e ▸ hy)) (fun e => x3 (e ▸ hy)) (fun e => hh.2.1 (e ▸ hy))
    have ago : ∀ y ∈ post.addrs, t1.heap y = t.heap y := fun y hy =>
      k3 y (fun e => p3 (e ▸ hy)) (fun e => x4 (e ▸ hy)) (fun e => hh.2.2 (e ▸ hy))
    exact ⟨RemoveNode_of_binary fuel t t1 x a hroot hxa hdeg k0,
      ⟨by rw [k1], by rw [k1]; exact hpc, by rw [k1]; exact r3, Rep_agree _ _ cp _ agp hpr,
        Rep_agree _ _ post _ ago r5⟩,
      by rw [k2], by rw [k2], by rw [k2]; exact hxc, Rep_agree _ _ cx _ agx hxr, k4, k5, k6⟩
  cases hl : pre.getLast? with
  | none =>
    have hp : pre = [] := List.getLast?_eq_none_iff.1 hl
    subst hp
    obtain ⟨t1, k0, k1, kg, k2, k3, k4, k5, k6⟩ := removeBinary_first fuel t x a p g hxa hsel
      r1 hgc (Ne.symm x1) (Ne.symm b2) (Ne.symm gp) (Ne.symm gx) (Ne.symm ga)
    obtain ⟨q0, q1, q2, q3, q4, q5, q6, q7, q8⟩ :=
      hdone t1 g k0 k1 k2 k3 ⟨gcx, gcp, gpo⟩ k4 k5 k6
    refine ⟨t1, q0, by rw [kg]; rfl, q1, by rw [kg], by rw [kg], by rw [kg], q2, q3, q4, q5,
      q6, q7, q8, fun y hy => ?_⟩
    simp only [Option.map_none', Option.toList_none, List.mem_cons, List.mem_nil_iff, or_false,
      not_or] at hy
    exact k3 y hy.1 hy.2.1 hy.2.2
  | some l =>
    have hlm : l.1 ∈ eldersAddrs pre := mem_eldersAddrs l pre (List.mem_of_getLast?_eq_some hl)
    obtain ⟨l1, l2, l3, l4, l5, l6⟩ := dE _ hlm
    have hgl : g ≠ l.1 := fun e => gE (e ▸ hlm)
    have hne : pre ≠ [] := fun e => by rw [e] at hl; simp at hl
    have hfirst : (t.heap g).Child ≠ some a := by
      rw [hgc]
      cases pre with
      | nil => exact absurd rfl hne
      | cons ec pre2 =>
        obtain ⟨e, c⟩ := ec
        intro he
        simp only [chainOf, BT.ptr, Option.some.injEq] at he
        exact (dE e (by simp [eldersAddrs])).1 he
    have hls := leftSiblingLoop_chain t.heap (some g) a K post pre l hl hrep
      (fun hm => (dE a hm).1 rfl) fuel hfuel
    rw [← hgc] at hls
    obtain ⟨t1, k0, k1, kl, k2, k3, k4, k5, k6⟩ := removeBinary_later fuel t x a p g l.1 hxa
      hsel r1 hfirst hls (Ne.symm x1) (Ne.symm b2) (Ne.symm gp) (Ne.symm l3) (Ne.symm l2)
      (Ne.symm l1)
    obtain ⟨q0, q1, q2, q3, q4, q5, q6, q7, q8⟩ :=
      hdone t1 l.1 k0 k1 k2 k3 ⟨l4, l5, l6⟩ k4 k5 k6
    have hgg : t1.heap g = t.heap g := k3 g gp gx hgl
    have hpre := Rep_chainOf_last t.heap t1.heap (some g) (BT.node a K post)
      (BT.node p cp post) pre l hl hrep n1
      (fun y hy hyl => k3 y (dE y hy).2.2.1 (dE y hy).2.1 hyl)
      (by rw [kl]) (by rw [kl]) (by rw [kl]; rfl) q1
    refine ⟨t1, q0, ?_, hpre, by rw [hgg], by rw [hgg], by rw [hgg], q2, q3, q4, q5, q6, q7, q8,
      fun y hy => ?_⟩
    · rw [hgg]
      cases pre with
      | nil => exact absurd rfl hne
      | cons ec pre2 => exact hgc
    · simp only [Option.map_some', Option.toList_some, List.mem_cons, List.mem_singleton,
        not_or] at hy
      exact k3 y hy.1 hy.2.1 (by simpa using hy.2.2.2)

theorem twoKids_facts (h : Heap) (a x p : Nat) (cx cp : BT) (xfirst : Bool)
    (hc : (h a).Child = (twoKids xfirst x cx p cp).ptr)
    (hr : Rep h (some a) (twoKids xfirst x cx p cp)) (hxp : x ≠ p) :
    (h x).Anc = some a ∧ (h x).Child = cx.ptr ∧ Rep h (some x) cx ∧
      (h p).Child = cp.ptr ∧ Rep h (some p) cp ∧
      (if (h a).Child = some x then (h x).Sib else (h a).Child) = some p := by
  cases xfirst with
  | true =>
    obtain ⟨q1, q2, q3, q4, q5, q6, -, q7, -⟩ := hr
    refine ⟨q1, q2, q4, q6, q7, ?_⟩
    rw [hc]
    simp [twoKids, BT.ptr, q3]
  | false =>
    obtain ⟨q1, q2, q3, q4, q5, q6, -, q7, -⟩ := hr
    refine ⟨q5, q6, q7, q2, q4, ?_⟩
    rw [hc]
    simp [twoKids, BT.ptr, Ne.symm hxp]

theorem twoKids_perm (x p : Nat) (cx cp : BT) (xfirst : Bool) (L R : List Nat) :
    (L ++ ((twoKids xfirst x cx p cp).addrs ++ R)).Perm
      (L ++ (x :: p :: (cx.addrs ++ (cp.addrs ++ R)))) := by
  refine List.Perm.append_left L ?_
  cases xfirst with
  | true =>
    simp only [twoKids, if_true, BT.addrs, List.append_nil, List.cons_append, List.append_assoc]
    exact List.Perm.cons x List.perm_middle
  | false =>
    simp only [twoKids, Bool.false_eq_true, if_false, BT.addrs, List.append_nil,
      List.cons_append, List.append_assoc]
    refine (List.Perm.cons p List.perm_middle).trans ?_
    refine (List.Perm.swap x p _).trans ?_
    exact List.Perm.cons x (List.Perm.cons p (List.perm_append_comm_assoc _ _ _))

/-- C15: `RemoveNode` on a node `x` that is not the root and whose ancestor `a` has
degree 2 and exactly the two children `x` and `p` (in either order). First part, `a`
is a child of `g` and stands between the nodes `pre` and the chain `post`: afterwards
`p` (with its subtree) stands between `pre` and `post` in the child list of `g`,
whose other fields are unchanged. Second part, `a` is the root: afterwards `p` is the
root, without ancestor and sibling. In both parts `x` keeps its subtree and has no
ancestor and no sibling any more, `Internals` goes down by one, `Leaves` by one
exactly when `x` is a leaf, and only `p`, `x` and the node whose pointer led to `a`
are written. -/
theorem RemoveNode_binary :
    (∀ (fuel : Nat) (t : Tree) (x a p g : Nat) (pre : List (Nat × BT)) (cx cp post : BT)
      (xfirst : Bool), t.Root ≠ some x → (t.heap a).Degree = 2 →
      (t.heap g).Child =
        (chainOf pre (BT.node a (twoKids xfirst x cx p cp) post)).ptr →
      Rep t.heap (some g) (chainOf pre (BT.node a (twoKids xfirst x cx p cp) post)) →
      (g :: (chainOf pre (BT.node a (twoKids xfirst x cx p cp) post)).addrs).Nodup →
      pre.length ≤ fuel →
      ∃ t1, RemoveNode fuel t x = some (none, t1) ∧
        (t1.heap g).Child = (chainOf pre (BT.node p cp post)).ptr ∧
        Rep t1.heap (some g) (chainOf pre (BT.node p cp post)) ∧
        (t1.heap g).Anc = (t.heap g).Anc ∧ (t1.heap g).Sib = (t.heap g).Sib ∧
        (t1.heap g).Degree = (t.heap g).Degree ∧
        (t1.heap x).Anc = none ∧ (t1.heap x).Sib = none ∧ (t1.heap x).Child = cx.ptr ∧
        Rep t1.heap (some x) cx ∧
        t1.Root = t.Root ∧ t1.Internals = t.Internals - 1 ∧
        t1.Leaves = t.Leaves - (if (t.heap x).Leaf then 1 else 0) ∧
        ∀ y, y ∉ p :: x :: g :: (pre.getLast?.map Prod.fst).toList →
          t1.heap y = t.heap y) ∧
    (∀ (fuel : Nat) (t : Tree) (x a p : Nat) (cx cp : BT) (xfirst : Bool),
      t.Root = some a → (t.heap a).Anc = none → (t.heap a).Degree = 2 →
      (t.heap a).Child = (twoKids xfirst x cx p cp).ptr →
      Rep t.heap (some a) (twoKids xfirst x cx p cp) →
      (a :: (twoKids xfirst x cx p cp).addrs).Nodup →
      ∃ t1, RemoveNode fuel t x = some (none, t1) ∧ t1.Root = some p ∧
        Rep t1.heap none (BT.node p cp BT.nil) ∧
        (t1.heap x).Anc = none ∧ (t1.heap x).Sib = none ∧ (t1.heap x).Child = cx.ptr ∧
        Rep t1.heap (some x) cx ∧
        t1.Internals = t.Internals - 1 ∧
        t1.Leaves = t.Leaves - (if (t.heap x).Leaf then 1 else 0) ∧
        ∀ y, y ∉ [p, x] → t1.heap y = t.heap y) := by
  constructor
  · intro fuel t x a p g pre cx cp post xfirst hroot hdeg hgc hrep hnd hfuel
    obtain ⟨-, r2, -, r4, -⟩ := Rep_chainOf_tail t.heap (some g) _ pre hrep
    rw [chainOf_addrs] at hnd
    have hnd2 : (g :: (eldersAddrs pre ++
        (a :: x :: p :: (cx.addrs ++ (cp.addrs ++ post.addrs))))).Nodup := by
      have hp := twoKids_perm x p cx cp xfirst (g :: (eldersAddrs pre ++ [a])) post.addrs
      simp only [BT.addrs, List.cons_append, List.append_assoc, List.nil_append,
        List.singleton_append] at hp hnd ⊢
      exact hp.nodup_iff.1 hnd
    have hxp : x ≠ p := by
      have h3 := hnd2
      simp only [List.nodup_cons, List.mem_cons, List.mem_append, not_or,
        List.nodup_append] at h3
      exact h3.2.2.1.2.1.1
    obtain ⟨f1, f2, f3, f4, f5, f6⟩ := twoKids_facts t.heap a x p cx cp xfirst r2 r4 hxp
    exact binary_inner_core fuel t x a p g pre _ cx cp post hroot hdeg hgc hrep f1 f2 f3 f4 f5
      f6 hnd2 hfuel
  · intro fuel t x a p cx cp xfirst hroot haa hdeg hc hrep hnd
    have hnd2 : (a :: x :: p :: (cx.addrs ++ (cp.addrs ++ []))).Nodup := by
      have hp := twoKids_perm x p cx cp xfirst [a] []
      simp only [List.append_nil, List.singleton_append] at hp hnd ⊢
      exact hp.nodup_iff.1 hnd
    simp only [List.append_nil] at hnd2
    have hax : a ≠ x := fun e => (List.nodup_cons.1 hnd2).1 (by simp [e])
    have hxp : x ≠ p := fun e => (List.nodup_cons.1 (List.nodup_cons.1 hnd2).2).1 (by simp [e])
    obtain ⟨f1, f2, f3, f4, f5, f6⟩ := twoKids_facts t.heap a x p cx cp xfirst hc hrep hxp
    exact binary_root_core fuel t x a p cx cp
      (fun e => hax (Option.some.inj (hroot.symm.trans e))) hdeg haa f1 f2 f3 f4 f5 f6
      (List.nodup_cons.1 hnd2).2

/-- C15, on the tree parsed from `(C,(A,B));` with `B` (address 4) removed: `A`
(address 3) takes the place of the inner node (address 2) after `C` (address 1); and
on the tree parsed from `(A:1,B:2);` with `A` (address 1) removed: `B` (address 2)
becomes the root. -/
theorem RemoveNode_binary_witness :
    ((parsed descrCAB).Root ≠ some 4 ∧ ((parsed descrCAB).heap 2).Degree = 2 ∧
      ((parsed descrCAB).heap 0).Child =
        (chainOf [(1, BT.nil)] (BT.node 2 (twoKids false 4 BT.nil 3 BT.nil) BT.nil)).ptr ∧
      Rep (parsed descrCAB).heap (some 0)
        (chainOf [(1, BT.nil)] (BT.node 2 (twoKids false 4 BT.nil 3 BT.nil) BT.nil)) ∧
      ∃ t1, RemoveNode 5 (parsed descrCAB) 4 = some (none, t1) ∧
        (t1.heap 0).Child = (chainOf [(1, BT.nil)] (BT.node 3 BT.nil BT.nil)).ptr ∧
        Rep t1.heap (some 0) (chainOf [(1, BT.nil)] (BT.node 3 BT.nil BT.nil)) ∧
        (t1.heap 0).Anc = ((parsed descrCAB).heap 0).Anc ∧
        (t1.heap 0).Sib = ((parsed descrCAB).heap 0).Sib ∧
        (t1.heap 0).Degree = ((parsed descrCAB).heap 0).Degree ∧
        (t1.heap 4).Anc = none ∧ (t1.heap 4).Sib = none ∧ (t1.heap 4).Child = BT.nil.ptr ∧
        Rep t1.heap (some 4) BT.nil ∧
        t1.Root = (parsed descrCAB).Root ∧ t1.Internals = (parsed descrCAB).Internals - 1 ∧
        t1.Leaves =
          (parsed descrCAB).Leaves - (if ((parsed descrCAB).heap 4).Leaf then 1 else 0) ∧
        ∀ y, y ∉ 3 :: 4 :: 0 :: (([(1, BT.nil)] : List (Nat × BT)).getLast?.map Prod.fst).toList →
          t1.heap y = (parsed descrCAB).heap y) ∧
    ((parsed descrAB).Root = some 0 ∧ ((parsed descrAB).heap 0).Anc = none ∧
      ((parsed descrAB).heap 0).Degree = 2 ∧
      Rep (parsed descrAB).heap (some 0) (twoKids true 1 BT.nil 2 BT.nil) ∧
      ∃ t1, RemoveNode 5 (parsed descrAB) 1 = some (none, t1) ∧ t1.Root = some 2 ∧
        Rep t1.heap none (BT.node 2 BT.nil BT.nil) ∧
        (t1.heap 1).Anc = none ∧ (t1.heap 1).Sib = none ∧ (t1.heap 1).Child = BT.nil.ptr ∧
        Rep t1.heap (some 1) BT.nil ∧
        t1.Internals = (parsed descrAB).Internals - 1 ∧
        t1.Leaves = (parsed descrAB).Leaves - (if ((parsed descrAB).heap 1).Leaf then 1 else 0) ∧
        ∀ y, y ∉ [2, 1] → t1.heap y = (parsed descrAB).heap y) :=
  ⟨⟨by decide!, by decide!, by decide!,
      by simp only [chainOf, twoKids, Rep, BT.ptr]; decide!,
      RemoveNode_binary.1 5 (parsed descrCAB) 4 2 3 0 [(1, BT.nil)] BT.nil BT.nil BT.nil false
        (by decide!) (by decide!) (by decide!)
        (by simp only [chainOf, twoKids, Rep, BT.ptr]; decide!) (by decide) (by decide)⟩,
    ⟨by decide!, by decide!, by decide!, by simp only [twoKids, Rep, BT.ptr]; decide!,
      RemoveNode_binary.2 5 (parsed descrAB) 1 0 2 BT.nil BT.nil true (by decide!) (by decide!)
        (by decide!) (by decide!) (by simp only [twoKids, Rep, BT.ptr]; decide!)
        (by decide)⟩⟩

/-! ## AddNodeBelow -/

theorem addBelow_root (fuel : Nat) (t : Tree) (n b : Nat) (hba : (t.heap b).Anc = none)
    (hnb : n ≠ b) (hnn : n ≠ t.next) (hbn : b ≠ t.next) :
    ∃ t1, AddNodeBelow fuel t n b = some t1 ∧
      t1.heap t.next = { Child := some n, Anc := none, Sib := (t.heap b).Sib } ∧
      t1.heap n = { t.heap n with Anc := some t.next, Sib := some b } ∧
      t1.heap b = { t.heap b with Anc := some t.next, Sib := none } ∧
      (∀ y, y ≠ t.next → y ≠ n → y ≠ b → t1.heap y = t.heap y) ∧
      t1.Root = some t.next ∧ t1.next = t.next + 1 ∧ t1.Internals = t.Internals + 1 ∧
      t1.Leaves = t.Leaves + (if (t.heap n).Leaf then 1 else 0) := by
  have hq : ((((t.heap.set t.next {}).modify t.next fun m => { m with Child := some n }).modify
      n fun m => { m with Anc := some t.next }) b).Anc = none := by
    simp [Heap.modify, Heap.set, hbn, Ne.symm hnb, hba]
  refine ⟨_, (by
    simp only [AddNodeBelow, Tree.NewNode, hq]
    rfl), ?_, ?_, ?_, ?_, ?_, ?_, ?_, ?_⟩
  all_goals
    by_cases hl : (t.heap n).Leaf = true <;>
      simp [Heap.modify, Heap.set, hl, hnb, Ne.symm hnb, hnn, Ne.symm hnn, hbn, Ne.symm hbn]
  all_goals try (intro y h1 h2 h3; simp [h1, h2, h3])

theorem addBelow_first (fuel : Nat) (t : Tree) (n b g : Nat) (hba : (t.heap b).Anc = some g)
    (hgc : (t.heap g).Child = some b)
    (hnb : n ≠ b) (hnn : n ≠ t.next) (hbn : b ≠ t.next) (hgn : g ≠ t.next) (hgb : g ≠ b)
    (hgnn : g ≠ n) :
    ∃ t1, AddNodeBelow fuel t n b = some t1 ∧
      t1.heap t.next = { Child := some n, Anc := some g, Sib := (t.heap b).Sib } ∧
      t1.heap n = { t.heap n with Anc := some t.next, Sib := some b } ∧
      t1.heap b = { t.heap b with Anc := some t.next, Sib := none } ∧
      t1.heap g = { t.heap g with Child := some t.next } ∧
      (∀ y, y ≠ t.next → y ≠ n → y ≠ b → y ≠ g → t1.heap y = t.heap y) ∧
      t1.Root = t.Root ∧ t1.next = t.next + 1 ∧ t1.Internals = t.Internals + 1 ∧
      t1.Leaves = t.Leaves + (if (t.heap n).Leaf then 1 else 0) := by
  have hq : ((((t.heap.set t.next {}).modify t.next fun m => { m with Child := some n }).modify
      n fun m => { m with Anc := some t.next }) b).Anc = some g := by
    simp [Heap.modify, Heap.set, hbn, Ne.symm hnb, hba]
  have hc : ((((t.heap.set t.next {}).modify t.next fun m => { m with Child := some n }).modify
      n fun m => { m with Anc := some t.next }) g).Child = some b := by
    simp [Heap.modify, Heap.set, hgn, hgnn, hgc]
  refine ⟨_, (by
    simp only [AddNodeBelow, Tree.NewNode, hq, hc, if_true]
    rfl), ?_, ?_, ?_, ?_, ?_, ?_, ?_, ?_, ?_⟩
  all_goals
    by_cases hl : (t.heap n).Leaf = true <;>
      simp [Heap.modify, Heap.set, hl, hnb, Ne.symm hnb, hnn, Ne.symm hnn, hbn, Ne.symm hbn,
        hgn, Ne.symm hgn, hgb, Ne.symm hgb, hgnn, Ne.symm hgnn]
  all_goals try (intro y h1 h2 h3 h4; simp [h1, h2, h3, h4])

theorem addBelow_later (fuel : Nat) (t : Tree) (n b g l : Nat)
    (hba : (t.heap b).Anc = some g) (hgc : (t.heap g).Child ≠ some b)
    (hls : leftSiblingLoop
      (((t.heap.set t.next {}).modify t.next fun m => { m with Child := some n }).modify
        n fun m => { m with Anc := some t.next }) b fuel (t.heap g).Child = some l)
    (hlb : (t.heap l).Sib = some b) (hf : 0 < fuel)
    (hnb : n ≠ b) (hnn : n ≠ t.next) (hbn : b ≠ t.next) (hgn : g ≠ t.next)
    (hgnn : g ≠ n) (hln : l ≠ t.next) (hlnn : l ≠ n) (hlb2 : l ≠ b) :
    ∃ t1, AddNodeBelow fuel t n b = some t1 ∧
      t1.heap t.next = { Child := some n, Anc := some g, Sib := (t.heap b).Sib } ∧
      t1.heap n = { t.heap n with Anc := some t.next, Sib := some b } ∧
      t1.heap b = { t.heap b with Anc := some t.next, Sib := none } ∧
      t1.heap l = { t.heap l with Sib := some t.next } ∧
      (∀ y, y ≠ t.next → y ≠ n → y ≠ b → y ≠ l → t1.heap y = t.heap y) ∧
      t1.Root = t.Root ∧ t1.next = t.next + 1 ∧ t1.Internals = t.Internals + 1 ∧
      t1.Leaves = t.Leaves + (if (t.heap n).Leaf then 1 else 0) := by
  obtain ⟨k, rfl⟩ : ∃ k, fuel = k + 1 := ⟨fuel - 1, by omega⟩
  have hq : ((((t.heap.set t.next {}).modify t.next fun m => { m with Child := some n }).modify
      n fun m => { m with Anc := some t.next }) b).Anc = some g := by
    simp [Heap.modify, Heap.set, hbn, Ne.symm hnb, hba]
  have hc : ((((t.heap.set t.next {}).modify t.next fun m => { m with Child := some n }).modify
      n fun m => { m with Anc := some t.next }) g).Child = (t.heap g).Child := by
    simp [Heap.modify, Heap.set, hgn, hgnn]
  have hl2 : ((((t.heap.set t.next {}).modify t.next fun m => { m with Child := some n }).modify
      n fun m => { m with Anc := some t.next }) l).Sib = some b := by
    simp [Heap.modify, Heap.set, hln, hlnn, hlb]
  have hsecond : leftSiblingLoop
      (((t.heap.set t.next {}).modify t.next fun m => { m with Child := some n }).modify
        n fun m => { m with Anc := some t.next }) b (k + 1) (some l) = some l := by
    simp only [leftSiblingLoop, hl2, if_true]
  refine ⟨_, (by
    simp only [AddNodeBelow, Tree.NewNode, hq, hc, hgc, if_false, LeftSiblingOf, hls,
      Option.some_bind, hsecond]
    rfl), ?_, ?_, ?_, ?_, ?_, ?_, ?_, ?_, ?_⟩
  all_goals
    by_cases hl : (t.heap n).Leaf = true <;>
      simp [Heap.modify, Heap.set, hl, hnb, Ne.symm hnb, hnn, Ne.symm hnn, hbn, Ne.symm hbn,
        hln, Ne.symm hln, hlb2, Ne.symm hlb2, hlnn, Ne.symm hlnn]
  all_goals try (intro y h1 h2 h3 h4; simp [h1, h2, h3, h4])

theorem chainOf_last_sib (h : Heap) (anc : Option Nat) (T : BT) :
    ∀ (pre : List (Nat × BT)) (l : Nat × BT), pre.getLast? = some l →
      Rep h anc (chainOf pre T) → (h l.1).Sib = T.ptr := by
  intro pre
  induction pre with
  | nil => intro l hl; simp at hl
  | cons ec pre ih =>
    obtain ⟨e, c⟩ := ec
    intro l hl hr
    cases pre with
    | nil =>
      simp only [List.getLast?_singleton, Option.some.injEq] at hl
      subst hl
      exact hr.2.2.1
    | cons ec2 pre2 => exact ih l (by simpa using hl) hr.2.2.2.2

theorem addBelow_root_core (fuel : Nat) (t : Tree) (n b : Nat) (cn cb : BT)
    (hrep : Rep t.heap none (BT.node b cb BT.nil))
    (hnc : (t.heap n).Child = cn.ptr) (hnr : Rep t.heap (some n) cn)
    (hnd : (n :: (cn.addrs ++ (b :: cb.addrs))).Nodup)
    (hlt : ∀ y ∈ n :: (cn.addrs ++ (b :: cb.addrs)), y < t.next) :
    ∃ t1, AddNodeBelow fuel t n b = some t1 ∧ t1.next = t.next + 1 ∧
      t1.Root = some t.next ∧
      Rep t1.heap none (BT.node t.next (BT.node n cn (BT.node b cb BT.nil)) BT.nil) ∧
      t1.Internals = t.Internals + 1 ∧
      t1.Leaves = t.Leaves + (if (t.heap n).Leaf then 1 else 0) ∧
      (∀ y, y ≠ t.next → t1.heap y =
        { t.heap y with Anc := (t1.heap y).Anc, Child := (t1.heap y).Child,
                        Sib := (t1.heap y).Sib }) ∧
      (∀ y, y ∉ [t.next, n, b] → t1.heap y = t.heap y) ∧
      (t1.heap t.next).Leaf = false := by
  obtain ⟨r1, r2, r3, r4, -⟩ := hrep
  have hn0 : n ≠ t.next := Nat.ne_of_lt (hlt n (by simp))
  have hb0 : b ≠ t.next := Nat.ne_of_lt (hlt b (by simp))
  simp only [List.nodup_cons, List.mem_cons, List.mem_append, not_or, List.nodup_append] at hnd
  obtain ⟨⟨n1, n2, n3⟩, -, ⟨b1, -⟩, dn⟩ := hnd
  obtain ⟨t1, k0, k1, k2, k3, k4, k5, k6, k7, k8⟩ :=
    addBelow_root fuel t n b r1 n2 hn0 hb0
  have agn : ∀ y ∈ cn.addrs, t1.heap y = t.heap y := fun y hy =>
    k4 y (Nat.ne_of_lt (hlt y (by simp [hy]))) (fun e => n1 (e ▸ hy))
      (fun e => dn hy (by simp [e]))
  have agb : ∀ y ∈ cb.addrs, t1.heap y = t.heap y := fun y hy =>
    k4 y (Nat.ne_of_lt (hlt y (by simp [hy]))) (fun e => n3 (e ▸ hy)) (fun e => b1 (e ▸ hy))
  refine ⟨t1, k0, k6, k5, ⟨by rw [k1], by rw [k1]; rfl, by rw [k1]; exact r3,
    ⟨by rw [k2], by rw [k2]; exact hnc, by rw [k2]; rfl, Rep_agree _ _ cn _ agn hnr,
      ⟨by rw [k3], by rw [k3]; exact r2, by rw [k3]; rfl, Rep_agree _ _ cb _ agb r4, trivial⟩⟩,
    trivial⟩, k7, k8, fun y hy => ?_, fun y hy => ?_, by rw [k1]⟩
  · by_cases h1 : y = n
    · subst h1; rw [k2]
    · by_cases h2 : y = b
      · subst h2; rw [k3]
      · rw [k4 y hy h1 h2]
  · simp only [List.mem_cons, List.mem_singleton, List.mem_nil_iff, or_false, not_or] at hy
    exact k4 y hy.1 hy.2.1 hy.2.2

theorem addBelow_inner_core (fuel : Nat) (t : Tree) (n b g : Nat) (pre : List (Nat × BT))
    (cn cb post : BT)
    (hgc : (t.heap g).Child = (chainOf pre (BT.node b cb post)).ptr)
    (hrep : Rep t.heap (some g) (chainOf pre (BT.node b cb post)))
    (hnc : (t.heap n).Child = cn.ptr) (hnr : Rep t.heap (some n) cn)
    (hnd : (g :: n :: (cn.addrs ++ (eldersAddrs pre ++ (b :: (cb.addrs ++ post.addrs))))).Nodup)
    (hlt : ∀ y ∈ g :: n :: (cn.addrs ++ (eldersAddrs pre ++ (b :: (cb.addrs ++ post.addrs)))),
      y < t.next)
    (hfuel : pre.length ≤ fuel) :
    ∃ t1, AddNodeBelow fuel t n b = some t1 ∧ t1.next = t.next + 1 ∧ t1.Root = t.Root ∧
      (t1.heap g).Child =
        (chainOf pre (BT.node t.next (BT.node n cn (BT.node b cb BT.nil)) post)).ptr ∧
      Rep t1.heap (some g)
        (chainOf pre (BT.node t.next (BT.node n cn (BT.node b cb BT.nil)) post)) ∧
      t1.Internals = t.Internals + 1 ∧
      t1.Leaves = t.Leaves + (if (t.heap n).Leaf then 1 else 0) ∧
      (∀ y, y ≠ t.next → t1.heap y =
        { t.heap y with Anc := (t1.heap y).Anc, Child := (t1.heap y).Child,
                        Sib := (t1.heap y).Sib }) ∧
      (∀ y, y ∉ t.next :: n :: b :: g :: (pre.getLast?.map Prod.fst).toList →
        t1.heap y = t.heap y) ∧
      (t1.heap g).Anc = (t.heap g).Anc ∧ (t1.heap g).Sib = (t.heap g).Sib ∧
      (t1.heap t.next).Leaf = false := by
  obtain ⟨r1, r2, r3, r4, r5⟩ := Rep_chainOf_tail t.heap (some g) _ pre hrep
  have hg0 : g ≠ t.next := Nat.ne_of_lt (hlt g (by simp))
  have hn0 : n ≠ t.next := Nat.ne_of_lt (hlt n (by simp))
  have hb0 : b ≠ t.next := Nat.ne_of_lt (hlt b (by simp))
  have hnd0 := hnd
  simp only [List.nodup_cons, List.mem_cons, List.mem_append, not_or, List.nodup_append] at hnd
  obtain ⟨⟨gn, gcn, gE, gb, gcb, gpo⟩, ⟨ncn, nE, nb, ncb, npo⟩, -,
    ⟨nE1, ⟨⟨bcb, bpo⟩, -, -, -⟩, dE⟩, dcn⟩ := hnd
  have dE2 : ∀ y ∈ eldersAddrs pre, y ≠ b ∧ y ∉ cb.addrs ∧ y ∉ post.addrs ∧ y ≠ t.next ∧
      y ≠ n ∧ y ≠ g ∧ y ∉ cn.addrs := fun y hy =>
    ⟨fun e => dE hy (by simp [e]), fun e => dE hy (by simp [e]), fun e => dE hy (by simp [e]),
      Nat.ne_of_lt (hlt y (by simp [hy])), fun e => nE (e ▸ hy), fun e => gE (e ▸ hy),
      fun e => dcn e (by simp [hy])⟩
  have hdone : ∀ (t1 : Tree) (holder : Nat),
      t1.heap t.next = { Child := some n, Anc := some g, Sib := (t.heap b).Sib } →
      t1.heap n = { t.heap n with Anc := some t.next, Sib := some b } →
      t1.heap b = { t.heap b with Anc := some t.next, Sib := none } →
      (∀ y, y ≠ t.next → y ≠ n → y ≠ b → y ≠ holder → t1.heap y = t.heap y) →
      (holder ∉ cn.addrs ∧ holder ∉ cb.addrs ∧ holder ∉ post.addrs) →
      Rep t1.heap (some g) (BT.node t.next (BT.node n cn (BT.node b cb BT.nil)) post) := by
    intro t1 holder k1 k2 k3 k4 hh
    have agn : ∀ y ∈ cn.addrs, t1.heap y = t.heap y := fun y hy =>
      k4 y (Nat.ne_of_lt (hlt y (by simp [hy]))) (fun e => ncn (e ▸ hy))
        (fun e => dcn hy (by simp [e])) (fun e => hh.1 (e ▸ hy))
    have agb : ∀ y ∈ cb.addrs, t1.heap y = t.heap y := fun y hy =>
      k4 y (Nat.ne_of_lt (hlt y (by simp [hy]))) (fun e => ncb (e ▸ hy))
        (fun e => bcb (e ▸ hy)) (fun e => hh.2.1 (e ▸ hy))
    have ago : ∀ y ∈ post.addrs, t1.heap y = t.heap y := fun y hy =>
      k4 y (Nat.ne_of_lt (hlt y (by simp [hy]))) (fun e => npo (e ▸ hy))
        (fun e => bpo (e ▸ hy)) (fun e => hh.2.2 (e ▸ hy))
    exact ⟨by rw [k1], by rw [k1]; rfl, by rw [k1]; exact r3,
      ⟨by rw [k2], by rw [k2]; exact hnc, by rw [k2]; rfl, Rep_agree _ _ cn _ agn hnr,
        ⟨by rw [k3], by rw [k3]; exact r2, by rw [k3]; rfl, Rep_agree _ _ cb _ agb r4,
          trivial⟩⟩,
      Rep_agree _ _ post _ ago r5⟩
  cases hl : pre.getLast? with
  | none =>
    have hp : pre = [] := List.getLast?_eq_none_iff.1 hl
    subst hp
    obtain ⟨t1, k0, k1, k2, k3, kg, k4, k5, k6, k7, k8⟩ :=
      addBelow_first fuel t n b g r1 hgc nb hn0 hb0 hg0 gb gn
    refine ⟨t1, k0, k6, k5, by rw [kg]; rfl, hdone t1 g k1 k2 k3 k4 ⟨gcn, gcb, gpo⟩, k7, k8,
      fun y hy => ?_, fun y hy => ?_, by rw [kg], by rw [kg], by rw [k1]⟩
    · by_cases h1 : y = n
      · subst h1; rw [k2]
      · by_cases h2 : y = b
        · subst h2; rw [k3]
        · by_cases h3 : y = g
          · subst h3; rw [kg]
          · rw [k4 y hy h1 h2 h3]
    · simp only [Option.map_none', Option.toList_none, List.mem_cons, List.mem_nil_iff,
        or_false, not_or] at hy
      exact k4 y hy.1 hy.2.1 hy.2.2.1 hy.2.2.2
  | some l =>
    have hlm : l.1 ∈ eldersAddrs pre := mem_eldersAddrs l pre (List.mem_of_getLast?_eq_some hl)
    obtain ⟨l1, l2, l3, l4, l5, l6, l7⟩ := dE2 _ hlm
    have hne : pre ≠ [] := fun e => by rw [e] at hl; simp at hl
    have hfirst : (t.heap g).Child ≠ some b := by
      rw [hgc]
      cases pre with
      | nil => exact absurd rfl hne
      | cons ec pre2 =>
        obtain ⟨e, c⟩ := ec
        intro he
        simp only [chainOf, BT.ptr, Option.some.injEq] at he
        exact (dE2 e (by simp [eldersAddrs])).1 he
    have hrep2 : Rep (((t.heap.set t.next {}).modify t.next fun m =>
        { m with Child := some n }).modify n fun m => { m with Anc := some t.next }) (some g)
        (chainOf pre (BT.node b cb post)) := by
      refine Rep_agree t.heap _ _ _ (fun y hy => ?_) hrep
      rw [chainOf_addrs] at hy
      have hm : y ∈ g :: n :: (cn.addrs ++
          (eldersAddrs pre ++ (b :: (cb.addrs ++ post.addrs)))) := by
        simp only [List.mem_cons, List.mem_append, BT.addrs] at hy ⊢
        tauto
      have h1 : y ≠ t.next := Nat.ne_of_lt (hlt y hm)
      have h2 : y ≠ n := by
        rintro rfl
        simp only [List.mem_cons, List.mem_append, BT.addrs] at hy
        tauto
      simp [Heap.modify, Heap.set, h1, h2]
    have hls := leftSiblingLoop_chain _ (some g) b cb post pre l hl hrep2
      (fun hm => (dE2 b hm).1 rfl) fuel hfuel
    rw [← hgc] at hls
    have hlb : (t.heap l.1).Sib = some b :=
      chainOf_last_sib t.heap (some g) _ pre l hl hrep
    have hf : 0 < fuel := by
      cases pre with
      | nil => exact absurd rfl hne
      | cons ec pre2 => simp at hfuel; omega
    obtain ⟨t1, k0, k1, k2, k3, kl, k4, k5, k6, k7, k8⟩ :=
      addBelow_later fuel t n b g l.1 r1 hfirst hls hlb hf nb hn0 hb0 hg0 gn l4 l5 l1
    have hgg : t1.heap g = t.heap g := k4 g hg0 gn gb (Ne.symm l6)
    have hpre := Rep_chainOf_last t.heap t1.heap (some g) (BT.node b cb post)
      (BT.node t.next (BT.node n cn (BT.node b cb BT.nil)) post) pre l hl hrep nE1
      (fun y hy hyl => k4 y (dE2 y hy).2.2.2.1 (dE2 y hy).2.2.2.2.1 (dE2 y hy).1 hyl)
      (by rw [kl]) (by rw [kl]) (by rw [kl]; rfl) (hdone t1 l.1 k1 k2 k3 k4 ⟨l7, l2, l3⟩)
    refine ⟨t1, k0, k6, k5, ?_, hpre, k7, k8, fun y hy => ?_, fun y hy => ?_, by rw [hgg],
      by rw [hgg], by rw [k1]⟩
    · rw [hgg]
      cases pre with
      | nil => exact absurd rfl hne
      | cons ec pre2 => exact hgc
    · by_cases h1 : y = n
      · subst h1; rw [k2]
      · by_cases h2 : y = b
        · subst h2; rw [k3]
        · by_cases h3 : y = l.1
          · subst h3; rw [kl]
          · rw [k4 y hy h1 h2 h3]
    · simp only [Option.map_some', Option.toList_some, List.mem_cons, List.mem_singleton,
        not_or] at hy
      exact k4 y hy.1 hy.2.1 hy.2.2.1 (by simpa using hy.2.2.2.2)

/-- C19: `AddNodeBelow (n, b)` for a detached node `n` (with the shape `cn` below it)
and an anchor `b`, all addresses in use being distinct and below `next`. First part,
`b` is a child of `g` and stands between the nodes `pre` and the chain `post`:
afterwards the new node (address `next`) stands between `pre` and `post` in the
child list of `g`, and its children are `n` followed by `b`, each with its old
subtree. Second part, `b` has no ancestor and no sibling (it is the root): the new
node becomes the root, with the children `n` and `b`. In both parts `Internals` goes
up by one, `Leaves` by one exactly when `n` is a leaf, and in every node other than
the new one only the three pointers may differ: labels, weights and all other fields
are unchanged. -/
theorem AddNodeBelow_splice :
    (∀ (fuel : Nat) (t : Tree) (n b g : Nat) (pre : List (Nat × BT)) (cn cb post : BT),
      (t.heap g).Child = (chainOf pre (BT.node b cb post)).ptr →
      Rep t.heap (some g) (chainOf pre (BT.node b cb post)) →
      (t.heap n).Child = cn.ptr → Rep t.heap (some n) cn →
      (g :: n :: (cn.addrs ++ (eldersAddrs pre ++ (b :: (cb.addrs ++ post.addrs))))).Nodup →
      (∀ y ∈ g :: n :: (cn.addrs ++ (eldersAddrs pre ++ (b :: (cb.addrs ++ post.addrs)))),
        y < t.next) →
      pre.length ≤ fuel →
      ∃ t1, AddNodeBelow fuel t n b = some t1 ∧ t1.next = t.next + 1 ∧ t1.Root = t.Root ∧
        (t1.heap g).Child =
          (chainOf pre (BT.node t.next (BT.node n cn (BT.node b cb BT.nil)) post)).ptr ∧
        Rep t1.heap (some g)
          (chainOf pre (BT.node t.next (BT.node n cn (BT.node b cb BT.nil)) post)) ∧
        t1.Internals = t.Internals + 1 ∧
        t1.Leaves = t.Leaves + (if (t.heap n).Leaf then 1 else 0) ∧
        (∀ y, y ≠ t.next → t1.heap y =
          { t.heap y with Anc := (t1.heap y).Anc, Child := (t1.heap y).Child,
                          Sib := (t1.heap y).Sib }) ∧
        ∀ y, y ∉ t.next :: n :: b :: g :: (pre.getLast?.map Prod.fst).toList →
          t1.heap y = t.heap y) ∧
    (∀ (fuel : Nat) (t : Tree) (n b : Nat) (cn cb : BT),
      Rep t.heap none (BT.node b cb BT.nil) →
      (t.heap n).Child = cn.ptr → Rep t.heap (some n) cn →
      (n :: (cn.addrs ++ (b :: cb.addrs))).Nodup →
      (∀ y ∈ n :: (cn.addrs ++ (b :: cb.addrs)), y < t.next) →
      ∃ t1, AddNodeBelow fuel t n b = some t1 ∧ t1.next = t.next + 1 ∧
        t1.Root = some t.next ∧
        Rep t1.heap none (BT.node t.next (BT.node n cn (BT.node b cb BT.nil)) BT.nil) ∧
        t1.Internals = t.Internals + 1 ∧
        t1.Leaves = t.Leaves + (if (t.heap n).Leaf then 1 else 0) ∧
        (∀ y, y ≠ t.next → t1.heap y =
          { t.heap y with Anc := (t1.heap y).Anc, Child := (t1.heap y).Child,
                          Sib := (t1.heap y).Sib }) ∧
        ∀ y, y ∉ [t.next, n, b] → t1.heap y = t.heap y) :=
  ⟨fun fuel t n b g pre cn cb post h1 h2 h3 h4 h5 h6 h7 =>
      let ⟨t1, k1, k2, k3, k4, k5, k6, k7, k8, k9, _⟩ :=
        addBelow_inner_core fuel t n b g pre cn cb post h1 h2 h3 h4 h5 h6 h7
      ⟨t1, k1, k2, k3, k4, k5, k6, k7, k8, k9⟩,
    fun fuel t n b cn cb h1 h2 h3 h4 h5 =>
      let ⟨t1, k1, k2, k3, k4, k5, k6, k7, k8, _⟩ :=
        addBelow_root_core fuel t n b cn cb h1 h2 h3 h4 h5
      ⟨t1, k1, k2, k3, k4, k5, k6, k7, k8⟩⟩

/-- C19, on the tree parsed from `(A,B,C);` with a detached leaf `D` (address 4):
inserted below `B` (address 2), the new node 5 stands between `A` and `C` with the
children `D`, `B`; inserted below the root (address 0), the new node 5 is the root
with the children `D` and the old root. -/
theorem AddNodeBelow_splice_witness :
    (Rep treeABCwithD.heap (some 0)
        (chainOf [(1, BT.nil)] (BT.node 2 BT.nil (BT.node 3 BT.nil BT.nil))) ∧
      (treeABCwithD.Internals, treeABCwithD.Leaves, treeABCwithD.next) = (1, 3, 5) ∧
      ∃ t1, AddNodeBelow 5 treeABCwithD 4 2 = some t1 ∧ t1.next = treeABCwithD.next + 1 ∧
        t1.Root = treeABCwithD.Root ∧
        (t1.heap 0).Child =
          (chainOf [(1, BT.nil)] (BT.node treeABCwithD.next
            (BT.node 4 BT.nil (BT.node 2 BT.nil BT.nil)) (BT.node 3 BT.nil BT.nil))).ptr ∧
        Rep t1.heap (some 0)
          (chainOf [(1, BT.nil)] (BT.node treeABCwithD.next
            (BT.node 4 BT.nil (BT.node 2 BT.nil BT.nil)) (BT.node 3 BT.nil BT.nil))) ∧
        t1.Internals = treeABCwithD.Internals + 1 ∧
        t1.Leaves = treeABCwithD.Leaves + (if (treeABCwithD.heap 4).Leaf then 1 else 0) ∧
        (∀ y, y ≠ treeABCwithD.next → t1.heap y =
          { treeABCwithD.heap y with Anc := (t1.heap y).Anc, Child := (t1.heap y).Child,
                                     Sib := (t1.heap y).Sib }) ∧
        ∀ y, y ∉ treeABCwithD.next :: 4 :: 2 :: 0 ::
            (([(1, BT.nil)] : List (Nat × BT)).getLast?.map Prod.fst).toList →
          t1.heap y = treeABCwithD.heap y) ∧
    (Rep treeABCwithD.heap none
        (BT.node 0 (BT.node 1 BT.nil (BT.node 2 BT.nil (BT.node 3 BT.nil BT.nil))) BT.nil) ∧
      ∃ t1, AddNodeBelow 5 treeABCwithD 4 0 = some t1 ∧ t1.next = treeABCwithD.next + 1 ∧
        t1.Root = some treeABCwithD.next ∧
        Rep t1.heap none (BT.node treeABCwithD.next (BT.node 4 BT.nil (BT.node 0
          (BT.node 1 BT.nil (BT.node 2 BT.nil (BT.node 3 BT.nil BT.nil))) BT.nil)) BT.nil) ∧
        t1.Internals = treeABCwithD.Internals + 1 ∧
        t1.Leaves = treeABCwithD.Leaves + (if (treeABCwithD.heap 4).Leaf then 1 else 0) ∧
        (∀ y, y ≠ treeABCwithD.next → t1.heap y =
          { treeABCwithD.heap y with Anc := (t1.heap y).Anc, Child := (t1.heap y).Child,
                                     Sib := (t1.heap y).Sib }) ∧
        ∀ y, y ∉ [treeABCwithD.next, 4, 0] → t1.heap y = treeABCwithD.heap y) :=
  ⟨⟨by simp only [chainOf, Rep, BT.ptr]; decide!, by decide!,
      AddNodeBelow_splice.1 5 treeABCwithD 4 2 0 [(1, BT.nil)] BT.nil BT.nil
        (BT.node 3 BT.nil BT.nil) (by decide!) (by simp only [chainOf, Rep, BT.ptr]; decide!)
        (by decide!) trivial (by decide) (by decide) (by decide)⟩,
    ⟨by simp only [Rep, BT.ptr]; decide!,
      AddNodeBelow_splice.2 5 treeABCwithD 4 0 BT.nil
        (BT.node 1 BT.nil (BT.node 2 BT.nil (BT.node 3 BT.nil BT.nil)))
        (by simp only [Rep, BT.ptr]; decide!) (by decide!) trivial (by decide) (by decide)⟩⟩

/-! ## Write and the edge lengths -/

theorem traverseWith_none (nq : Bool) (fuel : Nat) (t : Tree) (out : List OutItem) :
    traverseWith nq (fuel + 1) t none out = some out := by
  simp [traverseWith]

theorem traverseWith_chain (nq : Bool) (t : Tree) : ∀ (S : BT) (a : Nat) (fuel : Nat)
    (out : List OutItem), Rep t.heap (some a) S → (∀ x ∈ S.addrs, some x ≠ t.Root) →
    S.size < fuel →
    traverseWith nq fuel t S.ptr out = some (out ++ renderShape nq t (some a) S) := by
  intro S
  induction S with
  | nil =>
    intro a fuel out _ _ hf
    obtain ⟨n, rfl⟩ : ∃ n, fuel = n + 1 := ⟨fuel - 1, by simp [BT.size] at hf; omega⟩
    simp [BT.ptr, renderShape, traverseWith]
  | node x c s ihc ihs =>
    intro a fuel out hrep hroot hf
    obtain ⟨n, rfl⟩ : ∃ n, fuel = n + 1 := ⟨fuel - 1, by omega⟩
    obtain ⟨hanc, hch, hsib, hrc, hrs⟩ := hrep
    have hxr : some x ≠ t.Root := hroot x (by simp [BT.addrs])
    have hcr : ∀ y ∈ c.addrs, some y ≠ t.Root := fun y hy => hroot y (by simp [BT.addrs, hy])
    have hsr : ∀ y ∈ s.addrs, some y ≠ t.Root := fun y hy => hroot y (by simp [BT.addrs, hy])
    have hcs : c.size < n := by simp only [BT.size] at hf; omega
    have hss : s.size < n := by simp only [BT.size] at hf; omega
    rw [show (BT.node x c s).ptr = some x from rfl]
    simp only [traverseWith, hch, hsib, hanc]
    rw [ihc x n _ hrc hcr hcs]
    by_cases hs : s.ptr = none
    · simp only [hs, ne_eq, not_true_eq_false, if_false, hxr, not_false_eq_true, if_true]
      rw [← hs, ihs a n _ hrs hsr hss]
      simp [renderShape, hs, hxr, List.append_assoc]
    · simp only [ne_eq, hs, not_false_eq_true, if_true]
      rw [ihs a n _ hrs hsr hss]
      simp [renderShape, hs, List.append_assoc]

theorem traverseWith_root (nq : Bool) (t : Tree) (r : Nat) (c : BT) (fuel : Nat)
    (hroot : t.Root = some r) (hrep : Rep t.heap none (BT.node r c BT.nil))
    (hnd : (BT.node r c BT.nil).addrs.Nodup) (hf : c.size + 1 < fuel) :
    traverseWith nq fuel t t.Root [] =
      some (openNode nq t r ++ renderShape nq t (some r) c) := by
  obtain ⟨n, rfl⟩ : ∃ n, fuel = n + 1 := ⟨fuel - 1, by omega⟩
  obtain ⟨_, hch, hsib, hrc, _⟩ := hrep
  have hcr : ∀ y ∈ c.addrs, some y ≠ t.Root := by
    intro y hy e
    rw [hroot] at e
    simp only [BT.addrs, List.append_nil, List.nodup_cons] at hnd
    exact hnd.1 (Option.some.inj e ▸ hy)
  obtain ⟨m, rfl⟩ : ∃ m, n = m + 1 := ⟨n - 1, by omega⟩
  rw [hroot]
  simp only [traverseWith, hch, hsib]
  rw [traverseWith_chain nq t c r (m + 1) _ hrc hcr (by omega)]
  simp [hroot, BT.ptr, traverseWith]

theorem length_mem_openNode (nq : Bool) (t : Tree) (x y : Nat) (v : FP) :
    OutItem.length y v ∈ openNode nq t x ↔
      (t.heap x).Leaf = true ∧ t.EdgeLengths = true ∧ y = x ∧ v = (t.heap x).Length := by
  unfold openNode leafLabel
  by_cases hl : (t.heap x).Leaf = true <;> by_cases he : t.EdgeLengths = true <;>
    cases nq <;> simp [hl, he]

theorem length_mem_closeGroup (nq : Bool) (t : Tree) (a y : Nat) (v : FP) :
    OutItem.length y v ∈ closeGroup nq t a ↔
      t.EdgeLengths = true ∧ some a ≠ t.Root ∧ y = a ∧ v = (t.heap a).Length := by
  unfold closeGroup innerLabel
  by_cases hl : (t.heap a).Label ≠ "" ∧ t.InternalLabels = true <;>
    by_cases he : t.EdgeLengths = true ∧ some a ≠ t.Root <;>
    cases nq <;> simp only [hl, he, if_true, if_false] <;> simp <;> tauto

theorem length_mem_renderShape (nq : Bool) (t : Tree) (y : Nat) (v : FP) :
    ∀ (S : BT) (a : Nat), (∀ x ∈ S.addrs, some x ≠ t.Root) → InnerHaveChild t.heap S →
    (OutItem.length y v ∈ renderShape nq t (some a) S ↔
      (y ∈ S.addrs ∧ t.EdgeLengths = true ∧ v = (t.heap y).Length) ∨
      (S ≠ BT.nil ∧ a = y ∧ t.EdgeLengths = true ∧ some y ≠ t.Root ∧
        v = (t.heap y).Length)) := by
  intro S
  induction S with
  | nil => intro a _ _; simp [renderShape, BT.addrs]
  | node x c s ihc ihs =>
    intro a hroot hin
    obtain ⟨hx, hic, his⟩ := hin
    have hxr : some x ≠ t.Root := hroot x (by simp [BT.addrs])
    have hcr : ∀ z ∈ c.addrs, some z ≠ t.Root := fun z hz => hroot z (by simp [BT.addrs, hz])
    have hsr : ∀ z ∈ s.addrs, some z ≠ t.Root := fun z hz => hroot z (by simp [BT.addrs, hz])
    have hc := ihc x hcr hic
    have hs := ihs a hsr his
    have ho := length_mem_openNode nq t x y v
    have hg := length_mem_closeGroup nq t a y v
    have hm : ∀ (s0 : BT) (z : Nat),
        z ∈ (BT.node x c s0).addrs ↔ z = x ∨ z ∈ c.addrs ∨ z ∈ s0.addrs := by
      intro s0 z; simp [BT.addrs]
    cases s with
    | nil =>
      have hra : renderShape nq t (some a) (BT.node x c BT.nil) =
          openNode nq t x ++ renderShape nq t (some x) c ++ closeGroup nq t a := by
        simp [renderShape, BT.ptr, hxr]
      rw [hra, List.mem_append, List.mem_append, ho, hc, hg]
      by_cases hl : (t.heap x).Leaf = true
      · constructor
        · rintro ((⟨_, he, rfl, hv⟩ | ⟨hy, he, hv⟩ | ⟨_, rfl, he, hr, hv⟩) | ⟨he, hr, rfl, hv⟩)
          · exact Or.inl ⟨(hm _ _).2 (Or.inl rfl), he, hv⟩
          · exact Or.inl ⟨(hm _ _).2 (Or.inr (Or.inl hy)), he, hv⟩
          · exact Or.inl ⟨(hm _ _).2 (Or.inl rfl), he, hv⟩
          · exact Or.inr ⟨by simp, rfl, he, hr, hv⟩
        · rintro (⟨hy, he, hv⟩ | ⟨_, rfl, he, hr, hv⟩)
          · rcases (hm _ _).1 hy with rfl | hy | hy
            · exact Or.inl (Or.inl ⟨hl, he, rfl, hv⟩)
            · exact Or.inl (Or.inr (Or.inl ⟨hy, he, hv⟩))
            · simp [BT.addrs] at hy
          · exact Or.inr ⟨he, hr, rfl, hv⟩
      · have hl0 : (t.heap x).Leaf = false := by simpa using hl
        have hne := hx hl0
        constructor
        · rintro ((⟨h1, _⟩ | ⟨hy, he, hv⟩ | ⟨_, rfl, he, hr, hv⟩) | ⟨he, hr, rfl, hv⟩)
          · exact absurd h1 hl
          · exact Or.inl ⟨(hm _ _).2 (Or.inr (Or.inl hy)), he, hv⟩
          · exact Or.inl ⟨(hm _ _).2 (Or.inl rfl), he, hv⟩
          · exact Or.inr ⟨by simp, rfl, he, hr, hv⟩
        · rintro (⟨hy, he, hv⟩ | ⟨_, rfl, he, hr, hv⟩)
          · rcases (hm _ _).1 hy with rfl | hy | hy
            · exact Or.inl (Or.inr (Or.inr ⟨hne, rfl, he, hxr, hv⟩))
            · exact Or.inl (Or.inr (Or.inl ⟨hy, he, hv⟩))
            · simp [BT.addrs] at hy
          · exact Or.inr ⟨he, hr, rfl, hv⟩
    | node x2 c2 s2 =>
      have hra : renderShape nq t (some a) (BT.node x c (BT.node x2 c2 s2)) =
          openNode nq t x ++ renderShape nq t (some x) c ++ [OutItem.text ","] ++
            renderShape nq t (some a) (BT.node x2 c2 s2) := by
        rw [renderShape]; simp [BT.ptr]
      have hcomma : ¬ OutItem.length y v ∈ [OutItem.text ","] := by simp
      rw [hra, List.mem_append, List.mem_append, List.mem_append, ho, hc, hs]
      by_cases hl : (t.heap x).Leaf = true
      · constructor
        · rintro (((⟨_, he, rfl, hv⟩ | ⟨hy, he, hv⟩ | ⟨_, rfl, he, hr, hv⟩) | h3) |
            ⟨hy, he, hv⟩ | ⟨_, h4⟩)
          · exact Or.inl ⟨(hm _ _).2 (Or.inl rfl), he, hv⟩
          · exact Or.inl ⟨(hm _ _).2 (Or.inr (Or.inl hy)), he, hv⟩
          · exact Or.inl ⟨(hm _ _).2 (Or.inl rfl), he, hv⟩
          · exact absurd h3 hcomma
          · exact Or.inl ⟨(hm _ _).2 (Or.inr (Or.inr hy)), he, hv⟩
          · exact Or.inr ⟨by simp, h4⟩
        · rintro (⟨hy, he, hv⟩ | ⟨_, h4⟩)
          · rcases (hm _ _).1 hy with rfl | hy | hy
            · exact Or.inl (Or.inl (Or.inl ⟨hl, he, rfl, hv⟩))
            · exact Or.inl (Or.inl (Or.inr (Or.inl ⟨hy, he, hv⟩)))
            · exact Or.inr (Or.inl ⟨hy, he, hv⟩)
          · exact Or.inr (Or.inr ⟨by simp, h4⟩)
      · have hl0 : (t.heap x).Leaf = false := by simpa using hl
        have hne := hx hl0
        constructor
        · rintro (((⟨h1, _⟩ | ⟨hy, he, hv⟩ | ⟨_, rfl, he, hr, hv⟩) | h3) |
            ⟨hy, he, hv⟩ | ⟨_, h4⟩)
          · exact absurd h1 hl
          · exact Or.inl ⟨(hm _ _).2 (Or.inr (Or.inl hy)), he, hv⟩
          · exact Or.inl ⟨(hm _ _).2 (Or.inl rfl), he, hv⟩
          · exact absurd h3 hcomma
          · exact Or.inl ⟨(hm _ _).2 (Or.inr (Or.inr hy)), he, hv⟩
          · exact Or.inr ⟨by simp, h4⟩
        · rintro (⟨hy, he, hv⟩ | ⟨_, h4⟩)
          · rcases (hm _ _).1 hy with rfl | hy | hy
            · exact Or.inl (Or.inl (Or.inr (Or.inr ⟨hne, rfl, he, hxr, hv⟩)))
            · exact Or.inl (Or.inl (Or.inr (Or.inl ⟨hy, he, hv⟩)))
            · exact Or.inr (Or.inl ⟨hy, he, hv⟩)
          · exact Or.inr (Or.inr ⟨by simp, h4⟩)

theorem writeWith_edge_lengths (nq : Bool) (t : Tree) (T : BT) (hwf : WellFormed t T)
    (hin : InnerHaveChild t.heap T) (fuel : Nat) (hf : T.size < fuel) :
    ∃ out, traverseWith nq fuel t t.Root [] = some out ∧
      ∀ (y : Nat) (v : FP), OutItem.length y v ∈ out ++ [OutItem.text ";"] ↔
        y ∈ T.addrs ∧ t.EdgeLengths = true ∧
          ((t.heap y).Leaf = true ∨ some y ≠ t.Root) ∧ v = (t.heap y).Length := by
  obtain ⟨hroot, hshape, hrep, hnd, _⟩ := hwf
  rcases hshape with rfl | ⟨r, c, rfl⟩
  · obtain ⟨n, rfl⟩ : ∃ n, fuel = n + 1 := ⟨fuel - 1, by simp [BT.size] at hf; omega⟩
    refine ⟨[], by rw [hroot]; exact traverseWith_none nq n t [], ?_⟩
    intro y v
    simp [BT.addrs]
  · have hr : t.Root = some r := hroot
    have hcs : c.size + 1 < fuel := by simp only [BT.size] at hf; omega
    refine ⟨_, traverseWith_root nq t r c fuel hr hrep hnd hcs, ?_⟩
    have hcr : ∀ y ∈ c.addrs, some y ≠ t.Root := by
      intro y hy e
      rw [hr] at e
      simp only [BT.addrs, List.append_nil, List.nodup_cons] at hnd
      exact hnd.1 (Option.some.inj e ▸ hy)
    intro y v
    have hsemi : ¬ OutItem.length y v ∈ [OutItem.text ";"] := by simp
    have hm : y ∈ (BT.node r c BT.nil).addrs ↔ y = r ∨ y ∈ c.addrs := by simp [BT.addrs]
    rw [List.mem_append, List.mem_append, length_mem_openNode,
      length_mem_renderShape nq t y v c r hcr hin.2.1, hm]
    constructor
    · rintro ((⟨hl, he, rfl, hv⟩ | ⟨hy, he, hv⟩ | ⟨_, rfl, _, hne, _⟩) | h3)
      · exact ⟨Or.inl rfl, he, Or.inl hl, hv⟩
      · exact ⟨Or.inr hy, he, Or.inr (hcr y hy), hv⟩
      · exact absurd hr.symm hne
      · exact absurd h3 hsemi
    · rintro ⟨rfl | hy, he, hl | hne, hv⟩
      · exact Or.inl (Or.inl ⟨hl, he, rfl, hv⟩)
      · exact absurd hr.symm hne
      · exact Or.inl (Or.inr (Or.inl ⟨hy, he, hv⟩))
      · exact Or.inl (Or.inr (Or.inl ⟨hy, he, hv⟩))

/-- Which edge lengths `Tree::traverse` writes: on a well-formed tree in which every
node that is not a leaf has a child, `Write` and `WriteNoQuote` return once the fuel
exceeds the number of nodes, and the edge length of a node `y` is written exactly when
`y` belongs to the tree, `EdgeLengths` is set, and `y` is a leaf or is not the root;
the value written is the node's `Length`. A root that is a leaf has its edge length
written, an internal root has not. -/
theorem Write_edge_lengths (t : Tree) (T : BT) (hwf : WellFormed t T)
    (hin : InnerHaveChild t.heap T) (fuel : Nat) (hf : T.size < fuel) :
    (∃ out, Write fuel t = some out ∧
      ∀ (y : Nat) (v : FP), OutItem.length y v ∈ out ↔
        y ∈ T.addrs ∧ t.EdgeLengths = true ∧
          ((t.heap y).Leaf = true ∨ some y ≠ t.Root) ∧ v = (t.heap y).Length) ∧
    (∃ out, WriteNoQuote fuel t = some out ∧
      ∀ (y : Nat) (v : FP), OutItem.length y v ∈ out ↔
        y ∈ T.addrs ∧ t.EdgeLengths = true ∧
          ((t.heap y).Leaf = true ∨ some y ≠ t.Root) ∧ v = (t.heap y).Length) := by
  constructor
  · obtain ⟨out, h1, h2⟩ := writeWith_edge_lengths false t T hwf hin fuel hf
    exact ⟨out ++ [OutItem.text ";"], by simp [Write, traverse, h1], h2⟩
  · obtain ⟨out, h1, h2⟩ := writeWith_edge_lengths true t T hwf hin fuel hf
    exact ⟨out ++ [OutItem.text ";"], by simp [WriteNoQuote, traversenoquote, h1], h2⟩

/-- C14: for the tree parsed from `A:1;`, whose root is the leaf at address 0 and
which has edge lengths, `Write` and `WriteNoQuote` write the edge length of the root
after its label: the branch of `Tree::traverse` that writes a leaf tests `EdgeLengths`
only, while the branch that closes an internal node also compares the node with
`Root`. -/
theorem Write_single_leaf_length :
    (Parse 30 40 {} descrLeafLength).map Prod.fst = some 0 ∧
    (parsed descrLeafLength).Root = some 0 ∧
    ((parsed descrLeafLength).heap 0).Leaf = true ∧
    (parsed descrLeafLength).EdgeLengths = true ∧
    Write 5 (parsed descrLeafLength) =
      some [OutItem.text "A", OutItem.text ":", OutItem.length 0 1, OutItem.text ";"] ∧
    WriteNoQuote 5 (parsed descrLeafLength) =
      some [OutItem.text "A", OutItem.text ":", OutItem.length 0 1, OutItem.text ";"] := by
  decide!

theorem parsed_descrNested_wellFormed :
    WellFormed (parsed descrNested) shapeNested ∧
      InnerHaveChild (parsed descrNested).heap shapeNested := by
  refine ⟨⟨?_, Or.inr ⟨_, _, rfl⟩, ?_, ?_, ?_⟩, ?_⟩ <;>
    simp only [shapeNested, Rep, BT.ptr, BT.addrs, LeavesChildless, InnerHaveChild] <;>
    decide!

theorem Write_descrNested :
    Write 6 (parsed descrNested) = some [OutItem.text "(", OutItem.text "(",
      OutItem.text "A", OutItem.text ":", OutItem.length 2 1, OutItem.text ",",
      OutItem.text "B", OutItem.text ":", OutItem.length 3 2, OutItem.text ")",
      OutItem.text ":", OutItem.length 1 3, OutItem.text ",", OutItem.text "C",
      OutItem.text ":", OutItem.length 4 4, OutItem.text ")", OutItem.text ";"] := by
  decide!

theorem Write_edge_lengths_witness :
    WellFormed (parsed descrNested) shapeNested ∧
    InnerHaveChild (parsed descrNested).heap shapeNested ∧ shapeNested.size < 6 ∧
    (∃ out, Write 6 (parsed descrNested) = some out ∧
      ∀ (y : Nat) (v : FP), OutItem.length y v ∈ out ↔
        y ∈ shapeNested.addrs ∧ (parsed descrNested).EdgeLengths = true ∧
          (((parsed descrNested).heap y).Leaf = true ∨ some y ≠ (parsed descrNested).Root) ∧
          v = ((parsed descrNested).heap y).Length) ∧
    (∃ out, WriteNoQuote 6 (parsed descrNested) = some out ∧
      ∀ (y : Nat) (v : FP), OutItem.length y v ∈ out ↔
        y ∈ shapeNested.addrs ∧ (parsed descrNested).EdgeLengths = true ∧
          (((parsed descrNested).heap y).Leaf = true ∨ some y ≠ (parsed descrNested).Root) ∧
          v = ((parsed descrNested).heap y).Length) :=
  ⟨parsed_descrNested_wellFormed.1, parsed_descrNested_wellFormed.2, by decide,
    Write_edge_lengths (parsed descrNested) shapeNested parsed_descrNested_wellFormed.1
      parsed_descrNested_wellFormed.2 6 (by decide)⟩

/-! ## CopyOfSubtree -/

theorem relabel_size : ∀ (S : BT) (b : Nat), (S.relabel b).size = S.size := by
  intro S
  induction S with
  | nil => intro b; rfl
  | node x c s ihc ihs => intro b; simp [BT.relabel, BT.size, ihc, ihs]

theorem relabel_addrs : ∀ (S : BT) (b : Nat), (S.relabel b).addrs = List.range' b S.size := by
  intro S
  induction S with
  | nil => intro b; rfl
  | node x c s ihc ihs =>
    intro b
    have e : 1 + c.size + s.size = (s.size + c.size) + 1 := by omega
    simp only [BT.relabel, BT.addrs, BT.size, ihc, ihs, e, List.range'_succ]
    rw [List.range'_append_1]

theorem relabel_mem (S : BT) (b y : Nat) :
    y ∈ (S.relabel b).addrs ↔ b ≤ y ∧ y < b + S.size := by
  rw [relabel_addrs, List.mem_range'_1]

theorem relabel_nodup (S : BT) (b : Nat) : (S.relabel b).addrs.Nodup := by
  rw [relabel_addrs]; exact List.nodup_range' b S.size

theorem tops_subset : ∀ (S : BT) (y : Nat), y ∈ S.tops → y ∈ S.addrs := by
  intro S
  induction S with
  | nil => intro y hy; simp [BT.tops] at hy
  | node x c s _ ihs =>
    intro y hy
    simp only [BT.tops, List.mem_cons] at hy
    rcases hy with rfl | hy
    · simp [BT.addrs]
    · simp [BT.addrs, ihs y hy]

theorem prune_ptr (cur : Option Nat) (S : BT) : (S.prune cur).ptr = S.ptr := by
  cases S <;> rfl

theorem prune_size_le (cur : Option Nat) : ∀ S : BT, (S.prune cur).size ≤ S.size := by
  intro S
  induction S with
  | nil => exact Nat.le_refl _
  | node x c s ihc ihs =>
    by_cases hx : some x = cur
    · simp only [BT.prune, hx, if_true, BT.size]; omega
    · simp only [BT.prune, hx, if_false, BT.size]; omega

theorem prune_of_not_mem (x : Nat) : ∀ S : BT, x ∉ S.addrs → S.prune (some x) = S := by
  intro S
  induction S with
  | nil => intro _; rfl
  | node y c s ihc ihs =>
    intro hx
    simp only [BT.addrs, List.mem_cons, List.mem_append, not_or] at hx
    have hy : ¬ some y = some x := fun e => hx.1 (Option.some.inj e).symm
    simp [BT.prune, hy, ihc hx.2.1, ihs hx.2.2]

theorem prune_mem (cur : Option Nat) : ∀ (S : BT) (y : Nat),
    y ∈ (S.prune cur).addrs → y ∈ S.addrs := by
  intro S
  induction S with
  | nil => intro y hy; exact hy
  | node x c s ihc ihs =>
    intro y hy
    by_cases hx : some x = cur
    · simp only [BT.prune, hx, if_true, BT.addrs, List.mem_cons, List.mem_append,
        List.not_mem_nil, or_false] at hy ⊢
      rcases hy with rfl | hy
      · exact Or.inl rfl
      · exact Or.inr (Or.inl (ihc y hy))
    · simp only [BT.prune, hx, if_false, BT.addrs, List.mem_cons, List.mem_append] at hy ⊢
      rcases hy with rfl | hy | hy
      · exact Or.inl rfl
      · exact Or.inr (Or.inl (ihc y hy))
      · exact Or.inr (Or.inr (ihs y hy))

theorem SameData.rfl (n : Node) : n.SameData n :=
  ⟨Eq.refl _, Eq.refl _, Eq.refl _, Eq.refl _, Eq.refl _, Eq.refl _, Eq.refl _, Eq.refl _,
    Eq.refl _⟩

theorem SameData.chain (n m k : Node) (h1 : n.SameData m) (h2 : m.SameData k) :
    n.SameData k := by
  obtain ⟨a1, a2, a3, a4, a5, a6, a7, a8, a9⟩ := h1
  obtain ⟨b1, b2, b3, b4, b5, b6, b7, b8, b9⟩ := h2
  exact ⟨b1.trans a1, b2.trans a2, b3.trans a3, b4.trans a4, b5.trans a5, b6.trans a6,
    b7.trans a7, b8.trans a8, b9.trans a9⟩

theorem Copied_congr (h h1 g g1 : Heap) : ∀ (S : BT) (b : Nat),
    (∀ x ∈ S.addrs, g x = h x) →
    (∀ y, b ≤ y → y < b + S.size → (h1 y).SameData (g1 y)) →
    Copied h h1 b S → Copied g g1 b S := by
  intro S
  induction S with
  | nil => intro _ _ _ _; trivial
  | node x c s ihc ihs =>
    intro b hx hy hc
    obtain ⟨h0, hcc, hcs⟩ := hc
    simp only [BT.size] at hy
    refine ⟨?_, ihc (b + 1) (fun z hz => hx z (by simp [BT.addrs, hz]))
      (fun y h1 h2 => hy y (by omega) (by omega)) hcc,
      ihs (b + 1 + c.size) (fun z hz => hx z (by simp [BT.addrs, hz]))
      (fun y h1 h2 => hy y (by omega) (by omega)) hcs⟩
    rw [hx x (by simp [BT.addrs])]
    exact SameData.chain _ _ _ h0 (hy b (Nat.le_refl _) (by omega))

theorem Rep_retop (h h1 : Heap) (a1 : Option Nat) : ∀ (C : BT) (a : Option Nat),
    Rep h a C → C.addrs.Nodup →
    (∀ y ∈ C.tops, h1 y = { h y with Anc := a1 }) →
    (∀ y ∈ C.addrs, y ∉ C.tops → h1 y = h y) → Rep h1 a1 C := by
  intro C
  induction C with
  | nil => intro _ _ _ _ _; trivial
  | node x c s _ ihs =>
    intro a hr hnd ht hn
    obtain ⟨_, h2, h3, h4, h5⟩ := hr
    simp only [BT.addrs, List.nodup_cons, List.mem_append, not_or, List.nodup_append] at hnd
    obtain ⟨⟨hxc, hxs⟩, hcn, hsn, hdis⟩ := hnd
    have hx := ht x (by simp [BT.tops])
    refine ⟨by rw [hx], by rw [hx]; exact h2, by rw [hx]; exact h3, ?_, ?_⟩
    · refine Rep_agree h h1 c (some x) (fun y hy => hn y (by simp [BT.addrs, hy]) ?_) h4
      simp only [BT.tops, List.mem_cons, not_or]
      exact ⟨fun e => hxc (e ▸ hy), fun hys => hdis hy (tops_subset s y hys)⟩
    · refine ihs a h5 hsn (fun y hy => ht y (by simp [BT.tops, hy])) ?_
      intro y hy hyt
      refine hn y (by simp [BT.addrs, hy]) ?_
      simp only [BT.tops, List.mem_cons, not_or]
      exact ⟨fun e => hxs (e ▸ hy), hyt⟩

theorem setAncLoop_chain (p2 : Nat) : ∀ (C : BT) (a : Option Nat) (fuel : Nat) (h : Heap),
    Rep h a C → C.addrs.Nodup → C.size < fuel →
    ∃ h1, setAncLoop fuel h C.ptr p2 = some h1 ∧
      (∀ y ∈ C.tops, h1 y = { h y with Anc := some p2 }) ∧
      (∀ y, y ∉ C.tops → h1 y = h y) := by
  intro C
  induction C with
  | nil =>
    intro a fuel h _ _ hf
    obtain ⟨n, rfl⟩ : ∃ n, fuel = n + 1 := ⟨fuel - 1, by simp [BT.size] at hf; omega⟩
    exact ⟨h, by simp [BT.ptr, setAncLoop], by simp [BT.tops], fun _ _ => rfl⟩
  | node x c s _ ihs =>
    intro a fuel h hr hnd hf
    obtain ⟨n, rfl⟩ : ∃ n, fuel = n + 1 := ⟨fuel - 1, by omega⟩
    obtain ⟨_, _, h3, _, h5⟩ := hr
    simp only [BT.addrs, List.nodup_cons, List.mem_append, not_or, List.nodup_append] at hnd
    obtain ⟨⟨_, hxs⟩, _, hsn, _⟩ := hnd
    have hss : s.size < n := by simp only [BT.size] at hf; omega
    have hr1 : Rep (h.modify x fun m => { m with Anc := some p2 }) a s := by
      refine Rep_agree h _ s a (fun y hy => ?_) h5
      have : y ≠ x := fun e => hxs (e ▸ hy)
      simp [Heap.modify, Heap.set, this]
    obtain ⟨h1, e1, ht, hn⟩ := ihs a n _ hr1 hsn hss
    refine ⟨h1, ?_, ?_, ?_⟩
    · simp only [BT.ptr, setAncLoop]
      have : ((h.modify x fun m => { m with Anc := some p2 }) x).Sib = s.ptr := by
        simp [Heap.modify, Heap.set, h3]
      rw [this, e1]
    · intro y hy
      simp only [BT.tops, List.mem_cons] at hy
      by_cases hyx : y = x
      · subst hyx
        rw [hn y (fun hys => hxs (tops_subset s y hys))]
        simp [Heap.modify, Heap.set]
      · have hys : y ∈ s.tops := by tauto
        rw [ht y hys]
        simp [Heap.modify, Heap.set, hyx]
    · intro y hy
      simp only [BT.tops, List.mem_cons, not_or] at hy
      rw [hn y hy.2]
      simp [Heap.modify, Heap.set, hy.1]

theorem assign_next (slot : Slot) (st : CopyRun) (q : Nat) :
    (slot.assign st q).tree.next = st.tree.next := by
  cases slot <;> rfl

theorem assign_frame (slot : Slot) (st : CopyRun) (q : Nat) :
    (slot.assign st q).tree.frame = st.tree.frame := by
  cases slot <;> rfl

theorem assign_heap_low (N b : Nat) (slot : Slot) (st : CopyRun) (q y : Nat)
    (hs : slot.Fresh N b) (hy : y < N) : (slot.assign st q).tree.heap y = st.tree.heap y := by
  cases slot with
  | placeHolder => rfl
  | Child n =>
    have : y ≠ n := by have := hs.1; omega
    simp [Slot.assign, Heap.modify, Heap.set, this]
  | Sib n =>
    have : y ≠ n := by have := hs.1; omega
    simp [Slot.assign, Heap.modify, Heap.set, this]

theorem store_next (slot : Slot) (st : CopyRun) (v : Option Nat) :
    (slot.store st v).tree.next = st.tree.next := by
  cases v with
  | none => rfl
  | some q => exact assign_next slot st q

theorem store_heap_low (N b : Nat) (slot : Slot) (st : CopyRun) (v : Option Nat) (y : Nat)
    (hs : slot.Fresh N b) (hy : y < N) : (slot.store st v).tree.heap y = st.tree.heap y := by
  cases v with
  | none => rfl
  | some q => exact assign_heap_low N b slot st q y hs hy

theorem copyStart_facts (N : Nat) (st : CopyRun) (x : Nat) (slot : Slot)
    (hs : slot.Fresh N st.tree.next) (hN : N ≤ st.tree.next) (hx : x < N) :
    (copyStart st x slot).tree.next = st.tree.next + 1 ∧
    (copyStart st x slot).tree.frame = st.tree.frame ∧
    (copyStart st x slot).placeHolder = (slot.assign st st.tree.next).placeHolder ∧
    (copyStart st x slot).tree.heap st.tree.next = (st.tree.heap x).Copy {} ∧
    (∀ y, y < st.tree.next →
      (copyStart st x slot).tree.heap y = (slot.assign st st.tree.next).tree.heap y) := by
  have hxb : x ≠ st.tree.next := by omega
  cases slot with
  | placeHolder =>
    refine ⟨rfl, rfl, rfl, ?_, ?_⟩
    · simp [copyStart, Slot.assign, Tree.NewNode, Heap.modify, Heap.set, hxb]
    · intro y hy
      have : y ≠ st.tree.next := by omega
      simp [copyStart, Slot.assign, Tree.NewNode, Heap.modify, Heap.set, this]
  | Child n =>
    have hnb : st.tree.next ≠ n := by have := hs.2; omega
    have hxn : x ≠ n := by have := hs.1; omega
    refine ⟨rfl, rfl, rfl, ?_, ?_⟩
    · simp [copyStart, Slot.assign, Tree.NewNode, Heap.modify, Heap.set, hxb, hnb, hxn]
    · intro y hy
      have : y ≠ st.tree.next := by omega
      by_cases hyn : y = n
      · subst hyn
        simp [copyStart, Slot.assign, Tree.NewNode, Heap.modify, Heap.set, this]
      · simp [copyStart, Slot.assign, Tree.NewNode, Heap.modify, Heap.set, this, hyn]
  | Sib n =>
    have hnb : st.tree.next ≠ n := by have := hs.2; omega
    have hxn : x ≠ n := by have := hs.1; omega
    refine ⟨rfl, rfl, rfl, ?_, ?_⟩
    · simp [copyStart, Slot.assign, Tree.NewNode, Heap.modify, Heap.set, hxb, hnb, hxn]
    · intro y hy
      have : y ≠ st.tree.next := by omega
      by_cases hyn : y = n
      · subst hyn
        simp [copyStart, Slot.assign, Tree.NewNode, Heap.modify, Heap.set, this]
      · simp [copyStart, Slot.assign, Tree.NewNode, Heap.modify, Heap.set, this, hyn]

theorem CopyPost_nil (st : CopyRun) (slot : Slot) : CopyPost st st slot BT.nil :=
  ⟨rfl, rfl, rfl, fun _ _ => rfl, trivial, trivial⟩

theorem copyTraverse_null (fuel : Nat) (st : CopyRun) (slot : Slot) :
    copyTraverse (fuel + 1) st none slot = some st := by
  simp [copyTraverse]

theorem with_Child_self (m : Node) (v : Option Nat) (h : m.Child = v) :
    { m with Child := v } = m := by
  cases m; simp only at h; subst h; rfl

theorem with_Sib_self (m : Node) (v : Option Nat) (h : m.Sib = v) :
    { m with Sib := v } = m := by
  cases m; simp only at h; subst h; rfl

theorem store_child_at (n : Nat) (st : CopyRun) (v : Option Nat)
    (h : (st.tree.heap n).Child = none) :
    ((Slot.Child n).store st v).tree.heap n = { st.tree.heap n with Child := v } := by
  cases v with
  | none => exact (with_Child_self _ _ h).symm
  | some q => simp [Slot.store, Slot.assign, Heap.modify, Heap.set]

theorem store_child_ne (n : Nat) (st : CopyRun) (v : Option Nat) (y : Nat) (h : y ≠ n) :
    ((Slot.Child n).store st v).tree.heap y = st.tree.heap y := by
  cases v with
  | none => rfl
  | some q => simp [Slot.store, Slot.assign, Heap.modify, Heap.set, h]

theorem store_child_ph (n : Nat) (st : CopyRun) (v : Option Nat) :
    ((Slot.Child n).store st v).placeHolder = st.placeHolder := by
  cases v <;> rfl

theorem store_sib_at (n : Nat) (st : CopyRun) (v : Option Nat)
    (h : (st.tree.heap n).Sib = none) :
    ((Slot.Sib n).store st v).tree.heap n = { st.tree.heap n with Sib := v } := by
  cases v with
  | none => exact (with_Sib_self _ _ h).symm
  | some q => simp [Slot.store, Slot.assign, Heap.modify, Heap.set]

theorem store_sib_ne (n : Nat) (st : CopyRun) (v : Option Nat) (y : Nat) (h : y ≠ n) :
    ((Slot.Sib n).store st v).tree.heap y = st.tree.heap y := by
  cases v with
  | none => rfl
  | some q => simp [Slot.store, Slot.assign, Heap.modify, Heap.set, h]

theorem store_sib_ph (n : Nat) (st : CopyRun) (v : Option Nat) :
    ((Slot.Sib n).store st v).placeHolder = st.placeHolder := by
  cases v <;> rfl

theorem Copy_sameData (n : Node) : n.SameData (n.Copy {}) :=
  ⟨rfl, rfl, rfl, rfl, rfl, rfl, rfl, rfl, rfl⟩

theorem copy_node_leafless (N : Nat) (st st3 st5 : CopyRun) (slot : Slot) (x : Nat)
    (s : BT) (fuel : Nat)
    (hs : slot.Fresh N st.tree.next) (hN : N ≤ st.tree.next) (hx : x < N)
    (hsN : ∀ y ∈ s.addrs, y < N)
    (h3 : CopyPost (copyStart st x slot) st3 (Slot.Child st.tree.next) BT.nil)
    (h5 : CopyPost (setChildAnc st3 st.tree.next) st5 (Slot.Sib st.tree.next) s) :
    ∃ st6, setSibAncs fuel st5 st.tree.next = some st6 ∧
      CopyPost st st6 slot (BT.node x BT.nil s) := by
  obtain ⟨f1, f2, f3, f4, f5⟩ := copyStart_facts N st x slot hs hN hx
  obtain ⟨a1, a2, a3, a4, _, _⟩ := h3
  rw [f1] at a1 a4
  simp only [BT.relabel, BT.ptr, Slot.store, BT.size, Nat.add_zero] at a1 a3 a4
  have hb3 : st3.tree.heap st.tree.next = (st.tree.heap x).Copy {} :=
    (a4 _ (by omega)).trans f4
  have hlow3 : ∀ y, y < st.tree.next →
      st3.tree.heap y = (slot.assign st st.tree.next).tree.heap y :=
    fun y hy => (a4 y (by omega)).trans (f5 y hy)
  have e4 : setChildAnc st3 st.tree.next = st3 := by
    unfold setChildAnc; rw [hb3]; rfl
  rw [e4] at h5
  obtain ⟨c1, c2, c3, c4, c5, c6⟩ := h5
  rw [a1] at c1 c3 c4 c5 c6
  have hb5 : st5.tree.heap st.tree.next =
      { (st.tree.heap x).Copy {} with
        Sib := (s.relabel (st.tree.next + 1)).ptr } := by
    rw [c4 _ (by omega), store_sib_at _ _ _ (by rw [hb3]; rfl), hb3]
  have hlow5 : ∀ y, y < st.tree.next → st5.tree.heap y = st3.tree.heap y :=
    fun y hy => by rw [c4 y (by omega), store_sib_ne _ _ _ _ (by omega)]
  refine ⟨st5, ?_, ?_, ?_, ?_, ?_, ?_, ?_⟩
  · unfold setSibAncs; rw [hb5]; rfl
  · rw [c1]; simp only [BT.size]; omega
  · rw [c2, a2, f2]
  · rw [c3, store_sib_ph, a3, f3]; rfl
  · intro y hy
    rw [hlow5 y hy, hlow3 y hy]; rfl
  · refine ⟨by rw [hb5]; rfl, by rw [hb5]; rfl, by rw [hb5]; rfl, trivial, ?_⟩
    simpa [BT.size] using c5
  · refine ⟨by rw [hb5]; exact Copy_sameData _, trivial, ?_⟩
    have : Copied st.tree.heap st5.tree.heap (st.tree.next + 1) s := by
      refine Copied_congr st3.tree.heap st5.tree.heap _ _ s _ (fun y hy => ?_)
        (fun y _ _ => SameData.rfl _) c6
      have hyN := hsN y hy
      rw [hlow3 y (by omega), assign_heap_low N _ slot st _ y hs hyN]
    simpa [BT.size] using this

theorem with_Anc_sameData (m : Node) (v : Option Nat) : m.SameData { m with Anc := v } :=
  ⟨rfl, rfl, rfl, rfl, rfl, rfl, rfl, rfl, rfl⟩

theorem copy_node_inner (N : Nat) (st st3 st5 : CopyRun) (slot : Slot) (x x1 : Nat)
    (c1 s1 s : BT) (fuel : Nat)
    (hs : slot.Fresh N st.tree.next) (hN : N ≤ st.tree.next) (hx : x < N)
    (hcN : ∀ y ∈ (BT.node x1 c1 s1).addrs, y < N) (hsN : ∀ y ∈ s.addrs, y < N)
    (h3 : CopyPost (copyStart st x slot) st3 (Slot.Child st.tree.next) (BT.node x1 c1 s1))
    (h5 : CopyPost (setChildAnc st3 st.tree.next) st5 (Slot.Sib st.tree.next) s)
    (hf : (BT.node x1 c1 s1).size < fuel) :
    ∃ st6, setSibAncs fuel st5 st.tree.next = some st6 ∧
      CopyPost st st6 slot (BT.node x (BT.node x1 c1 s1) s) := by
  obtain ⟨f1, f2, f3, f4, f5⟩ := copyStart_facts N st x slot hs hN hx
  obtain ⟨a1, a2, a3, a4, a5, a6⟩ := h3
  rw [f1] at a1 a3 a4 a5 a6
  have hCp : ((BT.node x1 c1 s1).relabel (st.tree.next + 1)).ptr = some (st.tree.next + 1) :=
    rfl
  have hb3 : st3.tree.heap st.tree.next =
      { (st.tree.heap x).Copy {} with Child := some (st.tree.next + 1) } := by
    rw [a4 _ (by omega), store_child_at _ _ _ (by rw [f4]; rfl), f4, hCp]
  have hlow3 : ∀ y, y < st.tree.next →
      st3.tree.heap y = (slot.assign st st.tree.next).tree.heap y :=
    fun y hy => by rw [a4 y (by omega), store_child_ne _ _ _ _ (by omega), f5 y hy]
  obtain ⟨st4, e4, g1, g2, g3, g4⟩ : ∃ st4, setChildAnc st3 st.tree.next = st4 ∧
      st4.tree.next = st3.tree.next ∧ st4.tree.frame = st3.tree.frame ∧
      st4.placeHolder = st3.placeHolder ∧
      st4.tree.heap = st3.tree.heap.modify (st.tree.next + 1) fun m =>
        { m with Anc := some st.tree.next } := by
    refine ⟨_, rfl, ?_, ?_, ?_, ?_⟩ <;> (unfold setChildAnc; rw [hb3]; try rfl)
  rw [e4] at h5
  obtain ⟨c1a, c2, c3, c4, c5, c6⟩ := h5
  rw [g1, a1] at c1a c3 c4 c5 c6
  rw [g4] at c6
  have hne : st.tree.next ≠ st.tree.next + 1 := by omega
  have h4b : st4.tree.heap st.tree.next = st3.tree.heap st.tree.next := by
    rw [g4]; simp [Heap.modify, Heap.set, hne]
  have hb5 : st5.tree.heap st.tree.next =
      { (st.tree.heap x).Copy {} with
        Child := some (st.tree.next + 1)
        Sib := (s.relabel (st.tree.next + 1 + (BT.node x1 c1 s1).size)).ptr } := by
    rw [c4 _ (by omega), store_sib_at _ _ _ (by rw [h4b, hb3]; rfl), h4b, hb3]
  have h54 : ∀ y, y ≠ st.tree.next → y < st.tree.next + 1 + (BT.node x1 c1 s1).size →
      st5.tree.heap y = (st3.tree.heap.modify (st.tree.next + 1) fun m =>
        { m with Anc := some st.tree.next }) y :=
    fun y hy1 hy2 => by rw [c4 y hy2, store_sib_ne _ _ _ _ hy1, g4]
  have h53 : ∀ y, y ≠ st.tree.next → y ≠ st.tree.next + 1 →
      y < st.tree.next + 1 + (BT.node x1 c1 s1).size → st5.tree.heap y = st3.tree.heap y :=
    fun y hy1 hy2 hy3 => by rw [h54 y hy1 hy3]; simp [Heap.modify, Heap.set, hy2]
  have h5c : st5.tree.heap (st.tree.next + 1) =
      { st3.tree.heap (st.tree.next + 1) with Anc := some st.tree.next } := by
    rw [h54 _ (by omega) (by simp only [BT.size]; omega)]; simp [Heap.modify, Heap.set]
  -- the chain of the younger children
  have a5c := a5
  obtain ⟨_, _, hsib1, _, hrS1⟩ := a5c
  have hS1mem : ∀ y ∈ (s1.relabel (st.tree.next + 1 + 1 + c1.size)).addrs,
      st.tree.next + 1 < y ∧ y < st.tree.next + 1 + (BT.node x1 c1 s1).size := by
    intro y hy
    rw [relabel_mem] at hy
    simp only [BT.size]; omega
  have hrS5 : Rep st5.tree.heap none (s1.relabel (st.tree.next + 1 + 1 + c1.size)) :=
    Rep_agree st3.tree.heap st5.tree.heap _ none
      (fun y hy => h53 y (by have := hS1mem y hy; omega) (by have := hS1mem y hy; omega)
        (hS1mem y hy).2) hrS1
  obtain ⟨h6, e6, ht, hn⟩ := setAncLoop_chain st.tree.next
    (s1.relabel (st.tree.next + 1 + 1 + c1.size)) none fuel st5.tree.heap hrS5
    (relabel_nodup _ _) (by rw [relabel_size]; simp only [BT.size] at hf; omega)
  have htops : ∀ y, y ∈ ((BT.node x1 c1 s1).relabel (st.tree.next + 1)).tops ↔
      y = st.tree.next + 1 ∨ y ∈ (s1.relabel (st.tree.next + 1 + 1 + c1.size)).tops := by
    intro y; simp [BT.relabel, BT.tops]
  have hS1t : ∀ y ∈ (s1.relabel (st.tree.next + 1 + 1 + c1.size)).tops,
      st.tree.next + 1 < y ∧ y < st.tree.next + 1 + (BT.node x1 c1 s1).size :=
    fun y hy => hS1mem y (tops_subset _ y hy)
  have hout : ∀ y, (y ≤ st.tree.next + 1 ∨ st.tree.next + 1 + (BT.node x1 c1 s1).size ≤ y) →
      h6 y = st5.tree.heap y :=
    fun y hy => hn y (fun hyt => by have := hS1t y hyt; omega)
  have hC1 : ∀ y ∈ ((BT.node x1 c1 s1).relabel (st.tree.next + 1)).tops,
      h6 y = { st3.tree.heap y with Anc := some st.tree.next } := by
    intro y hy
    rcases (htops y).1 hy with rfl | hy
    · rw [hout _ (Or.inl (Nat.le_refl _)), h5c]
    · have := hS1t y hy
      rw [ht y hy, h53 y (by omega) (by omega) this.2]
  have hC2 : ∀ y ∈ ((BT.node x1 c1 s1).relabel (st.tree.next + 1)).addrs,
      y ∉ ((BT.node x1 c1 s1).relabel (st.tree.next + 1)).tops → h6 y = st3.tree.heap y := by
    intro y hy hyt
    rw [htops] at hyt
    rw [relabel_mem] at hy
    rw [hn y (fun h => hyt (Or.inr h)), h53 y (by omega) (fun e => hyt (Or.inl e)) hy.2]
  refine ⟨{ st5 with tree := { st5.tree with heap := h6 } }, ?_, ?_, ?_, ?_, ?_, ?_, ?_⟩
  · unfold setSibAncs
    rw [hb5]
    simp only []
    rw [h5c]
    simp only []
    rw [hsib1, e6]
    rfl
  · show st5.tree.next = _
    rw [c1a]; simp only [BT.size]; omega
  · show st5.tree.frame = _
    rw [c2, g2]
    exact a2.trans f2
  · show st5.placeHolder = _
    rw [c3, store_sib_ph, g3, a3, store_child_ph, f3]; rfl
  · intro y hy
    show h6 y = _
    rw [hout y (Or.inl (by omega)), h53 y (by omega) (by omega) (by omega), hlow3 y hy]; rfl
  · show Rep h6 none _
    refine ⟨?_, ?_, ?_, ?_, ?_⟩
    · rw [hout _ (Or.inl (by omega)), hb5]; rfl
    · rw [hout _ (Or.inl (by omega)), hb5]; rfl
    · rw [hout _ (Or.inl (by omega)), hb5]
    · exact Rep_retop st3.tree.heap h6 (some st.tree.next) _ none a5 (relabel_nodup _ _)
        hC1 hC2
    · refine Rep_agree st5.tree.heap h6 _ none (fun y hy => ?_) c5
      rw [relabel_mem] at hy
      exact hout y (Or.inr hy.1)
  · show Copied st.tree.heap h6 _ _
    refine ⟨?_, ?_, ?_⟩
    · rw [hout _ (Or.inl (by omega)), hb5]; exact Copy_sameData _
    · refine Copied_congr _ st3.tree.heap _ _ _ _ (fun y hy => ?_) (fun y hy1 hy2 => ?_) a6
      · have hyN := hcN y hy
        rw [f5 y (by omega), assign_heap_low N _ slot st _ y hs hyN]
      · by_cases hyt : y ∈ ((BT.node x1 c1 s1).relabel (st.tree.next + 1)).tops
        · rw [hC1 y hyt]; exact with_Anc_sameData _ _
        · rw [hC2 y ((relabel_mem _ _ _).2 ⟨hy1, hy2⟩) hyt]; exact SameData.rfl _
    · refine Copied_congr _ st5.tree.heap _ _ _ _ (fun y hy => ?_) (fun y hy1 hy2 => ?_) c6
      · have hyN := hsN y hy
        have e1 : y ≠ st.tree.next + 1 := by omega
        simp only [Heap.modify, Heap.set, e1, if_false]
        rw [hlow3 y (by omega), assign_heap_low N _ slot st _ y hs hyN]
      · rw [hout y (Or.inr hy1)]; exact SameData.rfl _

theorem frame_CurNode (t t1 : Tree) (h : t1.frame = t.frame) : t1.CurNode = t.CurNode := by
  have h1 := congrArg Tree.CurNode h
  exact h1

theorem setChildAnc_facts (N : Nat) (st st3 : CopyRun) (slot : Slot) (x : Nat) (P : BT)
    (hs : slot.Fresh N st.tree.next) (hN : N ≤ st.tree.next) (hx : x < N)
    (h3 : CopyPost (copyStart st x slot) st3 (Slot.Child st.tree.next) P) :
    (setChildAnc st3 st.tree.next).tree.next = st3.tree.next ∧
    (setChildAnc st3 st.tree.next).tree.frame = st3.tree.frame ∧
    (∀ y, y < N → (setChildAnc st3 st.tree.next).tree.heap y = st.tree.heap y) := by
  obtain ⟨f1, f2, f3, f4, f5⟩ := copyStart_facts N st x slot hs hN hx
  obtain ⟨a1, a2, a3, a4, _, _⟩ := h3
  rw [f1] at a4
  have hlow3 : ∀ y, y < N → st3.tree.heap y = st.tree.heap y :=
    fun y hy => by
      rw [a4 y (by omega), store_child_ne _ _ _ _ (by omega), f5 y (by omega),
        assign_heap_low N _ slot st _ y hs hy]
  have hb3 : st3.tree.heap st.tree.next =
      { (st.tree.heap x).Copy {} with Child := (P.relabel (st.tree.next + 1)).ptr } := by
    rw [a4 _ (by omega), store_child_at _ _ _ (by rw [f4]; rfl), f4]
  cases P with
  | nil =>
    have e4 : setChildAnc st3 st.tree.next = st3 := by
      unfold setChildAnc; rw [hb3]; rfl
    rw [e4]
    exact ⟨rfl, rfl, hlow3⟩
  | node x1 c1 s1 =>
    refine ⟨?_, ?_, ?_⟩
    · unfold setChildAnc; rw [hb3]; rfl
    · unfold setChildAnc; rw [hb3]; rfl
    · intro y hy
      have e : (setChildAnc st3 st.tree.next).tree.heap =
          st3.tree.heap.modify (st.tree.next + 1) fun m =>
            { m with Anc := some st.tree.next } := by
        unfold setChildAnc; rw [hb3]; rfl
      have hyne : y ≠ st.tree.next + 1 := by omega
      rw [e, ← hlow3 y hy]
      simp [Heap.modify, Heap.set, hyne]

theorem copyTraverse_chain (N : Nat) (cur : Option Nat) : ∀ (S : BT) (fuel : Nat)
    (st : CopyRun) (slot : Slot) (a : Option Nat),
    st.tree.CurNode = cur → Rep st.tree.heap a S → (∀ y ∈ S.addrs, y < N) →
    N ≤ st.tree.next → slot.Fresh N st.tree.next → (S.prune cur).size < fuel →
    ∃ st1, copyTraverse fuel st S.ptr slot = some st1 ∧
      CopyPost st st1 slot (S.prune cur) := by
  intro S
  induction S with
  | nil =>
    intro fuel st slot a _ _ _ _ _ hf
    obtain ⟨n, rfl⟩ : ∃ n, fuel = n + 1 := ⟨fuel - 1, by simp [BT.prune, BT.size] at hf; omega⟩
    exact ⟨st, copyTraverse_null n st slot, CopyPost_nil st slot⟩
  | node x c s ihc ihs =>
    intro fuel st slot a hcur hrep hlt hN hs hf
    obtain ⟨n, rfl⟩ : ∃ n, fuel = n + 1 := ⟨fuel - 1, by simp [BT.prune, BT.size] at hf; omega⟩
    obtain ⟨_, hch, hsib, hrc, hrs⟩ := hrep
    have hx : x < N := hlt x (by simp [BT.addrs])
    have hcN : ∀ y ∈ c.addrs, y < N := fun y hy => hlt y (by simp [BT.addrs, hy])
    have hsN : ∀ y ∈ s.addrs, y < N := fun y hy => hlt y (by simp [BT.addrs, hy])
    obtain ⟨f1, f2, f3, f4, f5⟩ := copyStart_facts N st x slot hs hN hx
    have hlow2 : ∀ y, y < N → (copyStart st x slot).tree.heap y = st.tree.heap y :=
      fun y hy => by rw [f5 y (by omega), assign_heap_low N _ slot st _ y hs hy]
    have hpc : (c.prune cur).size < n := by
      by_cases hxc : some x = cur
      · simp only [BT.prune, hxc, if_true, BT.size] at hf; omega
      · simp only [BT.prune, hxc, if_false, BT.size] at hf; omega
    obtain ⟨st3, e3, h3⟩ := ihc n (copyStart st x slot) (Slot.Child st.tree.next) (some x)
      ((frame_CurNode _ _ f2).trans hcur)
      (Rep_agree st.tree.heap _ c (some x) (fun y hy => hlow2 y (hcN y hy)) hrc) hcN
      (by rw [f1]; omega) (by rw [f1]; exact ⟨hN, by omega⟩) hpc
    obtain ⟨g1, g2, g3⟩ := setChildAnc_facts N st st3 slot x _ hs hN hx h3
    have hn3 : st3.tree.next = st.tree.next + 1 + (c.prune cur).size := by
      rw [h3.1, f1]
    have hcur4 : (setChildAnc st3 st.tree.next).tree.CurNode = cur :=
      (frame_CurNode _ _ g2).trans ((frame_CurNode _ _ h3.2.1).trans
        ((frame_CurNode _ _ f2).trans hcur))
    have hsibling : ∃ st5,
        (if some x ≠ (setChildAnc st3 st.tree.next).tree.CurNode then
          copyTraverse n (setChildAnc st3 st.tree.next)
            ((setChildAnc st3 st.tree.next).tree.heap x).Sib (Slot.Sib st.tree.next)
        else some (setChildAnc st3 st.tree.next)) = some st5 ∧
        CopyPost (setChildAnc st3 st.tree.next) st5 (Slot.Sib st.tree.next)
          (if some x = cur then BT.nil else s.prune cur) := by
      rw [hcur4]
      by_cases hxc : some x = cur
      · simp only [hxc, ne_eq, not_true_eq_false, if_false, if_true]
        exact ⟨_, rfl, CopyPost_nil _ _⟩
      · simp only [hxc, ne_eq, not_false_eq_true, if_true, if_false]
        have hps : (s.prune cur).size < n := by
          simp only [BT.prune, hxc, if_false, BT.size] at hf; omega
        rw [g3 x hx, hsib]
        exact ihs n (setChildAnc st3 st.tree.next) (Slot.Sib st.tree.next) a hcur4
          (Rep_agree st.tree.heap _ s a (fun y hy => g3 y (hsN y hy)) hrs) hsN
          (by rw [g1, hn3]; omega) (by rw [g1, hn3]; exact ⟨hN, by omega⟩) hps
    obtain ⟨st5, e5, h5⟩ := hsibling
    have hsN1 : ∀ y ∈ (if some x = cur then BT.nil else s.prune cur).addrs, y < N := by
      intro y hy
      by_cases hxc : some x = cur
      · simp [hxc, BT.addrs] at hy
      · simp only [hxc, if_false] at hy
        exact hsN y (prune_mem cur s y hy)
    have hstep : ∃ st6, setSibAncs n st5 st.tree.next = some st6 ∧
        CopyPost st st6 slot
          (BT.node x (c.prune cur) (if some x = cur then BT.nil else s.prune cur)) := by
      cases hP : c.prune cur with
      | nil =>
        rw [hP] at h3
        exact copy_node_leafless N st st3 st5 slot x _ n hs hN hx hsN1 h3 h5
      | node x1 c1 s1 =>
        rw [hP] at h3 hpc
        have hcN1 : ∀ y ∈ (BT.node x1 c1 s1).addrs, y < N :=
          fun y hy => hcN y (prune_mem cur c y (hP ▸ hy))
        exact copy_node_inner N st st3 st5 slot x x1 c1 s1 _ n hs hN hx hcN1 hsN1 h3 h5 hpc
    obtain ⟨st6, e6, h6⟩ := hstep
    refine ⟨st6, ?_, h6⟩
    rw [show (BT.node x c s).ptr = some x from rfl]
    simp only [copyTraverse]
    rw [hlow2 x hx, hch, e3]
    simp only []
    rw [e5]
    exact e6

theorem relabel_skeleton : ∀ (S : BT) (b : Nat), (S.relabel b).skeleton = S.skeleton := by
  intro S
  induction S with
  | nil => intro b; rfl
  | node x c s ihc ihs => intro b; simp [BT.relabel, BT.skeleton, ihc, ihs]

theorem Copied_leaves (h h1 : Heap) : ∀ (S : BT) (b : Nat), Copied h h1 b S →
    leavesF h1 (S.relabel b) = leavesF h S ∧
      leafLabelsF h1 (S.relabel b) = leafLabelsF h S := by
  intro S
  induction S with
  | nil => intro b _; exact ⟨rfl, rfl⟩
  | node x c s ihc ihs =>
    intro b hc
    obtain ⟨hd, hcc, hcs⟩ := hc
    obtain ⟨e1, e2⟩ := ihc _ hcc
    obtain ⟨e3, e4⟩ := ihs _ hcs
    simp only [BT.relabel, leavesF, leafLabelsF, e1, e2, e3, e4, hd.1, hd.2.1]
    exact ⟨trivial, trivial⟩

/-- C20: `CopyOfSubtree` called on a node `x` whose children form the shape `cx`
(`sx` being the younger siblings of `x`, `anc` its ancestor), all of them allocated
and `x` not below itself, returns with enough fuel. The pointer returned is the first
newly created node; the `1 + cx.size` new nodes hold a tree of the same shape as the
subtree at `x`, children in the same order, whose root has neither ancestor nor
sibling and in which every other node has its parent in the copy as ancestor; node by
node the copy carries the leaf flag, label, index, leaf and label numbers, edge length
and SIMMAP fields of its original, so the number of leaves and the list of leaf labels
agree; no node that existed before is changed, and of the other fields of the tree
object only `CurNode` is. -/
theorem CopyOfSubtree_copy (t : Tree) (x : Nat) (cx sx : BT) (anc : Option Nat) (fuel : Nat)
    (hrep : Rep t.heap anc (BT.node x cx sx)) (hx : x ∉ cx.addrs)
    (hlt : ∀ y ∈ (BT.node x cx sx).addrs, y < t.next) (hf : cx.size + 1 < fuel) :
    ∃ t1, CopyOfSubtree fuel t (some x) = some (some t.next, t1) ∧
      t1.next = t.next + 1 + cx.size ∧
      t1.frame = { t with CurNode := some x }.frame ∧
      (∀ y, y < t.next → t1.heap y = t.heap y) ∧
      (∀ y ∈ ((BT.node x cx BT.nil).relabel t.next).addrs, t.next ≤ y ∧ y < t1.next) ∧
      ((BT.node x cx BT.nil).relabel t.next).skeleton = (BT.node x cx BT.nil).skeleton ∧
      Rep t1.heap none ((BT.node x cx BT.nil).relabel t.next) ∧
      Copied t.heap t1.heap t.next (BT.node x cx BT.nil) ∧
      leavesF t1.heap ((BT.node x cx BT.nil).relabel t.next) =
        leavesF t.heap (BT.node x cx BT.nil) ∧
      leafLabelsF t1.heap ((BT.node x cx BT.nil).relabel t.next) =
        leafLabelsF t.heap (BT.node x cx BT.nil) := by
  have hP : (BT.node x cx sx).prune (some x) = BT.node x cx BT.nil := by
    simp [BT.prune, prune_of_not_mem x cx hx]
  obtain ⟨st1, e1, p1, p2, p3, p4, p5, p6⟩ := copyTraverse_chain t.next (some x)
    (BT.node x cx sx) fuel { tree := { t with CurNode := some x } } Slot.placeHolder anc
    rfl hrep hlt (Nat.le_refl _) trivial (by rw [hP]; simp only [BT.size]; omega)
  rw [hP] at p1 p3 p4 p5 p6
  have hn : st1.tree.next = t.next + 1 + cx.size := by
    rw [p1]; simp only [BT.size]; omega
  refine ⟨st1.tree, ?_, hn, p2, fun y hy => p4 y hy, ?_, relabel_skeleton _ _, p5, p6,
    (Copied_leaves _ _ _ _ p6).1, (Copied_leaves _ _ _ _ p6).2⟩
  · unfold CopyOfSubtree
    have e2 : copyTraverse fuel { tree := { t with CurNode := some x } } (some x)
        Slot.placeHolder = some st1 := e1
    rw [e2]
    simp only [Option.map_some', p3]
    rfl
  · intro y hy
    have h1 := (relabel_mem _ _ _).1 hy
    rw [hn]
    simp only [BT.size] at h1
    omega

theorem CopyOfSubtree_example :
    (CopyOfSubtree 4 (parsed descrNested) (some 1)).map Prod.fst = some (some 5) ∧
    (CopyOfSubtree 4 (parsed descrNested) (some 1)).map (fun r => r.2.next) = some 8 ∧
    (CopyOfSubtree 4 (parsed descrNested) (some 1)).map
      (fun r => [5, 6, 7].map fun y => ((r.2.heap y).Anc, (r.2.heap y).Child, (r.2.heap y).Sib)) =
      some [(none, some 6, none), (some 5, none, some 7), (some 5, none, none)] ∧
    (CopyOfSubtree 4 (parsed descrNested) (some 1)).map
      (fun r => [5, 6, 7].map fun y => ((r.2.heap y).Label, (r.2.heap y).Length)) =
      some [("", 3), ("A", 1), ("B", 2)] := by
  refine ⟨?_, ?_, ?_, ?_⟩ <;> decide!

theorem parsed_descrNested_inner :
    Rep (parsed descrNested).heap (some 0)
      (BT.node 1 (BT.node 2 BT.nil (BT.node 3 BT.nil BT.nil)) (BT.node 4 BT.nil BT.nil)) ∧
    (∀ y ∈ (BT.node 1 (BT.node 2 BT.nil (BT.node 3 BT.nil BT.nil))
      (BT.node 4 BT.nil BT.nil)).addrs, y < (parsed descrNested).next) := by
  constructor
  · simp only [Rep, BT.ptr]
    decide!
  · simp only [BT.addrs]
    decide!

theorem CopyOfSubtree_copy_witness :
    Rep (parsed descrNested).heap (some 0)
      (BT.node 1 (BT.node 2 BT.nil (BT.node 3 BT.nil BT.nil)) (BT.node 4 BT.nil BT.nil)) ∧
    1 ∉ (BT.node 2 BT.nil (BT.node 3 BT.nil BT.nil)).addrs ∧
    (∀ y ∈ (BT.node 1 (BT.node 2 BT.nil (BT.node 3 BT.nil BT.nil))
      (BT.node 4 BT.nil BT.nil)).addrs, y < (parsed descrNested).next) ∧
    (BT.node 2 BT.nil (BT.node 3 BT.nil BT.nil)).size + 1 < 4 ∧
    ∃ t1, CopyOfSubtree 4 (parsed descrNested) (some 1) =
        some (some (parsed descrNested).next, t1) ∧
      t1.next = (parsed descrNested).next + 1 +
        (BT.node 2 BT.nil (BT.node 3 BT.nil BT.nil)).size ∧
      t1.frame = { parsed descrNested with CurNode := some 1 }.frame ∧
      (∀ y, y < (parsed descrNested).next → t1.heap y = (parsed descrNested).heap y) ∧
      (∀ y ∈ ((BT.node 1 (BT.node 2 BT.nil (BT.node 3 BT.nil BT.nil)) BT.nil).relabel
        (parsed descrNested).next).addrs, (parsed descrNested).next ≤ y ∧ y < t1.next) ∧
      ((BT.node 1 (BT.node 2 BT.nil (BT.node 3 BT.nil BT.nil)) BT.nil).relabel
        (parsed descrNested).next).skeleton =
        (BT.node 1 (BT.node 2 BT.nil (BT.node 3 BT.nil BT.nil)) BT.nil).skeleton ∧
      Rep t1.heap none ((BT.node 1 (BT.node 2 BT.nil (BT.node 3 BT.nil BT.nil)) BT.nil).relabel
        (parsed descrNested).next) ∧
      Copied (parsed descrNested).heap t1.heap (parsed descrNested).next
        (BT.node 1 (BT.node 2 BT.nil (BT.node 3 BT.nil BT.nil)) BT.nil) ∧
      leavesF t1.heap ((BT.node 1 (BT.node 2 BT.nil (BT.node 3 BT.nil BT.nil)) BT.nil).relabel
        (parsed descrNested).next) =
        leavesF (parsed descrNested).heap
          (BT.node 1 (BT.node 2 BT.nil (BT.node 3 BT.nil BT.nil)) BT.nil) ∧
      leafLabelsF t1.heap
        ((BT.node 1 (BT.node 2 BT.nil (BT.node 3 BT.nil BT.nil)) BT.nil).relabel
          (parsed descrNested).next) =
        leafLabelsF (parsed descrNested).heap
          (BT.node 1 (BT.node 2 BT.nil (BT.node 3 BT.nil BT.nil)) BT.nil) :=
  ⟨parsed_descrNested_inner.1, by decide, parsed_descrNested_inner.2, by decide,
    CopyOfSubtree_copy (parsed descrNested) 1 (BT.node 2 BT.nil (BT.node 3 BT.nil BT.nil))
      (BT.node 4 BT.nil BT.nil) (some 0) 4 parsed_descrNested_inner.1 (by decide)
      parsed_descrNested_inner.2 (by decide)⟩

/-! ## Error messages and the return tree -/

/-- C23 (code bug): `GetErrorMsg` gives "No error" for the code 0 and a message of
its own for five of the seven error codes, but for `errENDOFSTRING` it gives
"Syntax error", the very message of `errSYNTAX`. -/
theorem GetErrorMsg_endofstring (t : Tree) :
    GetErrorMsg { t with Error := ErrorCode.errENDOFSTRING } = "Syntax error" ∧
    GetErrorMsg { t with Error := ErrorCode.errENDOFSTRING } =
      GetErrorMsg { t with Error := ErrorCode.errSYNTAX } ∧
    GetErrorMsg { t with Error := ErrorCode.errNONE } = "No error" ∧
    GetErrorMsg { t with Error := ErrorCode.errMISSINGLPAR } = "Missing '('" ∧
    GetErrorMsg { t with Error := ErrorCode.errUNBALANCED } = "Unbalance parentheses" ∧
    GetErrorMsg { t with Error := ErrorCode.errSTACKNOTEMPTY } = "Stack not empty" ∧
    GetErrorMsg { t with Error := ErrorCode.errSEMICOLON } = "Expecting a semicolon" ∧
    GetErrorMsg { t with Error := ErrorCode.errTOOMANYMODELCATS } =
      "Too many states in Simmap code" :=
  ⟨rfl, rfl, rfl, rfl, rfl, rfl, rfl, rfl⟩

theorem castInt_ne_zero (n : Nat) (h : n % 4294967296 ≠ 0) : castInt n ≠ 0 := by
  unfold castInt
  split <;> omega

/-- C24 (code bug): whenever the return-tree stream holds a string whose length is
not a multiple of 2^32 (every non-empty string below 4 GiB), `hasRetTrees` answers
`false` and `getRetTree` returns the empty string instead of the tree. -/
theorem getRetTree_drops_tree (d : dlInterface) (index : Int)
    (h : d.rettree.utf8ByteSize % 4294967296 ≠ 0) :
    d.hasRetTrees = false ∧ d.getRetTree index = "" ∧ d.getRetTree index ≠ d.rettree := by
  have h0 := castInt_ne_zero _ h
  have hn : d.getNumRetTrees ≠ 0 := by
    unfold dlInterface.getNumRetTrees
    intro e
    rcases min_choice (castInt d.rettree.utf8ByteSize) 1 with h1 | h1
    · rw [h1] at e; exact h0 e
    · rw [h1] at e; exact one_ne_zero e
  have hh : d.hasRetTrees = false := by
    unfold dlInterface.hasRetTrees
    simpa using hn
  refine ⟨hh, by simp [dlInterface.getRetTree, hh], ?_⟩
  intro e
  simp only [dlInterface.getRetTree, hh] at e
  rw [← e] at h
  exact h rfl

theorem getRetTree_drops_tree_witness :
    ({ rettree := "(A,B);" } : dlInterface).rettree.utf8ByteSize % 4294967296 ≠ 0 ∧
    ({ rettree := "(A,B);" } : dlInterface).hasRetTrees = false ∧
    ({ rettree := "(A,B);" } : dlInterface).getRetTree 0 = "" ∧
    ({ rettree := "(A,B);" } : dlInterface).getRetTree 0 ≠
      ({ rettree := "(A,B);" } : dlInterface).rettree :=
  ⟨by decide, getRetTree_drops_tree { rettree := "(A,B);" } 0 (by decide)⟩

theorem hasRetTrees_empty : ({ rettree := "" } : dlInterface).hasRetTrees = true := by
  decide

/-! ## GetNodeDepths -/

theorem DepthsOK_agree (h h1 : Heap) : ∀ (S : BT) (d : Int),
    (∀ y ∈ S.addrs, h1 y = h y) → DepthsOK h d S → DepthsOK h1 d S := by
  intro S
  induction S with
  | nil => intro _ _ _; trivial
  | node x c s ihc ihs =>
    intro d hy hd
    refine ⟨by rw [hy x (by simp [BT.addrs])]; exact hd.1,
      ihc _ (fun y hy1 => hy y (by simp [BT.addrs, hy1])) hd.2.1,
      ihs _ (fun y hy1 => hy y (by simp [BT.addrs, hy1])) hd.2.2⟩

theorem clearDepth_links (n n1 : Node) (h : n1.clearDepth = n.clearDepth) :
    n1.Anc = n.Anc ∧ n1.Child = n.Child ∧ n1.Sib = n.Sib := by
  have h1 := congrArg Node.Anc h
  have h2 := congrArg Node.Child h
  have h3 := congrArg Node.Sib h
  exact ⟨h1, h2, h3⟩

theorem clearDepth_modify (h : Heap) (x y : Nat) (d : Int) :
    ((h.modify x fun n => { n with Depth := d }) y).clearDepth = (h y).clearDepth := by
  by_cases hy : y = x
  · subst hy; simp [Heap.modify, Heap.set, Node.clearDepth]
  · simp [Heap.modify, Heap.set, hy]

theorem getNodeDepth_chain : ∀ (S : BT) (fuel : Nat) (t : Tree) (a : Option Nat),
    Rep t.heap a S → S.addrs.Nodup → S.size < fuel →
    ∃ H : Heap, getNodeDepth fuel t S.ptr = some { t with heap := H } ∧
      DepthsOK H t.count S ∧ (∀ y, y ∉ S.addrs → H y = t.heap y) ∧
      (∀ y, (H y).clearDepth = (t.heap y).clearDepth) := by
  intro S
  induction S with
  | nil =>
    intro fuel t a _ _ hf
    obtain ⟨n, rfl⟩ : ∃ n, fuel = n + 1 := ⟨fuel - 1, by simp [BT.size] at hf; omega⟩
    exact ⟨t.heap, by simp [BT.ptr, getNodeDepth], trivial, fun _ _ => rfl, fun _ => rfl⟩
  | node x c s ihc ihs =>
    intro fuel t a hrep hnd hf
    obtain ⟨n, rfl⟩ : ∃ n, fuel = n + 1 := ⟨fuel - 1, by omega⟩
    obtain ⟨hanc, hch, hsib, hrc, hrs⟩ := hrep
    simp only [BT.addrs, List.nodup_cons, List.mem_append, not_or, List.nodup_append] at hnd
    obtain ⟨⟨hxc, hxs⟩, hcn, hsn, hdis⟩ := hnd
    simp only [BT.size] at hf
    have hrc2 : Rep (t.heap.modify x fun n => { n with Depth := t.count }) (some x) c :=
      Rep_congr t.heap _ c _
        (fun y _ => clearDepth_links _ _ (clearDepth_modify t.heap x y t.count)) hrc
    obtain ⟨H3, e3, d3, f3, g3⟩ := ihc n
      { t with heap := t.heap.modify x fun n => { n with Depth := t.count }
               count := t.count + 1 } (some x) hrc2 hcn (by omega)
    have f3 : ∀ y, y ∉ c.addrs →
        H3 y = (t.heap.modify x fun n => { n with Depth := t.count }) y := f3
    have hx3 : H3 x = { t.heap x with Depth := t.count } := by
      rw [f3 x hxc]; simp [Heap.modify, Heap.set]
    have g30 : ∀ y, (H3 y).clearDepth = (t.heap y).clearDepth :=
      fun y => (g3 y).trans (clearDepth_modify t.heap x y t.count)
    have hrs4 : Rep H3 a s :=
      Rep_congr t.heap _ s _ (fun y _ => clearDepth_links _ _ (g30 y)) hrs
    obtain ⟨H5, e5, d5, f5, g5⟩ := ihs n { t with heap := H3 } a hrs4 hsn (by omega)
    have d5 : DepthsOK H5 t.count s := d5
    have f5 : ∀ y, y ∉ s.addrs → H5 y = H3 y := f5
    have g5 : ∀ y, (H5 y).clearDepth = (H3 y).clearDepth := g5
    refine ⟨H5, ?_, ⟨?_, ?_, d5⟩, ?_, fun y => (g5 y).trans (g30 y)⟩
    · rw [show (BT.node x c s).ptr = some x from rfl]
      simp only [getNodeDepth]
      have e1 : ((t.heap.modify x fun n => { n with Depth := t.count }) x).Child = c.ptr := by
        simp [Heap.modify, Heap.set, hch]
      rw [e1, e3]
      simp only [add_sub_cancel_right]
      have e2 : (H3 x).Sib = s.ptr := by rw [hx3]; exact hsib
      rw [e2, e5]
    · rw [f5 x hxs, hx3]
    · exact DepthsOK_agree H3 H5 c _ (fun y hy => f5 y (fun hys => hdis hy hys)) d3
    · intro y hy
      simp only [BT.addrs, List.mem_cons, List.mem_append, not_or] at hy
      rw [f5 y hy.2.2, f3 y hy.2.1]
      simp [Heap.modify, Heap.set, hy.1]

theorem DepthsOK_anc (h : Heap) : ∀ (S : BT) (d : Int) (anc : Option Nat),
    DepthsOK h d S → Rep h anc S → (∀ a, anc = some a → d = (h a).Depth + 1) →
    (anc = none → d = 0) →
    ∀ x ∈ S.addrs, (∀ a, (h x).Anc = some a → (h x).Depth = (h a).Depth + 1) ∧
      ((h x).Anc = none → (h x).Depth = 0) := by
  intro S
  induction S with
  | nil => intro _ _ _ _ _ _ x hx; simp [BT.addrs] at hx
  | node y c s ihc ihs =>
    intro d anc hd hrep h1 h0 x hx
    obtain ⟨hdy, hdc, hds⟩ := hd
    obtain ⟨hanc, _, _, hrc, hrs⟩ := hrep
    simp only [BT.addrs, List.mem_cons, List.mem_append] at hx
    rcases hx with rfl | hx | hx
    · exact ⟨fun a ha => by rw [hdy]; exact h1 a (hanc.symm.trans ha),
        fun ha => by rw [hdy]; exact h0 (hanc.symm.trans ha)⟩
    · exact ihc (d + 1) (some y) hdc hrc
        (fun a ha => by rw [← Option.some.inj ha, hdy]) (fun e => by cases e) x hx
    · exact ihs d anc hds hrs h1 h0 x hx

/-- C29: on a tree object whose `Root` leads to the shape `T` (ancestor, child and
sibling pointers agree, no node occurs twice), `GetNodeDepths` returns once the fuel
exceeds the number of nodes. Afterwards `Depth` is 0 on the top level and, below every
node, one more than the depth of that node: a node without ancestor has depth 0,
every other node the depth of its ancestor plus 1, and two nodes with the same
ancestor have the same depth. Nothing but the `Depth` fields is changed, and `count`
is 0 again. -/
theorem GetNodeDepths_depths (t : Tree) (T : BT) (fuel : Nat) (hroot : t.Root = T.ptr)
    (hrep : Rep t.heap none T) (hnd : T.addrs.Nodup) (hf : T.size < fuel) :
    ∃ H : Heap, GetNodeDepths fuel t = some { t with heap := H, count := 0 } ∧
      DepthsOK H 0 T ∧ (∀ y, y ∉ T.addrs → H y = t.heap y) ∧
      (∀ y, (H y).clearDepth = (t.heap y).clearDepth) ∧
      (∀ x ∈ T.addrs, (H x).Anc = none → (H x).Depth = 0) ∧
      (∀ x ∈ T.addrs, ∀ a, (H x).Anc = some a → (H x).Depth = (H a).Depth + 1) ∧
      (∀ x ∈ T.addrs, ∀ y ∈ T.addrs, (H x).Anc = (H y).Anc → (H x).Depth = (H y).Depth) := by
  obtain ⟨H, e, d, f, g⟩ := getNodeDepth_chain T fuel { t with count := 0 } none hrep hnd hf
  have d0 : DepthsOK H 0 T := d
  have hrepH : Rep H none T :=
    Rep_congr t.heap H T none (fun y _ => clearDepth_links _ _ (g y)) hrep
  have key := DepthsOK_anc H T 0 none d0 hrepH (fun a ha => by cases ha) (fun _ => rfl)
  refine ⟨H, ?_, d0, f, g, fun x hx => (key x hx).2, fun x hx => (key x hx).1, ?_⟩
  · unfold GetNodeDepths
    rw [← hroot] at e
    exact e
  · intro x hx y hy hxy
    cases hax : (H x).Anc with
    | none =>
      rw [(key x hx).2 hax, (key y hy).2 (hxy.symm.trans hax)]
    | some a =>
      rw [(key x hx).1 a hax, (key y hy).1 a (hxy.symm.trans hax)]

theorem GetNodeDepths_depths_witness :
    (parsed descrNested).Root = shapeNested.ptr ∧
    Rep (parsed descrNested).heap none shapeNested ∧ shapeNested.addrs.Nodup ∧
    shapeNested.size < 6 ∧
    ∃ H : Heap, GetNodeDepths 6 (parsed descrNested) =
        some { parsed descrNested with heap := H, count := 0 } ∧
      DepthsOK H 0 shapeNested ∧
      (∀ y, y ∉ shapeNested.addrs → H y = (parsed descrNested).heap y) ∧
      (∀ y, (H y).clearDepth = ((parsed descrNested).heap y).clearDepth) ∧
      (∀ x ∈ shapeNested.addrs, (H x).Anc = none → (H x).Depth = 0) ∧
      (∀ x ∈ shapeNested.addrs, ∀ a, (H x).Anc = some a → (H x).Depth = (H a).Depth + 1) ∧
      (∀ x ∈ shapeNested.addrs, ∀ y ∈ shapeNested.addrs, (H x).Anc = (H y).Anc →
        (H x).Depth = (H y).Depth) :=
  ⟨parsed_descrNested_wellFormed.1.1, parsed_descrNested_wellFormed.1.2.2.1,
    parsed_descrNested_wellFormed.1.2.2.2.1, by decide,
    GetNodeDepths_depths (parsed descrNested) shapeNested 6
      parsed_descrNested_wellFormed.1.1 parsed_descrNested_wellFormed.1.2.2.1
      parsed_descrNested_wellFormed.1.2.2.2.1 (by decide)⟩

theorem GetNodeDepths_descrNested :
    (GetNodeDepths 6 (parsed descrNested)).map
      (fun t => [0, 1, 2, 3, 4].map fun y => (t.heap y).Depth) = some [0, 1, 2, 2, 1] := by
  decide!

/-! ## Path lengths after parsing -/

theorem PathsOK_agree (h h1 : Heap) : ∀ (S : BT) (pa : FP),
    (∀ y ∈ S.addrs, h1 y = h y) → PathsOK h pa S → PathsOK h1 pa S := by
  intro S
  induction S with
  | nil => intro _ _ _; trivial
  | node x c s ihc ihs =>
    intro pa hy hp
    have hx := hy x (by simp [BT.addrs])
    refine ⟨by rw [hx]; exact hp.1, ?_, ihs _ (fun y hy1 => hy y (by simp [BT.addrs, hy1])) hp.2.2⟩
    rw [hx]
    exact ihc _ (fun y hy1 => hy y (by simp [BT.addrs, hy1])) hp.2.1

theorem maxPathOver_agree (h h1 : Heap) (m : FP) (S : BT)
    (hy : ∀ y ∈ S.addrs, h1 y = h y) : maxPathOver h1 m S = maxPathOver h m S := by
  unfold maxPathOver
  congr 1
  exact List.map_congr_left (fun y hy1 => by rw [hy y hy1])

theorem maxPathOver_node (h : Heap) (m : FP) (x : Nat) (c s : BT) :
    maxPathOver h m (BT.node x c s) =
      maxPathOver h (maxPathOver h (max m (h x).PathLength) c) s := by
  simp [maxPathOver, BT.addrs, List.foldl_append]

theorem PathFrame.root (t t1 : Tree) (h : PathFrame t t1) : t1.Root = t.Root := by
  rw [h.2]

theorem PathFrame.length (t t1 : Tree) (h : PathFrame t t1) (x : Nat) :
    (t1.heap x).Length = (t.heap x).Length := by
  rw [h.1 x]

theorem pathStep (t : Tree) (x a : Nat) (hroot : some x ≠ t.Root)
    (hanc : (t.heap x).Anc = some a) :
    ∃ t1, pathSet t x = some t1 ∧ PathFrame t (pathMax t1 x) ∧
      ((pathMax t1 x).heap x).PathLength =
        (t.heap a).PathLength + flooredLength (t.heap x).Length ∧
      (∀ y, y ≠ x → (pathMax t1 x).heap y = t.heap y) ∧
      (pathMax t1 x).MaxPathLength = max t.MaxPathLength ((pathMax t1 x).heap x).PathLength := by
  obtain ⟨t1, h1⟩ := pathSet_some t x (fun _ => by rw [hanc]; simp)
  have f1 := pathSet_frame t t1 x h1
  have f2 := PathFrame.compose _ _ _ f1 (pathMax_frame t1 x)
  have hheap : t1.heap = t.heap.modify x fun n =>
      { n with PathLength := (t.heap a).PathLength + flooredLength (t.heap x).Length } := by
    unfold pathSet at h1
    rw [if_pos hroot] at h1
    simp only [hanc, Option.some.injEq] at h1
    rw [← h1]
    rfl
  have hM1 : t1.MaxPathLength = t.MaxPathLength := by
    unfold pathSet at h1
    rw [if_pos hroot] at h1
    simp only [hanc, Option.some.injEq] at h1
    rw [← h1]
  have hh2 : (pathMax t1 x).heap = t1.heap := by
    unfold pathMax; split <;> rfl
  refine ⟨t1, h1, f2, ?_, ?_, ?_⟩
  · rw [hh2, hheap]; simp [Heap.modify, Heap.set]
  · intro y hy
    rw [hh2, hheap]; simp [Heap.modify, Heap.set, hy]
  · rw [hh2]
    unfold pathMax
    by_cases hgt : (t1.heap x).PathLength > t1.MaxPathLength
    · rw [if_pos hgt]
      show (t1.heap x).PathLength = _
      rw [← hM1]
      exact (if_pos hgt).symm
    · rw [if_neg hgt, ← hM1]
      exact (if_neg hgt).symm

theorem getPathLengths_paths : ∀ (S : BT) (fuel : Nat) (t : Tree) (a : Nat),
    Rep t.heap (some a) S → (a :: S.addrs).Nodup → (∀ y ∈ S.addrs, some y ≠ t.Root) →
    S.size < fuel →
    ∃ t1, getPathLengths fuel t S.ptr = some t1 ∧ PathFrame t t1 ∧
      PathsOK t1.heap (t.heap a).PathLength S ∧
      (∀ y, y ∉ S.addrs → t1.heap y = t.heap y) ∧
      t1.MaxPathLength = maxPathOver t1.heap t.MaxPathLength S := by
  intro S
  induction S with
  | nil =>
    intro fuel t a _ _ _ hf
    obtain ⟨n, rfl⟩ : ∃ n, fuel = n + 1 := ⟨fuel - 1, by simp [BT.size] at hf; omega⟩
    exact ⟨t, by simp [getPathLengths, BT.ptr], PathFrame.refl t, trivial, fun _ _ => rfl,
      by simp [maxPathOver, BT.addrs]⟩
  | node x c s ihc ihs =>
    intro fuel t a hrep hnd hroot hf
    obtain ⟨n, rfl⟩ : ∃ n, fuel = n + 1 := ⟨fuel - 1, by omega⟩
    simp only [BT.size] at hf
    obtain ⟨hAnc, hChild, hSib, hrc, hrs⟩ := hrep
    simp only [BT.addrs, List.nodup_cons, List.mem_cons, List.mem_append, not_or,
      List.nodup_append] at hnd
    obtain ⟨⟨hax, hac, has⟩, ⟨hxc, hxs⟩, hcn, hsn, hdis⟩ := hnd
    have hxr : some x ≠ t.Root := hroot x (by simp [BT.addrs])
    obtain ⟨t1, h1, f2, p2, o2, m2⟩ := pathStep t x a hxr hAnc
    have hrc2 : Rep (pathMax t1 x).heap (some x) c :=
      Rep_congr t.heap _ c _ (fun y _ => PathFrame.links t _ f2 y) hrc
    have hroot2 : (pathMax t1 x).Root = t.Root := PathFrame.root _ _ f2
    obtain ⟨t3, h3, f3, p3, o3, m3⟩ := ihc n (pathMax t1 x) x hrc2
      (List.nodup_cons.2 ⟨hxc, hcn⟩)
      (fun y hy => by rw [hroot2]; exact hroot y (by simp [BT.addrs, hy])) (by omega)
    have f23 := PathFrame.compose _ _ _ f2 f3
    have hrs3 : Rep t3.heap (some a) s :=
      Rep_congr t.heap _ s _ (fun y _ => PathFrame.links t _ f23 y) hrs
    have hroot3 : t3.Root = t.Root := PathFrame.root _ _ f23
    obtain ⟨t5, h5, f5, p5, o5, m5⟩ := ihs n t3 a hrs3
      (List.nodup_cons.2 ⟨has, hsn⟩)
      (fun y hy => by rw [hroot3]; exact hroot y (by simp [BT.addrs, hy])) (by omega)
    have f25 := PathFrame.compose _ _ _ f23 f5
    have ha3 : t3.heap a = t.heap a := by rw [o3 a hac, o2 a hax]
    have hx3 : t3.heap x = (pathMax t1 x).heap x := o3 x hxc
    have hx5 : t5.heap x = (pathMax t1 x).heap x := by rw [o5 x hxs, hx3]
    have hc5 : ∀ y ∈ c.addrs, t5.heap y = t3.heap y :=
      fun y hy => o5 y (fun hys => hdis hy hys)
    refine ⟨t5, ?_, f25, ⟨?_, ?_, ?_⟩, ?_, ?_⟩
    · rw [show (BT.node x c s).ptr = some x from rfl]
      simp only [getPathLengths, h1]
      have e1 : ((pathMax t1 x).heap x).Child = c.ptr := by
        rw [(PathFrame.links t _ f2 x).2.1, hChild]
      rw [e1, h3]
      simp only []
      have e2 : (t3.heap x).Sib = s.ptr := by
        rw [(PathFrame.links t _ f23 x).2.2, hSib]
      rw [e2, h5]
    · rw [hx5, p2, PathFrame.length _ _ f2 x]
    · rw [hx5]
      exact PathsOK_agree t3.heap t5.heap c _ hc5 p3
    · rw [← ha3]; exact p5
    · intro y hy
      simp only [BT.addrs, List.mem_cons, List.mem_append, not_or] at hy
      rw [o5 y hy.2.2, o3 y hy.2.1, o2 y hy.1]
    · rw [m5, maxPathOver_node, m3, m2, hx5, maxPathOver_agree t3.heap t5.heap _ c hc5]

theorem modify_PathLength (h : Heap) (p : Nat) (f : Node → Node)
    (hf : ∀ m, (f m).PathLength = m.PathLength) (y : Nat) :
    ((h.modify p f) y).PathLength = (h y).PathLength := by
  by_cases hy : y = p
  · subst hy; simp [Heap.modify, Heap.set, hf]
  · simp [Heap.modify, Heap.set, hy]

theorem keepsPaths_refl (s : PState) : KeepsPaths s s :=
  ⟨⟨Eq.refl _, Eq.refl _⟩, Nat.le_refl _, fun _ _ => Eq.refl _⟩

theorem KeepsPaths.of_tree (s s1 : PState) (h : s1.tree = s.tree) : KeepsPaths s s1 := by
  unfold KeepsPaths; rw [h]; exact ⟨⟨Eq.refl _, Eq.refl _⟩, Nat.le_refl _, fun _ _ => Eq.refl _⟩

theorem KeepsPaths.of_error (s s1 : PState) (e : ErrorCode)
    (h : s1.tree = { s.tree with Error := e }) : KeepsPaths s s1 := by
  unfold KeepsPaths; rw [h]; exact ⟨⟨Eq.refl _, Eq.refl _⟩, Nat.le_refl _, fun _ _ => Eq.refl _⟩

theorem KeepsPaths.of_heap (s s1 : PState) (h : s1.tree.heap = s.tree.heap)
    (hn : s1.tree.next = s.tree.next) (hr : s1.tree.Root = s.tree.Root)
    (hm : s1.tree.MaxPathLength = s.tree.MaxPathLength) : KeepsPaths s s1 := by
  unfold KeepsPaths; rw [h, hn]; exact ⟨⟨hr, hm⟩, Nat.le_refl _, fun _ _ => Eq.refl _⟩

theorem keepsPaths_trans (s s1 s2 : PState) (h1 : KeepsPaths s s1) (h2 : KeepsPaths s1 s2) :
    KeepsPaths s s2 :=
  ⟨⟨h2.1.1.trans h1.1.1, h2.1.2.trans h1.1.2⟩, Nat.le_trans h1.2.1 h2.2.1,
    fun y hy => (h2.2.2 y (Nat.lt_of_lt_of_le hy h1.2.1)).trans (h1.2.2 y hy)⟩

theorem getNameLeaf_keeps (s : PState) : KeepsPaths s (getNameLeaf s) := by
  unfold KeepsPaths
  rw [getNameLeaf_tree]
  exact ⟨⟨rfl, rfl⟩, Nat.le_refl _, fun y _ => by
    refine modify_PathLength _ _ _ ?_ y
    intro m; rfl⟩

theorem labelMove_keeps (s : PState) : KeepsPaths s (labelMove s) := by
  unfold KeepsPaths
  rw [labelMove_tree]
  exact ⟨⟨rfl, rfl⟩, Nat.le_refl _, fun y _ => by
    refine modify_PathLength _ _ _ ?_ y
    intro m; rfl⟩

theorem rparMove_keeps (s : PState) : KeepsPaths s (rparMove s) := by
  cases hs : s.stk with
  | nil =>
    refine KeepsPaths.of_error _ _ ErrorCode.errUNBALANCED ?_
    simp [rparMove, hs, PState.setError, PState.goto]
  | cons q l =>
    unfold KeepsPaths
    rw [rparMove_tree s q l hs]
    exact ⟨⟨rfl, rfl⟩, Nat.le_refl _, fun y _ => by
    refine modify_PathLength _ _ _ ?_ y
    intro m; rfl⟩

theorem commaMove_keeps (s : PState) : KeepsPaths s (commaMove s) := by
  cases hs : s.stk with
  | nil =>
    refine ⟨by simp [commaMove, hs, Tree.NewNode, PState.setError, PState.goto],
      by simp [commaMove, hs, Tree.NewNode, PState.setError, PState.goto], fun y hy => ?_⟩
    have hne : y ≠ s.tree.next := by omega
    simp only [commaMove, hs, Tree.NewNode, PState.setError, PState.goto]
    refine (modify_PathLength _ _ _ ?_ y).trans ?_
    · intro m; rfl
    · simp [Heap.set, hne]
  | cons q l =>
    unfold KeepsPaths
    rw [commaMove_tree s q l hs]
    refine ⟨⟨rfl, rfl⟩, Nat.le_succ _, fun y hy => ?_⟩
    have hne : y ≠ s.tree.next := by omega
    simp only [Heap.AddWeight, Heap.IncrementDegree]
    refine (modify_PathLength _ _ _ ?_ y).trans ((modify_PathLength _ _ _ ?_ y).trans
      ((modify_PathLength _ _ _ ?_ y).trans ((modify_PathLength _ _ _ ?_ y).trans ?_)))
    · intro m; rfl
    · intro m; rfl
    · intro m; rfl
    · intro m; rfl
    · simp [Heap.set, hne]

theorem lparMove_keeps (s : PState) : KeepsPaths s (lparMove s) := by
  unfold KeepsPaths
  rw [lparMove_tree]
  refine ⟨⟨rfl, rfl⟩, Nat.le_succ _, fun y hy => ?_⟩
  have hne : y ≠ s.tree.next := by omega
  simp only [Heap.IncrementDegree]
  refine (modify_PathLength _ _ _ ?_ y).trans ((modify_PathLength _ _ _ ?_ y).trans
    ((modify_PathLength _ _ _ ?_ y).trans ?_))
  · intro m; rfl
  · intro m; rfl
  · intro m; rfl
  · simp [Heap.set, hne]

theorem branchInfo_keeps (cap : Int) (n : Nat) (s s1 : PState)
    (hb : branchInfo cap n s = some s1) : KeepsPaths s s1 := by
  unfold branchInfo at hb
  by_cases hp : firstChar s.NextToken.token = '{'
  · simp only [hp, if_true] at hb
    split at hb
    · cases hb
    · cases hb
      rename_i a _
      refine ⟨?_, ?_, fun y _ => ?_⟩
      · by_cases ht : a.tooMany = true <;>
          simp [ht, NextToken_tree, PState.modCur, PState.setError]
      · by_cases ht : a.tooMany = true <;>
          simp [ht, NextToken_tree, PState.modCur, PState.setError]
      · by_cases ht : a.tooMany = true
        · simp only [ht, if_true, NextToken_tree, PState.modCur, PState.setError]
          refine modify_PathLength _ _ _ ?_ y
          intro m; rfl
        · simp only [ht, NextToken_tree, PState.modCur]
          refine modify_PathLength _ _ _ ?_ y
          intro m; rfl
  · simp only [hp, if_false] at hb
    cases hb
    refine ⟨by simp [NextToken_tree, PState.modCur], by simp [NextToken_tree, PState.modCur],
      fun y _ => ?_⟩
    simp only [NextToken_tree, PState.modCur]
    refine modify_PathLength _ _ _ ?_ y
    intro m; rfl

theorem step_keeps (cap : Int) (n : Nat) (s s1 : PState) (hstep : step cap n s = some s1) :
    KeepsPaths s s1 := by
  cases hs : s.state <;> cases hk : s.token.kind <;>
    simp only [step, hs, hk] at hstep <;> try contradiction
  all_goals first
    | exact branchInfo_keeps cap n s s1 hstep
    | (cases hstep; exact keepsPaths_refl _)
    | (cases hstep; exact KeepsPaths.of_tree _ _ (NextToken_tree _))
    | (cases hstep; exact getNameLeaf_keeps _)
    | (cases hstep; exact labelMove_keeps _)
    | (cases hstep; exact commaMove_keeps _)
    | (cases hstep; exact lparMove_keeps _)
    | (cases hstep; exact rparMove_keeps _)
    | (cases hstk : s.stk <;> simp only [hstk] at hstep <;> cases hstep <;>
        exact KeepsPaths.of_heap _ _ rfl rfl rfl rfl)

theorem reach_keeps (cap : Int) (s s1 : PState) (hr : Reach cap s s1) : KeepsPaths s s1 := by
  induction hr with
  | refl s => exact keepsPaths_refl s
  | step f s s2 s3 _ _ hs _ ih => exact keepsPaths_trans _ _ _ (step_keeps cap f s s2 hs) ih

theorem root_pathLength_zero (cap : Int) (t : Tree) (descr : List Token) (s : PState)
    (hr : Reach cap (parseInit t descr) s) : (s.tree.heap t.next).PathLength = 0 := by
  have hk := reach_keeps cap _ s hr
  have h0 : (parseInit t descr).tree.next = t.next + 1 ∧
      ((parseInit t descr).tree.heap t.next).PathLength = 0 := by
    cases descr <;> simp [parseInit, Tree.NewNode, PState.NextToken, Heap.set]
  rw [hk.2.2 t.next (by rw [h0.1]; omega), h0.2]

theorem root_of_reach (cap : Int) (t : Tree) (descr : List Token) (s : PState)
    (hr : Reach cap (parseInit t descr) s) : s.tree.Root = some t.next := by
  rw [(reach_keeps cap _ s hr).1.1]
  cases descr <;> simp [parseInit, Tree.NewNode, PState.NextToken]

theorem maxPath_of_reach (cap : Int) (t : Tree) (descr : List Token) (s : PState)
    (hr : Reach cap (parseInit t descr) s) : s.tree.MaxPathLength = t.MaxPathLength := by
  rw [(reach_keeps cap _ s hr).1.2]
  cases descr <;> simp [parseInit, Tree.NewNode, PState.NextToken]

theorem PathsOK_anc (h : Heap) : ∀ (S : BT) (pa : FP) (a : Nat),
    PathsOK h pa S → Rep h (some a) S → (h a).PathLength = pa →
    ∀ x ∈ S.addrs, ∀ b, (h x).Anc = some b →
      (h x).PathLength = (h b).PathLength + flooredLength (h x).Length := by
  intro S
  induction S with
  | nil => intro _ _ _ _ _ x hx; simp [BT.addrs] at hx
  | node y c s ihc ihs =>
    intro pa a hp hrep hpa x hx b hb
    obtain ⟨hpy, hpc, hps⟩ := hp
    obtain ⟨hanc, _, _, hrc, hrs⟩ := hrep
    simp only [BT.addrs, List.mem_cons, List.mem_append] at hx
    rcases hx with rfl | hx | hx
    · have e : b = a := Option.some.inj (hb.symm.trans hanc)
      rw [hpy, e, hpa]
    · exact ihc _ y hpc hrc rfl x hx b hb
    · exact ihs pa a hps hrs hpa x hx b hb

theorem getPathLengths_root_paths (t : Tree) (r : Nat) (c : BT) (fuel : Nat)
    (hroot : t.Root = some r) (hrep : Rep t.heap none (BT.node r c BT.nil))
    (hnd : (BT.node r c BT.nil).addrs.Nodup) (hf : (BT.node r c BT.nil).size < fuel) :
    ∃ t1, getPathLengths fuel t t.Root = some t1 ∧ PathFrame t t1 ∧
      t1.heap r = t.heap r ∧ PathsOK t1.heap (t.heap r).PathLength c ∧
      t1.MaxPathLength = maxPathOver t1.heap t.MaxPathLength (BT.node r c BT.nil) := by
  obtain ⟨n, rfl⟩ : ∃ n, fuel = n + 1 := ⟨fuel - 1, by omega⟩
  simp only [BT.size] at hf
  obtain ⟨hAnc, hChild, hSib, hrc, -⟩ := hrep
  simp only [BT.addrs, List.append_nil, List.nodup_cons] at hnd
  have h1 : pathSet t r = some t := by
    unfold pathSet
    rw [if_neg (by rw [hroot]; simp)]
  have hh2 : (pathMax t r).heap = t.heap := by unfold pathMax; split <;> rfl
  have hr2 : (pathMax t r).Root = t.Root := by unfold pathMax; split <;> rfl
  have hm2 : (pathMax t r).MaxPathLength = max t.MaxPathLength (t.heap r).PathLength := by
    unfold pathMax
    by_cases hgt : (t.heap r).PathLength > t.MaxPathLength
    · rw [if_pos hgt]
      show (t.heap r).PathLength = _
      exact (if_pos hgt).symm
    · rw [if_neg hgt]
      exact (if_neg hgt).symm
  have f2 := pathMax_frame t r
  obtain ⟨t3, h3, f3, p3, o3, m3⟩ := getPathLengths_paths c n (pathMax t r) r
    (by rw [hh2]; exact hrc) (List.nodup_cons.2 hnd)
    (fun y hy e => by
      rw [hr2, hroot] at e
      exact hnd.1 (Option.some.inj e ▸ hy)) (by omega)
  have f23 := PathFrame.compose _ _ _ f2 f3
  have hx3 : t3.heap r = t.heap r := by rw [o3 r hnd.1, hh2]
  obtain ⟨m, rfl⟩ : ∃ m, n = m + 1 := ⟨n - 1, by omega⟩
  refine ⟨t3, ?_, f23, hx3, ?_, ?_⟩
  · rw [hroot]
    simp only [getPathLengths, h1]
    rw [hh2, hChild, h3]
    simp only []
    rw [hx3, hSib]
    rfl
  · rw [hh2] at p3; exact p3
  · rw [m3, hm2, maxPathOver_node, hx3]
    simp [maxPathOver, BT.addrs]

theorem parse_paths (cap : Int) (fuel : Nat) (t : Tree) (descr : List Token)
    (hacc : Accepts cap fuel t descr) :
    ∃ N, ∀ fuel1, N ≤ fuel1 → ∃ t1 r c, Parse cap fuel1 t descr = some (0, t1) ∧
      t1.Root = some r ∧ Rep t1.heap none (BT.node r c BT.nil) ∧
      (BT.node r c BT.nil).addrs.Nodup ∧ (t1.heap r).PathLength = 0 ∧
      PathsOK t1.heap 0 c ∧
      t1.MaxPathLength = maxPathOver t1.heap t.MaxPathLength (BT.node r c BT.nil) := by
  obtain ⟨s, hrun, hs⟩ := Accepts.state cap fuel t descr hacc
  have hreach := Reach.of_run cap fuel _ s hrun
  have hinv := WInvSome_reach cap _ s hreach (Or.inr ⟨_, _, _, WInv_parseInit t descr⟩)
  rcases hinv with hq | ⟨r, fs, cx, hi⟩
  · rw [hs] at hq; cases hq
  obtain ⟨i1, i2, i3, i4, i5, -, -, -, -, -, i11⟩ := hi
  have hfs : fs = [] := by
    have := i11 hs
    rw [i2] at this
    simpa using this
  subst hfs
  obtain ⟨f1, f2⟩ := i3
  obtain ⟨c1, c2, c3, -⟩ := i4
  rw [f2] at f1 c1 c2 c3 i5
  have hrep : Rep s.tree.heap none (BT.node r cx BT.nil) := ⟨f1, c2, c1, c3, trivial⟩
  have hnd : (BT.node r cx BT.nil).addrs.Nodup := by
    simpa [BT.addrs, framesAddrs] using i5
  have hrt : r = t.next :=
    Option.some.inj (i1.symm.trans (root_of_reach cap t descr s hreach))
  have hpl0 : (s.tree.heap r).PathLength = 0 := by
    rw [hrt]; exact root_pathLength_zero cap t descr s hreach
  obtain ⟨N, hN⟩ := Reach.run cap _ s hreach (Or.inr hs)
  refine ⟨max N ((BT.node r cx BT.nil).size + 1), fun fuel1 hf => ?_⟩
  have hrun1 := hN fuel1 (by omega)
  have hheap : ∀ y, (acceptedTree s r).heap y =
      { s.tree.heap y with Weight := ((acceptedTree s r).heap y).Weight } := by
    intro y
    by_cases hy : y = r
    · subst hy; simp [acceptedTree]
    · simp [acceptedTree, hy]
  have hrep2 : Rep (acceptedTree s r).heap none (BT.node r cx BT.nil) :=
    Rep_congr s.tree.heap _ _ _ (fun y _ => by rw [hheap y]; exact ⟨rfl, rfl, rfl⟩) hrep
  obtain ⟨t1, h1, fr, hr1, p1, m1⟩ := getPathLengths_root_paths (acceptedTree s r) r cx fuel1
    (by simp [acceptedTree, i1]) hrep2 hnd (by omega)
  have hpl2 : ((acceptedTree s r).heap r).PathLength = 0 := by rw [hheap r]; exact hpl0
  refine ⟨t1, r, cx, ?_, ?_, ?_, hnd, by rw [hr1, hpl2], by rw [hpl2] at p1; exact p1, ?_⟩
  · have hpf : parseFsm cap fuel1 t descr = some s := hrun1
    have hnq : ¬ s.state = FsmState.stQUIT := by rw [hs]; simp
    simp only [Parse, hpf, hnq, if_false, i1]
    have : getPathLengths fuel1 (acceptedTree s r) (acceptedTree s r).Root = some t1 := h1
    simp only [acceptedTree, i1] at this
    simp only [this]
  · rw [PathFrame.root _ _ fr]; simp [acceptedTree, i1]
  · exact Rep_congr _ t1.heap _ none (fun y _ => PathFrame.links _ _ fr y) hrep2
  · rw [m1, ← maxPath_of_reach cap t descr s hreach]; simp [acceptedTree]

theorem Rep_has_anc (h : Heap) : ∀ (S : BT) (a : Nat), Rep h (some a) S →
    ∀ x ∈ S.addrs, ∃ b, (h x).Anc = some b := by
  intro S
  induction S with
  | nil => intro _ _ x hx; simp [BT.addrs] at hx
  | node y c s ihc ihs =>
    intro a hrep x hx
    obtain ⟨hanc, _, _, hrc, hrs⟩ := hrep
    simp only [BT.addrs, List.mem_cons, List.mem_append] at hx
    rcases hx with rfl | hx | hx
    · exact ⟨a, hanc⟩
    · exact ihc y hrc x hx
    · exact ihs a hrs x hx

/-- Whenever `Tree::Parse` ends in `stACCEPTED` (for any token stream), it returns 0 and
the tree object holds a tree below `Root` in which the path length of the root is 0
and every other node has an ancestor and, as path length, the `double` sum of the path
length of that ancestor and its own edge length converted to `float`, a converted
length below `0.000001` (a negative one included) counting as 0. -/
theorem Parse_pathLengths (cap : Int) (fuel : Nat) (t : Tree) (descr : List Token)
    (hacc : Accepts cap fuel t descr) :
    ∃ N, ∀ fuel1, N ≤ fuel1 → ∃ t1 r c, Parse cap fuel1 t descr = some (0, t1) ∧
      t1.Root = some r ∧ Rep t1.heap none (BT.node r c BT.nil) ∧
      (BT.node r c BT.nil).addrs.Nodup ∧ (t1.heap r).PathLength = 0 ∧
      ∀ x ∈ c.addrs, ∃ b, (t1.heap x).Anc = some b ∧
        (t1.heap x).PathLength =
          (t1.heap b).PathLength + flooredLength (t1.heap x).Length := by
  obtain ⟨N, hN⟩ := parse_paths cap fuel t descr hacc
  refine ⟨N, fun fuel1 hf => ?_⟩
  obtain ⟨t1, r, c, hp, hroot, hrep, hnd, h0, hpaths, -⟩ := hN fuel1 hf
  refine ⟨t1, r, c, hp, hroot, hrep, hnd, h0, fun x hx => ?_⟩
  obtain ⟨b, hb⟩ := Rep_has_anc t1.heap c r hrep.2.2.2.1 x hx
  exact ⟨b, hb, PathsOK_anc t1.heap c 0 r hpaths hrep.2.2.2.1 h0 x hx b hb⟩

/-- The path lengths and edge lengths after parsing `((A:1,B:2):3,C:4);` and
`(A:-1,B:2);`: all values are small integers, which neither the conversion to `float`
nor the `double` sum changes. -/
theorem Parse_pathLengths_examples :
    (Parse 30 40 {} descrNested).map
      (fun p => (List.range 5).map fun y => (p.2.heap y).PathLength) = some [0, 3, 4, 5, 4] ∧
    (Parse 30 40 {} descrNegative).map
      (fun p => (List.range 3).map fun y => ((p.2.heap y).Length, (p.2.heap y).PathLength)) =
      some [(0, 0), (FP.fin (-1), 0), (2, 2)] := by
  constructor <;> decide!

/-- C26 (code bug): `Parse` called on the tree object left by parsing `(A:5,B:1);`, now
with the description `(A:1,B:2);`, returns 0; the three new nodes have the path lengths
0, 1 and 2, but `MaxPathLength` is still 5, the maximum of the tree parsed before. -/
theorem Parse_stale_MaxPathLength :
    (parsed descrLong).MaxPathLength = 5 ∧
    (Parse 30 40 (parsed descrLong) descrAB).map
      (fun p => (p.1, p.2.Root, p.2.MaxPathLength)) = some (0, some 3, 5) ∧
    (Parse 30 40 (parsed descrLong) descrAB).map
      (fun p => [3, 4, 5].map fun y => ((p.2.heap y).Anc, (p.2.heap y).PathLength)) =
      some [(none, 0), (some 3, 1), (some 3, 2)] := by
  refine ⟨?_, ?_, ?_⟩ <;> decide!

theorem Parse_MaxPathLength (cap : Int) (fuel : Nat) (t : Tree) (descr : List Token)
    (hacc : Accepts cap fuel t descr) :
    ∃ N, ∀ fuel1, N ≤ fuel1 → ∃ t1 r c, Parse cap fuel1 t descr = some (0, t1) ∧
      t1.Root = some r ∧ Rep t1.heap none (BT.node r c BT.nil) ∧
      t1.MaxPathLength = maxPathOver t1.heap t.MaxPathLength (BT.node r c BT.nil) := by
  obtain ⟨N, hN⟩ := parse_paths cap fuel t descr hacc
  refine ⟨N, fun fuel1 hf => ?_⟩
  obtain ⟨t1, r, c, hp, hroot, hrep, -, -, -, hm⟩ := hN fuel1 hf
  exact ⟨t1, r, c, hp, hroot, hrep, hm⟩

/-! ## MakeNodeList and the node index -/

theorem store_some (ix : NodeIndex) (i : Int) (p : Nat) (h0 : 0 ≤ i) (h1 : i < ix.size) :
    ∃ ix1, ix.store i p = some ix1 ∧ ix1.size = ix.size ∧ ix1.LeafList = ix.LeafList ∧
      ∀ j, ix1.slot j = if j = i then some p else ix.slot j := by
  cases hN : ix.Nodes with
  | none => simp [NodeIndex.size, hN] at h1; omega
  | some N =>
    simp only [NodeIndex.size, hN] at h1
    have hlt : i.toNat < N.length := by omega
    refine ⟨{ ix with Nodes := some (N.set i.toNat (some p)) }, ?_, ?_, rfl, ?_⟩
    · simp [NodeIndex.store, hN, h0, hlt]
    · simp [NodeIndex.size, hN]
    · intro j
      simp only [NodeIndex.slot, hN]
      by_cases hj : j = i
      · subst hj
        simp [h0, List.getElem?_set, hlt]
      · by_cases hj0 : 0 ≤ j
        · have hne : i.toNat ≠ j.toNat := by omega
          simp [hj, hj0, List.getElem?_set, hne]
        · simp [hj, hj0]

theorem slotsAfter_append (idx : Nat → Int) : ∀ (xs ys : List Nat) (f : Int → Option Nat),
    slotsAfter idx (xs ++ ys) f = slotsAfter idx ys (slotsAfter idx xs f) := by
  intro xs
  induction xs with
  | nil => intro ys f; rfl
  | cons x xs ih => intro ys f; simp [slotsAfter, ih]

theorem slotsAfter_congr (idx idx1 : Nat → Int) : ∀ (xs : List Nat) (f : Int → Option Nat),
    (∀ x ∈ xs, idx1 x = idx x) → slotsAfter idx1 xs f = slotsAfter idx xs f := by
  intro xs
  induction xs with
  | nil => intro f _; rfl
  | cons x xs ih =>
    intro f h
    simp only [slotsAfter]
    rw [h x (by simp), ih _ (fun y hy => h y (by simp [hy]))]

theorem slotsAfter_other (idx : Nat → Int) : ∀ (xs : List Nat) (f : Int → Option Nat) (i : Int),
    (∀ x ∈ xs, idx x ≠ i) → slotsAfter idx xs f i = f i := by
  intro xs
  induction xs with
  | nil => intro f i _; rfl
  | cons x xs ih =>
    intro f i h
    simp only [slotsAfter]
    rw [ih _ i (fun y hy => h y (by simp [hy]))]
    have : i ≠ idx x := fun e => h x (by simp) e.symm
    simp [this]

theorem slotsAfter_mem (idx : Nat → Int) : ∀ (xs : List Nat) (f : Int → Option Nat) (x : Nat),
    x ∈ xs → (∀ y ∈ xs, idx y = idx x → y = x) → slotsAfter idx xs f (idx x) = some x := by
  intro xs
  induction xs with
  | nil => intro f x hx; simp at hx
  | cons z xs ih =>
    intro f x hx hinj
    simp only [slotsAfter]
    by_cases hxs : x ∈ xs
    · exact ih _ x hxs (fun y hy => hinj y (by simp [hy]))
    · have hxz : x = z := by
        simp only [List.mem_cons] at hx
        rcases hx with h | h
        · exact h
        · exact absurd h hxs
      subst hxz
      rw [slotsAfter_other idx xs _ (idx x)
        (fun y hy e => hxs (by rw [← hinj y (by simp [hy]) e]; exact hy))]
      simp

theorem post_mem : ∀ (S : BT) (y : Nat), y ∈ S.post ↔ y ∈ S.addrs := by
  intro S
  induction S with
  | nil => intro y; simp [BT.post, BT.addrs]
  | node x c s ihc ihs =>
    intro y
    simp only [BT.post, BT.addrs, List.mem_append, List.mem_cons, List.mem_singleton, ihc, ihs,
      List.not_mem_nil, or_false]
    tauto

theorem clearIndex_fields (n n1 : Node) (h : n1.clearIndex = n.clearIndex) :
    n1.Anc = n.Anc ∧ n1.Child = n.Child ∧ n1.Sib = n.Sib ∧ n1.Leaf = n.Leaf ∧
      n1.LeafNumber = n.LeafNumber := by
  have h1 := congrArg Node.Anc h
  have h2 := congrArg Node.Child h
  have h3 := congrArg Node.Sib h
  have h4 := congrArg Node.Leaf h
  have h5 := congrArg Node.LeafNumber h
  exact ⟨h1, h2, h3, h4, h5⟩

theorem clearIndex_modify (h : Heap) (x y : Nat) (d : Int) :
    ((h.modify x fun n => { n with Index := d }) y).clearIndex = (h y).clearIndex := by
  by_cases hy : y = x
  · subst hy; simp [Heap.modify, Heap.set, Node.clearIndex]
  · simp [Heap.modify, Heap.set, hy]

theorem internalsF_nonneg (h : Heap) : ∀ S : BT, 0 ≤ internalsF h S := by
  intro S
  induction S with
  | nil => simp [internalsF]
  | node x c s ihc ihs =>
    simp only [internalsF]
    split <;> omega

theorem indexNode_leaf (t : Tree) (ix : NodeIndex) (p : Nat) (hl : (t.heap p).Leaf = true)
    (h1 : 1 ≤ (t.heap p).LeafNumber) (h2 : (t.heap p).LeafNumber ≤ t.Leaves)
    (hsz : ix.size = t.Leaves + t.Internals) (hI : 0 ≤ t.Internals) :
    ∃ ix1, indexNode (t, ix) p =
        some ({ t with heap := t.heap.modify p fun n =>
                  { n with Index := (t.heap p).LeafNumber - 1 } }, ix1) ∧
      ix1.size = ix.size ∧
      ∀ j, ix1.slot j = if j = (t.heap p).LeafNumber - 1 then some p else ix.slot j := by
  obtain ⟨ix1, e1, s1, -, g1⟩ := store_some
    { ix with LeafList := ((t.heap p).Label, (t.heap p).LeafNumber - 1) :: ix.LeafList }
    ((t.heap p).LeafNumber - 1) p (by omega)
    (by show _ < ix.size; omega)
  refine ⟨ix1, ?_, s1, g1⟩
  have hgt : t.Leaves + t.Internals > (t.heap p).LeafNumber - 1 := by omega
  simp only [indexNode, hl, if_true, hgt, e1]

theorem indexNode_inner (t : Tree) (ix : NodeIndex) (p : Nat) (hl : (t.heap p).Leaf = false)
    (h0 : 0 ≤ t.count) (h1 : t.count < ix.size) :
    ∃ ix1, indexNode (t, ix) p =
        some ({ t with heap := t.heap.modify p fun n => { n with Index := t.count }
                       count := t.count + 1 }, ix1) ∧
      ix1.size = ix.size ∧ ∀ j, ix1.slot j = if j = t.count then some p else ix.slot j := by
  obtain ⟨ix1, e1, s1, -, g1⟩ := store_some ix t.count p h0 h1
  refine ⟨ix1, ?_, s1, g1⟩
  simp only [indexNode, hl, e1]
  rfl

theorem makeNodeList_chain : ∀ (S : BT) (fuel : Nat) (t : Tree) (ix : NodeIndex)
    (a : Option Nat), Rep t.heap a S → S.addrs.Nodup → S.size < fuel →
    (∀ x ∈ S.addrs, (t.heap x).Leaf = true →
      1 ≤ (t.heap x).LeafNumber ∧ (t.heap x).LeafNumber ≤ t.Leaves) →
    0 ≤ t.Leaves → t.Leaves ≤ t.count → t.count + internalsF t.heap S ≤ ix.size →
    ix.size = t.Leaves + t.Internals → 0 ≤ t.Internals →
    ∃ (H : Heap) (ix1 : NodeIndex),
      makeNodeList fuel (t, ix) S.ptr =
        some ({ t with heap := H, count := t.count + internalsF t.heap S }, ix1) ∧
      ix1.size = ix.size ∧
      (∀ y, (H y).clearIndex = (t.heap y).clearIndex) ∧
      (∀ y, y ∉ S.addrs → H y = t.heap y) ∧
      (∀ x ∈ S.addrs, (H x).Leaf = true → (H x).Index = (H x).LeafNumber - 1) ∧
      (∀ x ∈ S.addrs, (H x).Leaf = false →
        t.count ≤ (H x).Index ∧ (H x).Index < t.count + internalsF t.heap S) ∧
      (∀ x ∈ S.addrs, ∀ y ∈ S.addrs, (H x).Leaf = false → (H y).Leaf = false →
        (H x).Index = (H y).Index → x = y) ∧
      (∀ i, t.count ≤ i → i < t.count + internalsF t.heap S →
        ∃ x ∈ S.addrs, (H x).Leaf = false ∧ (H x).Index = i) ∧
      (∀ i, ix1.slot i = slotsAfter (fun y => (H y).Index) S.post ix.slot i) := by
  intro S
  induction S with
  | nil =>
    intro fuel t ix a _ _ hf _ _ _ _ _ _
    obtain ⟨n, rfl⟩ : ∃ n, fuel = n + 1 := ⟨fuel - 1, by simp [BT.size] at hf; omega⟩
    refine ⟨t.heap, ix, ?_, rfl, fun _ => rfl, fun _ _ => rfl, ?_, ?_, ?_, ?_, fun _ => rfl⟩
    · simp [BT.ptr, makeNodeList, internalsF]
    · intro x hx; simp [BT.addrs] at hx
    · intro x hx; simp [BT.addrs] at hx
    · intro x hx; simp [BT.addrs] at hx
    · intro i h1 h2; simp only [internalsF] at h2; omega
  | node x c s ihc ihs =>
    intro fuel t ix a hrep hnd hf hleaf hL0 hLc hcap hsz hI
    obtain ⟨n, rfl⟩ : ∃ n, fuel = n + 1 := ⟨fuel - 1, by omega⟩
    obtain ⟨hanc, hch, hsib, hrc, hrs⟩ := hrep
    simp only [BT.addrs, List.nodup_cons, List.mem_append, not_or, List.nodup_append] at hnd
    obtain ⟨⟨hxc, hxs⟩, hcn, hsn, hdis⟩ := hnd
    simp only [BT.size] at hf
    have hIc := internalsF_nonneg t.heap c
    have hIs := internalsF_nonneg t.heap s
    have hIx : (0 : Int) ≤ (if (t.heap x).Leaf then 0 else 1) := by split <;> omega
    simp only [internalsF] at hcap
    -- the children
    obtain ⟨H1, ix1, e1, z1, k1, o1, l1, r1, j1, u1, g1⟩ := ihc n t ix (some x) hrc hcn (by omega)
      (fun y hy => hleaf y (by simp [BT.addrs, hy])) hL0 hLc (by omega) hsz hI
    have hf1 : ∀ y, (H1 y).Leaf = (t.heap y).Leaf :=
      fun y => (clearIndex_fields _ _ (k1 y)).2.2.2.1
    have hn1 : ∀ y, (H1 y).LeafNumber = (t.heap y).LeafNumber :=
      fun y => (clearIndex_fields _ _ (k1 y)).2.2.2.2
    have hIs1 : internalsF H1 s = internalsF t.heap s :=
      internalsF_congr t.heap H1 s (fun y _ => hf1 y)
    -- the younger siblings
    obtain ⟨H2, ix2, e2, z2, k2, o2, l2, r2, j2, u2, g2⟩ := ihs n
      { t with heap := H1, count := t.count + internalsF t.heap c } ix1 a
      (Rep_congr t.heap H1 s a (fun y _ =>
        ⟨(clearIndex_fields _ _ (k1 y)).1, (clearIndex_fields _ _ (k1 y)).2.1,
          (clearIndex_fields _ _ (k1 y)).2.2.1⟩) hrs) hsn (by omega)
      (fun y hy hl => by
        have hl0 : (t.heap y).Leaf = true := (hf1 y).symm.trans hl
        have := hleaf y (by simp [BT.addrs, hy]) hl0
        show 1 ≤ (H1 y).LeafNumber ∧ (H1 y).LeafNumber ≤ t.Leaves
        rw [hn1 y]; exact this)
      hL0 (by show t.Leaves ≤ t.count + internalsF t.heap c; omega)
      (by rw [z1]; show t.count + internalsF t.heap c + internalsF H1 s ≤ ix.size;
          rw [hIs1]; omega)
      (by rw [z1]; exact hsz) hI
    have k2 : ∀ y, (H2 y).clearIndex = (H1 y).clearIndex := k2
    have o2 : ∀ y, y ∉ s.addrs → H2 y = H1 y := o2
    have r2 : ∀ y ∈ s.addrs, (H2 y).Leaf = false →
        t.count + internalsF t.heap c ≤ (H2 y).Index ∧
        (H2 y).Index < t.count + internalsF t.heap c + internalsF t.heap s := by
      intro y hy hl
      have := r2 y hy hl
      rw [hIs1] at this
      exact this
    have u2 : ∀ i, t.count + internalsF t.heap c ≤ i →
        i < t.count + internalsF t.heap c + internalsF t.heap s →
        ∃ y ∈ s.addrs, (H2 y).Leaf = false ∧ (H2 y).Index = i := by
      intro i h1 h2
      have h3 : i < t.count + internalsF t.heap c + internalsF H1 s := by
        rw [hIs1]; exact h2
      exact u2 i h1 h3
    have hx2 : H2 x = t.heap x := by rw [o2 x hxs, o1 x hxc]
    have hf2 : ∀ y, (H2 y).Leaf = (t.heap y).Leaf :=
      fun y => ((clearIndex_fields _ _ (k2 y)).2.2.2.1).trans (hf1 y)
    have hc2 : ∀ y ∈ c.addrs, H2 y = H1 y := fun y hy => o2 y (fun hys => hdis hy hys)
    -- the node itself
    have hstep : ∃ (H3 : Heap) (ix3 : NodeIndex) (d : Int),
        indexNode
            ({ t with
               heap := H2
               count := t.count + internalsF t.heap c + internalsF t.heap s }, ix2) x =
          some
            ({ t with
               heap := H3
               count := t.count + ((if (t.heap x).Leaf then 0 else 1) +
                 internalsF t.heap c + internalsF t.heap s) }, ix3) ∧
        ix3.size = ix2.size ∧ H3 = H2.modify x (fun m => { m with Index := d }) ∧
        (∀ j, ix3.slot j = if j = d then some x else ix2.slot j) ∧
        ((t.heap x).Leaf = true → d = (t.heap x).LeafNumber - 1) ∧
        ((t.heap x).Leaf = false →
          d = t.count + internalsF t.heap c + internalsF t.heap s) := by
      by_cases hl : (t.heap x).Leaf = true
      · have hb := hleaf x (by simp [BT.addrs]) hl
        obtain ⟨ix3, e3, z3, g3⟩ := indexNode_leaf
          { t with heap := H2, count := t.count + internalsF t.heap c + internalsF t.heap s }
          ix2 x (by show (H2 x).Leaf = true; rw [hx2]; exact hl)
          (by show 1 ≤ (H2 x).LeafNumber; rw [hx2]; exact hb.1)
          (by show (H2 x).LeafNumber ≤ t.Leaves; rw [hx2]; exact hb.2)
          (by rw [z2, z1]; exact hsz) hI
        have hd : (H2 x).LeafNumber - 1 = (t.heap x).LeafNumber - 1 := by rw [hx2]
        refine ⟨_, ix3, (t.heap x).LeafNumber - 1, ?_, z3, rfl, ?_, fun _ => rfl,
          fun h => by rw [hl] at h; cases h⟩
        · rw [e3]
          simp only [hl, if_true, hd]
          have : t.count + internalsF t.heap c + internalsF t.heap s =
              t.count + (0 + internalsF t.heap c + internalsF t.heap s) := by omega
          rw [this]
        · intro j; rw [g3 j]; simp only [hx2]
      · have hl0 : (t.heap x).Leaf = false := by simpa using hl
        obtain ⟨ix3, e3, z3, g3⟩ := indexNode_inner
          { t with heap := H2, count := t.count + internalsF t.heap c + internalsF t.heap s }
          ix2 x (by show (H2 x).Leaf = false; rw [hx2]; exact hl0)
          (by show 0 ≤ t.count + internalsF t.heap c + internalsF t.heap s; omega)
          (by rw [z2, z1]; simp only [hl0] at hcap; simp at hcap;
              show t.count + internalsF t.heap c + internalsF t.heap s < ix.size; omega)
        refine ⟨_, ix3, t.count + internalsF t.heap c + internalsF t.heap s, ?_, z3, rfl, g3,
          (fun h => by rw [hl0] at h; cases h), fun _ => rfl⟩
        rw [e3]
        simp only [hl0]
        have : t.count + internalsF t.heap c + internalsF t.heap s + 1 =
            t.count + ((if false = true then 0 else 1) + internalsF t.heap c +
              internalsF t.heap s) := by simp; omega
        rw [← this]
    obtain ⟨H3, ix3, d, e3, z3, hH3, g3, dl, di⟩ := hstep
    have hx3 : H3 x = { t.heap x with Index := d } := by
      rw [hH3]; simp [Heap.modify, Heap.set, hx2]
    have ho3 : ∀ y, y ≠ x → H3 y = H2 y := by
      intro y hy; rw [hH3]; simp [Heap.modify, Heap.set, hy]
    have hc3 : ∀ y ∈ c.addrs, H3 y = H1 y :=
      fun y hy => by rw [ho3 y (fun e => hxc (e ▸ hy)), hc2 y hy]
    have hs3 : ∀ y ∈ s.addrs, H3 y = H2 y :=
      fun y hy => ho3 y (fun e => hxs (e ▸ hy))
    have k3 : ∀ y, (H3 y).clearIndex = (t.heap y).clearIndex := by
      intro y
      rw [hH3, clearIndex_modify, k2 y, k1 y]
    have hmem : ∀ y, y ∈ (BT.node x c s).addrs ↔ y = x ∨ y ∈ c.addrs ∨ y ∈ s.addrs := by
      intro y; simp [BT.addrs]
    refine ⟨H3, ix3, ?_, by rw [z3, z2, z1], k3, ?_, ?_, ?_, ?_, ?_, ?_⟩
    · rw [show (BT.node x c s).ptr = some x from rfl]
      simp only [makeNodeList]
      rw [hch, e1]
      simp only []
      rw [o1 x hxc, hsib, e2]
      simp only []
      rw [hIs1]
      exact e3
    · intro y hy
      rw [hmem] at hy
      simp only [not_or] at hy
      rw [ho3 y hy.1, o2 y hy.2.2, o1 y hy.2.1]
    · intro y hy hl
      rcases (hmem y).1 hy with rfl | hy | hy
      · rw [hx3] at hl ⊢
        exact dl hl
      · rw [hc3 y hy] at hl ⊢
        exact l1 y hy hl
      · rw [hs3 y hy] at hl ⊢
        exact l2 y hy hl
    · intro y hy hl
      simp only [internalsF]
      rcases (hmem y).1 hy with rfl | hy | hy
      · rw [hx3] at hl ⊢
        have hl0 : (t.heap y).Leaf = false := hl
        have := di hl0
        simp only [hl0]
        show t.count ≤ d ∧ d < _
        simp
        omega
      · rw [hc3 y hy] at hl ⊢
        have := r1 y hy hl
        omega
      · rw [hs3 y hy] at hl ⊢
        have := r2 y hy hl
        omega
    · intro y hy z hz hly hlz hyz
      have hcase : ∀ w, w ∈ (BT.node x c s).addrs → (H3 w).Leaf = false →
          (w = x ∧ (H3 w).Index = t.count + internalsF t.heap c + internalsF t.heap s) ∨
          (w ∈ c.addrs ∧ H3 w = H1 w ∧ (H3 w).Index < t.count + internalsF t.heap c) ∨
          (w ∈ s.addrs ∧ H3 w = H2 w ∧ t.count + internalsF t.heap c ≤ (H3 w).Index ∧
            (H3 w).Index < t.count + internalsF t.heap c + internalsF t.heap s) := by
        intro w hw hlw
        rcases (hmem w).1 hw with rfl | hw | hw
        · left
          rw [hx3] at hlw ⊢
          exact ⟨rfl, di hlw⟩
        · right; left
          rw [hc3 w hw] at hlw ⊢
          exact ⟨hw, rfl, (r1 w hw hlw).2⟩
        · right; right
          rw [hs3 w hw] at hlw ⊢
          exact ⟨hw, rfl, r2 w hw hlw⟩
      rcases hcase y hy hly with ⟨rfl, iy⟩ | ⟨hyc, ey, iy⟩ | ⟨hys, ey, iy1, iy2⟩ <;>
        rcases hcase z hz hlz with ⟨rfl, iz⟩ | ⟨hzc, ez, iz⟩ | ⟨hzs, ez, iz1, iz2⟩
      · rfl
      · omega
      · omega
      · omega
      · rw [ey] at hly hyz; rw [ez] at hlz hyz
        exact j1 y hyc z hzc hly hlz hyz
      · omega
      · omega
      · omega
      · rw [ey] at hly hyz; rw [ez] at hlz hyz
        exact j2 y hys z hzs hly hlz hyz
    · intro i h1 h2
      simp only [internalsF] at h2
      by_cases hi1 : i < t.count + internalsF t.heap c
      · obtain ⟨y, hy, hl, hi⟩ := u1 i h1 hi1
        exact ⟨y, (hmem y).2 (Or.inr (Or.inl hy)), by rw [hc3 y hy]; exact hl,
          by rw [hc3 y hy]; exact hi⟩
      · by_cases hi2 : i < t.count + internalsF t.heap c + internalsF t.heap s
        · obtain ⟨y, hy, hl, hi⟩ := u2 i (by omega) hi2
          exact ⟨y, (hmem y).2 (Or.inr (Or.inr hy)), by rw [hs3 y hy]; exact hl,
            by rw [hs3 y hy]; exact hi⟩
        · have hl0 : (t.heap x).Leaf = false := by
            by_contra hne
            have : (t.heap x).Leaf = true := by simpa using hne
            simp only [this, if_true] at h2
            omega
          simp only [hl0] at h2
          simp at h2
          refine ⟨x, (hmem x).2 (Or.inl rfl), by rw [hx3]; exact hl0, ?_⟩
          rw [hx3]
          show d = i
          rw [di hl0]; omega
    · intro i
      simp only [BT.post]
      rw [slotsAfter_append, slotsAfter_append, g3 i]
      simp only [slotsAfter]
      have e5 : slotsAfter (fun y => (H3 y).Index) c.post ix.slot =
          slotsAfter (fun y => (H1 y).Index) c.post ix.slot :=
        slotsAfter_congr _ _ c.post _
          (fun y hy => by rw [hc3 y ((post_mem c y).1 hy)])
      have e6 : ∀ f, slotsAfter (fun y => (H3 y).Index) s.post f =
          slotsAfter (fun y => (H2 y).Index) s.post f := fun f =>
        slotsAfter_congr _ _ s.post _
          (fun y hy => by rw [hs3 y ((post_mem s y).1 hy)])
      rw [e5, e6]
      have e7 : (H3 x).Index = d := by rw [hx3]
      simp only [e7]
      have e8 : ix2.slot = slotsAfter (fun y => (H2 y).Index) s.post ix1.slot := funext g2
      have e9 : ix1.slot = slotsAfter (fun y => (H1 y).Index) c.post ix.slot := funext g1
      rw [e8, e9]

theorem leavesF_length (h : Heap) : ∀ S : BT, leavesF h S = ((leafNums h S).length : Int) := by
  intro S
  induction S with
  | nil => simp [leavesF, leafNums, BT.addrs]
  | node x c s ihc ihs =>
    simp only [leafNums, List.length_map] at ihc ihs ⊢
    simp only [leavesF, BT.addrs, List.filter_cons, List.filter_append, ihc, ihs]
    by_cases hl : (h x).Leaf = true
    · simp [hl]; omega
    · simp [hl]

theorem leafNums_congr (h h1 : Heap) (S : BT)
    (hy : ∀ y ∈ S.addrs, (h1 y).Leaf = (h y).Leaf ∧ (h1 y).LeafNumber = (h y).LeafNumber) :
    leafNums h1 S = leafNums h S := by
  unfold leafNums
  have e : (S.addrs.filter fun y => (h1 y).Leaf) = S.addrs.filter fun y => (h y).Leaf :=
    List.filter_congr (fun y hy1 => by rw [(hy y hy1).1])
  rw [e]
  exact List.map_congr_left (fun y hy1 => (hy y (List.mem_of_mem_filter hy1)).2)

theorem leafNums_mem (h : Heap) (S : BT) (x : Nat) (hx : x ∈ S.addrs)
    (hl : (h x).Leaf = true) : (h x).LeafNumber ∈ leafNums h S := by
  unfold leafNums
  exact List.mem_map.2 ⟨x, List.mem_filter.2 ⟨hx, by simpa using hl⟩, rfl⟩

theorem numbering_nodup (n : Nat) : (numbering n).Nodup :=
  (List.nodup_range n).map (fun a b e => by
    have : (a : Int) + 1 = (b : Int) + 1 := e
    omega)

theorem numbering_mem (n : Nat) (k : Int) : k ∈ numbering n ↔ 1 ≤ k ∧ k ≤ n := by
  simp only [numbering, List.mem_map, List.mem_range]
  constructor
  · rintro ⟨a, ha, rfl⟩; omega
  · rintro ⟨h1, h2⟩; exact ⟨(k - 1).toNat, by omega, by omega⟩

theorem MakeNodeList_index (t : Tree) (ix : NodeIndex) (T : BT) (n fuel : Nat)
    (hwf : WellFormed t T)
    (hnum : (leafNums t.heap T).Perm (numbering n))
    (hf : T.size < fuel) :
    ∃ t2 ix2, MakeNodeList fuel (t, ix) = some (t2, ix2) ∧ WellFormed t2 T ∧
      ix2.size = t2.Leaves + t2.Internals ∧
      t2.Leaves = leavesF t.heap T ∧ t2.Internals = internalsF t.heap T ∧
      (∀ y, ((t2.heap y).clearIndex).clearWD = ((t.heap y).clearIndex).clearWD) ∧
      (∀ x ∈ T.addrs, (t2.heap x).Leaf = true →
        (t2.heap x).Index = (t2.heap x).LeafNumber - 1 ∧ 0 ≤ (t2.heap x).Index ∧
        (t2.heap x).Index < t2.Leaves) ∧
      (∀ x ∈ T.addrs, (t2.heap x).Leaf = false →
        t2.Leaves ≤ (t2.heap x).Index ∧ (t2.heap x).Index < t2.Leaves + t2.Internals) ∧
      (∀ x ∈ T.addrs, ix2.slot (t2.heap x).Index = some x) ∧
      (∀ i, 0 ≤ i → i < ix2.size → ∃ x ∈ T.addrs, (t2.heap x).Index = i) := by
  obtain ⟨t1, hU, hwf1, hclr, hout, -, -, -, -, hL, hI, -⟩ := Update_post t T fuel hwf hf
  obtain ⟨hroot1, hsing1, hrep1, hnd1, hlc1⟩ := hwf1
  have hfld : ∀ y ∈ T.addrs, (t1.heap y).Leaf = (t.heap y).Leaf ∧
      (t1.heap y).LeafNumber = (t.heap y).LeafNumber := fun y hy =>
    ⟨(clearWD_fields _ _ (hclr y hy)).2.2.2, by
      have h := congrArg Node.LeafNumber (hclr y hy)
      exact h⟩
  have hnums1 : leafNums t1.heap T = leafNums t.heap T := leafNums_congr _ _ T hfld
  have hLn : t1.Leaves = (n : Int) := by
    rw [hL, leavesF_length, hnums1, hnum.length_eq]; simp [numbering]
  have hI0 : 0 ≤ t1.Internals := by rw [hI]; exact internalsF_nonneg _ _
  have hleafb : ∀ x ∈ T.addrs, (t1.heap x).Leaf = true →
      1 ≤ (t1.heap x).LeafNumber ∧ (t1.heap x).LeafNumber ≤ t1.Leaves := by
    intro x hx hl
    have hm := leafNums_mem t1.heap T x hx hl
    rw [hnums1] at hm
    have := (numbering_mem n _).1 (hnum.mem_iff.1 hm)
    rw [hLn]; exact this
  have hsize : ({ ix with Nodes := some (List.replicate (t1.Leaves + t1.Internals).toNat
      (none : Option Nat)) } : NodeIndex).size = t1.Leaves + t1.Internals := by
    simp only [NodeIndex.size, List.length_replicate]
    omega
  obtain ⟨H, ix2, e, z, k, o, l, r, j, u, g⟩ := makeNodeList_chain T fuel
    { t1 with count := t1.Leaves }
    { ix with Nodes := some (List.replicate (t1.Leaves + t1.Internals).toNat none) } none
    hrep1 hnd1 hf hleafb (by rw [hLn]; omega) (le_refl _)
    (by rw [hsize]; show t1.Leaves + internalsF t1.heap T ≤ _; rw [hI]) hsize hI0
  have k : ∀ y, (H y).clearIndex = (t1.heap y).clearIndex := k
  have hHl : ∀ y, (H y).Leaf = (t1.heap y).Leaf :=
    fun y => (clearIndex_fields _ _ (k y)).2.2.2.1
  have hHn : ∀ y, (H y).LeafNumber = (t1.heap y).LeafNumber :=
    fun y => (clearIndex_fields _ _ (k y)).2.2.2.2
  have hleafI : ∀ x ∈ T.addrs, (H x).Leaf = true →
      (H x).Index = (H x).LeafNumber - 1 ∧ 0 ≤ (H x).Index ∧ (H x).Index < t1.Leaves := by
    intro x hx hl
    have h1 := l x hx hl
    have := hleafb x hx ((hHl x).symm.trans hl)
    rw [← hHn x] at this
    refine ⟨h1, ?_, ?_⟩ <;> omega
  have hinnI : ∀ x ∈ T.addrs, (H x).Leaf = false →
      t1.Leaves ≤ (H x).Index ∧ (H x).Index < t1.Leaves + t1.Internals := by
    intro x hx hl
    have := r x hx hl
    rw [hI]
    exact this
  have hnodup : (leafNums t1.heap T).Nodup := by
    rw [hnums1]; exact hnum.nodup_iff.2 (numbering_nodup n)
  have hinj : ∀ x ∈ T.addrs, ∀ y ∈ T.addrs, (H y).Index = (H x).Index → y = x := by
    intro x hx y hy hxy
    cases hlx : (H x).Leaf <;> cases hly : (H y).Leaf
    · exact j y hy x hx hly hlx hxy
    · have := hleafI y hy hly; have := hinnI x hx hlx; omega
    · have := hleafI x hx hlx; have := hinnI y hy hly; omega
    · have h1 := (hleafI x hx hlx).1
      have h2 := (hleafI y hy hly).1
      have hnn : (t1.heap y).LeafNumber = (t1.heap x).LeafNumber := by
        rw [← hHn x, ← hHn y]; omega
      unfold leafNums at hnodup
      exact List.inj_on_of_nodup_map hnodup
        (List.mem_filter.2 ⟨hy, by simpa using (hHl y).symm.trans hly⟩)
        (List.mem_filter.2 ⟨hx, by simpa using (hHl x).symm.trans hlx⟩) hnn
  refine ⟨{ t1 with heap := H, count := t1.Leaves + internalsF t1.heap T }, ix2, ?_, ?_, ?_,
    hL.trans (leavesF_congr _ _ T (fun y hy => (hfld y hy).1)),
    hI.trans (internalsF_congr _ _ T (fun y hy => (hfld y hy).1)), ?_, hleafI, hinnI, ?_, ?_⟩
  · unfold MakeNodeList
    simp only [hU]
    rw [if_neg (by omega)]
    rw [← hroot1] at e
    exact e
  · refine ⟨hroot1, hsing1, Rep_congr t1.heap H T none (fun y _ => ?_) hrep1, hnd1,
      LeavesChildless_congr t1.heap H T (fun y _ => hHl y) hlc1⟩
    have := clearIndex_fields _ _ (k y)
    exact ⟨this.1, this.2.1, this.2.2.1⟩
  · rw [z, hsize]
  · intro y
    show ((H y).clearIndex).clearWD = _
    rw [k y]
    by_cases hy : y ∈ T.addrs
    · show ((t1.heap y).clearWD).clearIndex = ((t.heap y).clearWD).clearIndex
      rw [hclr y hy]
    · rw [hout y hy]
  · intro x hx
    rw [g]
    exact slotsAfter_mem (fun y => (H y).Index) T.post _ x ((post_mem T x).2 hx)
      (fun y hy => hinj x hx y ((post_mem T y).1 hy))
  · intro i hi0 hi1
    rw [z, hsize] at hi1
    by_cases hiL : i < t1.Leaves
    · have hm : i + 1 ∈ leafNums t1.heap T := by
        rw [hnums1]
        exact hnum.mem_iff.2 ((numbering_mem n _).2 (by omega))
      unfold leafNums at hm
      obtain ⟨x, hxf, hxn⟩ := List.mem_map.1 hm
      obtain ⟨hx, hxl⟩ := List.mem_filter.1 hxf
      have hl : (H x).Leaf = true := (hHl x).trans (by simpa using hxl)
      refine ⟨x, hx, ?_⟩
      rw [(hleafI x hx hl).1, hHn x, hxn]; omega
    · obtain ⟨x, hx, -, hxi⟩ := u i (by show t1.Leaves ≤ i; omega)
        (by show i < t1.Leaves + internalsF t1.heap T; rw [← hI]; exact hi1)
      exact ⟨x, hx, hxi⟩

theorem leafNums_node (h : Heap) (x : Nat) (c s : BT) :
    leafNums h (BT.node x c s) =
      (if (h x).Leaf then [(h x).LeafNumber] else []) ++ leafNums h c ++ leafNums h s := by
  unfold leafNums
  by_cases hl : (h x).Leaf = true <;>
    simp [BT.addrs, List.filter_cons, List.filter_append, hl]

theorem shifted_succ (L : Int) (n : Nat) :
    ((List.range (1 + n)).map fun (k : Nat) => L + (k : Int) + 1) =
      (L + 1) :: (List.range n).map fun (k : Nat) => L + 1 + (k : Int) + 1 := by
  rw [Nat.add_comm, List.range_succ_eq_map]
  simp only [List.map_cons, List.map_map]
  refine congrArg₂ _ (by simp) (List.map_congr_left (fun k _ => ?_))
  simp only [Function.comp]
  push_cast
  ring

theorem shifted_append (L : Int) (n m : Nat) :
    ((List.range (n + m)).map fun (k : Nat) => L + (k : Int) + 1) =
      ((List.range n).map fun (k : Nat) => L + (k : Int) + 1) ++
        (List.range m).map fun (k : Nat) => L + (n : Int) + (k : Int) + 1 := by
  rw [List.range_add, List.map_append, List.map_map]
  refine congrArg _ (List.map_congr_left (fun k _ => ?_))
  simp only [Function.comp]
  push_cast
  ring

theorem leafNums_Matches (cap : Int) (h : Heap) (F : PT) : ∀ (a : Option Nat) (x : Nat)
    (L : Int), Matches cap h a x L F →
      leafNums h (F.shape x) = (List.range F.leaves).map fun (k : Nat) => L + (k : Int) + 1 := by
  induction F with
  | nil => intro a x L _; simp [leafNums, PT.shape, BT.addrs, PT.leaves]
  | leaf name bi comma sib ih =>
    intro a x L hm
    have hl : (h x).Leaf = true := by
      rw [hm.1, expLeaf, (Branch.apply_fields cap bi _).2.2.2.2.1]
    have hn : (h x).LeafNumber = L + 1 := by
      rw [hm.1, expLeaf, (Branch.apply_fields cap bi _).2.2.2.2.2.2.2]
    simp only [PT.shape, PT.leaves]
    rw [leafNums_node, hl, hn, ih _ _ _ hm.2, shifted_succ]
    simp [leafNums, BT.addrs]
  | internal lpar child rpar label bi comma sib ihc ihs =>
    intro a x L hm
    have hl : (h x).Leaf = false := by
      rw [hm.1, expInternal, (Branch.apply_fields cap bi _).2.2.2.2.1]
    simp only [PT.shape, PT.leaves]
    rw [leafNums_node, hl, ihc _ _ _ hm.2.1, ihs _ _ _ hm.2.2, shifted_append]
    simp

theorem PT.size_split (F : PT) : F.size = F.leaves + F.internals := by
  induction F with
  | nil => rfl
  | leaf name bi comma sib ih => simp only [PT.size, PT.leaves, PT.internals]; omega
  | internal lpar child rpar label bi comma sib ihc ihs =>
    simp only [PT.size, PT.leaves, PT.internals]; omega

theorem Parse_leafNums (cap : Int) (fuel : Nat) (t : Tree) (root : PT) (descr : List Token)
    (hd : Derives root descr) (hacc : Accepts cap fuel t descr) :
    ∃ N, ∀ fuel1, N ≤ fuel1 → ∃ t1, Parse cap fuel1 t descr = some (0, t1) ∧
      WellFormed t1 (root.shape t.next) ∧ (root.shape t.next).size = root.size ∧
      t1.Leaves = root.leaves ∧ t1.Internals = root.internals ∧
      leafNums t1.heap (root.shape t.next) = numbering root.leaves := by
  obtain ⟨N, hN⟩ := Parse_derived cap fuel t root descr hd hacc
  refine ⟨N, fun fuel1 hf => ?_⟩
  obtain ⟨t1, hp, hroot, -, hL, hI, -, hm, -⟩ := hN fuel1 hf
  obtain ⟨hR, hB⟩ := Matches_Rep cap _ root none t.next 0 hd.1 hm
  have hB1 : LeavesBare t1.heap (root.shape t.next) :=
    LeavesBare_congr t1.heap.clearPL _ _ (fun x _ => ⟨rfl, rfl, rfl⟩) hB
  have hR1 : Rep t1.heap none (root.shape t.next) :=
    Rep_congr t1.heap.clearPL _ _ none (fun x _ => ⟨rfl, rfl, rfl⟩) hR
  obtain ⟨c, hc⟩ := PT.shape_single root t.next hd.2.1
  refine ⟨t1, hp, ⟨?_, Or.inr ⟨_, _, hc⟩, hR1, PT.shape_nodup root _,
    LeavesBare.childless _ _ hB1⟩, PT.shape_size root _, hL, hI, ?_⟩
  · rw [hroot, hc]; rfl
  · rw [leafNums_congr t1.heap.clearPL t1.heap _ (fun y _ => ⟨rfl, rfl⟩),
      leafNums_Matches cap _ root none t.next 0 hm]
    unfold numbering
    exact List.map_congr_left (fun k _ => by ring)

/-- For every description derived from the grammar that `Tree::Parse` accepts,
`MakeNodeList` on the parsed tree returns, leaves the tree well-formed with the same
`Leaves` and `Internals`, and builds an array `Nodes` of `Leaves + Internals` slots
in which every leaf has `Index = LeafNumber - 1` (a slot below `Leaves`), every
internal node has an `Index` from `Leaves` to `Leaves + Internals - 1`, every slot of
the array is the `Index` of a node of the tree (no gaps), no two nodes have the same
`Index`, and the slot `Index` of every node holds that node. -/
theorem Parse_derived_index (cap : Int) (fuel : Nat) (t : Tree) (ix : NodeIndex)
    (root : PT) (descr : List Token) (hd : Derives root descr)
    (hacc : Accepts cap fuel t descr) :
    ∃ N, ∀ fuel1, N ≤ fuel1 → ∃ t1 t2 ix2, Parse cap fuel1 t descr = some (0, t1) ∧
      MakeNodeList fuel1 (t1, ix) = some (t2, ix2) ∧
      WellFormed t1 (root.shape t.next) ∧ WellFormed t2 (root.shape t.next) ∧
      t2.Leaves = t1.Leaves ∧ t2.Internals = t1.Internals ∧
      ix2.size = t2.Leaves + t2.Internals ∧
      (∀ x ∈ (root.shape t.next).addrs, (t2.heap x).Leaf = true →
        (t2.heap x).Index = (t2.heap x).LeafNumber - 1 ∧ 0 ≤ (t2.heap x).Index ∧
        (t2.heap x).Index < t2.Leaves) ∧
      (∀ x ∈ (root.shape t.next).addrs, (t2.heap x).Leaf = false →
        t2.Leaves ≤ (t2.heap x).Index ∧ (t2.heap x).Index < t2.Leaves + t2.Internals) ∧
      (∀ i, 0 ≤ i → i < t2.Leaves + t2.Internals →
        ∃ x ∈ (root.shape t.next).addrs, (t2.heap x).Index = i) ∧
      (∀ x ∈ (root.shape t.next).addrs, ∀ y ∈ (root.shape t.next).addrs,
        (t2.heap x).Index = (t2.heap y).Index → x = y) ∧
      (∀ x ∈ (root.shape t.next).addrs, ix2.slot (t2.heap x).Index = some x) := by
  obtain ⟨N, hN⟩ := Parse_leafNums cap fuel t root descr hd hacc
  refine ⟨max N (root.size + 1), fun fuel1 hf => ?_⟩
  obtain ⟨t1, hp, hwf, hsz, hL, hI, hnum⟩ := hN fuel1 (le_trans (le_max_left _ _) hf)
  have hfuel : (root.shape t.next).size < fuel1 := by
    rw [hsz]; exact lt_of_lt_of_le (Nat.lt_succ_self _) (le_trans (le_max_right _ _) hf)
  obtain ⟨t2, ix2, hM, hwf2, h1, h2, h3, -, h5, h6, h7, h8⟩ :=
    MakeNodeList_index t1 ix (root.shape t.next) root.leaves fuel1 hwf
      (by rw [hnum]) hfuel
  have hL1 : t1.Leaves = leavesF t1.heap (root.shape t.next) := by
    rw [hL, leavesF_length, hnum]; simp [numbering]
  have hI1 : t1.Internals = internalsF t1.heap (root.shape t.next) := by
    have e := leavesF_add_internalsF t1.heap (root.shape t.next)
    rw [← hL1, hsz, hL] at e
    rw [hI]
    have := PT.size_split root
    omega
  refine ⟨t1, t2, ix2, hp, hM, hwf, hwf2, h2.trans hL1.symm, h3.trans hI1.symm, h1, h5, h6,
    fun i hi0 hi1 => h8 i hi0 (by rw [h1]; exact hi1), fun x hx y hy hxy => ?_, h7⟩
  have ex := h7 x hx
  rw [hxy, h7 y hy] at ex
  exact (Option.some.inj ex).symm

/-- The index built for the description `((A:1,B:2):3,C:4);`: the leaves `A`, `B`, `C`
(addresses 2, 3, 4) sit in the slots 0, 1, 2, the inner node (address 1) in slot 3 and
the root (address 0) in slot 4, and each label is found again. -/
theorem MakeNodeList_descrNested :
    ((MakeNodeList 10 (parsed descrNested, {})).map fun st =>
      (st.2.Nodes, st.1.Leaves, st.1.Internals)) =
      some (some [some 2, some 3, some 4, some 1, some 0], 3, 2) ∧
    ((MakeNodeList 10 (parsed descrNested, {})).map fun st =>
      (List.range 5).map fun i => (st.1.heap i).Index) = some [4, 3, 0, 1, 2] ∧
    ((MakeNodeList 10 (parsed descrNested, {})).map fun st =>
      (GetLeafWithLabel st.2 "A", GetLeafWithLabel st.2 "B", GetLeafWithLabel st.2 "C",
        GetLeafWithLabel st.2 "D")) =
      some (some (some 2), some (some 3), some (some 4), some none) := by
  refine ⟨?_, ?_, ?_⟩ <;> decide!

/-- C22 (code bug): `RemoveNode` leaves the leaf numbers of the remaining leaves as
`Parse` gave them, while `MakeNodeList` sizes the array by the new `Leaves` and starts
the internal nodes at slot `Leaves`. On the tree parsed from `(A,B,C);`, after
`RemoveNode` of the leaf `A` (address 1), `MakeNodeList` builds an array of three slots
in which slot 0 is never assigned and slot 2, the slot of the leaf `C` (address 3), is
overwritten by the root (address 0): `GetLeafWithLabel ("C")` returns the root. On the
tree parsed from `(A,B,C,D);`, after `RemoveNode` of the leaves `A` and `B` (addresses
1 and 2), the array has three slots and the leaf `D` has the slot 3: the `assert` in
`makeNodeList` fails. -/
theorem MakeNodeList_after_RemoveNode :
    (RemoveNode 10 (parsed descrABC) 1).isSome = true ∧
    ((afterRemove (parsed descrABC) 1).heap 3).Leaf = true ∧
    ((afterRemove (parsed descrABC) 1).heap 3).Label = "C" ∧
    ((afterRemove (parsed descrABC) 1).heap 3).Anc = some 0 ∧
    ((afterRemove (parsed descrABC) 1).heap 0).Leaf = false ∧
    (afterRemove (parsed descrABC) 1).Root = some 0 ∧
    ((MakeNodeList 10 (afterRemove (parsed descrABC) 1, {})).map fun st =>
      (st.2.Nodes, st.1.Leaves, st.1.Internals)) =
      some (some [none, some 2, some 0], 2, 1) ∧
    ((MakeNodeList 10 (afterRemove (parsed descrABC) 1, {})).map fun st =>
      (GetLeafWithLabel st.2 "C", GetLeafWithLabel st.2 "B")) =
      some (some (some 0), some (some 2)) ∧
    (RemoveNode 10 (parsed descrABCD) 1).isSome = true ∧
    (RemoveNode 10 (afterRemove (parsed descrABCD) 1) 2).isSome = true ∧
    ((Update 10 (afterRemove (afterRemove (parsed descrABCD) 1) 2)).map fun t =>
      (t.Leaves, t.Internals, (t.heap 4).Leaf, (t.heap 4).LeafNumber, (t.heap 4).Anc)) =
      some (2, 1, true, 4, some 0) ∧
    (MakeNodeList 10 (afterRemove (afterRemove (parsed descrABCD) 1) 2, {})).isNone = true := by
  refine ⟨?_, ?_, ?_, ?_, ?_, ?_, ?_, ?_, ?_, ?_, ?_, ?_⟩ <;> decide!

/-! ## Draw -/

theorem heightStep_eq (t : Tree) (p : Nat) :
    heightStep t p =
      { t with
        heap := t.heap.modify p fun n => { n with Height := t.Leaves - n.Weight }
        MaxHeight := max t.MaxHeight (t.Leaves - (t.heap p).Weight) } := by
  unfold heightStep
  have e : ((t.heap.modify p fun n => { n with Height := t.Leaves - n.Weight }) p).Height =
      t.Leaves - (t.heap p).Weight := by simp [Heap.modify, Heap.set]
  simp only [e]
  by_cases h : t.Leaves - (t.heap p).Weight > t.MaxHeight
  · rw [if_pos h, max_eq_right (le_of_lt h)]
  · rw [if_neg h, max_eq_left (not_lt.1 h)]

theorem clearHeight_modify (h : Heap) (x y : Nat) (f : Node → Int) :
    ((h.modify x fun n => { n with Height := f n }) y).clearHeight = (h y).clearHeight := by
  by_cases hy : y = x
  · subst hy; simp [Heap.modify, Heap.set, Node.clearHeight]
  · simp [Heap.modify, Heap.set, hy]

theorem clearHeight_fields (n m : Node) (h : n.clearHeight = m.clearHeight) :
    n.Anc = m.Anc ∧ n.Child = m.Child ∧ n.Sib = m.Sib ∧ n.Leaf = m.Leaf ∧
      n.Weight = m.Weight ∧ n.Label = m.Label := by
  have h1 := congrArg Node.Anc h
  have h2 := congrArg Node.Child h
  have h3 := congrArg Node.Sib h
  have h4 := congrArg Node.Leaf h
  have h5 := congrArg Node.Weight h
  have h6 := congrArg Node.Label h
  exact ⟨h1, h2, h3, h4, h5, h6⟩

theorem getNodeHeights_chain : ∀ (S : BT) (fuel : Nat) (t : Tree) (a : Option Nat),
    Rep t.heap a S → S.addrs.Nodup → S.size < fuel →
    ∃ (H : Heap) (m : Int),
      getNodeHeights fuel t S.ptr = some { t with heap := H, MaxHeight := m } ∧
      (∀ y ∈ S.addrs, (H y).Height = t.Leaves - (t.heap y).Weight) ∧
      (∀ y, y ∉ S.addrs → H y = t.heap y) ∧
      (∀ y, (H y).clearHeight = (t.heap y).clearHeight) ∧
      t.MaxHeight ≤ m ∧ (∀ y ∈ S.addrs, (H y).Height ≤ m) ∧
      (m = t.MaxHeight ∨ ∃ y ∈ S.addrs, (H y).Height = m) := by
  intro S
  induction S with
  | nil =>
    intro fuel t a _ _ hf
    obtain ⟨n, rfl⟩ : ∃ n, fuel = n + 1 := ⟨fuel - 1, by simp [BT.size] at hf; omega⟩
    exact ⟨t.heap, t.MaxHeight, by simp [BT.ptr, getNodeHeights],
      fun y hy => by simp [BT.addrs] at hy, fun _ _ => rfl, fun _ => rfl, le_refl _,
      fun y hy => by simp [BT.addrs] at hy, Or.inl rfl⟩
  | node x c s ihc ihs =>
    intro fuel t a hrep hnd hf
    obtain ⟨n, rfl⟩ : ∃ n, fuel = n + 1 := ⟨fuel - 1, by omega⟩
    obtain ⟨hanc, hch, hsib, hrc, hrs⟩ := hrep
    simp only [BT.addrs, List.nodup_cons, List.mem_append, not_or, List.nodup_append] at hnd
    obtain ⟨⟨hxc, hxs⟩, hcn, hsn, hdis⟩ := hnd
    simp only [BT.size] at hf
    have g2 : ∀ y, ((t.heap.modify x fun n => { n with Height := t.Leaves - n.Weight }) y).clearHeight
        = (t.heap y).clearHeight := fun y => clearHeight_modify t.heap x y _
    have hrc2 : Rep (t.heap.modify x fun n => { n with Height := t.Leaves - n.Weight })
        (some x) c :=
      Rep_congr t.heap _ c _ (fun y _ => by
        have := clearHeight_fields _ _ (g2 y)
        exact ⟨this.1, this.2.1, this.2.2.1⟩) hrc
    obtain ⟨H3, m3, e3, a3, f3, g3, l3, u3, w3⟩ := ihc n
      { t with
        heap := t.heap.modify x fun n => { n with Height := t.Leaves - n.Weight }
        MaxHeight := max t.MaxHeight (t.Leaves - (t.heap x).Weight) } (some x) hrc2 hcn
      (by omega)
    have a3 : ∀ y ∈ c.addrs, (H3 y).Height = t.Leaves -
        ((t.heap.modify x fun n => { n with Height := t.Leaves - n.Weight }) y).Weight := a3
    have f3 : ∀ y, y ∉ c.addrs →
        H3 y = (t.heap.modify x fun n => { n with Height := t.Leaves - n.Weight }) y := f3
    have g3 : ∀ y, (H3 y).clearHeight =
        ((t.heap.modify x fun n => { n with Height := t.Leaves - n.Weight }) y).clearHeight :=
      g3
    have l3 : max t.MaxHeight (t.Leaves - (t.heap x).Weight) ≤ m3 := l3
    have w3 : m3 = max t.MaxHeight (t.Leaves - (t.heap x).Weight) ∨
        ∃ y ∈ c.addrs, (H3 y).Height = m3 := w3
    have g30 : ∀ y, (H3 y).clearHeight = (t.heap y).clearHeight :=
      fun y => (g3 y).trans (g2 y)
    have hx3 : (H3 x).Height = t.Leaves - (t.heap x).Weight := by
      rw [f3 x hxc]; simp [Heap.modify, Heap.set]
    have hrs4 : Rep H3 a s :=
      Rep_congr t.heap _ s _ (fun y _ => by
        have := clearHeight_fields _ _ (g30 y)
        exact ⟨this.1, this.2.1, this.2.2.1⟩) hrs
    obtain ⟨H5, m5, e5, a5, f5, g5, l5, u5, w5⟩ := ihs n
      { t with heap := H3, MaxHeight := m3 } a hrs4 hsn (by omega)
    have a5 : ∀ y ∈ s.addrs, (H5 y).Height = t.Leaves - (H3 y).Weight := a5
    have f5 : ∀ y, y ∉ s.addrs → H5 y = H3 y := f5
    have g5 : ∀ y, (H5 y).clearHeight = (H3 y).clearHeight := g5
    have l5 : m3 ≤ m5 := l5
    have w5 : m5 = m3 ∨ ∃ y ∈ s.addrs, (H5 y).Height = m5 := w5
    have hw3 : ∀ y, (H3 y).Weight = (t.heap y).Weight :=
      fun y => (clearHeight_fields _ _ (g30 y)).2.2.2.2.1
    have hc5 : ∀ y ∈ c.addrs, H5 y = H3 y := fun y hy => f5 y (fun hys => hdis hy hys)
    refine ⟨H5, m5, ?_, ?_, ?_, fun y => (g5 y).trans (g30 y), ?_, ?_, ?_⟩
    · rw [show (BT.node x c s).ptr = some x from rfl]
      simp only [getNodeHeights, heightStep_eq]
      have e1 : ((t.heap.modify x fun n => { n with Height := t.Leaves - n.Weight }) x).Child
          = c.ptr := by
        simp [Heap.modify, Heap.set, hch]
      rw [e1, e3]
      simp only []
      have e2 : (H3 x).Sib = s.ptr := by
        rw [(clearHeight_fields _ _ (g30 x)).2.2.1]; exact hsib
      rw [e2, e5]
    · intro y hy
      simp only [BT.addrs, List.mem_cons, List.mem_append] at hy
      rcases hy with rfl | hy | hy
      · rw [f5 y hxs, hx3]
      · rw [hc5 y hy, a3 y hy]
        have := (clearHeight_fields _ _ (g2 y)).2.2.2.2.1
        rw [this]
      · rw [a5 y hy, hw3 y]
    · intro y hy
      simp only [BT.addrs, List.mem_cons, List.mem_append, not_or] at hy
      rw [f5 y hy.2.2, f3 y hy.2.1]
      simp [Heap.modify, Heap.set, hy.1]
    · exact le_trans (le_trans (le_max_left _ _) l3) l5
    · intro y hy
      simp only [BT.addrs, List.mem_cons, List.mem_append] at hy
      rcases hy with rfl | hy | hy
      · rw [f5 y hxs, hx3]
        exact le_trans (le_trans (le_max_right _ _) l3) l5
      · rw [hc5 y hy]; exact le_trans (u3 y hy) l5
      · exact u5 y hy
    · rcases w5 with w5 | ⟨y, hy, hym⟩
      · rcases w3 with w3 | ⟨y, hy, hym⟩
        · rcases max_choice t.MaxHeight (t.Leaves - (t.heap x).Weight) with hm | hm
          · left; rw [w5, w3, hm]
          · right
            refine ⟨x, by simp [BT.addrs], ?_⟩
            rw [f5 x hxs, hx3, w5, w3, hm]
        · right
          refine ⟨y, by simp [BT.addrs, hy], ?_⟩
          rw [hc5 y hy, hym, w5]
      · right
        exact ⟨y, by simp [BT.addrs, hy], hym⟩

theorem Canvas.put_ok (c : Canvas) (i : Int) (ch : Char) (h0 : 0 ≤ i)
    (h1 : i < (c.Line.length : Int)) :
    ∃ c1, c.put i ch = some c1 ∧ c1.Line.length = c.Line.length ∧ c1.rows = c.rows := by
  have h : 0 ≤ i ∧ i.toNat < c.Line.length := ⟨h0, by omega⟩
  exact ⟨{ c with Line := c.Line.set i.toNat ch }, by unfold Canvas.put; rw [if_pos h],
    by simp, rfl⟩

theorem Canvas.putRun_ok (ch : Char) : ∀ (n : Nat) (lo : Int) (c : Canvas), 0 ≤ lo →
    lo + (n : Int) ≤ (c.Line.length : Int) →
    ∃ c1, Canvas.putRun ch n lo c = some c1 ∧ c1.Line.length = c.Line.length ∧
      c1.rows = c.rows := by
  intro n
  induction n with
  | zero => intro lo c _ _; exact ⟨c, rfl, rfl, rfl⟩
  | succ n ih =>
    intro lo c h0 h1
    obtain ⟨c1, e1, l1, r1⟩ := Canvas.put_ok c lo ch h0 (by push_cast at h1; omega)
    obtain ⟨c2, e2, l2, r2⟩ := ih (lo + 1) c1 (by omega) (by rw [l1]; push_cast at h1; omega)
    refine ⟨c2, ?_, l2.trans l1, r2.trans r1⟩
    simp only [Canvas.putRun, e1, e2]

theorem drawLine_rows (t : Tree) (c : Canvas) (p : Nat) (b : Bool) :
    (drawLine t c p b).Line = c.Line ∧ (drawLine t c p b).rows.length = c.rows.length + 1 := by
  unfold drawLine
  simp only []
  split
  · simp
  · split <;> simp

theorem fillCond_some (t : Tree) (q r a b : Nat) (hq : (t.heap q).Anc = some a)
    (hr : (t.heap r).Anc = some b) : ∃ v, fillCond t q r = some v := by
  unfold fillCond IsTheChild
  simp only [hq, hr, Option.map_some']
  by_cases hs : ((t.heap q).Sib).isSome = true
  · simp only [hs, if_true]
    by_cases h1 : (t.heap b).Child = some r
    · simp only [h1, decide_True, Bool.not_true]
      by_cases h2 : (t.heap a).Child = some q
      · exact ⟨false, by simp [h2]⟩
      · exact ⟨true, by simp [h2]⟩
    · exact ⟨true, by simp [h1]⟩
  · simp only [hs]
    by_cases h2 : (t.heap a).Child = some q
    · exact ⟨false, by simp [h2]⟩
    · exact ⟨decide ((t.heap b).Child = some r), by simp [h2]⟩

theorem fillLoop_ok (g : Glyphs) (t : Tree) (p : Nat) : ∀ (k : Nat) (x r : Nat) (c : Canvas)
    (fuel : Nat), Climbs t k x → (t.heap r).Anc = some x →
    (c.Line.length : Int) = t.Leaves + 2 → k < fuel →
    ∃ c1, fillLoop g t p fuel (some x) r c = some c1 ∧ c1.Line.length = c.Line.length ∧
      c1.rows = c.rows := by
  intro k
  induction k with
  | zero =>
    intro x r c fuel hc _ _ hf
    obtain ⟨n, rfl⟩ : ∃ n, fuel = n + 1 := ⟨fuel - 1, by omega⟩
    have hc : t.Root = some x := hc
    exact ⟨c, by simp [fillLoop, hc], rfl, rfl⟩
  | succ k ih =>
    intro x r c fuel hc hr hl hf
    obtain ⟨n, rfl⟩ : ∃ n, fuel = n + 1 := ⟨fuel - 1, by omega⟩
    obtain ⟨hne, a, ha, h0, h1, hca⟩ := hc
    obtain ⟨v, hv⟩ := fillCond_some t x r a x ha hr
    have hne1 : ¬ some x = t.Root := fun e => hne e.symm
    cases v with
    | false =>
      obtain ⟨c1, e1, l1, r1⟩ := ih a x c n hca ha hl (by omega)
      refine ⟨c1, ?_, l1, r1⟩
      simp only [fillLoop, if_neg hne1, hv, ha]
      exact e1
    | true =>
      obtain ⟨c1, e1, l1, r1⟩ := Canvas.put_ok c (t.heap a).Height
        (if r = p ∧ (t.heap x).Height = (t.heap a).Height then g.SIB else g.VBAR) h0
        (by rw [hl]; exact h1)
      obtain ⟨c2, e2, l2, r2⟩ := ih a x c1 n hca ha (by rw [l1]; exact hl) (by omega)
      refine ⟨c2, ?_, l2.trans l1, r2.trans r1⟩
      simp only [fillLoop, if_neg hne1, hv, ha, e1]
      exact e2

theorem fillInAncestors_ok (g : Glyphs) (t : Tree) (p a k fuel : Nat) (c : Canvas)
    (ha : (t.heap p).Anc = some a) (hc : Climbs t k a)
    (hl : (c.Line.length : Int) = t.Leaves + 2) (hf : k < fuel) :
    ∃ c1, fillInAncestors g t fuel c p = some c1 ∧ c1.Line.length = c.Line.length ∧
      c1.rows = c.rows := by
  unfold fillInAncestors
  rw [ha]
  exact fillLoop_ok g t p k a p c fuel hc ha hl hf

theorem clearLine_ok (t : Tree) (c : Canvas) (hl : (c.Line.length : Int) = t.Leaves + 2) :
    ∃ c1, Canvas.putRun ' ' (t.Leaves + 2).toNat 0 c = some c1 ∧
      c1.Line.length = c.Line.length ∧ c1.rows = c.rows :=
  Canvas.putRun_ok ' ' _ 0 c (le_refl _) (by omega)

theorem drawPendantEdge_ok (g : Glyphs) (t : Tree) (n fuel x : Nat) (c : Canvas)
    (hx : NodeFacts t n x) (hl : (c.Line.length : Int) = t.Leaves + 2) (hf : n ≤ fuel) :
    ∃ c1, drawPendantEdge g t fuel c x = some c1 ∧ c1.Line.length = c.Line.length ∧
      c1.rows.length = c.rows.length + 1 := by
  obtain ⟨a, k, ha, ⟨x0, x1⟩, ⟨a0, a1⟩, hc, hk, -⟩ := hx
  obtain ⟨c1, e1, l1, r1⟩ := Canvas.putRun_ok g.HBAR
    ((t.heap x).Height - (t.heap a).Height).toNat ((t.heap a).Height + 1) c (by omega)
    (by omega)
  obtain ⟨c2, e2, l2, r2⟩ := Canvas.put_ok c1 (t.heap a).Height
    (if (t.heap a).Child = some x then g.LEFT
      else if ((t.heap x).Sib).isSome then g.SIB else g.RIGHT) a0 (by omega)
  obtain ⟨c3, e3, l3, r3⟩ := fillInAncestors_ok g t x a k fuel c2 ha hc (by omega) (by omega)
  obtain ⟨c4, e4, l4, r4⟩ := Canvas.put_ok c3 ((t.heap x).Height + 1) (Char.ofNat 0)
    (by omega) (by omega)
  obtain ⟨d1, d2⟩ := drawLine_rows t c4 x g.isChild
  obtain ⟨c5, e5, l5, r5⟩ := clearLine_ok t (drawLine t c4 x g.isChild)
    (by rw [d1]; omega)
  refine ⟨c5, ?_, ?_, ?_⟩
  · simp only [drawPendantEdge, ha, e1, e2, e3, e4]
    exact e5
  · rw [l5, d1, l4, l3, l2, l1]
  · rw [r5, d2, r4, r3, r2, r1]

theorem drawInteriorEdge_ok (g : Glyphs) (t : Tree) (n fuel x sb : Nat) (c : Canvas)
    (hx : NodeFacts t n x) (hs : (t.heap x).Sib = some sb)
    (hl : (c.Line.length : Int) = t.Leaves + 2) (hf : n ≤ fuel) :
    ∃ c1, drawInteriorEdge g t fuel c x = some c1 ∧ c1.Line.length = c.Line.length ∧
      c1.rows.length = c.rows.length + 1 := by
  obtain ⟨r, k, ha, -, ⟨a0, a1⟩, hc, hk, hsb⟩ := hx
  have hsa := hsb sb hs
  have hisc : IsTheChild t.heap x = some (decide ((t.heap r).Child = some x)) := by
    simp [IsTheChild, ha]
  have hsym : ∃ c5, interiorSymbols g t fuel c x r (decide ((t.heap r).Child = some x)) =
      some c5 ∧ c5.Line.length = c.Line.length ∧ c5.rows = c.rows := by
    unfold interiorSymbols
    by_cases hch : (t.heap r).Child = some x
    · simp only [hch, decide_True, if_true]
      obtain ⟨c1, e1, l1, r1⟩ := Canvas.put_ok c (t.heap r).Height g.TEE a0 (by omega)
      simp only [e1]
      cases k with
      | zero =>
        have hc : t.Root = some r := hc
        exact ⟨c1, by simp [hc], l1, r1⟩
      | succ k =>
        obtain ⟨hne, ra, hra, h0, h1, hca⟩ := hc
        have hne1 : ¬ some r = t.Root := fun e => hne e.symm
        obtain ⟨c2, e2, l2, r2⟩ := Canvas.putRun_ok g.HBAR
          ((t.heap r).Height - (t.heap ra).Height - 1).toNat ((t.heap ra).Height + 1) c1
          (by omega) (by omega)
        have hsy : ∃ sym, startSymbol g t r (t.heap ra).Height (t.heap r).Height = some sym := by
          unfold startSymbol IsTheChild
          simp only [hra]
          by_cases he : (t.heap ra).Height = (t.heap r).Height
          · exact ⟨_, by rw [if_pos he]⟩
          · rw [if_neg he]
            by_cases h2 : (t.heap ra).Child = some r
            · exact ⟨g.LEFT, by simp [h2]⟩
            · exact ⟨if ((t.heap r).Sib).isSome then g.SIB else g.RIGHT, by simp [h2]⟩
        obtain ⟨sym, hsy⟩ := hsy
        obtain ⟨c3, e3, l3, r3⟩ := Canvas.put_ok c2 (t.heap ra).Height sym h0 (by omega)
        obtain ⟨c4, e4, l4, r4⟩ := fillInAncestors_ok g t r ra k fuel c3 hra hca (by omega)
          (by omega)
        refine ⟨c4, ?_, by rw [l4, l3, l2, l1], by rw [r4, r3, r2, r1]⟩
        simp only [if_neg hne1, hra, e2, hsy, e3]
        exact e4
    · simp only [hch, decide_False]
      obtain ⟨c1, e1, l1, r1⟩ := Canvas.put_ok c (t.heap r).Height g.VBAR a0 (by omega)
      obtain ⟨c2, e2, l2, r2⟩ := fillInAncestors_ok g t sb r k fuel c1 hsa hc (by omega)
        (by omega)
      refine ⟨c2, ?_, by rw [l2, l1], by rw [r2, r1]⟩
      simp only [Bool.false_eq_true, if_false, e1, hs]
      exact e2
  obtain ⟨c5, e5, l5, r5⟩ := hsym
  obtain ⟨c6, e6, l6, r6⟩ := Canvas.put_ok c5 ((t.heap r).Height + 1) (Char.ofNat 0)
    (by omega) (by omega)
  obtain ⟨d1, d2⟩ := drawLine_rows t c6 r (decide ((t.heap r).Child = some x))
  obtain ⟨c7, e7, l7, r7⟩ := clearLine_ok t
    (drawLine t c6 r (decide ((t.heap r).Child = some x))) (by rw [d1]; omega)
  refine ⟨c7, ?_, ?_, ?_⟩
  · simp only [drawInteriorEdge, ha, hisc, e5, e6]
    exact e7
  · rw [l7, d1, l6, l5]
  · rw [r7, d2, r6, r5]

theorem drawAsTextTraverse_chain (g : Glyphs) (t : Tree) (n : Nat) : ∀ (S : BT) (fuel : Nat)
    (c : Canvas) (a : Option Nat), Rep t.heap a S → (∀ x ∈ S.addrs, NodeFacts t n x) →
    S.size < fuel → (c.Line.length : Int) = t.Leaves + 2 →
    ∃ c1, drawAsTextTraverse g t n fuel c S.ptr = some c1 ∧
      c1.Line.length = c.Line.length ∧
      c1.rows.length = c.rows.length + rowsOf t.heap S := by
  intro S
  induction S with
  | nil =>
    intro fuel c a _ _ hf _
    obtain ⟨m, rfl⟩ : ∃ m, fuel = m + 1 := ⟨fuel - 1, by simp [BT.size] at hf; omega⟩
    exact ⟨c, by simp [BT.ptr, drawAsTextTraverse], rfl, by simp [rowsOf]⟩
  | node x cs s ihc ihs =>
    intro fuel c a hrep hfacts hf hl
    obtain ⟨m, rfl⟩ : ∃ m, fuel = m + 1 := ⟨fuel - 1, by omega⟩
    obtain ⟨hanc, hch, hsib, hrc, hrs⟩ := hrep
    simp only [BT.size] at hf
    have hfx := hfacts x (by simp [BT.addrs])
    obtain ⟨c1, e1, l1, r1⟩ := ihc m c (some x) hrc
      (fun y hy => hfacts y (by simp [BT.addrs, hy])) (by omega) hl
    have h2 : ∃ c2, (if (t.heap x).Leaf = true then drawPendantEdge g t n c1 x else some c1) =
        some c2 ∧ c2.Line.length = c1.Line.length ∧
        c2.rows.length = c1.rows.length + (if (t.heap x).Leaf = true then 1 else 0) := by
      by_cases hlf : (t.heap x).Leaf = true
      · simp only [hlf, if_true]
        exact drawPendantEdge_ok g t n n x c1 hfx (by rw [l1]; exact hl) (le_refl _)
      · simp only [hlf]
        exact ⟨c1, rfl, rfl, rfl⟩
    obtain ⟨c2, e2, l2, r2⟩ := h2
    have h3 : ∃ c3, (if ((t.heap x).Sib).isSome = true then drawInteriorEdge g t n c2 x
        else some c2) = some c3 ∧ c3.Line.length = c2.Line.length ∧
        c3.rows.length = c2.rows.length + (if ((t.heap x).Sib).isSome = true then 1 else 0) := by
      by_cases hsb : ((t.heap x).Sib).isSome = true
      · simp only [hsb, if_true]
        obtain ⟨sb, hsb1⟩ := Option.isSome_iff_exists.1 hsb
        exact drawInteriorEdge_ok g t n n x sb c2 hfx hsb1 (by rw [l2, l1]; exact hl)
          (le_refl _)
      · simp only [hsb]
        exact ⟨c2, rfl, rfl, rfl⟩
    obtain ⟨c3, e3, l3, r3⟩ := h3
    obtain ⟨c4, e4, l4, r4⟩ := ihs m c3 a hrs
      (fun y hy => hfacts y (by simp [BT.addrs, hy])) (by omega)
      (by rw [l3, l2, l1]; exact hl)
    refine ⟨c4, ?_, by rw [l4, l3, l2, l1], ?_⟩
    · rw [show (BT.node x cs s).ptr = some x from rfl]
      simp only [drawAsTextTraverse, hch, e1, e2, e3]
      rw [hsib]
      exact e4
    · rw [r4, r3, r2, r1]
      simp only [rowsOf]
      omega

theorem leavesF_nonneg (h : Heap) : ∀ S : BT, 0 ≤ leavesF h S := by
  intro S
  induction S with
  | nil => simp [leavesF]
  | node x c s ihc ihs =>
    simp only [leavesF]
    split <;> omega

theorem weights_range (h : Heap) : ∀ S : BT, WeightsOK h S →
    ∀ x ∈ S.addrs, 0 ≤ (h x).Weight ∧ (h x).Weight ≤ leavesF h S := by
  intro S
  induction S with
  | nil => intro _ x hx; simp [BT.addrs] at hx
  | node y c s ihc ihs =>
    intro hw x hx
    obtain ⟨hwy, hwc, hws⟩ := hw
    have hc0 := leavesF_nonneg h c
    have hs0 := leavesF_nonneg h s
    simp only [BT.addrs, List.mem_cons, List.mem_append] at hx
    simp only [leavesF]
    rcases hx with rfl | hx | hx
    · rw [hwy]; split <;> omega
    · have := ihc hwc x hx
      split <;> omega
    · have := ihs hws x hx
      split <;> omega

theorem weights_anc (h : Heap) : ∀ (S : BT) (a : Nat), Rep h (some a) S → WeightsOK h S →
    leavesF h S ≤ (h a).Weight →
    ∀ x ∈ S.addrs, ∃ b, (h x).Anc = some b ∧ (h x).Weight ≤ (h b).Weight ∧
      (b = a ∨ b ∈ S.addrs) := by
  intro S
  induction S with
  | nil => intro _ _ _ _ x hx; simp [BT.addrs] at hx
  | node y c s ihc ihs =>
    intro a hrep hw hle x hx
    obtain ⟨hanc, -, -, hrc, hrs⟩ := hrep
    obtain ⟨hwy, hwc, hws⟩ := hw
    have hc0 := leavesF_nonneg h c
    have hs0 := leavesF_nonneg h s
    simp only [leavesF] at hle
    simp only [BT.addrs, List.mem_cons, List.mem_append] at hx
    rcases hx with rfl | hx | hx
    · exact ⟨a, hanc, by rw [hwy]; omega, Or.inl rfl⟩
    · obtain ⟨b, h1, h2, h3⟩ := ihc y hrc hwc (by rw [hwy]; split <;> omega) x hx
      refine ⟨b, h1, h2, Or.inr ?_⟩
      simp only [BT.addrs, List.mem_cons, List.mem_append]
      rcases h3 with h3 | h3
      · exact Or.inl h3
      · exact Or.inr (Or.inl h3)
    · obtain ⟨b, h1, h2, h3⟩ := ihs a hrs hws (by split at hle <;> omega) x hx
      refine ⟨b, h1, h2, ?_⟩
      simp only [BT.addrs, List.mem_cons, List.mem_append]
      rcases h3 with h3 | h3
      · exact Or.inl h3
      · exact Or.inr (Or.inr (Or.inr h3))

theorem leaf_weight_one (h : Heap) : ∀ S : BT, WeightsOK h S → LeavesChildless h S →
    ∀ x ∈ S.addrs, (h x).Leaf = true → (h x).Weight = 1 := by
  intro S
  induction S with
  | nil => intro _ _ x hx; simp [BT.addrs] at hx
  | node y c s ihc ihs =>
    intro hw hlc x hx hl
    obtain ⟨hwy, hwc, hws⟩ := hw
    obtain ⟨hly, hlcc, hlcs⟩ := hlc
    simp only [BT.addrs, List.mem_cons, List.mem_append] at hx
    rcases hx with rfl | hx | hx
    · rw [hwy, hly hl, hl]; simp [leavesF]
    · exact ihc hwc hlcc x hx hl
    · exact ihs hws hlcs x hx hl

theorem NodeFacts.mono (t : Tree) (n m x : Nat) (h : NodeFacts t n x) (hnm : n ≤ m) :
    NodeFacts t m x := by
  obtain ⟨a, k, h1, h2, h3, h4, h5, h6⟩ := h
  exact ⟨a, k, h1, h2, h3, h4, lt_of_lt_of_le h5 hnm, h6⟩

theorem nodeFacts_chain (t : Tree) : ∀ (S : BT) (a k : Nat), Rep t.heap (some a) S →
    Climbs t k a → HeightIn t a → (∀ y ∈ S.addrs, HeightIn t y) →
    (∀ y ∈ S.addrs, t.Root ≠ some y) → ∀ x ∈ S.addrs, NodeFacts t (k + S.size + 1) x := by
  intro S
  induction S with
  | nil => intro _ _ _ _ _ _ _ x hx; simp [BT.addrs] at hx
  | node y c s ihc ihs =>
    intro a k hrep hcl ha hin hroot x hx
    obtain ⟨hanc, -, hsib, hrc, hrs⟩ := hrep
    have hy := hin y (by simp [BT.addrs])
    simp only [BT.addrs, List.mem_cons, List.mem_append] at hx
    simp only [BT.size]
    rcases hx with rfl | hx | hx
    · refine ⟨a, k, hanc, hy, ha, hcl, by omega, fun sb hsb => ?_⟩
      rw [hsib] at hsb
      cases s with
      | nil => cases hsb
      | node z cz sz =>
        have : z = sb := Option.some.inj hsb
        subst this
        exact hrs.1
    · have hcy : Climbs t (k + 1) y :=
        ⟨hroot y (by simp [BT.addrs]), a, hanc, ha.1, by have := ha.2; omega, hcl⟩
      exact NodeFacts.mono t _ _ x (ihc y (k + 1) hrc hcy hy
        (fun z hz => hin z (by simp [BT.addrs, hz]))
        (fun z hz => hroot z (by simp [BT.addrs, hz])) x hx) (by omega)
    · exact NodeFacts.mono t _ _ x (ihs a k hrs hcl ha
        (fun z hz => hin z (by simp [BT.addrs, hz]))
        (fun z hz => hroot z (by simp [BT.addrs, hz])) x hx) (by omega)

theorem rowsOf_congr (h h1 : Heap) : ∀ S : BT,
    (∀ y ∈ S.addrs, (h1 y).Leaf = (h y).Leaf ∧ (h1 y).Sib = (h y).Sib) →
    rowsOf h1 S = rowsOf h S := by
  intro S
  induction S with
  | nil => intro _; rfl
  | node x c s ihc ihs =>
    intro hy
    simp only [rowsOf]
    rw [(hy x (by simp [BT.addrs])).1, (hy x (by simp [BT.addrs])).2,
      ihc (fun y hyc => hy y (by simp [BT.addrs, hyc])),
      ihs (fun y hys => hy y (by simp [BT.addrs, hys]))]

theorem rowsOf_count (h : Heap) : ∀ S : BT,
    rowsOf h S = (S.addrs.filter fun y => (h y).Leaf).length +
      (S.addrs.filter fun y => ((h y).Sib).isSome).length := by
  intro S
  induction S with
  | nil => simp [rowsOf, BT.addrs]
  | node x c s ihc ihs =>
    simp only [rowsOf, BT.addrs, List.filter_cons, List.filter_append, ihc, ihs]
    by_cases h1 : (h x).Leaf = true <;> by_cases h2 : ((h x).Sib).isSome = true <;>
      simp [h1, h2] <;> omega

theorem leavesF_count (h : Heap) (S : BT) :
    leavesF h S = ((S.addrs.filter fun y => (h y).Leaf).length : Int) := by
  rw [leavesF_length]
  simp [leafNums]

theorem Draw_some (g : Glyphs) (t t1 : Tree) (r fuel : Nat) (c : Canvas)
    (hroot : t.Root = some r) (hL : 0 ≤ t.Leaves)
    (e1 : getNodeHeights fuel { t with MaxHeight := 0 } t.Root = some t1)
    (e2 : drawAsTextTraverse g t1 fuel fuel
      { Line := List.replicate (t.Leaves + 2).toNat ' ' } t1.Root = some c) :
    Draw g fuel t = some (t1, c.rows) := by
  unfold Draw
  split
  · rename_i h; rw [hroot] at h; cases h
  · rw [if_neg (by omega), e1]
    simp only []
    rw [e2]

/-- What `Draw` does on a tree object holding a tree with accurate weights and leaf
count. -/
theorem Draw_core (g : Glyphs) (t : Tree) (r : Nat) (c : BT) (fuel : Nat)
    (hroot : t.Root = some r) (hrep : Rep t.heap none (BT.node r c BT.nil))
    (hnd : (BT.node r c BT.nil).addrs.Nodup) (hw : WeightsOK t.heap (BT.node r c BT.nil))
    (hL : t.Leaves = leavesF t.heap (BT.node r c BT.nil))
    (hf : (BT.node r c BT.nil).size < fuel) :
    ∃ (H : Heap) (m : Int) (rows : List String),
      Draw g fuel t = some ({ t with heap := H, MaxHeight := m }, rows) ∧
      (∀ y ∈ (BT.node r c BT.nil).addrs, (H y).Height = t.Leaves - (t.heap y).Weight) ∧
      (∀ y, y ∉ (BT.node r c BT.nil).addrs → H y = t.heap y) ∧
      (∀ y, (H y).clearHeight = (t.heap y).clearHeight) ∧
      0 ≤ m ∧ (∀ y ∈ (BT.node r c BT.nil).addrs, (H y).Height ≤ m) ∧
      (m = 0 ∨ ∃ y ∈ (BT.node r c BT.nil).addrs, (H y).Height = m) ∧
      rows.length = rowsOf t.heap (BT.node r c BT.nil) := by
  have hL0 : 0 ≤ t.Leaves := by rw [hL]; exact leavesF_nonneg _ _
  obtain ⟨H, m, e, hh, ho, hc, h0, hu, hm⟩ := getNodeHeights_chain (BT.node r c BT.nil) fuel
    { t with MaxHeight := 0 } none hrep hnd hf
  have hh : ∀ y ∈ (BT.node r c BT.nil).addrs, (H y).Height = t.Leaves - (t.heap y).Weight := hh
  have ho : ∀ y, y ∉ (BT.node r c BT.nil).addrs → H y = t.heap y := ho
  have hc : ∀ y, (H y).clearHeight = (t.heap y).clearHeight := hc
  have h0 : 0 ≤ m := h0
  have hm : m = 0 ∨ ∃ y ∈ (BT.node r c BT.nil).addrs, (H y).Height = m := hm
  have hfld := fun y => clearHeight_fields _ _ (hc y)
  have hin : ∀ y ∈ (BT.node r c BT.nil).addrs,
      HeightIn { t with heap := H, MaxHeight := m } y := by
    intro y hy
    have := weights_range t.heap _ hw y hy
    have e1 := hh y hy
    show 0 ≤ (H y).Height ∧ (H y).Height ≤ t.Leaves
    omega
  obtain ⟨hanc, hch, hsib, hrc, -⟩ := hrep
  simp only [BT.addrs, List.append_nil, List.nodup_cons] at hnd
  have hrc1 : Rep H (some r) c :=
    Rep_congr t.heap H c _ (fun y _ => ⟨(hfld y).1, (hfld y).2.1, (hfld y).2.2.1⟩) hrc
  have hfacts : ∀ x ∈ c.addrs, NodeFacts { t with heap := H, MaxHeight := m } fuel x := by
    intro x hx
    refine NodeFacts.mono _ _ _ x (nodeFacts_chain { t with heap := H, MaxHeight := m } c r 0
      hrc1 hroot (hin r (by simp [BT.addrs]))
      (fun y hy => hin y (by simp [BT.addrs, hy])) (fun y hy e1 => ?_) x hx) ?_
    · have e2 : t.Root = some y := e1
      rw [hroot] at e2
      exact hnd.1 (by rw [Option.some.inj e2]; exact hy)
    · simp only [BT.size] at hf; omega
  obtain ⟨f, rfl⟩ : ∃ f, fuel = f + 1 := ⟨fuel - 1, by omega⟩
  simp only [BT.size] at hf
  obtain ⟨f1, hf1⟩ : ∃ f1, f = f1 + 1 := ⟨f - 1, by omega⟩
  obtain ⟨c1, e1, l1, r1⟩ := drawAsTextTraverse_chain g { t with heap := H, MaxHeight := m }
    (f + 1) c f { Line := List.replicate (t.Leaves + 2).toNat ' ' } (some r) hrc1 hfacts
    (by omega) (by simp only [List.length_replicate]; show _ = t.Leaves + 2; omega)
  have hrows : rowsOf H (BT.node r c BT.nil) = rowsOf t.heap (BT.node r c BT.nil) :=
    rowsOf_congr t.heap H _ (fun y _ => ⟨(hfld y).2.2.2.1, (hfld y).2.2.1⟩)
  have hrs : (H r).Sib = none := by rw [(hfld r).2.2.1]; exact hsib
  have hra : (H r).Anc = none := by rw [(hfld r).1]; exact hanc
  have hrch : (H r).Child = c.ptr := by rw [(hfld r).2.1]; exact hch
  have hdraw : ∃ c3, drawAsTextTraverse g { t with heap := H, MaxHeight := m } (f + 1) (f + 1)
      { Line := List.replicate (t.Leaves + 2).toNat ' ' } (some r) = some c3 ∧
      c3.rows.length = rowsOf H (BT.node r c BT.nil) := by
    have e1 : drawAsTextTraverse g { t with heap := H, MaxHeight := m } (f + 1) f
        { Line := List.replicate (t.Leaves + 2).toNat ' ' } (H r).Child = some c1 := by
      rw [hrch]; exact e1
    have r1 : c1.rows.length = rowsOf H c := by simpa using r1
    by_cases hl : (H r).Leaf = true
    · refine ⟨drawLine { t with heap := H, MaxHeight := m } { c1 with Line := [g.HBAR] } r
        g.isChild, ?_, ?_⟩
      · simp only [drawAsTextTraverse, e1, hl, if_true, drawPendantEdge, hra, hrs,
          Option.isSome_none, Bool.false_eq_true, if_false]
        rw [hf1]
        rfl
      · rw [(drawLine_rows _ _ r g.isChild).2]
        simp only [rowsOf, hl, if_true, hrs, Option.isSome_none, Bool.false_eq_true, if_false]
        omega
    · refine ⟨c1, ?_, ?_⟩
      · simp only [drawAsTextTraverse, e1, hl, if_false, hrs,
          Option.isSome_none, Bool.false_eq_true]
        rw [hf1]
        rfl
      · simp only [rowsOf, hl, if_false, hrs, Option.isSome_none, Bool.false_eq_true]
        omega
  obtain ⟨c3, e3, r3⟩ := hdraw
  refine ⟨H, m, c3.rows, ?_, hh, ho, hc, h0, hu, hm, by rw [r3, hrows]⟩
  refine Draw_some g t _ r (f + 1) c3 hroot hL0 ?_ ?_
  · have e : getNodeHeights (f + 1) { t with MaxHeight := 0 } (some r) =
        some { t with heap := H, MaxHeight := m } := e
    rw [← hroot] at e
    exact e
  · rw [← hroot] at e3
    exact e3

/-- C27: on a well-formed tree whose weights are fresh (the weight of every node is the
number of leaves in its subtree and at least 1, `Leaves` is the number of leaves),
`Draw` returns once the fuel exceeds the number of nodes, changes nothing in the tree
but the heights and `MaxHeight`, and sets the height of every node to
`Leaves - Weight`: the root has height 0, every leaf `Leaves - 1`, every height lies
between 0 and `Leaves - 1`, no node has a smaller height than its ancestor, and
`MaxHeight` is the largest height of a node. -/
theorem Draw_heights (g : Glyphs) (t : Tree) (T : BT) (r fuel : Nat) (hwf : WellFormed t T)
    (hr : t.Root = some r) (hw : WeightsOK t.heap T) (hL : t.Leaves = leavesF t.heap T)
    (h1 : ∀ x ∈ T.addrs, 1 ≤ (t.heap x).Weight) (hf : T.size < fuel) :
    ∃ t1 rows, Draw g fuel t = some (t1, rows) ∧
      t1.Leaves = t.Leaves ∧ t1.Root = t.Root ∧
      (∀ y, (t1.heap y).clearHeight = (t.heap y).clearHeight) ∧
      (∀ x ∈ T.addrs, (t1.heap x).Height = t1.Leaves - (t1.heap x).Weight) ∧
      (t1.heap r).Height = 0 ∧
      (∀ x ∈ T.addrs, (t1.heap x).Leaf = true → (t1.heap x).Height = t1.Leaves - 1) ∧
      (∀ x ∈ T.addrs, 0 ≤ (t1.heap x).Height ∧ (t1.heap x).Height ≤ t1.Leaves - 1) ∧
      (∀ x ∈ T.addrs, ∀ a, (t1.heap x).Anc = some a →
        (t1.heap a).Height ≤ (t1.heap x).Height) ∧
      (∀ x ∈ T.addrs, (t1.heap x).Height ≤ t1.MaxHeight) ∧
      (∃ x ∈ T.addrs, (t1.heap x).Height = t1.MaxHeight) := by
  obtain ⟨hroot, hshape, hrep, hnd, hlc⟩ := hwf
  rcases hshape with rfl | ⟨r1, c, rfl⟩
  · rw [hr] at hroot; cases hroot
  have hrr : r1 = r := by
    rw [hr] at hroot
    exact (Option.some.inj hroot).symm
  subst hrr
  obtain ⟨H, m, rows, e, hh, -, hc, h0, hu, hm, -⟩ := Draw_core g t r1 c fuel hr hrep hnd hw hL hf
  have hfld := fun y => clearHeight_fields _ _ (hc y)
  have hrm : r1 ∈ (BT.node r1 c BT.nil).addrs := by simp [BT.addrs]
  have hwr : (t.heap r1).Weight = t.Leaves := by
    rw [hL, hw.1]; simp [leavesF]
  have hr0 : (H r1).Height = 0 := by rw [hh r1 hrm, hwr]; omega
  have hanc : ∀ x ∈ (BT.node r1 c BT.nil).addrs, ∀ a, (t.heap x).Anc = some a →
      (t.heap x).Weight ≤ (t.heap a).Weight ∧ a ∈ (BT.node r1 c BT.nil).addrs := by
    intro x hx a ha
    simp only [BT.addrs, List.append_nil, List.mem_cons] at hx
    rcases hx with rfl | hx
    · rw [hrep.1] at ha; cases ha
    · obtain ⟨b, hb, hle, hmem⟩ := weights_anc t.heap c r1 hrep.2.2.2.1 hw.2.1
        (by rw [hw.1]; split <;> omega) x hx
      have hab : b = a := Option.some.inj (hb.symm.trans ha)
      subst hab
      refine ⟨hle, ?_⟩
      simp only [BT.addrs, List.append_nil, List.mem_cons]
      exact hmem
  have hH : ∀ x ∈ (BT.node r1 c BT.nil).addrs,
      (H x).Height = t.Leaves - (H x).Weight := fun x hx => by
    rw [hh x hx, (hfld x).2.2.2.2.1]
  have hwle := weights_range t.heap _ hw
  refine ⟨{ t with heap := H, MaxHeight := m }, rows, e, rfl, rfl, hc, hH, hr0, ?_, ?_, ?_, hu,
    ?_⟩
  · intro x hx hl
    show (H x).Height = t.Leaves - 1
    rw [hh x hx, leaf_weight_one t.heap _ hw hlc x hx ((hfld x).2.2.2.1.symm.trans hl)]
  · intro x hx
    have := h1 x hx
    have := hwle x hx
    show 0 ≤ (H x).Height ∧ (H x).Height ≤ t.Leaves - 1
    rw [hh x hx]
    omega
  · intro x hx a ha
    obtain ⟨hle, hmem⟩ := hanc x hx a ((hfld x).1.symm.trans ha)
    show (H a).Height ≤ (H x).Height
    rw [hh x hx, hh a hmem]
    omega
  · rcases hm with hm | hm
    · exact ⟨r1, hrm, by rw [hm]; exact hr0⟩
    · exact hm

/-- C27, on the tree parsed from `((A:1,B:2):3,C:4);`. -/
theorem Draw_heights_witness :
    WellFormed (parsed descrNested) shapeNested ∧ (parsed descrNested).Root = some 0 ∧
    WeightsOK (parsed descrNested).heap shapeNested ∧
    (parsed descrNested).Leaves = leavesF (parsed descrNested).heap shapeNested ∧
    (∀ x ∈ shapeNested.addrs, 1 ≤ ((parsed descrNested).heap x).Weight) ∧
    shapeNested.size < 6 ∧
    ∃ t1 rows, Draw asciiGlyphs 6 (parsed descrNested) = some (t1, rows) ∧
      t1.Leaves = (parsed descrNested).Leaves ∧ t1.Root = (parsed descrNested).Root ∧
      (∀ y, (t1.heap y).clearHeight = ((parsed descrNested).heap y).clearHeight) ∧
      (∀ x ∈ shapeNested.addrs, (t1.heap x).Height = t1.Leaves - (t1.heap x).Weight) ∧
      (t1.heap 0).Height = 0 ∧
      (∀ x ∈ shapeNested.addrs, (t1.heap x).Leaf = true →
        (t1.heap x).Height = t1.Leaves - 1) ∧
      (∀ x ∈ shapeNested.addrs, 0 ≤ (t1.heap x).Height ∧
        (t1.heap x).Height ≤ t1.Leaves - 1) ∧
      (∀ x ∈ shapeNested.addrs, ∀ a, (t1.heap x).Anc = some a →
        (t1.heap a).Height ≤ (t1.heap x).Height) ∧
      (∀ x ∈ shapeNested.addrs, (t1.heap x).Height ≤ t1.MaxHeight) ∧
      (∃ x ∈ shapeNested.addrs, (t1.heap x).Height = t1.MaxHeight) :=
  have hw : WeightsOK (parsed descrNested).heap shapeNested := by
    simp only [shapeNested, WeightsOK, leavesF]
    decide!
  have hL : (parsed descrNested).Leaves = leavesF (parsed descrNested).heap shapeNested := by
    simp only [shapeNested, leavesF]
    decide!
  have h1 : ∀ x ∈ shapeNested.addrs, 1 ≤ ((parsed descrNested).heap x).Weight := by
    simp only [shapeNested, BT.addrs]
    decide!
  ⟨parsed_descrNested_wellFormed.1, by decide!, hw, hL, h1, by decide,
    Draw_heights asciiGlyphs (parsed descrNested) shapeNested 0 6
      parsed_descrNested_wellFormed.1 (by decide!) hw hL h1 (by decide)⟩

/-- The heights and the picture drawn for `((A:1,B:2):3,C:4);`: the root has height 0,
the inner node 1, the three leaves 2, and `MaxHeight` is 2. -/
theorem Draw_descrNested :
    (Draw asciiGlyphs 6 (parsed descrNested)).map (fun p =>
      ((List.range 5).map fun i => (p.1.heap i).Height, p.1.MaxHeight)) =
      some ([0, 1, 2, 2, 2], 2) ∧
    (Draw asciiGlyphs 6 (parsed descrNested)).map Prod.snd =
      some [" /= A", "/+", "|L= B", "+", "L== C"] := by
  refine ⟨?_, ?_⟩ <;> decide!

/-- C28: whenever `Tree::Parse` ends in `stACCEPTED` (for any token stream), `Draw` on
the tree object returns and writes exactly `Leaves` plus the number of nodes with a
next sibling lines, `Leaves` being the number of nodes flagged as leaves (one line for
every leaf and one for every node that has a next sibling); and on a tree object
without a root `Draw` writes the single line `(No tree)` and leaves the object
unchanged. -/
theorem Parse_Draw_rows (g : Glyphs) (cap : Int) (fuel : Nat) (t : Tree)
    (descr : List Token) (hacc : Accepts cap fuel t descr) :
    (∃ N, ∀ fuel1, N ≤ fuel1 → ∃ t1 r c, Parse cap fuel1 t descr = some (0, t1) ∧
      t1.Root = some r ∧ Rep t1.heap none (BT.node r c BT.nil) ∧
      (BT.node r c BT.nil).addrs.Nodup ∧
      (t1.Leaves : Int) =
        (((BT.node r c BT.nil).addrs.filter fun y => (t1.heap y).Leaf).length : Int) ∧
      ∃ t2 rows, Draw g fuel1 t1 = some (t2, rows) ∧
        (rows.length : Int) = t1.Leaves +
          (((BT.node r c BT.nil).addrs.filter fun y => ((t1.heap y).Sib).isSome).length : Int)) ∧
    (∀ (t0 : Tree) (n : Nat), t0.Root = none → Draw g n t0 = some (t0, ["(No tree)"])) := by
  refine ⟨?_, fun t0 n h0 => by unfold Draw; rw [h0]⟩
  obtain ⟨N, hN⟩ := parse_accepted_weights cap fuel t descr hacc
  refine ⟨N, fun fuel1 hf => ?_⟩
  obtain ⟨t1, r, c, hp, hroot, hrep, hnd, hw, -, hL, hsz⟩ := hN fuel1 hf
  obtain ⟨H, m, rows, e, -, -, -, -, -, -, hrows⟩ :=
    Draw_core g t1 r c fuel1 hroot hrep hnd hw hL hsz
  have hcount := leavesF_count t1.heap (BT.node r c BT.nil)
  refine ⟨t1, r, c, hp, hroot, hrep, hnd, hL.trans hcount, _, rows, e, ?_⟩
  rw [hrows, rowsOf_count, hL, hcount]
  push_cast
  rfl

/-- C28, on the description `((A:1,B:2):3,C:4);`. -/
theorem Parse_Draw_rows_witness :
    Accepts 30 40 {} descrNested ∧
    (∃ N, ∀ fuel1, N ≤ fuel1 → ∃ t1 r c, Parse 30 fuel1 {} descrNested = some (0, t1) ∧
      t1.Root = some r ∧ Rep t1.heap none (BT.node r c BT.nil) ∧
      (BT.node r c BT.nil).addrs.Nodup ∧
      (t1.Leaves : Int) =
        (((BT.node r c BT.nil).addrs.filter fun y => (t1.heap y).Leaf).length : Int) ∧
      ∃ t2 rows, Draw asciiGlyphs fuel1 t1 = some (t2, rows) ∧
        (rows.length : Int) = t1.Leaves +
          (((BT.node r c BT.nil).addrs.filter fun y => ((t1.heap y).Sib).isSome).length : Int)) ∧
    (∀ (t0 : Tree) (n : Nat), t0.Root = none →
      Draw asciiGlyphs n t0 = some (t0, ["(No tree)"])) :=
  ⟨by unfold Accepts; decide,
    Parse_Draw_rows asciiGlyphs 30 40 {} descrNested (by unfold Accepts; decide)⟩

/-- The pictures drawn for `(A,B,C);` (five lines: three leaves, two nodes with a next
sibling), for the accepted description `A:1(B);` (two lines) and for a new tree
object. -/
theorem Draw_examples :
    (Draw asciiGlyphs 6 (parsed descrABC)).map Prod.snd =
      some ["/== A", "+", ">== B", "|", "L== C"] ∧
    (Draw asciiGlyphs 6 (parsed descrLeafChild)).map Prod.snd = some ["/= B", "= A"] ∧
    (Draw asciiGlyphs 6 {}).map Prod.snd = some ["(No tree)"] := by
  refine ⟨?_, ?_, ?_⟩ <;> decide!

/-! ## AddNodeBelow, Update, RemoveNode in sequence -/

theorem Ctx.plug_ptr (S S1 : BT) (h : S1.ptr = S.ptr) : ∀ C : Ctx,
    (C.plug S1).ptr = (C.plug S).ptr := by
  intro C
  cases C with
  | hole => exact h
  | inChild x C s => rfl
  | inSib x c C => rfl

theorem Ctx.plug_ne_nil (x : Nat) (c s : BT) : ∀ C : Ctx, C.plug (BT.node x c s) ≠ BT.nil := by
  intro C
  cases C <;> simp [Ctx.plug]

theorem Ctx.plug_single (g r : Nat) (K K1 sg c : BT) : ∀ C : Ctx,
    C.plug (BT.node g K sg) = BT.node r c BT.nil →
    ∃ c1, C.plug (BT.node g K1 sg) = BT.node r c1 BT.nil := by
  intro C
  cases C with
  | hole =>
    intro h
    simp only [Ctx.plug, BT.node.injEq] at h ⊢
    exact ⟨K1, h.1, rfl, h.2.2⟩
  | inChild x C s =>
    intro h
    simp only [Ctx.plug, BT.node.injEq] at h ⊢
    exact ⟨_, h.1, rfl, h.2.2⟩
  | inSib x c1 C =>
    intro h
    simp only [Ctx.plug, BT.node.injEq] at h
    exact absurd h.2.2 (Ctx.plug_ne_nil g K sg C)

theorem chainOf_ne_nil (x : Nat) (c s : BT) : ∀ pre : List (Nat × BT),
    chainOf pre (BT.node x c s) ≠ BT.nil := by
  intro pre
  cases pre with
  | nil => simp [chainOf]
  | cons ec pre => obtain ⟨e, c1⟩ := ec; simp [chainOf]

theorem locate (b : Nat) : ∀ T : BT, b ∈ T.addrs →
    (∃ pre cb post, T = chainOf pre (BT.node b cb post)) ∨
    (∃ (C : Ctx) (g : Nat) (pre : List (Nat × BT)) (cb post sg : BT),
      T = C.plug (BT.node g (chainOf pre (BT.node b cb post)) sg)) := by
  intro T
  induction T with
  | nil => intro h; simp [BT.addrs] at h
  | node x c s ihc ihs =>
    intro hb
    simp only [BT.addrs, List.mem_cons, List.mem_append] at hb
    by_cases hx : b = x
    · subst hx
      exact Or.inl ⟨[], c, s, rfl⟩
    · rcases hb with hb | hb | hb
      · exact absurd hb hx
      · rcases ihc hb with ⟨pre, cb, post, e⟩ | ⟨C, g, pre, cb, post, sg, e⟩
        · exact Or.inr ⟨Ctx.hole, x, pre, cb, post, s, by rw [e]; rfl⟩
        · exact Or.inr ⟨Ctx.inChild x C s, g, pre, cb, post, sg, by rw [e]; rfl⟩
      · rcases ihs hb with ⟨pre, cb, post, e⟩ | ⟨C, g, pre, cb, post, sg, e⟩
        · exact Or.inl ⟨(x, c) :: pre, cb, post, by rw [e]; rfl⟩
        · exact Or.inr ⟨Ctx.inSib x c C, g, pre, cb, post, sg, by rw [e]; rfl⟩

theorem Rep_links (h h1 : Heap) (T : BT) (a : Option Nat)
    (hx : ∀ y ∈ T.addrs, SameLinks h h1 y) (hr : Rep h a T) : Rep h1 a T :=
  Rep_congr h h1 T a hx hr

theorem Rep_same (h h1 : Heap) : ∀ (S : BT) (a : Option Nat), Rep h a S → Rep h1 a S →
    ∀ y ∈ S.addrs, SameLinks h h1 y := by
  intro S
  induction S with
  | nil => intro _ _ _ y hy; simp [BT.addrs] at hy
  | node x c s ihc ihs =>
    intro a hr hr1 y hy
    obtain ⟨p1, p2, p3, p4, p5⟩ := hr
    obtain ⟨q1, q2, q3, q4, q5⟩ := hr1
    simp only [BT.addrs, List.mem_cons, List.mem_append] at hy
    rcases hy with rfl | hy | hy
    · exact ⟨q1.trans p1.symm, q2.trans p2.symm, q3.trans p3.symm⟩
    · exact ihc (some x) p4 q4 y hy
    · exact ihs a p5 q5 y hy

theorem Rep_plug (h : Heap) (S : BT) : ∀ (C : Ctx) (a : Option Nat), Rep h a (C.plug S) →
    ∃ a1, Rep h a1 S ∧ ∀ (h1 : Heap) (S1 : BT), S1.ptr = S.ptr → Rep h1 a1 S1 →
      (∀ y ∈ C.addrs, SameLinks h h1 y) → Rep h1 a (C.plug S1) := by
  intro C
  induction C with
  | hole => intro a hr; exact ⟨a, hr, fun h1 S1 _ hr1 _ => hr1⟩
  | inChild x C s ih =>
    intro a hr
    obtain ⟨p1, p2, p3, p4, p5⟩ := hr
    obtain ⟨a1, hS, hk⟩ := ih (some x) p4
    refine ⟨a1, hS, fun h1 S1 hp hr1 hfr => ?_⟩
    have hx := hfr x (by simp [Ctx.addrs])
    refine ⟨hx.1.trans p1, ?_, hx.2.2.trans p3, hk h1 S1 hp hr1
      (fun y hy => hfr y (by simp [Ctx.addrs, hy])),
      Rep_links h h1 s a (fun y hy => hfr y (by simp [Ctx.addrs, hy])) p5⟩
    rw [hx.2.1, p2]
    exact (Ctx.plug_ptr S S1 hp C).symm
  | inSib x c C ih =>
    intro a hr
    obtain ⟨p1, p2, p3, p4, p5⟩ := hr
    obtain ⟨a1, hS, hk⟩ := ih a p5
    refine ⟨a1, hS, fun h1 S1 hp hr1 hfr => ?_⟩
    have hx := hfr x (by simp [Ctx.addrs])
    refine ⟨hx.1.trans p1, hx.2.1.trans p2, ?_,
      Rep_links h h1 c (some x) (fun y hy => hfr y (by simp [Ctx.addrs, hy])) p4,
      hk h1 S1 hp hr1 (fun y hy => hfr y (by simp [Ctx.addrs, hy]))⟩
    rw [hx.2.2, p3]
    exact (Ctx.plug_ptr S S1 hp C).symm

theorem Ctx.plug_perm (S : BT) : ∀ C : Ctx, (C.plug S).addrs.Perm (C.addrs ++ S.addrs) := by
  intro C
  induction C with
  | hole => simp [Ctx.plug, Ctx.addrs]
  | inChild x C s ih =>
    simp only [Ctx.plug, Ctx.addrs, BT.addrs, List.cons_append, List.append_assoc]
    refine List.Perm.cons x ?_
    refine (List.Perm.append_right _ ih).trans ?_
    rw [List.append_assoc]
    exact List.Perm.append_left _ List.perm_append_comm
  | inSib x c C ih =>
    simp only [Ctx.plug, Ctx.addrs, BT.addrs, List.cons_append, List.append_assoc]
    exact List.Perm.cons x (List.Perm.append_left _ ih)

theorem LeavesChildless_plug (h h1 : Heap) (g g1 : Nat) (K K1 sg sg1 : BT) : ∀ C : Ctx,
    LeavesChildless h (C.plug (BT.node g K sg)) →
    LeavesChildless h (BT.node g K sg) ∧
      ((∀ y ∈ C.addrs, (h1 y).Leaf = (h y).Leaf) → LeavesChildless h1 (BT.node g1 K1 sg1) →
        LeavesChildless h1 (C.plug (BT.node g1 K1 sg1))) := by
  intro C
  induction C with
  | hole => intro hl; exact ⟨hl, fun _ h2 => h2⟩
  | inChild x C s ih =>
    intro hl
    obtain ⟨l1, l2, l3⟩ := hl
    obtain ⟨i1, i2⟩ := ih l2
    refine ⟨i1, fun hfr h2 => ⟨fun hlf => ?_, i2 (fun y hy => hfr y (by simp [Ctx.addrs, hy])) h2,
      LeavesChildless_congr h h1 s (fun y hy => hfr y (by simp [Ctx.addrs, hy])) l3⟩⟩
    have := l1 ((hfr x (by simp [Ctx.addrs])).symm.trans hlf)
    exact absurd this (Ctx.plug_ne_nil g K sg C)
  | inSib x c C ih =>
    intro hl
    obtain ⟨l1, l2, l3⟩ := hl
    obtain ⟨i1, i2⟩ := ih l3
    exact ⟨i1, fun hfr h2 => ⟨fun hlf => l1 ((hfr x (by simp [Ctx.addrs])).symm.trans hlf),
      LeavesChildless_congr h h1 c (fun y hy => hfr y (by simp [Ctx.addrs, hy])) l2,
      i2 (fun y hy => hfr y (by simp [Ctx.addrs, hy])) h2⟩⟩

theorem DegreesOK_plug (h : Heap) (S : BT) : ∀ C : Ctx, DegreesOK h (C.plug S) →
    DegreesOK h S := by
  intro C
  induction C with
  | hole => exact id
  | inChild x C s ih => intro hd; exact ih hd.2.1
  | inSib x c C ih => intro hd; exact ih hd.2.2

theorem DegreesOK_chainOf (h : Heap) (S : BT) : ∀ pre : List (Nat × BT),
    DegreesOK h (chainOf pre S) → DegreesOK h S := by
  intro pre
  induction pre with
  | nil => exact id
  | cons ec pre ih => obtain ⟨e, c⟩ := ec; intro hd; exact ih hd.2.2

theorem LeavesChildless_chainOf (h h1 : Heap) (S S1 : BT) : ∀ pre : List (Nat × BT),
    LeavesChildless h (chainOf pre S) →
    LeavesChildless h S ∧
      ((∀ y ∈ eldersAddrs pre, (h1 y).Leaf = (h y).Leaf) → LeavesChildless h1 S1 →
        LeavesChildless h1 (chainOf pre S1)) := by
  intro pre
  induction pre with
  | nil => intro hl; exact ⟨hl, fun _ h2 => h2⟩
  | cons ec pre ih =>
    obtain ⟨e, c⟩ := ec
    intro hl
    obtain ⟨l1, l2, l3⟩ := hl
    obtain ⟨i1, i2⟩ := ih l3
    exact ⟨i1, fun hfr h2 => ⟨fun hlf => l1 ((hfr e (by simp [eldersAddrs])).symm.trans hlf),
      LeavesChildless_congr h h1 c (fun y hy => hfr y (by simp [eldersAddrs, hy])) l2,
      i2 (fun y hy => hfr y (by simp [eldersAddrs, hy])) h2⟩⟩

theorem BT.size_addrs : ∀ S : BT, S.size = S.addrs.length := by
  intro S
  induction S with
  | nil => rfl
  | node x c s ihc ihs => simp [BT.size, BT.addrs, ihc, ihs]; omega

theorem leavesF_perm (h : Heap) (S : BT) (l : List Nat) (hp : S.addrs.Perm l) :
    leavesF h S = ((l.filter fun y => (h y).Leaf).length : Int) := by
  rw [leavesF_count]
  exact congrArg _ (hp.filter _).length_eq

theorem nodup_of_count_le (L1 L2 : List Nat) (h : ∀ a, L1.count a ≤ L2.count a)
    (hn : L2.Nodup) : L1.Nodup :=
  List.nodup_iff_count_le_one.2
    (fun a => le_trans (h a) (List.nodup_iff_count_le_one.1 hn a))

theorem elders_length (pre : List (Nat × BT)) : pre.length ≤ (eldersAddrs pre).length := by
  induction pre with
  | nil => simp
  | cons ec pre ih =>
    obtain ⟨e, c⟩ := ec
    simp only [eldersAddrs, List.length_cons, List.length_append]
    omega

theorem getLast_mem_elders (pre : List (Nat × BT)) :
    ∀ y ∈ (pre.getLast?.map Prod.fst).toList, y ∈ eldersAddrs pre := by
  intro y hy
  cases hl : pre.getLast? with
  | none => rw [hl] at hy; simp at hy
  | some l =>
    rw [hl] at hy
    simp only [Option.map_some', Option.toList_some, List.mem_singleton] at hy
    subst hy
    exact mem_eldersAddrs l pre (List.mem_of_getLast?_eq_some hl)

/-- The counters after `Update` on the shape `T1`, whose nodes are those of `T` and the
two nodes `x` (no leaf) and `n` (a leaf). -/
theorem counts_after_insert (h h2 : Heap) (T T1 : BT) (x n : Nat)
    (hp : T1.addrs.Perm (x :: n :: T.addrs)) (hx : (h2 x).Leaf = false)
    (hn : (h2 n).Leaf = true) (hy : ∀ y ∈ T.addrs, (h2 y).Leaf = (h y).Leaf) :
    leavesF h2 T1 = leavesF h T + 1 ∧ internalsF h2 T1 = internalsF h T + 1 := by
  have e1 : leavesF h2 T1 = leavesF h T + 1 := by
    rw [leavesF_perm h2 T1 _ hp, leavesF_count h T]
    have : (T.addrs.filter fun y => (h2 y).Leaf) = T.addrs.filter fun y => (h y).Leaf :=
      List.filter_congr (fun y hy1 => by rw [hy y hy1])
    simp [List.filter_cons, hx, hn, this]
  refine ⟨e1, ?_⟩
  have s1 := leavesF_add_internalsF h2 T1
  have s2 := leavesF_add_internalsF h T
  have e3 : T1.size = T.size + 2 := by
    rw [BT.size_addrs, BT.size_addrs, hp.length_eq]; simp
  rw [e3] at s1
  push_cast at s1
  omega

theorem update_after_insert (t1 : Tree) (h : Heap) (T T1 : BT) (x n fuel : Nat)
    (hwf : WellFormed t1 T1) (hf : T1.size < fuel)
    (hp : T1.addrs.Perm (x :: n :: T.addrs)) (hx : (t1.heap x).Leaf = false)
    (hn : (t1.heap n).Leaf = true) (hy : ∀ y ∈ T.addrs, (t1.heap y).Leaf = (h y).Leaf) :
    ∃ t2, Update fuel t1 = some t2 ∧ t2.Root = t1.Root ∧
      (∀ y, SameLinks t1.heap t2.heap y ∧ (t2.heap y).Leaf = (t1.heap y).Leaf) ∧
      DegreesOK t2.heap T1 ∧ t2.Leaves = leavesF h T + 1 ∧
      t2.Internals = internalsF h T + 1 := by
  obtain ⟨t2, hU, hwf2, hclr, hout, -, -, hdeg, -, hL, hI, -⟩ := Update_post t1 T1 fuel hwf hf
  have hfld : ∀ y, SameLinks t1.heap t2.heap y ∧ (t2.heap y).Leaf = (t1.heap y).Leaf := by
    intro y
    by_cases hy1 : y ∈ T1.addrs
    · have := clearWD_fields _ _ (hclr y hy1)
      exact ⟨⟨this.1, this.2.1, this.2.2.1⟩, this.2.2.2⟩
    · have e := hout y hy1
      exact ⟨⟨by rw [e], by rw [e], by rw [e]⟩, by rw [e]⟩
  obtain ⟨c1, c2⟩ := counts_after_insert h t2.heap T T1 x n hp
    ((hfld x).2.trans hx) ((hfld n).2.trans hn) (fun y hy1 => ((hfld y).2).trans (hy y hy1))
  exact ⟨t2, hU, hwf2.1.trans hwf.1.symm, hfld, hdeg, hL.trans c1, hI.trans c2⟩

theorem insert_remove_root (fuel : Nat) (t : Tree) (n b : Nat) (cb : BT)
    (hroot : t.Root = some b) (hrep : Rep t.heap none (BT.node b cb BT.nil))
    (hnd : (BT.node b cb BT.nil).addrs.Nodup)
    (hlc : LeavesChildless t.heap (BT.node b cb BT.nil))
    (hL : t.Leaves = leavesF t.heap (BT.node b cb BT.nil))
    (hI : t.Internals = internalsF t.heap (BT.node b cb BT.nil))
    (hn : n ∉ (BT.node b cb BT.nil).addrs) (hnl : (t.heap n).Leaf = true)
    (hnc : (t.heap n).Child = none)
    (hlt : ∀ y ∈ n :: (BT.node b cb BT.nil).addrs, y < t.next)
    (hf : (BT.node b cb BT.nil).size + 2 < fuel) :
    ∃ t1 t2 t3, AddNodeBelow fuel t n b = some t1 ∧ Update fuel t1 = some t2 ∧
      RemoveNode fuel t2 n = some (none, t3) ∧ t3.Root = t.Root ∧
      Rep t3.heap none (BT.node b cb BT.nil) ∧ t3.Leaves = t.Leaves ∧
      t3.Internals = t.Internals ∧ (t3.heap n).Anc = none ∧ (t3.heap n).Sib = none := by
  simp only [BT.addrs, List.append_nil] at hnd hn hlt
  have hnd1 : (n :: (BT.nil.addrs ++ (b :: cb.addrs))).Nodup := by
    simp only [BT.addrs, List.nil_append]
    exact List.nodup_cons.2 ⟨hn, hnd⟩
  obtain ⟨t1, k0, k1, k2, k3, k4, k5, k6, k7, k8⟩ :=
    addBelow_root_core fuel t n b BT.nil cb hrep hnc trivial hnd1
      (by simpa only [BT.addrs, List.nil_append] using hlt)
  have hnew : ∀ y ∈ n :: b :: cb.addrs, y ≠ t.next := fun y hy => Nat.ne_of_lt (hlt y hy)
  have hleaf : ∀ y, y ≠ t.next → (t1.heap y).Leaf = (t.heap y).Leaf := fun y hy => by
    rw [k6 y hy]
  have hT1 : (BT.node t.next (BT.node n BT.nil (BT.node b cb BT.nil)) BT.nil).addrs =
      t.next :: n :: (BT.node b cb BT.nil).addrs := by
    simp [BT.addrs]
  have hwf1 : WellFormed t1 (BT.node t.next (BT.node n BT.nil (BT.node b cb BT.nil)) BT.nil) := by
    refine ⟨k2, Or.inr ⟨_, _, rfl⟩, k3, ?_, ?_⟩
    · rw [hT1]
      simp only [BT.addrs, List.append_nil]
      refine List.nodup_cons.2 ⟨fun hm => ?_, hnd1⟩
      exact absurd rfl (hnew _ (by simpa [BT.addrs] using hm))
    · refine ⟨fun hl => ?_, ⟨fun _ => rfl, trivial, fun hl => ?_, ?_, trivial⟩, trivial⟩
      · rw [k8] at hl; cases hl
      · exact hlc.1 ((hleaf b (hnew b (by simp))).symm.trans hl)
      · exact LeavesChildless_congr t.heap t1.heap cb
          (fun y hy => hleaf y (hnew y (by simp [hy]))) hlc.2.1
  have hsz : (BT.node t.next (BT.node n BT.nil (BT.node b cb BT.nil)) BT.nil).size < fuel := by
    simp only [BT.size] at hf ⊢
    omega
  obtain ⟨t2, hU, hr2, hfld, hdeg, hL2, hI2⟩ := update_after_insert t1 t.heap
    (BT.node b cb BT.nil) _ t.next n fuel hwf1 hsz (by rw [hT1]) k8
    ((hleaf n (hnew n (by simp))).trans hnl)
    (fun y hy => hleaf y (hnew y (by
      simp only [BT.addrs, List.append_nil] at hy
      exact List.mem_cons_of_mem _ hy)))
  obtain ⟨a1, a2, a3, ⟨n1, n2, n3, -, b1, b2, b3, b4, -⟩, -⟩ := k3
  have l2 := fun y => (hfld y).1
  obtain ⟨t3, r0, r1, r2, r3, r4, -, -, r7, r8, -⟩ := binary_root_core fuel t2 n t.next b
    BT.nil cb
    (by rw [hr2, k2]; intro e; exact hnew n (by simp) (Option.some.inj e).symm)
    (by rw [hdeg.1]; simp [BT.chainLen])
    ((l2 _).1.trans a1) ((l2 _).1.trans n1) ((l2 _).2.1.trans n2) trivial
    ((l2 _).2.1.trans b2) (Rep_links t1.heap t2.heap cb _ (fun y _ => l2 y) b4)
    (by rw [(l2 _).2.1, a2]; simp only [BT.ptr, if_true]; exact (l2 _).2.2.trans n3)
    (by simpa only [BT.addrs, List.nil_append] using hnd1)
  refine ⟨t1, t2, t3, k0, hU, r0, r1.trans hroot.symm, r2, ?_, ?_, r3, r4⟩
  · rw [r8, hL2, (hfld n).2, hleaf n (hnew n (by simp)), hnl, hL]; simp
  · rw [r7, hI2, hI]; simp

theorem insert_remove_inner (fuel : Nat) (t : Tree) (n b g : Nat) (C : Ctx)
    (pre : List (Nat × BT)) (cb post sg T : BT)
    (hT : T = C.plug (BT.node g (chainOf pre (BT.node b cb post)) sg))
    (hwf : WellFormed t T) (hL : t.Leaves = leavesF t.heap T)
    (hI : t.Internals = internalsF t.heap T) (hn : n ∉ T.addrs)
    (hnl : (t.heap n).Leaf = true) (hnc : (t.heap n).Child = none)
    (hlt : ∀ y ∈ n :: T.addrs, y < t.next) (hf : T.size + 2 < fuel) :
    ∃ t1 t2 t3, AddNodeBelow fuel t n b = some t1 ∧ Update fuel t1 = some t2 ∧
      RemoveNode fuel t2 n = some (none, t3) ∧ t3.Root = t.Root ∧
      Rep t3.heap none T ∧ t3.Leaves = t.Leaves ∧
      t3.Internals = t.Internals ∧ (t3.heap n).Anc = none ∧ (t3.heap n).Sib = none := by
  obtain ⟨hroot, hsingle, hrep, hnd, hlc⟩ := hwf
  have hperm : T.addrs.Perm (C.addrs ++
      (g :: ((eldersAddrs pre ++ (b :: (cb.addrs ++ post.addrs))) ++ sg.addrs))) := by
    have := Ctx.plug_perm (BT.node g (chainOf pre (BT.node b cb post)) sg) C
    rw [← hT] at this
    simpa only [BT.addrs, chainOf_addrs] using this
  have hnd0 := hperm.nodup_iff.1 hnd
  rw [List.nodup_append] at hnd0
  obtain ⟨ndC, ndS, dCS⟩ := hnd0
  rw [List.nodup_cons, List.nodup_append] at ndS
  obtain ⟨gK, ndK, ndsg, dKsg⟩ := ndS
  have hgT : g ∈ T.addrs := hperm.mem_iff.2 (by simp)
  have hKT : ∀ y ∈ eldersAddrs pre ++ (b :: (cb.addrs ++ post.addrs)), y ∈ T.addrs :=
    fun y hy => hperm.mem_iff.2 (by
      simp only [List.mem_append, List.mem_cons] at hy ⊢
      tauto)
  have hCT : ∀ y ∈ C.addrs, y ∈ T.addrs := fun y hy => hperm.mem_iff.2 (by simp [hy])
  have hsT : ∀ y ∈ sg.addrs, y ∈ T.addrs := fun y hy => hperm.mem_iff.2 (by simp [hy])
  have hnew : ∀ y ∈ T.addrs, y ≠ t.next := fun y hy =>
    Nat.ne_of_lt (hlt y (List.mem_cons_of_mem _ hy))
  have hnn : n ≠ t.next := Nat.ne_of_lt (hlt n (by simp))
  have hne : ∀ y ∈ T.addrs, y ≠ n := fun y hy e => hn (e ▸ hy)
  have hgK : g ∉ eldersAddrs pre ++ (b :: (cb.addrs ++ post.addrs)) :=
    fun hm => gK (List.mem_append_left _ hm)
  obtain ⟨a1, hS, hk⟩ := Rep_plug t.heap _ C none (hT ▸ hrep)
  obtain ⟨s1, s2, s3, s4, s5⟩ := hS
  have hnd1 : (g :: n :: (BT.nil.addrs ++
      (eldersAddrs pre ++ (b :: (cb.addrs ++ post.addrs))))).Nodup := by
    simp only [BT.addrs, List.nil_append]
    refine List.nodup_cons.2 ⟨fun hm => ?_, List.nodup_cons.2 ⟨fun hm => ?_, ndK⟩⟩
    · rcases List.mem_cons.1 hm with e | hm
      · exact hne g hgT e
      · exact hgK hm
    · exact hn (hKT n hm)
  have hlt1 : ∀ y ∈ g :: n :: (BT.nil.addrs ++
      (eldersAddrs pre ++ (b :: (cb.addrs ++ post.addrs)))), y < t.next := by
    intro y hy
    simp only [BT.addrs, List.nil_append, List.mem_cons] at hy
    rcases hy with rfl | rfl | hy
    · exact hlt _ (List.mem_cons_of_mem _ hgT)
    · exact hlt _ (by simp)
    · exact hlt _ (List.mem_cons_of_mem _ (hKT y hy))
  have hpl : pre.length ≤ fuel := by
    have h1 := elders_length pre
    have h2 := hperm.length_eq
    rw [← BT.size_addrs] at h2
    simp only [List.length_append, List.length_cons] at h2
    omega
  obtain ⟨t1, k0, k1, k2, k3, k4, k5, k6, k7, k8, k9, k10, k11⟩ :=
    addBelow_inner_core fuel t n b g pre BT.nil cb post s2 s4 hnc trivial hnd1 hlt1 hpl
  have hlast : ∀ y ∈ (pre.getLast?.map Prod.fst).toList,
      y ∈ eldersAddrs pre ++ (b :: (cb.addrs ++ post.addrs)) :=
    fun y hy => List.mem_append_left _ (getLast_mem_elders pre y hy)
  have hout : ∀ y, y ∈ C.addrs ∨ y ∈ sg.addrs → y ∈ T.addrs ∧
      y ∉ b :: n :: g :: (pre.getLast?.map Prod.fst).toList ∧ t1.heap y = t.heap y := by
    intro y hy
    have hyT : y ∈ T.addrs := hy.elim (hCT y) (hsT y)
    have hyg : y ≠ g := by
      rintro rfl
      rcases hy with hy | hy
      · exact dCS hy (by simp)
      · exact gK (List.mem_append_right _ hy)
    have hyK : y ∉ eldersAddrs pre ++ (b :: (cb.addrs ++ post.addrs)) := by
      intro hm
      rcases hy with hy | hy
      · exact dCS hy (List.mem_cons_of_mem _ (List.mem_append_left _ hm))
      · exact dKsg hm hy
    have hyb : y ≠ b := fun e => hyK (by simp [e])
    have hyl : y ∉ (pre.getLast?.map Prod.fst).toList := fun hm => hyK (hlast y hm)
    refine ⟨hyT, ?_, k8 y ?_⟩
    · simp only [List.mem_cons, not_or]
      exact ⟨hyb, hne y hyT, hyg, hyl⟩
    · simp only [List.mem_cons, not_or]
      exact ⟨hnew y hyT, hne y hyT, hyb, hyg, hyl⟩
  have hleaf : ∀ y, y ≠ t.next → (t1.heap y).Leaf = (t.heap y).Leaf := fun y hy => by
    rw [k7 y hy]
  have hrep1 : Rep t1.heap none (C.plug (BT.node g
      (chainOf pre (BT.node t.next (BT.node n BT.nil (BT.node b cb BT.nil)) post)) sg)) := by
    refine hk t1.heap _ rfl ⟨k9.trans s1, k3, k10.trans s3, k4,
      Rep_agree t.heap t1.heap sg a1 (fun y hy => (hout y (Or.inr hy)).2.2) s5⟩
      (fun y hy => ?_)
    have e := (hout y (Or.inl hy)).2.2
    exact ⟨by rw [e], by rw [e], by rw [e]⟩
  have hperm1 : (C.plug (BT.node g
      (chainOf pre (BT.node t.next (BT.node n BT.nil (BT.node b cb BT.nil)) post)) sg)).addrs.Perm
      (t.next :: n :: T.addrs) := by
    refine List.perm_iff_count.2 (fun a => ?_)
    rw [(Ctx.plug_perm _ C).count_eq a, List.count_cons, List.count_cons, hperm.count_eq a]
    simp only [BT.addrs, chainOf_addrs, List.count_append, List.count_cons, List.count_nil]
    omega
  have hTne : T ≠ BT.nil := by rw [hT]; exact Ctx.plug_ne_nil _ _ _ C
  obtain ⟨r, c, hTr⟩ : ∃ r c, T = BT.node r c BT.nil := hsingle.resolve_left hTne
  have hrT : r ∈ T.addrs := by rw [hTr]; simp [BT.addrs]
  have hwf1 : WellFormed t1 (C.plug (BT.node g
      (chainOf pre (BT.node t.next (BT.node n BT.nil (BT.node b cb BT.nil)) post)) sg)) := by
    refine ⟨?_, Or.inr ?_, hrep1, ?_, ?_⟩
    · rw [k2, hroot, hT]
      exact Ctx.plug_ptr
        (BT.node g (chainOf pre (BT.node t.next (BT.node n BT.nil (BT.node b cb BT.nil)) post)) sg)
        (BT.node g (chainOf pre (BT.node b cb post)) sg) (Eq.refl (some g)) C
    · obtain ⟨c1, hc1⟩ := Ctx.plug_single g r _
        (chainOf pre (BT.node t.next (BT.node n BT.nil (BT.node b cb BT.nil)) post)) sg c C
        (hT ▸ hTr)
      exact ⟨r, c1, hc1⟩
    · refine hperm1.nodup_iff.2 (List.nodup_cons.2 ⟨fun hm => ?_, List.nodup_cons.2 ⟨hn, hnd⟩⟩)
      rcases List.mem_cons.1 hm with e | hm
      · exact hnn e.symm
      · exact hnew _ hm rfl
    · obtain ⟨lcS, mk⟩ := LeavesChildless_plug t.heap t1.heap g g _
        (chainOf pre (BT.node t.next (BT.node n BT.nil (BT.node b cb BT.nil)) post)) sg sg C
        (hT ▸ hlc)
      obtain ⟨lg, lK, lsg⟩ := lcS
      obtain ⟨lcB, mkK⟩ := LeavesChildless_chainOf t.heap t1.heap _
        (BT.node t.next (BT.node n BT.nil (BT.node b cb BT.nil)) post) pre lK
      refine mk (fun y hy => hleaf y (hnew y (hCT y hy))) ⟨fun hl => ?_, mkK (fun y hy =>
        hleaf y (hnew y (hKT y (List.mem_append_left _ hy)))) ⟨fun hl => ?_, ⟨fun _ => rfl,
          trivial, fun hl => ?_, ?_, trivial⟩, ?_⟩, ?_⟩
      · exact absurd (lg ((hleaf g (hnew g hgT)).symm.trans hl)) (chainOf_ne_nil _ _ _ pre)
      · rw [k11] at hl; cases hl
      · exact lcB.1 ((hleaf b (hnew b (hKT b (by simp)))).symm.trans hl)
      · exact LeavesChildless_congr t.heap t1.heap cb
          (fun y hy => hleaf y (hnew y (hKT y (by simp [hy])))) lcB.2.1
      · exact LeavesChildless_congr t.heap t1.heap post
          (fun y hy => hleaf y (hnew y (hKT y (by simp [hy])))) lcB.2.2
      · exact LeavesChildless_congr t.heap t1.heap sg
          (fun y hy => hleaf y (hnew y (hsT y hy))) lsg
  have hsz : (C.plug (BT.node g
      (chainOf pre (BT.node t.next (BT.node n BT.nil (BT.node b cb BT.nil)) post)) sg)).size <
      fuel := by
    rw [BT.size_addrs, hperm1.length_eq]
    rw [BT.size_addrs] at hf
    simp only [List.length_cons]
    omega
  obtain ⟨t2, hU, hr2, hfld, hdeg, hL2, hI2⟩ := update_after_insert t1 t.heap T _ t.next n fuel
    hwf1 hsz hperm1 k11 ((hleaf n hnn).trans hnl) (fun y hy => hleaf y (hnew y hy))
  have l2 := fun y => (hfld y).1
  obtain ⟨a1n, a2n, a3n, ⟨n1, n2, n3, -, b1, b2, b3, b4, -⟩, -⟩ :=
    Rep_chainOf_tail t1.heap (some g) _ pre k4
  have hdeg2 : (t2.heap t.next).Degree = 2 := by
    have := (DegreesOK_chainOf t2.heap _ pre (DegreesOK_plug t2.heap _ C hdeg).2.1).1
    rw [this]; simp [BT.chainLen]
  have hbig : (g :: (eldersAddrs pre ++
      (t.next :: n :: b :: (BT.nil.addrs ++ (cb.addrs ++ post.addrs))))).Nodup := by
    have h0 : (t.next :: n :: g :: (eldersAddrs pre ++ (b :: (cb.addrs ++ post.addrs)))).Nodup := by
      refine List.nodup_cons.2 ⟨fun hm => ?_, List.nodup_cons.2 ⟨fun hm => ?_,
        List.nodup_cons.2 ⟨hgK, ndK⟩⟩⟩
      · rcases List.mem_cons.1 hm with e | hm
        · exact hnn e.symm
        · rcases List.mem_cons.1 hm with e | hm
          · exact hnew g hgT e.symm
          · exact hnew _ (hKT _ hm) rfl
      · rcases List.mem_cons.1 hm with e | hm
        · exact hne g hgT e.symm
        · exact hn (hKT n hm)
    refine nodup_of_count_le _ _ (fun a => ?_) h0
    simp only [BT.addrs, List.count_append, List.count_cons, List.count_nil]
    omega
  obtain ⟨t3, r0, r1, r2, r3, r4, -, r6, r7, -, -, r10, r11, r12, r13⟩ :=
    binary_inner_core fuel t2 n t.next b g pre (BT.node n BT.nil (BT.node b cb BT.nil)) BT.nil cb
      post
      (by rw [hr2, k2, hroot, hTr]; intro e; exact hne r hrT (Option.some.inj e))
      hdeg2 ((l2 g).2.1.trans k3) (Rep_links t1.heap t2.heap _ _ (fun y _ => l2 y) k4)
      ((l2 _).1.trans n1) ((l2 _).2.1.trans n2) trivial ((l2 _).2.1.trans b2)
      (Rep_links t1.heap t2.heap cb _ (fun y _ => l2 y) b4)
      (by rw [(l2 _).2.1, a2n]; simp only [BT.ptr, if_true]; exact (l2 _).2.2.trans n3)
      hbig hpl
  have hlinks3 : ∀ y, y ∈ C.addrs ∨ y ∈ sg.addrs → SameLinks t.heap t3.heap y := by
    intro y hy
    obtain ⟨-, h1, h2⟩ := hout y hy
    have e3 := r13 y h1
    have e2 := l2 y
    exact ⟨by rw [e3, e2.1, h2], by rw [e3, e2.2.1, h2], by rw [e3, e2.2.2, h2]⟩
  have hrep3 : Rep t3.heap none T := by
    rw [hT]
    exact hk t3.heap _ rfl ⟨r3.trans ((l2 g).1.trans (k9.trans s1)), r1,
      r4.trans ((l2 g).2.2.trans (k10.trans s3)), r2,
      Rep_links t.heap t3.heap sg a1 (fun y hy => hlinks3 y (Or.inr hy)) s5⟩
      (fun y hy => hlinks3 y (Or.inl hy))
  refine ⟨t1, t2, t3, k0, hU, r0, by rw [r10, hr2, k2], hrep3, ?_, ?_, r6, r7⟩
  · rw [r12, hL2, (hfld n).2, hleaf n hnn, hnl, hL]; simp
  · rw [r11, hI2, hI]; simp

/-- C30: on a well-formed tree with accurate `Leaves` and `Internals`, for an anchor `b`
in the tree and a detached leaf `n` (flagged as a leaf, without child, not in the tree;
all addresses in use below `next`), the sequence `AddNodeBelow (n, b)`, `Update ()`,
`RemoveNode (n)` returns (given fuel above the node count plus two) and restores the
tree: `Root` is the old root, the heap holds the old shape again, every node of the
tree has its old `Anc`, `Child` and `Sib` pointers, `Leaves` and `Internals` have their
old values, and `n` is detached again. -/
theorem AddNodeBelow_RemoveNode_identity (fuel : Nat) (t : Tree) (T : BT) (n b : Nat)
    (hwf : WellFormed t T) (hL : t.Leaves = leavesF t.heap T)
    (hI : t.Internals = internalsF t.heap T) (hb : b ∈ T.addrs) (hn : n ∉ T.addrs)
    (hnl : (t.heap n).Leaf = true) (hnc : (t.heap n).Child = none)
    (hlt : ∀ y ∈ n :: T.addrs, y < t.next) (hf : T.size + 2 < fuel) :
    ∃ t1 t2 t3, AddNodeBelow fuel t n b = some t1 ∧ Update fuel t1 = some t2 ∧
      RemoveNode fuel t2 n = some (none, t3) ∧ t3.Root = t.Root ∧ Rep t3.heap none T ∧
      (∀ y ∈ T.addrs, (t3.heap y).Anc = (t.heap y).Anc ∧
        (t3.heap y).Child = (t.heap y).Child ∧ (t3.heap y).Sib = (t.heap y).Sib) ∧
      t3.Leaves = t.Leaves ∧ t3.Internals = t.Internals ∧
      (t3.heap n).Anc = none ∧ (t3.heap n).Sib = none := by
  have hmain : ∃ t1 t2 t3, AddNodeBelow fuel t n b = some t1 ∧ Update fuel t1 = some t2 ∧
      RemoveNode fuel t2 n = some (none, t3) ∧ t3.Root = t.Root ∧
      Rep t3.heap none T ∧ t3.Leaves = t.Leaves ∧
      t3.Internals = t.Internals ∧ (t3.heap n).Anc = none ∧ (t3.heap n).Sib = none := by
    rcases locate b T hb with ⟨pre, cb, post, hT⟩ | ⟨C, g, pre, cb, post, sg, hT⟩
    · obtain ⟨hroot, hsingle, hrep, hnd, hlc⟩ := hwf
      rcases hsingle with h0 | ⟨r, c, hTr⟩
      · rw [h0] at hb; simp [BT.addrs] at hb
      cases pre with
      | nil =>
        simp only [chainOf] at hT
        rw [hTr] at hT
        simp only [BT.node.injEq] at hT
        obtain ⟨e1, e2, e3⟩ := hT
        subst e1 e2
        subst hTr
        exact insert_remove_root fuel t n r c hroot hrep hnd hlc hL hI hn hnl hnc hlt hf
      | cons ec pre =>
        obtain ⟨e, c1⟩ := ec
        rw [hTr] at hT
        simp only [chainOf, BT.node.injEq] at hT
        exact absurd hT.2.2.symm (chainOf_ne_nil _ _ _ pre)
    · exact insert_remove_inner fuel t n b g C pre cb post sg T hT hwf hL hI hn hnl hnc hlt hf
  obtain ⟨t1, t2, t3, h1, h2, h3, h4, h5, h6, h7, h8, h9⟩ := hmain
  exact ⟨t1, t2, t3, h1, h2, h3, h4, h5, Rep_same t.heap t3.heap T none hwf.2.2.1 h5, h6, h7,
    h8, h9⟩

theorem treeWithSpare_wellFormed : WellFormed treeWithSpare shapeABC := by
  refine ⟨?_, Or.inr ⟨_, _, rfl⟩, ?_, ?_, ?_⟩ <;>
    simp only [shapeABC, Rep, BT.ptr, BT.addrs, LeavesChildless] <;> decide!

/-- C30, on the tree `(A,B,C)` with the detached leaf `D` (address 4) inserted below
`B` (address 2) and removed again. -/
theorem AddNodeBelow_RemoveNode_identity_witness :
    WellFormed treeWithSpare shapeABC ∧
    treeWithSpare.Leaves = leavesF treeWithSpare.heap shapeABC ∧
    treeWithSpare.Internals = internalsF treeWithSpare.heap shapeABC ∧
    2 ∈ shapeABC.addrs ∧ 4 ∉ shapeABC.addrs ∧ (treeWithSpare.heap 4).Leaf = true ∧
    (treeWithSpare.heap 4).Child = none ∧
    (∀ y ∈ 4 :: shapeABC.addrs, y < treeWithSpare.next) ∧ shapeABC.size + 2 < 7 ∧
    ∃ t1 t2 t3, AddNodeBelow 7 treeWithSpare 4 2 = some t1 ∧ Update 7 t1 = some t2 ∧
      RemoveNode 7 t2 4 = some (none, t3) ∧ t3.Root = treeWithSpare.Root ∧
      Rep t3.heap none shapeABC ∧
      (∀ y ∈ shapeABC.addrs, (t3.heap y).Anc = (treeWithSpare.heap y).Anc ∧
        (t3.heap y).Child = (treeWithSpare.heap y).Child ∧
        (t3.heap y).Sib = (treeWithSpare.heap y).Sib) ∧
      t3.Leaves = treeWithSpare.Leaves ∧ t3.Internals = treeWithSpare.Internals ∧
      (t3.heap 4).Anc = none ∧ (t3.heap 4).Sib = none :=
  have hL : treeWithSpare.Leaves = leavesF treeWithSpare.heap shapeABC := by
    simp only [shapeABC, leavesF]; decide!
  have hI : treeWithSpare.Internals = internalsF treeWithSpare.heap shapeABC := by
    simp only [shapeABC, internalsF]; decide!
  have hlt : ∀ y ∈ 4 :: shapeABC.addrs, y < treeWithSpare.next := by
    simp only [shapeABC, BT.addrs]; decide!
  ⟨treeWithSpare_wellFormed, hL, hI, by decide, by decide, by decide!, by decide!, hlt,
    by decide,
    AddNodeBelow_RemoveNode_identity 7 treeWithSpare shapeABC 4 2 treeWithSpare_wellFormed hL hI
      (by decide) (by decide) (by decide!) (by decide!) hlt (by decide)⟩

/-- The three steps on `(A,B,C)` and the detached leaf `D`, for the anchors `B`, `A`
and the root: after `AddNodeBelow` and `Update` there are 4 leaves and 2 internal
nodes, and after `RemoveNode` the pointers of the nodes 0 to 3 and the counters are
those of the start. -/
theorem insertThenRemove_examples :
    ∀ b ∈ [2, 1, 0],
      ((AddNodeBelow 7 treeWithSpare 4 b).bind (Update 7)).map Tree.Leaves = some 4 ∧
      ((AddNodeBelow 7 treeWithSpare 4 b).bind (Update 7)).map Tree.Internals = some 2 ∧
      (insertThenRemove treeWithSpare 4 b).map Tree.Root = some treeWithSpare.Root ∧
      (insertThenRemove treeWithSpare 4 b).map Tree.Leaves = some treeWithSpare.Leaves ∧
      (insertThenRemove treeWithSpare 4 b).map Tree.Internals =
        some treeWithSpare.Internals ∧
      ((insertThenRemove treeWithSpare 4 b).map fun t3 =>
          (List.range 4).map fun y => (t3.heap y).Anc) =
        some ((List.range 4).map fun y => (treeWithSpare.heap y).Anc) ∧
      ((insertThenRemove treeWithSpare 4 b).map fun t3 =>
          (List.range 4).map fun y => (t3.heap y).Child) =
        some ((List.range 4).map fun y => (treeWithSpare.heap y).Child) ∧
      ((insertThenRemove treeWithSpare 4 b).map fun t3 =>
          (List.range 4).map fun y => (t3.heap y).Sib) =
        some ((List.range 4).map fun y => (treeWithSpare.heap y).Sib) := by
  intro b hb
  simp only [List.mem_cons, List.mem_singleton, List.mem_nil_iff, or_false] at hb
  rcases hb with rfl | rfl | rfl <;>
    refine ⟨?_, ?_, ?_, ?_, ?_, ?_, ?_, ?_⟩ <;> decide!

/-! ## The copy constructor -/

/-- C32 (code bug): the copy constructor calls `copyTraverse` on the source, whose
`CurNode` then decides where the copy is cut (`if (p1 != CurNode)`), and takes
`Leaves` and `Internals` from the source. On the tree parsed from
`((A:1,B:2):3,C:4);` (addresses 0 to 4) after `CopyOfSubtree` on the inner node 1
(`CurNode` is then 1, and the arena holds the three copies 5, 6, 7), the constructor
copies the root (8), the inner node (9), `A` (10) and `B` (11) and leaves the younger
sibling `C` of the inner node out: the copy of the inner node has no sibling, the new
object has `Leaves = 3` and `Internals = 2`, while `Update` counts 2 leaves in it. -/
theorem Tree_copy_cut_at_CurNode :
    (CopyOfSubtree 10 (parsed descrNested) (some 1)).isSome = true ∧
    afterSubtreeCopy.CurNode = some 1 ∧ afterSubtreeCopy.Root = some 0 ∧
    afterSubtreeCopy.next = 8 ∧
    ((afterSubtreeCopy.heap 1).Sib = some 4 ∧ (afterSubtreeCopy.heap 4).Label = "C" ∧
      (afterSubtreeCopy.heap 4).Leaf = true ∧ (afterSubtreeCopy.heap 4).Anc = some 0) ∧
    (Tree.copyConstructor 20 afterSubtreeCopy).isSome = true ∧
    (copyOf afterSubtreeCopy).Root = some 8 ∧ (copyOf afterSubtreeCopy).next = 12 ∧
    ((List.range' 8 4).map fun y => ((copyOf afterSubtreeCopy).heap y).Child) =
      [some 9, some 10, none, none] ∧
    ((List.range' 8 4).map fun y => ((copyOf afterSubtreeCopy).heap y).Sib) =
      [none, none, some 11, none] ∧
    ((List.range' 8 4).map fun y => ((copyOf afterSubtreeCopy).heap y).Label) =
      ["", "", "A", "B"] ∧
    ((copyOf afterSubtreeCopy).Leaves = 3 ∧ (copyOf afterSubtreeCopy).Internals = 2) ∧
    (Update 10 (copyOf afterSubtreeCopy)).map (fun t => (t.Leaves, t.Internals)) =
      some (2, 2) := by
  refine ⟨?_, ?_, ?_, ?_, ⟨?_, ?_, ?_, ?_⟩, ?_, ?_, ?_, ?_, ?_, ?_, ⟨?_, ?_⟩, ?_⟩ <;> decide!

/-- On a freshly parsed tree object (`CurNode` is the root after `Parse`) the copy is
complete: all five nodes of `((A:1,B:2):3,C:4);` are copied, with the same labels. -/
theorem Tree_copy_descrNested :
    (parsed descrNested).CurNode = some 0 ∧
    (copyOf (parsed descrNested)).Root = some 5 ∧ (copyOf (parsed descrNested)).next = 10 ∧
    ((List.range' 5 5).map fun y => ((copyOf (parsed descrNested)).heap y).Child) =
      [some 6, some 7, none, none, none] ∧
    ((List.range' 5 5).map fun y => ((copyOf (parsed descrNested)).heap y).Sib) =
      [none, some 9, some 8, none, none] ∧
    ((List.range' 5 5).map fun y => ((copyOf (parsed descrNested)).heap y).Label) =
      ["", "", "A", "B", "C"] := by
  refine ⟨?_, ?_, ?_, ?_, ?_, ?_⟩ <;> decide!

/-! ## The structure of what Write sends -/

theorem NEXUSString_head (s : String) :
    ∃ c rest, (NEXUSString s).data = c :: rest ∧ (c = apostrophe ∨ c.isAlpha = true) := by
  cases h : needsEnclose s.data with
  | true => exact ⟨_, _, NEXUSString_enclosed s h, Or.inl rfl⟩
  | false =>
    obtain ⟨⟨c, cs, hs, hc⟩, -⟩ := unquoted_chars s h
    have hsp : c ≠ ' ' := by
      rintro rfl
      revert hc
      decide
    refine ⟨c, underscoreSpaces cs, ?_, Or.inr hc⟩
    rw [NEXUSString_plain s h, hs]
    simp [underscoreSpaces, hsp]

theorem structChar_NEXUSString (s : String) : structChar (OutItem.text (NEXUSString s)) = none := by
  obtain ⟨c, rest, hd, hc⟩ := NEXUSString_head s
  have hne : ∀ x : Char, x ≠ apostrophe → x.isAlpha = false → NEXUSString s ≠ String.mk [x] := by
    intro x h1 h2 e
    have e1 := congrArg String.data e
    rw [hd] at e1
    simp only [List.cons.injEq] at e1
    rcases hc with hc | hc
    · exact h1 (e1.1 ▸ hc)
    · rw [e1.1, h2] at hc; cases hc
  have h1 := hne '(' (by decide) (by decide)
  have h2 := hne ')' (by decide) (by decide)
  have h3 := hne ',' (by decide) (by decide)
  have h4 := hne ';' (by decide) (by decide)
  simp only [structChar]
  rw [if_neg h1, if_neg h2, if_neg h3, if_neg h4]

theorem skeleton_append (a b : List OutItem) : skeleton (a ++ b) = skeleton a ++ skeleton b := by
  simp [skeleton, List.filterMap_append]

theorem skeleton_none (x : OutItem) (l : List OutItem) (h : structChar x = none) :
    skeleton (x :: l) = skeleton l := by
  unfold skeleton
  rw [List.filterMap_cons, h]

theorem skeleton_some (x : OutItem) (c : Char) (l : List OutItem) (h : structChar x = some c) :
    skeleton (x :: l) = c :: skeleton l := by
  unfold skeleton
  rw [List.filterMap_cons, h]

theorem structChar_colon : structChar (OutItem.text ":") = none := by decide

theorem structChar_quote : structChar (OutItem.text (String.mk [apostrophe])) = none := by
  decide

theorem skeleton_edge (p : Nat) (v : FP) :
    skeleton [OutItem.text ":", OutItem.length p v] = [] := by
  rw [skeleton_none _ _ structChar_colon,
    skeleton_none (OutItem.length p v) [] (Eq.refl none)]
  rfl

theorem skeleton_openNode (t : Tree) (x : Nat) :
    skeleton (openNode false t x) = if (t.heap x).Leaf then [] else ['('] := by
  unfold openNode leafLabel
  by_cases hl : (t.heap x).Leaf = true
  · simp only [hl, if_true, Bool.false_eq_true, if_false]
    rw [skeleton_append, skeleton_none _ _ (structChar_NEXUSString _)]
    by_cases he : t.EdgeLengths = true
    · rw [if_pos he, skeleton_edge]; rfl
    · rw [if_neg he]; rfl
  · simp only [hl, if_false, Bool.false_eq_true]
    exact skeleton_some _ _ _ (by decide)

theorem skeleton_closeGroup (t : Tree) (a : Nat) :
    skeleton (closeGroup false t a) = [')'] := by
  unfold closeGroup innerLabel
  rw [skeleton_append, skeleton_append, skeleton_some _ ')' _ (by decide)]
  have h1 : skeleton (if (t.heap a).Label ≠ "" ∧ t.InternalLabels = true then
      (if false = true then [OutItem.text (NEXUSString (t.heap a).Label)]
        else [OutItem.text (String.mk [apostrophe]), OutItem.text (NEXUSString (t.heap a).Label),
          OutItem.text (String.mk [apostrophe])]) else []) = [] := by
    split
    · simp only [Bool.false_eq_true, if_false]
      rw [skeleton_none _ _ structChar_quote, skeleton_none _ _ (structChar_NEXUSString _),
        skeleton_none _ _ structChar_quote]
      rfl
    · rfl
  have h2 : skeleton (if t.EdgeLengths = true ∧ some a ≠ t.Root then
      [OutItem.text ":", OutItem.length a (t.heap a).Length] else []) = [] := by
    split
    · exact skeleton_edge _ _
    · rfl
  rw [h1, h2]
  rfl

theorem newick_nil : BT.nil.newick = [] := rfl

theorem newick_node (x : Nat) (c s : BT) :
    (BT.node x c s).newick =
      (if c.ptr ≠ none then ['('] ++ c.newick ++ [')'] else []) ++
        (if s.ptr ≠ none then [','] ++ s.newick else []) := rfl

theorem skeleton_renderShape (t : Tree) : ∀ (S : BT) (a : Nat),
    (∀ x ∈ S.addrs, some x ≠ t.Root) → LeavesChildless t.heap S → InnerHaveChild t.heap S →
    skeleton (renderShape false t (some a) S) =
      S.newick ++ (if S.ptr ≠ none then [')'] else []) := by
  intro S
  induction S with
  | nil => intro _ _ _ _; rfl
  | node x c s ihc ihs =>
    intro a hroot hlc hin
    obtain ⟨l1, l2, l3⟩ := hlc
    obtain ⟨i1, i2, i3⟩ := hin
    have hxr : some x ≠ t.Root := hroot x (by simp [BT.addrs])
    have hc := ihc x (fun y hy => hroot y (by simp [BT.addrs, hy])) l2 i2
    have hs := ihs a (fun y hy => hroot y (by simp [BT.addrs, hy])) l3 i3
    have hmid : skeleton (if s.ptr ≠ none then [OutItem.text ","]
        else if some x ≠ t.Root then closeGroup false t a else []) =
        if s.ptr ≠ none then [','] else [')'] := by
      by_cases h : s.ptr ≠ none
      · rw [if_pos h, if_pos h]; exact skeleton_some _ _ _ (by decide)
      · rw [if_neg h, if_neg h, if_pos hxr]; exact skeleton_closeGroup t a
    simp only [renderShape, skeleton_append, skeleton_openNode, hc, hs]
    rw [newick_node x c s, hmid]
    clear hmid hc hs ihc ihs hroot l2 l3 i2 i3
    by_cases hl : (t.heap x).Leaf = true
    · have hcn := l1 hl
      subst hcn
      cases s with
      | nil => simp [hl, BT.ptr, newick_nil]
      | node z cz sz =>
        generalize (BT.node z cz sz).newick = ns
        simp [hl, BT.ptr, newick_nil]
    · have hcn : c ≠ BT.nil := i1 (by simpa using hl)
      cases c with
      | nil => exact absurd rfl hcn
      | node y cy sy =>
        generalize (BT.node y cy sy).newick = nc
        cases s with
        | nil => simp [hl, BT.ptr, newick_nil]
        | node z cz sz =>
          generalize (BT.node z cz sz).newick = ns
          simp [hl, BT.ptr]

theorem newick_count_open (h : Heap) : ∀ S : BT, LeavesChildless h S → InnerHaveChild h S →
    ((S.newick.count '(' : Nat) : Int) = internalsF h S ∧
      ((S.newick.count ')' : Nat) : Int) = internalsF h S ∧ S.newick.count ';' = 0 := by
  intro S
  induction S with
  | nil => intro _ _; simp [BT.newick, internalsF]
  | node x c s ihc ihs =>
    intro hlc hin
    obtain ⟨l1, l2, l3⟩ := hlc
    obtain ⟨i1, i2, i3⟩ := hin
    obtain ⟨c1, c2, c3⟩ := ihc l2 i2
    obtain ⟨s1, s2, s3⟩ := ihs l3 i3
    have e1 : (')' == '(') = false := by decide
    have e2 : (',' == '(') = false := by decide
    have e3 : ('(' == ')') = false := by decide
    have e4 : (',' == ')') = false := by decide
    have e5 : ('(' == ';') = false := by decide
    have e6 : (')' == ';') = false := by decide
    have e7 : (',' == ';') = false := by decide
    rw [newick_node x c s]
    simp only [internalsF]
    clear ihc ihs l2 l3 i2 i3
    by_cases hl : (h x).Leaf = true
    · have hcn := l1 hl
      subst hcn
      simp only [newick_nil, internalsF] at c1 c2 c3
      cases s with
      | nil => simp [hl, BT.ptr, newick_nil, internalsF]
      | node z cz sz =>
        generalize (BT.node z cz sz).newick = ns at s1 s2 s3 ⊢
        generalize internalsF h (BT.node z cz sz) = is at s1 s2 ⊢
        simp only [hl, BT.ptr, ne_eq, not_true_eq_false, not_false_eq_true, if_true, if_false,
          List.nil_append, List.append_nil, List.count_append, List.count_cons, List.count_nil,
          e2, e4, e7, Bool.false_eq_true, reduceCtorEq, newick_nil, internalsF]
        refine ⟨?_, ?_, ?_⟩ <;> omega
    · have hcn : c ≠ BT.nil := i1 (by simpa using hl)
      cases c with
      | nil => exact absurd rfl hcn
      | node y cy sy =>
        generalize (BT.node y cy sy).newick = nc at c1 c2 c3 ⊢
        generalize internalsF h (BT.node y cy sy) = ic at c1 c2 ⊢
        cases s with
        | nil =>
          simp only [newick_nil, internalsF] at s1 s2 s3
          simp only [hl, BT.ptr, ne_eq, not_true_eq_false, not_false_eq_true, if_true, if_false,
            List.nil_append, List.append_nil, List.count_append, List.count_cons, List.count_nil,
            e1, e2, e3, e4, e5, e6, e7, Bool.false_eq_true, beq_self_eq_true, reduceCtorEq,
            newick_nil, internalsF]
          refine ⟨?_, ?_, ?_⟩ <;> omega
        | node z cz sz =>
          generalize (BT.node z cz sz).newick = ns at s1 s2 s3 ⊢
          generalize internalsF h (BT.node z cz sz) = is at s1 s2 ⊢
          simp only [hl, BT.ptr, ne_eq, not_true_eq_false, not_false_eq_true, if_true, if_false,
            List.nil_append, List.append_nil, List.count_append, List.count_cons, List.count_nil,
            e1, e2, e3, e4, e5, e6, e7, Bool.false_eq_true, beq_self_eq_true, reduceCtorEq]
          refine ⟨?_, ?_, ?_⟩ <;> omega

theorem newick_count_comma (h : Heap) : ∀ (S : BT) (a : Option Nat), Rep h a S →
    S.newick.count ',' = (S.addrs.filter fun y => ((h y).Sib).isSome).length := by
  intro S
  induction S with
  | nil => intro _ _; simp [BT.newick, BT.addrs]
  | node x c s ihc ihs =>
    intro a hrep
    obtain ⟨-, -, hsib, hrc, hrs⟩ := hrep
    have hc := ihc (some x) hrc
    have hs := ihs a hrs
    have e1 : ('(' == ',') = false := by decide
    have e2 : (')' == ',') = false := by decide
    rw [newick_node x c s]
    simp only [BT.addrs, List.filter_cons, List.filter_append, List.length_append, hsib]
    generalize List.filter (fun y => ((h y).Sib).isSome) c.addrs = fc at hc ⊢
    generalize List.filter (fun y => ((h y).Sib).isSome) s.addrs = fs at hs ⊢
    clear ihc ihs hrc hrs hsib
    cases c with
    | nil =>
      simp only [newick_nil, List.count_nil] at hc
      cases s with
      | nil =>
        simp only [newick_nil, List.count_nil] at hs
        simp [BT.ptr, ← hc, ← hs]
      | node z cz sz =>
        generalize (BT.node z cz sz).newick = ns at hs ⊢
        simp [BT.ptr, ← hc, ← hs]
    | node y cy sy =>
      generalize (BT.node y cy sy).newick = nc at hc ⊢
      cases s with
      | nil =>
        simp only [newick_nil, List.count_nil] at hs
        simp [BT.ptr, List.count_cons, e1, e2, ← hc, ← hs]
      | node z cz sz =>
        generalize (BT.node z cz sz).newick = ns at hs ⊢
        simp only [BT.ptr, ne_eq, not_false_eq_true, if_true, reduceCtorEq, Option.isSome_some,
          List.length_cons, List.length_append, List.count_append, List.count_cons,
          List.count_nil, e1, e2, Bool.false_eq_true, if_false, beq_self_eq_true, ← hc, ← hs]
        omega

theorem nestDepth_newick : ∀ (S : BT) (d : Nat) (rest : List Char),
    nestDepth d (S.newick ++ rest) = nestDepth d rest := by
  intro S
  induction S with
  | nil => intro d rest; rfl
  | node x c s ihc ihs =>
    intro d rest
    rw [newick_node x c s]
    have hopen : ∀ (l : List Char), nestDepth d ('(' :: l) = nestDepth (d + 1) l := by
      intro l; simp [nestDepth]
    have hclose : ∀ (l : List Char), nestDepth (d + 1) (')' :: l) = nestDepth d l := by
      intro l
      have e : (')' = '(') = False := by decide
      simp [nestDepth, e]
    have hcomma : ∀ (l : List Char), nestDepth d (',' :: l) = nestDepth d l := by
      intro l
      have e1 : (',' = '(') = False := by decide
      have e2 : (',' = ')') = False := by decide
      simp [nestDepth, e1, e2]
    by_cases hc : c.ptr ≠ none <;> by_cases hs : s.ptr ≠ none
    · simp only [hc, hs, if_true, ne_eq, not_false_eq_true, List.append_assoc, List.cons_append,
        List.nil_append]
      rw [hopen, ihc, hclose, hcomma, ihs]
    · simp only [hc, hs, if_true, if_false, ne_eq, not_false_eq_true, List.append_assoc,
        List.cons_append, List.nil_append, List.append_nil]
      rw [hopen, ihc, hclose]
    · simp only [hc, hs, if_true, if_false, ne_eq, not_false_eq_true, List.append_assoc,
        List.cons_append, List.nil_append]
      rw [hcomma, ihs]
    · simp only [hc, hs, if_false, List.nil_append]

/-- What `Write` sends for a well-formed tree in which every non-leaf node has a child:
the structural characters are the nesting of the shape followed by one semicolon. -/
theorem Write_skeleton (t : Tree) (T : BT) (hwf : WellFormed t T)
    (hin : InnerHaveChild t.heap T) (fuel : Nat) (hf : T.size < fuel) :
    ∃ out, Write fuel t = some out ∧ skeleton out = T.newick ++ [';'] := by
  obtain ⟨hroot, hshape, hrep, hnd, hlc⟩ := hwf
  rcases hshape with rfl | ⟨r, c, rfl⟩
  · obtain ⟨n, rfl⟩ : ∃ n, fuel = n + 1 := ⟨fuel - 1, by omega⟩
    refine ⟨[OutItem.text ";"], ?_, ?_⟩
    · have hr : t.Root = none := hroot
      simp [Write, traverse, hr, traverseWith_none]
    · exact skeleton_some _ _ _ (by decide)
  · have hr : t.Root = some r := hroot
    have h1 := traverseWith_root false t r c fuel hr hrep hnd
      (by simp only [BT.size] at hf; omega)
    refine ⟨openNode false t r ++ renderShape false t (some r) c ++ [OutItem.text ";"],
      by simp only [Write, traverse, h1, Option.map_some'], ?_⟩
    have hcr : ∀ y ∈ c.addrs, some y ≠ t.Root := by
      intro y hy e
      rw [hr] at e
      simp only [BT.addrs, List.append_nil, List.nodup_cons] at hnd
      exact hnd.1 (Option.some.inj e ▸ hy)
    rw [skeleton_append, skeleton_append, skeleton_openNode,
      skeleton_renderShape t c r hcr hlc.2.1 hin.2.1, newick_node r c BT.nil,
      skeleton_some _ ';' [] (by decide)]
    have l1 := hlc.1
    have i1 := hin.1
    clear hrep hnd hlc hin h1 hcr hf
    by_cases hl : (t.heap r).Leaf = true
    · have hcn := l1 hl
      subst hcn
      simp [hl, BT.ptr, newick_nil, skeleton]
    · have hcn : c ≠ BT.nil := i1 (by simpa using hl)
      cases c with
      | nil => exact absurd rfl hcn
      | node y cy sy =>
        generalize (BT.node y cy sy).newick = nc
        simp [hl, BT.ptr, skeleton]

/-- C33: on a well-formed tree (leaves have no children) in which every non-leaf node
has at least one child, `Write` returns once the fuel exceeds the number of nodes, and
the structural characters of its output (the items `(`, `)`, `,` and `;` that `Write`
sends, which no label item equals) are the nesting of the shape, one pair of
parentheses around the children of every non-leaf node and one comma after every node
with a next sibling, followed by a semicolon: there are as many `(` and as many `)` as
non-leaf nodes, as many `,` as nodes with a next sibling, the parentheses are properly
nested (the depth never goes below 0 and ends at 0), and the only `;` is the last
character. -/
theorem Write_well_nested (t : Tree) (T : BT) (hwf : WellFormed t T)
    (hin : InnerHaveChild t.heap T) (fuel : Nat) (hf : T.size < fuel) :
    ∃ out, Write fuel t = some out ∧ skeleton out = T.newick ++ [';'] ∧
      (((skeleton out).count '(' : Nat) : Int) = internalsF t.heap T ∧
      (((skeleton out).count ')' : Nat) : Int) = internalsF t.heap T ∧
      (skeleton out).count ',' = (T.addrs.filter fun y => ((t.heap y).Sib).isSome).length ∧
      nestDepth 0 (skeleton out) = some 0 ∧
      (skeleton out).count ';' = 1 ∧ (skeleton out).getLast? = some ';' := by
  obtain ⟨out, h1, h2⟩ := Write_skeleton t T hwf hin fuel hf
  obtain ⟨c1, c2, c3⟩ := newick_count_open t.heap T hwf.2.2.2.2 hin
  have c4 := newick_count_comma t.heap T none hwf.2.2.1
  have e1 : (';' == '(') = false := by decide
  have e2 : (';' == ')') = false := by decide
  have e3 : (';' == ',') = false := by decide
  refine ⟨out, h1, h2, ?_, ?_, ?_, ?_, ?_, ?_⟩
  · rw [h2, List.count_append, List.count_cons, e1]; simpa using c1
  · rw [h2, List.count_append, List.count_cons, e2]; simpa using c2
  · rw [h2, List.count_append, List.count_cons, e3]; simpa using c4
  · rw [h2, nestDepth_newick]
    have f1 : (';' = '(') = False := by decide
    have f2 : (';' = ')') = False := by decide
    simp [nestDepth, f1, f2]
  · rw [h2, List.count_append, c3]; simp
  · rw [h2]; simp

/-- C33, on the tree parsed from `((A:1,B:2):3,C:4);`. -/
theorem Write_well_nested_witness :
    WellFormed (parsed descrNested) shapeNested ∧
    InnerHaveChild (parsed descrNested).heap shapeNested ∧ shapeNested.size < 6 ∧
    ∃ out, Write 6 (parsed descrNested) = some out ∧
      skeleton out = shapeNested.newick ++ [';'] ∧
      (((skeleton out).count '(' : Nat) : Int) = internalsF (parsed descrNested).heap shapeNested ∧
      (((skeleton out).count ')' : Nat) : Int) = internalsF (parsed descrNested).heap shapeNested ∧
      (skeleton out).count ',' =
        (shapeNested.addrs.filter fun y => (((parsed descrNested).heap y).Sib).isSome).length ∧
      nestDepth 0 (skeleton out) = some 0 ∧
      (skeleton out).count ';' = 1 ∧ (skeleton out).getLast? = some ';' :=
  ⟨parsed_descrNested_wellFormed.1, parsed_descrNested_wellFormed.2, by decide,
    Write_well_nested (parsed descrNested) shapeNested parsed_descrNested_wellFormed.1
      parsed_descrNested_wellFormed.2 6 (by decide)⟩

/-- The structural characters of what `Write` sends for `((A:1,B:2):3,C:4);`. -/
theorem Write_skeleton_descrNested :
    (Write 6 (parsed descrNested)).map skeleton = some ['(', '(', ',', ')', ',', ')', ';'] ∧
    shapeNested.newick = ['(', '(', ',', ')', ',', ')'] := by
  refine ⟨?_, ?_⟩ <;> decide!

/-! ## WriteNoQuote and the SIMMAP table -/

/-- In `traversenoquote` the label of a leaf is written without any single quote. -/
theorem leafLabel_noquote (label : String) :
    ∀ item ∈ leafLabel true label, apostrophe ∉ item.chars := by
  intro item hi
  simp only [leafLabel, if_true, List.mem_singleton] at hi
  subst hi
  simp [OutItem.chars, List.mem_filter]

/-- C34 (code bug): `traversenoquote` filters the single quotes out of leaf labels
only; the label of an internal node is written as `NEXUSString` returns it, and
`NEXUSString` encloses a label in single quotes when it does not start with a letter.
On the tree parsed from `((A,B)95,C);` (accepted, `InternalLabels` set by `Parse`)
`WriteNoQuote` writes the inner label as quote, `95`, quote. -/
theorem WriteNoQuote_inner_label_quoted :
    Accepts 30 40 {} descrSupport ∧ (parsed descrSupport).InternalLabels = true ∧
    ((parsed descrSupport).heap 1).Leaf = false ∧ ((parsed descrSupport).heap 1).Label = "95" ∧
    WriteNoQuote 10 (parsed descrSupport) =
      some [OutItem.text "(", OutItem.text "(", OutItem.text "A", OutItem.text ",",
        OutItem.text "B", OutItem.text ")",
        OutItem.text (String.mk [apostrophe, '9', '5', apostrophe]),
        OutItem.text ",", OutItem.text "C", OutItem.text ")", OutItem.text ";"] ∧
    (WriteNoQuote 10 (parsed descrSupport)).map (fun out =>
      out.any fun item => item.chars.contains apostrophe) = some true := by
  refine ⟨by unfold Accepts; decide, ?_, ?_, ?_, ?_, ?_⟩ <;> decide!

/-- C35 (code bug): the SIMMAP loop tests the state id only against the capacity
(`state>=maxModelCategoryStates`), not against 0. On `(A:{n,1.5});` with a negative
state id `n` (below the capacity) the pass of the loop that reads the segment goes on
to `modelvector[state]+=brleninstate` with `state = n`, an index outside the table
(flag `oob`), and the run ends in `stACCEPTED`. -/
theorem Parse_simmap_negative_index (cap n : Int) (hn : n < 0) (hc : n < cap) (t : Tree) :
    (simmapBody cap
      { modelvector := List.replicate cap.toNat 0, stateordervector := [],
        statetimesvector := [], totaledgelength := 0, tooMany := false, oob := false,
        token := tk tokentype.OTHER "\x7b",
        rest := [tnum "n" n n, tk tokentype.COMMA ",", tnum "1.5" 1 (3 / 2),
          tk tokentype.OTHER "\x7d"] }).2.stateordervector = [n] ∧
    (simmapBody cap
      { modelvector := List.replicate cap.toNat 0, stateordervector := [],
        statetimesvector := [], totaledgelength := 0, tooMany := false, oob := false,
        token := tk tokentype.OTHER "\x7b",
        rest := [tnum "n" n n, tk tokentype.COMMA ",", tnum "1.5" 1 (3 / 2),
          tk tokentype.OTHER "\x7d"] }).2.oob = true ∧
    (parseFsm cap 20 t (descrSimmapOver n)).map (fun s => (s.state, s.oob))
        = some (FsmState.stACCEPTED, true) := by
  have h1 : ¬ cap ≤ n := not_le.2 hc
  refine ⟨?_, ?_, ?_⟩
  · simp [simmapBody, SimmapAcc.NextToken, firstChar, tk, tnum, h1]
  · simp [simmapBody, SimmapAcc.NextToken, firstChar, tk, tnum, h1, hn]
  · simp [parseFsm, parseInit, run, step, descrSimmapOver, withPos, tk, tnum,
      PState.NextToken, Tree.NewNode, getNameLeaf, PState.goto, PState.modCur,
      PState.setError, lparMove, commaMove, rparMove, branchInfo, simmapLoop, simmapBody,
      firstChar, SimmapAcc.NextToken, h1, hn]

/-- C35, at capacity 30 with the state id -1. -/
theorem Parse_simmap_negative_index_witness :
    (-1 : Int) < 0 ∧ (-1 : Int) < 30 ∧
    ((simmapBody 30
      { modelvector := List.replicate (30 : Int).toNat 0, stateordervector := [],
        statetimesvector := [], totaledgelength := 0, tooMany := false, oob := false,
        token := tk tokentype.OTHER "\x7b",
        rest := [tnum "n" (-1) (-1), tk tokentype.COMMA ",", tnum "1.5" 1 (3 / 2),
          tk tokentype.OTHER "\x7d"] }).2.stateordervector = [-1] ∧
    (simmapBody 30
      { modelvector := List.replicate (30 : Int).toNat 0, stateordervector := [],
        statetimesvector := [], totaledgelength := 0, tooMany := false, oob := false,
        token := tk tokentype.OTHER "\x7b",
        rest := [tnum "n" (-1) (-1), tk tokentype.COMMA ",", tnum "1.5" 1 (3 / 2),
          tk tokentype.OTHER "\x7d"] }).2.oob = true ∧
    (parseFsm 30 20 {} (descrSimmapOver (-1))).map (fun s => (s.state, s.oob))
        = some (FsmState.stACCEPTED, true)) :=
  ⟨by decide, by decide, Parse_simmap_negative_index 30 (-1) (by decide) (by decide) {}⟩

/-- On `(A:{-1,1.5});` at capacity 30 `Parse` returns 0 with no error, and the leaf
holds the state order `[-1]`. -/
theorem Parse_simmap_negative_example :
    (Parse 30 20 {} (descrSimmapOver (-1))).map (fun r => (r.1, r.2.Error)) =
      some (0, ErrorCode.errNONE) ∧
    (Parse 30 20 {} (descrSimmapOver (-1))).map (fun r => (r.2.heap 1).StateOrder) =
      some [-1] := by
  refine ⟨?_, ?_⟩ <;> decide!

/-! ## RemoveNode on a leaf: counters and degrees -/

theorem modify_leaf (h : Heap) (p : Nat) (f : Node → Node)
    (hf : ∀ n, (f n).Leaf = n.Leaf) (y : Nat) :
    ((h.modify p f) y).Leaf = (h y).Leaf := by
  by_cases e : y = p
  · subst e
    simp [Heap.modify, Heap.set, hf]
  · simp [Heap.modify, Heap.set, e]

theorem modify_degree (h : Heap) (p : Nat) (f : Node → Node)
    (hf : ∀ n, (f n).Degree = n.Degree) (y : Nat) :
    ((h.modify p f) y).Degree = (h y).Degree := by
  by_cases e : y = p
  · subst e
    simp [Heap.modify, Heap.set, hf]
  · simp [Heap.modify, Heap.set, e]

theorem modify_other (h : Heap) (p : Nat) (f : Node → Node) (y : Nat) (e : y ≠ p) :
    (h.modify p f) y = h y := by
  simp [Heap.modify, Heap.set, e]

theorem removeBinary_data (fuel : Nat) (t t1 : Tree) (x a : Nat)
    (h : removeBinary fuel t x a = some t1) (y : Nat) :
    (t1.heap y).Leaf = (t.heap y).Leaf ∧ (t1.heap y).Degree = (t.heap y).Degree := by
  cases h1 : IsTheChild t.heap x with
  | none => simp [removeBinary, h1] at h
  | some first =>
    cases h2 : (if first then (t.heap x).Sib else (t.heap a).Child) with
    | none => simp [removeBinary, h1, h2] at h
    | some p =>
      cases h3 : (t.heap a).Anc with
      | none =>
        simp only [removeBinary, h1, h2, h3, Option.some.injEq] at h
        subst h
        constructor
        · simp only [modify_leaf, implies_true]
          split <;> simp only [modify_leaf, implies_true]
        · simp only [modify_degree, implies_true]
          split <;> simp only [modify_degree, implies_true]
      | some g =>
        simp only [removeBinary, h1, h2, h3] at h
        split at h
        · exact absurd h (by simp)
        · rename_i t0 hlinked
          have h0 : (t0.heap y).Leaf = (t.heap y).Leaf ∧
              (t0.heap y).Degree = (t.heap y).Degree := by
            split at hlinked
            · exact absurd hlinked (by simp)
            · simp only [Option.some.injEq] at hlinked
              subst hlinked
              exact ⟨by simp only [modify_leaf, implies_true],
                by simp only [modify_degree, implies_true]⟩
            · split at hlinked
              · exact absurd hlinked (by simp)
              · simp only [Option.some.injEq] at hlinked
                subst hlinked
                exact ⟨by simp only [modify_leaf, implies_true],
                  by simp only [modify_degree, implies_true]⟩
          simp only [Option.some.injEq] at h
          subst h
          constructor
          · simp only [modify_leaf, implies_true]
            split <;> exact h0.1
          · simp only [modify_degree, implies_true]
            split <;> exact h0.2

theorem removePolytomy_data (fuel : Nat) (t t1 : Tree) (x a : Nat)
    (h : removePolytomy fuel t x a = some t1) (y : Nat) :
    (t1.heap y).Leaf = (t.heap y).Leaf ∧ (y ≠ a → (t1.heap y).Degree = (t.heap y).Degree) := by
  cases h1 : IsTheChild t.heap x with
  | none => simp [removePolytomy, h1] at h
  | some first =>
    simp only [removePolytomy, h1] at h
    split at h
    · exact absurd h (by simp)
    · rename_i h0 hun
      have hh : (h0 y).Leaf = (t.heap y).Leaf ∧ (h0 y).Degree = (t.heap y).Degree := by
        split at hun
        · simp only [Option.some.injEq] at hun
          subst hun
          exact ⟨by simp only [modify_leaf, implies_true],
            by simp only [modify_degree, implies_true]⟩
        · split at hun
          · exact absurd hun (by simp)
          · simp only [Option.some.injEq] at hun
            subst hun
            exact ⟨by simp only [modify_leaf, implies_true],
              by simp only [modify_degree, implies_true]⟩
      simp only [Option.some.injEq] at h
      subst h
      constructor
      · simp only [modify_leaf, implies_true]
        exact hh.1
      · intro hy
        simp only [modify_other _ _ _ y hy, modify_degree, implies_true]
        exact hh.2

theorem RemoveNode_data (fuel : Nat) (t t1 : Tree) (x a : Nat) (r : Option (Option Nat))
    (hroot : t.Root ≠ some x) (hxa : (t.heap x).Anc = some a)
    (h : RemoveNode fuel t x = some (r, t1)) (y : Nat) :
    (t1.heap y).Leaf = (t.heap y).Leaf ∧ (y ≠ a → (t1.heap y).Degree = (t.heap y).Degree) := by
  simp only [RemoveNode, hroot, if_false, hxa] at h
  split at h
  · simp only [Option.map_eq_some', Prod.mk.injEq] at h
    obtain ⟨t2, h2, -, rfl⟩ := h
    exact ⟨(removeBinary_data fuel t t2 x a h2 y).1,
      fun _ => (removeBinary_data fuel t t2 x a h2 y).2⟩
  · simp only [Option.map_eq_some', Prod.mk.injEq] at h
    obtain ⟨t2, h2, -, rfl⟩ := h
    exact removePolytomy_data fuel t t2 x a h2 y

theorem Ctx.innermost : ∀ C : Ctx,
    (∃ pre : List (Nat × BT), ∀ S, C.plug S = chainOf pre S) ∨
    (∃ (C0 : Ctx) (g : Nat) (pre : List (Nat × BT)) (sg : BT),
      ∀ S, C.plug S = C0.plug (BT.node g (chainOf pre S) sg)) := by
  intro C
  induction C with
  | hole => exact Or.inl ⟨[], fun S => rfl⟩
  | inChild x C s ih =>
    rcases ih with ⟨pre, e⟩ | ⟨C0, g, pre, sg, e⟩
    · exact Or.inr ⟨Ctx.hole, x, pre, s, fun S => by simp only [Ctx.plug, e]⟩
    · exact Or.inr ⟨Ctx.inChild x C0 s, g, pre, sg, fun S => by simp only [Ctx.plug, e]⟩
  | inSib x c C ih =>
    rcases ih with ⟨pre, e⟩ | ⟨C0, g, pre, sg, e⟩
    · exact Or.inl ⟨(x, c) :: pre, fun S => by simp only [Ctx.plug, e, chainOf]⟩
    · exact Or.inr ⟨Ctx.inSib x c C0, g, pre, sg, fun S => by simp only [Ctx.plug, e]⟩

theorem chainLen_chainOf (S : BT) : ∀ pre : List (Nat × BT),
    (chainOf pre S).chainLen = pre.length + S.chainLen := by
  intro pre
  induction pre with
  | nil => simp [chainOf]
  | cons ec pre ih =>
    obtain ⟨e, c⟩ := ec
    simp only [chainOf, BT.chainLen, ih, List.length_cons]
    omega

theorem chainLen_eq_zero : ∀ S : BT, S.chainLen = 0 → S = BT.nil := by
  intro S h
  cases S with
  | nil => rfl
  | node x c s => simp only [BT.chainLen] at h; omega

theorem two_children (x : Nat) (cx post : BT) (pre : List (Nat × BT))
    (h : (chainOf pre (BT.node x cx post)).chainLen = 2) :
    ∃ xfirst p cp, chainOf pre (BT.node x cx post) = twoKids xfirst x cx p cp := by
  rw [chainLen_chainOf] at h
  simp only [BT.chainLen] at h
  cases pre with
  | nil =>
    cases post with
    | nil => simp [BT.chainLen] at h
    | node p cp s =>
      simp only [BT.chainLen, List.length_nil] at h
      have hs : s = BT.nil := chainLen_eq_zero s (by omega)
      subst hs
      exact ⟨true, p, cp, by simp [chainOf, twoKids]⟩
  | cons ec pre =>
    obtain ⟨p, cp⟩ := ec
    cases pre with
    | nil =>
      simp only [List.length_cons, List.length_nil] at h
      have hs : post = BT.nil := chainLen_eq_zero post (by omega)
      subst hs
      exact ⟨false, p, cp, by simp [chainOf, twoKids]⟩
    | cons ec2 pre => simp only [List.length_cons] at h; omega

theorem Ctx.plug_chainLen (S S1 : BT) (h : S.chainLen = S1.chainLen) : ∀ C : Ctx,
    (C.plug S).chainLen = (C.plug S1).chainLen := by
  intro C
  induction C with
  | hole => exact h
  | inChild x C s _ => rfl
  | inSib x c C ih => simp only [Ctx.plug, BT.chainLen, ih]

theorem DegreesOK_of_degree (h h1 : Heap) (T : BT) :
    (∀ x ∈ T.addrs, (h1 x).Degree = (h x).Degree) → DegreesOK h T → DegreesOK h1 T := by
  induction T with
  | nil => intro _ _; trivial
  | node x c s ihc ihs =>
    intro hx hl
    refine ⟨?_, ihc (fun y hy => hx y (by simp [BT.addrs, hy])) hl.2.1,
      ihs (fun y hy => hx y (by simp [BT.addrs, hy])) hl.2.2⟩
    rw [hx x (by simp [BT.addrs])]
    exact hl.1

theorem DegreesOK_plug_into (h h1 : Heap) (S S1 : BT) (hlen : S.chainLen = S1.chainLen) :
    ∀ C : Ctx, DegreesOK h (C.plug S) → (∀ y ∈ C.addrs, (h1 y).Degree = (h y).Degree) →
      DegreesOK h1 S1 → DegreesOK h1 (C.plug S1) := by
  intro C
  induction C with
  | hole => intro _ _ h2; exact h2
  | inChild x C s ih =>
    intro hd hfr h2
    refine ⟨?_, ih hd.2.1 (fun y hy => hfr y (by simp [Ctx.addrs, hy])) h2,
      DegreesOK_of_degree h h1 s (fun y hy => hfr y (by simp [Ctx.addrs, hy])) hd.2.2⟩
    rw [hfr x (by simp [Ctx.addrs]), hd.1, Ctx.plug_chainLen S S1 hlen C]
  | inSib x c C ih =>
    intro hd hfr h2
    exact ⟨by rw [hfr x (by simp [Ctx.addrs])]; exact hd.1,
      DegreesOK_of_degree h h1 c (fun y hy => hfr y (by simp [Ctx.addrs, hy])) hd.2.1,
      ih hd.2.2 (fun y hy => hfr y (by simp [Ctx.addrs, hy])) h2⟩

theorem DegreesOK_chainOf_into (h h1 : Heap) (S S1 : BT) : ∀ pre : List (Nat × BT),
    DegreesOK h (chainOf pre S) → (∀ y ∈ eldersAddrs pre, (h1 y).Degree = (h y).Degree) →
      DegreesOK h1 S1 → DegreesOK h1 (chainOf pre S1) := by
  intro pre
  induction pre with
  | nil => intro _ _ h2; exact h2
  | cons ec pre ih =>
    obtain ⟨e, c⟩ := ec
    intro hd hfr h2
    exact ⟨by rw [hfr e (by simp [eldersAddrs])]; exact hd.1,
      DegreesOK_of_degree h h1 c (fun y hy => hfr y (by simp [eldersAddrs, hy])) hd.2.1,
      ih hd.2.2 (fun y hy => hfr y (by simp [eldersAddrs, hy])) h2⟩

theorem leavesF_plug_diff (h : Heap) (S S1 : BT) : ∀ C : Ctx,
    leavesF h (C.plug S) - leavesF h S = leavesF h (C.plug S1) - leavesF h S1 := by
  intro C
  induction C with
  | hole => simp [Ctx.plug]
  | inChild x C s ih => simp only [Ctx.plug, leavesF]; omega
  | inSib x c C ih => simp only [Ctx.plug, leavesF]; omega

theorem internalsF_plug_diff (h : Heap) (S S1 : BT) : ∀ C : Ctx,
    internalsF h (C.plug S) - internalsF h S = internalsF h (C.plug S1) - internalsF h S1 := by
  intro C
  induction C with
  | hole => simp [Ctx.plug]
  | inChild x C s ih => simp only [Ctx.plug, internalsF]; omega
  | inSib x c C ih => simp only [Ctx.plug, internalsF]; omega

theorem leavesF_chainOf_diff (h : Heap) (S S1 : BT) : ∀ pre : List (Nat × BT),
    leavesF h (chainOf pre S) - leavesF h S = leavesF h (chainOf pre S1) - leavesF h S1 := by
  intro pre
  induction pre with
  | nil => simp [chainOf]
  | cons ec pre ih => obtain ⟨e, c⟩ := ec; simp only [chainOf, leavesF]; omega

theorem internalsF_chainOf_diff (h : Heap) (S S1 : BT) : ∀ pre : List (Nat × BT),
    internalsF h (chainOf pre S) - internalsF h S =
      internalsF h (chainOf pre S1) - internalsF h S1 := by
  intro pre
  induction pre with
  | nil => simp [chainOf]
  | cons ec pre ih => obtain ⟨e, c⟩ := ec; simp only [chainOf, internalsF]; omega

theorem mem_of_count_le (L1 L2 : List Nat) (h : ∀ a, L1.count a ≤ L2.count a) :
    ∀ y ∈ L1, y ∈ L2 := fun y hy =>
  List.count_pos_iff.1 (lt_of_lt_of_le (List.count_pos_iff.2 hy) (h y))

theorem chainOf_single (r : Nat) (c S : BT) : ∀ pre : List (Nat × BT),
    S ≠ BT.nil → chainOf pre S = BT.node r c BT.nil → pre = [] := by
  intro pre hS h
  cases pre with
  | nil => rfl
  | cons ec pre =>
    obtain ⟨e, c1⟩ := ec
    simp only [chainOf, BT.node.injEq] at h
    cases pre with
    | nil => exact absurd h.2.2 hS
    | cons ec2 pre => obtain ⟨e2, c2⟩ := ec2; simp [chainOf] at h

theorem leaf_remove_polytomy (fuel : Nat) (t : Tree) (x a : Nat) (C : Ctx)
    (pre : List (Nat × BT)) (cx post sa T : BT)
    (hT : T = C.plug (BT.node a (chainOf pre (BT.node x cx post)) sa))
    (hwf : WellFormed t T) (hdeg : DegreesOK t.heap T)
    (hL : t.Leaves = leavesF t.heap T) (hI : t.Internals = internalsF t.heap T)
    (hroot : t.Root ≠ some x) (hleaf : (t.heap x).Leaf = true)
    (hd2 : (t.heap a).Degree ≠ 2) (hf : T.size ≤ fuel) :
    ∃ t1 T1, RemoveNode fuel t x = some (none, t1) ∧ WellFormed t1 T1 ∧
      DegreesOK t1.heap T1 ∧ t1.Leaves = leavesF t1.heap T1 ∧
      t1.Internals = internalsF t1.heap T1 ∧ x ∉ T1.addrs ∧ ∀ y ∈ T1.addrs, y ∈ T.addrs := by
  obtain ⟨hroot0, hsingle, hrep, hnd, hlc⟩ := hwf
  have hperm : T.addrs.Perm (C.addrs ++
      (a :: ((eldersAddrs pre ++ (x :: (cx.addrs ++ post.addrs))) ++ sa.addrs))) := by
    have := Ctx.plug_perm (BT.node a (chainOf pre (BT.node x cx post)) sa) C
    rw [← hT] at this
    simpa only [BT.addrs, chainOf_addrs] using this
  have hnd0 := hperm.nodup_iff.1 hnd
  rw [List.nodup_append] at hnd0
  obtain ⟨ndC, ndS, dCS⟩ := hnd0
  rw [List.nodup_cons, List.nodup_append] at ndS
  obtain ⟨aK, ndK, ndsa, dKsa⟩ := ndS
  have haK : a ∉ eldersAddrs pre ++ (x :: (cx.addrs ++ post.addrs)) :=
    fun hm => aK (List.mem_append_left _ hm)
  obtain ⟨a1, hS, hk⟩ := Rep_plug t.heap _ C none (hT ▸ hrep)
  obtain ⟨s1, s2, s3, s4, s5⟩ := hS
  obtain ⟨r1, -, -, -, -⟩ := Rep_chainOf_tail t.heap (some a) _ pre s4
  have hdS := DegreesOK_plug t.heap _ C (hT ▸ hdeg)
  have hpl : pre.length ≤ fuel := by
    have h1 := elders_length pre
    have h2 := hperm.length_eq
    rw [← BT.size_addrs] at h2
    simp only [List.length_append, List.length_cons] at h2
    omega
  have hndK : (a :: (chainOf pre (BT.node x cx post)).addrs).Nodup := by
    rw [chainOf_addrs]
    exact List.nodup_cons.2 ⟨haK, ndK⟩
  obtain ⟨t1, k0, k1, k2, k3, k4, k5, k6, k7, k8, k9, k10, k11, k12, k13⟩ :=
    polytomy_core fuel t x a pre cx post hroot s2 s4 hndK hd2 hpl
  have hdat := RemoveNode_data fuel t t1 x a none hroot r1 k0
  have hlf : ∀ y, (t1.heap y).Leaf = (t.heap y).Leaf := fun y => (hdat y).1
  have hlast : ∀ y ∈ (pre.getLast?.map Prod.fst).toList,
      y ∈ eldersAddrs pre ++ (x :: (cx.addrs ++ post.addrs)) :=
    fun y hy => List.mem_append_left _ (getLast_mem_elders pre y hy)
  have hout : ∀ y, y ∈ C.addrs ∨ y ∈ sa.addrs → y ≠ a ∧ t1.heap y = t.heap y := by
    intro y hy
    have hya : y ≠ a := by
      rintro rfl
      rcases hy with hy | hy
      · exact dCS hy (by simp)
      · exact aK (List.mem_append_right _ hy)
    have hyK : y ∉ eldersAddrs pre ++ (x :: (cx.addrs ++ post.addrs)) := by
      intro hm
      rcases hy with hy | hy
      · exact dCS hy (List.mem_cons_of_mem _ (List.mem_append_left _ hm))
      · exact dKsa hm hy
    have hyx : y ≠ x := fun e => hyK (by simp [e])
    have hyl : y ∉ (pre.getLast?.map Prod.fst).toList := fun hm => hyK (hlast y hm)
    refine ⟨hya, k13 y ?_⟩
    simp only [List.mem_cons, not_or]
    exact ⟨hya, hyx, hyl⟩
  have hcnt : ∀ z, (x :: (C.plug (BT.node a (chainOf pre post) sa)).addrs).count z ≤
      T.addrs.count z := by
    intro z
    rw [List.count_cons, (Ctx.plug_perm _ C).count_eq z, hperm.count_eq z]
    simp only [BT.addrs, chainOf_addrs, List.count_append, List.count_cons, List.count_nil]
    omega
  have hnd1 := nodup_of_count_le _ _ hcnt hnd
  have hTne : T ≠ BT.nil := by rw [hT]; exact Ctx.plug_ne_nil _ _ _ C
  obtain ⟨r, c, hTr⟩ : ∃ r c, T = BT.node r c BT.nil := hsingle.resolve_left hTne
  obtain ⟨lcS, mk⟩ := LeavesChildless_plug t.heap t1.heap a a
    (chainOf pre (BT.node x cx post)) (chainOf pre post) sa sa C (hT ▸ hlc)
  obtain ⟨lcx, mkK⟩ := LeavesChildless_chainOf t.heap t1.heap (BT.node x cx post) post pre
    lcS.2.1
  have hcx : cx = BT.nil := lcx.1 hleaf
  subst hcx
  have hal : (t.heap a).Leaf ≠ true := fun e =>
    chainOf_ne_nil x BT.nil post pre (lcS.1 e)
  refine ⟨t1, C.plug (BT.node a (chainOf pre post) sa), k0, ⟨?_, Or.inr ?_, ?_, ?_, ?_⟩,
    ?_, ?_, ?_, ?_, ?_⟩
  · rw [k10, hroot0, hT]
    exact Ctx.plug_ptr (BT.node a (chainOf pre post) sa)
      (BT.node a (chainOf pre (BT.node x BT.nil post)) sa) (Eq.refl (some a)) C
  · obtain ⟨c1, hc1⟩ := Ctx.plug_single a r _ (chainOf pre post) sa c C (hT ▸ hTr)
    exact ⟨r, c1, hc1⟩
  · refine hk t1.heap _ rfl ⟨k4.trans s1, k1, k5.trans s3, k2,
      Rep_agree t.heap t1.heap sa a1 (fun y hy => (hout y (Or.inr hy)).2) s5⟩
      (fun y hy => ?_)
    have e := (hout y (Or.inl hy)).2
    exact ⟨by rw [e], by rw [e], by rw [e]⟩
  · exact (List.nodup_cons.1 hnd1).2
  · refine mk (fun y _ => hlf y) ⟨fun e => absurd ((hlf a).symm.trans e) hal, ?_,
      LeavesChildless_congr t.heap t1.heap sa (fun y _ => hlf y) lcS.2.2⟩
    exact mkK (fun y _ => hlf y)
      (LeavesChildless_congr t.heap t1.heap post (fun y _ => hlf y) lcx.2.2)
  · refine DegreesOK_plug_into t.heap t1.heap (BT.node a (chainOf pre (BT.node x BT.nil post)) sa)
      (BT.node a (chainOf pre post) sa) rfl C (hT ▸ hdeg)
      (fun y hy => (hdat y).2 (hout y (Or.inl hy)).1) ⟨?_, ?_, ?_⟩
    · rw [k3, hdS.1, chainLen_chainOf, chainLen_chainOf]
      simp only [BT.chainLen]
      push_cast
      omega
    · refine DegreesOK_chainOf_into t.heap t1.heap (BT.node x BT.nil post) post pre hdS.2.1
        (fun y hy => (hdat y).2 (fun e => haK (List.mem_append_left _ (e ▸ hy)))) ?_
      exact DegreesOK_of_degree t.heap t1.heap post
        (fun y hy => (hdat y).2 (fun e => haK (by simp [← e, hy])))
        (DegreesOK_chainOf t.heap _ pre hdS.2.1).2.2
    · exact DegreesOK_of_degree t.heap t1.heap sa
        (fun y hy => (hdat y).2 (hout y (Or.inr hy)).1) hdS.2.2
  · rw [k12, hL, leavesF_congr t.heap t1.heap _ (fun y _ => hlf y), hT]
    have e1 := leavesF_plug_diff t.heap (BT.node a (chainOf pre (BT.node x BT.nil post)) sa)
      (BT.node a (chainOf pre post) sa) C
    have e2 := leavesF_chainOf_diff t.heap (BT.node x BT.nil post) post pre
    simp only [leavesF, hleaf, if_true] at e1 e2 ⊢
    omega
  · rw [k11, hI, internalsF_congr t.heap t1.heap _ (fun y _ => hlf y), hT]
    have e1 := internalsF_plug_diff t.heap (BT.node a (chainOf pre (BT.node x BT.nil post)) sa)
      (BT.node a (chainOf pre post) sa) C
    have e2 := internalsF_chainOf_diff t.heap (BT.node x BT.nil post) post pre
    simp only [internalsF, hleaf, if_true] at e1 e2 ⊢
    omega
  · exact (List.nodup_cons.1 hnd1).1
  · exact fun y hy => mem_of_count_le _ _ hcnt y (List.mem_cons_of_mem _ hy)

theorem twoKids_data (h : Heap) (x p : Nat) (cx cp : BT) (xfirst : Bool) :
    (LeavesChildless h (twoKids xfirst x cx p cp) →
      ((h x).Leaf = true → cx = BT.nil) ∧ ((h p).Leaf = true → cp = BT.nil) ∧
        LeavesChildless h cp) ∧
    (DegreesOK h (twoKids xfirst x cx p cp) → (h p).Degree = cp.chainLen ∧ DegreesOK h cp) ∧
    leavesF h (twoKids xfirst x cx p cp) =
      leavesF h (BT.node x cx BT.nil) + leavesF h (BT.node p cp BT.nil) ∧
    internalsF h (twoKids xfirst x cx p cp) =
      internalsF h (BT.node x cx BT.nil) + internalsF h (BT.node p cp BT.nil) ∧
    twoKids xfirst x cx p cp ≠ BT.nil := by
  cases xfirst with
  | true =>
    simp only [twoKids, if_true, LeavesChildless, DegreesOK, leavesF, internalsF]
    refine ⟨fun e => ⟨e.1, e.2.2.1, e.2.2.2.1⟩, fun e => ⟨e.2.2.1, e.2.2.2.1⟩, by omega,
      by omega, by simp⟩
  | false =>
    simp only [twoKids, Bool.false_eq_true, if_false, LeavesChildless, DegreesOK, leavesF,
      internalsF]
    refine ⟨fun e => ⟨e.2.2.1, e.1, e.2.1⟩, fun e => ⟨e.1, e.2.1⟩, by omega, by omega, by simp⟩

theorem leaf_remove_binary_root (fuel : Nat) (t : Tree) (x a p : Nat) (xfirst : Bool)
    (cx cp T : BT) (hT : T = BT.node a (twoKids xfirst x cx p cp) BT.nil)
    (hwf : WellFormed t T) (hdeg : DegreesOK t.heap T)
    (hL : t.Leaves = leavesF t.heap T) (hI : t.Internals = internalsF t.heap T)
    (hroot : t.Root ≠ some x) (hleaf : (t.heap x).Leaf = true)
    (hd2 : (t.heap a).Degree = 2) :
    ∃ t1 T1, RemoveNode fuel t x = some (none, t1) ∧ WellFormed t1 T1 ∧
      DegreesOK t1.heap T1 ∧ t1.Leaves = leavesF t1.heap T1 ∧
      t1.Internals = internalsF t1.heap T1 ∧ x ∉ T1.addrs ∧ ∀ y ∈ T1.addrs, y ∈ T.addrs := by
  subst hT
  obtain ⟨-, -, hrep, hnd, hlc⟩ := hwf
  obtain ⟨s1, s2, -, s4, -⟩ := hrep
  have hnd2 : (a :: x :: p :: (cx.addrs ++ (cp.addrs ++ []))).Nodup := by
    have hp := twoKids_perm x p cx cp xfirst [a] []
    simp only [BT.addrs, List.append_nil, List.singleton_append] at hp hnd ⊢
    exact hp.nodup_iff.1 hnd
  simp only [List.append_nil] at hnd2
  have hxp : x ≠ p := fun e => (List.nodup_cons.1 (List.nodup_cons.1 hnd2).2).1 (by simp [e])
  have hpa : p ≠ a := fun e => (List.nodup_cons.1 hnd2).1 (by simp [e])
  obtain ⟨f1, f2, f3, f4, f5, f6⟩ := twoKids_facts t.heap a x p cx cp xfirst s2 s4 hxp
  obtain ⟨t1, k0, k1, k2, -, -, -, -, k7, k8, -⟩ := binary_root_core fuel t x a p cx cp hroot hd2
    s1 f1 f2 f3 f4 f5 f6 (List.nodup_cons.1 hnd2).2
  have hdat := RemoveNode_data fuel t t1 x a none hroot f1 k0
  have hlf : ∀ y, (t1.heap y).Leaf = (t.heap y).Leaf := fun y => (hdat y).1
  obtain ⟨d1, d2, d3, d4, d5⟩ := twoKids_data t.heap x p cx cp xfirst
  obtain ⟨l1, l2, l3⟩ := d1 hlc.2.1
  obtain ⟨g1, g2⟩ := d2 hdeg.2.1
  have hcx : cx = BT.nil := l1 hleaf
  subst hcx
  have hal : (t.heap a).Leaf ≠ true := fun e => d5 (hlc.1 e)
  have hndp : (p :: cp.addrs).Nodup := by
    have h3 := (List.nodup_cons.1 (List.nodup_cons.1 hnd2).2).2
    simpa only [BT.addrs, List.nil_append] using h3
  have hpcp : ∀ y ∈ p :: cp.addrs, y ≠ a ∧ y ≠ x := by
    intro y hy
    have ha := (List.nodup_cons.1 hnd2).1
    have hx := (List.nodup_cons.1 (List.nodup_cons.1 hnd2).2).1
    simp only [BT.addrs, List.nil_append, List.mem_cons, not_or] at ha hx hy
    refine ⟨fun e => ?_, fun e => ?_⟩
    · subst e
      rcases hy with e | hy
      · exact ha.2.1 e
      · exact ha.2.2 hy
    · subst e
      rcases hy with e | hy
      · exact hx.1 e
      · exact hx.2 hy
  refine ⟨t1, BT.node p cp BT.nil, k0, ⟨k1, Or.inr ⟨p, cp, rfl⟩, k2, ?_, ?_⟩, ?_, ?_, ?_, ?_, ?_⟩
  · simpa only [BT.addrs, List.append_nil] using hndp
  · exact ⟨fun e => l2 ((hlf p).symm.trans e),
      LeavesChildless_congr t.heap t1.heap cp (fun y _ => hlf y) l3, trivial⟩
  · exact ⟨by rw [(hdat p).2 hpa]; exact g1,
      DegreesOK_of_degree t.heap t1.heap cp
        (fun y hy => (hdat y).2 (hpcp y (List.mem_cons_of_mem _ hy)).1) g2, trivial⟩
  · rw [k8, hL, leavesF_congr t.heap t1.heap _ (fun y _ => hlf y)]
    simp only [leavesF, d3, hleaf, hal, if_true, Bool.false_eq_true, if_false]
    omega
  · rw [k7, hI, internalsF_congr t.heap t1.heap _ (fun y _ => hlf y)]
    simp only [internalsF, d4, hleaf, hal, if_true, Bool.false_eq_true, if_false]
    omega
  · intro hm
    simp only [BT.addrs, List.append_nil] at hm
    exact (hpcp x hm).2 rfl
  · intro y hy
    simp only [BT.addrs, List.append_nil, List.mem_cons] at hy
    cases xfirst <;> simp only [twoKids, BT.addrs, if_true, Bool.false_eq_true, if_false,
      List.append_nil, List.nil_append, List.mem_cons, List.mem_append] <;>
      rcases hy with hy | hy <;> simp only [hy, true_or, or_true]

theorem twoKids_count (x p : Nat) (cx cp : BT) (xfirst : Bool) (z : Nat) :
    (twoKids xfirst x cx p cp).addrs.count z =
      (x :: p :: (cx.addrs ++ cp.addrs)).count z := by
  cases xfirst <;>
    simp only [twoKids, if_true, Bool.false_eq_true, if_false, BT.addrs, List.count_append,
      List.count_cons, List.count_nil] <;> omega

theorem leaf_remove_binary_inner (fuel : Nat) (t : Tree) (x a p g : Nat) (xfirst : Bool)
    (C : Ctx) (pre : List (Nat × BT)) (cx cp sa sg T : BT)
    (hT : T = C.plug (BT.node g (chainOf pre (BT.node a (twoKids xfirst x cx p cp) sa)) sg))
    (hwf : WellFormed t T) (hdeg : DegreesOK t.heap T)
    (hL : t.Leaves = leavesF t.heap T) (hI : t.Internals = internalsF t.heap T)
    (hroot : t.Root ≠ some x) (hleaf : (t.heap x).Leaf = true)
    (hd2 : (t.heap a).Degree = 2) (hf : T.size ≤ fuel) :
    ∃ t1 T1, RemoveNode fuel t x = some (none, t1) ∧ WellFormed t1 T1 ∧
      DegreesOK t1.heap T1 ∧ t1.Leaves = leavesF t1.heap T1 ∧
      t1.Internals = internalsF t1.heap T1 ∧ x ∉ T1.addrs ∧ ∀ y ∈ T1.addrs, y ∈ T.addrs := by
  obtain ⟨hroot0, hsingle, hrep, hnd, hlc⟩ := hwf
  have hperm : T.addrs.Perm (C.addrs ++ (g :: ((eldersAddrs pre ++
      (a :: x :: p :: (cx.addrs ++ (cp.addrs ++ sa.addrs)))) ++ sg.addrs))) := by
    refine List.perm_iff_count.2 (fun z => ?_)
    rw [hT, (Ctx.plug_perm _ C).count_eq z]
    simp only [BT.addrs, chainOf_addrs, List.count_append, List.count_cons, List.count_nil,
      twoKids_count]
    omega
  have hnd0 := hperm.nodup_iff.1 hnd
  rw [List.nodup_append] at hnd0
  obtain ⟨ndC, ndS, dCS⟩ := hnd0
  rw [List.nodup_cons, List.nodup_append] at ndS
  obtain ⟨gK, ndK, ndsg, dKsg⟩ := ndS
  have hgK : g ∉ eldersAddrs pre ++ (a :: x :: p :: (cx.addrs ++ (cp.addrs ++ sa.addrs))) :=
    fun hm => gK (List.mem_append_left _ hm)
  have ndK2 := ndK
  rw [List.nodup_append] at ndK2
  obtain ⟨-, ndA, dEA⟩ := ndK2
  have hxp : x ≠ p := fun e =>
    (List.nodup_cons.1 (List.nodup_cons.1 ndA).2).1 (by simp [e])
  have hA : ∀ y ∈ p :: (cp.addrs ++ sa.addrs), y ≠ a ∧ y ≠ x := by
    intro y hy
    have ha := (List.nodup_cons.1 ndA).1
    have hx := (List.nodup_cons.1 (List.nodup_cons.1 ndA).2).1
    simp only [List.mem_cons, List.mem_append, not_or] at ha hx hy
    refine ⟨fun e => ?_, fun e => ?_⟩
    · subst e
      rcases hy with e | hy | hy
      · exact ha.2.1 e
      · exact ha.2.2.2.1 hy
      · exact ha.2.2.2.2 hy
    · subst e
      rcases hy with e | hy | hy
      · exact hx.1 e
      · exact hx.2.2.1 hy
      · exact hx.2.2.2 hy
  have hga : g ≠ a := fun e => hgK (by simp [e])
  obtain ⟨a1, hS, hk⟩ := Rep_plug t.heap _ C none (hT ▸ hrep)
  obtain ⟨s1, s2, s3, s4, s5⟩ := hS
  obtain ⟨-, r2, -, r4, -⟩ := Rep_chainOf_tail t.heap (some g) _ pre s4
  obtain ⟨f1, f2, f3, f4, f5, f6⟩ := twoKids_facts t.heap a x p cx cp xfirst r2 r4 hxp
  have hdS := DegreesOK_plug t.heap _ C (hT ▸ hdeg)
  have hdA := DegreesOK_chainOf t.heap _ pre hdS.2.1
  have hpl : pre.length ≤ fuel := by
    have h1 := elders_length pre
    have h2 := hperm.length_eq
    rw [← BT.size_addrs] at h2
    simp only [List.length_append, List.length_cons] at h2
    omega
  obtain ⟨t1, k0, k1, k2, k3, k4, k5, -, -, -, -, k10, k11, k12, k13⟩ :=
    binary_inner_core fuel t x a p g pre _ cx cp sa hroot hd2 s2 s4 f1 f2 f3 f4 f5 f6
      (List.nodup_cons.2 ⟨hgK, ndK⟩) hpl
  have hdat := RemoveNode_data fuel t t1 x a none hroot f1 k0
  have hlf : ∀ y, (t1.heap y).Leaf = (t.heap y).Leaf := fun y => (hdat y).1
  have hlast : ∀ y ∈ (pre.getLast?.map Prod.fst).toList,
      y ∈ eldersAddrs pre ++ (a :: x :: p :: (cx.addrs ++ (cp.addrs ++ sa.addrs))) :=
    fun y hy => List.mem_append_left _ (getLast_mem_elders pre y hy)
  have hout : ∀ y, y ∈ C.addrs ∨ y ∈ sg.addrs → y ≠ a ∧ t1.heap y = t.heap y := by
    intro y hy
    have hyg : y ≠ g := by
      rintro rfl
      rcases hy with hy | hy
      · exact dCS hy (by simp)
      · exact gK (List.mem_append_right _ hy)
    have hyK : y ∉ eldersAddrs pre ++ (a :: x :: p :: (cx.addrs ++ (cp.addrs ++ sa.addrs))) := by
      intro hm
      rcases hy with hy | hy
      · exact dCS hy (List.mem_cons_of_mem _ (List.mem_append_left _ hm))
      · exact dKsg hm hy
    have hya : y ≠ a := fun e => hyK (by simp [e])
    have hyx : y ≠ x := fun e => hyK (by simp [e])
    have hyp : y ≠ p := fun e => hyK (by simp [e])
    have hyl : y ∉ (pre.getLast?.map Prod.fst).toList := fun hm => hyK (hlast y hm)
    refine ⟨hya, k13 y ?_⟩
    simp only [List.mem_cons, not_or]
    exact ⟨hyp, hyx, hyg, hyl⟩
  have hcnt : ∀ z, (x :: a :: (C.plug (BT.node g (chainOf pre (BT.node p cp sa)) sg)).addrs).count z
      ≤ T.addrs.count z := by
    intro z
    rw [List.count_cons, List.count_cons, (Ctx.plug_perm _ C).count_eq z, hperm.count_eq z]
    simp only [BT.addrs, chainOf_addrs, List.count_append, List.count_cons, List.count_nil]
    omega
  have hnd1 := nodup_of_count_le _ _ hcnt hnd
  have hTne : T ≠ BT.nil := by rw [hT]; exact Ctx.plug_ne_nil _ _ _ C
  obtain ⟨r, c, hTr⟩ : ∃ r c, T = BT.node r c BT.nil := hsingle.resolve_left hTne
  obtain ⟨lcS, mk⟩ := LeavesChildless_plug t.heap t1.heap g g
    (chainOf pre (BT.node a (twoKids xfirst x cx p cp) sa)) (chainOf pre (BT.node p cp sa)) sg sg C
    (hT ▸ hlc)
  obtain ⟨lcA, mkK⟩ := LeavesChildless_chainOf t.heap t1.heap
    (BT.node a (twoKids xfirst x cx p cp) sa) (BT.node p cp sa) pre lcS.2.1
  obtain ⟨d1, d2, d3, d4, d5⟩ := twoKids_data t.heap x p cx cp xfirst
  obtain ⟨l1, l2, l3⟩ := d1 lcA.2.1
  obtain ⟨g1, g2⟩ := d2 hdA.2.1
  have hcx : cx = BT.nil := l1 hleaf
  subst hcx
  have hal : (t.heap a).Leaf ≠ true := fun e => d5 (lcA.1 e)
  have hgl : (t.heap g).Leaf ≠ true := fun e =>
    chainOf_ne_nil a _ sa pre (lcS.1 e)
  refine ⟨t1, C.plug (BT.node g (chainOf pre (BT.node p cp sa)) sg), k0,
    ⟨?_, Or.inr ?_, ?_, ?_, ?_⟩, ?_, ?_, ?_, ?_, ?_⟩
  · rw [k10, hroot0, hT]
    exact Ctx.plug_ptr (BT.node g (chainOf pre (BT.node p cp sa)) sg)
      (BT.node g (chainOf pre (BT.node a (twoKids xfirst x BT.nil p cp) sa)) sg)
      (Eq.refl (some g)) C
  · obtain ⟨c1, hc1⟩ := Ctx.plug_single g r _ (chainOf pre (BT.node p cp sa)) sg c C (hT ▸ hTr)
    exact ⟨r, c1, hc1⟩
  · refine hk t1.heap _ rfl ⟨k3.trans s1, k1, k4.trans s3, k2,
      Rep_agree t.heap t1.heap sg a1 (fun y hy => (hout y (Or.inr hy)).2) s5⟩
      (fun y hy => ?_)
    have e := (hout y (Or.inl hy)).2
    exact ⟨by rw [e], by rw [e], by rw [e]⟩
  · exact (List.nodup_cons.1 (List.nodup_cons.1 hnd1).2).2
  · refine mk (fun y _ => hlf y) ⟨fun e => absurd ((hlf g).symm.trans e) hgl, ?_,
      LeavesChildless_congr t.heap t1.heap sg (fun y _ => hlf y) lcS.2.2⟩
    exact mkK (fun y _ => hlf y) ⟨fun e => l2 ((hlf p).symm.trans e),
      LeavesChildless_congr t.heap t1.heap cp (fun y _ => hlf y) l3,
      LeavesChildless_congr t.heap t1.heap sa (fun y _ => hlf y) lcA.2.2⟩
  · refine DegreesOK_plug_into t.heap t1.heap
      (BT.node g (chainOf pre (BT.node a (twoKids xfirst x BT.nil p cp) sa)) sg)
      (BT.node g (chainOf pre (BT.node p cp sa)) sg) rfl C (hT ▸ hdeg)
      (fun y hy => (hdat y).2 (hout y (Or.inl hy)).1) ⟨?_, ?_, ?_⟩
    · rw [(hdat g).2 hga, hdS.1, chainLen_chainOf, chainLen_chainOf]
      simp only [BT.chainLen]
    · refine DegreesOK_chainOf_into t.heap t1.heap _ (BT.node p cp sa) pre hdS.2.1
        (fun y hy => (hdat y).2 (fun e => dEA hy (by simp [e]))) ⟨?_, ?_, ?_⟩
      · rw [(hdat p).2 (hA p (by simp)).1]
        exact g1
      · exact DegreesOK_of_degree t.heap t1.heap cp
          (fun y hy => (hdat y).2 (hA y (by simp [hy])).1) g2
      · exact DegreesOK_of_degree t.heap t1.heap sa
          (fun y hy => (hdat y).2 (hA y (by simp [hy])).1) hdA.2.2
    · exact DegreesOK_of_degree t.heap t1.heap sg
        (fun y hy => (hdat y).2 (hout y (Or.inr hy)).1) hdS.2.2
  · rw [k12, hL, leavesF_congr t.heap t1.heap _ (fun y _ => hlf y), hT]
    have e1 := leavesF_plug_diff t.heap
      (BT.node g (chainOf pre (BT.node a (twoKids xfirst x BT.nil p cp) sa)) sg)
      (BT.node g (chainOf pre (BT.node p cp sa)) sg) C
    have e2 := leavesF_chainOf_diff t.heap (BT.node a (twoKids xfirst x BT.nil p cp) sa)
      (BT.node p cp sa) pre
    simp only [leavesF, d3, hleaf, hal, if_true, Bool.false_eq_true, if_false] at e1 e2 ⊢
    omega
  · rw [k11, hI, internalsF_congr t.heap t1.heap _ (fun y _ => hlf y), hT]
    have e1 := internalsF_plug_diff t.heap
      (BT.node g (chainOf pre (BT.node a (twoKids xfirst x BT.nil p cp) sa)) sg)
      (BT.node g (chainOf pre (BT.node p cp sa)) sg) C
    have e2 := internalsF_chainOf_diff t.heap (BT.node a (twoKids xfirst x BT.nil p cp) sa)
      (BT.node p cp sa) pre
    simp only [internalsF, d4, hleaf, hal, if_true, Bool.false_eq_true, if_false] at e1 e2 ⊢
    omega
  · exact fun hm => (List.nodup_cons.1 hnd1).1 (List.mem_cons_of_mem _ hm)
  · exact fun y hy => mem_of_count_le _ _ hcnt y
      (List.mem_cons_of_mem _ (List.mem_cons_of_mem _ hy))

theorem removeLeaf_core (fuel : Nat) (t : Tree) (T : BT) (x : Nat)
    (hwf : WellFormed t T) (hdeg : DegreesOK t.heap T)
    (hL : t.Leaves = leavesF t.heap T) (hI : t.Internals = internalsF t.heap T)
    (hx : x ∈ T.addrs) (hroot : t.Root ≠ some x) (hleaf : (t.heap x).Leaf = true)
    (hf : T.size ≤ fuel) :
    ∃ t1 T1, RemoveNode fuel t x = some (none, t1) ∧ WellFormed t1 T1 ∧
      DegreesOK t1.heap T1 ∧ t1.Leaves = leavesF t1.heap T1 ∧
      t1.Internals = internalsF t1.heap T1 ∧ x ∉ T1.addrs ∧ ∀ y ∈ T1.addrs, y ∈ T.addrs := by
  have hTne : T ≠ BT.nil := fun e => by rw [e] at hx; simp [BT.addrs] at hx
  obtain ⟨r, c, hTr⟩ := hwf.2.1.resolve_left hTne
  have hxr : x ≠ r := fun e => hroot (by rw [hwf.1, hTr, e]; rfl)
  rcases locate x T hx with ⟨pre, cb, post, e⟩ | ⟨C, a, pre, cx, post, sa, e⟩
  · exfalso
    rw [hTr] at e
    have hp := chainOf_single r c (BT.node x cb post) pre (by simp) e.symm
    subst hp
    simp only [chainOf, BT.node.injEq] at e
    exact hxr e.1.symm
  · by_cases hd2 : (t.heap a).Degree = 2
    · have hdS := DegreesOK_plug t.heap _ C (e ▸ hdeg)
      have h2 : (chainOf pre (BT.node x cx post)).chainLen = 2 := by
        have h3 := hdS.1
        rw [hd2] at h3
        exact_mod_cast h3.symm
      obtain ⟨xfirst, p, cp, hK⟩ := two_children x cx post pre h2
      rw [hK] at e
      rcases Ctx.innermost C with ⟨pre2, e2⟩ | ⟨C0, g, pre2, sg, e2⟩
      · rw [e2] at e
        have hp := chainOf_single r c (BT.node a (twoKids xfirst x cx p cp) sa) pre2 (by simp)
          (e.symm.trans hTr)
        subst hp
        simp only [chainOf] at e
        have hsa : sa = BT.nil := by
          have h3 := e.symm.trans hTr
          simp only [BT.node.injEq] at h3
          exact h3.2.2
        subst hsa
        exact leaf_remove_binary_root fuel t x a p xfirst cx cp T e hwf hdeg hL hI hroot hleaf hd2
      · rw [e2] at e
        exact leaf_remove_binary_inner fuel t x a p g xfirst C0 pre2 cx cp sa sg T e hwf hdeg hL
          hI hroot hleaf hd2 hf
    · exact leaf_remove_polytomy fuel t x a C pre cx post sa T e hwf hdeg hL hI hroot hleaf hd2
        hf

/-- C31: `RemoveNode` on a leaf keeps the counters and the degrees accurate. When the
tree object holds a well-formed tree `T` in which every node's `Degree` is its number
of children, `Leaves` is the number of nodes flagged as leaves and `Internals` the
number of the other nodes, then for a leaf `x` of `T` other than the root the call
returns (with fuel for the search of the left sibling) and leaves a well-formed tree
`T1`, made of nodes of `T` without `x`, for which the same three equalities hold. -/
theorem RemoveNode_leaf_counts (fuel : Nat) (t : Tree) (T : BT) (x : Nat)
    (hwf : WellFormed t T) (hdeg : DegreesOK t.heap T)
    (hL : t.Leaves = leavesF t.heap T) (hI : t.Internals = internalsF t.heap T)
    (hx : x ∈ T.addrs) (hroot : t.Root ≠ some x) (hleaf : (t.heap x).Leaf = true)
    (hf : T.size ≤ fuel) :
    ∃ t1 T1, RemoveNode fuel t x = some (none, t1) ∧ WellFormed t1 T1 ∧
      DegreesOK t1.heap T1 ∧ t1.Leaves = leavesF t1.heap T1 ∧
      t1.Internals = internalsF t1.heap T1 ∧ x ∉ T1.addrs ∧ ∀ y ∈ T1.addrs, y ∈ T.addrs :=
  removeLeaf_core fuel t T x hwf hdeg hL hI hx hroot hleaf hf

/-- C31, on the tree `(A,B,C)` held at the addresses 0 to 3, with the leaf `B`
(address 2) removed. -/
theorem RemoveNode_leaf_counts_witness :
    WellFormed treeWithSpare shapeABC ∧ DegreesOK treeWithSpare.heap shapeABC ∧
    treeWithSpare.Leaves = leavesF treeWithSpare.heap shapeABC ∧
    treeWithSpare.Internals = internalsF treeWithSpare.heap shapeABC ∧
    2 ∈ shapeABC.addrs ∧ treeWithSpare.Root ≠ some 2 ∧ (treeWithSpare.heap 2).Leaf = true ∧
    shapeABC.size ≤ 4 ∧
    ∃ t1 T1, RemoveNode 4 treeWithSpare 2 = some (none, t1) ∧ WellFormed t1 T1 ∧
      DegreesOK t1.heap T1 ∧ t1.Leaves = leavesF t1.heap T1 ∧
      t1.Internals = internalsF t1.heap T1 ∧ 2 ∉ T1.addrs ∧
      ∀ y ∈ T1.addrs, y ∈ shapeABC.addrs :=
  have hD : DegreesOK treeWithSpare.heap shapeABC := by
    simp only [shapeABC, DegreesOK, BT.chainLen]; decide!
  have hL : treeWithSpare.Leaves = leavesF treeWithSpare.heap shapeABC := by
    simp only [shapeABC, leavesF]; decide!
  have hI : treeWithSpare.Internals = internalsF treeWithSpare.heap shapeABC := by
    simp only [shapeABC, internalsF]; decide!
  ⟨treeWithSpare_wellFormed, hD, hL, hI, by decide, by decide!, by decide!, by decide,
    RemoveNode_leaf_counts 4 treeWithSpare shapeABC 2 treeWithSpare_wellFormed hD hL hI
      (by decide) (by decide!) (by decide!) (by decide)⟩

/-- The counters and the degree of the root of `(A,B,C)` after `B` (address 2) is
removed, polytomy branch, and after `C` (address 3) is removed as well, binary branch:
two leaves under a root of degree 2, then the single leaf `A` as the root. -/
theorem RemoveNode_leaf_examples :
    ((removeLeaves treeWithSpare [2]).map fun r => r.Root) = some (some 0) ∧
    ((removeLeaves treeWithSpare [2]).map fun r => r.Leaves) = some 2 ∧
    ((removeLeaves treeWithSpare [2]).map fun r => r.Internals) = some 1 ∧
    ((removeLeaves treeWithSpare [2]).map fun r => (r.heap 0).Degree) = some 2 ∧
    ((removeLeaves treeWithSpare [2]).map fun r => (r.heap 0).Child) = some (some 1) ∧
    ((removeLeaves treeWithSpare [2]).map fun r => (r.heap 1).Sib) = some (some 3) ∧
    ((removeLeaves treeWithSpare [2, 3]).map fun r => r.Root) = some (some 1) ∧
    ((removeLeaves treeWithSpare [2, 3]).map fun r => r.Leaves) = some 1 ∧
    ((removeLeaves treeWithSpare [2, 3]).map fun r => r.Internals) = some 0 ∧
    ((removeLeaves treeWithSpare [2, 3]).map fun r => (r.heap 1).Degree) = some 0 ∧
    ((removeLeaves treeWithSpare [2, 3]).map fun r => (r.heap 1).Anc) = some none ∧
    ((removeLeaves treeWithSpare [2, 3]).map fun r => (r.heap 1).Sib) = some none := by
  refine ⟨?_, ?_, ?_, ?_, ?_, ?_, ?_, ?_, ?_, ?_, ?_, ?_⟩ <;> decide!

/-! ## SIMMAP accumulation for every accepted description -/

theorem sameBranch_refl (m : Node) : SameBranch m m :=
  ⟨Eq.refl _, Eq.refl _, Eq.refl _, Eq.refl _⟩

theorem sameBranch_trans (m m1 m2 : Node) (h1 : SameBranch m m1) (h2 : SameBranch m1 m2) :
    SameBranch m m2 :=
  ⟨h2.1.trans h1.1, h2.2.1.trans h1.2.1, h2.2.2.1.trans h1.2.2.1, h2.2.2.2.trans h1.2.2.2⟩

theorem modify_sameBranch (h : Heap) (p : Nat) (f : Node → Node)
    (hf : ∀ m, SameBranch m (f m)) (y : Nat) : SameBranch (h y) ((h.modify p f) y) := by
  by_cases e : y = p
  · subst e
    rw [Heap.modify_same]
    exact hf _
  · rw [Heap.modify_ne h p y f e]
    exact sameBranch_refl _

theorem set_sameBranch (h : Heap) (p : Nat) (m : Node) (y : Nat) (e : y ≠ p) :
    SameBranch (h y) ((h.set p m) y) := by
  rw [Heap.set_ne h p y m e]
  exact sameBranch_refl _

theorem Reach.resume (cap : Int) (s a : PState) (h : Reach cap s a) :
    ∀ (fuel : Nat) (sf : PState), TreeLib.run cap fuel s = some sf → Reach cap a sf := by
  induction h with
  | refl s => intro fuel sf hr; exact Reach.of_run cap fuel s sf hr
  | step f s s1 s2 hq ha hs _ ih =>
    intro fuel sf hr
    obtain ⟨k, rfl⟩ : ∃ k, fuel = k + 1 := by
      cases fuel with
      | zero => simp [TreeLib.run] at hr
      | succ k => exact ⟨k, rfl⟩
    obtain ⟨s1a, h1, h2⟩ := run_succ_of_running cap k s sf hr hq ha
    have e1 := step_mono cap f (max f k) s s1 hs (le_max_left _ _)
    have e2 := step_mono cap k (max f k) s s1a h1 (le_max_right _ _)
    rw [e1] at e2
    have e3 : s1 = s1a := Option.some.inj e2
    subst e3
    exact ih k sf h2

theorem Reach.final (cap : Int) (s a sf : PState) (h : Reach cap s a)
    (ht : a.state = FsmState.stQUIT ∨ a.state = FsmState.stACCEPTED)
    (hf : Reach cap s sf)
    (htf : sf.state = FsmState.stQUIT ∨ sf.state = FsmState.stACCEPTED) : sf = a := by
  obtain ⟨N, hN⟩ := Reach.run cap s sf hf htf
  exact Reach.unique cap N s a sf h ht (hN N (le_refl _))

theorem built_same (n : Nat) (s s1 : PState) (hh : s1.tree.heap = s.tree.heap)
    (hn : s1.tree.next = s.tree.next) (h : n < s.tree.next) :
    n < s1.tree.next ∧ SameBranch (s.tree.heap n) (s1.tree.heap n) := by
  rw [hh, hn]
  exact ⟨h, sameBranch_refl _⟩

theorem built_getNameLeaf (n : Nat) (s : PState) (h : n < s.tree.next) :
    n < (getNameLeaf s).tree.next ∧
      SameBranch (s.tree.heap n) ((getNameLeaf s).tree.heap n) := by
  rw [getNameLeaf_tree]
  refine ⟨h, modify_sameBranch _ _ _ ?_ n⟩
  intro m
  exact ⟨rfl, rfl, rfl, rfl⟩

theorem built_labelMove (n : Nat) (s : PState) (h : n < s.tree.next) :
    n < (labelMove s).tree.next ∧
      SameBranch (s.tree.heap n) ((labelMove s).tree.heap n) := by
  rw [labelMove_tree]
  refine ⟨h, modify_sameBranch _ _ _ ?_ n⟩
  intro m
  exact ⟨rfl, rfl, rfl, rfl⟩

theorem built_branchInfo (cap : Int) (f : Nat) (n : Nat) (s s1 : PState)
    (hb : branchInfo cap f s = some s1) (h : n < s.tree.next) (hc : n ≠ s.cur) :
    n < s1.tree.next ∧ SameBranch (s.tree.heap n) (s1.tree.heap n) := by
  obtain ⟨g, -, hheap, -, hnext, -⟩ := branchInfo_heap cap f s s1 hb
  rw [hheap, hnext, Heap.modify_ne _ _ _ _ hc]
  exact ⟨h, sameBranch_refl _⟩

theorem built_lparMove (n : Nat) (s : PState) (h1 : n < s.tree.next) :
    n < (lparMove s).tree.next ∧
      SameBranch (s.tree.heap n) ((lparMove s).tree.heap n) := by
  have hne : n ≠ s.tree.next := Nat.ne_of_lt h1
  rw [lparMove_tree]
  refine ⟨Nat.lt_succ_of_lt h1, ?_⟩
  simp only [Heap.IncrementDegree]
  refine sameBranch_trans _ _ _ ?_ (modify_sameBranch _ _ _ ?_ n)
  refine sameBranch_trans _ _ _ ?_ (modify_sameBranch _ _ _ ?_ n)
  refine sameBranch_trans _ _ _ (set_sameBranch _ _ _ n hne) (modify_sameBranch _ _ _ ?_ n)
  all_goals intro m; exact ⟨rfl, rfl, rfl, rfl⟩

theorem built_commaMove (n : Nat) (s : PState) (h1 : n < s.tree.next) :
    n < (commaMove s).tree.next ∧
      SameBranch (s.tree.heap n) ((commaMove s).tree.heap n) := by
  have hne : n ≠ s.tree.next := Nat.ne_of_lt h1
  cases hs : s.stk with
  | nil =>
    simp only [commaMove, hs, Tree.NewNode, PState.setError, PState.goto]
    refine ⟨Nat.lt_succ_of_lt h1, ?_⟩
    refine sameBranch_trans _ _ _ (set_sameBranch _ _ _ n hne) (modify_sameBranch _ _ _ ?_ n)
    intro m
    exact ⟨rfl, rfl, rfl, rfl⟩
  | cons a l =>
    rw [commaMove_tree s a l hs]
    refine ⟨Nat.lt_succ_of_lt h1, ?_⟩
    simp only [Heap.AddWeight, Heap.IncrementDegree]
    refine sameBranch_trans _ _ _ ?_ (modify_sameBranch _ _ _ ?_ n)
    refine sameBranch_trans _ _ _ ?_ (modify_sameBranch _ _ _ ?_ n)
    refine sameBranch_trans _ _ _ ?_ (modify_sameBranch _ _ _ ?_ n)
    refine sameBranch_trans _ _ _ (set_sameBranch _ _ _ n hne) (modify_sameBranch _ _ _ ?_ n)
    all_goals intro m; exact ⟨rfl, rfl, rfl, rfl⟩

theorem built_rparMove (n : Nat) (s : PState) (h1 : n < s.tree.next) :
    n < (rparMove s).tree.next ∧
      SameBranch (s.tree.heap n) ((rparMove s).tree.heap n) := by
  cases hs : s.stk with
  | nil =>
    simp only [rparMove, hs, PState.setError, PState.goto]
    exact ⟨h1, sameBranch_refl _⟩
  | cons a l =>
    rw [rparMove_tree s a l hs]
    refine ⟨h1, ?_⟩
    simp only [Heap.AddWeight]
    refine modify_sameBranch _ _ _ ?_ n
    intro m
    exact ⟨rfl, rfl, rfl, rfl⟩

/-- A pass of the loop that does not read a `branchinfo` for the node `n` leaves the
branch fields of `n` as they are. -/
theorem step_sameBranch (cap : Int) (f : Nat) (n : Nat) (s s1 : PState)
    (hstep : step cap f s = some s1) (h : n < s.tree.next) (hno : ¬ ReadsBranch s n) :
    n < s1.tree.next ∧ SameBranch (s.tree.heap n) (s1.tree.heap n) := by
  cases hs : s.state <;> cases hk : s.token.kind <;>
    simp only [step, hs, hk] at hstep <;> try contradiction
  all_goals first
    | exact built_branchInfo cap f n s s1 hstep h
        (fun e => hno ⟨e.symm, hk, by rw [hs]; simp⟩)
    | (cases hstep; exact built_same n _ _ rfl rfl h)
    | (cases hstep; exact built_same n _ _ (by rw [NextToken_tree]) (by rw [NextToken_tree]) h)
    | (cases hstep; exact built_getNameLeaf n _ h)
    | (cases hstep; exact built_labelMove n _ h)
    | (cases hstep; exact built_commaMove n _ h)
    | (cases hstep; exact built_lparMove n _ h)
    | (cases hstep; exact built_rparMove n _ h)
    | (cases hstk : s.stk <;> simp only [hstk] at hstep <;> cases hstep <;>
        exact built_same n _ _ rfl rfl h)

theorem reach_sameBranch (cap : Int) (n : Nat) (s s1 : PState) (hr : Reach cap s s1) :
    n < s.tree.next → (∀ s2, Reach cap s s2 → ¬ ReadsBranch s2 n) →
    n < s1.tree.next ∧ SameBranch (s.tree.heap n) (s1.tree.heap n) := by
  induction hr with
  | refl s => intro h _; exact ⟨h, sameBranch_refl _⟩
  | step f s s2 s3 hq ha hs _ ih =>
    intro h hno
    obtain ⟨c2, b2⟩ := step_sameBranch cap f n s s2 hs h (hno s (Reach.refl s))
    obtain ⟨c3, b3⟩ := ih c2 (fun s4 h4 => hno s4 (Reach.step f s s2 s4 hq ha hs h4))
    exact ⟨c3, sameBranch_trans _ _ _ b2 b3⟩

theorem reach_nthPass (cap : Int) (fuel : Nat) : ∀ (k : Nat) (s : PState),
    Reach cap s (nthPass cap fuel k s) := by
  intro k
  induction k with
  | zero => intro s; exact Reach.refl s
  | succ k ih =>
    intro s
    by_cases ht : s.state = FsmState.stQUIT ∨ s.state = FsmState.stACCEPTED
    · simp only [nthPass, ht, if_true]; exact Reach.refl s
    · cases h1 : step cap fuel s with
      | none => simp only [nthPass, ht, if_false, h1]; exact Reach.refl s
      | some s1 =>
        simp only [nthPass, ht, if_false, h1]
        exact Reach.step fuel s s1 _ (fun e => ht (Or.inl e)) (fun e => ht (Or.inr e)) h1
          (ih s1)

theorem reach_mem_passes (cap : Int) (fuel : Nat) : ∀ (k : Nat) (s s2 : PState),
    ends cap fuel k s = true → Reach cap s s2 → s2 ∈ passes cap fuel k s := by
  intro k
  induction k with
  | zero =>
    intro s s2 he hr
    simp only [ends, decide_eq_true_eq] at he
    cases hr with
    | refl => simp [passes]
    | step f _ s1 _ hq ha _ _ => rcases he with e | e <;> contradiction
  | succ k ih =>
    intro s s2 he hr
    cases hr with
    | refl => simp only [passes]; split <;> [simp; (split <;> simp)]
    | step f _ s1 _ hq ha hs h2 =>
      have ht : ¬ (s.state = FsmState.stQUIT ∨ s.state = FsmState.stACCEPTED) := by
        rintro (e | e) <;> contradiction
      cases h1 : step cap fuel s with
      | none => simp [ends, ht, h1] at he
      | some s1a =>
        have e1 := step_mono cap f (max f fuel) s s1 hs (le_max_left _ _)
        have e2 := step_mono cap fuel (max f fuel) s s1a h1 (le_max_right _ _)
        rw [e1] at e2
        have e3 : s1 = s1a := Option.some.inj e2
        subst e3
        simp only [ends, ht, if_false, h1] at he
        simp only [passes, ht, if_false, h1, List.mem_cons]
        exact Or.inr (ih s1 s2 he h2)

/-- The evaluation `lastBranchCheck` is sound: when it succeeds, no pass after the
one that starts in `s` reads a `branchinfo` for `n`. -/
theorem lastBranch_of_check (cap : Int) (fuel k : Nat) (s : PState) (n : Nat)
    (hc : lastBranchCheck cap fuel k s n = true) :
    ∀ (f : Nat) (s1 s2 : PState), step cap f s = some s1 → Reach cap s1 s2 →
      ¬ ReadsBranch s2 n := by
  intro f s1 s2 hs hr
  unfold lastBranchCheck at hc
  cases h1 : step cap fuel s with
  | none => simp [h1] at hc
  | some s1a =>
    have e1 := step_mono cap f (max f fuel) s s1 hs (le_max_left _ _)
    have e2 := step_mono cap fuel (max f fuel) s s1a h1 (le_max_right _ _)
    rw [e1] at e2
    have e3 : s1 = s1a := Option.some.inj e2
    subst e3
    simp only [h1, Bool.and_eq_true, List.all_eq_true, Bool.not_eq_true',
      decide_eq_false_iff_not] at hc
    exact hc.2 s2 (reach_mem_passes cap fuel k s1 s2 hc.1 hr)

/-- An accepted state holds a tree: the root and the shape under it. -/
theorem accepted_rep (cap : Int) (t : Tree) (descr : List Token) (s : PState)
    (hreach : Reach cap (parseInit t descr) s) (hs : s.state = FsmState.stACCEPTED) :
    ∃ r c, s.tree.Root = some r ∧ Rep s.tree.heap none (BT.node r c BT.nil) ∧
      (BT.node r c BT.nil).addrs.Nodup ∧ ∀ y ∈ (BT.node r c BT.nil).addrs, y < s.tree.next := by
  have hinv := WInvSome_reach cap _ s hreach (Or.inr ⟨_, _, _, WInv_parseInit t descr⟩)
  rcases hinv with hq | ⟨r, fs, cx, hi⟩
  · rw [hs] at hq; cases hq
  obtain ⟨i1, i2, i3, i4, i5, i6, -, -, -, -, i11⟩ := hi
  have hfs : fs = [] := by
    have := i11 hs
    rw [i2] at this
    simpa using this
  subst hfs
  obtain ⟨f1, f2⟩ := i3
  obtain ⟨c1, c2, c3, -⟩ := i4
  rw [f2] at f1 c1 c2 c3 i5 i6
  exact ⟨r, cx, i1, ⟨f1, c2, c1, c3, trivial⟩, by simpa [BT.addrs, framesAddrs] using i5,
    by simpa [BT.addrs, framesAddrs] using i6⟩

/-- The node `CurNode` of a state met while parsing was handed out by the
allocator. -/
theorem cur_built (cap : Int) (t : Tree) (descr : List Token) (s : PState)
    (hreach : Reach cap (parseInit t descr) s) (hq : s.state ≠ FsmState.stQUIT) :
    s.cur < s.tree.next := by
  have hinv := WInvSome_reach cap _ s hreach (Or.inr ⟨_, _, _, WInv_parseInit t descr⟩)
  rcases hinv with h | ⟨r, fs, cx, hi⟩
  · exact absurd h hq
  · exact hi.2.2.2.2.2.1 s.cur (by simp)

/-- The branch fields of a node whose last `branchinfo` is `bi`: when the pass that
starts in `s` reads `bi` for `CurNode` and no later pass reads a `branchinfo` for that
node, the tree object that `Tree::Parse` returns holds, at that node, the branch
fields that `bi` sets. -/
theorem last_branch_fields (cap : Int) (fuel : Nat) (t : Tree) (descr : List Token)
    (hacc : Accepts cap fuel t descr) (s : PState)
    (hreach : Reach cap (parseInit t descr) s)
    (hst : s.state = FsmState.stNEXTMOVE ∨ s.state = FsmState.stFINISHCHILDREN)
    (bi : Branch) (hv : bi.Valid) (hbi : bi.present = true) (u : Token) (r : List Token)
    (hstream : s.stream = bi.render ++ u :: r)
    (hlast : ∀ (f : Nat) (s1 s2 : PState), step cap f s = some s1 → Reach cap s1 s2 →
      ¬ ReadsBranch s2 s.cur) :
    ∃ N, ∀ fuel1, N ≤ fuel1 → ∃ t1, Parse cap fuel1 t descr = some (0, t1) ∧
      bi.InRange cap ∧ ∃ n0, SameBranch (bi.apply cap n0) (t1.heap s.cur) := by
  obtain ⟨sf, hrun, hsf⟩ := Accepts.state cap fuel t descr hacc
  have hreachf := Reach.of_run cap fuel _ sf hrun
  have hres : Reach cap s sf := Reach.resume cap _ s hreach fuel sf hrun
  obtain ⟨hq, ha⟩ := running_of s hst
  obtain ⟨s1, hr1, hpost⟩ := branch_reach cap bi hv s (u :: r) (by simp) hst hstream hbi
  rcases hpost with hq1 | ⟨p1, p2, p3, p4, p5, p6⟩
  · have := Reach.final cap s s1 sf hr1 (Or.inl hq1) hres (Or.inr hsf)
    rw [this, hq1] at hsf
    cases hsf
  have hno : ∀ s2, Reach cap s1 s2 → ¬ ReadsBranch s2 s.cur := by
    cases hr1 with
    | refl =>
      exfalso
      rw [hstream] at p4
      have := congrArg List.length p4
      cases bi with
      | absent => simp [Branch.present] at hbi
      | length c num => simp [Branch.render] at this; omega
      | simmap c o lead first more cl => simp [Branch.render] at this; omega
    | step f _ s1a _ _ _ hs h2 =>
      exact fun s2 h => hlast f s1a s2 hs (Reach.trans cap _ _ _ h2 h)
  obtain ⟨N0, hN0⟩ := Reach.run cap s sf hres (Or.inr hsf)
  have hres1 : Reach cap s1 sf := Reach.resume cap s s1 hr1 N0 sf (hN0 N0 (le_refl _))
  have hb := cur_built cap t descr s hreach hq
  have hb1 : s.cur < s1.tree.next := by rw [p6]; exact hb
  obtain ⟨-, hsame⟩ := reach_sameBranch cap s.cur s1 sf hres1 hb1 hno
  have hheap1 : s1.tree.heap s.cur = bi.apply cap (s.tree.heap s.cur) := by
    rw [p6]
    exact Heap.modify_same _ _ _
  obtain ⟨rt, c, hroot, hrep, -, -⟩ := accepted_rep cap t descr sf hreachf hsf
  obtain ⟨N, hN⟩ := Parse_of_accepted cap t descr sf rt c hreachf hsf hroot hrep
  refine ⟨N, fun fuel1 hf => ?_⟩
  obtain ⟨t1, hp, hfr⟩ := hN fuel1 hf
  refine ⟨t1, hp, p5, s.tree.heap s.cur, ?_⟩
  rw [← hheap1]
  refine sameBranch_trans _ _ _ hsame ?_
  have h1 := hfr.1 s.cur
  have h2 : SameBranch (sf.tree.heap s.cur) ((acceptedTree sf rt).heap s.cur) := by
    simp only [acceptedTree]
    refine modify_sameBranch _ _ _ ?_ _
    intro m
    exact ⟨rfl, rfl, rfl, rfl⟩
  refine sameBranch_trans _ _ _ h2 ?_
  rw [h1]
  exact ⟨rfl, rfl, rfl, rfl⟩

/-- C9 (counterexample): the description `(A:\x7b0,1.5\x7d:\x7b1,0.5\x7d);` is parsed
successfully and the branch of `A` is annotated with the block `\x7b0,1.5\x7d`, yet the
node ends with `StateOrder = [1]`, `StateTimes = [0.5]`, edge length 0.5 and a table
entry 0 for state 0: the second block, read for the same node, has replaced what the
first one set. -/
theorem Parse_simmap_overwritten :
    (Parse 30 40 {} descrSimmapTwice).map (fun p => (p.1, (p.2.heap 1).Label)) =
      some (0, "A") ∧
    (Parse 30 40 {} descrSimmapTwice).map (fun p => (p.2.heap 1).StateOrder) = some [1] ∧
    (Parse 30 40 {} descrSimmapTwice).map (fun p => (p.2.heap 1).StateTimes) =
      some [FP.fin (1 / 2)] ∧
    (Parse 30 40 {} descrSimmapTwice).map (fun p => (p.2.heap 1).Length) =
      some (FP.fin (1 / 2)) ∧
    (Parse 30 40 {} descrSimmapTwice).map (fun p => (p.2.heap 1).ModelCategory.getD 0 0) =
      some 0 := by
  refine ⟨?_, ?_, ?_, ?_, ?_⟩ <;> decide!

/-- C9 (amended): SIMMAP accumulation. Let `Tree::Parse` accept the description, let
the pass of the loop that starts in the state `s` read the SIMMAP block
`\x7bs1,t1:...:sk,tk\x7d` for `CurNode` (`u :: r` are the tokens behind the block), and
let no later pass read a `branchinfo` for that node. Then `Parse` returns 0 (for all
fuel from some bound on) and in the tree object it leaves all state ids are below the
capacity, the node has `StateOrder = [s1..sk]` and `StateTimes = [t1..tk]` in input
order, its edge length is the running `double` sum `0 + t1 + ... + tk`, and when no
state id is negative the table has one entry per state below the capacity, the entry
of state `s` being the running `double` sum, started at 0, of the `ti` with
`si = s`. -/
theorem Parse_simmap_accumulation (cap : Int) (fuel : Nat) (t : Tree) (descr : List Token)
    (hacc : Accepts cap fuel t descr) (s : PState)
    (hreach : Reach cap (parseInit t descr) s)
    (hst : s.state = FsmState.stNEXTMOVE ∨ s.state = FsmState.stFINISHCHILDREN)
    (c o : Token) (lead : Option Token) (first : Seg) (more : List (Token × Seg))
    (cl : Token) (hv : (Branch.simmap c o lead first more cl).Valid) (u : Token)
    (r : List Token)
    (hstream : s.stream = (Branch.simmap c o lead first more cl).render ++ u :: r)
    (hlast : ∀ (f : Nat) (s1 s2 : PState), step cap f s = some s1 → Reach cap s1 s2 →
      ¬ ReadsBranch s2 s.cur) :
    ∃ N, ∀ fuel1, N ≤ fuel1 → ∃ t1, Parse cap fuel1 t descr = some (0, t1) ∧
      (∀ v ∈ segValues first more, v.1 < cap) ∧
      (t1.heap s.cur).StateOrder = (segValues first more).map Prod.fst ∧
      (t1.heap s.cur).StateTimes = (segValues first more).map Prod.snd ∧
      (t1.heap s.cur).Length =
        ((segValues first more).map Prod.snd).foldl (fun x y => x + y) 0 ∧
      ((∀ v ∈ segValues first more, 0 ≤ v.1) →
        (t1.heap s.cur).ModelCategory.length = cap.toNat ∧
        ∀ q : Int, 0 ≤ q → q < cap →
          (t1.heap s.cur).ModelCategory.getD q.toNat 0 =
            timeIn q (segValues first more) 0) := by
  obtain ⟨N, hN⟩ := last_branch_fields cap fuel t descr hacc s hreach hst
    (Branch.simmap c o lead first more cl) hv rfl u r hstream hlast
  refine ⟨N, fun fuel1 hf => ?_⟩
  obtain ⟨t1, hp, hin, n0, e1, e2, e3, e4⟩ := hN fuel1 hf
  obtain ⟨f1, f2, f3, f4, f5⟩ := simmap_fields cap c o lead first more cl n0 hin
  refine ⟨t1, hp, f4, ?_, ?_, ?_, ?_⟩
  · rw [e3]; exact f1
  · rw [e4]; exact f2
  · rw [e1]; exact f3
  · rw [e2]; exact f5

/-- C9, on `(A:\x7b0,1.5:1,0.5\x7d);`: after four passes of the loop the block of the
leaf `A` (node 1) is about to be read, and the parse ends with `StateOrder = [0, 1]`,
`StateTimes = [1.5, 0.5]`, edge length 2, 1.5 in state 0 and 0.5 in state 1. -/
theorem Parse_simmap_accumulation_witness :
    Accepts 30 40 {} descrSimmapEx ∧
    (nthPass 30 40 4 (parseInit {} descrSimmapEx)).cur = 1 ∧
    segValues ⟨tnum "0" 0 0, tk tokentype.COMMA ",", tnum "1.5" 1 (3 / 2)⟩
      [(tk tokentype.COLON ":", ⟨tnum "1" 1 1, tk tokentype.COMMA ",", tnum "0.5" 0 (1 / 2)⟩)] =
      [(0, FP.fin (3 / 2)), (1, FP.fin (1 / 2))] ∧
    (FP.fin (3 / 2) + FP.fin (1 / 2) : FP) = 2 ∧
    (∃ N, ∀ fuel1, N ≤ fuel1 → ∃ t1, Parse 30 fuel1 {} descrSimmapEx = some (0, t1) ∧
      (∀ v ∈ segValues ⟨tnum "0" 0 0, tk tokentype.COMMA ",", tnum "1.5" 1 (3 / 2)⟩
        [(tk tokentype.COLON ":",
          ⟨tnum "1" 1 1, tk tokentype.COMMA ",", tnum "0.5" 0 (1 / 2)⟩)], v.1 < 30) ∧
      (t1.heap (nthPass 30 40 4 (parseInit {} descrSimmapEx)).cur).StateOrder =
        (segValues ⟨tnum "0" 0 0, tk tokentype.COMMA ",", tnum "1.5" 1 (3 / 2)⟩
          [(tk tokentype.COLON ":",
            ⟨tnum "1" 1 1, tk tokentype.COMMA ",", tnum "0.5" 0 (1 / 2)⟩)]).map Prod.fst ∧
      (t1.heap (nthPass 30 40 4 (parseInit {} descrSimmapEx)).cur).StateTimes =
        (segValues ⟨tnum "0" 0 0, tk tokentype.COMMA ",", tnum "1.5" 1 (3 / 2)⟩
          [(tk tokentype.COLON ":",
            ⟨tnum "1" 1 1, tk tokentype.COMMA ",", tnum "0.5" 0 (1 / 2)⟩)]).map Prod.snd ∧
      (t1.heap (nthPass 30 40 4 (parseInit {} descrSimmapEx)).cur).Length =
        ((segValues ⟨tnum "0" 0 0, tk tokentype.COMMA ",", tnum "1.5" 1 (3 / 2)⟩
          [(tk tokentype.COLON ":",
            ⟨tnum "1" 1 1, tk tokentype.COMMA ",", tnum "0.5" 0 (1 / 2)⟩)]).map
              Prod.snd).foldl (fun x y => x + y) 0 ∧
      ((∀ v ∈ segValues ⟨tnum "0" 0 0, tk tokentype.COMMA ",", tnum "1.5" 1 (3 / 2)⟩
          [(tk tokentype.COLON ":",
            ⟨tnum "1" 1 1, tk tokentype.COMMA ",", tnum "0.5" 0 (1 / 2)⟩)], 0 ≤ v.1) →
        (t1.heap (nthPass 30 40 4 (parseInit {} descrSimmapEx)).cur).ModelCategory.length =
          (30 : Int).toNat ∧
        ∀ q : Int, 0 ≤ q → q < 30 →
          (t1.heap (nthPass 30 40 4 (parseInit {} descrSimmapEx)).cur).ModelCategory.getD
              q.toNat 0 =
            timeIn q (segValues ⟨tnum "0" 0 0, tk tokentype.COMMA ",", tnum "1.5" 1 (3 / 2)⟩
              [(tk tokentype.COLON ":",
                ⟨tnum "1" 1 1, tk tokentype.COMMA ",", tnum "0.5" 0 (1 / 2)⟩)]) 0)) :=
  ⟨by unfold Accepts; decide!, by decide!, by decide!, by decide!,
    Parse_simmap_accumulation 30 40 {} descrSimmapEx (by unfold Accepts; decide!)
      (nthPass 30 40 4 (parseInit {} descrSimmapEx)) (reach_nthPass 30 40 4 _)
      (by decide!) (tk tokentype.COLON ":") (tk tokentype.OTHER "\x7b") none
      ⟨tnum "0" 0 0, tk tokentype.COMMA ",", tnum "1.5" 1 (3 / 2)⟩
      [(tk tokentype.COLON ":", ⟨tnum "1" 1 1, tk tokentype.COMMA ",", tnum "0.5" 0 (1 / 2)⟩)]
      (tk tokentype.OTHER "\x7d")
      (by simp [Branch.Valid, Seg.Valid, IsColon, IsNum, IsBrace, tk, tnum, firstChar])
      (tk tokentype.RPAR ")")
      [tk tokentype.SEMICOLON ";"] (by decide!)
      (lastBranch_of_check 30 40 10 _ _ (by decide!))⟩

/-- The running sums are `double` sums: on `(A:\x7b0,0.1:0,0.2\x7d);` the edge length of
`A` and its time in state 0 are both 0.30000000000000004, the `double` nearest to the
sum of the `double` values of 0.1 and 0.2. -/
theorem Parse_simmap_rounding :
    (Parse 30 40 {} descrSimmapTenths).map (fun p => (p.1, (p.2.heap 1).StateOrder)) =
      some (0, [0, 0]) ∧
    (Parse 30 40 {} descrSimmapTenths).map (fun p => (p.2.heap 1).StateTimes) =
      some [atof (1 / 10), atof (2 / 10)] ∧
    (Parse 30 40 {} descrSimmapTenths).map (fun p => (p.2.heap 1).Length) =
      some (FP.fin (1351079888211149 / 4503599627370496)) ∧
    (Parse 30 40 {} descrSimmapTenths).map (fun p => (p.2.heap 1).ModelCategory.getD 0 0) =
      some (FP.fin (1351079888211149 / 4503599627370496)) := by
  refine ⟨?_, ?_, ?_, ?_⟩ <;> decide!

/-! ## Path lengths and the float local -/

/-- C25: on the description `(A:\x7b0,0.1\x7d);` `Parse` returns 0, the root (address 0)
has path length 0 and is the ancestor of the leaf `A` (address 1), whose edge length
is the `double` 0.1, that is 3602879701896397 / 2^55; its path length is
13421773 / 2^27 (0.100000001490116...), the `float` nearest to 0.1, and not the sum
of the path length of the root and the edge length, which is the edge length itself.
On `(A:\x7b0,0.000001\x7d);` the edge length of `A` is the `double` constant `0.000001`
itself, which is not below that constant, and the path length of `A` is 0. -/
theorem Parse_pathLength_narrowed :
    (Parse 30 40 {} (descrSimmapOne "0.1" (1 / 10))).map
      (fun p => (p.1, (p.2.heap 0).PathLength, (p.2.heap 1).Anc)) = some (0, 0, some 0) ∧
    (Parse 30 40 {} (descrSimmapOne "0.1" (1 / 10))).map
      (fun p => ((p.2.heap 1).Length, (p.2.heap 1).PathLength)) =
      some (FP.fin (3602879701896397 / 36028797018963968), FP.fin (13421773 / 134217728)) ∧
    (0 : FP) + FP.fin (3602879701896397 / 36028797018963968) =
      FP.fin (3602879701896397 / 36028797018963968) ∧
    ¬ FP.fin (3602879701896397 / 36028797018963968) < smallLength ∧
    (Parse 30 40 {} (descrSimmapOne "0.000001" (1 / 1000000))).map
      (fun p => (p.1, (p.2.heap 1).Length, (p.2.heap 1).PathLength)) =
      some (0, smallLength, 0) ∧
    ¬ smallLength < smallLength ∧ (0 : FP) + smallLength = smallLength ∧
    FP.fin (13421773 / 134217728) ≠ FP.fin (3602879701896397 / 36028797018963968) ∧
    (0 : FP) ≠ smallLength := by
  refine ⟨?_, ?_, ?_, ?_, ?_, ?_, ?_, ?_, ?_⟩ <;> decide!

/-! ## Invariants of the nodes built by Parse, for every accepted description -/

theorem sameFlags_refl (m : Node) : SameFlags m m :=
  ⟨Eq.refl _, Eq.refl _, Eq.refl _, Eq.refl _, Eq.refl _⟩

theorem modify_sameFlags (h : Heap) (p : Nat) (f : Node → Node)
    (hf : ∀ m, SameFlags m (f m)) (y : Nat) : SameFlags (h y) ((h.modify p f) y) := by
  by_cases e : y = p
  · subst e
    rw [Heap.modify_same]
    exact hf _
  · rw [Heap.modify_ne h p y f e]
    exact sameFlags_refl _

theorem branchInfo_flags (cap : Int) (n : Nat) (s s1 : PState)
    (hb : branchInfo cap n s = some s1) :
    (∀ y, SameFlags (s.tree.heap y) (s1.tree.heap y)) ∧
      s1.tree.next = s.tree.next ∧ s1.tree.Leaves = s.tree.Leaves := by
  unfold branchInfo at hb
  by_cases hp : firstChar s.NextToken.token = '{'
  · simp only [hp, if_true] at hb
    split at hb
    · cases hb
    · cases hb
      rename_i a _
      have e : ∀ (x : PState), x.tree = s.tree → x.cur = s.cur →
          ∀ y, SameFlags (s.tree.heap y) ((x.tree.heap.modify x.cur fun m =>
            { m with Length := a.totaledgelength, ModelCategory := a.modelvector,
                     StateOrder := a.stateordervector,
                     StateTimes := a.statetimesvector }) y) := by
        intro x hx hc y
        rw [hx, hc]
        refine modify_sameFlags _ _ _ ?_ y
        intro m
        exact ⟨rfl, rfl, rfl, rfl, rfl⟩
      by_cases ht : a.tooMany = true
      · simp only [ht, if_true, NextToken_tree, PState.modCur, PState.setError]
        exact ⟨e { s.NextToken with tree := s.tree } rfl (NextToken_cur s), by
          simp [NextToken_tree], by simp [NextToken_tree]⟩
      · simp only [ht, NextToken_tree, PState.modCur]
        exact ⟨e { s.NextToken with tree := s.tree } rfl (NextToken_cur s), by
          simp [NextToken_tree], by simp [NextToken_tree]⟩
  · simp only [hp, if_false] at hb
    cases hb
    refine ⟨fun y => ?_, by simp [NextToken_tree, PState.modCur],
      by simp [NextToken_tree, PState.modCur]⟩
    simp only [NextToken_tree, NextToken_cur, PState.modCur]
    refine modify_sameFlags _ _ _ ?_ y
    intro m
    exact ⟨rfl, rfl, rfl, rfl, rfl⟩

/-- A pass that allocates nothing, leaves links, leaf flags and leaf numbers alone and
takes `CurNode` and the stack from the old ones keeps `Built`. -/
theorem built_of_frame (b : Nat) (s s1 : PState) (hb : Built b s)
    (hl : ∀ y, SameFlags (s.tree.heap y) (s1.tree.heap y))
    (hn : s1.tree.next = s.tree.next) (hL : s1.tree.Leaves = s.tree.Leaves)
    (hc : s1.cur = s.cur ∨ s1.cur ∈ s.stk) (hk : ∀ a ∈ s1.stk, a ∈ s.stk) :
    Built b s1 := by
  obtain ⟨b1, b2, b3, b4, b5, b6⟩ := hb
  unfold Built
  rw [hn, hL]
  refine ⟨?_, fun a ha => b2 a (hk a ha), ?_, b4, ?_, ?_⟩
  · rcases hc with e | e
    · rw [e]; exact b1
    · exact b2 _ e
  · intro y z h1 h2 h3
    rw [(hl y).1, (hl y).2.1] at h3
    exact b3 y z h1 h2 h3
  · intro y h1 h2 h3
    rw [(hl y).2.2.1] at h3
    rw [(hl y).2.2.2.1]
    exact b5 y h1 h2 h3
  · intro y z h1 h2 h3 h4 h5 h6 h7
    rw [(hl y).2.2.1] at h5
    rw [(hl z).2.2.1] at h6
    rw [(hl y).2.2.2.1, (hl z).2.2.2.1] at h7
    exact b6 y z h1 h2 h3 h4 h5 h6 h7

theorem built_alloc (b : Nat) (s s1 : PState) (hb : Built b s)
    (hn : s1.tree.next = s.tree.next + 1) (hL : s1.tree.Leaves = s.tree.Leaves)
    (hc : s1.cur = s.cur ∨ s1.cur = s.tree.next)
    (hk : ∀ a ∈ s1.stk, a = s.cur ∨ a ∈ s.stk)
    (hnew : (s1.tree.heap s.tree.next).Child = none ∧
      (s1.tree.heap s.tree.next).Sib = none ∧ (s1.tree.heap s.tree.next).Leaf = false)
    (hold : ∀ y, y ≠ s.tree.next →
      (s1.tree.heap y).Leaf = (s.tree.heap y).Leaf ∧
      (s1.tree.heap y).LeafNumber = (s.tree.heap y).LeafNumber ∧
      ((s1.tree.heap y).Child = (s.tree.heap y).Child ∨
        (s1.tree.heap y).Child = some s.tree.next) ∧
      ((s1.tree.heap y).Sib = (s.tree.heap y).Sib ∨
        (s1.tree.heap y).Sib = some s.tree.next)) :
    Built b s1 := by
  obtain ⟨b1, b2, b3, b4, b5, b6⟩ := hb
  unfold Built
  rw [hn, hL]
  refine ⟨?_, ?_, ?_, b4, ?_, ?_⟩
  · rcases hc with e | e <;> rw [e] <;> omega
  · intro a ha
    rcases hk a ha with e | e
    · rw [e]; omega
    · have := b2 a e; omega
  · intro y z h1 h2 h3
    by_cases hy : y = s.tree.next
    · subst hy
      rw [hnew.1, hnew.2.1] at h3
      simp at h3
    · obtain ⟨-, -, o3, o4⟩ := hold y hy
      have hy2 : y < s.tree.next := by omega
      rcases h3 with h3 | h3
      · rcases o3 with o | o
        · rw [o] at h3
          have := b3 y z h1 hy2 (Or.inl h3); omega
        · rw [o] at h3
          cases h3; omega
      · rcases o4 with o | o
        · rw [o] at h3
          have := b3 y z h1 hy2 (Or.inr h3); omega
        · rw [o] at h3
          cases h3; omega
  · intro y h1 h2 h3
    by_cases hy : y = s.tree.next
    · subst hy
      rw [hnew.2.2] at h3
      cases h3
    · obtain ⟨o1, o2, -, -⟩ := hold y hy
      rw [o1] at h3
      rw [o2]
      exact b5 y h1 (by omega) h3
  · intro y z h1 h2 h3 h4 h5 h6 h7
    by_cases hy : y = s.tree.next
    · subst hy
      rw [hnew.2.2] at h5
      cases h5
    by_cases hz : z = s.tree.next
    · subst hz
      rw [hnew.2.2] at h6
      cases h6
    obtain ⟨o1, o2, -, -⟩ := hold y hy
    obtain ⟨p1, p2, -, -⟩ := hold z hz
    rw [o1] at h5
    rw [p1] at h6
    rw [o2, p2] at h7
    exact b6 y z h1 (by omega) h3 (by omega) h5 h6 h7

theorem lparMove_flags (s : PState) (hlt : s.cur < s.tree.next) :
    ((lparMove s).tree.heap s.tree.next).Child = none ∧
    ((lparMove s).tree.heap s.tree.next).Sib = none ∧
    ((lparMove s).tree.heap s.tree.next).Leaf = false ∧
    ((lparMove s).tree.heap s.cur).Child = some s.tree.next ∧
    ∀ y, y ≠ s.tree.next →
      ((lparMove s).tree.heap y).Leaf = (s.tree.heap y).Leaf ∧
      ((lparMove s).tree.heap y).LeafNumber = (s.tree.heap y).LeafNumber ∧
      ((lparMove s).tree.heap y).Sib = (s.tree.heap y).Sib ∧
      (y ≠ s.cur → ((lparMove s).tree.heap y).Child = (s.tree.heap y).Child ∧
        ((lparMove s).tree.heap y).Degree = (s.tree.heap y).Degree) := by
  have hne : s.cur ≠ s.tree.next := Nat.ne_of_lt hlt
  rw [lparMove_tree]
  simp only [Heap.IncrementDegree, Heap.modify, Heap.set]
  refine ⟨?_, ?_, ?_, ?_, ?_⟩
  · simp [hne.symm]
  · simp [hne.symm]
  · simp [hne.symm]
  · simp [hne]
  · intro y hy
    by_cases hc : y = s.cur
    · subst hc
      simp [hne]
    · simp [hy, hc]

theorem commaMove_flags (s : PState) (a : Nat) (l : List Nat) (hs : s.stk = a :: l)
    (hlt : s.cur < s.tree.next) (hal : a < s.tree.next) :
    ((commaMove s).tree.heap s.tree.next).Child = none ∧
    ((commaMove s).tree.heap s.tree.next).Sib = none ∧
    ((commaMove s).tree.heap s.tree.next).Leaf = false ∧
    ((commaMove s).tree.heap s.cur).Sib = some s.tree.next ∧
    ∀ y, y ≠ s.tree.next →
      ((commaMove s).tree.heap y).Leaf = (s.tree.heap y).Leaf ∧
      ((commaMove s).tree.heap y).LeafNumber = (s.tree.heap y).LeafNumber ∧
      ((commaMove s).tree.heap y).Child = (s.tree.heap y).Child ∧
      (y ≠ s.cur → ((commaMove s).tree.heap y).Sib = (s.tree.heap y).Sib) ∧
      (y ≠ a → ((commaMove s).tree.heap y).Degree = (s.tree.heap y).Degree) := by
  have hne : s.cur ≠ s.tree.next := Nat.ne_of_lt hlt
  have hna : a ≠ s.tree.next := Nat.ne_of_lt hal
  rw [commaMove_tree s a l hs]
  simp only [Heap.IncrementDegree, Heap.AddWeight, Heap.modify, Heap.set]
  refine ⟨?_, ?_, ?_, ?_, ?_⟩
  · simp [hne.symm, hna.symm]
  · simp [hne.symm, hna.symm]
  · simp [hne.symm, hna.symm]
  · by_cases hca : s.cur = a
    · simp [hne, hna, hca]
    · simp [hne, hna, hca]
  · intro y hy
    by_cases hc : y = s.cur <;> by_cases ha : y = a
    · subst hc; subst ha; simp [hne]
    · subst hc; simp [hne, ha]
    · subst ha; simp [hna, hc]
    · simp [hy, hc, ha]

theorem commaMove_flags_nil (s : PState) (hs : s.stk = []) (hlt : s.cur < s.tree.next) :
    (commaMove s).tree.next = s.tree.next + 1 ∧
    (commaMove s).tree.Leaves = s.tree.Leaves ∧
    (commaMove s).cur = s.cur ∧ (commaMove s).stk = [] ∧
    (commaMove s).state = FsmState.stQUIT ∧
    ((commaMove s).tree.heap s.tree.next).Child = none ∧
    ((commaMove s).tree.heap s.tree.next).Sib = none ∧
    ((commaMove s).tree.heap s.tree.next).Leaf = false ∧
    ((commaMove s).tree.heap s.cur).Sib = some s.tree.next ∧
    ∀ y, y ≠ s.tree.next →
      ((commaMove s).tree.heap y).Leaf = (s.tree.heap y).Leaf ∧
      ((commaMove s).tree.heap y).LeafNumber = (s.tree.heap y).LeafNumber ∧
      ((commaMove s).tree.heap y).Child = (s.tree.heap y).Child ∧
      (y ≠ s.cur → ((commaMove s).tree.heap y).Sib = (s.tree.heap y).Sib) ∧
      ((commaMove s).tree.heap y).Degree = (s.tree.heap y).Degree := by
  have hne : s.cur ≠ s.tree.next := Nat.ne_of_lt hlt
  simp only [commaMove, hs, Tree.NewNode, PState.setError, PState.goto, Heap.modify, Heap.set]
  refine ⟨trivial, trivial, trivial, trivial, trivial, ?_, ?_, ?_, ?_, ?_⟩
  · simp [hne.symm]
  · simp [hne.symm]
  · simp [hne.symm]
  · simp [hne]
  · intro y hy
    by_cases hc : y = s.cur
    · subst hc; simp [hne]
    · simp [hy, hc]

theorem getNameLeaf_flags (s : PState) :
    ((getNameLeaf s).tree.heap s.cur).Leaf = true ∧
    ((getNameLeaf s).tree.heap s.cur).LeafNumber = s.tree.Leaves + 1 ∧
    ((getNameLeaf s).tree.heap s.cur).Degree = 0 ∧
    (∀ y, ((getNameLeaf s).tree.heap y).Child = (s.tree.heap y).Child ∧
      ((getNameLeaf s).tree.heap y).Sib = (s.tree.heap y).Sib) ∧
    ∀ y, y ≠ s.cur → (getNameLeaf s).tree.heap y = s.tree.heap y := by
  rw [getNameLeaf_tree]
  simp only [Heap.modify, Heap.set]
  refine ⟨by simp, by simp, by simp, ?_, ?_⟩
  · intro y
    by_cases hc : y = s.cur
    · subst hc; simp
    · simp [hc]
  · intro y hc
    simp [hc]

theorem keeps_built_NextToken (b : Nat) (s : PState) (hb : Built b s) : Built b s.NextToken :=
  built_of_frame b s _ hb (fun y => by rw [NextToken_tree]; exact sameFlags_refl _)
    (by rw [NextToken_tree]) (by rw [NextToken_tree]) (Or.inl (NextToken_cur s))
    (fun a ha => by rw [NextToken_stk] at ha; exact ha)

theorem keeps_built_labelMove (b : Nat) (s : PState) (hb : Built b s) : Built b (labelMove s) := by
  refine built_of_frame b s _ hb (fun y => ?_) (by rw [labelMove_tree])
    (by rw [labelMove_tree]) (Or.inl (labelMove_cur s))
    (fun a ha => by rw [(labelMove_ctl s).2.1] at ha; exact ha)
  rw [labelMove_tree]
  refine modify_sameFlags _ _ _ ?_ y
  intro m
  exact ⟨rfl, rfl, rfl, rfl, rfl⟩

theorem keeps_built_branchInfo (cap : Int) (f : Nat) (b : Nat) (s s1 : PState)
    (hstep : branchInfo cap f s = some s1) (hb : Built b s) : Built b s1 := by
  obtain ⟨h1, h2, h3⟩ := branchInfo_flags cap f s s1 hstep
  obtain ⟨-, c2, c3⟩ := branchInfo_ctl cap f s s1 hstep
  exact built_of_frame b s s1 hb h1 h2 h3 (Or.inl c3) (fun a ha => by rw [c2] at ha; exact ha)

theorem keeps_built_rparMove (b : Nat) (s : PState) (hb : Built b s) : Built b (rparMove s) := by
  cases hs : s.stk with
  | nil =>
    refine built_of_frame b s _ hb (fun y => ?_) ?_ ?_ (Or.inl ?_) (fun a ha => ?_)
    · simp only [rparMove, hs, PState.setError, PState.goto]; exact sameFlags_refl _
    · simp only [rparMove, hs, PState.setError, PState.goto]
    · simp only [rparMove, hs, PState.setError, PState.goto]
    · simp only [rparMove, hs, PState.setError, PState.goto]
    · simp [rparMove, hs, PState.setError, PState.goto] at ha
  | cons a l =>
    refine built_of_frame b s _ hb (fun y => ?_) (by rw [rparMove_tree s a l hs])
      (by rw [rparMove_tree s a l hs])
      (Or.inr (by rw [rparMove_cur s a l hs, hs]; simp))
      (fun x hx => by rw [((rparMove_ctl s).2 a l hs).2.1] at hx; rw [hs]; simp [hx])
    rw [rparMove_tree s a l hs]
    simp only [Heap.AddWeight]
    refine modify_sameFlags _ _ _ ?_ y
    intro m
    exact ⟨rfl, rfl, rfl, rfl, rfl⟩

theorem keeps_built_lparMove (b : Nat) (s : PState) (hb : Built b s) : Built b (lparMove s) := by
  obtain ⟨f1, f2, f3, f4, f5⟩ := lparMove_flags s hb.1.2
  refine built_alloc b s _ hb (by rw [lparMove_tree]) (by rw [lparMove_tree])
    (Or.inr (lparMove_cur s)) (fun a ha => ?_) ⟨f1, f2, f3⟩ (fun y hy => ?_)
  · rw [(lparMove_ctl s).2.1] at ha
    simpa using ha
  · obtain ⟨g1, g2, g3, g4⟩ := f5 y hy
    refine ⟨g1, g2, ?_, Or.inl g3⟩
    by_cases hc : y = s.cur
    · subst hc; exact Or.inr f4
    · exact Or.inl (g4 hc).1

theorem keeps_built_commaMove (b : Nat) (s : PState) (hb : Built b s) : Built b (commaMove s) := by
  cases hs : s.stk with
  | nil =>
    obtain ⟨e1, e2, e3, e4, -, f1, f2, f3, f4, f5⟩ := commaMove_flags_nil s hs hb.1.2
    refine built_alloc b s _ hb e1 e2 (Or.inl e3) (fun a ha => ?_) ⟨f1, f2, f3⟩
      (fun y hy => ?_)
    · rw [e4] at ha; simp at ha
    · obtain ⟨g1, g2, g3, g4, -⟩ := f5 y hy
      refine ⟨g1, g2, Or.inl g3, ?_⟩
      by_cases hc : y = s.cur
      · subst hc; exact Or.inr f4
      · exact Or.inl (g4 hc)
  | cons a l =>
    have hal : a < s.tree.next := (hb.2.1 a (by rw [hs]; simp)).2
    obtain ⟨f1, f2, f3, f4, f5⟩ := commaMove_flags s a l hs hb.1.2 hal
    refine built_alloc b s _ hb (by rw [commaMove_tree s a l hs])
      (by rw [commaMove_tree s a l hs]) (Or.inr (commaMove_cur s a l hs)) (fun x hx => ?_)
      ⟨f1, f2, f3⟩ (fun y hy => ?_)
    · rw [((commaMove_ctl s).2 (by rw [hs]; simp)).2.1] at hx
      exact Or.inr hx
    · obtain ⟨g1, g2, g3, g4, -⟩ := f5 y hy
      refine ⟨g1, g2, Or.inl g3, ?_⟩
      by_cases hc : y = s.cur
      · subst hc; exact Or.inr f4
      · exact Or.inl (g4 hc)

theorem keeps_built_getNameLeaf (b : Nat) (s : PState) (hb : Built b s) :
    Built b (getNameLeaf s) := by
  obtain ⟨b1, b2, b3, b4, b5, b6⟩ := hb
  obtain ⟨f1, f2, f3, f4, f5⟩ := getNameLeaf_flags s
  have hn : (getNameLeaf s).tree.next = s.tree.next := by rw [getNameLeaf_tree]
  have hL : (getNameLeaf s).tree.Leaves = s.tree.Leaves + 1 := by rw [getNameLeaf_tree]
  unfold Built
  rw [hn, hL, getNameLeaf_cur, (getNameLeaf_ctl s).2.1]
  refine ⟨b1, b2, ?_, by omega, ?_, ?_⟩
  · intro y z h1 h2 h3
    rw [(f4 y).1, (f4 y).2] at h3
    exact b3 y z h1 h2 h3
  · intro y h1 h2 h3
    by_cases hc : y = s.cur
    · subst hc; rw [f2]; omega
    · rw [f5 y hc] at h3 ⊢
      have := b5 y h1 h2 h3
      omega
  · intro y z h1 h2 h3 h4 h5 h6 h7
    by_cases hy : y = s.cur <;> by_cases hz : z = s.cur
    · rw [hy, hz]
    · subst hy
      rw [f5 z hz] at h6 h7
      rw [f2] at h7
      have := b5 z h3 h4 h6
      omega
    · subst hz
      rw [f5 y hy] at h5 h7
      rw [f2] at h7
      have := b5 y h1 h2 h5
      omega
    · rw [f5 y hy] at h5 h7
      rw [f5 z hz] at h6 h7
      exact b6 y z h1 h2 h3 h4 h5 h6 h7

/-- Every pass of the loop keeps `Built`. -/
theorem built_step (cap : Int) (f : Nat) (b : Nat) (s s1 : PState)
    (hstep : step cap f s = some s1) (hb : Built b s) : Built b s1 := by
  cases hs : s.state <;> cases hk : s.token.kind <;>
    simp only [step, hs, hk] at hstep <;> try contradiction
  all_goals first
    | exact keeps_built_branchInfo cap f b s s1 hstep hb
    | (cases hstep; exact hb)
    | (cases hstep; exact keeps_built_NextToken b _ hb)
    | (cases hstep; exact keeps_built_getNameLeaf b _ hb)
    | (cases hstep; exact keeps_built_labelMove b _ hb)
    | (cases hstep; exact keeps_built_commaMove b _ hb)
    | (cases hstep; exact keeps_built_lparMove b _ hb)
    | (cases hstep; exact keeps_built_rparMove b _ hb)
    | (cases hstk : s.stk <;> simp only [hstk] at hstep <;> cases hstep <;>
        exact built_of_frame b s _ hb (fun y => sameFlags_refl _) rfl rfl (Or.inl rfl)
          (fun a ha => ha))

theorem built_reach (cap : Int) (b : Nat) (s s1 : PState) (hr : Reach cap s s1) :
    Built b s → Built b s1 := by
  induction hr with
  | refl s => exact fun h => h
  | step f s s2 s3 _ _ hs _ ih => exact fun h => ih (built_step cap f b s s2 hs h)

theorem built_parseInit (t : Tree) (descr : List Token) :
    Built t.next (parseInit t descr) := by
  have ht : (parseInit t descr).tree =
      { t with Root := some t.next, Leaves := 0, Internals := 0, Error := ErrorCode.errNONE,
               CurNode := some t.next, next := t.next + 1, heap := t.heap.set t.next {} } := by
    simp [parseInit, Tree.NewNode, NextToken_tree]
  have hc : (parseInit t descr).cur = t.next := by
    simp [parseInit, Tree.NewNode, NextToken_cur]
  have hk : (parseInit t descr).stk = [] := by
    simp [parseInit, Tree.NewNode, NextToken_stk]
  have hfresh : ∀ y, t.next ≤ y → y < t.next + 1 → (t.heap.set t.next {}) y = {} := by
    intro y h1 h2
    have : y = t.next := by omega
    subst this
    simp [Heap.set]
  unfold Built
  rw [ht, hc, hk]
  dsimp only
  refine ⟨⟨le_refl _, Nat.lt_succ_self _⟩, by simp, ?_, le_refl _, ?_, ?_⟩
  · intro y z h1 h2 h3
    rw [hfresh y h1 h2] at h3
    simp at h3
  · intro y h1 h2 h3
    rw [hfresh y h1 h2] at h3
    simp at h3
  · intro y z h1 h2 h3 h4
    omega

theorem bare_of_frame (b : Nat) (s s1 : PState) (hbare : Bare b s)
    (hl : ∀ y, SameFlags (s.tree.heap y) (s1.tree.heap y))
    (hn : s1.tree.next = s.tree.next)
    (hst : s1.state = FsmState.stGETNAME → s.state = FsmState.stGETNAME ∧ s1.cur = s.cur)
    (hk : ∀ a ∈ s1.stk, a ∈ s.stk) (hnd : (s1.cur :: s1.stk).Nodup) : Bare b s1 := by
  obtain ⟨l1, l2, l3, l4⟩ := hbare
  unfold Bare
  rw [hn]
  refine ⟨fun a ha => ?_, hnd, fun h => ?_, fun y h1 h2 h3 => ?_⟩
  · rw [(hl a).2.2.1]; exact l1 a (hk a ha)
  · obtain ⟨e1, e2⟩ := hst h
    rw [e2, (hl s.cur).1]
    exact l3 e1
  · rw [(hl y).2.2.1] at h3
    rw [(hl y).1, (hl y).2.2.2.2]
    exact l4 y h1 h2 h3

theorem bare_NextToken (b : Nat) (s : PState) (hbare : Bare b s) : Bare b s.NextToken := by
  refine bare_of_frame b s _ hbare (fun y => by rw [NextToken_tree]; exact sameFlags_refl _)
    (by rw [NextToken_tree]) (fun h => ⟨?_, NextToken_cur s⟩)
    (fun a ha => by rw [NextToken_stk] at ha; exact ha)
    (by rw [NextToken_cur, NextToken_stk]; exact hbare.2.1)
  rw [NextToken_state] at h
  exact h

theorem bare_labelMove (b : Nat) (s : PState) (hs : s.state = FsmState.stFINISHCHILDREN)
    (hbare : Bare b s) : Bare b (labelMove s) := by
  refine bare_of_frame b s _ hbare (fun y => ?_) (by rw [labelMove_tree]) (fun h => ?_)
    (fun a ha => by rw [(labelMove_ctl s).2.1] at ha; exact ha)
    (by rw [labelMove_cur, (labelMove_ctl s).2.1]; exact hbare.2.1)
  · rw [labelMove_tree]
    refine modify_sameFlags _ _ _ ?_ y
    intro m
    exact ⟨rfl, rfl, rfl, rfl, rfl⟩
  · rw [(labelMove_ctl s).1, hs] at h
    cases h

theorem bare_branchInfo (cap : Int) (f : Nat) (b : Nat) (s s1 : PState)
    (hstep : branchInfo cap f s = some s1)
    (hs : s.state = FsmState.stNEXTMOVE ∨ s.state = FsmState.stFINISHCHILDREN)
    (hbare : Bare b s) : Bare b s1 := by
  obtain ⟨h1, h2, -⟩ := branchInfo_flags cap f s s1 hstep
  obtain ⟨c1, c2, c3⟩ := branchInfo_ctl cap f s s1 hstep
  refine bare_of_frame b s s1 hbare h1 h2 (fun h => ?_)
    (fun a ha => by rw [c2] at ha; exact ha) (by rw [c2, c3]; exact hbare.2.1)
  rw [c1] at h
  rcases hs with e | e <;> rw [e] at h <;> cases h

theorem bare_rparMove (b : Nat) (s : PState) (hbare : Bare b s) : Bare b (rparMove s) := by
  cases hs : s.stk with
  | nil =>
    refine bare_of_frame b s _ hbare (fun y => ?_) ?_ (fun h => ?_) (fun a ha => ?_) ?_
    · simp only [rparMove, hs, PState.setError, PState.goto]; exact sameFlags_refl _
    · simp only [rparMove, hs, PState.setError, PState.goto]
    · simp [rparMove, hs, PState.setError, PState.goto] at h
    · simp [rparMove, hs, PState.setError, PState.goto] at ha
    · simp [rparMove, hs, PState.setError, PState.goto]
  | cons a l =>
    have hnd := hbare.2.1
    rw [hs] at hnd
    refine bare_of_frame b s _ hbare (fun y => ?_) (by rw [rparMove_tree s a l hs])
      (fun h => ?_)
      (fun x hx => by rw [((rparMove_ctl s).2 a l hs).2.1] at hx; rw [hs]; simp [hx])
      (by rw [rparMove_cur s a l hs, ((rparMove_ctl s).2 a l hs).2.1]
          exact (List.nodup_cons.1 hnd).2)
    · rw [rparMove_tree s a l hs]
      simp only [Heap.AddWeight]
      refine modify_sameFlags _ _ _ ?_ y
      intro m
      exact ⟨rfl, rfl, rfl, rfl, rfl⟩
    · rw [((rparMove_ctl s).2 a l hs).1] at h
      cases h

theorem bare_getNameLeaf (b : Nat) (s : PState) (hs : s.state = FsmState.stGETNAME)
    (hbare : Bare b s) : Bare b (getNameLeaf s) := by
  obtain ⟨l1, l2, l3, l4⟩ := hbare
  obtain ⟨f1, f2, f3, f4, f5⟩ := getNameLeaf_flags s
  have hn : (getNameLeaf s).tree.next = s.tree.next := by rw [getNameLeaf_tree]
  unfold Bare
  rw [hn, getNameLeaf_cur, (getNameLeaf_ctl s).2.1]
  refine ⟨fun a ha => ?_, l2, fun h => ?_, fun y h1 h2 h3 => ?_⟩
  · have hne : a ≠ s.cur := fun e => (List.nodup_cons.1 l2).1 (e ▸ ha)
    rw [f5 a hne]
    exact l1 a ha
  · rw [(getNameLeaf_ctl s).1] at h
    cases h
  · by_cases hc : y = s.cur
    · subst hc
      exact ⟨by rw [(f4 _).1]; exact l3 hs, f3⟩
    · rw [f5 y hc] at h3 ⊢
      exact l4 y h1 h2 h3

theorem bare_lparMove (b : Nat) (s : PState) (hb : Built b s) (hbare : Bare b s)
    (hleaf : (s.tree.heap s.cur).Leaf = false) : Bare b (lparMove s) := by
  obtain ⟨l1, l2, l3, l4⟩ := hbare
  obtain ⟨b1, b2, -⟩ := hb
  obtain ⟨f1, f2, f3, f4, f5⟩ := lparMove_flags s b1.2
  have hn : (lparMove s).tree.next = s.tree.next + 1 := by rw [lparMove_tree]
  have hne : s.cur ≠ s.tree.next := Nat.ne_of_lt b1.2
  unfold Bare
  rw [hn, lparMove_cur, (lparMove_ctl s).2.1]
  refine ⟨fun a ha => ?_, ?_, fun _ => f1, fun y h1 h2 h3 => ?_⟩
  · simp only [List.mem_cons] at ha
    rcases ha with rfl | ha
    · rw [(f5 _ hne).1]; exact hleaf
    · rw [(f5 a (Nat.ne_of_lt (b2 a ha).2)).1]; exact l1 a ha
  · refine List.nodup_cons.2 ⟨?_, l2⟩
    simp only [List.mem_cons, not_or]
    exact ⟨hne.symm, fun h => absurd (b2 _ h).2 (lt_irrefl _)⟩
  · by_cases hy : y = s.tree.next
    · subst hy
      rw [f3] at h3
      cases h3
    · obtain ⟨g1, -, -, g4⟩ := f5 y hy
      rw [g1] at h3
      by_cases hc : y = s.cur
      · subst hc
        rw [hleaf] at h3
        cases h3
      · rw [(g4 hc).1, (g4 hc).2]
        exact l4 y h1 (by omega) h3

theorem bare_commaMove (b : Nat) (s : PState) (hb : Built b s) (hbare : Bare b s) :
    Bare b (commaMove s) := by
  obtain ⟨l1, l2, l3, l4⟩ := hbare
  obtain ⟨b1, b2, -⟩ := hb
  cases hs : s.stk with
  | nil =>
    obtain ⟨e1, -, e3, e4, e5, f1, -, f3, -, f5⟩ := commaMove_flags_nil s hs b1.2
    unfold Bare
    rw [e1, e3, e4, e5]
    refine ⟨by simp, by simp, fun h => (by cases h), fun y h1 h2 h3 => ?_⟩
    by_cases hy : y = s.tree.next
    · subst hy
      rw [f3] at h3
      cases h3
    · obtain ⟨g1, -, g3, -, g5⟩ := f5 y hy
      rw [g1] at h3
      rw [g3, g5]
      exact l4 y h1 (by omega) h3
  | cons a l =>
    have ha : a ∈ s.stk := by rw [hs]; simp
    obtain ⟨f1, -, f3, -, f5⟩ := commaMove_flags s a l hs b1.2 (b2 a ha).2
    have hn : (commaMove s).tree.next = s.tree.next + 1 := by rw [commaMove_tree s a l hs]
    unfold Bare
    rw [hn, commaMove_cur s a l hs, ((commaMove_ctl s).2 (by rw [hs]; simp)).2.1]
    refine ⟨fun x hx => ?_, ?_, fun _ => f1, fun y h1 h2 h3 => ?_⟩
    · rw [(f5 x (Nat.ne_of_lt (b2 x hx).2)).1]
      exact l1 x hx
    · refine List.nodup_cons.2 ⟨fun h => absurd (b2 _ h).2 (lt_irrefl _),
        (List.nodup_cons.1 l2).2⟩
    · by_cases hy : y = s.tree.next
      · subst hy
        rw [f3] at h3
        cases h3
      · obtain ⟨g1, -, g3, -, g5⟩ := f5 y hy
        rw [g1] at h3
        by_cases hya : y = a
        · subst hya
          rw [l1 y ha] at h3
          cases h3
        · rw [g3, g5 hya]
          exact l4 y h1 (by omega) h3

/-- A pass of the loop that does not give a child to a leaf keeps `Bare`. -/
theorem bare_step (cap : Int) (f : Nat) (b : Nat) (s s1 : PState)
    (hstep : step cap f s = some s1) (hb : Built b s) (hbare : Bare b s)
    (hno : ¬ OpensLeaf s) : Bare b s1 := by
  cases hs : s.state <;> cases hk : s.token.kind <;>
    simp only [step, hs, hk] at hstep <;> try contradiction
  all_goals first
    | exact bare_branchInfo cap f b s s1 hstep (by rw [hs]; simp) hbare
    | (cases hstep; exact hbare)
    | (cases hstep
       exact bare_of_frame b s _ hbare (fun y => sameFlags_refl _) rfl (fun h => by cases h)
         (fun a ha => ha) hbare.2.1)
    | (cases hstep; exact bare_NextToken b _ hbare)
    | (cases hstep; exact bare_getNameLeaf b _ hs hbare)
    | (cases hstep; exact bare_labelMove b _ hs hbare)
    | (cases hstep; exact bare_commaMove b _ hb hbare)
    | (cases hstep
       refine bare_lparMove b _ hb hbare ?_
       cases hl : (s.tree.heap s.cur).Leaf
       · rfl
       · exact absurd ⟨hs, hk, hl⟩ hno)
    | (cases hstep; exact bare_rparMove b _ hbare)
    | (cases hstk : s.stk <;> simp only [hstk] at hstep <;> cases hstep <;>
        exact bare_of_frame b s _ hbare (fun y => sameFlags_refl _) rfl (fun h => by cases h)
          (fun a ha => ha) hbare.2.1)

theorem bare_reach (cap : Int) (b : Nat) (s s1 : PState) (hr : Reach cap s s1) :
    Built b s → Bare b s → (∀ s2, Reach cap s s2 → ¬ OpensLeaf s2) → Bare b s1 := by
  induction hr with
  | refl s => exact fun _ h _ => h
  | step f s s2 s3 hq ha hs _ ih =>
    intro hb hbare hno
    exact ih (built_step cap f b s s2 hs hb)
      (bare_step cap f b s s2 hs hb hbare (hno s (Reach.refl s)))
      (fun s4 h4 => hno s4 (Reach.step f s s2 s4 hq ha hs h4))

theorem bare_parseInit (t : Tree) (descr : List Token) :
    Bare t.next (parseInit t descr) := by
  have ht : (parseInit t descr).tree =
      { t with Root := some t.next, Leaves := 0, Internals := 0, Error := ErrorCode.errNONE,
               CurNode := some t.next, next := t.next + 1, heap := t.heap.set t.next {} } := by
    simp [parseInit, Tree.NewNode, NextToken_tree]
  have hc : (parseInit t descr).cur = t.next := by
    simp [parseInit, Tree.NewNode, NextToken_cur]
  have hk : (parseInit t descr).stk = [] := by
    simp [parseInit, Tree.NewNode, NextToken_stk]
  have hfresh : ∀ y, t.next ≤ y → y < t.next + 1 → (t.heap.set t.next {}) y = {} := by
    intro y h1 h2
    have : y = t.next := by omega
    subst this
    simp [Heap.set]
  unfold Bare
  rw [ht, hc, hk]
  dsimp only
  refine ⟨by simp, by simp, fun _ => ?_, fun y h1 h2 h3 => ?_⟩
  · rw [hfresh t.next (le_refl _) (Nat.lt_succ_self _)]
  · rw [hfresh y h1 h2] at h3
    simp at h3

/-- The evaluation `noOpenLeafCheck` is sound. -/
theorem noOpenLeaf_of_check (cap : Int) (fuel k : Nat) (s : PState)
    (hc : noOpenLeafCheck cap fuel k s = true) :
    ∀ s2, Reach cap s s2 → ¬ OpensLeaf s2 := by
  intro s2 hr
  unfold noOpenLeafCheck at hc
  simp only [Bool.and_eq_true, List.all_eq_true, Bool.not_eq_true',
    decide_eq_false_iff_not] at hc
  exact hc.2 s2 (reach_mem_passes cap fuel k s s2 hc.1 hr)

/-- The accepted state behind a successful parse: it holds a tree under the first node
built, and what `Tree::Parse` returns differs from it in path lengths only. -/
theorem parse_accepted_state (cap : Int) (fuel : Nat) (t : Tree) (descr : List Token)
    (hacc : Accepts cap fuel t descr) :
    ∃ sf c, Reach cap (parseInit t descr) sf ∧ sf.state = FsmState.stACCEPTED ∧
      sf.tree.Root = some t.next ∧ Rep sf.tree.heap none (BT.node t.next c BT.nil) ∧
      (BT.node t.next c BT.nil).addrs.Nodup ∧
      sf.tree.Leaves = leavesF sf.tree.heap (BT.node t.next c BT.nil) ∧
      ∃ N, ∀ fuel1, N ≤ fuel1 → ∃ t1, Parse cap fuel1 t descr = some (0, t1) ∧
        (∀ y, (t1.heap y).clearPL = (sf.tree.heap y).clearPL) ∧
        t1.Root = some t.next ∧ t1.Leaves = sf.tree.Leaves ∧
        (BT.node t.next c BT.nil).size < fuel1 := by
  obtain ⟨s, hrun, hs⟩ := Accepts.state cap fuel t descr hacc
  have hreach := Reach.of_run cap fuel _ s hrun
  have hinv := WInvSome_reach cap _ s hreach (Or.inr ⟨_, _, _, WInv_parseInit t descr⟩)
  rcases hinv with hq | ⟨r, fs, cx, hi⟩
  · rw [hs] at hq; cases hq
  obtain ⟨i1, i2, i3, i4, i5, -, i7, -, -, -, i11⟩ := hi
  have hfs : fs = [] := by
    have := i11 hs
    rw [i2] at this
    simpa using this
  subst hfs
  obtain ⟨f1, f2⟩ := i3
  obtain ⟨c1, c2, c3, c4⟩ := i4
  rw [f2] at f1 c1 c2 c3 c4 i5 i7
  have hrt : r = t.next :=
    Option.some.inj (i1.symm.trans (root_of_reach cap t descr s hreach))
  subst hrt
  have hrep : Rep s.tree.heap none (BT.node t.next cx BT.nil) := ⟨f1, c2, c1, c3, trivial⟩
  have hL : s.tree.Leaves = (s.tree.heap t.next).Weight := by simpa [framesWeight] using i7
  have hLF : s.tree.Leaves = leavesF s.tree.heap (BT.node t.next cx BT.nil) := by
    rw [hL]
    have := c4.1
    simp only [leavesF]
    rw [this]; ring
  refine ⟨s, cx, hreach, hs, i1, hrep, by simpa [BT.addrs, framesAddrs] using i5, hLF, ?_⟩
  obtain ⟨N, hN⟩ := Parse_of_accepted cap t descr s t.next cx hreach hs i1 hrep
  refine ⟨max N ((BT.node t.next cx BT.nil).size + 1), fun fuel1 hf => ?_⟩
  obtain ⟨t1, hp, hpf⟩ := hN fuel1 (le_trans (le_max_left _ _) hf)
  have hheap : (acceptedTree s t.next).heap = s.tree.heap := by
    funext y
    by_cases hy : y = t.next
    · subst hy
      simp [acceptedTree, hL]
    · simp [acceptedTree, hy]
  refine ⟨t1, hp, fun y => ?_, ?_, ?_,
    lt_of_lt_of_le (Nat.lt_succ_self _) (le_trans (le_max_right _ _) hf)⟩
  · rw [hpf.1 y, hheap]; rfl
  · rw [hpf.2]; simpa [acceptedTree] using i1
  · rw [hpf.2]; simp [acceptedTree]

theorem clearPL_fields (n m : Node) (h : n.clearPL = m.clearPL) :
    n.Anc = m.Anc ∧ n.Child = m.Child ∧ n.Sib = m.Sib ∧ n.Leaf = m.Leaf ∧
      n.LeafNumber = m.LeafNumber ∧ n.Degree = m.Degree := by
  have h1 := congrArg Node.Anc h
  have h2 := congrArg Node.Child h
  have h3 := congrArg Node.Sib h
  have h4 := congrArg Node.Leaf h
  have h5 := congrArg Node.LeafNumber h
  have h6 := congrArg Node.Degree h
  exact ⟨h1, h2, h3, h4, h5, h6⟩

/-- The nodes of a chain that starts among the addresses from `b` to `n` lie between
`b` and `n` when `Child` and `Sib` pointers do not lead out of that range. -/
theorem Rep_range (h : Heap) (b n : Nat)
    (hcl : ∀ y z, b ≤ y → y < n → ((h y).Child = some z ∨ (h y).Sib = some z) →
      b ≤ z ∧ z < n) :
    ∀ (T : BT) (a : Option Nat), Rep h a T → (∀ x, T.ptr = some x → b ≤ x ∧ x < n) →
      ∀ y ∈ T.addrs, b ≤ y ∧ y < n := by
  intro T
  induction T with
  | nil => intro _ _ _ y hy; simp [BT.addrs] at hy
  | node x c s ihc ihs =>
    intro a hrep hp y hy
    obtain ⟨-, hc, hs, hrc, hrs⟩ := hrep
    have hx := hp x rfl
    simp only [BT.addrs, List.mem_cons, List.mem_append] at hy
    rcases hy with rfl | hy | hy
    · exact hx
    · exact ihc _ hrc (fun z hz => hcl x z hx.1 hx.2 (Or.inl (hc.trans hz))) y hy
    · exact ihs _ hrs (fun z hz => hcl x z hx.1 hx.2 (Or.inr (hs.trans hz))) y hy

theorem LeavesBare_of_rep (h : Heap) : ∀ (T : BT) (a : Option Nat), Rep h a T →
    (∀ y ∈ T.addrs, (h y).Leaf = true → (h y).Child = none ∧ (h y).Degree = 0) →
    LeavesBare h T := by
  intro T
  induction T with
  | nil => intro _ _ _; trivial
  | node x c s ihc ihs =>
    intro a hrep hy
    obtain ⟨-, hc, -, hrc, hrs⟩ := hrep
    refine ⟨fun hl => ?_, ihc _ hrc (fun y h1 => hy y (by simp [BT.addrs, h1])),
      ihs _ hrs (fun y h1 => hy y (by simp [BT.addrs, h1]))⟩
    obtain ⟨e1, e2⟩ := hy x (by simp [BT.addrs]) hl
    refine ⟨?_, e1, e2⟩
    rw [e1] at hc
    cases c with
    | nil => rfl
    | node _ _ _ => simp [BT.ptr] at hc

/-- The node invariant for every accepted description: the tree under `Root` has
consistent ancestor pointers and no node twice; and when no pass of the loop gave a
child to a leaf, every node flagged as a leaf has no child and degree 0. -/
theorem parse_node_invariant (cap : Int) (fuel : Nat) (t : Tree) (descr : List Token)
    (hacc : Accepts cap fuel t descr) :
    ∃ N, ∀ fuel1, N ≤ fuel1 → ∃ t1 r c, Parse cap fuel1 t descr = some (0, t1) ∧
      t1.Root = some r ∧ Rep t1.heap none (BT.node r c BT.nil) ∧
      (BT.node r c BT.nil).addrs.Nodup ∧
      ((∀ s, Reach cap (parseInit t descr) s → ¬ OpensLeaf s) →
        LeavesBare t1.heap (BT.node r c BT.nil)) := by
  obtain ⟨sf, c, hreach, hsf, hroot, hrep, hnd, -, N, hN⟩ :=
    parse_accepted_state cap fuel t descr hacc
  refine ⟨N, fun fuel1 hf => ?_⟩
  obtain ⟨t1, hp, hfr, hr1, -, -⟩ := hN fuel1 hf
  have hrep1 : Rep t1.heap none (BT.node t.next c BT.nil) :=
    Rep_congr sf.tree.heap t1.heap _ none (fun y _ => by
      have := clearPL_fields _ _ (hfr y)
      exact ⟨this.1, this.2.1, this.2.2.1⟩) hrep
  refine ⟨t1, t.next, c, hp, hr1, hrep1, hnd, fun hno => ?_⟩
  have hb := built_reach cap t.next _ sf hreach (built_parseInit t descr)
  have hbare := bare_reach cap t.next _ sf hreach (built_parseInit t descr)
    (bare_parseInit t descr) hno
  have hrange := Rep_range sf.tree.heap t.next sf.tree.next hb.2.2.1 _ none hrep
    (fun x hx => by
      simp only [BT.ptr, Option.some.injEq] at hx
      subst hx
      have h1 := hb.1
      have h2 := hb.2.2.1
      exact ⟨le_refl _, lt_of_le_of_lt h1.1 h1.2⟩)
  refine LeavesBare_of_rep t1.heap _ none hrep1 (fun y hy hl => ?_)
  obtain ⟨-, e2, -, e4, -, e6⟩ := clearPL_fields _ _ (hfr y)
  rw [e4] at hl
  rw [e2, e6]
  exact hbare.2.2.2 y (hrange y hy).1 (hrange y hy).2 hl

/-! ## The node index and the node invariant for every accepted description -/

theorem modify_clearWD (h : Heap) (p : Nat) (f : Node → Node)
    (hf : ∀ m, (f m).clearWD = m.clearWD) (y : Nat) :
    ((h.modify p f) y).clearWD = (h y).clearWD := by
  by_cases e : y = p
  · subst e
    rw [Heap.modify_same]
    exact hf _
  · rw [Heap.modify_ne h p y f e]

theorem buildFinish_clearWD (t3 : Tree) (x ax : Nat) (y : Nat) :
    ((buildFinish t3 x ax).heap y).clearWD = (t3.heap y).clearWD := by
  cases hl : (t3.heap x).Leaf
  · simp only [buildFinish, hl, Bool.false_eq_true, if_false, Heap.AddWeight,
      Heap.IncrementDegree]
    refine (modify_clearWD _ _ _ ?_ y).trans ((modify_clearWD _ _ _ ?_ y).trans rfl)
    all_goals intro m; rfl
  · simp only [buildFinish, hl, if_true, Heap.AddWeight, Heap.IncrementDegree]
    refine (modify_clearWD _ _ _ ?_ y).trans ((modify_clearWD _ _ _ ?_ y).trans
      (modify_clearWD _ _ _ ?_ y))
    all_goals intro m; rfl

theorem buildFinishRoot_clearWD (t3 : Tree) (x : Nat) (y : Nat) :
    ((buildFinishRoot t3 x).heap y).clearWD = (t3.heap y).clearWD := by
  cases hl : (t3.heap x).Leaf
  · simp only [buildFinishRoot, hl, Bool.false_eq_true, if_false]
  · simp only [buildFinishRoot, hl, if_true]
    refine modify_clearWD _ _ _ ?_ y
    intro m; rfl

/-- The counting part of `buildtraverse`, also for trees in which a node flagged as a
leaf has children: the call returns, changes nothing but weights and degrees in the
heap, and adds to `Leaves` and `Internals` the numbers of nodes of the chain that are
flagged as leaves and that are not. -/
theorem buildtraverse_counts (T : BT) : ∀ (fuel : Nat) (t : Tree) (ax : Nat),
    T.size < fuel → Rep t.heap (some ax) T → (∀ x ∈ T.addrs, some x ≠ t.Root) →
    ∃ t1, buildtraverse fuel t T.ptr = some t1 ∧
      (∀ y, (t1.heap y).clearWD = (t.heap y).clearWD) ∧
      t1 = { t with heap := t1.heap, Leaves := t.Leaves + leavesF t.heap T,
                    Internals := t.Internals + internalsF t.heap T } := by
  induction T with
  | nil =>
    intro fuel t ax hf _ _
    obtain ⟨n, rfl⟩ : ∃ n, fuel = n + 1 := ⟨fuel - 1, by simp [BT.size] at hf; omega⟩
    refine ⟨t, by simp [buildtraverse, BT.ptr], fun _ => rfl, ?_⟩
    simp [leavesF, internalsF]
  | node x c s ihc ihs =>
    intro fuel t ax hf hrep hroot
    obtain ⟨n, rfl⟩ : ∃ n, fuel = n + 1 := ⟨fuel - 1, by simp [BT.size] at hf; omega⟩
    simp only [BT.size] at hf
    obtain ⟨hAnc, hChild, hSib, hrc, hrs⟩ := hrep
    set t1 : Tree :=
      { t with heap := t.heap.modify x fun n => { n with Weight := 0, Degree := 0 } } with ht1
    have h1 : ∀ y, (t1.heap y).clearWD = (t.heap y).clearWD := by
      intro y
      refine modify_clearWD _ _ _ ?_ y
      intro m; rfl
    have hlinks : ∀ (h h1 : Heap), (∀ y, (h1 y).clearWD = (h y).clearWD) → ∀ y,
        (h1 y).Anc = (h y).Anc ∧ (h1 y).Child = (h y).Child ∧ (h1 y).Sib = (h y).Sib :=
      fun h h1 e y => by
        have := clearWD_fields _ _ (e y)
        exact ⟨this.1, this.2.1, this.2.2.1⟩
    obtain ⟨t2, hb2, p2, q2⟩ := ihc n t1 x (by omega)
      (Rep_congr t.heap t1.heap c _ (fun y _ => hlinks _ _ h1 y) hrc)
      (fun y hy => by simpa [ht1] using hroot y (by simp [BT.addrs, hy]))
    have h2 : ∀ y, (t2.heap y).clearWD = (t.heap y).clearWD := fun y =>
      (p2 y).trans (h1 y)
    have hroot2 : t2.Root = t.Root := by rw [q2]
    obtain ⟨t3, hb3, p3, q3⟩ := ihs n t2 ax (by omega)
      (Rep_congr t.heap t2.heap s _ (fun y _ => hlinks _ _ h2 y) hrs)
      (fun y hy => by rw [hroot2]; exact hroot y (by simp [BT.addrs, hy]))
    have h3 : ∀ y, (t3.heap y).clearWD = (t.heap y).clearWD := fun y =>
      (p3 y).trans (h2 y)
    have hroot3 : t3.Root = t.Root := by rw [q3, hroot2]
    have hb : buildtraverse (n + 1) t (some x) = some (buildFinish t3 x ax) :=
      buildtraverse_node n t t2 t3 x ax (by rw [hChild]; exact hb2)
        (by rw [(hlinks _ _ h2 x).2.2, hSib]; exact hb3)
        (by rw [hroot3]; exact hroot x (by simp [BT.addrs]))
        (by rw [(hlinks _ _ h3 x).1]; exact hAnc)
    refine ⟨buildFinish t3 x ax, hb, fun y => (buildFinish_clearWD t3 x ax y).trans (h3 y), ?_⟩
    have hleaf : ∀ (h h1 : Heap), (∀ y, (h1 y).clearWD = (h y).clearWD) → ∀ y,
        (h1 y).Leaf = (h y).Leaf := fun h h1 e y => (clearWD_fields _ _ (e y)).2.2.2
    have hl1 : leavesF t1.heap c = leavesF t.heap c :=
      leavesF_congr t.heap t1.heap c (fun y _ => hleaf _ _ h1 y)
    have hi1 : internalsF t1.heap c = internalsF t.heap c :=
      internalsF_congr t.heap t1.heap c (fun y _ => hleaf _ _ h1 y)
    have hl2 : leavesF t2.heap s = leavesF t.heap s :=
      leavesF_congr t.heap t2.heap s (fun y _ => hleaf _ _ h2 y)
    have hi2 : internalsF t2.heap s = internalsF t.heap s :=
      internalsF_congr t.heap t2.heap s (fun y _ => hleaf _ _ h2 y)
    have hlx : (t3.heap x).Leaf = (t.heap x).Leaf := hleaf _ _ h3 x
    by_cases hl : (t.heap x).Leaf = true
    · have hl3 : (t3.heap x).Leaf = true := by rw [hlx]; exact hl
      simp only [buildFinish, hl3, if_true]
      rw [q3, q2]
      simp [ht1, leavesF, internalsF, hl, hl1, hl2, hi1, hi2]
      constructor <;> ring
    · have hl3 : ¬ (t3.heap x).Leaf = true := by rw [hlx]; exact hl
      simp only [buildFinish, hl3, if_false]
      rw [q3, q2]
      simp [ht1, leavesF, internalsF, hl, hl1, hl2, hi1, hi2]
      constructor <;> ring

/-- The counting part of `Update`, also for trees in which a node flagged as a leaf
has children. -/
theorem Update_counts (t : Tree) (r : Nat) (c : BT) (fuel : Nat)
    (hroot : t.Root = some r) (hrep : Rep t.heap none (BT.node r c BT.nil))
    (hnd : (BT.node r c BT.nil).addrs.Nodup) (hfuel : (BT.node r c BT.nil).size < fuel) :
    ∃ t1, Update fuel t = some t1 ∧
      (∀ y, (t1.heap y).clearWD = (t.heap y).clearWD) ∧
      t1.Root = some r ∧
      t1.Leaves = leavesF t.heap (BT.node r c BT.nil) ∧
      t1.Internals = internalsF t.heap (BT.node r c BT.nil) := by
  obtain ⟨n, rfl⟩ : ∃ n, fuel = n + 1 := ⟨fuel - 1, by simp [BT.size] at hfuel; omega⟩
  simp only [BT.size] at hfuel
  obtain ⟨hAnc, hChild, hSib, hrc, -⟩ := hrep
  simp only [BT.addrs, List.append_nil, List.nodup_cons] at hnd
  obtain ⟨hrc_notin, hndc⟩ := hnd
  simp only [BT.ptr] at hSib
  set t0 : Tree := { t with count := 0, Leaves := 0, Internals := 0 } with ht0
  set t1 : Tree :=
    { t0 with heap := t0.heap.modify r fun n => { n with Weight := 0, Degree := 0 } }
    with ht1
  have h1 : ∀ y, (t1.heap y).clearWD = (t.heap y).clearWD := by
    intro y
    refine modify_clearWD _ _ _ ?_ y
    intro m; rfl
  have hnr : ∀ y ∈ c.addrs, some y ≠ t1.Root := by
    intro y hy e
    have : y = r := by simpa [ht1, ht0, hroot] using e
    exact hrc_notin (this ▸ hy)
  obtain ⟨t2, hb2, p2, q2⟩ := buildtraverse_counts c n t1 r (by omega)
    (Rep_congr t.heap t1.heap c _ (fun y _ => by
      have := clearWD_fields _ _ (h1 y)
      exact ⟨this.1, this.2.1, this.2.2.1⟩) hrc) hnr
  have h2 : ∀ y, (t2.heap y).clearWD = (t.heap y).clearWD := fun y => (p2 y).trans (h1 y)
  obtain ⟨m, rfl⟩ : ∃ m, n = m + 1 := ⟨n - 1, by omega⟩
  have hb3 : buildtraverse (m + 1) t2 (t2.heap r).Sib = some t2 := by
    rw [(clearWD_fields _ _ (h2 r)).2.2.1, hSib]; simp [buildtraverse]
  have hroot2 : t2.Root = some r := by rw [q2]; simp [ht1, ht0, hroot]
  have hb : buildtraverse (m + 1 + 1) t0 (some r) = some (buildFinishRoot t2 r) :=
    buildtraverse_root (m + 1) t0 t2 t2 r (by simpa [ht0, hChild] using hb2) hb3
      hroot2.symm
  have hl1 : leavesF t1.heap c = leavesF t.heap c :=
    leavesF_congr t.heap t1.heap c (fun y _ => (clearWD_fields _ _ (h1 y)).2.2.2)
  have hi1 : internalsF t1.heap c = internalsF t.heap c :=
    internalsF_congr t.heap t1.heap c (fun y _ => (clearWD_fields _ _ (h1 y)).2.2.2)
  have hlx : (t2.heap r).Leaf = (t.heap r).Leaf := (clearWD_fields _ _ (h2 r)).2.2.2
  refine ⟨buildFinishRoot t2 r, by simpa [Update, hroot, ht0] using hb,
    fun y => (buildFinishRoot_clearWD t2 r y).trans (h2 y), ?_, ?_, ?_⟩
  · by_cases hl : (t2.heap r).Leaf = true
    · simp only [buildFinishRoot, hl, if_true]; exact hroot2
    · simp only [buildFinishRoot, hl]; exact hroot2
  · by_cases hl : (t.heap r).Leaf = true
    · have hl2 : (t2.heap r).Leaf = true := by rw [hlx]; exact hl
      simp only [buildFinishRoot, hl2, if_true]
      rw [q2]
      simp [ht1, ht0, leavesF, hl, hl1]
      ring
    · have hl2 : ¬ (t2.heap r).Leaf = true := by rw [hlx]; exact hl
      simp only [buildFinishRoot, hl2]
      rw [q2]
      simp [ht1, ht0, leavesF, hl, hl1]
  · by_cases hl : (t.heap r).Leaf = true
    · have hl2 : (t2.heap r).Leaf = true := by rw [hlx]; exact hl
      simp only [buildFinishRoot, hl2, if_true]
      rw [q2]
      simp [ht1, ht0, internalsF, hl, hi1]
    · have hl2 : ¬ (t2.heap r).Leaf = true := by rw [hlx]; exact hl
      simp only [buildFinishRoot, hl2]
      rw [q2]
      simp [ht1, ht0, internalsF, hl, hi1]
      ring

/-- The index that `MakeNodeList` builds for a tree whose leaves are numbered 1 to
`n`, also when a node flagged as a leaf has children. -/
theorem MakeNodeList_counts (t : Tree) (ix : NodeIndex) (r : Nat) (c : BT) (n fuel : Nat)
    (hroot : t.Root = some r) (hrep : Rep t.heap none (BT.node r c BT.nil))
    (hnd : (BT.node r c BT.nil).addrs.Nodup)
    (hnum : (leafNums t.heap (BT.node r c BT.nil)).Perm (numbering n))
    (hf : (BT.node r c BT.nil).size < fuel) :
    ∃ t2 ix2, MakeNodeList fuel (t, ix) = some (t2, ix2) ∧ t2.Root = some r ∧
      Rep t2.heap none (BT.node r c BT.nil) ∧
      ix2.size = t2.Leaves + t2.Internals ∧
      t2.Leaves = leavesF t.heap (BT.node r c BT.nil) ∧
      t2.Internals = internalsF t.heap (BT.node r c BT.nil) ∧
      (∀ y, ((t2.heap y).clearIndex).clearWD = ((t.heap y).clearIndex).clearWD) ∧
      (∀ x ∈ (BT.node r c BT.nil).addrs, (t2.heap x).Leaf = true →
        (t2.heap x).Index = (t2.heap x).LeafNumber - 1 ∧ 0 ≤ (t2.heap x).Index ∧
        (t2.heap x).Index < t2.Leaves) ∧
      (∀ x ∈ (BT.node r c BT.nil).addrs, (t2.heap x).Leaf = false →
        t2.Leaves ≤ (t2.heap x).Index ∧ (t2.heap x).Index < t2.Leaves + t2.Internals) ∧
      (∀ x ∈ (BT.node r c BT.nil).addrs, ix2.slot (t2.heap x).Index = some x) ∧
      (∀ i, 0 ≤ i → i < ix2.size →
        ∃ x ∈ (BT.node r c BT.nil).addrs, (t2.heap x).Index = i) := by
  obtain ⟨t1, hU, hclr, hroot1, hL, hI⟩ := Update_counts t r c fuel hroot hrep hnd hf
  have hrep1 : Rep t1.heap none (BT.node r c BT.nil) :=
    Rep_congr t.heap t1.heap _ none (fun y _ => by
      have := clearWD_fields _ _ (hclr y)
      exact ⟨this.1, this.2.1, this.2.2.1⟩) hrep
  have hfld : ∀ y, (t1.heap y).Leaf = (t.heap y).Leaf ∧
      (t1.heap y).LeafNumber = (t.heap y).LeafNumber := fun y =>
    ⟨(clearWD_fields _ _ (hclr y)).2.2.2, by
      have h := congrArg Node.LeafNumber (hclr y)
      exact h⟩
  have hnums1 : leafNums t1.heap (BT.node r c BT.nil) = leafNums t.heap (BT.node r c BT.nil) :=
    leafNums_congr _ _ _ (fun y _ => hfld y)
  have hLn : t1.Leaves = (n : Int) := by
    rw [hL, leavesF_length, hnum.length_eq]; simp [numbering]
  have hI0 : 0 ≤ t1.Internals := by rw [hI]; exact internalsF_nonneg _ _
  have hleafb : ∀ x ∈ (BT.node r c BT.nil).addrs, (t1.heap x).Leaf = true →
      1 ≤ (t1.heap x).LeafNumber ∧ (t1.heap x).LeafNumber ≤ t1.Leaves := by
    intro x hx hl
    have hm := leafNums_mem t1.heap _ x hx hl
    rw [hnums1] at hm
    have := (numbering_mem n _).1 (hnum.mem_iff.1 hm)
    rw [hLn]; exact this
  have hsize : ({ ix with Nodes := some (List.replicate (t1.Leaves + t1.Internals).toNat
      (none : Option Nat)) } : NodeIndex).size = t1.Leaves + t1.Internals := by
    simp only [NodeIndex.size, List.length_replicate]
    omega
  have hlF : leavesF t1.heap (BT.node r c BT.nil) = leavesF t.heap (BT.node r c BT.nil) :=
    leavesF_congr _ _ _ (fun y _ => (hfld y).1)
  have hiF : internalsF t1.heap (BT.node r c BT.nil) =
      internalsF t.heap (BT.node r c BT.nil) :=
    internalsF_congr _ _ _ (fun y _ => (hfld y).1)
  obtain ⟨H, ix2, e, z, k, o, l, rr, j, u, g⟩ := makeNodeList_chain (BT.node r c BT.nil) fuel
    { t1 with count := t1.Leaves }
    { ix with Nodes := some (List.replicate (t1.Leaves + t1.Internals).toNat none) } none
    hrep1 hnd hf hleafb (by rw [hLn]; omega) (le_refl _)
    (by rw [hsize]; show t1.Leaves + internalsF t1.heap _ ≤ _; rw [hiF, hI]) hsize hI0
  have k : ∀ y, (H y).clearIndex = (t1.heap y).clearIndex := k
  have hHl : ∀ y, (H y).Leaf = (t1.heap y).Leaf :=
    fun y => (clearIndex_fields _ _ (k y)).2.2.2.1
  have hHn : ∀ y, (H y).LeafNumber = (t1.heap y).LeafNumber :=
    fun y => (clearIndex_fields _ _ (k y)).2.2.2.2
  have hleafI : ∀ x ∈ (BT.node r c BT.nil).addrs, (H x).Leaf = true →
      (H x).Index = (H x).LeafNumber - 1 ∧ 0 ≤ (H x).Index ∧ (H x).Index < t1.Leaves := by
    intro x hx hl
    have h1 := l x hx hl
    have := hleafb x hx ((hHl x).symm.trans hl)
    rw [← hHn x] at this
    refine ⟨h1, ?_, ?_⟩ <;> omega
  have hinnI : ∀ x ∈ (BT.node r c BT.nil).addrs, (H x).Leaf = false →
      t1.Leaves ≤ (H x).Index ∧ (H x).Index < t1.Leaves + t1.Internals := by
    intro x hx hl
    have := rr x hx hl
    rw [hI, ← hiF]
    exact this
  have hnodup : (leafNums t1.heap (BT.node r c BT.nil)).Nodup := by
    rw [hnums1]; exact hnum.nodup_iff.2 (numbering_nodup n)
  have hinj : ∀ x ∈ (BT.node r c BT.nil).addrs, ∀ y ∈ (BT.node r c BT.nil).addrs,
      (H y).Index = (H x).Index → y = x := by
    intro x hx y hy hxy
    cases hlx : (H x).Leaf <;> cases hly : (H y).Leaf
    · exact j y hy x hx hly hlx hxy
    · have := hleafI y hy hly; have := hinnI x hx hlx; omega
    · have := hleafI x hx hlx; have := hinnI y hy hly; omega
    · have h1 := (hleafI x hx hlx).1
      have h2 := (hleafI y hy hly).1
      have hnn : (t1.heap y).LeafNumber = (t1.heap x).LeafNumber := by
        rw [← hHn x, ← hHn y]; omega
      unfold leafNums at hnodup
      exact List.inj_on_of_nodup_map hnodup
        (List.mem_filter.2 ⟨hy, by simpa using (hHl y).symm.trans hly⟩)
        (List.mem_filter.2 ⟨hx, by simpa using (hHl x).symm.trans hlx⟩) hnn
  refine ⟨{ t1 with heap := H, count := t1.Leaves + internalsF t1.heap (BT.node r c BT.nil) },
    ix2, ?_, hroot1, ?_, ?_, hL, hI, ?_, hleafI, hinnI, ?_, ?_⟩
  · unfold MakeNodeList
    simp only [hU]
    rw [if_neg (by omega)]
    have hp : (BT.node r c BT.nil).ptr = t1.Root := hroot1.symm
    rw [hp] at e
    exact e
  · refine Rep_congr t1.heap H _ none (fun y _ => ?_) hrep1
    have := clearIndex_fields _ _ (k y)
    exact ⟨this.1, this.2.1, this.2.2.1⟩
  · rw [z, hsize]
  · intro y
    show ((H y).clearIndex).clearWD = _
    rw [k y]
    show ((t1.heap y).clearWD).clearIndex = ((t.heap y).clearWD).clearIndex
    rw [hclr y]
  · intro x hx
    rw [g]
    exact slotsAfter_mem (fun y => (H y).Index) _ _ x ((post_mem _ x).2 hx)
      (fun y hy => hinj x hx y ((post_mem _ y).1 hy))
  · intro i hi0 hi1
    rw [z, hsize] at hi1
    by_cases hiL : i < t1.Leaves
    · have hm : i + 1 ∈ leafNums t1.heap (BT.node r c BT.nil) := by
        rw [hnums1]
        exact hnum.mem_iff.2 ((numbering_mem n _).2 (by omega))
      unfold leafNums at hm
      obtain ⟨x, hxf, hxn⟩ := List.mem_map.1 hm
      obtain ⟨hx, hxl⟩ := List.mem_filter.1 hxf
      have hl : (H x).Leaf = true := (hHl x).trans (by simpa using hxl)
      refine ⟨x, hx, ?_⟩
      rw [(hleafI x hx hl).1, hHn x, hxn]; omega
    · obtain ⟨x, hx, -, hxi⟩ := u i (by show t1.Leaves ≤ i; omega)
        (by show i < t1.Leaves + internalsF t1.heap _; rw [hiF, ← hI]; exact hi1)
      exact ⟨x, hx, hxi⟩

/-- A list of `n` different numbers from 1 to `n` is a rearrangement of 1, ..., `n`. -/
theorem perm_numbering (L : List Int) (n : Nat) (hnd : L.Nodup)
    (hr : ∀ k ∈ L, 1 ≤ k ∧ k ≤ n) (hlen : L.length = n) : L.Perm (numbering n) := by
  have hsub : L ⊆ numbering n := fun k hk => (numbering_mem n k).2 (hr k hk)
  have hsp : L.Subperm (numbering n) := List.subperm_of_subset hnd hsub
  exact hsp.perm_of_length_le (by rw [hlen]; simp [numbering])

/-- The leaf numbers of the tree of an accepted state are 1, ..., `Leaves` in some
order. -/
theorem accepted_leafNums (b : Nat) (s : PState) (c : BT) (hb : Built b s)
    (hrep : Rep s.tree.heap none (BT.node b c BT.nil))
    (hnd : (BT.node b c BT.nil).addrs.Nodup)
    (hL : s.tree.Leaves = leavesF s.tree.heap (BT.node b c BT.nil)) :
    (leafNums s.tree.heap (BT.node b c BT.nil)).Perm
      (numbering (leafNums s.tree.heap (BT.node b c BT.nil)).length) := by
  obtain ⟨b1, -, b3, -, b5, b6⟩ := hb
  have hrange := Rep_range s.tree.heap b s.tree.next b3 _ none hrep
    (fun x hx => by
      simp only [BT.ptr, Option.some.injEq] at hx
      subst hx
      exact ⟨le_refl _, lt_of_le_of_lt b1.1 b1.2⟩)
  rw [leavesF_length] at hL
  refine perm_numbering _ _ ?_ ?_ rfl
  · unfold leafNums
    refine List.Nodup.map_on ?_ (hnd.filter _)
    intro x hx y hy hxy
    obtain ⟨hx1, hx2⟩ := List.mem_filter.1 hx
    obtain ⟨hy1, hy2⟩ := List.mem_filter.1 hy
    exact b6 x y (hrange x hx1).1 (hrange x hx1).2 (hrange y hy1).1 (hrange y hy1).2
      (by simpa using hx2) (by simpa using hy2) hxy
  · intro k hk
    unfold leafNums at hk
    obtain ⟨x, hxf, rfl⟩ := List.mem_map.1 hk
    obtain ⟨hx1, hx2⟩ := List.mem_filter.1 hxf
    have := b5 x (hrange x hx1).1 (hrange x hx1).2 (by simpa using hx2)
    rw [hL] at this
    exact this

/-- The index of a freshly parsed tree, for every description that `Tree::Parse`
accepts. -/
theorem parse_index_core (cap : Int) (fuel : Nat) (t : Tree) (ix : NodeIndex)
    (descr : List Token) (hacc : Accepts cap fuel t descr) :
    ∃ N, ∀ fuel1, N ≤ fuel1 → ∃ t1 r c t2 ix2, Parse cap fuel1 t descr = some (0, t1) ∧
      MakeNodeList fuel1 (t1, ix) = some (t2, ix2) ∧
      t1.Root = some r ∧ Rep t1.heap none (BT.node r c BT.nil) ∧
      (BT.node r c BT.nil).addrs.Nodup ∧
      t2.Root = some r ∧ Rep t2.heap none (BT.node r c BT.nil) ∧
      t2.Leaves = t1.Leaves ∧
      t2.Leaves = leavesF t2.heap (BT.node r c BT.nil) ∧
      t2.Internals = internalsF t2.heap (BT.node r c BT.nil) ∧
      ix2.size = t2.Leaves + t2.Internals ∧
      (∀ x ∈ (BT.node r c BT.nil).addrs, (t2.heap x).Leaf = true →
        (t2.heap x).Index = (t2.heap x).LeafNumber - 1 ∧ 0 ≤ (t2.heap x).Index ∧
        (t2.heap x).Index < t2.Leaves) ∧
      (∀ x ∈ (BT.node r c BT.nil).addrs, (t2.heap x).Leaf = false →
        t2.Leaves ≤ (t2.heap x).Index ∧ (t2.heap x).Index < t2.Leaves + t2.Internals) ∧
      (∀ i, 0 ≤ i → i < t2.Leaves + t2.Internals →
        ∃ x ∈ (BT.node r c BT.nil).addrs, (t2.heap x).Index = i) ∧
      (∀ x ∈ (BT.node r c BT.nil).addrs, ∀ y ∈ (BT.node r c BT.nil).addrs,
        (t2.heap x).Index = (t2.heap y).Index → x = y) ∧
      (∀ x ∈ (BT.node r c BT.nil).addrs, ix2.slot (t2.heap x).Index = some x) := by
  obtain ⟨sf, c, hreach, hsf, hroot, hrep, hnd, hLF, N, hN⟩ :=
    parse_accepted_state cap fuel t descr hacc
  refine ⟨N, fun fuel1 hf => ?_⟩
  obtain ⟨t1, hp, hfr, hr1, hL1, hsz⟩ := hN fuel1 hf
  have hrep1 : Rep t1.heap none (BT.node t.next c BT.nil) :=
    Rep_congr sf.tree.heap t1.heap _ none (fun y _ => by
      have := clearPL_fields _ _ (hfr y)
      exact ⟨this.1, this.2.1, this.2.2.1⟩) hrep
  have hb := built_reach cap t.next _ sf hreach (built_parseInit t descr)
  have hperm := accepted_leafNums t.next sf c hb hrep hnd hLF
  have hnums : leafNums t1.heap (BT.node t.next c BT.nil) =
      leafNums sf.tree.heap (BT.node t.next c BT.nil) :=
    leafNums_congr _ _ _ (fun y _ => by
      have := clearPL_fields _ _ (hfr y)
      exact ⟨this.2.2.2.1, this.2.2.2.2.1⟩)
  obtain ⟨t2, ix2, hM, m1, m2, m3, m4, m5, m6, m7, m8, m9, m10⟩ :=
    MakeNodeList_counts t1 ix t.next c _ fuel1 hr1 hrep1 hnd (by rw [hnums]; exact hperm) hsz
  have hleaf2 : ∀ y, (t2.heap y).Leaf = (t1.heap y).Leaf := fun y => by
    have h := congrArg Node.Leaf (m6 y)
    exact h
  have hlf1 : leavesF t1.heap (BT.node t.next c BT.nil) =
      leavesF sf.tree.heap (BT.node t.next c BT.nil) :=
    leavesF_congr _ _ _ (fun y _ => (clearPL_fields _ _ (hfr y)).2.2.2.1)
  refine ⟨t1, t.next, c, t2, ix2, hp, hM, hr1, hrep1, hnd, m1, m2, ?_, ?_, ?_, m3, m7, m8,
    fun i hi0 hi1 => m10 i hi0 (by rw [m3]; exact hi1), fun x hx y hy hxy => ?_, m9⟩
  · rw [m4, hlf1, ← hLF, hL1]
  · rw [m4]
    exact (leavesF_congr _ _ _ (fun y _ => hleaf2 y)).symm
  · rw [m5]
    exact (internalsF_congr _ _ _ (fun y _ => hleaf2 y)).symm
  · have ex := m9 x hx
    rw [hxy, m9 y hy] at ex
    exact (Option.some.inj ex).symm

/-- C10 (amended): for every description that `Tree::Parse` accepts, `Parse` returns 0
(for all fuel from some bound on) and the tree under `Root` has consistent ancestor
pointers: the root `r` has no ancestor and no sibling, the `Anc` pointer of every other
node is the node in whose child chain it sits, and no node occurs twice. If moreover
no pass of the loop read an opening parenthesis while `CurNode` was flagged as a leaf,
every node flagged as a leaf has no child and degree 0. -/
theorem Parse_node_invariant (cap : Int) (fuel : Nat) (t : Tree) (descr : List Token)
    (hacc : Accepts cap fuel t descr) :
    ∃ N, ∀ fuel1, N ≤ fuel1 → ∃ t1 r c, Parse cap fuel1 t descr = some (0, t1) ∧
      t1.Root = some r ∧ Rep t1.heap none (BT.node r c BT.nil) ∧
      (BT.node r c BT.nil).addrs.Nodup ∧
      ((∀ s, Reach cap (parseInit t descr) s → ¬ OpensLeaf s) →
        LeavesBare t1.heap (BT.node r c BT.nil)) :=
  parse_node_invariant cap fuel t descr hacc

/-- C10 (amended), on the description `(A, B:2);`, which is accepted and in which no
leaf is given a child. -/
theorem Parse_node_invariant_witness :
    Accepts 30 40 {} descrSpaced ∧
    (∀ s, Reach 30 (parseInit {} descrSpaced) s → ¬ OpensLeaf s) ∧
    ∃ N, ∀ fuel1, N ≤ fuel1 → ∃ t1 r c, Parse 30 fuel1 {} descrSpaced = some (0, t1) ∧
      t1.Root = some r ∧ Rep t1.heap none (BT.node r c BT.nil) ∧
      (BT.node r c BT.nil).addrs.Nodup ∧
      ((∀ s, Reach 30 (parseInit {} descrSpaced) s → ¬ OpensLeaf s) →
        LeavesBare t1.heap (BT.node r c BT.nil)) :=
  ⟨by unfold Accepts; decide!, noOpenLeaf_of_check 30 40 20 _ (by decide!),
    Parse_node_invariant 30 40 {} descrSpaced (by unfold Accepts; decide!)⟩

/-- C21: for every description that `Tree::Parse` accepts, `MakeNodeList` on the
parsed tree returns and keeps the tree under `Root` and the number of leaves;
`Leaves` and `Internals` then count the nodes of the tree that are flagged as leaves
and that are not, the array `Nodes` has `Leaves + Internals` slots, every leaf has
`Index = LeafNumber - 1` (a slot below `Leaves`), every internal node has an `Index`
from `Leaves` to `Leaves + Internals - 1`, every slot of the array is the `Index` of a
node of the tree (no gaps), no two nodes have the same `Index`, and the slot `Index`
of every node holds that node. -/
theorem Parse_MakeNodeList_index (cap : Int) (fuel : Nat) (t : Tree) (ix : NodeIndex)
    (descr : List Token) (hacc : Accepts cap fuel t descr) :
    ∃ N, ∀ fuel1, N ≤ fuel1 → ∃ t1 r c t2 ix2, Parse cap fuel1 t descr = some (0, t1) ∧
      MakeNodeList fuel1 (t1, ix) = some (t2, ix2) ∧
      t1.Root = some r ∧ Rep t1.heap none (BT.node r c BT.nil) ∧
      (BT.node r c BT.nil).addrs.Nodup ∧
      t2.Root = some r ∧ Rep t2.heap none (BT.node r c BT.nil) ∧
      t2.Leaves = t1.Leaves ∧
      t2.Leaves = leavesF t2.heap (BT.node r c BT.nil) ∧
      t2.Internals = internalsF t2.heap (BT.node r c BT.nil) ∧
      ix2.size = t2.Leaves + t2.Internals ∧
      (∀ x ∈ (BT.node r c BT.nil).addrs, (t2.heap x).Leaf = true →
        (t2.heap x).Index = (t2.heap x).LeafNumber - 1 ∧ 0 ≤ (t2.heap x).Index ∧
        (t2.heap x).Index < t2.Leaves) ∧
      (∀ x ∈ (BT.node r c BT.nil).addrs, (t2.heap x).Leaf = false →
        t2.Leaves ≤ (t2.heap x).Index ∧ (t2.heap x).Index < t2.Leaves + t2.Internals) ∧
      (∀ i, 0 ≤ i → i < t2.Leaves + t2.Internals →
        ∃ x ∈ (BT.node r c BT.nil).addrs, (t2.heap x).Index = i) ∧
      (∀ x ∈ (BT.node r c BT.nil).addrs, ∀ y ∈ (BT.node r c BT.nil).addrs,
        (t2.heap x).Index = (t2.heap y).Index → x = y) ∧
      (∀ x ∈ (BT.node r c BT.nil).addrs, ix2.slot (t2.heap x).Index = some x) :=
  parse_index_core cap fuel t ix descr hacc

/-- C21, on the description `(A, B:2);`. -/
theorem Parse_MakeNodeList_index_witness :
    Accepts 30 40 {} descrSpaced ∧
    ∃ N, ∀ fuel1, N ≤ fuel1 → ∃ t1 r c t2 ix2, Parse 30 fuel1 {} descrSpaced = some (0, t1) ∧
      MakeNodeList fuel1 (t1, {}) = some (t2, ix2) ∧
      t1.Root = some r ∧ Rep t1.heap none (BT.node r c BT.nil) ∧
      (BT.node r c BT.nil).addrs.Nodup ∧
      t2.Root = some r ∧ Rep t2.heap none (BT.node r c BT.nil) ∧
      t2.Leaves = t1.Leaves ∧
      t2.Leaves = leavesF t2.heap (BT.node r c BT.nil) ∧
      t2.Internals = internalsF t2.heap (BT.node r c BT.nil) ∧
      ix2.size = t2.Leaves + t2.Internals ∧
      (∀ x ∈ (BT.node r c BT.nil).addrs, (t2.heap x).Leaf = true →
        (t2.heap x).Index = (t2.heap x).LeafNumber - 1 ∧ 0 ≤ (t2.heap x).Index ∧
        (t2.heap x).Index < t2.Leaves) ∧
      (∀ x ∈ (BT.node r c BT.nil).addrs, (t2.heap x).Leaf = false →
        t2.Leaves ≤ (t2.heap x).Index ∧ (t2.heap x).Index < t2.Leaves + t2.Internals) ∧
      (∀ i, 0 ≤ i → i < t2.Leaves + t2.Internals →
        ∃ x ∈ (BT.node r c BT.nil).addrs, (t2.heap x).Index = i) ∧
      (∀ x ∈ (BT.node r c BT.nil).addrs, ∀ y ∈ (BT.node r c BT.nil).addrs,
        (t2.heap x).Index = (t2.heap y).Index → x = y) ∧
      (∀ x ∈ (BT.node r c BT.nil).addrs, ix2.slot (t2.heap x).Index = some x) :=
  ⟨by unfold Accepts; decide!,
    Parse_MakeNodeList_index 30 40 {} {} descrSpaced (by unfold Accepts; decide!)⟩

/-- The index built for two descriptions outside the grammar. For `(A, B:2);` the
leaves `A` and `B` (addresses 1 and 2) sit in the slots 0 and 1 and the root in slot 2.
For `A:1(B);`, where the leaf `A` is the root and has the leaf `B` as child, `Update`
counts two leaves and no internal node, and `A` and `B` sit in the slots 0 and 1. -/
theorem MakeNodeList_outside_grammar :
    ((Parse 30 40 {} descrSpaced).bind fun p => MakeNodeList 10 (p.2, {})).map
      (fun q => (q.1.Leaves, q.1.Internals, q.2.Nodes)) =
      some (2, 1, some [some 1, some 2, some 0]) ∧
    ((Parse 30 40 {} descrSpaced).bind fun p => MakeNodeList 10 (p.2, {})).map
      (fun q => ((q.1.heap 0).Index, (q.1.heap 1).Index, (q.1.heap 2).Index)) =
      some (2, 0, 1) ∧
    ((Parse 30 40 {} descrLeafChild).bind fun p => MakeNodeList 10 (p.2, {})).map
      (fun q => (q.1.Leaves, q.1.Internals, q.2.Nodes)) =
      some (2, 0, some [some 0, some 1]) ∧
    ((Parse 30 40 {} descrLeafChild).bind fun p => MakeNodeList 10 (p.2, {})).map
      (fun q => ((q.1.heap 0).Index, (q.1.heap 1).Index)) = some (0, 1) := by
  refine ⟨?_, ?_, ?_, ?_⟩ <;> decide!

end TreeLib
